import Mathlib

/-!
# biopy `treesset.cc`: NEWICK parser, compact tree encoder, expander and emitter

A shallow embedding of the C++ source `src/biopy/treesset.cc` (the build with
`PYINTERFACE` undefined, as the source itself fixes with `#undef PYINTERFACE`).

Conventions of the embedding.

* A C string is the list of its bytes before the terminating NUL (`Str`); a pointer into
  it is the remaining suffix, so `*txt == 0` is `txt = []`.
* `double` values are exact rationals.  On cladograms every value the code computes is a
  small integer, which a `double` holds exactly.
* Where the C++ code reads past the terminating NUL, or lets a C++ exception escape, the
  outcome is `undefined`; a failed `assert` is `assertFailed`.
* Loops which the source does not bound are given fuel; running out of fuel is the
  outcome `timeout` and is never confused with a returned value.
-/

namespace Biopy

/-- A C string: the bytes before the terminating NUL. -/
abbrev Str := List Char

deriving instance DecidableEq for Except

/-- The apostrophe, byte 39. -/
def squote : Char := Char.ofNat 39
/-- The double quote, byte 34. -/
def dquote : Char := Char.ofNat 34
/-- The backslash, byte 92. -/
def backslash : Char := Char.ofNat 92
/-- The opening brace, byte 123. -/
def lbrace : Char := Char.ofNat 123
/-- The closing brace, byte 125. -/
def rbrace : Char := Char.ofNat 125

/-- The function `isspace` of the C locale: space, `\t`, `\n`, `\v`, `\f`, `\r`. -/
def isspace (c : Char) : Bool :=
  c == ' ' || c == Char.ofNat 9 || c == Char.ofNat 10 || c == Char.ofNat 11
    || c == Char.ofNat 12 || c == Char.ofNat 13

/-- Source `has(ch, any)`: does `ch` occur in the C string `any`. -/
def has (ch : Char) (any : Str) : Bool :=
  any.any (fun a => a == ch)

/-- Source `_getStuff(s, sep)`: index of the first `sep` not preceded by a backslash, or
`none` for the returned `-1`.  `prev` is the byte `s[-1]` the loop looks at when `e = 0`;
at every call site it is the opening delimiter. -/
def getStuff (sep : Char) : Char → Str → Option Nat
  | _, [] => none
  | prev, c :: cs =>
    if c != sep || prev == backslash then (getStuff sep c cs).map (fun e => e + 1)
    else some 0

/-- Result of `findIndex`. -/
inductive FindResult where
  | found (k : Nat)
  | missing
  | undefined
deriving DecidableEq, Repr

/-- The loop of `findIndex` with `k = s - s0`, entered on a byte that exists. -/
def findIndexFrom (ch : Char) (stopAt : Str) : Str → Nat → Option Nat
  | [], _ => none
  | c :: cs, k =>
    if c == ch then some k
    else if has c stopAt then some k
    else match cs with
      | [] => none
      | _ :: _ => findIndexFrom ch stopAt cs (k + 1)

/-- Source `findIndex(s, ch, stopAt)`: index of the first `ch` or of the first byte of
`stopAt`, `missing` for `-1`.  Called on the empty string the loop steps over the
terminating NUL before it tests for it: `undefined`. -/
def findIndex (s : Str) (ch : Char) (stopAt : Str) : FindResult :=
  match s with
  | [] => FindResult.undefined
  | _ :: _ =>
    match findIndexFrom ch stopAt s 0 with
    | some k => FindResult.found k
    | none => FindResult.missing

/-- Source `skipSpaces(txt)`: number of leading white-space bytes. -/
def skipSpaces : Str → Nat
  | [] => 0
  | c :: cs => if isspace c then skipSpaces cs + 1 else 0

/-- Source `trimString(s)` (the `std::string` variant).  On a non-empty string of
white space only the source builds `string(txt + n0, n1 + 1 - n0)` with a negative count,
which throws: `none`. -/
def trimString (s : Str) : Option Str :=
  let n0 := skipSpaces s
  let n1 := s.length - skipSpaces s.reverse
  if n1 < n0 then none else some ((s.drop n0).take (n1 - n0))

/-- Source `Attributes`: a list of (name, value) pairs. -/
abbrev Attributes := List (Str × Str)

/-- Source `ParsedTreeNode`. -/
structure ParsedTreeNode where
  taxon : Str
  branch : Option ℚ
  sons : List Nat
  attributes : Option Attributes
deriving DecidableEq, Repr

/-- Result of `parseAttributes`: the returned count and the pairs pushed. -/
inductive AttrResult where
  | ok (eat : Nat) (vals : Attributes)
  | fail
  | undefined
  | timeout
deriving DecidableEq, Repr

/-- Result of reading one attribute value: the value and the bytes it takes. -/
inductive ValueResult where
  | ok (eat : Nat) (v : Str)
  | fail
  | undefined
deriving DecidableEq, Repr

/-- The value part of one attribute in `parseAttributes`: quoted, braced or bare. -/
def attrValue (s : Str) : ValueResult :=
  if s.head? = some dquote then
    match getStuff dquote dquote (s.drop 1) with
    | none => ValueResult.fail
    | some e => ValueResult.ok (e + 2) ((s.drop 1).take e)
  else if s.head? = some lbrace then
    match getStuff rbrace lbrace (s.drop 1) with
    | none => ValueResult.fail
    | some e => ValueResult.ok (e + 2) ((s.drop 1).take e)
  else
    match findIndex s ',' [']'] with
    | FindResult.undefined => ValueResult.undefined
    | FindResult.missing => ValueResult.fail
    | FindResult.found e => ValueResult.ok e (s.take e)

/-- The `while( *s != ']' )` loop of `parseAttributes`.  When `findIndex` returns `-1`
the source tests `s[-1]`, the byte before `s`, which is `&`, a comma, a double quote or a
closing brace and never `=`, so it returns `-1`.  A `trimString` that throws is
`undefined`. -/
def parseAttributesLoop : Nat → Str → Nat → Attributes → AttrResult
  | 0, _, _, _ => AttrResult.timeout
  | fuel + 1, s, eat, vals =>
    if s.head? = some ']' then AttrResult.ok eat vals
    else
      let skip := if s.head? = some ',' then 1 else 0
      let s1 := s.drop skip
      match findIndex s1 '=' [',', ']', dquote, lbrace, rbrace] with
      | FindResult.undefined => AttrResult.undefined
      | FindResult.missing => AttrResult.fail
      | FindResult.found nameEnd =>
        if (s1.drop nameEnd).head? = some '=' then
          match attrValue (s1.drop (nameEnd + 1)) with
          | ValueResult.ok n v =>
            match trimString (s1.take nameEnd), trimString v with
            | some tn, some tv =>
              parseAttributesLoop fuel (s1.drop (nameEnd + 1 + n))
                (eat + skip + (nameEnd + 1) + n) (vals ++ [(tn, tv)])
            | _, _ => AttrResult.undefined
          | ValueResult.fail => AttrResult.fail
          | ValueResult.undefined => AttrResult.undefined
        else AttrResult.fail

/-- Source `parseAttributes(s, vals)` with `vals` empty on entry.  Every turn of the loop
takes at least one byte, so `s.length + 1` turns are enough. -/
def parseAttributes (s : Str) : AttrResult :=
  parseAttributesLoop (s.length + 1) s 0 []

/-- Result of `readSubTree`: the returned count (`fail` is the returned `-1`) and the
vector `nodes` as the call leaves it. -/
inductive ParseResult where
  | ok (eat : Nat) (nodes : List ParsedTreeNode)
  | fail (nodes : List ParsedTreeNode)
  | undefined
  | timeout
deriving DecidableEq, Repr

/-- State of `readSubTree` after its first part (lines 322-388): the text left, the count
eaten, the vector, and the taxon and sons of `nodeData`. -/
inductive HeadResult where
  | ok (txt : Str) (eat : Nat) (nodes : List ParsedTreeNode) (taxon : Str) (sons : List Nat)
  | fail (nodes : List ParsedTreeNode)
  | undefined
  | timeout
deriving DecidableEq, Repr

/-- The bytes that end the bare-word scan of `readSubTree` (line 371). -/
def endsBareword (c : Char) : Bool :=
  isspace c || c == ':' || c == '[' || c == ',' || c == '(' || c == ')' || c == ']'

/-- The bare-word scan `while( ! isspace(*s) && ... ) ++s`.  The terminating NUL is not
among the bytes that stop it, so at the end of the text it runs on: `none`. -/
def barewordLen : Str → Option Nat
  | [] => none
  | c :: cs => if endsBareword c then some 0 else (barewordLen cs).map (fun n => n + 1)

/-- The terminal branch of `readSubTree` (lines 360-388). -/
def readTerminal (txt : Str) (eat : Nat) (nodes : List ParsedTreeNode) : HeadResult :=
  match txt with
  | [] => HeadResult.undefined
  | c :: rest =>
    if c == squote || c == dquote then
      match getStuff c c rest with
      | none => HeadResult.fail nodes
      | some e => HeadResult.ok (txt.drop (e + 2)) (eat + (e + 2)) nodes (txt.take (e + 2)) []
    else
      match barewordLen txt with
      | none => HeadResult.undefined
      | some n => HeadResult.ok (txt.drop n) (eat + n) nodes (txt.take n) []

/-- The value `nodes.size()-1` stored in a `uint`. -/
def lastIndex (nodes : List ParsedTreeNode) : Nat :=
  if nodes.length = 0 then 4294967295 else nodes.length - 1

/-- The `while( true )` loop of `readSubTree` (lines 329-359); `rd` is the recursive call
and `txt` points at the `(` or `,` before the next subtree.  The result of `rd` is not
tested: on `-1` the loop adds `1 + n1 = 0` to `eat` and `txt` and goes on. -/
def sonsLoop (rd : Str → List ParsedTreeNode → ParseResult) :
    Nat → Str → Nat → List ParsedTreeNode → List Nat → HeadResult
  | 0, _, _, _, _ => HeadResult.timeout
  | k + 1, txt, eat, nodes, subs =>
    match rd (txt.drop 1) nodes with
    | ParseResult.timeout => HeadResult.timeout
    | ParseResult.undefined => HeadResult.undefined
    | ParseResult.ok n1 nodes1 =>
      let txt1 := txt.drop (1 + n1)
      let n := skipSpaces txt1
      let txt2 := txt1.drop n
      if txt2.head? = some ',' then
        sonsLoop rd k txt2 (eat + (1 + n1) + n) nodes1 (subs ++ [lastIndex nodes1])
      else if txt2.head? = some ')' then
        HeadResult.ok (txt2.drop 1) (eat + (1 + n1) + n + 1) nodes1 [] (subs ++ [lastIndex nodes1])
      else HeadResult.fail nodes1
    | ParseResult.fail nodes1 =>
      let n := skipSpaces txt
      let txt2 := txt.drop n
      if txt2.head? = some ',' then
        sonsLoop rd k txt2 (eat + n) nodes1 (subs ++ [lastIndex nodes1])
      else if txt2.head? = some ')' then
        HeadResult.ok (txt2.drop 1) (eat + n + 1) nodes1 [] (subs ++ [lastIndex nodes1])
      else HeadResult.fail nodes1

/-- Result of the loop over the text after a node (lines 396-452). -/
inductive SuffixResult where
  | ok (eat : Nat) (nodeTxt : Str) (attributes : Option Attributes)
  | fail
  | undefined
  | timeout
deriving DecidableEq, Repr

/-- The `while( *txt )` loop of `readSubTree` (lines 397-452).  Every `[&` block assigns
a new `Attributes` to `nodeData.attributes`. -/
def suffixLoop : Nat → Str → Nat → Str → Option Attributes → SuffixResult
  | 0, _, _, _, _ => SuffixResult.timeout
  | fuel + 1, txt, eat, nodeTxt, attrs =>
    match txt with
    | [] => SuffixResult.ok eat nodeTxt attrs
    | c :: rest =>
      if has c ['(', ')', ',', ';'] then SuffixResult.ok eat nodeTxt attrs
      else if c == '[' then
        if rest.head? = some '&' then
          match parseAttributes (rest.drop 1) with
          | AttrResult.ok n vs =>
            let n1 := n + 3 + skipSpaces (txt.drop (n + 3))
            suffixLoop fuel (txt.drop n1) (eat + n1) nodeTxt (some vs)
          | AttrResult.fail => SuffixResult.fail
          | AttrResult.undefined => SuffixResult.undefined
          | AttrResult.timeout => SuffixResult.timeout
        else
          match getStuff ']' '[' rest with
          | none => SuffixResult.fail
          | some e => suffixLoop fuel (txt.drop (e + 2)) (eat + (e + 2)) nodeTxt attrs
      else suffixLoop fuel rest (eat + 1) (nodeTxt ++ [c]) attrs

/-- Result of reading the label and branch length out of `nodeTxt`. -/
inductive LabelResult where
  | ok (taxon : Option Str) (branch : Option ℚ)
  | fail
  | undefined
deriving DecidableEq, Repr

/-- Lines 465-495 of `readSubTree`: a label before the colon replaces the taxon, and the
number after the colon is the branch length.  `strtod` gives the value read and the
number of bytes it took. -/
def labelAndBranch (strtod : Str → ℚ × Nat) (nodeTxt : Str) : LabelResult :=
  let nTxt := nodeTxt.drop (skipSpaces nodeTxt)
  match nTxt with
  | [] => LabelResult.ok none none
  | _ :: _ =>
    match findIndex nTxt ':' [] with
    | FindResult.undefined => LabelResult.undefined
    | FindResult.missing => LabelResult.ok (some nTxt) none
    | FindResult.found i =>
      let rest := (nTxt.drop i).drop 1
      let num := rest.drop (skipSpaces rest)
      if (strtod num).2 = 0 then LabelResult.fail
      else LabelResult.ok (if i = 0 then none else some (nTxt.take i)) (some (strtod num).1)

/-- The second half of `readSubTree` (lines 390-505), from the state its first part
leaves: the text after the node, the label and branch length, and the `push_back`. -/
def finishNode (strtod : Str → ℚ × Nat) : HeadResult → ParseResult
  | HeadResult.timeout => ParseResult.timeout
  | HeadResult.undefined => ParseResult.undefined
  | HeadResult.fail nodes1 => ParseResult.fail nodes1
  | HeadResult.ok txt1 eat1 nodes1 taxon sons =>
    match suffixLoop (txt1.length + 1) (txt1.drop (skipSpaces txt1))
        (eat1 + skipSpaces txt1) [] none with
    | SuffixResult.timeout => ParseResult.timeout
    | SuffixResult.undefined => ParseResult.undefined
    | SuffixResult.fail => ParseResult.fail nodes1
    | SuffixResult.ok eat2 nodeTxt attrs =>
      match labelAndBranch strtod nodeTxt with
      | LabelResult.undefined => ParseResult.undefined
      | LabelResult.fail => ParseResult.fail nodes1
      | LabelResult.ok tx br =>
        ParseResult.ok eat2 (nodes1 ++ [ParsedTreeNode.mk (tx.getD taxon) br sons attrs])

/-- Source `readSubTree(txt, nodes)`.  `fuel` bounds the depth of the recursion and the
turns of the loop over the sons. -/
def readSubTree (strtod : Str → ℚ × Nat) :
    Nat → Str → List ParsedTreeNode → ParseResult
  | 0, _, _ => ParseResult.timeout
  | fuel + 1, txt0, nodes =>
    if (txt0.drop (skipSpaces txt0)).head? = some '(' then
      finishNode strtod
        (sonsLoop (readSubTree strtod fuel) fuel (txt0.drop (skipSpaces txt0))
          (skipSpaces txt0) nodes [])
    else
      finishNode strtod (readTerminal (txt0.drop (skipSpaces txt0)) (skipSpaces txt0) nodes)

/-! ## Packers -/

/-- Source `lg2i`: the loop `while( v ) { r += 1; v >>= 1; }`. -/
def lg2iLoop : Nat → Nat → Nat → Nat
  | 0, _, r => r
  | fuel + 1, v, r => if v = 0 then r else lg2iLoop fuel (v / 2) (r + 1)

/-- Source `lg2i(v)` for `v ≥ 0`; the loop halves `v`, so `v` turns are enough. -/
def lg2i (v : Nat) : Nat :=
  lg2iLoop v (v / 2) 0

/-- Source `lowerNbits<unsigned char>(n)`: `(1 << n) - 1` stored in a byte. -/
def lowerNbits (n : Nat) : Nat :=
  ((1 <<< n) - 1) % 256

/-- Source `upperNbits<unsigned char>(n)`: `~lowerNbits(8 - n)` stored in a byte. -/
def upperNbits (n : Nat) : Nat :=
  (lowerNbits (8 - n)) ^^^ 255

/-- Source `FixedIntPacker`: the two bit-fields and the byte array `bits`. -/
structure FixedIntPacker where
  nBitsPerValue : Nat
  len : Nat
  bits : List Nat
deriving DecidableEq, Repr

/-- An abnormal end of a C++ computation. -/
inductive Abort where
  | assertFailed
  | undefined
  | timeout
deriving DecidableEq, Repr

/-- State of the packing loop (lines 600-614): the array, the index `cur - bits` and
`loc`. -/
structure PackState where
  bits : List Nat
  cur : Nat
  loc : Nat
deriving DecidableEq, Repr

/-- One turn of the packing loop for the value `v` (lines 604-613).  Stores into `*cur`
keep the low eight bits; a store outside the array is `undefined`. -/
def packStep (w : Nat) (st : PackState) (v : Nat) : Except Abort PackState :=
  let loc := st.loc + w
  if st.bits.length ≤ st.cur then Except.error Abort.undefined
  else if loc ≤ 8 then
    Except.ok (PackState.mk
      (st.bits.set st.cur ((st.bits.getD st.cur 0 ||| ((v <<< (8 - loc)) % 4294967296)) % 256))
      st.cur loc)
  else
    let loc1 := loc - 8
    let bits1 := st.bits.set st.cur ((st.bits.getD st.cur 0 ||| (v >>> loc1)) % 256)
    let cur1 := st.cur + 1
    if cur1 < bits1.length then
      let s := 8 - loc1
      let x := ((v <<< s) % 4294967296) &&& (((1 <<< s) - 1) ^^^ 4294967295)
      Except.ok (PackState.mk (bits1.set cur1 ((bits1.getD cur1 0 ||| x) % 256)) cur1 loc1)
    else Except.error Abort.assertFailed

/-- The packing loop over the values. -/
def packLoop (w : Nat) : PackState → List Nat → Except Abort PackState
  | st, [] => Except.ok st
  | st, v :: vs =>
    match packStep w st v with
    | Except.error e => Except.error e
    | Except.ok st1 => packLoop w st1 vs

/-- Source constructor `FixedIntPacker(nBitsPerValue, from, to)` on 32-bit values.  The
width is kept in an 8-bit field and must pass `assert( nBitsPerValue <= usize )` with
`usize = 8`; the length is kept in a 24-bit field, and a longer vector is written past
the `sbits` bytes allocated. -/
def FixedIntPacker.make (width : Nat) (vals : List Nat) : Except Abort FixedIntPacker :=
  let w := width % 256
  if 16777216 ≤ vals.length then Except.error Abort.undefined
  else if 8 < w then Except.error Abort.assertFailed
  else if w = 8 then
    Except.ok (FixedIntPacker.mk w vals.length (vals.map (fun v => v % 256)))
  else
    let sbits := (w * vals.length + 7) / 8
    match packLoop w (PackState.mk (List.replicate sbits 0) 0 0) vals with
    | Except.error e => Except.error e
    | Except.ok st => Except.ok (FixedIntPacker.mk w vals.length st.bits)

/-- The loop of `unpacked()` (lines 635-648): `k` values are still to be read, `cur` is
the index of the current byte and `loc` the number of its bits not yet read. -/
def unpackLoop (w : Nat) (bits : List Nat) : Nat → Nat → Nat → List Nat
  | 0, _, _ => []
  | k + 1, cur, loc =>
    if w ≤ loc then
      (((bits.getD cur 0) >>> (loc - w)) &&& lowerNbits w)
        :: unpackLoop w bits k cur (loc - w)
    else
      let upper := bits.getD cur 0 &&& lowerNbits loc
      let left := w - loc
      let lower := (bits.getD (cur + 1) 0 &&& upperNbits left) >>> (8 - left)
      (((upper <<< left) % 4294967296) ||| lower) :: unpackLoop w bits k (cur + 1) (8 - left)

/-- Source `FixedIntPacker::unpacked()`. -/
def FixedIntPacker.unpacked (p : FixedIntPacker) : List Nat :=
  if p.nBitsPerValue = 8 then p.bits.take p.len
  else unpackLoop p.nBitsPerValue p.bits p.len 0 8

/-- Source `Packer<uint>` with its two implementations. -/
inductive Packer where
  | simple (vals : List Nat)
  | fixed (p : FixedIntPacker)
deriving DecidableEq, Repr

/-- Source `Packer::unpacked()`. -/
def Packer.unpacked : Packer → List Nat
  | Packer.simple vals => vals
  | Packer.fixed p => p.unpacked

/-! ## The set of trees and the encoder -/

/-- Source `CladogramRep` / `PhylogramRep<T>`: the packed heights. -/
inductive Heights where
  | cladogram (pheights : Packer)
  | phylogram (pheights : List ℚ) (ptxheights : Option (List ℚ))
deriving DecidableEq, Repr

/-- Source `TreeRep` with the members of its subclass. -/
structure TreeRep where
  ptopo : Packer
  heights : Heights
  attributes : Option (List (Option Attributes))
deriving DecidableEq, Repr

/-- Source `TreeRep::isCladogram`. -/
def TreeRep.isCladogram (r : TreeRep) : Bool :=
  match r.heights with
  | Heights.cladogram _ => true
  | Heights.phylogram _ _ => false

/-- Source `TreeRep::topology`. -/
def TreeRep.topology (r : TreeRep) : List Nat :=
  r.ptopo.unpacked

/-- Source `TreesSet`.  The `unordered_map` `taxaDict` is the list of its entries, looked
up from the front; `treesAttributes` holds the keyword dictionary given to `add`. -/
structure TreesSet where
  compressed : Bool
  store : Bool
  precision : Nat
  asNodes : List (List ParsedTreeNode)
  trees : List TreeRep
  treesAttributes : List (Option Attributes)
  taxaList : List Str
  taxaDict : List (Str × Nat)
deriving DecidableEq, Repr

/-- Source constructor `TreesSet(isCompressed, precision, s)`. -/
def TreesSet.new (isCompressed : Bool) (precision : Nat) (s : Bool) : TreesSet :=
  TreesSet.mk isCompressed s precision [] [] [] [] []

/-- Source `TreesSet::getTaxon`. -/
def TreesSet.getTaxon (ts : TreesSet) (taxon : Str) : TreesSet × Nat :=
  match ts.taxaDict.lookup taxon with
  | none =>
    ({ ts with taxaList := ts.taxaList ++ [taxon],
               taxaDict := ts.taxaDict ++ [(taxon, ts.taxaList.length)] },
     ts.taxaList.length)
  | some i => (ts, i)

/-- What the first loop of `nodes2rep` (lines 1585-1598) computes. -/
structure ScanState where
  ts : TreesSet
  taxa : List Nat
  cladogram : Bool
  hasAttributes : Bool
  maxTaxaIndex : Nat
deriving DecidableEq, Repr

/-- One turn of the first loop of `nodes2rep`. -/
def scanNode (st : ScanState) (n : ParsedTreeNode) : ScanState :=
  let st1 :=
    if n.sons.length = 0 then
      let r := st.ts.getTaxon n.taxon
      { st with ts := r.1, maxTaxaIndex := max st.maxTaxaIndex r.2, taxa := st.taxa ++ [r.2] }
    else st
  { st1 with cladogram := if n.branch.isSome then false else st1.cladogram,
             hasAttributes := if n.attributes.isSome then true else st1.hasAttributes }

/-- Source `std::numeric_limits<double>::epsilon()`, which is 2^-52. -/
def epsilon : ℚ := 1 / 4503599627370496

/-- Source `areSame(a, b)`. -/
def areSame (a b : ℚ) : Bool :=
  decide (|a - b| < epsilon)

/-- State of the second loop of `nodes2rep` (lines 1612-1668): the nodes with their
`branch` fields as rewritten so far, `locs`, `iloc`, `heights` and `taxaHeights`. -/
structure EncState where
  nodes : List ParsedTreeNode
  locs : List Int
  iloc : Nat
  heights : List ℚ
  taxaHeights : Option (List ℚ)
deriving DecidableEq, Repr

/-- Add `dh` at the index `i` of a vector; an index outside it is `undefined`. -/
def addAt (v : List ℚ) (i : Int) (dh : ℚ) : Except Abort (List ℚ) :=
  if 0 ≤ i ∧ i.toNat < v.length then Except.ok (v.set i.toNat (v.getD i.toNat 0 + dh))
  else Except.error Abort.undefined

/-- The `while( ! hp.empty() )` loop of `nodes2rep` (lines 1639-1650); the head of `hp`
is the top of the stack. -/
def raiseLoop (nodes : List ParsedTreeNode) (locs : List Int) (dh : ℚ) :
    Nat → List Nat → List ℚ → List ℚ → Except Abort (List ℚ × List ℚ)
  | _, [], heights, taxaHeights => Except.ok (heights, taxaHeights)
  | 0, _ :: _, _, _ => Except.error Abort.timeout
  | fuel + 1, x :: hp, heights, taxaHeights =>
    match nodes.get? x, locs.get? x with
    | some nx, some lx =>
      if nx.sons.length = 0 then
        match addAt taxaHeights (lx + 1) dh with
        | Except.error e => Except.error e
        | Except.ok th => raiseLoop nodes locs dh fuel hp heights th
      else
        match addAt heights lx dh with
        | Except.error e => Except.error e
        | Except.ok hs => raiseLoop nodes locs dh fuel (nx.sons.reverse ++ hp) hs taxaHeights
    | _, _ => Except.error Abort.undefined

/-- The value `*nodes[s].branch`; a son outside the vector or without a branch is
`undefined`. -/
def branchOf (nodes : List ParsedTreeNode) (s : Nat) : Except Abort ℚ :=
  match nodes.get? s with
  | some n =>
    match n.branch with
    | some b => Except.ok b
    | none => Except.error Abort.undefined
  | none => Except.error Abort.undefined

/-- The loop of lines 1623-1627: `h = max(*nodes[*s].branch, h)` from `h = -1`. -/
def maxBranch (nodes : List ParsedTreeNode) : List Nat → ℚ → Except Abort ℚ
  | [], h => Except.ok h
  | s :: ss, h =>
    match branchOf nodes s with
    | Except.error e => Except.error e
    | Except.ok b => maxBranch nodes ss (max b h)

/-- The loop of lines 1629-1652 over the sons of a node of height `h`. -/
def raiseSons (fuel : Nat) (nTaxa : Nat) (nodes : List ParsedTreeNode) (locs : List Int)
    (h : ℚ) : List Nat → List ℚ → Option (List ℚ) → Except Abort (List ℚ × Option (List ℚ))
  | [], heights, taxaHeights => Except.ok (heights, taxaHeights)
  | s :: ss, heights, taxaHeights =>
    match branchOf nodes s with
    | Except.error e => Except.error e
    | Except.ok h1 =>
      if h - h1 > 0 ∧ areSame h h1 = false then
        match raiseLoop nodes locs (h - h1) fuel [s] heights
            (taxaHeights.getD (List.replicate nTaxa 0)) with
        | Except.error e => Except.error e
        | Except.ok r => raiseSons fuel nTaxa nodes locs h ss r.1 (some r.2)
      else raiseSons fuel nTaxa nodes locs h ss heights taxaHeights

/-- The loop of lines 1655-1658: `heights[locs[*s]+1] = h` for every son but the last. -/
def storeHeight (locs : List Int) (h : ℚ) : List Nat → List ℚ → Except Abort (List ℚ)
  | [], heights => Except.ok heights
  | [_], heights => Except.ok heights
  | s :: s2 :: ss, heights =>
    match locs.get? s with
    | none => Except.error Abort.undefined
    | some l =>
      if 0 ≤ l + 1 ∧ (l + 1).toNat < heights.length then
        storeHeight locs h (s2 :: ss) (heights.set (l + 1).toNat h)
      else Except.error Abort.assertFailed

/-- One turn of the second loop of `nodes2rep` for the node at index `idx`. -/
def encodeNode (fuel : Nat) (cladogram : Bool) (nTaxa : Nat) (st : EncState) (idx : Nat) :
    Except Abort EncState :=
  match st.nodes.get? idx with
  | none => Except.error Abort.undefined
  | some n =>
    if n.sons.length = 0 then
      if st.iloc < st.locs.length then
        Except.ok { st with
          nodes := st.nodes.set idx { n with branch := some (n.branch.getD 1) },
          locs := st.locs.set st.iloc (if st.iloc = 0 then -1 else st.locs.getD (st.iloc - 1) 0 + 1),
          iloc := st.iloc + 1 }
      else Except.error Abort.assertFailed
    else
      match maxBranch st.nodes n.sons (-1) with
      | Except.error e => Except.error e
      | Except.ok h =>
        match (if cladogram then Except.ok (st.heights, st.taxaHeights)
               else raiseSons fuel nTaxa st.nodes st.locs h n.sons st.heights st.taxaHeights) with
        | Except.error e => Except.error e
        | Except.ok r =>
          match storeHeight st.locs h n.sons r.1 with
          | Except.error e => Except.error e
          | Except.ok hs =>
            if 0 < st.iloc ∧ st.iloc < st.locs.length then
              Except.ok (EncState.mk
                (st.nodes.set idx { n with branch :=
                  match n.branch with
                  | some b => some (b + h)
                  | none => if idx + 1 = st.nodes.length then none else some (h + 1) })
                (st.locs.set st.iloc (st.locs.getD (st.iloc - 1) 0))
                (st.iloc + 1) hs r.2)
            else Except.error Abort.assertFailed

/-- The second loop of `nodes2rep` over the node indices. -/
def encodeLoop (fuel : Nat) (cladogram : Bool) (nTaxa : Nat) :
    List Nat → EncState → Except Abort EncState
  | [], st => Except.ok st
  | idx :: rest, st =>
    match encodeNode fuel cladogram nTaxa st idx with
    | Except.error e => Except.error e
    | Except.ok st1 => encodeLoop fuel cladogram nTaxa rest st1

/-- The loop of lines 1682-1699 that moves the attributes of the parsed nodes into
`atrs`; a slot outside `atrs` is `undefined`. -/
def storeAttributes (nTaxa : Nat) (locs : List Int) :
    List ParsedTreeNode → Nat → List (Option Attributes) →
      Except Abort (List (Option Attributes))
  | [], _, atrs => Except.ok atrs
  | n :: rest, idx, atrs =>
    match n.attributes with
    | none => storeAttributes nTaxa locs rest (idx + 1) atrs
    | some a =>
      let l : Int := locs.getD idx 0 + (if n.sons.length = 0 then 1 else (nTaxa : Int))
      if 0 ≤ l ∧ l.toNat < atrs.length then
        storeAttributes nTaxa locs rest (idx + 1) (atrs.set l.toNat (some a))
      else Except.error Abort.undefined

/-- The conversion `static_cast<uint>(heights[i] + 0.5)`. -/
def roundHeight (x : ℚ) : Nat :=
  (Int.toNat ⌊x + 1 / 2⌋) % 4294967296

/-- Source `TreesSet::nodes2rep`: the set with the taxa interned, and the encoded tree.
`fuel` bounds the walk down a subtree whose height is raised. -/
def TreesSet.nodes2rep (ts : TreesSet) (fuel : Nat) (nodes : List ParsedTreeNode) :
    TreesSet × Except Abort TreeRep :=
  let sc := nodes.foldl scanNode (ScanState.mk ts [] true false 0)
  let nTaxa := sc.taxa.length
  let result : Except Abort TreeRep :=
    if nTaxa = 0 then Except.error Abort.undefined
    else
      match encodeLoop fuel sc.cladogram nTaxa (List.range nodes.length)
          (EncState.mk nodes (List.replicate nodes.length 0) 0
            (List.replicate (nTaxa - 1) 0) none) with
      | Except.error e => Except.error e
      | Except.ok st =>
        match (if ts.compressed then
                 (FixedIntPacker.make (lg2i sc.maxTaxaIndex + 1) sc.taxa).map Packer.fixed
               else Except.ok (Packer.simple sc.taxa)) with
        | Except.error e => Except.error e
        | Except.ok top =>
          match (if sc.hasAttributes then
                   (storeAttributes nTaxa st.locs st.nodes 0
                     (List.replicate nodes.length none)).map some
                 else Except.ok none) with
          | Except.error e => Except.error e
          | Except.ok atrs =>
            if sc.cladogram then
              let hs := st.heights.map roundHeight
              match (if ts.compressed ∧ 0 < st.heights.length then
                       (FixedIntPacker.make (lg2i (hs.foldl max 0) + 1) hs).map Packer.fixed
                     else Except.ok (Packer.simple hs)) with
              | Except.error e => Except.error e
              | Except.ok hsb => Except.ok (TreeRep.mk top (Heights.cladogram hsb) atrs)
            else
              Except.ok (TreeRep.mk top (Heights.phylogram st.heights st.taxaHeights) atrs)
  (sc.ts, result)

/-- What a call of `add` or `parseTree` reports. -/
inductive AddResult where
  | added (index : Nat)
  | parseError (offset : Nat)
  | extraneous
  | abort (e : Abort)
deriving DecidableEq, Repr

/-- The test of lines 1748-1761, shared by `add` and `parseTree`: `none` when the text is
taken, else the error raised.  `nc` is the count `readSubTree` returned, `none` for
`-1`.  The text of the error message is not part of the model. -/
def checkTreeEnd (treeTxt : Str) (nc : Option Nat) : Option AddResult :=
  match nc with
  | none =>
    -- `nc = -1` never equals `txtLen`, and `nc + 1 == txtLen` reads `treeTxt[-1]`
    if treeTxt.length = 0 then Option.some (AddResult.abort Abort.undefined)
    else Option.some (AddResult.parseError treeTxt.length)
  | some n =>
    let nc1 := if 0 < n then n + skipSpaces (treeTxt.drop n) else n
    if nc1 = treeTxt.length ∨ (nc1 + 1 = treeTxt.length ∧ treeTxt.get? nc1 = some ';')
    then Option.none
    else Option.some AddResult.extraneous

/-- Source `TreesSet::add(treeTxt, kwds)`: the set as the call leaves it, and what it
reports.  `fuel` bounds `readSubTree` and the encoder. -/
def TreesSet.add (strtod : Str → ℚ × Nat) (fuel : Nat) (ts : TreesSet) (treeTxt : Str)
    (kwds : Option Attributes) : TreesSet × AddResult :=
  match readSubTree strtod fuel treeTxt [] with
  | ParseResult.timeout => (ts, AddResult.abort Abort.timeout)
  | ParseResult.undefined => (ts, AddResult.abort Abort.undefined)
  | ParseResult.fail _ =>
    match checkTreeEnd treeTxt none with
    | some err => (ts, err)
    | none => (ts, AddResult.abort Abort.undefined)
  | ParseResult.ok nc nodes =>
    match checkTreeEnd treeTxt (some nc) with
    | some err => (ts, err)
    | none =>
      let ts1 := { ts with treesAttributes := ts.treesAttributes ++ [kwds] }
      if ts.store then
        ({ ts1 with asNodes := ts1.asNodes ++ [nodes] }, AddResult.added ts1.asNodes.length)
      else
        match ts1.nodes2rep fuel nodes with
        | (ts2, Except.error e) => (ts2, AddResult.abort e)
        | (ts2, Except.ok rep) =>
          ({ ts2 with trees := ts2.trees ++ [rep] }, AddResult.added ts2.trees.length)

/-- Source `parseTree(args)`: the parsed nodes, or the error raised. -/
def parseTree (strtod : Str → ℚ × Nat) (fuel : Nat) (treeTxt : Str) :
    Except AddResult (List ParsedTreeNode) :=
  match readSubTree strtod fuel treeTxt [] with
  | ParseResult.timeout => Except.error (AddResult.abort Abort.timeout)
  | ParseResult.undefined => Except.error (AddResult.abort Abort.undefined)
  | ParseResult.fail _ =>
    match checkTreeEnd treeTxt none with
    | some err => Except.error err
    | none => Except.error (AddResult.abort Abort.undefined)
  | ParseResult.ok nc nodes =>
    match checkTreeEnd treeTxt (some nc) with
    | some err => Except.error err
    | none => Except.ok nodes

/-! ## The expander -/

/-- Source `Tree::Expanded`; `sons` is the slice of the sons block the node points at. -/
structure Expanded where
  itax : Int
  nSons : Nat
  sons : List Nat
  branch : Option ℚ
  height : ℚ
  prev : Int
  attributes : Option Attributes
deriving DecidableEq, Repr

/-- What `rep2treeInternal` changes: the vector `nodes` and the number of entries of the
sons block handed out so far (`sonsBlock - sonsBlockSave`). -/
structure ExpState where
  nodes : List Expanded
  sonsUsed : Nat
deriving DecidableEq, Repr

/-- The scan of lines 1807-1820 over `k = low .. hi-1`: the largest height `curh` and
the positions written to the scratch area, `none` while `curi` is still null.  A height
equal to the initial `curh = -1` stores through the null `curi`. -/
def scanSplits (hs : List ℚ) : List Nat → ℚ → Option (List Nat) →
    Except Abort (ℚ × Option (List Nat))
  | [], curh, curi => Except.ok (curh, curi)
  | k :: ks, curh, curi =>
    match hs.get? k with
    | none => Except.error Abort.undefined
    | some h =>
      if h ≥ curh then
        if h > curh then scanSplits hs ks h (some [k])
        else
          match curi with
          | none => Except.error Abort.undefined
          | some l => scanSplits hs ks curh (some (l ++ [k]))
      else scanSplits hs ks curh curi

/-- Set `nodes[k].branch`. -/
def setBranchOf (nodes : List Expanded) (k : Nat) (b : ℚ) : List Expanded :=
  match nodes.get? k with
  | some n => nodes.set k { n with branch := some b }
  | none => nodes

/-- Set `nodes[k].prev`. -/
def setPrev (nodes : List Expanded) (p : Nat) (k : Nat) : List Expanded :=
  match nodes.get? k with
  | some n => nodes.set k { n with prev := (p : Int) }
  | none => nodes

/-- The loop of lines 1831-1838 over the split positions `xs` (the last one is `hi`);
`rec` is the recursive call.  It gives the state and the sons collected. -/
def expandSons (rec : ExpState → Nat → Nat → Except Abort (ExpState × Nat)) (curh : ℚ) :
    List Nat → ExpState → Nat → List Nat → Except Abort (ExpState × List Nat)
  | [], st, _, sons => Except.ok (st, sons)
  | x :: xs, st, low, sons =>
    match rec st low x with
    | Except.error e => Except.error e
    | Except.ok (st1, k) =>
      match st1.nodes.get? k with
      | none => Except.error Abort.undefined
      | some nk =>
        expandSons rec curh xs
          { st1 with nodes := setBranchOf st1.nodes k (curh - nk.height) } (x + 1) (sons ++ [k])

/-- The argument `atrbs ? (*atrbs)[i] : 0`; an index outside the vector is `undefined`. -/
def attrSlot (atrbs : Option (List (Option Attributes))) (i : Nat) :
    Except Abort (Option Attributes) :=
  match atrbs with
  | none => Except.ok none
  | some a =>
    match a.get? i with
    | some x => Except.ok x
    | none => Except.error Abort.undefined

/-- Source `Tree::rep2treeInternal(nodes, low, hi, tax, htax, hs, atrbs, sonsBlock,
curiScratch, bleft)`; it gives the new state and the returned index.  `cap` is the size
of the sons block, and `fuel` bounds the depth of the recursion. -/
def rep2treeInternal (tax : List Nat) (htax hs : List ℚ)
    (atrbs : Option (List (Option Attributes))) (cap : Nat) :
    Nat → ExpState → Nat → Nat → Nat → Except Abort (ExpState × Nat)
  | 0, _, _, _, _ => Except.error Abort.timeout
  | fuel + 1, st, low, hi, bleft =>
    if low = hi then
      match tax.get? low, htax.get? low with
      | some t, some ht =>
        match attrSlot atrbs low with
        | Except.error e => Except.error e
        | Except.ok atr =>
          Except.ok ({ st with nodes := st.nodes ++ [Expanded.mk (t : Int) 0 [] none ht (-1) atr] },
            st.nodes.length)
      | _, _ => Except.error Abort.undefined
    else
      match scanSplits hs (List.range' low (hi - low)) (-1) none with
      | Except.error e => Except.error e
      | Except.ok (_, none) => Except.error Abort.undefined
      | Except.ok (curh, some splits) =>
        if bleft < splits.length then Except.error Abort.assertFailed
        else if bleft - splits.length = 0 then Except.error Abort.assertFailed
        else if cap < st.sonsUsed + (1 + splits.length) then Except.error Abort.undefined
        else
          match expandSons
              (fun s l h => rep2treeInternal tax htax hs atrbs cap fuel s l h
                (bleft - splits.length - 1))
              curh (splits ++ [hi])
              { st with sonsUsed := st.sonsUsed + (1 + splits.length) } low [] with
          | Except.error e => Except.error e
          | Except.ok (st1, sons) =>
            match attrSlot atrbs (splits.headD 0 + tax.length) with
            | Except.error e => Except.error e
            | Except.ok atr =>
              Except.ok
                ({ st1 with nodes :=
                    sons.foldl (fun ns s => setPrev ns st1.nodes.length s) st1.nodes
                      ++ [Expanded.mk (-1) (1 + splits.length) sons none curh (-1) atr] },
                 st1.nodes.length)

/-- Source `TreesSet::getHeights` for a tree of the set: `hs` and `txhs`. -/
def TreeRep.getHeights (r : TreeRep) : List ℚ × List ℚ :=
  match r.heights with
  | Heights.cladogram h => (h.unpacked.map (Nat.cast : Nat → ℚ), [])
  | Heights.phylogram h tx => (h, tx.getD [])

/-- Source `Tree::setup` for the tree `nt` of the set: the vector `internals`. -/
def TreesSet.setup (ts : TreesSet) (fuel : Nat) (nt : Nat) : Except Abort (List Expanded) :=
  match ts.trees.get? nt with
  | none => Except.error Abort.assertFailed
  | some rep =>
    let tax := rep.topology
    let nTaxa := tax.length
    let hs := rep.getHeights.1
    let txhs := if rep.getHeights.2.length = 0 then List.replicate nTaxa 0 else rep.getHeights.2
    match rep2treeInternal tax txhs hs rep.attributes (2 * nTaxa) fuel (ExpState.mk [] 0)
        0 hs.length (2 * nTaxa) with
    | Except.error e => Except.error e
    | Except.ok (st, _) =>
      if rep.isCladogram then
        Except.ok (st.nodes.map (fun x => { x with branch := none, height := -1 }))
      else Except.ok st.nodes

/-! ## The emitter -/

/-- Source `TreesSet::taxonString(k)`. -/
def TreesSet.taxonString (ts : TreesSet) (k : Nat) : Except Abort Str :=
  match ts.taxaList.get? k with
  | some s => Except.ok s
  | none => Except.error Abort.assertFailed

/-- Run `f` over a list, stopping at the first abnormal end. -/
def mapExcept (f : Nat → Except Abort Str) : List Nat → Except Abort (List Str)
  | [] => Except.ok []
  | x :: xs =>
    match f x with
    | Except.error e => Except.error e
    | Except.ok s =>
      match mapExcept f xs with
      | Except.error e => Except.error e
      | Except.ok ss => Except.ok (s :: ss)

/-- The text `std::sort` and the joining loop of `tostr` build from the strings of the
sons: sorted, separated by commas, in parentheses. -/
def joinSorted (ss : List Str) : Str :=
  '(' :: (List.intercalate [','] (ss.insertionSort (fun a b => a ≤ b)) ++ [')'])

/-- Source `Tree::tostr`: the one string a call leaves at the end of `s`.  `fmt` is
`PyOS_double_to_string(x, 'r', 0, Py_DTSF_ADD_DOT_0, 0)`, and `fuel` bounds the depth. -/
def tostr (fmt : ℚ → Str) (ts : TreesSet) (internals : List Expanded) :
    Nat → Nat → Bool → Bool → Except Abort Str
  | 0, _, _, _ => Except.error Abort.timeout
  | fuel + 1, nodeId, topoOnly, includeStem =>
    match internals.get? nodeId with
    | none => Except.error Abort.undefined
    | some n =>
      let body : Except Abort Str :=
        if n.nSons = 0 then
          if 0 ≤ n.itax then ts.taxonString n.itax.toNat else Except.ok []
        else
          match mapExcept (fun s => tostr fmt ts internals fuel s topoOnly true)
              (n.sons.take n.nSons) with
          | Except.error e => Except.error e
          | Except.ok ss => Except.ok (joinSorted ss)
      match body with
      | Except.error e => Except.error e
      | Except.ok str =>
        match n.branch with
        | some b =>
          if topoOnly = false ∧ includeStem = true then Except.ok (str ++ ':' :: fmt b)
          else Except.ok str
        | none => Except.ok str

/-- Source `Tree::toNewick(s, nodeId, topoOnly, includeStem)` for the tree `nt` of the
set, where `nodeId = none` is the `-1` that stands for the root. -/
def TreesSet.toNewick (fmt : ℚ → Str) (ts : TreesSet) (fuel : Nat) (nt : Nat)
    (nodeId : Option Nat) (topoOnly includeStem : Bool) : Except Abort Str :=
  match ts.setup fuel nt with
  | Except.error e => Except.error e
  | Except.ok internals =>
    tostr fmt ts internals fuel (nodeId.getD (internals.length - 1)) topoOnly includeStem

/-! ## Trees as values, for stating the properties -/

/-- A stand-in for `strtod` on unsigned decimal integers, used to evaluate examples. -/
def strtodDigits (s : Str) : ℚ × Nat :=
  ((s.takeWhile Char.isDigit).foldl (fun a c => 10 * a + ((c.toNat - 48 : Nat) : ℚ)) 0,
   (s.takeWhile Char.isDigit).length)

/-- An ordered forest, a list of sibling trees: `cons label kids rest` is a tree with
the sons `kids`, followed by its right siblings `rest`.  A tree without sons is a tip,
and only tips carry a label. -/
inductive Forest where
  | nil : Forest
  | cons (label : Str) (kids : Forest) (rest : Forest) : Forest
deriving DecidableEq, Repr

/-- Number of nodes of a forest. -/
def Forest.size : Forest → Nat
  | Forest.nil => 0
  | Forest.cons _ kids rest => kids.size + 1 + rest.size

/-- Number of trees of a forest. -/
def Forest.count : Forest → Nat
  | Forest.nil => 0
  | Forest.cons _ _ rest => rest.count + 1

/-- Number of tips of a forest. -/
def Forest.tips : Forest → Nat
  | Forest.nil => 0
  | Forest.cons _ kids rest => (if kids.count = 0 then 1 else kids.tips) + rest.tips

/-- Number of tips of a tree whose sons are `kids`. -/
def Forest.treeTips (kids : Forest) : Nat :=
  if kids.count = 0 then 1 else kids.tips

/-- The indices of the roots of the trees of a forest laid out in post-order from the
index `off` on. -/
def Forest.roots : Forest → Nat → List Nat
  | Forest.nil, _ => []
  | Forest.cons _ kids rest, off => (off + kids.size) :: rest.roots (off + kids.size + 1)

/-- The nodes `ns` are the post-order layout of the forest from the index `off` on: every
tree is its sons' trees followed by its own node, whose `sons` are the roots of those, and
a tip has the label of its node. -/
def IsFlat : Forest → Nat → List ParsedTreeNode → Prop
  | Forest.nil, _, ns => ns = []
  | Forest.cons label kids rest, off, ns =>
    ∃ ns1 n ns2, ns = ns1 ++ n :: ns2 ∧ IsFlat kids off ns1 ∧ n.sons = kids.roots off
      ∧ label = (if kids.count = 0 then n.taxon else [])
      ∧ IsFlat rest (off + kids.size + 1) ns2

/-- What a tree walk needs of a vector of nodes: the label and the sons of node `i`. -/
abbrev NodeTable := Nat → Option (Str × List Nat)

/-- The forest of the trees rooted at the nodes `ids`; `none` when a node is missing or
the fuel runs out. -/
def forestOf (tbl : NodeTable) : Nat → List Nat → Option Forest
  | 0, _ => none
  | _ + 1, [] => some Forest.nil
  | fuel + 1, i :: rest =>
    match tbl i with
    | none => none
    | some (label, sons) =>
      match forestOf tbl fuel sons, forestOf tbl fuel rest with
      | some k, some r => some (Forest.cons (if sons.length = 0 then label else []) k r)
      | _, _ => none

/-- The node table of a parsed tree. -/
def parsedTable (nodes : List ParsedTreeNode) : NodeTable :=
  fun i => (nodes.get? i).map (fun n => (n.taxon, n.sons))

/-- The node table of an expanded tree; the label of a tip is the string of its taxon. -/
def expandedTable (ts : TreesSet) (internals : List Expanded) : NodeTable :=
  fun i => (internals.get? i).map (fun n =>
    (if 0 ≤ n.itax then ts.taxaList.getD n.itax.toNat [] else [], n.sons.take n.nSons))

/-- The canonical strings of the trees of a forest: a tip is its label, and a tree with
sons is the sorted strings of its sons, separated by commas, in parentheses. -/
def Forest.canon : Forest → List Str
  | Forest.nil => []
  | Forest.cons label kids rest =>
    (if kids.count = 0 then label else joinSorted kids.canon) :: rest.canon

/-- The labels of the tips of a forest, from left to right. -/
def Forest.tipLabels : Forest → List Str
  | Forest.nil => []
  | Forest.cons label kids rest =>
    (if kids.count = 0 then [label] else kids.tipLabels) ++ rest.tipLabels

/-- Every tree of the forest that has sons has at least two. -/
def Forest.Branching : Forest → Prop
  | Forest.nil => True
  | Forest.cons _ kids rest => kids.count ≠ 1 ∧ kids.Branching ∧ rest.Branching

/-- The largest level of the trees of a forest, plus one: a tip has level 0 and a tree
with sons is one level above its highest son.  For the sons of a node this is the level
of the node. -/
def Forest.lev : Forest → Nat
  | Forest.nil => 0
  | Forest.cons _ kids rest => max (if kids.count = 0 then 1 else kids.lev + 1) rest.lev

/-- The heights between neighbouring tips of a forest: inside a tree the level of the
lowest common ancestor, and `b` between two trees of the forest. -/
def Forest.hts (b : Nat) : Forest → List Nat
  | Forest.nil => []
  | Forest.cons _ kids rest =>
    (if kids.count = 0 then [] else kids.hts kids.lev)
      ++ (if rest.count = 0 then [] else b :: rest.hts b)

/-- The value of `locs` for the nodes of a forest laid out in post-order after `t0` tips:
the number of tips up to the node, minus two. -/
def Forest.locs (t0 : Int) : Forest → List Int
  | Forest.nil => []
  | Forest.cons _ kids rest =>
    (if kids.count = 0 then [t0 - 1] else kids.locs t0 ++ [t0 + kids.tips - 2])
      ++ rest.locs (t0 + (kids.treeTips : Nat))

/-- The nodes `ns` are the post-order layout of the forest from the index `off` on, as
the second loop of `nodes2rep` leaves them on a cladogram: `branch` holds one more than
the level of the node. -/
def IsEncoded : Forest → Nat → List ParsedTreeNode → Prop
  | Forest.nil, _, ns => ns = []
  | Forest.cons _ kids rest, off, ns =>
    ∃ ns1 n ns2, ns = ns1 ++ n :: ns2 ∧ IsEncoded kids off ns1 ∧ n.sons = kids.roots off
      ∧ n.branch = some (((if kids.count = 0 then 1 else kids.lev + 1 : Nat) : ℚ))
      ∧ IsEncoded rest (off + kids.size + 1) ns2

/-- The last tip position of every tree of a forest whose first tip is tip `a`. -/
def Forest.ends : Forest → Nat → List Nat
  | Forest.nil, _ => []
  | Forest.cons _ kids rest, a =>
    (a + kids.treeTips - 1) :: rest.ends (a + kids.treeTips)

/-- What the shape of an expanded tree rests on: `itax`, `nSons` and `sons`. -/
def Expanded.core (n : Expanded) : Int × Nat × List Nat :=
  (n.itax, n.nSons, n.sons)

/-- The `itax`, `nSons` and `sons` of the post-order layout of a forest from the index
`off` on, whose tips are the taxa `tax` from position `a` on. -/
def Forest.expanded (tax : List Nat) : Forest → Nat → Nat → List (Int × Nat × List Nat)
  | Forest.nil, _, _ => []
  | Forest.cons _ kids rest, off, a =>
    (if kids.count = 0 then [(((tax.getD a 0 : Nat) : Int), 0, [])]
     else kids.expanded tax off a ++ [(-1, kids.count, kids.roots off)])
      ++ rest.expanded tax (off + kids.size + 1) (a + kids.treeTips)

/-- Number of levels of a forest. -/
def Forest.depth : Forest → Nat
  | Forest.nil => 0
  | Forest.cons _ kids rest => max (kids.depth + 1) rest.depth

/-- The taxon table answers for the labels it holds: a label the dictionary maps to `k`
is the entry `k` of the list. -/
def TreesSet.TaxaWF (ts : TreesSet) : Prop :=
  ∀ label k, ts.taxaDict.lookup label = some k → ts.taxaList.get? k = some label

/-- The labels of the leaves of a vector of parsed nodes, in the order of the vector. -/
def leafLabels (nodes : List ParsedTreeNode) : List Str :=
  (nodes.filter (fun n => n.sons.length = 0)).map (fun n => n.taxon)

/-- Interning labels one after the other with `getTaxon`: the set and the ids. -/
def internAll : TreesSet → List Str → TreesSet × List Nat
  | ts, [] => (ts, [])
  | ts, l :: ls => ((internAll (ts.getTaxon l).1 ls).1, (ts.getTaxon l).2 :: (internAll (ts.getTaxon l).1 ls).2)

/-- The scan of `scanSplits` over the heights `X`, which sit at the positions from `p`
on. -/
def scanList : List ℚ → Nat → ℚ → Option (List Nat) → Except Abort (ℚ × Option (List Nat))
  | [], _, curh, curi => Except.ok (curh, curi)
  | h :: X, p, curh, curi =>
    if h ≥ curh then
      if h > curh then scanList X (p + 1) h (some [p])
      else
        match curi with
        | none => Except.error Abort.undefined
        | some l => scanList X (p + 1) curh (some (l ++ [p]))
    else scanList X (p + 1) curh curi

/-- The value of `bleft` that expanding the trees of a forest asks for: a tree with sons
takes one entry for each son and hands the rest to every son. -/
def Forest.need : Forest → Nat
  | Forest.nil => 0
  | Forest.cons _ kids rest => max (kids.count + kids.need) rest.need

/-- What the loop over the sons in `rep2treeInternal` does on the heights of a forest
whose trees all branch: it appends the post-order layout of the forest to `nodes`, returns
the roots, and takes one entry of the sons block for every node below a root. -/
def ExpandSpec (tax : List Nat) (htax hs : List ℚ) (cap : Nat) (F : Forest) : Prop :=
  ∀ (fuel bl : Nat) (curh : ℚ) (st : ExpState) (a : Nat) (acc : List Nat) (b : Nat)
    (A B : List ℚ),
    F.Branching → hs = A ++ (F.hts b).map (Nat.cast : Nat → ℚ) ++ B → A.length = a →
    F.lev ≤ b → a + F.tips ≤ tax.length → a + F.tips ≤ htax.length → F.depth ≤ fuel →
    F.need ≤ bl → st.sonsUsed + (F.size - F.count) ≤ cap →
    ∃ st', expandSons (fun s l h => rep2treeInternal tax htax hs none cap fuel s l h bl) curh
          (F.ends a) st a acc
        = Except.ok (st', acc ++ F.roots st.nodes.length)
      ∧ st'.nodes.map Expanded.core
          = st.nodes.map Expanded.core ++ F.expanded tax st.nodes.length a
      ∧ st'.sonsUsed = st.sonsUsed + (F.size - F.count)

/-- The table holds the post-order layout of the forest from the index `off` on. -/
def TableHas (tbl : NodeTable) : Forest → Nat → Prop
  | Forest.nil, _ => True
  | Forest.cons label kids rest, off =>
    (∃ lb, tbl (off + kids.size) = some (lb, kids.roots off)
        ∧ (if kids.count = 0 then lb else []) = label)
      ∧ TableHas tbl kids off ∧ TableHas tbl rest (off + kids.size + 1)

/-- Only the tips of the forest carry a label. -/
def Forest.Clean : Forest → Prop
  | Forest.nil => True
  | Forest.cons label kids rest => (kids.count ≠ 0 → label = []) ∧ kids.Clean ∧ rest.Clean

/-- The tree a vector of parsed nodes describes, read from its last node, the root. -/
def parsedTree (nodes : List ParsedTreeNode) : Option Forest :=
  forestOf (parsedTable nodes) (nodes.length + 1) [nodes.length - 1]

/-- A set in which the 256 taxa with the ids 0 to 255 have been interned; their names
are the single characters with the codes 256 to 511. -/
def set256 (isCompressed : Bool) : TreesSet :=
  TreesSet.mk isCompressed false 4 [] [] []
    ((List.range 256).map (fun i => [Char.ofNat (256 + i)]))
    ((List.range 256).map (fun i => ([Char.ofNat (256 + i)], i)))

/-- The text the joining loop of `tostr` builds from the strings of the sons in the
order given: separated by commas, in parentheses. -/
def joinPlain (ss : List Str) : Str :=
  '(' :: (List.intercalate [','] ss ++ [')'])

/-- The strings of the trees of a forest with the sons in the order they have. -/
def Forest.render : Forest → List Str
  | Forest.nil => []
  | Forest.cons label kids rest =>
    (if kids.count = 0 then label else joinPlain kids.render) :: rest.render

/-- A label the bare-word scan of `readSubTree` reads back as it is: none of its bytes
ends the scan, and it does not start with a quote. -/
def PlainLabel (l : Str) : Prop :=
  (∀ c ∈ l, endsBareword c = false) ∧ l.head? ≠ some squote ∧ l.head? ≠ some dquote

instance (l : Str) : Decidable (PlainLabel l) := by
  unfold PlainLabel
  infer_instance

/-- Every tip of the forest has a plain label. -/
def Forest.PlainTips : Forest → Prop
  | Forest.nil => True
  | Forest.cons label kids rest =>
    (kids.count = 0 → PlainLabel label) ∧ kids.PlainTips ∧ rest.PlainTips

/-- The canonical string of a tree with the sons `kids`. -/
def Forest.key (label : Str) (kids : Forest) : Str :=
  if kids.count = 0 then label else joinSorted kids.canon

/-- Put a tree into a forest before the first tree whose canonical string is not
smaller. -/
def Forest.insertTree (label : Str) (kids : Forest) : Forest → Forest
  | Forest.nil => Forest.cons label kids Forest.nil
  | Forest.cons l2 k2 r =>
    if Forest.key label kids ≤ Forest.key l2 k2 then
      Forest.cons label kids (Forest.cons l2 k2 r)
    else Forest.cons l2 k2 (Forest.insertTree label kids r)

/-- The forest with the sons of every node, and its own trees, sorted by canonical
string. -/
def Forest.sortAll : Forest → Forest
  | Forest.nil => Forest.nil
  | Forest.cons label kids rest => Forest.insertTree label kids.sortAll rest.sortAll

/-- The sons of every node of the forest are sorted by canonical string. -/
def Forest.Canonical : Forest → Prop
  | Forest.nil => True
  | Forest.cons _ kids rest =>
    kids.Canonical ∧ rest.Canonical ∧ List.Sorted (fun a b => a ≤ b) kids.canon

/-- The loop over the sons in `readSubTree` reads the strings of the trees of a forest
back: from the `(` or `,` before the first of them up to the closing `)`, it adds their
post-order layout to `nodes` and returns their roots. -/
def ParsesBack (strtod : Str → ℚ × Nat) (F : Forest) : Prop :=
  ∀ (f c : Nat) (ch : Char) (eat : Nat) (nodes : List ParsedTreeNode) (subs : List Nat)
    (rest : Str), F.size ≤ f → F.count ≤ c →
    ∃ ns, sonsLoop (readSubTree strtod f) c
          (ch :: (List.intercalate [','] F.render ++ ')' :: rest)) eat nodes subs
        = HeadResult.ok rest (eat + (List.intercalate [','] F.render).length + 2)
            (nodes ++ ns) [] (subs ++ F.roots nodes.length)
      ∧ IsFlat F nodes.length ns ∧ (∀ n ∈ ns, n.branch = none ∧ n.attributes = none)

/-- The taxon table pairs the labels seen with the ids `0 .. n-1`: no label is twice in
the list, and the dictionary gives `k` for a label exactly when the list holds the label
at position `k`. -/
def TreesSet.TaxaBijective (ts : TreesSet) : Prop :=
  ts.taxaList.Nodup ∧ ∀ l k, ts.taxaDict.lookup l = some k ↔ ts.taxaList.get? k = some l

/-- The set after a sequence of calls of `add`, each with its text and keywords. -/
def addAll (strtod : Str → ℚ × Nat) (fuel : Nat) :
    TreesSet → List (Str × Option Attributes) → TreesSet
  | ts, [] => ts
  | ts, call :: rest => addAll strtod fuel (ts.add strtod fuel call.1 call.2).1 rest

/-- The text `((A,B),(C,D));`. -/
def textFourTips : Str := "((A,B),(C,D));".toList

/-- The first loop of `nodes2rep` (lines 1585-1598) over all the nodes. -/
def scanAll (ts : TreesSet) (nodes : List ParsedTreeNode) : ScanState :=
  nodes.foldl scanNode (ScanState.mk ts [] true false 0)

/-- The state in which the second loop of `nodes2rep` starts. -/
def encStart (nodes : List ParsedTreeNode) (nTaxa : Nat) : EncState :=
  EncState.mk nodes (List.replicate nodes.length 0) 0 (List.replicate (nTaxa - 1) 0) none

/-- The number of sons beyond two, summed over the nodes of an expanded tree. -/
def sonsExcess (ns : List Expanded) : Nat :=
  (ns.map (fun n => n.nSons - 2)).sum

/-! ## Trees with branch lengths, for the offsets of the tips -/

/-- A stand-in for `strtod` on decimal integers with an optional minus sign, used to
evaluate examples. -/
def strtodSigned (s : Str) : ℚ × Nat :=
  match s with
  | '-' :: t =>
    if (strtodDigits t).2 = 0 then (0, 0) else (-(strtodDigits t).1, (strtodDigits t).2 + 1)
  | _ => strtodDigits s

/-- An ordered forest whose nodes carry the branch length the text gives them, if any:
`cons branch kids rest` is a tree with the sons `kids`, followed by its right siblings. -/
inductive BForest where
  | nil : BForest
  | cons (branch : Option ℚ) (kids : BForest) (rest : BForest) : BForest
deriving DecidableEq, Repr

/-- The forest without the branch lengths (and without labels). -/
def BForest.shape : BForest → Forest
  | BForest.nil => Forest.nil
  | BForest.cons _ kids rest => Forest.cons [] kids.shape rest.shape

/-- The nodes `ns` are the post-order layout of the forest from the index `off` on: every
tree is its sons' trees followed by its own node, whose `sons` are the roots of those and
whose `branch` is the branch length of the tree. -/
def IsFlatB : BForest → Nat → List ParsedTreeNode → Prop
  | BForest.nil, _, ns => ns = []
  | BForest.cons branch kids rest, off, ns =>
    ∃ ns1 n ns2, ns = ns1 ++ n :: ns2 ∧ IsFlatB kids off ns1
      ∧ n.sons = kids.shape.roots off ∧ n.branch = branch
      ∧ IsFlatB rest (off + kids.shape.size + 1) ns2

/-- The sum of the branch lengths on the way down to every tip of the forest, from left
to right, where the trees of the forest hang from a node at the distance `base`; a missing
branch length counts as 1. -/
def BForest.depths : BForest → ℚ → List ℚ
  | BForest.nil, _ => []
  | BForest.cons branch kids rest, base =>
    (if kids.shape.count = 0 then [base + branch.getD 1]
      else kids.depths (base + branch.getD 1)) ++ rest.depths base

/-- The sum of the branch lengths from the root of a tree to every tip of it. -/
def BForest.tipDepths : BForest → List ℚ
  | BForest.nil => []
  | BForest.cons _ kids _ => if kids.shape.count = 0 then [0] else kids.depths 0

/-- What the second loop of `nodes2rep` leaves in `branch` of the root of every tree of
the forest: the height `h` it finds for the node (0 for a tip, and for a node with sons
the largest value left in its sons, taken from -1 on) plus the branch length. -/
def BForest.tops : BForest → List ℚ
  | BForest.nil => []
  | BForest.cons branch kids rest =>
    ((if kids.shape.count = 0 then 0 else kids.tops.foldl (fun h t => max t h) (-1))
      + branch.getD 1) :: rest.tops

/-- The height `h` the loop of lines 1622-1627 finds for a node with the sons `kids`. -/
def BForest.hgt (kids : BForest) : ℚ :=
  kids.tops.foldl (fun h t => max t h) (-1)

/-- The amount `dh` by which the loop of lines 1629-1652 raises a son whose `branch`
holds `h1` under a node of height `h`, 0 when it leaves the son alone. -/
def raiseBy (h h1 : ℚ) : ℚ :=
  if h - h1 > 0 ∧ areSame h h1 = false then h - h1 else 0

/-- The offsets of the tips of a forest after the node of height `h` above it has raised
its sons. -/
def BForest.raised : BForest → ℚ → List ℚ
  | BForest.nil, _ => []
  | BForest.cons branch kids rest, h =>
    ((if kids.shape.count = 0 then [0]
        else kids.raised (kids.tops.foldl (fun h t => max t h) (-1))).map
      (fun v => v + raiseBy h
        ((if kids.shape.count = 0 then 0 else kids.tops.foldl (fun h t => max t h) (-1))
          + branch.getD 1))) ++ rest.raised h

/-- The offsets of the tips of a forest before the node above it raises its sons. -/
def BForest.inner : BForest → List ℚ
  | BForest.nil => []
  | BForest.cons _ kids rest =>
    (if kids.shape.count = 0 then [0] else kids.raised kids.hgt) ++ rest.inner

/-- The nodes `ns` are the post-order layout of the forest from the index `off` on, as
the second loop of `nodes2rep` leaves them: `branch` holds the height plus the branch
length. -/
def IsTopped : BForest → Nat → List ParsedTreeNode → Prop
  | BForest.nil, _, ns => ns = []
  | BForest.cons branch kids rest, off, ns =>
    ∃ ns1 n ns2, ns = ns1 ++ n :: ns2 ∧ IsTopped kids off ns1
      ∧ n.sons = kids.shape.roots off
      ∧ n.branch = some ((if kids.shape.count = 0 then 0 else kids.hgt) + branch.getD 1)
      ∧ IsTopped rest (off + kids.shape.size + 1) ns2

/-- The forest sits in the vectors `nodes` and `locs` from the node `off` and the tip
`t0` on: what the raising loop reads of the two vectors. -/
def Laid (nodes : List ParsedTreeNode) (locs : List Int) : BForest → Nat → Nat → Prop
  | BForest.nil, _, _ => True
  | BForest.cons branch kids rest, off, t0 =>
    Laid nodes locs kids off t0
      ∧ (∃ n, nodes.get? (off + kids.shape.size) = some n ∧ n.sons = kids.shape.roots off
          ∧ n.branch = some ((if kids.shape.count = 0 then 0 else kids.hgt) + branch.getD 1))
      ∧ locs.get? (off + kids.shape.size)
          = some (if kids.shape.count = 0 then (t0 : Int) - 1
                  else (t0 : Int) + kids.shape.tips - 2)
      ∧ Laid nodes locs rest (off + kids.shape.size + 1) (t0 + kids.shape.treeTips)

/-- No branch length of the forest is negative. -/
def BForest.NonNeg : BForest → Prop
  | BForest.nil => True
  | BForest.cons branch kids rest => 0 ≤ branch.getD 0 ∧ kids.NonNeg ∧ rest.NonNeg

/-- Under every node of the forest, the height of the node and what a son reaches differ
by nothing or by machine epsilon at least. -/
def BForest.separated : BForest → Bool
  | BForest.nil => true
  | BForest.cons _ kids rest =>
    kids.tops.all (fun t => decide (kids.hgt - t = 0 ∨ epsilon ≤ kids.hgt - t))
      && kids.separated && rest.separated

/-- The distance from the root to the lowest common ancestor of every two neighbouring
tips of the forest, where the trees of the forest hang from a node at the distance
`base`. -/
def BForest.between : BForest → ℚ → List ℚ
  | BForest.nil, _ => []
  | BForest.cons branch kids rest, base =>
    (if kids.shape.count = 0 then [] else kids.between (base + branch.getD 1))
      ++ (if rest.shape.count = 0 then [] else base :: rest.between base)

/-- The distance from the root of a tree to the lowest common ancestor of every two
neighbouring tips of it. -/
def BForest.tipBetween : BForest → List ℚ
  | BForest.nil => []
  | BForest.cons _ kids _ => kids.between 0

/-- The heights between neighbouring tips of a forest as the second loop of `nodes2rep`
stores them when it raises no node that has sons: inside a tree the height it finds for
the lowest common ancestor, and `h` between two trees of the forest. -/
def BForest.hts : BForest → ℚ → List ℚ
  | BForest.nil, _ => []
  | BForest.cons _ kids rest, h =>
    (if kids.shape.count = 0 then [] else kids.hts kids.hgt)
      ++ (if rest.shape.count = 0 then [] else h :: rest.hts h)

/-- No node with sons is raised: every tree of the forest that has sons comes up to the
height `h` of the node above the forest, and so on inside it. -/
def BForest.kept : BForest → ℚ → Bool
  | BForest.nil, _ => true
  | BForest.cons branch kids rest, h =>
    (decide (kids.shape.count = 0) || decide (kids.hgt + branch.getD 1 = h))
      && kids.kept kids.hgt && rest.kept h

/-- Inside every tree of the forest no node with sons is raised. -/
def BForest.keptIn : BForest → Bool
  | BForest.nil => true
  | BForest.cons _ kids rest => kids.kept kids.hgt && rest.keptIn

/-- Every tree of the forest that has sons, and every node with sons inside it, has a tip
below it at the distance `far` from the root; the trees of the forest hang from a node
at the distance `base`. -/
def BForest.deep (far : ℚ) : BForest → ℚ → Bool
  | BForest.nil, _ => true
  | BForest.cons branch kids rest, base =>
    (decide (kids.shape.count = 0)
        || ((kids.depths (base + branch.getD 1)).any (fun d => decide (d = far))
            && kids.deep far (base + branch.getD 1)))
      && rest.deep far base

/-- Source `Tree::getRootID`: `internals->size() - 1` as a `uint`. -/
def getRootID (internals : List Expanded) : Nat :=
  if internals.length = 0 then 4294967295 else internals.length - 1

/-- The trees of an expansion as values: a node with its `itax`, its height and its
attributes, the trees of its sons (`kids`), and the trees after it (`rest`). -/
inductive XForest where
  | nil : XForest
  | cons (itax : Int) (height : ℚ) (atr : Option Attributes) (kids rest : XForest) : XForest
deriving DecidableEq, Repr

/-- Number of nodes of a forest. -/
def XForest.size : XForest → Nat
  | XForest.nil => 0
  | XForest.cons _ _ _ kids rest => kids.size + 1 + rest.size

/-- Number of trees of a forest. -/
def XForest.count : XForest → Nat
  | XForest.nil => 0
  | XForest.cons _ _ _ _ rest => 1 + rest.count

/-- The indices of the roots of the trees of a forest laid out from the index `base`,
every tree after its sons. -/
def XForest.roots : XForest → Nat → List Nat
  | XForest.nil, _ => []
  | XForest.cons _ _ _ kids rest, base =>
    (base + kids.size) :: rest.roots (base + kids.size + 1)

/-- The vector of nodes a forest is laid out as from the index `base`: every tree after
the trees of its sons, the roots with the parent `par` and, when the height `ph` of the
parent is known, with the branch length `ph - height`. -/
def XForest.lay : XForest → Nat → Int → Option ℚ → List Expanded
  | XForest.nil, _, _, _ => []
  | XForest.cons itax height atr kids rest, base, par, ph =>
    kids.lay base ((base + kids.size : Nat) : Int) (some height)
      ++ Expanded.mk itax kids.count (kids.roots base) (ph.map (fun x => x - height))
          height par atr
        :: rest.lay (base + kids.size + 1) par ph

/-- The `itax` of the nodes without sons, in the order of the layout. -/
def XForest.tipIds : XForest → List Int
  | XForest.nil => []
  | XForest.cons itax _ _ kids rest =>
    (if kids.count = 0 then [itax] else kids.tipIds) ++ rest.tipIds

/-- Every node with sons has the `itax` -1. -/
def XForest.InnerUnnamed : XForest → Prop
  | XForest.nil => True
  | XForest.cons itax _ _ kids rest =>
    (kids.count ≠ 0 → itax = -1) ∧ kids.InnerUnnamed ∧ rest.InnerUnnamed

/-- The values `height + branch` of the sons of a node of an expansion; a son that is
outside the vector or has no branch length gives none. -/
def sonTops (internals : List Expanded) (v : Expanded) : List ℚ :=
  v.sons.filterMap (fun c =>
    match internals.get? c with
    | some nc => nc.branch.map (fun b => nc.height + b)
    | none => none)

/-! ## The tree object and its nodes -/

/-- Source `TreeNodeDataObject`: `taxon`, `branchlength`, `height`, and the entry
`attributes` of `allData`; `none` is `Py_None` (for the attributes, no entry). -/
structure TreeNodeDataObject where
  taxon : Option Str
  branchlength : Option ℚ
  height : Option ℚ
  attributes : Option Attributes
deriving DecidableEq, Repr

/-- Source `TreeNodeDataObject::getBranch`. -/
def TreeNodeDataObject.getBranch (d : TreeNodeDataObject) : ℚ :=
  d.branchlength.getD 0

/-- Source `TreeNodeDataObject::setBranch(newLen)`: the object as the call leaves it, and
the previous branch length it returns. -/
def TreeNodeDataObject.setBranch (d : TreeNodeDataObject) (newLen : ℚ) :
    TreeNodeDataObject × ℚ :=
  ({ d with branchlength := some newLen }, d.getBranch)

/-- Source `TreeNodeDataObject::adjustHeight(dif)`: the object as the call leaves it, and
the height it returns. -/
def TreeNodeDataObject.adjustHeight (d : TreeNodeDataObject) (dif : ℚ) :
    TreeNodeDataObject × ℚ :=
  match d.height with
  | none => ({ d with height := some dif }, dif)
  | some h => ({ d with height := some (h + dif) }, h + dif)

/-- Source `TreeNodeObject`: `prev`, `succ` (`none` is `Py_None`) and `data`. -/
structure TreeNodeObject where
  prev : Option Nat
  succ : Option (List Nat)
  data : TreeNodeDataObject
deriving DecidableEq, Repr

/-- Source `TreeNode_init(self, prev, nSons, sons, data)`.  The parameter `prev` is a
`uint`, so the test `prev >= 0` holds for every argument and `self->prev` is always an
integer: the -1 of a root arrives as 4294967295. -/
def TreeNode_init (prev : Int) (nSons : Nat) (sons : List Nat) (data : TreeNodeDataObject) :
    TreeNodeObject :=
  TreeNodeObject.mk (some (prev % 4294967296).toNat)
    (if nSons = 0 then none else some (sons.take nSons)) data

/-- Source `TreeObject`: the vector `internals` of its `Tree` (as `Tree::setup` fills it
at the first use), whether the tree is a cladogram, and the vector `treeNodes` of the
node objects made so far (`none` while the pointer is null). -/
structure TreeObject where
  internals : List Expanded
  isCladogram : Bool
  treeNodes : Option (List (Option TreeNodeObject))
deriving DecidableEq, Repr

/-- Source `TreeObject::init(ts, tr)` for the tree `nt` of the set, with the vector
`internals` that `Tree::setup` fills when the object is first used; `treeNodes` is
null. -/
def TreeObject.init (ts : TreesSet) (fuel nt : Nat) : Except Abort TreeObject :=
  match ts.trees.get? nt, ts.setup fuel nt with
  | some rep, Except.ok internals => Except.ok (TreeObject.mk internals rep.isCladogram none)
  | _, Except.error a => Except.error a
  | none, _ => Except.error Abort.assertFailed

/-- Lines 2219-2235 of `TreeObject::getNode`: the node object made from
`tr->getNode(nt)`. -/
def TreeObject.newNode (ts : TreesSet) (t : TreeObject) (nt : Nat) :
    Except Abort TreeNodeObject :=
  match t.internals.get? nt with
  | none => Except.error Abort.undefined
  | some e =>
    match (if 0 ≤ e.itax then (ts.taxonString e.itax.toNat).map some else Except.ok none) with
    | Except.error a => Except.error a
    | Except.ok tx =>
      Except.ok (TreeNode_init e.prev e.nSons e.sons
        (TreeNodeDataObject.mk tx (if t.isCladogram then none else e.branch)
          (if t.isCladogram then none else some e.height) e.attributes))

/-- Source `TreeObject::getNode(nt)`: the node it returns (`none` for the null pointer it
returns with `IndexError`) and the object with the node kept in `treeNodes`. -/
def TreeObject.getNode (ts : TreesSet) (t : TreeObject) (nt : Nat) :
    Except Abort (Option TreeNodeObject × TreeObject) :=
  if t.internals.length ≤ nt then Except.ok (none, t)
  else
    let build (v : List (Option TreeNodeObject)) :
        Except Abort (Option TreeNodeObject × TreeObject) :=
      match t.newNode ts nt with
      | Except.error a => Except.error a
      | Except.ok node =>
        Except.ok (some node, { t with treeNodes := some (v.set nt (some node)) })
    match t.treeNodes with
    | none => build (List.replicate t.internals.length none)
    | some v =>
      match v.get? nt with
      | none => Except.error Abort.undefined
      | some (some n) => Except.ok (some n, t)
      | some none => build v

/-- A write through the pointer `getNode(k)` has returned: the node kept at `k` is
replaced by `node`. -/
def TreeObject.update (t : TreeObject) (k : Nat) (node : TreeNodeObject) : TreeObject :=
  { t with treeNodes := t.treeNodes.map (fun v => v.set k (some node)) }

/-- The sons `getInOrder` walks through at the node `nodeId`: those of the node object
when there is one, else those of `tr->getNode(nodeId)`. -/
def TreeObject.sonsOf (t : TreeObject) (nodeId : Nat) : Except Abort (List Nat) :=
  let fromTree : Except Abort (List Nat) :=
    match t.internals.get? nodeId with
    | none => Except.error Abort.undefined
    | some e => Except.ok (e.sons.take e.nSons)
  match t.treeNodes with
  | none => fromTree
  | some v =>
    match v.get? nodeId with
    | none => Except.error Abort.undefined
    | some (some no) => Except.ok (no.succ.getD [])
    | some none => fromTree

/-- The loop over the sons in `getInOrder`; `rec` is the recursive call. -/
def visitSons (rec : Nat → List Nat → Except Abort (List Nat)) :
    List Nat → List Nat → Except Abort (List Nat)
  | [], ids => Except.ok ids
  | d :: ds, ids =>
    match rec d ids with
    | Except.error a => Except.error a
    | Except.ok ids1 => visitSons rec ds ids1

/-- Source `TreeObject::getInOrder(preOrder, ids, nodeId, includeTaxa)`: the vector `ids`
as the call leaves it.  `fuel` bounds the depth of the recursion. -/
def TreeObject.getInOrder (t : TreeObject) (preOrder includeTaxa : Bool) :
    Nat → Nat → List Nat → Except Abort (List Nat)
  | 0, _, _ => Except.error Abort.timeout
  | fuel + 1, nodeId, ids =>
    match t.sonsOf nodeId with
    | Except.error a => Except.error a
    | Except.ok sons =>
      match visitSons (t.getInOrder preOrder includeTaxa fuel) sons
          (if 0 < sons.length ∧ preOrder = true then ids ++ [nodeId] else ids) with
      | Except.error a => Except.error a
      | Except.ok ids1 =>
        if (0 < sons.length ∧ preOrder = false) ∨ (sons.length = 0 ∧ includeTaxa = true)
        then Except.ok (ids1 ++ [nodeId])
        else Except.ok ids1

/-- The loops of `TreeObject::setBranch` (lines 2291-2298 and 2301-2307) over the node
ids `ns`: every node that has a height gets `adjustHeight(dif)`.  `minNewHeight` is the
least height returned so far, `none` for its initial value `PyFloat_GetMax()`; the second
loop does not keep it.  A node `getNode` does not return is a null pointer
dereferenced. -/
def TreeObject.adjustAll (ts : TreesSet) (dif : ℚ) :
    List Nat → TreeObject → Option ℚ → Except Abort (TreeObject × Option ℚ)
  | [], t, minNewHeight => Except.ok (t, minNewHeight)
  | n :: ns, t, minNewHeight =>
    match t.getNode ts n with
    | Except.error a => Except.error a
    | Except.ok (none, _) => Except.error Abort.undefined
    | Except.ok (some x, t1) =>
      if x.data.height.isSome then
        TreeObject.adjustAll ts dif ns
          (t1.update n { x with data := (x.data.adjustHeight dif).1 })
          (some (match minNewHeight with
            | none => (x.data.adjustHeight dif).2
            | some m => min (x.data.adjustHeight dif).2 m))
      else TreeObject.adjustAll ts dif ns t1 minNewHeight

/-- Source `TreeObject::setBranch(nodeId, newBranchLen)`: the object as the call leaves
it.  `fuel` bounds the depth of `getInOrder`. -/
def TreeObject.setBranch (ts : TreesSet) (fuel : Nat) (t : TreeObject) (nodeId : Nat)
    (newBranchLen : ℚ) : Except Abort TreeObject :=
  match t.getNode ts nodeId with
  | Except.error a => Except.error a
  | Except.ok (none, _) => Except.error Abort.undefined
  | Except.ok (some no, t1) =>
    let t2 := t1.update nodeId { no with data := (no.data.setBranch newBranchLen).1 }
    let dif := newBranchLen - (no.data.setBranch newBranchLen).2
    if dif = 0 then Except.ok t2
    else
      match t2.getInOrder false true fuel nodeId [] with
      | Except.error a => Except.error a
      | Except.ok subt =>
        match TreeObject.adjustAll ts (-dif) subt t2 none with
        | Except.error a => Except.error a
        | Except.ok (t3, minNewHeight) =>
          match minNewHeight with
          | none => Except.ok t3
          | some m =>
            if m < 0 then
              (TreeObject.adjustAll ts (-m) (List.range t3.internals.length) t3 none).map
                (fun r => r.1)
            else Except.ok t3

/-- Source `tree_setBranch(self, args)`: a negative length is refused with a
`ValueError` (`none`), else `setBranch` is called. -/
def tree_setBranch (ts : TreesSet) (fuel : Nat) (t : TreeObject) (n : Nat) (br : ℚ) :
    Option (Except Abort TreeObject) :=
  if br < 0 then none else some (t.setBranch ts fuel n br)

/-- The node `get_node(k)` shows for the node `k` of a tree object. -/
def TreeObject.view (ts : TreesSet) (t : TreeObject) (k : Nat) : Option TreeNodeObject :=
  match t.getNode ts k with
  | Except.ok (some n, _) => some n
  | _ => none

/-- The nodes of a tree object are those of a tree: the vector of node objects, once
there, has an entry a node; `get_node` returns every node; the sons of a node are
distinct, come before it and name it as `prev`; and every node but the last names as
`prev` a node that has it among its sons. -/
def TreeObject.Shaped (ts : TreesSet) (t : TreeObject) : Prop :=
  (∀ v, t.treeNodes = some v → v.length = t.internals.length)
  ∧ (∀ k, k < t.internals.length → ∃ no, t.view ts k = some no)
  ∧ (∀ k no, t.view ts k = some no →
      (no.succ.getD []).Nodup
      ∧ ∀ s ∈ no.succ.getD [], s < k ∧ ∃ c, t.view ts s = some c ∧ c.prev = some k)
  ∧ (∀ n no, t.view ts n = some no → n ≠ getRootID t.internals →
      ∃ p po, no.prev = some p ∧ t.view ts p = some po ∧ n ∈ po.succ.getD [])

/-- The metric invariant of a tree object: every node `n` but the root has a height and a
branch length, its parent has a height, and
`height(parent(n)) - height(n) = branch(n)`. -/
def TreeObject.Metric (ts : TreesSet) (t : TreeObject) : Prop :=
  ∀ n no, t.view ts n = some no → n ≠ getRootID t.internals →
    ∃ p po hp hn b, no.prev = some p ∧ t.view ts p = some po
      ∧ po.data.height = some hp ∧ no.data.height = some hn
      ∧ no.data.branchlength = some b ∧ hp - hn = b

/-- The node object kept in `treeNodes` for the node `k`, if there is one. -/
def TreeObject.kept (t : TreeObject) (k : Nat) : Option TreeNodeObject :=
  (t.treeNodes.getD []).getD k none

/-- The tree object with the vector `treeNodes` allocated. -/
def TreeObject.alloc (t : TreeObject) : TreeObject :=
  { t with treeNodes := some (t.treeNodes.getD (List.replicate t.internals.length none)) }

/-- A node object with `d` added to its height, when it has one. -/
def shiftNode (x : TreeNodeObject) (d : ℚ) : TreeNodeObject :=
  { x with data := { x.data with height := x.data.height.map (fun h => h + d) } }

/-- The ids a walk in post-order from the node `k` gives, the sons of a node being
`sons`; `fuel` bounds the depth. -/
def postOrder (sons : Nat → List Nat) : Nat → Nat → List Nat
  | 0, _ => []
  | fuel + 1, k => ((sons k).map (postOrder sons fuel)).flatten ++ [k]

/-! ## Places for a comment -/

/-- Is the offset `b` of `txt` a place where the loop over the text after a node
(`suffixLoop`, run on `txt`) stands at the start of a turn: the start of the text, or
the place after a byte it appends to the node text, after a comment, or after an
annotation block and the white space that follows it. -/
def suffixSite : Nat → Str → Nat → Bool
  | 0, _, _ => false
  | fuel + 1, txt, b =>
    if b = 0 then true
    else
      match txt with
      | [] => false
      | c :: rest =>
        if has c ['(', ')', ',', ';'] then false
        else if c == '[' then
          if rest.head? = some '&' then
            match parseAttributes (rest.drop 1) with
            | AttrResult.ok n _ =>
              let n1 := n + 3 + skipSpaces (txt.drop (n + 3))
              if b < n1 then false else suffixSite fuel (txt.drop n1) (b - n1)
            | _ => false
          else
            match getStuff ']' '[' rest with
            | none => false
            | some e => if b < e + 2 then false else suffixSite fuel (txt.drop (e + 2)) (b - (e + 2))
        else suffixSite fuel rest (b - 1)

/-- Is the offset `b` of `txt` a place for a comment inside one of the subtrees the loop
over the sons reads; `txt` points at the `(` or `,` before the next subtree, `site` tells
the places of a subtree and `rd` is the recursive call. -/
def sonsSite (site : Str → Nat → Bool) (rd : Str → List ParsedTreeNode → ParseResult) :
    Nat → Str → Nat → Bool
  | 0, _, _ => false
  | k + 1, txt, b =>
    (decide (1 ≤ b) && site (txt.drop 1) (b - 1))
    || (match rd (txt.drop 1) [] with
        | ParseResult.ok n1 _ =>
          let n := skipSpaces (txt.drop (1 + n1))
          decide (((txt.drop (1 + n1)).drop n).head? = some ',')
            && decide (1 + n1 + n ≤ b)
            && sonsSite site rd k ((txt.drop (1 + n1)).drop n) (b - (1 + n1 + n))
        | _ => false)

/-- Is the offset `pos` of the text `txt0` of a subtree a place for a comment:
immediately after the tip label or the closing parenthesis of a node, at a place where
the loop over the text after a node stands (`suffixSite`), or such a place inside one of
the sons.  `fuel` is that of `readSubTree`. -/
def commentSite (strtod : Str → ℚ × Nat) : Nat → Str → Nat → Bool
  | 0, _, _ => false
  | fuel + 1, txt0, pos =>
    let body := txt0.drop (skipSpaces txt0)
    (match (if body.head? = some '(' then
              sonsLoop (readSubTree strtod fuel) fuel body (skipSpaces txt0) [] []
            else readTerminal body (skipSpaces txt0) []) with
      | HeadResult.ok txt1 eat1 _ _ _ =>
        decide (pos = eat1)
          || (decide (eat1 + skipSpaces txt1 ≤ pos)
              && suffixSite (txt1.length + 1) (txt1.drop (skipSpaces txt1))
                  (pos - (eat1 + skipSpaces txt1)))
      | _ => false)
    || (decide (body.head? = some '(') && decide (skipSpaces txt0 ≤ pos)
        && sonsSite (commentSite strtod fuel) (readSubTree strtod fuel) fuel body
            (pos - skipSpaces txt0))

/-- A set that holds the one tree `((A:1,B:1):1,C:2)`. -/
def setThreeTips : TreesSet :=
  (TreesSet.add strtodDigits 9 (TreesSet.new false 4 false) "((A:1,B:1):1,C:2)".toList none).1

/-- The tree object of the tree of `setThreeTips`, before any node object is made. -/
def treeThreeTips : TreeObject :=
  TreeObject.mk [Expanded.mk 0 0 [] (some 1) 0 2 none, Expanded.mk 1 0 [] (some 1) 0 2 none,
    Expanded.mk (-1) 2 [0, 1] (some 1) 1 4 none, Expanded.mk 2 0 [] (some 2) 0 4 none,
    Expanded.mk (-1) 2 [2, 3] none 2 (-1) none] false none

/-! ## Terminals -/

/-- Source `Tree::getTerminals(terms)`: after `setup()`, the field `itax` of every node
of the expansion whose `itax` is not negative, in the order of the vector. -/
def Tree.getTerminals (ts : TreesSet) (fuel nt : Nat) : Except Abort (List Nat) :=
  match ts.setup fuel nt with
  | Except.error a => Except.error a
  | Except.ok internals =>
    Except.ok (internals.filterMap (fun x => if 0 ≤ x.itax then some x.itax.toNat else none))

/-- The indices of the nodes of an expansion that have no sons, in increasing order. -/
def leafIds (internals : List Expanded) : List Nat :=
  (List.range internals.length).filter
    (fun k => (internals.get? k).any (fun x => decide (x.nSons = 0)))

/-! ## Levels in a cladogram -/

/-- The level of the lowest common ancestor of the tips `i` and `i+1` of a forest, the
tips counted from the left, when the trees of the forest are the sons of a node of level
`b`: a tip has level 0 and a node with sons is one level above its highest son
(`Forest.lev` of its sons).  When both tips are in one tree of the forest the ancestor
is inside that tree; when the tip `i` is the last tip of a tree and another tree
follows, it is the node above the forest; `none` when the forest has no tip `i+1`. -/
def Forest.lcaLevel (b : Nat) : Forest → Nat → Option Nat
  | Forest.nil, _ => none
  | Forest.cons _ kids rest, i =>
    if i + 1 < kids.treeTips then kids.lcaLevel kids.lev i
    else if i + 1 = kids.treeTips then (if rest.count = 0 then none else some b)
    else rest.lcaLevel b (i - kids.treeTips)

/-! ## Walks over a tree object -/

/-- The sons `Tree::getNode(k)` gives the node `k` of an expansion: the first `nSons`
entries of `sons`. -/
def sonsIn (internals : List Expanded) (k : Nat) : List Nat :=
  match internals.get? k with
  | some e => e.sons.take e.nSons
  | none => []

/-- The ids `getInOrder(preOrder, ids, k, includeTaxa)` appends when the sons of a node
are `sons`: a node with sons before the walks of its sons in pre-order and after them in
post-order, a node without sons when `includeTaxa` holds; `fuel` bounds the depth. -/
def walkOrder (preOrder includeTaxa : Bool) (sons : Nat → List Nat) : Nat → Nat → List Nat
  | 0, _ => []
  | fuel + 1, k =>
    (if 0 < (sons k).length ∧ preOrder = true then [k] else [])
      ++ ((sons k).map (walkOrder preOrder includeTaxa sons fuel)).flatten
      ++ (if (0 < (sons k).length ∧ preOrder = false) ∨ ((sons k).length = 0 ∧ includeTaxa = true)
          then [k] else [])

/-- The sons `sons` gives the nodes of a forest laid out from the index `base` are the
roots of the trees of their sons. -/
def XForest.SonsAt (sons : Nat → List Nat) : XForest → Nat → Prop
  | XForest.nil, _ => True
  | XForest.cons _ _ _ kids rest, base =>
    sons (base + kids.size) = kids.roots base ∧ kids.SonsAt sons base
      ∧ rest.SonsAt sons (base + kids.size + 1)

/-- The largest of `heights[low..hi)`, for `low < hi`. -/
def rangeMax (hs : List ℚ) (low hi : Nat) : ℚ :=
  (List.range' (low + 1) (hi - low - 1)).foldl (fun m k => max m (hs.getD k 0))
    (hs.getD low 0)

/-- All the positions `k` of `low..hi-1` at which `heights[k]` is the largest of
`heights[low..hi)`, in increasing order. -/
def maxPositions (hs : List ℚ) (low hi : Nat) : List Nat :=
  (List.range' low (hi - low)).filter (fun k => decide (hs.getD k 0 = rangeMax hs low hi))

/-- The trees of a forest followed by the trees of another. -/
def XForest.append : XForest → XForest → XForest
  | XForest.nil, G => G
  | XForest.cons t h a kids rest, G => XForest.cons t h a kids (rest.append G)

/-- The expansions of the ranges `[low, x0]`, `[x0+1, x1]`, ... for the positions
`x0, x1, ...` of `xs`, from left to right; `rec` expands one range. -/
def expandKids (rec : Nat → Nat → XForest) : List Nat → Nat → XForest
  | [], _ => XForest.nil
  | x :: xs, low => (rec low x).append (expandKids rec xs (x + 1))

/-- The expansion of the tips `low..hi` as a tree: a single tip is a node without sons
that carries `tax[low]` and `htax[low]`; for `low < hi` it is a node without a taxon at
the largest height `H` of `heights[low..hi)` whose sons are, from left to right, the
expansions of the ranges that the positions `P0 < P1 < ...` of `H` cut `low..hi` into:
`[low, P0]`, `[P0+1, P1]`, ..., `[P(m-1)+1, hi]`.  `fuel` bounds the depth. -/
def expandSpec (tax : List Nat) (htax hs : List ℚ)
    (atrbs : Option (List (Option Attributes))) : Nat → Nat → Nat → XForest
  | 0, _, _ => XForest.nil
  | fuel + 1, low, hi =>
    if low = hi then
      XForest.cons ((tax.getD low 0 : Nat) : Int) (htax.getD low 0)
        (atrbs.bind (fun a => a.getD low none)) XForest.nil XForest.nil
    else
      XForest.cons (-1) (rangeMax hs low hi)
        (atrbs.bind (fun a => a.getD ((maxPositions hs low hi).headD 0 + tax.length) none))
        (expandKids (expandSpec tax htax hs atrbs fuel) (maxPositions hs low hi ++ [hi]) low)
        XForest.nil

/-- The representation of the tree of `setThreeTips`. -/
def repThreeTips : TreeRep :=
  TreeRep.mk (Packer.simple [0, 1, 2]) (Heights.phylogram [1, 2] none) none

/-- The heights of the nodes without sons, in the order of the layout. -/
def XForest.tipHeights : XForest → List ℚ
  | XForest.nil => []
  | XForest.cons _ height _ kids rest =>
    (if kids.count = 0 then [height] else kids.tipHeights) ++ rest.tipHeights

/-- Every node with sons has two sons at least. -/
def XForest.Forked : XForest → Prop
  | XForest.nil => True
  | XForest.cons _ _ _ kids rest => kids.count ≠ 1 ∧ kids.Forked ∧ rest.Forked

/-! ## Arithmetic in `double` -/

/-- The number of binary digits of `n`, found by halving at most `fuel` times. -/
def binDigitsLoop : Nat → Nat → Nat
  | 0, _ => 0
  | fuel + 1, n => if n = 0 then 0 else binDigitsLoop fuel (n / 2) + 1

/-- The number of binary digits of `n`: 0 for 0, and `k + 1` for `2^k ≤ n < 2^(k+1)`. -/
def binDigits (n : Nat) : Nat :=
  binDigitsLoop n n

/-- The `double` nearest to a rational number: 53 significant binary digits, a tie going
to the even neighbour (IEEE 754 binary64, round to nearest).  The bounds on the exponent
are left out: numbers below the normal range or above the largest `double` are rounded
as if the range had no end. -/
def roundDouble (q : ℚ) : ℚ :=
  if q = 0 then 0
  else
    let a := q.num.natAbs
    let d := q.den
    let k : Int := (binDigits a : Int) - (binDigits d : Int)
    let below : Bool := if 0 ≤ k then decide (a < d * 2 ^ k.toNat)
      else decide (a * 2 ^ (-k).toNat < d)
    let e : Int := (if below then k - 1 else k) - 52
    let num := if 0 ≤ e then a else a * 2 ^ (-e).toNat
    let den := if 0 ≤ e then d * 2 ^ e.toNat else d
    let m0 := num / den
    let r := num % den
    let m := if 2 * r < den then m0 else if den < 2 * r then m0 + 1 else m0 + m0 % 2
    let v : ℚ := if 0 ≤ e then ((m * 2 ^ e.toNat : Nat) : ℚ)
      else (m : ℚ) / ((2 ^ (-e).toNat : Nat) : ℚ)
    if q < 0 then -v else v

/-- Source `TreeNodeDataObject::adjustHeight(dif)` with the sum `height + dif` taken as
the operation on `double` it is: `rnd` rounds the exact sum. -/
def TreeNodeDataObject.adjustHeightFl (rnd : ℚ → ℚ) (d : TreeNodeDataObject) (dif : ℚ) :
    TreeNodeDataObject × ℚ :=
  match d.height with
  | none => ({ d with height := some dif }, dif)
  | some h => ({ d with height := some (rnd (h + dif)) }, rnd (h + dif))

/-- The loops of `TreeObject::setBranch` over the node ids `ns`, as `adjustAll`, with the
sums of `adjustHeight` rounded by `rnd`. -/
def TreeObject.adjustAllFl (rnd : ℚ → ℚ) (ts : TreesSet) (dif : ℚ) :
    List Nat → TreeObject → Option ℚ → Except Abort (TreeObject × Option ℚ)
  | [], t, minNewHeight => Except.ok (t, minNewHeight)
  | n :: ns, t, minNewHeight =>
    match t.getNode ts n with
    | Except.error a => Except.error a
    | Except.ok (none, _) => Except.error Abort.undefined
    | Except.ok (some x, t1) =>
      if x.data.height.isSome then
        TreeObject.adjustAllFl rnd ts dif ns
          (t1.update n { x with data := (x.data.adjustHeightFl rnd dif).1 })
          (some (match minNewHeight with
            | none => (x.data.adjustHeightFl rnd dif).2
            | some m => min (x.data.adjustHeightFl rnd dif).2 m))
      else TreeObject.adjustAllFl rnd ts dif ns t1 minNewHeight

/-- Source `TreeObject::setBranch(nodeId, newBranchLen)` with its arithmetic taken as the
operations on `double` they are: the difference `newBranchLen - brlen` and the sums of
`adjustHeight` are rounded by `rnd`.  With `rnd` the identity this is `setBranch`. -/
def TreeObject.setBranchFl (rnd : ℚ → ℚ) (ts : TreesSet) (fuel : Nat) (t : TreeObject)
    (nodeId : Nat) (newBranchLen : ℚ) : Except Abort TreeObject :=
  match t.getNode ts nodeId with
  | Except.error a => Except.error a
  | Except.ok (none, _) => Except.error Abort.undefined
  | Except.ok (some no, t1) =>
    let t2 := t1.update nodeId { no with data := (no.data.setBranch newBranchLen).1 }
    let dif := rnd (newBranchLen - (no.data.setBranch newBranchLen).2)
    if dif = 0 then Except.ok t2
    else
      match t2.getInOrder false true fuel nodeId [] with
      | Except.error a => Except.error a
      | Except.ok subt =>
        match TreeObject.adjustAllFl rnd ts (-dif) subt t2 none with
        | Except.error a => Except.error a
        | Except.ok (t3, minNewHeight) =>
          match minNewHeight with
          | none => Except.ok t3
          | some m =>
            if m < 0 then
              (TreeObject.adjustAllFl rnd ts (-m) (List.range t3.internals.length) t3
                none).map (fun r => r.1)
            else Except.ok t3

/-! ## Heights that tell the nodes of a tree apart -/

/-- The heights `hs` between neighbouring tips of a forest whose trees hang from a node
at the height `top`: between two trees of the forest the height is `top`, and inside a
tree with sons the heights are those of its sons, which hang from a node strictly below
`top`. -/
def Forest.Ranked : Forest → ℚ → List ℚ → Prop
  | Forest.nil, _, hs => hs = []
  | Forest.cons _ kids rest, top, hs =>
    ∃ hk hr, hs = hk ++ (if rest.count = 0 then [] else top :: hr)
      ∧ (if kids.count = 0 then hk = [] else ∃ hv, hv < top ∧ kids.Ranked hv hk)
      ∧ rest.Ranked top hr

/-- A stand-in for `PyOS_double_to_string(x, 'r', 0, Py_DTSF_ADD_DOT_0, 0)` on whole
numbers, used to evaluate examples: the decimal digits, then `.0`. -/
def fmtWhole (q : ℚ) : Str :=
  (if q < 0 then ['-'] else []) ++ Nat.toDigits 10 (q.num.natAbs / q.den) ++ ['.', '0']

/-- A result of `readSubTree` without the vector of nodes. -/
def ParseResult.erase : ParseResult → ParseResult
  | ParseResult.ok eat _ => ParseResult.ok eat []
  | ParseResult.fail _ => ParseResult.fail []
  | r => r

/-- A state of `readSubTree` after its first part without the vector and the sons. -/
def HeadResult.erase : HeadResult → HeadResult
  | HeadResult.ok txt eat _ taxon _ => HeadResult.ok txt eat [] taxon []
  | HeadResult.fail _ => HeadResult.fail []
  | r => r

/-- Bit `i` of a byte array read as one stream of bits, the high bit of a byte first. -/
def bitAt (bits : List Nat) (i : Nat) : Bool :=
  (bits.getD (i / 8) 0).testBit (7 - i % 8)

/-- The text `(A,'B)`: a quoted label that is never closed, after a comma. -/
def textUnclosedQuote : Str := "(A,".toList ++ squote :: "B)".toList

end Biopy

namespace Biopy

/-! ## The parser -/

theorem readTerminal_erase (txt : Str) (eat : Nat) (n n' : List ParsedTreeNode) :
    (readTerminal txt eat n).erase = (readTerminal txt eat n').erase := by
  unfold readTerminal
  cases txt with
  | nil => rfl
  | cons c rest =>
    simp only
    split
    · cases getStuff c c rest <;> rfl
    · cases barewordLen (c :: rest) <;> rfl

theorem sonsLoop_erase (rd : Str → List ParsedTreeNode → ParseResult)
    (hrd : ∀ t n n', (rd t n).erase = (rd t n').erase) :
    ∀ (k : Nat) (txt : Str) (eat : Nat) (n n' : List ParsedTreeNode) (subs subs' : List Nat),
      (sonsLoop rd k txt eat n subs).erase = (sonsLoop rd k txt eat n' subs').erase := by
  intro k
  induction k with
  | zero => intros; rfl
  | succ k ih =>
    intro txt eat n n' subs subs'
    have h := hrd (txt.drop 1) n n'
    unfold sonsLoop
    cases h1 : rd (txt.drop 1) n <;> cases h2 : rd (txt.drop 1) n' <;>
      simp only [h1, h2, ParseResult.erase, reduceCtorEq] at h
    · -- ok, ok
      rename_i e1 ns1 e2 ns2
      simp only [ParseResult.ok.injEq, and_true] at h
      subst h
      simp only
      split
      · exact ih _ _ _ _ _ _
      · split <;> rfl
    · simp only
      split
      · exact ih _ _ _ _ _ _
      · split <;> rfl
    · rfl
    · rfl

theorem finishNode_erase (strtod : Str → ℚ × Nat) (h h' : HeadResult)
    (he : h.erase = h'.erase) :
    (finishNode strtod h).erase = (finishNode strtod h').erase := by
  cases h <;> cases h' <;> simp only [HeadResult.erase, reduceCtorEq] at he
  · rename_i t1 e1 n1 x1 s1 t2 e2 n2 x2 s2
    simp only [HeadResult.ok.injEq, and_true, true_and] at he
    obtain ⟨rfl, rfl, rfl⟩ := he
    simp only [finishNode]
    generalize suffixLoop (t1.length + 1) (List.drop (skipSpaces t1) t1)
      (e1 + skipSpaces t1) [] none = sr
    cases sr with
    | ok e2 ntxt attrs => simp only; cases labelAndBranch strtod ntxt <;> rfl
    | fail => rfl
    | undefined => rfl
    | timeout => rfl
  · rfl
  · rfl
  · rfl

theorem readSubTree_erase (strtod : Str → ℚ × Nat) :
    ∀ (fuel : Nat) (txt : Str) (n n' : List ParsedTreeNode),
      (readSubTree strtod fuel txt n).erase = (readSubTree strtod fuel txt n').erase := by
  intro fuel
  induction fuel with
  | zero => intros; rfl
  | succ fuel ih =>
    intro txt n n'
    unfold readSubTree
    split
    · exact finishNode_erase strtod _ _ (sonsLoop_erase _ (ih) _ _ _ _ _ _ _)
    · exact finishNode_erase strtod _ _ (readTerminal_erase _ _ _ _)

theorem skipSpaces_eq_zero (txt : Str) (c : Char) (h : txt.head? = some c)
    (hc : isspace c = false) : skipSpaces txt = 0 := by
  cases txt with
  | nil => rfl
  | cons d rest =>
    simp only [List.head?_cons, Option.some.injEq] at h
    subst h
    simp [skipSpaces, hc]

theorem skipSpaces_le (txt : Str) : skipSpaces txt ≤ txt.length := by
  induction txt with
  | nil => simp [skipSpaces]
  | cons c rest ih =>
    simp only [skipSpaces, List.length_cons]
    split <;> omega

theorem IsFlat.length_eq : ∀ (F : Forest) (off : Nat) (ns : List ParsedTreeNode),
    IsFlat F off ns → ns.length = F.size := by
  intro F
  induction F with
  | nil => intro off ns h; simp only [IsFlat] at h; simp [h, Forest.size]
  | cons l k r ihk ihr =>
    intro off ns h
    simp only [IsFlat] at h
    obtain ⟨ns1, n, ns2, rfl, h1, _, _, h2⟩ := h
    simp only [List.length_append, List.length_cons, Forest.size, ihk _ _ h1, ihr _ _ h2]
    omega

theorem Forest.roots_range : ∀ (F : Forest) (off s : Nat),
    s ∈ F.roots off → off ≤ s ∧ s < off + F.size := by
  intro F
  induction F with
  | nil => intro off s h; simp [Forest.roots] at h
  | cons l k r _ ihr =>
    intro off s h
    simp only [Forest.roots, List.mem_cons] at h
    simp only [Forest.size]
    rcases h with rfl | h
    · omega
    · have := ihr _ _ h
      omega

theorem IsFlat.sons_lt : ∀ (F : Forest) (off : Nat) (ns : List ParsedTreeNode),
    IsFlat F off ns → ∀ (j : Nat) (nd : ParsedTreeNode), ns.get? j = some nd →
      ∀ s ∈ nd.sons, off ≤ s ∧ s < off + j := by
  intro F
  induction F with
  | nil =>
    intro off ns h j nd hj
    simp only [IsFlat] at h
    simp [h] at hj
  | cons l k r ihk ihr =>
    intro off ns h j nd hj s hs
    simp only [IsFlat] at h
    obtain ⟨ns1, n, ns2, rfl, h1, hsons, _, h2⟩ := h
    have hlen := IsFlat.length_eq _ _ _ h1
    rcases Nat.lt_trichotomy j ns1.length with hlt | heq | hgt
    · rw [List.get?_eq_getElem?, List.getElem?_append_left hlt, ← List.get?_eq_getElem?] at hj
      exact ihk _ _ h1 j nd hj s hs
    · subst heq
      rw [List.get?_eq_getElem?, List.getElem?_append_right (Nat.le_refl _)] at hj
      simp only [Nat.sub_self, List.getElem?_cons_zero, Option.some.injEq] at hj
      subst hj
      rw [hsons] at hs
      have := Forest.roots_range _ _ _ hs
      omega
    · rw [List.get?_eq_getElem?, List.getElem?_append_right (Nat.le_of_lt hgt)] at hj
      obtain ⟨m, hm⟩ : ∃ m, j - ns1.length = m + 1 := ⟨j - ns1.length - 1, by omega⟩
      rw [hm, List.getElem?_cons_succ, ← List.get?_eq_getElem?] at hj
      have := ihr _ _ h2 m nd hj s hs
      omega

theorem suffixLoop_eat_le : ∀ (fuel : Nat) (txt : Str) (eat : Nat) (ntxt : Str)
    (attrs : Option Attributes) (eat2 : Nat) (ntxt2 : Str) (attrs2 : Option Attributes),
    suffixLoop fuel txt eat ntxt attrs = SuffixResult.ok eat2 ntxt2 attrs2 → eat ≤ eat2 := by
  intro fuel
  induction fuel with
  | zero => intro txt eat ntxt attrs eat2 ntxt2 attrs2 h; simp [suffixLoop] at h
  | succ fuel ih =>
    intro txt eat ntxt attrs eat2 ntxt2 attrs2 h
    unfold suffixLoop at h
    cases txt with
    | nil => simp only [SuffixResult.ok.injEq] at h; omega
    | cons c rest =>
      simp only at h
      split at h
      · simp only [SuffixResult.ok.injEq] at h; omega
      · split at h
        · split at h
          · split at h
            · have := ih _ _ _ _ _ _ _ h; omega
            · simp at h
            · simp at h
            · simp at h
          · split at h
            · simp at h
            · have := ih _ _ _ _ _ _ _ h; omega
        · have := ih _ _ _ _ _ _ _ h; omega

theorem finishNode_ok (strtod : Str → ℚ × Nat) (h : HeadResult) (eat : Nat)
    (n1 : List ParsedTreeNode) (hf : finishNode strtod h = ParseResult.ok eat n1) :
    ∃ txt1 eat1 nodes1 tx sons node, h = HeadResult.ok txt1 eat1 nodes1 tx sons
      ∧ n1 = nodes1 ++ [node] ∧ node.sons = sons ∧ eat1 ≤ eat := by
  cases h with
  | timeout => simp [finishNode] at hf
  | undefined => simp [finishNode] at hf
  | fail nodes1 => simp [finishNode] at hf
  | ok txt1 eat1 nodes1 tx sons =>
    simp only [finishNode] at hf
    split at hf
    · simp at hf
    · simp at hf
    · simp at hf
    · rename_i eat2 ntxt attrs hs
      have hle := suffixLoop_eat_le _ _ _ _ _ _ _ _ hs
      split at hf
      · simp at hf
      · simp at hf
      · rename_i tx2 br _
        simp only [ParseResult.ok.injEq] at hf
        obtain ⟨rfl, rfl⟩ := hf
        exact ⟨txt1, eat1, nodes1, tx, sons, _, rfl, rfl, rfl, by omega⟩

theorem readTerminal_ok (txt : Str) (eat : Nat) (n : List ParsedTreeNode) (txt1 : Str)
    (eat1 : Nat) (nodes1 : List ParsedTreeNode) (tx : Str) (sons : List Nat)
    (h : readTerminal txt eat n = HeadResult.ok txt1 eat1 nodes1 tx sons) :
    nodes1 = n ∧ sons = [] ∧ eat ≤ eat1 := by
  unfold readTerminal at h
  cases txt with
  | nil => simp at h
  | cons c rest =>
    simp only at h
    split at h
    · split at h
      · simp at h
      · simp only [HeadResult.ok.injEq] at h
        obtain ⟨_, rfl, rfl, _, rfl⟩ := h
        exact ⟨rfl, rfl, by omega⟩
    · split at h
      · simp at h
      · simp only [HeadResult.ok.injEq] at h
        obtain ⟨_, rfl, rfl, _, rfl⟩ := h
        exact ⟨rfl, rfl, by omega⟩

theorem lastIndex_append (n : List ParsedTreeNode) (ns : List ParsedTreeNode)
    (h : ns ≠ []) : lastIndex (n ++ ns) = n.length + ns.length - 1 := by
  unfold lastIndex
  have : 0 < ns.length := List.length_pos.mpr h
  simp only [List.length_append]
  split <;> omega

/-- Once the recursive call fails on the text after a comma, the loop over the sons does
not return a node. -/
theorem sonsLoop_stuck (rd : Str → List ParsedTreeNode → ParseResult) (txt : Str)
    (hhead : txt.head? = some '(' ∨ txt.head? = some ',')
    (hfail : ∀ n, ∃ n1, rd (txt.drop 1) n = ParseResult.fail n1) :
    ∀ (k : Nat) (eat : Nat) (n : List ParsedTreeNode) (subs : List Nat),
      sonsLoop rd k txt eat n subs = HeadResult.timeout
        ∨ ∃ n1, sonsLoop rd k txt eat n subs = HeadResult.fail n1 := by
  have hsp : skipSpaces txt = 0 := by
    rcases hhead with h | h
    · exact skipSpaces_eq_zero txt _ h (by decide)
    · exact skipSpaces_eq_zero txt _ h (by decide)
  intro k
  induction k with
  | zero => intro eat n subs; left; rfl
  | succ k ih =>
    intro eat n subs
    obtain ⟨n1, hn1⟩ := hfail n
    unfold sonsLoop
    simp only [hn1, hsp, List.drop_zero]
    split
    · exact ih _ _ _
    · split
      · rename_i h1 h2
        rcases hhead with h | h
        · rw [h] at h2; simp at h2
        · exact absurd h h1
      · right; exact ⟨_, rfl⟩

theorem sonsLoop_flat (rd : Str → List ParsedTreeNode → ParseResult)
    (hrdK : ∀ t n n', (rd t n).erase = (rd t n').erase)
    (hrd : ∀ t n e n1, rd t n = ParseResult.ok e n1 →
      ∃ l k ns, n1 = n ++ ns ∧ IsFlat (Forest.cons l k Forest.nil) n.length ns) :
    ∀ (k : Nat) (txt : Str) (eat : Nat) (n : List ParsedTreeNode) (subs : List Nat)
      (txt1 : Str) (eat1 : Nat) (n1 : List ParsedTreeNode) (tx : Str) (sons : List Nat),
      (txt.head? = some '(' ∨ txt.head? = some ',') →
      sonsLoop rd k txt eat n subs = HeadResult.ok txt1 eat1 n1 tx sons →
      ∃ G ns, G.count ≠ 0 ∧ n1 = n ++ ns ∧ IsFlat G n.length ns
        ∧ sons = subs ++ G.roots n.length ∧ eat ≤ eat1 := by
  intro k
  induction k with
  | zero => intro txt eat n subs txt1 eat1 n1 tx sons _ h; simp [sonsLoop] at h
  | succ k ih =>
    intro txt eat n subs txt1 eat1 n1 tx sons hhead h
    cases hr : rd (txt.drop 1) n with
    | timeout => unfold sonsLoop at h; simp only [hr, reduceCtorEq] at h
    | undefined => unfold sonsLoop at h; simp only [hr, reduceCtorEq] at h
    | fail nf =>
      exfalso
      have hfail : ∀ n', ∃ n1', rd (txt.drop 1) n' = ParseResult.fail n1' := by
        intro n'
        have := hrdK (txt.drop 1) n n'
        rw [hr] at this
        cases hr' : rd (txt.drop 1) n' with
        | fail x => exact ⟨_, rfl⟩
        | ok e x => rw [hr'] at this; simp [ParseResult.erase] at this
        | undefined => rw [hr'] at this; simp [ParseResult.erase] at this
        | timeout => rw [hr'] at this; simp [ParseResult.erase] at this
      rcases sonsLoop_stuck rd txt hhead hfail (k + 1) eat n subs with h' | ⟨_, h'⟩ <;>
        simp [h'] at h
    | ok e nodes1 =>
      obtain ⟨l, kk, nst, rfl, hflat⟩ := hrd _ _ _ _ hr
      have hflat' := hflat
      simp only [IsFlat] at hflat'
      obtain ⟨ns1, nt, ns2, rfl, hk, hsons, hlab, rfl⟩ := hflat'
      have hlen1 := IsFlat.length_eq _ _ _ hk
      have hlast : lastIndex (n ++ (ns1 ++ [nt])) = n.length + kk.size := by
        rw [lastIndex_append _ _ (by simp)]
        simp [hlen1]
      unfold sonsLoop at h
      simp only [hr, hlast] at h
      split at h
      · rename_i hc
        obtain ⟨G, ns, _, rfl, hG, rfl, hle⟩ := ih _ _ _ _ _ _ _ _ _ (Or.inr hc) h
        refine ⟨Forest.cons l kk G, ns1 ++ nt :: ns, by simp [Forest.count], by simp, ?_, ?_, by omega⟩
        · simp only [IsFlat]
          refine ⟨ns1, nt, ns, rfl, hk, hsons, hlab, ?_⟩
          have : (n ++ (ns1 ++ [nt])).length = n.length + kk.size + 1 := by simp [hlen1]; omega
          rw [← this]; exact hG
        · simp only [Forest.roots, List.append_assoc, List.singleton_append]
          have : (n ++ (ns1 ++ [nt])).length = n.length + kk.size + 1 := by simp [hlen1]; omega
          rw [this]
      · split at h
        · simp only [HeadResult.ok.injEq] at h
          obtain ⟨_, rfl, rfl, _, rfl⟩ := h
          refine ⟨Forest.cons l kk Forest.nil, ns1 ++ [nt], by simp [Forest.count], rfl, hflat, ?_, by omega⟩
          simp [Forest.roots]
        · simp at h

theorem readSubTree_flat (strtod : Str → ℚ × Nat) :
    ∀ (fuel : Nat) (txt : Str) (n : List ParsedTreeNode) (eat : Nat)
      (n1 : List ParsedTreeNode),
      readSubTree strtod fuel txt n = ParseResult.ok eat n1 →
      ∃ l k ns, n1 = n ++ ns ∧ IsFlat (Forest.cons l k Forest.nil) n.length ns := by
  intro fuel
  induction fuel with
  | zero => intro txt n eat n1 h; simp [readSubTree] at h
  | succ fuel ih =>
    intro txt n eat n1 h
    unfold readSubTree at h
    split at h
    · rename_i hhead
      obtain ⟨txt1, eat1, nodes1, tx, sons, node, hh, rfl, hsons, _⟩ := finishNode_ok _ _ _ _ h
      obtain ⟨G, ns, hG, rfl, hflat, rfl, _⟩ :=
        sonsLoop_flat _ (readSubTree_erase strtod fuel) ih _ _ _ _ _ _ _ _ _ _ (Or.inl hhead) hh
      refine ⟨[], G, ns ++ [node], by simp, ?_⟩
      simp only [IsFlat]
      refine ⟨ns, node, [], rfl, hflat, by simpa using hsons, by simp [hG], rfl⟩
    · obtain ⟨txt1, eat1, nodes1, tx, sons, node, hh, rfl, hsons, _⟩ := finishNode_ok _ _ _ _ h
      obtain ⟨rfl, rfl, _⟩ := readTerminal_ok _ _ _ _ _ _ _ _ hh
      refine ⟨node.taxon, Forest.nil, [node], rfl, ?_⟩
      simp only [IsFlat]
      exact ⟨[], node, [], rfl, rfl, by simpa [Forest.roots] using hsons, by simp [Forest.count], rfl⟩

theorem readSubTree_unclosed_quote (strtod : Str → ℚ × Nat) (f : Nat)
    (n : List ParsedTreeNode) :
    readSubTree strtod f (squote :: "B)".toList) n = ParseResult.timeout
      ∨ readSubTree strtod f (squote :: "B)".toList) n = ParseResult.fail n := by
  cases f with
  | zero => left; rfl
  | succ f =>
    right
    simp [readSubTree, skipSpaces, isspace, squote, dquote, readTerminal, getStuff, finishNode, backslash]

theorem sonsLoop_unclosed_quote (strtod : Str → ℚ × Nat) (f : Nat) :
    ∀ (k eat : Nat) (n : List ParsedTreeNode) (subs : List Nat),
      sonsLoop (readSubTree strtod f) k (',' :: squote :: "B)".toList) eat n subs
        = HeadResult.timeout := by
  intro k
  induction k with
  | zero => intros; rfl
  | succ k ih =>
    intro eat n subs
    unfold sonsLoop
    rcases readSubTree_unclosed_quote strtod f n with h | h
    · simp only [List.drop_succ_cons, List.drop_zero, h]
    · simp only [List.drop_succ_cons, List.drop_zero, h]
      have hs : skipSpaces (',' :: squote :: "B)".toList) = 0 := by
        simp [skipSpaces, isspace]
      simp only [hs, List.drop_zero, List.head?_cons, if_true]
      exact ih _ _ _

/-- C9 (failing input): on the text `(A,'B)` the parser returns for no amount of fuel.
The subtree after the comma fails, the loop over the sons does not test the `-1` it gets
back and calls `readSubTree` at the same comma again, for ever. -/
theorem readSubTree_never_returns (strtod : Str → ℚ × Nat) (fuel : Nat) :
    readSubTree strtod fuel textUnclosedQuote [] = ParseResult.timeout := by
  cases fuel with
  | zero => rfl
  | succ f =>
    have h1 : sonsLoop (readSubTree strtod f) f textUnclosedQuote 0 [] [] = HeadResult.timeout := by
      cases f with
      | zero => rfl
      | succ k =>
        unfold sonsLoop
        have h2 : readSubTree strtod (k + 1) (textUnclosedQuote.drop 1) []
            = ParseResult.ok 1 [ParsedTreeNode.mk ['A'] none [] none] := by
          simp [textUnclosedQuote, readSubTree, skipSpaces, isspace, squote, dquote, readTerminal,
            barewordLen, endsBareword, finishNode, suffixLoop, has, labelAndBranch]
        simp only [h2]
        have h3 : List.drop (1 + 1) textUnclosedQuote = ',' :: squote :: "B)".toList := by
          simp [textUnclosedQuote]
        have hs : skipSpaces (',' :: squote :: "B)".toList) = 0 := by
          simp [skipSpaces, isspace]
        simp only [h3, hs, List.drop_zero, List.head?_cons, if_true]
        exact sonsLoop_unclosed_quote strtod (k + 1) k _ _ _
    unfold readSubTree
    have hs : skipSpaces textUnclosedQuote = 0 := by
      simp [textUnclosedQuote, skipSpaces, isspace]
    simp only [hs, List.drop_zero]
    have hh : textUnclosedQuote.head? = some '(' := by simp [textUnclosedQuote]
    simp only [hh, if_true, h1, finishNode]

theorem readSubTree_eat_ge (strtod : Str → ℚ × Nat) (fuel : Nat) (txt : Str)
    (n : List ParsedTreeNode) (eat : Nat) (n1 : List ParsedTreeNode)
    (h : readSubTree strtod fuel txt n = ParseResult.ok eat n1) : skipSpaces txt ≤ eat := by
  cases fuel with
  | zero => simp [readSubTree] at h
  | succ fuel =>
    unfold readSubTree at h
    split at h
    · rename_i hhead
      obtain ⟨txt1, eat1, nodes1, tx, sons, node, hh, _, _, hle⟩ := finishNode_ok _ _ _ _ h
      obtain ⟨G, ns, _, _, _, _, hle2⟩ :=
        sonsLoop_flat _ (readSubTree_erase strtod fuel) (readSubTree_flat strtod fuel)
          _ _ _ _ _ _ _ _ _ _ (Or.inl hhead) hh
      omega
    · obtain ⟨txt1, eat1, nodes1, tx, sons, node, hh, _, _, hle⟩ := finishNode_ok _ _ _ _ h
      obtain ⟨_, _, hle2⟩ := readTerminal_ok _ _ _ _ _ _ _ _ hh
      omega

theorem checkTreeEnd_some_iff (strtod : Str → ℚ × Nat) (fuel : Nat) (txt : Str)
    (nc : Nat) (nodes : List ParsedTreeNode)
    (h : readSubTree strtod fuel txt [] = ParseResult.ok nc nodes) :
    (checkTreeEnd txt (some nc) = none ↔
      (nc + skipSpaces (txt.drop nc) = txt.length
        ∨ (nc + skipSpaces (txt.drop nc) + 1 = txt.length ∧ txt.getLast? = some ';')))
    ∧ (checkTreeEnd txt (some nc) ≠ none →
        checkTreeEnd txt (some nc) = some AddResult.extraneous) := by
  have hge := readSubTree_eat_ge strtod fuel txt [] nc nodes h
  have hn : (if 0 < nc then nc + skipSpaces (txt.drop nc) else nc)
      = nc + skipSpaces (txt.drop nc) := by
    split
    · rfl
    · have : nc = 0 := by omega
      subst this
      have : skipSpaces txt = 0 := by omega
      simp [this]
  have hlast : ∀ m, m + 1 = txt.length → (txt.get? m = some ';' ↔ txt.getLast? = some ';') := by
    intro m hm
    rw [List.getLast?_eq_getElem?, List.get?_eq_getElem?]
    have : txt.length - 1 = m := by omega
    rw [this]
  unfold checkTreeEnd
  simp only [hn]
  constructor
  · constructor
    · intro hc
      split at hc
      · rename_i hcond
        rcases hcond with h1 | ⟨h1, h2⟩
        · exact Or.inl h1
        · exact Or.inr ⟨h1, (hlast _ h1).mp h2⟩
      · simp at hc
    · intro hcond
      rw [if_pos]
      rcases hcond with h1 | ⟨h1, h2⟩
      · exact Or.inl h1
      · exact Or.inr ⟨h1, (hlast _ h1).mpr h2⟩
  · intro hne
    split
    · rename_i hcond
      rw [if_pos hcond] at hne
      exact absurd rfl hne
    · rfl

/-- C7: on every text on which the parser succeeds, every index in the `sons` of a parsed
node is smaller than the index of that node in the vector and names a node of the
vector: sons come before their parent. -/
theorem parsed_sons_precede (strtod : Str → ℚ × Nat) (fuel : Nat) (txt : Str) (eat : Nat)
    (nodes : List ParsedTreeNode)
    (h : readSubTree strtod fuel txt [] = ParseResult.ok eat nodes)
    (i : Nat) (nd : ParsedTreeNode) (hi : nodes.get? i = some nd) (s : Nat)
    (hs : s ∈ nd.sons) :
    s < i ∧ ∃ m, nodes.get? s = some m := by
  obtain ⟨l, k, ns, hns, hflat⟩ := readSubTree_flat strtod fuel txt [] eat nodes h
  simp only [List.nil_append, List.length_nil] at hflat hns
  subst hns
  have h1 := IsFlat.sons_lt _ _ _ hflat i nd hi s hs
  have hlt : i < nodes.length := by
    rw [List.get?_eq_getElem?] at hi
    exact (List.getElem?_eq_some_iff.mp hi).1
  refine ⟨by omega, ?_⟩
  have : s < nodes.length := by omega
  exact ⟨nodes.get ⟨s, this⟩, by rw [List.get?_eq_getElem?]; exact List.getElem?_eq_getElem this⟩

theorem parsed_sons_precede_witness :
    readSubTree strtodDigits 9 "((A,B),C);".toList [] =
        ParseResult.ok 9 [ParsedTreeNode.mk ['A'] none [] none,
          ParsedTreeNode.mk ['B'] none [] none, ParsedTreeNode.mk [] none [0, 1] none,
          ParsedTreeNode.mk ['C'] none [] none, ParsedTreeNode.mk [] none [2, 3] none]
      ∧ (2 < 4 ∧ ∃ m, List.get? [ParsedTreeNode.mk ['A'] none [] none,
          ParsedTreeNode.mk ['B'] none [] none, ParsedTreeNode.mk [] none [0, 1] none,
          ParsedTreeNode.mk ['C'] none [] none, ParsedTreeNode.mk [] none [2, 3] none] 2
            = some m) :=
  ⟨by decide!, parsed_sons_precede strtodDigits 9 "((A,B),C);".toList 9 _ (by decide!) 4
    (ParsedTreeNode.mk [] none [2, 3] none) (by decide!) 2 (by decide!)⟩

theorem add_of_rejected (strtod : Str → ℚ × Nat) (fuel : Nat) (ts : TreesSet)
    (treeTxt : Str) (kwds : Option Attributes) (nc : Nat) (nodes : List ParsedTreeNode)
    (err : AddResult)
    (hr : readSubTree strtod fuel treeTxt [] = ParseResult.ok nc nodes)
    (hc : checkTreeEnd treeTxt (some nc) = some err) :
    ts.add strtod fuel treeTxt kwds = (ts, err) := by
  simp only [TreesSet.add, hr, hc]

theorem add_of_accepted (strtod : Str → ℚ × Nat) (fuel : Nat) (ts : TreesSet)
    (treeTxt : Str) (kwds : Option Attributes) (nc : Nat) (nodes : List ParsedTreeNode)
    (hr : readSubTree strtod fuel treeTxt [] = ParseResult.ok nc nodes)
    (hc : checkTreeEnd treeTxt (some nc) = none) :
    ts.add strtod fuel treeTxt kwds =
      if ts.store then
        ({ ts with treesAttributes := ts.treesAttributes ++ [kwds],
                   asNodes := ts.asNodes ++ [nodes] }, AddResult.added ts.asNodes.length)
      else
        match TreesSet.nodes2rep { ts with treesAttributes := ts.treesAttributes ++ [kwds] }
            fuel nodes with
        | (ts2, Except.error e) => (ts2, AddResult.abort e)
        | (ts2, Except.ok rep) =>
          ({ ts2 with trees := ts2.trees ++ [rep] }, AddResult.added ts2.trees.length) := by
  unfold TreesSet.add
  rw [hr]
  simp only [hc]
  try (split <;> rfl)

theorem add_accepted_result (strtod : Str → ℚ × Nat) (fuel : Nat) (ts : TreesSet)
    (treeTxt : Str) (kwds : Option Attributes) (nc : Nat) (nodes : List ParsedTreeNode)
    (hr : readSubTree strtod fuel treeTxt [] = ParseResult.ok nc nodes)
    (hc : checkTreeEnd treeTxt (some nc) = none) :
    (∃ i, (ts.add strtod fuel treeTxt kwds).2 = AddResult.added i)
      ∨ ∃ e, (ts.add strtod fuel treeTxt kwds).2 = AddResult.abort e := by
  rw [add_of_accepted strtod fuel ts treeTxt kwds nc nodes hr hc]
  split
  · exact Or.inl ⟨_, rfl⟩
  · split
    · exact Or.inr ⟨_, rfl⟩
    · exact Or.inl ⟨_, rfl⟩

/-- C8: when `add` reports a parse error, be it a failure of the parser or extraneous
characters after the tree, it leaves the set as it was: the trees, the taxon table, the
stored node lists and the attributes of the trees. -/
theorem add_parse_error_unchanged (strtod : Str → ℚ × Nat) (fuel : Nat) (ts : TreesSet)
    (treeTxt : Str) (kwds : Option Attributes)
    (h : (∃ off, (ts.add strtod fuel treeTxt kwds).2 = AddResult.parseError off)
      ∨ (ts.add strtod fuel treeTxt kwds).2 = AddResult.extraneous) :
    (ts.add strtod fuel treeTxt kwds).1 = ts := by
  cases hr : readSubTree strtod fuel treeTxt [] with
  | timeout => simp only [TreesSet.add, hr]
  | undefined => simp only [TreesSet.add, hr]
  | fail nodes =>
    cases hc : checkTreeEnd treeTxt none <;> simp only [TreesSet.add, hr, hc]
  | ok nc nodes =>
    cases hc : checkTreeEnd treeTxt (some nc) with
    | some err => rw [add_of_rejected strtod fuel ts treeTxt kwds nc nodes err hr hc]
    | none =>
      exfalso
      rcases add_accepted_result strtod fuel ts treeTxt kwds nc nodes hr hc with ⟨i, hi⟩ | ⟨e, he⟩
      · rw [hi] at h; simp at h
      · rw [he] at h; simp at h

theorem add_parse_error_unchanged_witness :
    (TreesSet.add strtodDigits 20 (TreesSet.new true 8 false) "(A,B);xyz".toList none).2
        = AddResult.extraneous
      ∧ (TreesSet.add strtodDigits 20 (TreesSet.new true 8 false) "(A,B);xyz".toList none).1
        = TreesSet.new true 8 false :=
  ⟨by decide!, add_parse_error_unchanged _ _ _ _ _ (Or.inr (by decide!))⟩

/-- C10: when the parser succeeds and `n` bytes are taken once the white space after the
tree is skipped, `parseTree` and `add` take the text exactly when `n` is the length of
the text, or `n + 1` is and the last byte is a semicolon; in every other case both report
extraneous characters and `add` leaves the set as it was.  When the text is taken `add`
goes on to store the tree. -/
theorem tree_end_accepted_iff (strtod : Str → ℚ × Nat) (fuel : Nat) (ts : TreesSet)
    (txt : Str) (kwds : Option Attributes) (nc : Nat) (nodes : List ParsedTreeNode)
    (h : readSubTree strtod fuel txt [] = ParseResult.ok nc nodes) :
    (parseTree strtod fuel txt = Except.ok nodes ↔
      (nc + skipSpaces (txt.drop nc) = txt.length
        ∨ (nc + skipSpaces (txt.drop nc) + 1 = txt.length ∧ txt.getLast? = some ';')))
    ∧ ((ts.add strtod fuel txt kwds).2 ≠ AddResult.extraneous ↔
      (nc + skipSpaces (txt.drop nc) = txt.length
        ∨ (nc + skipSpaces (txt.drop nc) + 1 = txt.length ∧ txt.getLast? = some ';')))
    ∧ (¬ (nc + skipSpaces (txt.drop nc) = txt.length
        ∨ (nc + skipSpaces (txt.drop nc) + 1 = txt.length ∧ txt.getLast? = some ';')) →
      parseTree strtod fuel txt = Except.error AddResult.extraneous
        ∧ ts.add strtod fuel txt kwds = (ts, AddResult.extraneous))
    ∧ ∀ off, (ts.add strtod fuel txt kwds).2 ≠ AddResult.parseError off := by
  obtain ⟨hiff, hex⟩ := checkTreeEnd_some_iff strtod fuel txt nc nodes h
  cases hc : checkTreeEnd txt (some nc) with
  | none =>
    have hacc := hiff.mp hc
    have hres := add_accepted_result strtod fuel ts txt kwds nc nodes h hc
    refine ⟨?_, ?_, fun hn => absurd hacc hn, ?_⟩
    · simp only [parseTree, h, hc, true_iff]; exact hacc
    · simp only [hacc, iff_true]
      rcases hres with ⟨i, hi⟩ | ⟨e, he⟩
      · rw [hi]; simp
      · rw [he]; simp
    · intro off
      rcases hres with ⟨i, hi⟩ | ⟨e, he⟩
      · rw [hi]; simp
      · rw [he]; simp
  | some err =>
    have herr : err = AddResult.extraneous := by
      have := hex (by rw [hc]; simp)
      rw [hc] at this
      exact Option.some.inj this
    subst herr
    have hnacc : ¬ (nc + skipSpaces (txt.drop nc) = txt.length
        ∨ (nc + skipSpaces (txt.drop nc) + 1 = txt.length ∧ txt.getLast? = some ';')) := by
      intro hacc
      rw [hiff.mpr hacc] at hc
      simp at hc
    have hadd := add_of_rejected strtod fuel ts txt kwds nc nodes _ h hc
    refine ⟨?_, ?_, fun _ => ⟨?_, hadd⟩, ?_⟩
    · simp only [parseTree, h, hc, hnacc, iff_false]; simp
    · simp only [hnacc, iff_false, hadd]; simp
    · simp only [parseTree, h, hc]
    · intro off; rw [hadd]; simp

theorem tree_end_accepted_iff_witness :
    readSubTree strtodDigits 9 "(A,B);xyz".toList [] =
        ParseResult.ok 5 [ParsedTreeNode.mk ['A'] none [] none,
          ParsedTreeNode.mk ['B'] none [] none, ParsedTreeNode.mk [] none [0, 1] none]
      ∧ parseTree strtodDigits 9 "(A,B);xyz".toList = Except.error AddResult.extraneous
      ∧ TreesSet.add strtodDigits 9 (TreesSet.new false 8 false) "(A,B);xyz".toList none
          = (TreesSet.new false 8 false, AddResult.extraneous) :=
  ⟨by decide!,
   ((tree_end_accepted_iff strtodDigits 9 (TreesSet.new false 8 false) "(A,B);xyz".toList
      none 5 [ParsedTreeNode.mk ['A'] none [] none, ParsedTreeNode.mk ['B'] none [] none,
        ParsedTreeNode.mk [] none [0, 1] none] (by decide!)).2.2.1 (by decide!))⟩

end Biopy

namespace Biopy

/-! ## The bit packer -/

theorem testBit_of_lt_two_pow (v w k : Nat) (hv : v < 2 ^ w) (hk : w ≤ k) :
    v.testBit k = false :=
  Nat.testBit_lt_two_pow (Nat.lt_of_lt_of_le hv (Nat.pow_le_pow_right (by decide) hk))

theorem testBit_lowerNbits (n j : Nat) (hn : n ≤ 8) :
    (lowerNbits n).testBit j = decide (j < n) := by
  unfold lowerNbits
  rw [Nat.one_shiftLeft]
  have h1 : 2 ^ n ≤ 2 ^ 8 := Nat.pow_le_pow_right (by decide) hn
  have h2 : 0 < 2 ^ n := Nat.pow_pos (by decide)
  rw [Nat.mod_eq_of_lt (by omega)]
  exact Nat.testBit_two_pow_sub_one n j

theorem testBit_upperNbits (n j : Nat) :
    (upperNbits n).testBit j = decide (8 - n ≤ j ∧ j < 8) := by
  unfold upperNbits
  rw [Nat.testBit_xor, testBit_lowerNbits _ _ (by omega)]
  have : (255 : Nat).testBit j = decide (j < 8) := Nat.testBit_two_pow_sub_one 8 j
  rw [this]
  by_cases h1 : j < 8 - n <;> by_cases h2 : j < 8 <;> simp [h1, h2] <;> omega

theorem testBit_packMask (v s j : Nat) :
    ((((v <<< s) % 4294967296) &&& (((1 <<< s) - 1) ^^^ 4294967295))).testBit j
      = (decide (j < 32) && decide (s ≤ j) && v.testBit (j - s)) := by
  have h32 : (4294967296 : Nat) = 2 ^ 32 := by norm_num
  have hm : (4294967295 : Nat).testBit j = decide (j < 32) := Nat.testBit_two_pow_sub_one 32 j
  rw [Nat.testBit_and, Nat.testBit_xor, hm, Nat.one_shiftLeft, Nat.testBit_two_pow_sub_one, h32,
    Nat.testBit_mod_two_pow, Nat.testBit_shiftLeft]
  by_cases h1 : j < 32 <;> by_cases h2 : s ≤ j <;> simp [h1, h2]

theorem testBit_byte (b j : Nat) (hb : b < 256) (hj : 8 ≤ j) : b.testBit j = false :=
  testBit_of_lt_two_pow b 8 j hb hj

theorem getD_set_nat (l : List Nat) (c i b : Nat) :
    (l.set c b).getD i 0 = if i = c ∧ c < l.length then b else l.getD i 0 := by
  rw [List.getD_eq_getElem?_getD, List.getD_eq_getElem?_getD, List.getElem?_set]
  by_cases h : c = i
  · subst h
    by_cases h2 : c < l.length
    · simp [h2]
    · simp [h2, List.getElem?_eq_none (Nat.le_of_not_lt h2)]
  · simp [h, Ne.symm h]

theorem bitAt_set (l : List Nat) (c b i : Nat) (hc : c < l.length) :
    bitAt (l.set c b) i = if i / 8 = c then b.testBit (7 - i % 8) else bitAt l i := by
  unfold bitAt
  rw [getD_set_nat]
  by_cases h : i / 8 = c <;> simp [h, hc]

theorem mem_set_lt (l : List Nat) (c b : Nat) (hl : ∀ x ∈ l, x < 256) (hb : b < 256) :
    ∀ x ∈ l.set c b, x < 256 := by
  intro x hx
  rcases List.mem_or_eq_of_mem_set hx with h | h
  · exact hl x h
  · exact h ▸ hb

theorem getD_lt (l : List Nat) (i : Nat) (hl : ∀ x ∈ l, x < 256) : l.getD i 0 < 256 := by
  rw [List.getD_eq_getElem?_getD]
  cases h : l[i]? with
  | none => simp
  | some x => simp; exact hl x (List.getElem?_mem h)

theorem packStep_spec (w : Nat) (st : PackState) (v : Nat) (hw : 1 ≤ w) (hw7 : w ≤ 7)
    (hv : v < 2 ^ w) (hloc : st.loc ≤ 8)
    (hroom : 8 * st.cur + st.loc + w ≤ 8 * st.bits.length)
    (hbytes : ∀ b ∈ st.bits, b < 256) :
    ∃ st', packStep w st v = Except.ok st' ∧ st'.bits.length = st.bits.length
      ∧ 8 * st'.cur + st'.loc = 8 * st.cur + st.loc + w ∧ st'.loc ≤ 8
      ∧ (∀ b ∈ st'.bits, b < 256)
      ∧ ∀ i, bitAt st'.bits i = (bitAt st.bits i ||
          (decide (8 * st.cur + st.loc ≤ i) && decide (i < 8 * st.cur + st.loc + w)
            && v.testBit (8 * st.cur + st.loc + w - 1 - i))) := by
  have hcur : st.cur < st.bits.length := by omega
  have h256 : (256 : Nat) = 2 ^ 8 := by norm_num
  have h32 : (4294967296 : Nat) = 2 ^ 32 := by norm_num
  unfold packStep
  simp only [if_neg (Nat.not_le.mpr hcur)]
  by_cases hfit : st.loc + w ≤ 8
  · simp only [if_pos hfit]
    refine ⟨_, rfl, by simp, by simp; omega, hfit, ?_, ?_⟩
    · exact mem_set_lt _ _ _ hbytes (Nat.mod_lt _ (by decide))
    · intro i
      simp only []
      rw [bitAt_set _ _ _ _ hcur]
      by_cases hi : i / 8 = st.cur
      · simp only [if_pos hi]
        rw [h256, Nat.testBit_mod_two_pow, Nat.testBit_or, h32, Nat.testBit_mod_two_pow,
          Nat.testBit_shiftLeft]
        have hb : bitAt st.bits i = (st.bits.getD st.cur 0).testBit (7 - i % 8) := by
          unfold bitAt; rw [hi]
        rw [hb]
        have h7 : 7 - i % 8 < 8 := by omega
        have h7' : 7 - i % 8 < 32 := by omega
        simp only [h7, h7', decide_True, Bool.true_and]
        congr 1
        by_cases hlo : 8 * st.cur + st.loc ≤ i
        · by_cases hhi : i < 8 * st.cur + st.loc + w
          · have e1 : 7 - i % 8 ≥ 8 - (st.loc + w) := by omega
            have e2 : 7 - i % 8 - (8 - (st.loc + w)) = 8 * st.cur + st.loc + w - 1 - i := by omega
            simp [hlo, hhi, e1, e2]
          · have e1 : ¬ (7 - i % 8 ≥ 8 - (st.loc + w)) := by omega
            simp [hlo, hhi, e1]
        · have e3 : v.testBit (7 - i % 8 - (8 - (st.loc + w))) = false := by
            by_cases e1 : 7 - i % 8 ≥ 8 - (st.loc + w)
            · exact testBit_of_lt_two_pow v w _ hv (by omega)
            · exact testBit_of_lt_two_pow v w _ hv (by omega)
          simp [hlo, e3]
      · simp only [if_neg hi]
        have : ¬ (8 * st.cur + st.loc ≤ i ∧ i < 8 * st.cur + st.loc + w) := by omega
        by_cases hlo : 8 * st.cur + st.loc ≤ i
        · have hhi : ¬ i < 8 * st.cur + st.loc + w := fun h => this ⟨hlo, h⟩
          simp [hlo, hhi]
        · simp [hlo]
  · simp only [if_neg hfit]
    have hlen1 : (st.bits.set st.cur
        ((st.bits.getD st.cur 0 ||| v >>> (st.loc + w - 8)) % 256)).length = st.bits.length := by
      simp
    have hcur1 : st.cur + 1 < st.bits.length := by omega
    simp only [hlen1, if_pos hcur1]
    refine ⟨_, rfl, by simp, by simp; omega, by simp; omega, ?_, ?_⟩
    · exact mem_set_lt _ _ _ (mem_set_lt _ _ _ hbytes (Nat.mod_lt _ (by decide)))
        (Nat.mod_lt _ (by decide))
    · intro i
      simp only []
      rw [bitAt_set _ _ _ _ (by rw [hlen1]; exact hcur1)]
      by_cases hi1 : i / 8 = st.cur + 1
      · simp only [if_pos hi1]
        rw [h256, Nat.testBit_mod_two_pow, Nat.testBit_or, testBit_packMask, getD_set_nat]
        have hne : ¬ (st.cur + 1 = st.cur ∧ st.cur < st.bits.length) := by omega
        simp only [if_neg hne]
        have hb : bitAt st.bits i = (st.bits.getD (st.cur + 1) 0).testBit (7 - i % 8) := by
          unfold bitAt; rw [hi1]
        rw [hb]
        have h7 : 7 - i % 8 < 8 := by omega
        have h7' : 7 - i % 8 < 32 := by omega
        simp only [h7, h7', decide_True, Bool.true_and]
        congr 1
        have hlo : 8 * st.cur + st.loc ≤ i := by omega
        by_cases hhi : i < 8 * st.cur + st.loc + w
        · have e1 : 8 - (st.loc + w - 8) ≤ 7 - i % 8 := by omega
          have e2 : 7 - i % 8 - (8 - (st.loc + w - 8)) = 8 * st.cur + st.loc + w - 1 - i := by
            omega
          simp [hlo, hhi, e1, e2]
        · have e1 : ¬ (8 - (st.loc + w - 8) ≤ 7 - i % 8) := by omega
          simp [hlo, hhi, e1]
      · simp only [if_neg hi1]
        rw [bitAt_set _ _ _ _ hcur]
        by_cases hi : i / 8 = st.cur
        · simp only [if_pos hi]
          rw [h256, Nat.testBit_mod_two_pow, Nat.testBit_or, Nat.testBit_shiftRight]
          have hb : bitAt st.bits i = (st.bits.getD st.cur 0).testBit (7 - i % 8) := by
            unfold bitAt; rw [hi]
          rw [hb]
          have h7 : 7 - i % 8 < 8 := by omega
          simp only [h7, decide_True, Bool.true_and]
          congr 1
          have hhi : i < 8 * st.cur + st.loc + w := by omega
          by_cases hlo : 8 * st.cur + st.loc ≤ i
          · have e2 : st.loc + w - 8 + (7 - i % 8) = 8 * st.cur + st.loc + w - 1 - i := by omega
            simp [hlo, hhi, e2]
          · have e3 : v.testBit (st.loc + w - 8 + (7 - i % 8)) = false :=
              testBit_of_lt_two_pow v w _ hv (by omega)
            simp [hlo, e3]
        · simp only [if_neg hi]
          have : ¬ (8 * st.cur + st.loc ≤ i ∧ i < 8 * st.cur + st.loc + w) := by omega
          by_cases hlo : 8 * st.cur + st.loc ≤ i
          · have hhi : ¬ i < 8 * st.cur + st.loc + w := fun h => this ⟨hlo, h⟩
            simp [hlo, hhi]
          · simp [hlo]

theorem packLoop_spec (w : Nat) (hw : 1 ≤ w) (hw7 : w ≤ 7) :
    ∀ (vs : List Nat) (st : PackState), (∀ v ∈ vs, v < 2 ^ w) → st.loc ≤ 8 →
      8 * st.cur + st.loc + w * vs.length ≤ 8 * st.bits.length →
      (∀ b ∈ st.bits, b < 256) →
      (∀ i, 8 * st.cur + st.loc ≤ i → bitAt st.bits i = false) →
      ∃ st', packLoop w st vs = Except.ok st' ∧ st'.bits.length = st.bits.length
        ∧ (∀ b ∈ st'.bits, b < 256)
        ∧ (∀ i, i < 8 * st.cur + st.loc → bitAt st'.bits i = bitAt st.bits i)
        ∧ ∀ j, j < vs.length → ∀ t, t < w →
            bitAt st'.bits (8 * st.cur + st.loc + w * j + t) = (vs.getD j 0).testBit (w - 1 - t) := by
  intro vs
  induction vs with
  | nil =>
    intro st _ _ _ hb _
    exact ⟨st, rfl, rfl, hb, fun _ _ => rfl, fun j hj => absurd hj (by simp)⟩
  | cons v vs ih =>
    intro st hvs hloc hroom hbytes hzero
    have hv : v < 2 ^ w := hvs v (List.mem_cons_self _ _)
    have hroom' : 8 * st.cur + st.loc + w + w * vs.length ≤ 8 * st.bits.length := by
      simp only [List.length_cons, Nat.mul_succ] at hroom
      omega
    obtain ⟨st1, hst1, hlen1, hpos1, hloc1, hbytes1, hbit1⟩ :=
      packStep_spec w st v hw hw7 hv hloc (by omega) hbytes
    have hzero1 : ∀ i, 8 * st1.cur + st1.loc ≤ i → bitAt st1.bits i = false := by
      intro i hi
      rw [hbit1 i, hzero i (by omega)]
      have : ¬ i < 8 * st.cur + st.loc + w := by omega
      simp [this]
    obtain ⟨st', hst', hlen', hbytes', hkeep, hvals⟩ :=
      ih st1 (fun x hx => hvs x (List.mem_cons_of_mem _ hx)) hloc1
        (by rw [hpos1, hlen1]; exact hroom') hbytes1 hzero1
    refine ⟨st', by simp only [packLoop, hst1, hst'], by rw [hlen', hlen1], hbytes', ?_, ?_⟩
    · intro i hi
      rw [hkeep i (by omega), hbit1 i]
      have : ¬ 8 * st.cur + st.loc ≤ i := by omega
      simp [this]
    · intro j hj t ht
      cases j with
      | zero =>
        simp only [Nat.mul_zero, Nat.add_zero, List.getD_cons_zero]
        rw [hkeep _ (by omega), hbit1, hzero _ (by omega)]
        have e1 : 8 * st.cur + st.loc ≤ 8 * st.cur + st.loc + t := by omega
        have e2 : 8 * st.cur + st.loc + t < 8 * st.cur + st.loc + w := by omega
        have e3 : 8 * st.cur + st.loc + w - 1 - (8 * st.cur + st.loc + t) = w - 1 - t := by omega
        simp [e2, e3]
      | succ j =>
        simp only [List.getD_cons_succ]
        have hj' : j < vs.length := by simpa using hj
        have := hvals j hj' t ht
        rw [hpos1] at this
        rw [← this]
        congr 1
        rw [Nat.mul_succ]
        omega

theorem unpackLoop_spec (w : Nat) (hw : 1 ≤ w) (hw7 : w ≤ 7) (bits : List Nat) :
    ∀ (vs : List Nat) (cur loc : Nat), loc ≤ 8 → (∀ v ∈ vs, v < 2 ^ w) →
      (∀ j, j < vs.length → ∀ t, t < w →
        bitAt bits (8 * cur + (8 - loc) + w * j + t) = (vs.getD j 0).testBit (w - 1 - t)) →
      unpackLoop w bits vs.length cur loc = vs := by
  intro vs
  induction vs with
  | nil => intros; rfl
  | cons v vs ih =>
    intro cur loc hloc hvs hbits
    have hv : v < 2 ^ w := hvs v (List.mem_cons_self _ _)
    have hbit0 : ∀ t, t < w → bitAt bits (8 * cur + (8 - loc) + t) = v.testBit (w - 1 - t) := by
      intro t ht
      have := hbits 0 (by simp) t ht
      simpa using this
    have hrest : ∀ j, j < vs.length → ∀ t, t < w →
        bitAt bits (8 * cur + (8 - loc) + w + w * j + t) = (vs.getD j 0).testBit (w - 1 - t) := by
      intro j hj t ht
      have := hbits (j + 1) (by simpa using hj) t ht
      simp only [List.getD_cons_succ, Nat.mul_succ] at this
      rw [← this]
      congr 1
      omega
    simp only [List.length_cons, unpackLoop]
    by_cases hfit : w ≤ loc
    · simp only [if_pos hfit]
      congr 1
      · apply Nat.eq_of_testBit_eq
        intro b
        rw [Nat.testBit_and, Nat.testBit_shiftRight, testBit_lowerNbits _ _ (by omega)]
        by_cases hb : b < w
        · have := hbit0 (w - 1 - b) (by omega)
          unfold bitAt at this
          have e1 : (8 * cur + (8 - loc) + (w - 1 - b)) / 8 = cur := by omega
          have e2 : 7 - (8 * cur + (8 - loc) + (w - 1 - b)) % 8 = loc - w + b := by omega
          have e3 : w - 1 - (w - 1 - b) = b := by omega
          rw [e1, e2, e3] at this
          rw [this]
          simp [hb]
        · simp [hb, testBit_of_lt_two_pow v w b hv (by omega)]
      · apply ih cur (loc - w) (by omega) (fun x hx => hvs x (List.mem_cons_of_mem _ hx))
        intro j hj t ht
        have := hrest j hj t ht
        rw [← this]
        congr 1
        omega
    · simp only [if_neg hfit]
      congr 1
      · apply Nat.eq_of_testBit_eq
        intro b
        have h32 : (4294967296 : Nat) = 2 ^ 32 := by norm_num
        rw [Nat.testBit_or, h32, Nat.testBit_mod_two_pow, Nat.testBit_shiftLeft,
          Nat.testBit_and, testBit_lowerNbits _ _ hloc, Nat.testBit_shiftRight,
          Nat.testBit_and, testBit_upperNbits]
        by_cases hb : b < w
        · have := hbit0 (w - 1 - b) (by omega)
          unfold bitAt at this
          have e3 : w - 1 - (w - 1 - b) = b := by omega
          rw [e3] at this
          by_cases hlow : b < w - loc
          · have e1 : (8 * cur + (8 - loc) + (w - 1 - b)) / 8 = cur + 1 := by omega
            have e2 : 7 - (8 * cur + (8 - loc) + (w - 1 - b)) % 8 = 8 - (w - loc) + b := by omega
            rw [e1, e2] at this
            have c1 : ¬ (b ≥ w - loc) := by omega
            have c2 : 8 - (w - loc) ≤ 8 - (w - loc) + b ∧ 8 - (w - loc) + b < 8 := by omega
            rw [this]
            simp [c1, c2]
          · have e1 : (8 * cur + (8 - loc) + (w - 1 - b)) / 8 = cur := by omega
            have e2 : 7 - (8 * cur + (8 - loc) + (w - 1 - b)) % 8 = b - (w - loc) := by omega
            rw [e1, e2] at this
            have c1 : b ≥ w - loc := by omega
            have c2 : ¬ (8 - (w - loc) + b < 8) := by omega
            have c3 : b < 32 := by omega
            have c4 : b - (w - loc) < loc := by omega
            rw [this]
            simp [c1, c2, c3, c4]
        · have c2 : ¬ (8 - (w - loc) + b < 8) := by omega
          have c4 : ¬ (b - (w - loc) < loc) := by omega
          simp [c2, c4, testBit_of_lt_two_pow v w b hv (by omega)]
      · apply ih (cur + 1) (8 - (w - loc)) (by omega)
          (fun x hx => hvs x (List.mem_cons_of_mem _ hx))
        intro j hj t ht
        have := hrest j hj t ht
        rw [← this]
        congr 1
        omega

theorem bitAt_replicate_zero (n i : Nat) : bitAt (List.replicate n 0) i = false := by
  unfold bitAt
  rw [List.getD_eq_getElem?_getD]
  by_cases h : i / 8 < n
  · simp [List.getElem?_replicate, h]
  · simp [List.getElem?_replicate, h]

/-- Packing values that fit in `w` bits, for a width from 1 to 8 and fewer than 2^24
values, succeeds, and unpacking gives the values back. -/
theorem FixedIntPacker.make_unpacked (w : Nat) (vals : List Nat) (h1 : 1 ≤ w) (h8 : w ≤ 8)
    (hlen : vals.length < 16777216) (hv : ∀ v ∈ vals, v < 2 ^ w) :
    ∃ p, FixedIntPacker.make w vals = Except.ok p ∧ p.unpacked = vals := by
  unfold FixedIntPacker.make
  have hw : w % 256 = w := Nat.mod_eq_of_lt (by omega)
  simp only [hw, if_neg (Nat.not_le.mpr hlen), if_neg (Nat.not_lt.mpr h8)]
  by_cases h : w = 8
  · subst h
    simp only [if_true]
    refine ⟨_, rfl, ?_⟩
    have hmap : vals.map (fun v => v % 256) = vals := by
      conv => rhs; rw [← List.map_id vals]
      apply List.map_congr_left
      intro v hvm
      exact Nat.mod_eq_of_lt (hv v hvm)
    simp [FixedIntPacker.unpacked, hmap]
  · simp only [if_neg h]
    have hw7 : w ≤ 7 := by omega
    obtain ⟨st', hst', _, _, _, hvals⟩ :=
      packLoop_spec w h1 hw7 vals (PackState.mk (List.replicate ((w * vals.length + 7) / 8) 0) 0 0)
        hv (by simp) (by simp; omega) (by simp) (fun i _ => bitAt_replicate_zero _ i)
    simp only [hst']
    refine ⟨_, rfl, ?_⟩
    simp only [FixedIntPacker.unpacked, if_neg h]
    apply unpackLoop_spec w h1 hw7 st'.bits vals 0 8 (by omega) hv
    intro j hj t ht
    have := hvals j hj t ht
    simpa using this

/-- C3 (as stated, refuted): the width 32 is in the range the claim names and the value 1
fits in it, but the constructor stops at `assert( nBitsPerValue <= usize )`, where
`usize` is 8: no packer is built. -/
theorem fixedIntPacker_width_32_rejected :
    (1 ≤ 32 ∧ 32 ≤ 32 ∧ ∀ v ∈ [1], v < 2 ^ 32)
      ∧ FixedIntPacker.make 32 [1] = Except.error Abort.assertFailed := by
  decide

/-- C3 (amended): for every width from 1 to 8 and every vector of fewer than 2^24 values
that fit in that width, building a `FixedIntPacker` succeeds and `unpacked()` gives back
the vector: same length, same values, same order. -/
theorem fixedIntPacker_round_trip (w : Nat) (v : List Nat) (h1 : 1 ≤ w) (h8 : w ≤ 8)
    (hlen : v.length < 16777216) (hv : ∀ x ∈ v, x < 2 ^ w) :
    ∃ p, FixedIntPacker.make w v = Except.ok p ∧ p.unpacked = v ∧ p.len = v.length
      ∧ p.nBitsPerValue = w := by
  obtain ⟨p, hp, hu⟩ := FixedIntPacker.make_unpacked w v h1 h8 hlen hv
  refine ⟨p, hp, hu, ?_, ?_⟩
  · unfold FixedIntPacker.make at hp
    have hw : w % 256 = w := Nat.mod_eq_of_lt (by omega)
    simp only [hw, if_neg (Nat.not_le.mpr hlen), if_neg (Nat.not_lt.mpr h8)] at hp
    split at hp
    · cases hp; rfl
    · split at hp
      · cases hp
      · cases hp; rfl
  · unfold FixedIntPacker.make at hp
    have hw : w % 256 = w := Nat.mod_eq_of_lt (by omega)
    simp only [hw, if_neg (Nat.not_le.mpr hlen), if_neg (Nat.not_lt.mpr h8)] at hp
    split at hp
    · cases hp; rfl
    · split at hp
      · cases hp
      · cases hp; rfl

theorem fixedIntPacker_round_trip_witness :
    ∃ p, FixedIntPacker.make 3 [1, 2, 3, 4, 5, 6, 7, 0, 5] = Except.ok p
      ∧ p.unpacked = [1, 2, 3, 4, 5, 6, 7, 0, 5] ∧ p.len = [1, 2, 3, 4, 5, 6, 7, 0, 5].length
      ∧ p.nBitsPerValue = 3 :=
  fixedIntPacker_round_trip 3 [1, 2, 3, 4, 5, 6, 7, 0, 5] (by decide) (by decide) (by decide)
    (by decide)

end Biopy

namespace Biopy

/-! ## Forests -/

theorem Forest.count_eq_zero_iff (F : Forest) : F.count = 0 ↔ F = Forest.nil := by
  cases F <;> simp [Forest.count]

theorem Forest.tips_pos : ∀ (F : Forest), F.count ≠ 0 → 0 < F.tips := by
  intro F
  induction F with
  | nil => intro h; simp [Forest.count] at h
  | cons l k r ihk _ =>
    intro _
    simp only [Forest.tips]
    by_cases hk : k.count = 0
    · simp [hk]
    · have := ihk hk
      simp only [if_neg hk]
      omega

theorem Forest.size_pos (F : Forest) (h : F.count ≠ 0) : 0 < F.size := by
  cases F with
  | nil => simp [Forest.count] at h
  | cons l k r => simp [Forest.size]

theorem Forest.roots_length : ∀ (F : Forest) (off : Nat), (F.roots off).length = F.count := by
  intro F
  induction F with
  | nil => intro off; rfl
  | cons l k r _ ihr => intro off; simp [Forest.roots, Forest.count, ihr]

theorem Forest.locs_length : ∀ (F : Forest) (t0 : Int), (F.locs t0).length = F.size := by
  intro F
  induction F with
  | nil => intro t0; rfl
  | cons l k r ihk ihr =>
    intro t0
    simp only [Forest.locs, Forest.size, List.length_append, ihr]
    by_cases hk : k.count = 0
    · have : k = Forest.nil := (Forest.count_eq_zero_iff k).mp hk
      subst this
      simp [Forest.size, Forest.count]
    · simp [hk, ihk]

theorem Forest.hts_length : ∀ (F : Forest) (b : Nat), (F.hts b).length = F.tips - 1 := by
  intro F
  induction F with
  | nil => intro b; rfl
  | cons l k r ihk ihr =>
    intro b
    simp only [Forest.hts, Forest.tips, List.length_append]
    by_cases hk : k.count = 0
    · by_cases hr : r.count = 0
      · have : r = Forest.nil := (Forest.count_eq_zero_iff r).mp hr
        subst this
        simp [hk, Forest.tips, Forest.count]
      · have := Forest.tips_pos r hr
        simp [hk, hr, ihr]
        omega
    · have hkp := Forest.tips_pos k hk
      by_cases hr : r.count = 0
      · have : r = Forest.nil := (Forest.count_eq_zero_iff r).mp hr
        subst this
        simp [hk, Forest.tips, Forest.count, ihk]
      · have := Forest.tips_pos r hr
        simp [hk, hr, ihr, ihk]
        omega

theorem Forest.locs_getLast : ∀ (F : Forest) (t0 : Int), F.count ≠ 0 →
    (F.locs t0).getLast? = some (t0 + F.tips - 2) := by
  intro F
  induction F with
  | nil => intro t0 h; simp [Forest.count] at h
  | cons l k r _ ihr =>
    intro t0 _
    simp only [Forest.locs, Forest.tips, Forest.treeTips]
    by_cases hr : r.count = 0
    · have : r = Forest.nil := (Forest.count_eq_zero_iff r).mp hr
      subst this
      by_cases hk : k.count = 0
      · simp [hk, Forest.locs, Forest.tips]
        omega
      · simp [hk, Forest.locs, Forest.tips]
    · rw [List.getLast?_append, ihr _ hr]
      simp only [Option.or_some, Option.some.injEq]
      by_cases hk : k.count = 0
      · simp [hk]; omega
      · simp [hk]; omega

/-! ## Lists -/

theorem get?_append_mid {α : Type} (N M : List α) (n : α) :
    (N ++ n :: M).get? N.length = some n := by
  rw [List.get?_eq_getElem?, List.getElem?_append_right (Nat.le_refl _)]
  simp

theorem set_append_mid {α : Type} (N M : List α) (n n' : α) :
    (N ++ n :: M).set N.length n' = N ++ n' :: M := by
  rw [List.set_append_right _ _ (Nat.le_refl _)]
  simp

theorem getD_append_last (L R : List Int) (v : Int) (h : L.getLast? = some v) :
    (L ++ R).getD (L.length - 1) 0 = v := by
  obtain ⟨ys, rfl⟩ := List.getLast?_eq_some_iff.mp h
  rw [List.getD_eq_getElem?_getD]
  have : (ys ++ [v]).length - 1 = ys.length := by simp
  rw [this, List.append_assoc, List.getElem?_append_right (Nat.le_refl _)]
  simp

/-! ## The encoder on cladograms -/

theorem IsEncoded.enc_length_eq : ∀ (F : Forest) (off : Nat) (ns : List ParsedTreeNode),
    IsEncoded F off ns → ns.length = F.size := by
  intro F
  induction F with
  | nil => intro off ns h; simp only [IsEncoded] at h; simp [h, Forest.size]
  | cons l k r ihk ihr =>
    intro off ns h
    simp only [IsEncoded] at h
    obtain ⟨ns1, n, ns2, rfl, h1, _, _, h2⟩ := h
    simp only [List.length_append, List.length_cons, Forest.size, ihk _ _ h1, ihr _ _ h2]
    omega

theorem Forest.lev_pos (F : Forest) (h : F.count ≠ 0) : 1 ≤ F.lev := by
  cases F with
  | nil => simp [Forest.count] at h
  | cons l k r =>
    simp only [Forest.lev]
    by_cases hk : k.count = 0
    · simp [hk]
    · simp only [if_neg hk]
      omega

theorem maxBranch_encoded : ∀ (F : Forest) (off : Nat) (N ns M : List ParsedTreeNode)
    (h0 : ℚ), IsEncoded F off ns → N.length = off →
    maxBranch (N ++ ns ++ M) (F.roots off) h0
      = Except.ok (if F.count = 0 then h0 else max ((F.lev : Nat) : ℚ) h0) := by
  intro F
  induction F with
  | nil => intro off N ns M h0 _ _; simp [Forest.roots, maxBranch, Forest.count]
  | cons l k r _ ihr =>
    intro off N ns M h0 henc hN
    simp only [IsEncoded] at henc
    obtain ⟨ns1, n, ns2, rfl, h1, _, hbr, h2⟩ := henc
    have hlen1 := IsEncoded.enc_length_eq _ _ _ h1
    have hget : (N ++ (ns1 ++ n :: ns2) ++ M).get? (off + k.size) = some n := by
      have e : N ++ (ns1 ++ n :: ns2) ++ M = (N ++ ns1) ++ n :: (ns2 ++ M) := by simp
      rw [e]
      have e2 : off + k.size = (N ++ ns1).length := by simp [hN, hlen1]
      rw [e2]
      exact get?_append_mid _ _ _
    simp only [Forest.roots, maxBranch, branchOf, hget, hbr]
    have e : N ++ (ns1 ++ n :: ns2) ++ M = (N ++ (ns1 ++ [n])) ++ ns2 ++ M := by simp
    rw [e, ihr (off + k.size + 1) (N ++ (ns1 ++ [n])) ns2 M _ h2 (by simp [hN, hlen1]; omega)]
    simp only [Forest.count, Forest.lev, Nat.add_one_ne_zero, if_false]
    by_cases hr : r.count = 0
    · have : r = Forest.nil := (Forest.count_eq_zero_iff r).mp hr
      subst this
      simp [Forest.lev, Forest.count]
    · simp only [if_neg hr]
      rw [Nat.cast_max]
      congr 1
      ac_rfl

theorem storeHeight_forest : ∀ (F : Forest) (off t0 : Nat) (L R : List Int) (A B : List ℚ)
    (b h : Nat), L.length = off → A.length = t0 →
    storeHeight (L ++ F.locs t0 ++ R) (h : ℚ) (F.roots off)
        (A ++ (F.hts b).map (Nat.cast : Nat → ℚ) ++ B)
      = Except.ok (A ++ (F.hts h).map (Nat.cast : Nat → ℚ) ++ B) := by
  intro F
  induction F with
  | nil => intro off t0 L R A B b h _ _; simp [Forest.roots, storeHeight, Forest.hts]
  | cons l k r _ ihr =>
    intro off t0 L R A B b h hL hA
    cases r with
    | nil => simp [Forest.roots, storeHeight, Forest.hts, Forest.count]
    | cons l2 k2 r2 =>
      have hr : (Forest.cons l2 k2 r2).count ≠ 0 := by simp [Forest.count]
      -- the locs of the first tree and its heights
      obtain ⟨TL, hTL, hTLlen, hTLlast⟩ : ∃ TL : List Int,
          (Forest.cons l k (Forest.cons l2 k2 r2)).locs t0
            = TL ++ (Forest.cons l2 k2 r2).locs ((t0 + k.treeTips : Nat) : Int)
          ∧ TL.length = k.size + 1
          ∧ TL.getLast? = some ((t0 : Int) + (k.treeTips : Nat) - 2) := by
        by_cases hk : k.count = 0
        · have : k = Forest.nil := (Forest.count_eq_zero_iff k).mp hk
          subst this
          refine ⟨[(t0 : Int) - 1], by simp [Forest.locs, Forest.count, Forest.treeTips],
            by simp [Forest.size], ?_⟩
          simp [Forest.count, Forest.treeTips]; omega
        · refine ⟨k.locs t0 ++ [(t0 : Int) + k.tips - 2], ?_, ?_, ?_⟩
          · conv => lhs; rw [Forest.locs]
            simp [hk, Forest.treeTips]
          · simp [Forest.locs_length]
          · simp [hk, Forest.treeTips]
      obtain ⟨X, hX, hXlen⟩ : ∃ X : List Nat,
          (∀ c : Nat, (Forest.cons l k (Forest.cons l2 k2 r2)).hts c
              = X ++ c :: (Forest.cons l2 k2 r2).hts c)
          ∧ X.length + 1 = k.treeTips := by
        by_cases hk : k.count = 0
        · exact ⟨[], fun c => by rw [Forest.hts]; simp [hk, Forest.count],
            by simp [hk, Forest.treeTips]⟩
        · refine ⟨k.hts k.lev, fun c => by rw [Forest.hts]; simp [hk, Forest.count], ?_⟩
          have := Forest.tips_pos k hk
          simp [hk, Forest.hts_length, Forest.treeTips]
          omega
      rw [hTL, hX b, hX h]
      have hroots : (Forest.cons l k (Forest.cons l2 k2 r2)).roots off
          = (off + k.size) :: (off + k.size + 1 + k2.size)
              :: r2.roots (off + k.size + 1 + k2.size + 1) := by
        simp [Forest.roots]
      have hget : (L ++ (TL ++ (Forest.cons l2 k2 r2).locs ((t0 + k.treeTips : Nat) : Int)) ++ R).get?
          (off + k.size) = some ((t0 : Int) + (k.treeTips : Nat) - 2) := by
        obtain ⟨ys, rfl⟩ := List.getLast?_eq_some_iff.mp hTLlast
        have hys : ys.length = k.size := by simpa using hTLlen
        have e : L ++ (ys ++ [(t0 : Int) + (k.treeTips : Nat) - 2]
            ++ (Forest.cons l2 k2 r2).locs ((t0 + k.treeTips : Nat) : Int)) ++ R
            = (L ++ ys) ++ ((t0 : Int) + (k.treeTips : Nat) - 2)
              :: ((Forest.cons l2 k2 r2).locs ((t0 + k.treeTips : Nat) : Int) ++ R) := by simp
        rw [e]
        have e2 : off + k.size = (L ++ ys).length := by simp [hL, hys]
        rw [e2]
        exact get?_append_mid _ _ _
      rw [hroots]
      simp only [storeHeight, hget]
      have hidx : ((t0 : Int) + (k.treeTips : Nat) - 2 + 1).toNat = A.length + X.length := by
        omega
      have hcond : 0 ≤ (t0 : Int) + (k.treeTips : Nat) - 2 + 1
          ∧ ((t0 : Int) + (k.treeTips : Nat) - 2 + 1).toNat
            < (A ++ List.map (Nat.cast : Nat → ℚ) (X ++ b :: (Forest.cons l2 k2 r2).hts b) ++ B).length := by
        constructor
        · omega
        · rw [hidx]; simp
      rw [if_pos hcond, hidx]
      have hset : (A ++ List.map (Nat.cast : Nat → ℚ) (X ++ b :: (Forest.cons l2 k2 r2).hts b) ++ B).set
          (A.length + X.length) (h : ℚ)
          = (A ++ List.map (Nat.cast : Nat → ℚ) X ++ [(h : ℚ)])
            ++ List.map (Nat.cast : Nat → ℚ) ((Forest.cons l2 k2 r2).hts b) ++ B := by
        have e : A ++ List.map (Nat.cast : Nat → ℚ) (X ++ b :: (Forest.cons l2 k2 r2).hts b) ++ B
            = (A ++ List.map (Nat.cast : Nat → ℚ) X) ++ (b : ℚ)
              :: (List.map (Nat.cast : Nat → ℚ) ((Forest.cons l2 k2 r2).hts b) ++ B) := by simp
        have e2 : A.length + X.length = (A ++ List.map (Nat.cast : Nat → ℚ) X).length := by simp
        rw [e, e2, set_append_mid]
        simp
      rw [hset]
      have hlocs : L ++ (TL ++ (Forest.cons l2 k2 r2).locs ((t0 + k.treeTips : Nat) : Int)) ++ R
          = (L ++ TL) ++ (Forest.cons l2 k2 r2).locs ((t0 + k.treeTips : Nat) : Int) ++ R := by simp
      rw [hlocs]
      have hroots2 : (off + k.size + 1 + k2.size) :: r2.roots (off + k.size + 1 + k2.size + 1)
          = (Forest.cons l2 k2 r2).roots (off + k.size + 1) := by simp [Forest.roots]
      rw [hroots2, ihr (off + k.size + 1) (t0 + k.treeTips) (L ++ TL) R _ B b h
        (by simp [hL, hTLlen]; omega) (by simp [hA]; omega)]
      simp

theorem encodeLoop_append (fuel : Nat) (c : Bool) (nTaxa : Nat) :
    ∀ (l1 l2 : List Nat) (st : EncState),
      encodeLoop fuel c nTaxa (l1 ++ l2) st =
        match encodeLoop fuel c nTaxa l1 st with
        | Except.error e => Except.error e
        | Except.ok st1 => encodeLoop fuel c nTaxa l2 st1 := by
  intro l1
  induction l1 with
  | nil => intro l2 st; rfl
  | cons i l1 ih =>
    intro l2 st
    simp only [List.cons_append, encodeLoop]
    cases encodeNode fuel c nTaxa st i with
    | error e => rfl
    | ok st1 => exact ih l2 st1

theorem set_append_head (L R : List Int) (v : Int) (hR : R ≠ []) :
    (L ++ R).set L.length v = L ++ v :: R.tail := by
  cases R with
  | nil => exact absurd rfl hR
  | cons x R => exact set_append_mid L R x v

theorem encodeNode_tip (fuel nTaxa : Nat) (N M : List ParsedTreeNode) (n : ParsedTreeNode)
    (L R : List Int) (hs : List ℚ) (th : Option (List ℚ)) (t0 : Nat)
    (hn : n.sons = []) (hb : n.branch = none) (hR : R ≠ [])
    (h0 : N.length = 0 → t0 = 0) (hl : 0 < N.length → L.getLast? = some ((t0 : Int) - 2))
    (hL : L.length = N.length) :
    encodeNode fuel true nTaxa (EncState.mk (N ++ n :: M) (L ++ R) N.length hs th) N.length
      = Except.ok (EncState.mk (N ++ { n with branch := some 1 } :: M)
          (L ++ ((t0 : Int) - 1) :: R.tail) (N.length + 1) hs th) := by
  unfold encodeNode
  simp only [get?_append_mid, hn, List.length_nil, if_true]
  have hlt : N.length < (L ++ R).length := by
    have : 0 < R.length := List.length_pos.mpr hR
    simp only [List.length_append]; omega
  simp only [if_pos hlt, set_append_mid, hb, Option.getD_none]
  have hv : (if N.length = 0 then (-1 : Int) else (L ++ R).getD (N.length - 1) 0 + 1)
      = (t0 : Int) - 1 := by
    by_cases hz : N.length = 0
    · simp [hz, h0 hz]
    · simp only [if_neg hz]
      rw [← hL, getD_append_last L R _ (hl (by omega))]
      omega
  rw [hv, ← hL, set_append_head L R _ hR]

theorem encodeNode_inner (fuel nTaxa : Nat) (N M : List ParsedTreeNode) (n : ParsedTreeNode)
    (L R : List Int) (hs hs' : List ℚ) (th : Option (List ℚ)) (h : ℚ) (v : Int)
    (hn : n.sons ≠ []) (hb : n.branch = none) (hR : R ≠ [])
    (hpos : 0 < N.length) (hL : L.length = N.length)
    (hmax : maxBranch (N ++ n :: M) n.sons (-1) = Except.ok h)
    (hstore : storeHeight (L ++ R) h n.sons hs = Except.ok hs')
    (hlast : L.getLast? = some v) :
    encodeNode fuel true nTaxa (EncState.mk (N ++ n :: M) (L ++ R) N.length hs th) N.length
      = Except.ok (EncState.mk
          (N ++ { n with branch := if M.length = 0 then none else some (h + 1) } :: M)
          (L ++ v :: R.tail) (N.length + 1) hs' th) := by
  unfold encodeNode
  have hlen : ¬ n.sons.length = 0 := by
    intro hc; exact hn (List.length_eq_zero.mp hc)
  simp only [get?_append_mid, if_neg hlen, hmax, if_true, hstore]
  have hlt : 0 < N.length ∧ N.length < (L ++ R).length := by
    have : 0 < R.length := List.length_pos.mpr hR
    refine ⟨hpos, ?_⟩
    simp only [List.length_append]; omega
  simp only [if_pos hlt, set_append_mid, hb]
  have hne : (N.length + 1 = (N ++ n :: M).length) ↔ M.length = 0 := by
    simp only [List.length_append, List.length_cons]; omega
  simp only [hne]
  have hv : (L ++ R).getD (N.length - 1) 0 = v := by
    rw [← hL]; exact getD_append_last L R v hlast
  rw [hv]
  have : (L ++ R).set N.length v = L ++ v :: R.tail := by
    rw [← hL]; exact set_append_head L R v hR
  rw [this]

theorem Forest.tips_cons (l : Str) (k r : Forest) :
    (Forest.cons l k r).tips = k.treeTips + r.tips := rfl

theorem Forest.treeTips_pos (k : Forest) : 0 < k.treeTips := by
  unfold Forest.treeTips
  by_cases hk : k.count = 0
  · simp [hk]
  · simp only [if_neg hk]; exact Forest.tips_pos k hk

theorem Forest.treeTips_sub (k : Forest) : k.treeTips - 1 = k.tips - 1 := by
  unfold Forest.treeTips
  by_cases hk : k.count = 0
  · have : k = Forest.nil := (Forest.count_eq_zero_iff k).mp hk
    subst this
    simp [Forest.count, Forest.tips]
  · simp [hk]

/-- The second loop of `nodes2rep` on the nodes of a forest that does not hold the last
node of the vector, on a cladogram: it fills in `locs`, the heights inside the trees of
the forest, and the `branch` of its nodes. -/
theorem encodeLoop_block (fuel nTaxa : Nat) :
    ∀ (F : Forest) (off t0 : Nat) (N ns M : List ParsedTreeNode) (L R : List Int)
      (A B : List ℚ) (th : Option (List ℚ)),
      IsFlat F off ns → (∀ n ∈ ns, n.branch = none) → N.length = off → M ≠ [] →
      L.length = off → F.size ≤ R.length → (F.count ≠ 0 → A.length = t0) →
      (off = 0 → t0 = 0) → (0 < off → L.getLast? = some ((t0 : Int) - 2)) →
      ∃ ns' R', encodeLoop fuel true nTaxa (List.range' off F.size)
          (EncState.mk (N ++ ns ++ M) (L ++ R) off
            (A ++ List.replicate (F.tips - 1) 0 ++ B) th)
        = Except.ok (EncState.mk (N ++ ns' ++ M) (L ++ F.locs t0 ++ R') (off + F.size)
            (A ++ (F.hts 0).map (Nat.cast : Nat → ℚ) ++ B) th)
        ∧ IsEncoded F off ns' ∧ R'.length + F.size = R.length := by
  intro F
  induction F with
  | nil =>
    intro off t0 N ns M L R A B th hflat _ _ _ _ _ _ _ _
    simp only [IsFlat] at hflat
    subst hflat
    refine ⟨[], R, ?_, by simp [IsEncoded], by simp [Forest.size]⟩
    simp [Forest.size, encodeLoop, Forest.tips, Forest.locs, Forest.hts]
  | cons l k r ihk ihr =>
    intro off t0 N ns M L R A B th hflat hnone hN hM hL hR hA h0 hlast
    have hA' : A.length = t0 := hA (by simp [Forest.count])
    simp only [IsFlat] at hflat
    obtain ⟨ns1, n, ns2, rfl, hk, hsons, _, hr⟩ := hflat
    have hlen1 := IsFlat.length_eq _ _ _ hk
    have hlen2 := IsFlat.length_eq _ _ _ hr
    have hsz : (Forest.cons l k r).size = k.size + 1 + r.size := rfl
    rw [hsz] at hR
    -- the zero heights of the forest, split at the first tree
    have hZ : List.replicate ((Forest.cons l k r).tips - 1) (0 : ℚ)
        = List.replicate (k.tips - 1) 0
          ++ ((if r.count = 0 then [] else [(0 : ℚ)]) ++ List.replicate (r.tips - 1) 0) := by
      rw [Forest.tips_cons]
      have hkp := Forest.treeTips_pos k
      have hks := Forest.treeTips_sub k
      by_cases hrc : r.count = 0
      · have : r = Forest.nil := (Forest.count_eq_zero_iff r).mp hrc
        subst this
        simp [Forest.tips, Forest.count, hks]
      · have := Forest.tips_pos r hrc
        simp only [if_neg hrc]
        have e1 : ([0] : List ℚ) = List.replicate 1 0 := rfl
        rw [e1, ← List.replicate_add, ← List.replicate_add]
        congr 1
        omega
    -- the sons of the node
    obtain ⟨ns1', R1, hrun1, henc1, hR1⟩ :=
      ihk off t0 N ns1 (n :: ns2 ++ M) L R A
        (((if r.count = 0 then [] else [(0 : ℚ)]) ++ List.replicate (r.tips - 1) 0) ++ B) th
        hk (fun x hx => hnone x (by simp [hx])) hN (by simp) hL (by omega)
        (fun _ => hA') h0 hlast
    have hlen1' := IsEncoded.enc_length_eq _ _ _ henc1
    have hrange : List.range' off (k.size + 1 + r.size)
        = List.range' off k.size ++ ((off + k.size) :: List.range' (off + k.size + 1) r.size) := by
      rw [show k.size + 1 + r.size = (r.size + 1) + k.size by omega, ← List.range'_append_1,
        List.range'_succ]
    have hstart : EncState.mk (N ++ (ns1 ++ n :: ns2) ++ M) (L ++ R) off
          (A ++ List.replicate ((Forest.cons l k r).tips - 1) 0 ++ B) th
        = EncState.mk (N ++ ns1 ++ (n :: ns2 ++ M)) (L ++ R) off
          (A ++ List.replicate (k.tips - 1) 0
            ++ (((if r.count = 0 then [] else [(0 : ℚ)]) ++ List.replicate (r.tips - 1) 0) ++ B)) th := by
      rw [hZ]; simp
    rw [hsz, hrange, encodeLoop_append, hstart, hrun1]
    simp only [encodeLoop]
    -- the node itself
    have hnb : n.branch = none := hnone n (by simp)
    have hR1ne : R1 ≠ [] := by
      intro hc; rw [hc] at hR1; simp at hR1; omega
    obtain ⟨TL, X, top, hnode, hTLdef, hXdef, htop, hTLlast, hTLlen, hXlen⟩ :
        ∃ (TL : List Int) (X : List Nat) (top : ℚ),
          encodeNode fuel true nTaxa
            (EncState.mk (N ++ ns1' ++ (n :: ns2 ++ M)) (L ++ k.locs t0 ++ R1) (off + k.size)
              (A ++ (k.hts 0).map (Nat.cast : Nat → ℚ)
                ++ (((if r.count = 0 then [] else [(0 : ℚ)])
                  ++ List.replicate (r.tips - 1) 0) ++ B)) th) (off + k.size)
            = Except.ok (EncState.mk
                (N ++ ns1' ++ ({ n with branch := some top } :: ns2 ++ M))
                (L ++ TL ++ R1.tail) (off + k.size + 1)
                (A ++ X.map (Nat.cast : Nat → ℚ)
                  ++ (((if r.count = 0 then [] else [(0 : ℚ)])
                    ++ List.replicate (r.tips - 1) 0) ++ B)) th)
          ∧ (Forest.cons l k r).locs t0 = TL ++ r.locs ((t0 + k.treeTips : Nat) : Int)
          ∧ (∀ c, (Forest.cons l k r).hts c = X ++ (if r.count = 0 then [] else c :: r.hts c))
          ∧ top = (((if k.count = 0 then 1 else k.lev + 1 : Nat) : ℚ))
          ∧ TL.getLast? = some (((t0 + k.treeTips : Nat) : Int) - 2)
          ∧ TL.length = k.size + 1
          ∧ X.length + 1 = k.treeTips := by
      have hNlen : (N ++ ns1').length = off + k.size := by simp [hN, hlen1']
      by_cases hkc : k.count = 0
      · have hknil : k = Forest.nil := (Forest.count_eq_zero_iff k).mp hkc
        subst hknil
        simp only [IsEncoded] at henc1
        subst henc1
        refine ⟨[(t0 : Int) - 1], [], 1, ?_, ?_, ?_, ?_, ?_, ?_, ?_⟩
        · have := encodeNode_tip fuel nTaxa N (ns2 ++ M) n L R1
            (A ++ (Forest.nil.hts 0).map (Nat.cast : Nat → ℚ)
              ++ (((if r.count = 0 then [] else [(0 : ℚ)])
                ++ List.replicate (r.tips - 1) 0) ++ B)) th t0
            (by simpa [Forest.roots] using hsons) hnb hR1ne
            (fun hz => h0 (by omega)) (fun hp => hlast (by omega)) (by omega)
          simpa [Forest.size, Forest.locs, hN, Forest.hts] using this
        · simp [Forest.locs, Forest.count, Forest.treeTips]
        · intro c; simp [Forest.hts, Forest.count]
        · simp [Forest.count]
        · simp [Forest.treeTips, Forest.count]; omega
        · simp [Forest.size]
        · simp [Forest.treeTips, Forest.count]
      · have hksz := Forest.size_pos k hkc
        have hklev := Forest.lev_pos k hkc
        have hktips := Forest.tips_pos k hkc
        refine ⟨k.locs t0 ++ [(t0 : Int) + k.tips - 2], k.hts k.lev, ((k.lev : Nat) : ℚ) + 1,
          ?_, ?_, ?_, ?_, ?_, ?_, ?_⟩
        · have hmax := maxBranch_encoded k off N ns1' (n :: ns2 ++ M) (-1) henc1 hN
          rw [if_neg hkc] at hmax
          have hmax' : max ((k.lev : Nat) : ℚ) (-1) = ((k.lev : Nat) : ℚ) := by
            apply max_eq_left
            have : (0 : ℚ) ≤ ((k.lev : Nat) : ℚ) := Nat.cast_nonneg _
            linarith
          rw [hmax'] at hmax
          have hstore := storeHeight_forest k off t0 L R1 A
            (((if r.count = 0 then [] else [(0 : ℚ)]) ++ List.replicate (r.tips - 1) 0) ++ B)
            0 k.lev hL hA'
          have hsne : n.sons ≠ [] := by
            rw [hsons]
            intro hc
            have := congrArg List.length hc
            rw [Forest.roots_length] at this
            exact hkc (by simpa using this)
          have hLl : (L ++ k.locs t0).getLast? = some ((t0 : Int) + k.tips - 2) := by
            rw [List.getLast?_append, Forest.locs_getLast k t0 hkc]; rfl
          have := encodeNode_inner fuel nTaxa (N ++ ns1') (ns2 ++ M) n (L ++ k.locs t0) R1
            _ _ th ((k.lev : Nat) : ℚ) _ hsne hnb hR1ne (by omega)
            (by simp [hL, hNlen, Forest.locs_length])
            (by rw [hsons]; simpa using hmax)
            (by rw [hsons]; simpa using hstore) hLl
          rw [hNlen] at this
          have hMl : ¬ (ns2 ++ M).length = 0 := by
            have : 0 < M.length := List.length_pos.mpr hM
            simp only [List.length_append]; omega
          rw [if_neg hMl] at this
          simpa using this
        · rw [Forest.locs]; simp [hkc]
        · intro c; rw [Forest.hts]; simp [hkc]
        · simp [hkc]
        · simp [Forest.treeTips, hkc]
        · simp [Forest.locs_length]
        · simp [Forest.treeTips, hkc, Forest.hts_length]; omega
    rw [hnode]
    simp only []
    -- the trees to the right
    have hR1tail : R1.tail.length + 1 = R1.length := by
      cases R1 with
      | nil => exact absurd rfl hR1ne
      | cons x R1 => simp
    obtain ⟨ns2', R2, hrun2, henc2, hR2⟩ :=
      ihr (off + k.size + 1) (t0 + k.treeTips) (N ++ ns1' ++ [{ n with branch := some top }])
        ns2 M (L ++ TL) R1.tail
        (A ++ X.map (Nat.cast : Nat → ℚ) ++ (if r.count = 0 then [] else [(0 : ℚ)])) B th
        hr (fun x hx => hnone x (by simp [hx])) (by simp [hN, hlen1']; omega) hM
        (by simp [hL, hTLlen]; omega) (by omega)
        (fun hrc => by simp [hrc, hA']; omega)
        (fun hz => by omega)
        (fun _ => by rw [List.getLast?_append, hTLlast]; rfl)
    have hmid : EncState.mk (N ++ ns1' ++ ({ n with branch := some top } :: ns2 ++ M))
          (L ++ TL ++ R1.tail) (off + k.size + 1)
          (A ++ X.map (Nat.cast : Nat → ℚ)
            ++ (((if r.count = 0 then [] else [(0 : ℚ)])
              ++ List.replicate (r.tips - 1) 0) ++ B)) th
        = EncState.mk (N ++ ns1' ++ [{ n with branch := some top }] ++ ns2 ++ M)
          (L ++ TL ++ R1.tail) (off + k.size + 1)
          (A ++ X.map (Nat.cast : Nat → ℚ) ++ (if r.count = 0 then [] else [(0 : ℚ)])
            ++ List.replicate (r.tips - 1) 0 ++ B) th := by
      simp
    rw [hmid, hrun2]
    refine ⟨ns1' ++ { n with branch := some top } :: ns2', R2, ?_, ?_, by omega⟩
    · rw [hTLdef, hXdef 0]
      by_cases hrc : r.count = 0
      · have hrn : r.hts 0 = [] := by
          rw [(Forest.count_eq_zero_iff r).mp hrc]; rfl
        simp [hrc, hrn, Nat.add_assoc]
      · simp [hrc, Nat.add_assoc]
    · simp only [IsEncoded]
      exact ⟨ns1', _, ns2', rfl, henc1, hsons, congrArg some htop, henc2⟩

end Biopy

namespace Biopy

/-! ## `lg2i` -/

theorem lg2iLoop_eq : ∀ (fuel v r : Nat), v ≤ fuel →
    lg2iLoop fuel v r = r + (if v = 0 then 0 else Nat.log2 v + 1) := by
  intro fuel
  induction fuel with
  | zero =>
    intro v r hv
    have : v = 0 := by omega
    subst this
    simp [lg2iLoop]
  | succ fuel ih =>
    intro v r hv
    unfold lg2iLoop
    by_cases hz : v = 0
    · simp [hz]
    · simp only [if_neg hz]
      rw [ih (v / 2) (r + 1) (by omega)]
      have hlog : Nat.log2 v = if v / 2 = 0 then 0 else Nat.log2 (v / 2) + 1 := by
        rw [Nat.log2]
        by_cases h2 : 2 ≤ v
        · have : ¬ v / 2 = 0 := by omega
          simp [h2, this]
        · have : v / 2 = 0 := by omega
          simp [h2, this]
      rw [hlog]
      omega

theorem lg2i_eq_log2 (v : Nat) : lg2i v = Nat.log2 v := by
  unfold lg2i
  rw [lg2iLoop_eq v (v / 2) 0 (by omega)]
  conv => rhs; rw [Nat.log2]
  by_cases h2 : 2 ≤ v
  · have : ¬ v / 2 = 0 := by omega
    simp [h2, this]
  · have : v / 2 = 0 := by omega
    simp [h2, this]

theorem lt_two_pow_lg2i (v m : Nat) (h : v ≤ m) : v < 2 ^ (lg2i m + 1) := by
  rw [lg2i_eq_log2]
  exact Nat.lt_of_le_of_lt h Nat.lt_log2_self

theorem lg2i_lt (m k : Nat) (h : m < 2 ^ k) (hk : 0 < k) : lg2i m < k := by
  rw [lg2i_eq_log2]
  by_cases hm : m = 0
  · subst hm; simp [Nat.log2]; exact hk
  · exact (Nat.log2_lt hm).mpr h

theorem le_foldl_max (l : List Nat) : ∀ (a : Nat), a ≤ l.foldl max a ∧ ∀ x ∈ l, x ≤ l.foldl max a := by
  induction l with
  | nil => intro a; simp
  | cons y l ih =>
    intro a
    simp only [List.foldl_cons, List.mem_cons]
    obtain ⟨h1, h2⟩ := ih (max a y)
    refine ⟨le_trans (le_max_left a y) h1, ?_⟩
    intro x hx
    rcases hx with rfl | hx
    · exact le_trans (le_max_right a x) h1
    · exact h2 x hx

/-- What `FixedIntPacker` gives back when the encoder builds it with the width
`lg2i(m) + 1` for values up to `m`, all below 2^32. -/
theorem make_lg2i_unpacked (m : Nat) (vals : List Nat) (p : FixedIntPacker)
    (hm : m < 4294967296) (hv : ∀ v ∈ vals, v ≤ m)
    (hp : FixedIntPacker.make (lg2i m + 1) vals = Except.ok p) : p.unpacked = vals := by
  have hw32 : lg2i m + 1 ≤ 32 := by
    have := lg2i_lt m 32 (by simpa using hm) (by decide)
    omega
  have hmod : (lg2i m + 1) % 256 = lg2i m + 1 := Nat.mod_eq_of_lt (by omega)
  have hlen : vals.length < 16777216 := by
    by_contra hc
    unfold FixedIntPacker.make at hp
    simp only [if_pos (Nat.le_of_not_lt hc)] at hp
    cases hp
  have hw8 : lg2i m + 1 ≤ 8 := by
    by_contra hc
    unfold FixedIntPacker.make at hp
    simp only [hmod, if_neg (Nat.not_le.mpr hlen), if_pos (Nat.lt_of_not_le hc)] at hp
    cases hp
  obtain ⟨q, hq, hu⟩ := FixedIntPacker.make_unpacked (lg2i m + 1) vals (by omega) hw8 hlen
    (fun v hvm => lt_two_pow_lg2i v m (hv v hvm))
  rw [hq] at hp
  cases hp
  exact hu

/-! ## The taxon table -/

theorem getTaxon_spec (ts : TreesSet) (l : Str) (hwf : ts.TaxaWF) :
    (ts.getTaxon l).1.TaxaWF
      ∧ (ts.getTaxon l).1.taxaList.get? (ts.getTaxon l).2 = some l
      ∧ (∃ ext, (ts.getTaxon l).1.taxaList = ts.taxaList ++ ext)
      ∧ (ts.getTaxon l).1.compressed = ts.compressed
      ∧ (ts.getTaxon l).1.trees = ts.trees := by
  unfold TreesSet.getTaxon
  cases hlk : ts.taxaDict.lookup l with
  | some i =>
    exact ⟨hwf, hwf l i hlk, ⟨[], by simp⟩, rfl, rfl⟩
  | none =>
    refine ⟨?_, ?_, ⟨[l], rfl⟩, rfl, rfl⟩
    · intro label k hk
      simp only [List.lookup_append] at hk
      cases hold : ts.taxaDict.lookup label with
      | some j =>
        rw [hold] at hk
        simp only [Option.or, Option.some.injEq] at hk
        subst hk
        have := hwf label j hold
        rw [List.get?_eq_getElem?] at this ⊢
        have hj : j < ts.taxaList.length := (List.getElem?_eq_some_iff.mp this).1
        simp only []
        rw [List.getElem?_append_left hj]
        exact this
      | none =>
        rw [hold] at hk
        simp only [Option.or, List.lookup_cons, List.lookup_nil] at hk
        split at hk
        · rename_i heq
          simp only [Option.some.injEq] at hk
          subst hk
          have : label = l := by simpa using heq
          subst this
          simp
        · simp at hk
    · simp

theorem internAll_spec : ∀ (labels : List Str) (ts : TreesSet), ts.TaxaWF →
    (internAll ts labels).1.TaxaWF
      ∧ (internAll ts labels).2.length = labels.length
      ∧ (∀ i, i < labels.length →
          (internAll ts labels).1.taxaList.get? ((internAll ts labels).2.getD i 0)
            = some (labels.getD i []))
      ∧ (∃ ext, (internAll ts labels).1.taxaList = ts.taxaList ++ ext)
      ∧ (internAll ts labels).1.compressed = ts.compressed
      ∧ (internAll ts labels).1.trees = ts.trees := by
  intro labels
  induction labels with
  | nil => intro ts hwf; exact ⟨hwf, rfl, fun i hi => absurd hi (by simp), ⟨[], by simp [internAll]⟩, rfl, rfl⟩
  | cons l ls ih =>
    intro ts hwf
    obtain ⟨hwf1, hget1, ⟨ext1, hext1⟩, hc1, ht1⟩ := getTaxon_spec ts l hwf
    obtain ⟨hwf2, hlen2, hget2, ⟨ext2, hext2⟩, hc2, ht2⟩ := ih (ts.getTaxon l).1 hwf1
    simp only [internAll]
    refine ⟨hwf2, by simp [hlen2], ?_, ⟨ext1 ++ ext2, by rw [hext2, hext1]; simp⟩,
      by rw [hc2, hc1], by rw [ht2, ht1]⟩
    intro i hi
    cases i with
    | zero =>
      simp only [List.getD_cons_zero]
      rw [hext2]
      rw [List.get?_eq_getElem?] at hget1 ⊢
      have hj := (List.getElem?_eq_some_iff.mp hget1).1
      rw [List.getElem?_append_left hj]
      exact hget1
    | succ i =>
      simp only [List.getD_cons_succ]
      exact hget2 i (by simpa using hi)

theorem scan_foldl : ∀ (nodes : List ParsedTreeNode) (st : ScanState),
    (nodes.foldl scanNode st).ts = (internAll st.ts (leafLabels nodes)).1
      ∧ (nodes.foldl scanNode st).taxa = st.taxa ++ (internAll st.ts (leafLabels nodes)).2
      ∧ (nodes.foldl scanNode st).maxTaxaIndex
          = (internAll st.ts (leafLabels nodes)).2.foldl max st.maxTaxaIndex
      ∧ ((∀ n ∈ nodes, n.branch = none) →
          (nodes.foldl scanNode st).cladogram = st.cladogram)
      ∧ ((∀ n ∈ nodes, n.attributes = none) →
          (nodes.foldl scanNode st).hasAttributes = st.hasAttributes) := by
  intro nodes
  induction nodes with
  | nil => intro st; simp [leafLabels, internAll]
  | cons n ns ih =>
    intro st
    obtain ⟨h1, h2, h3, h4, h5⟩ := ih (scanNode st n)
    simp only [List.foldl_cons]
    by_cases hleaf : n.sons.length = 0
    · have hleaf' : n.sons = [] := List.length_eq_zero.mp hleaf
      have hl : leafLabels (n :: ns) = n.taxon :: leafLabels ns := by
        simp [leafLabels, List.filter_cons, hleaf']
      have hts : (scanNode st n).ts = (st.ts.getTaxon n.taxon).1 := by
        simp [scanNode, hleaf']
      have htx : (scanNode st n).taxa = st.taxa ++ [(st.ts.getTaxon n.taxon).2] := by
        simp [scanNode, hleaf']
      have hmx : (scanNode st n).maxTaxaIndex = max st.maxTaxaIndex (st.ts.getTaxon n.taxon).2 := by
        simp [scanNode, hleaf']
      rw [hl]
      simp only [internAll]
      refine ⟨by rw [h1, hts], by rw [h2, hts, htx]; simp, by rw [h3, hts, hmx]; simp, ?_, ?_⟩
      · intro hb
        rw [h4 (fun x hx => hb x (List.mem_cons_of_mem _ hx))]
        have := hb n (List.mem_cons_self _ _)
        simp [scanNode, this, hleaf']
      · intro hb
        rw [h5 (fun x hx => hb x (List.mem_cons_of_mem _ hx))]
        have := hb n (List.mem_cons_self _ _)
        simp [scanNode, this, hleaf']
    · have hleaf' : ¬ n.sons = [] := fun hc => hleaf (by simp [hc])
      have hl : leafLabels (n :: ns) = leafLabels ns := by
        simp [leafLabels, List.filter_cons, hleaf']
      have hts : (scanNode st n).ts = st.ts := by simp [scanNode, hleaf']
      have htx : (scanNode st n).taxa = st.taxa := by simp [scanNode, hleaf']
      have hmx : (scanNode st n).maxTaxaIndex = st.maxTaxaIndex := by simp [scanNode, hleaf']
      rw [hl]
      refine ⟨by rw [h1, hts], by rw [h2, hts, htx], by rw [h3, hts, hmx], ?_, ?_⟩
      · intro hb
        rw [h4 (fun x hx => hb x (List.mem_cons_of_mem _ hx))]
        have := hb n (List.mem_cons_self _ _)
        simp [scanNode, this, hleaf']
      · intro hb
        rw [h5 (fun x hx => hb x (List.mem_cons_of_mem _ hx))]
        have := hb n (List.mem_cons_self _ _)
        simp [scanNode, this, hleaf']

theorem leafLabels_append (a b : List ParsedTreeNode) :
    leafLabels (a ++ b) = leafLabels a ++ leafLabels b := by
  simp [leafLabels]

theorem IsFlat.leafLabels_eq : ∀ (F : Forest) (off : Nat) (ns : List ParsedTreeNode),
    IsFlat F off ns → leafLabels ns = F.tipLabels := by
  intro F
  induction F with
  | nil => intro off ns h; simp only [IsFlat] at h; subst h; rfl
  | cons l k r ihk ihr =>
    intro off ns h
    simp only [IsFlat] at h
    obtain ⟨ns1, n, ns2, rfl, h1, hsons, hlab, h2⟩ := h
    have e : ns1 ++ n :: ns2 = ns1 ++ ([n] ++ ns2) := by simp
    rw [e, leafLabels_append, leafLabels_append, ihk _ _ h1, ihr _ _ h2]
    simp only [Forest.tipLabels]
    have hlen : n.sons.length = k.count := by rw [hsons, Forest.roots_length]
    by_cases hk : k.count = 0
    · have : k = Forest.nil := (Forest.count_eq_zero_iff k).mp hk
      subst this
      have hs0 : n.sons = [] := List.length_eq_zero.mp hlen
      simp [leafLabels, hs0, hlab, Forest.tipLabels, Forest.count]
    · have hs0 : ¬ n.sons = [] := fun hc => hk (by rw [← hlen, hc]; rfl)
      simp [leafLabels, hs0, hk]

theorem Forest.tipLabels_length : ∀ (F : Forest), F.tipLabels.length = F.tips := by
  intro F
  induction F with
  | nil => rfl
  | cons l k r ihk ihr =>
    simp only [Forest.tipLabels, Forest.tips, List.length_append, ihr]
    by_cases hk : k.count = 0
    · simp [hk]
    · simp [hk, ihk]

/-- The second loop of `nodes2rep` on the post-order layout of one tree without branch
lengths: `locs` and the heights between neighbouring tips. -/
theorem encodeLoop_tree (fuel nTaxa : Nat) (l : Str) (k : Forest) (ns : List ParsedTreeNode)
    (hflat : IsFlat (Forest.cons l k Forest.nil) 0 ns) (hnone : ∀ n ∈ ns, n.branch = none) :
    ∃ ns', encodeLoop fuel true nTaxa (List.range ns.length)
        (EncState.mk ns (List.replicate ns.length 0) 0
          (List.replicate (k.treeTips - 1) 0) none)
      = Except.ok (EncState.mk ns' ((Forest.cons l k Forest.nil).locs 0) ns.length
          (((Forest.cons l k Forest.nil).hts 0).map (Nat.cast : Nat → ℚ)) none) := by
  simp only [IsFlat] at hflat
  obtain ⟨ns1, n, ns2, hns, hk, hsons, _, hr⟩ := hflat
  subst hr
  subst hns
  have hlen1 := IsFlat.length_eq _ _ _ hk
  have hnb : n.branch = none := hnone n (by simp)
  by_cases hkc : k.count = 0
  · have hknil : k = Forest.nil := (Forest.count_eq_zero_iff k).mp hkc
    subst hknil
    simp only [IsFlat] at hk
    subst hk
    have := encodeNode_tip fuel nTaxa [] [] n [] [0] [] none 0
      (by simpa [Forest.roots] using hsons) hnb (by simp) (fun _ => rfl)
      (fun hp => absurd hp (by simp)) rfl
    refine ⟨[{ n with branch := some 1 }], ?_⟩
    simp only [List.length_nil, List.nil_append] at this
    simp [List.range_succ, encodeLoop, this, Forest.locs, Forest.hts, Forest.count,
      Forest.treeTips]
  · have hksz := Forest.size_pos k hkc
    have hktips := Forest.tips_pos k hkc
    obtain ⟨ns1', R1, hrun1, henc1, hR1⟩ :=
      encodeLoop_block fuel nTaxa k 0 0 [] ns1 [n] [] (List.replicate (k.size + 1) 0) [] []
        none hk (fun x hx => hnone x (by simp [hx])) rfl (by simp) rfl (by simp)
        (fun _ => rfl) (fun _ => rfl) (fun hp => absurd hp (by simp))
    have hlen1' := IsEncoded.enc_length_eq _ _ _ henc1
    have hR1len : R1.length = 1 := by simp at hR1; omega
    obtain ⟨r1, hR1eq⟩ : ∃ r1, R1 = [r1] := by
      cases R1 with
      | nil => simp at hR1len
      | cons x t =>
        cases t with
        | nil => exact ⟨x, rfl⟩
        | cons y t => simp at hR1len
    subst hR1eq
    have hmax := maxBranch_encoded k 0 [] ns1' [n] (-1) henc1 rfl
    rw [if_neg hkc] at hmax
    have hmax' : max ((k.lev : Nat) : ℚ) (-1) = ((k.lev : Nat) : ℚ) := by
      apply max_eq_left
      have : (0 : ℚ) ≤ ((k.lev : Nat) : ℚ) := Nat.cast_nonneg _
      linarith
    rw [hmax'] at hmax
    have hstore := storeHeight_forest k 0 0 [] [r1] [] [] 0 k.lev rfl rfl
    have hsne : n.sons ≠ [] := by
      rw [hsons]
      intro hc
      have := congrArg List.length hc
      rw [Forest.roots_length] at this
      exact hkc (by simpa using this)
    have hLl : (k.locs 0).getLast? = some ((0 : Int) + k.tips - 2) :=
      Forest.locs_getLast k 0 hkc
    have hnode := encodeNode_inner fuel nTaxa ns1' [] n (k.locs 0) [r1]
      ((k.hts 0).map (Nat.cast : Nat → ℚ)) ((k.hts k.lev).map (Nat.cast : Nat → ℚ)) none
      ((k.lev : Nat) : ℚ) _ hsne hnb (by simp) (by omega)
      (by simp [hlen1', Forest.locs_length])
      (by rw [hsons]; simpa using hmax)
      (by rw [hsons]; simpa using hstore) hLl
    refine ⟨ns1' ++ [{ n with branch := none }], ?_⟩
    have hrange : List.range (ns1 ++ [n]).length = List.range' 0 k.size ++ [k.size] := by
      rw [List.range_eq_range']
      simp only [List.length_append, List.length_cons, List.length_nil, hlen1]
      rw [show k.size + (0 + 1) = 1 + k.size by omega, ← List.range'_append_1]
      simp [List.range']
    have hstart : EncState.mk (ns1 ++ [n]) (List.replicate (ns1 ++ [n]).length 0) 0
          (List.replicate (k.treeTips - 1) 0) none
        = EncState.mk ([] ++ ns1 ++ [n]) ([] ++ List.replicate (k.size + 1) 0) 0
          ([] ++ List.replicate (k.tips - 1) 0 ++ []) none := by
      simp [hlen1, Forest.treeTips, hkc]
    rw [hrange, encodeLoop_append, hstart, hrun1]
    simp only [encodeLoop, List.nil_append, List.append_nil, Nat.zero_add]
    rw [← hlen1']
    simp only [List.nil_append, List.append_nil, Nat.zero_add] at hnode
    simp only [Nat.cast_zero]
    rw [hnode]
    simp [Forest.locs, Forest.hts, hkc, Forest.count, hlen1, hlen1']

theorem internAll_length_le : ∀ (labels : List Str) (ts : TreesSet),
    (internAll ts labels).1.taxaList.length ≤ ts.taxaList.length + labels.length := by
  intro labels
  induction labels with
  | nil => intro ts; simp [internAll]
  | cons l ls ih =>
    intro ts
    simp only [internAll, List.length_cons]
    have h1 := ih (ts.getTaxon l).1
    have h2 : (ts.getTaxon l).1.taxaList.length ≤ ts.taxaList.length + 1 := by
      unfold TreesSet.getTaxon
      cases ts.taxaDict.lookup l <;> simp
    omega

theorem foldl_max_le (l : List Nat) (m : Nat) : ∀ (a : Nat), a ≤ m → (∀ x ∈ l, x ≤ m) →
    l.foldl max a ≤ m := by
  induction l with
  | nil => intro a ha _; simpa using ha
  | cons x xs ih =>
    intro a ha hx
    simp only [List.foldl_cons]
    exact ih _ (max_le ha (hx x (by simp))) (fun y hy => hx y (by simp [hy]))

theorem roundHeight_natCast (n : Nat) (h : n < 4294967296) : roundHeight (n : ℚ) = n := by
  unfold roundHeight
  have : ⌊(n : ℚ) + 1 / 2⌋ = (n : Int) := by
    rw [Int.floor_eq_iff]
    constructor
    · push_cast; linarith
    · push_cast; linarith
  rw [this]
  simp only [Int.toNat_ofNat]
  exact Nat.mod_eq_of_lt h

theorem Forest.count_le_size : ∀ (F : Forest), F.count ≤ F.size := by
  intro F
  induction F with
  | nil => simp [Forest.count]
  | cons l k r _ ihr => simp only [Forest.count, Forest.size]; omega

theorem Forest.lev_le_size : ∀ (F : Forest), F.lev ≤ F.size := by
  intro F
  induction F with
  | nil => simp [Forest.lev]
  | cons l k r ihk ihr =>
    simp only [Forest.lev, Forest.size]
    by_cases hk : k.count = 0
    · simp only [if_pos hk]; omega
    · simp only [if_neg hk]; omega

theorem Forest.hts_le : ∀ (F : Forest) (b x : Nat), x ∈ F.hts b → x ≤ max b (F.lev - 1) := by
  intro F
  induction F with
  | nil => intro b x hx; simp [Forest.hts] at hx
  | cons l k r ihk ihr =>
    intro b x hx
    simp only [Forest.hts, List.mem_append] at hx
    simp only [Forest.lev]
    rcases hx with hx | hx
    · by_cases hk : k.count = 0
      · simp [hk] at hx
      · simp only [if_neg hk] at hx ⊢
        have := ihk _ _ hx
        omega
    · by_cases hr : r.count = 0
      · simp [hr] at hx
      · simp only [if_neg hr, List.mem_cons] at hx
        rcases hx with hx | hx
        · omega
        · have := ihr _ _ hx
          omega

theorem Forest.tips_single (l : Str) (k : Forest) :
    (Forest.cons l k Forest.nil).tips = k.treeTips := by
  simp [Forest.tips, Forest.treeTips]

/-- What `nodes2rep` stores for the post-order layout of one tree without branch lengths
and without annotations: the taxa of the tips from left to right and the levels of the
lowest common ancestors of neighbouring tips. -/
theorem nodes2rep_cladogram (ts : TreesSet) (fuel : Nat) (l : Str) (k : Forest)
    (ns : List ParsedTreeNode) (hflat : IsFlat (Forest.cons l k Forest.nil) 0 ns)
    (hnone : ∀ n ∈ ns, n.branch = none) (hattr : ∀ n ∈ ns, n.attributes = none)
    (hwf : ts.TaxaWF) (hsize : ns.length < 4294967296)
    (hcomp : ts.compressed = true → ts.taxaList.length + ns.length ≤ 256) :
    ∃ rep, ts.nodes2rep fuel ns
        = ((internAll ts (Forest.cons l k Forest.nil).tipLabels).1, Except.ok rep)
      ∧ rep.topology = (internAll ts (Forest.cons l k Forest.nil).tipLabels).2
      ∧ rep.getHeights
          = (((Forest.cons l k Forest.nil).hts 0).map (Nat.cast : Nat → ℚ), [])
      ∧ rep.attributes = none ∧ rep.isCladogram = true := by
  have hsc := scan_foldl ns (ScanState.mk ts [] true false 0)
  rw [IsFlat.leafLabels_eq _ _ _ hflat] at hsc
  obtain ⟨h1, h2, h3, h4, h5⟩ := hsc
  have h4 := h4 hnone
  have h5 := h5 hattr
  simp only [List.nil_append] at h2 h4 h5 h3 h1
  obtain ⟨hwf', hidlen, hget, _, hcomp', _⟩ :=
    internAll_spec (Forest.cons l k Forest.nil).tipLabels ts hwf
  have hlenle := internAll_length_le (Forest.cons l k Forest.nil).tipLabels ts
  rw [Forest.tipLabels_length, Forest.tips_single] at hidlen hlenle
  have htp := Forest.treeTips_pos k
  have hnslen := IsFlat.length_eq _ _ _ hflat
  have htipsle : k.treeTips ≤ ns.length := by
    rw [hnslen]
    simp only [Forest.size, Forest.treeTips]
    by_cases hk : k.count = 0
    · simp [hk]
    · simp only [if_neg hk]
      have : ∀ F : Forest, F.tips ≤ F.size := by
        intro F
        induction F with
        | nil => simp [Forest.tips]
        | cons l k r ihk ihr =>
          simp only [Forest.tips, Forest.size]
          by_cases hk : k.count = 0
          · simp only [if_pos hk]; omega
          · simp only [if_neg hk]; omega
      have := this k
      omega
  obtain ⟨ns', henc⟩ := encodeLoop_tree fuel k.treeTips l k ns hflat hnone
  -- the heights as unsigned integers
  have hhts : ∀ x ∈ (Forest.cons l k Forest.nil).hts 0, x < ns.length := by
    intro x hx
    have h := Forest.hts_le _ _ _ hx
    have h' := Forest.lev_le_size (Forest.cons l k Forest.nil)
    have hp : 0 < (Forest.cons l k Forest.nil).lev := by
      simp only [Forest.lev]
      by_cases hk : k.count = 0
      · simp [hk]
      · simp [hk]
    rw [hnslen]
    omega
  have hround : (((Forest.cons l k Forest.nil).hts 0).map (Nat.cast : Nat → ℚ)).map roundHeight
      = (Forest.cons l k Forest.nil).hts 0 := by
    rw [List.map_map]
    conv => rhs; rw [← List.map_id ((Forest.cons l k Forest.nil).hts 0)]
    apply List.map_congr_left
    intro x hx
    simp only [Function.comp, id]
    exact roundHeight_natCast x (by have := hhts x hx; omega)
  -- the two packers
  have htop : ∃ top, (if ts.compressed then
        (FixedIntPacker.make
          (lg2i ((internAll ts (Forest.cons l k Forest.nil).tipLabels).2.foldl max 0) + 1)
          (internAll ts (Forest.cons l k Forest.nil).tipLabels).2).map Packer.fixed
      else Except.ok (Packer.simple (internAll ts (Forest.cons l k Forest.nil).tipLabels).2))
        = Except.ok top
      ∧ top.unpacked = (internAll ts (Forest.cons l k Forest.nil).tipLabels).2 := by
    by_cases hc : ts.compressed = true
    · have hb := hcomp hc
      have hids : ∀ v ∈ (internAll ts (Forest.cons l k Forest.nil).tipLabels).2, v < 256 := by
        intro v hv
        obtain ⟨i, hi, hiv⟩ := List.getElem_of_mem hv
        have hg := hget i (by rw [Forest.tipLabels_length, Forest.tips_single, ← hidlen]; exact hi)
        have hgd : (internAll ts (Forest.cons l k Forest.nil).tipLabels).2.getD i 0 = v := by
          rw [List.getD_eq_getElem _ _ hi, hiv]
        rw [hgd] at hg
        have : v < (internAll ts (Forest.cons l k Forest.nil).tipLabels).1.taxaList.length := by
          by_contra hcon
          rw [List.get?_eq_none.mpr (Nat.le_of_not_lt hcon)] at hg
          cases hg
        omega
      have hmax : (internAll ts (Forest.cons l k Forest.nil).tipLabels).2.foldl max 0 ≤ 255 :=
        foldl_max_le _ 255 0 (by omega) (fun x hx => by have := hids x hx; omega)
      have hw8 : lg2i ((internAll ts (Forest.cons l k Forest.nil).tipLabels).2.foldl max 0) + 1
          ≤ 8 := by
        have := lg2i_lt _ 8 (Nat.lt_of_le_of_lt hmax (by decide)) (by decide)
        omega
      obtain ⟨q, hq, hu⟩ := FixedIntPacker.make_unpacked _
        (internAll ts (Forest.cons l k Forest.nil).tipLabels).2 (by omega) hw8 (by omega)
        (fun v hv => lt_two_pow_lg2i v _ ((le_foldl_max _ 0).2 v hv))
      refine ⟨Packer.fixed q, ?_, ?_⟩
      · simp [hc, hq, Except.map]
      · simpa [Packer.unpacked] using hu
    · refine ⟨Packer.simple (internAll ts (Forest.cons l k Forest.nil).tipLabels).2, ?_, rfl⟩
      simp [hc]
  have hhs : ∃ hsb, (if ts.compressed = true ∧ 0 < ((Forest.cons l k Forest.nil).hts 0).length then
        (FixedIntPacker.make (lg2i (((Forest.cons l k Forest.nil).hts 0).foldl max 0) + 1)
          ((Forest.cons l k Forest.nil).hts 0)).map Packer.fixed
      else Except.ok (Packer.simple ((Forest.cons l k Forest.nil).hts 0)))
        = Except.ok hsb
      ∧ hsb.unpacked = (Forest.cons l k Forest.nil).hts 0 := by
    by_cases hc : ts.compressed = true ∧ 0 < ((Forest.cons l k Forest.nil).hts 0).length
    · have hb := hcomp hc.1
      have hmax : ((Forest.cons l k Forest.nil).hts 0).foldl max 0 ≤ 255 :=
        foldl_max_le _ 255 0 (by omega) (fun x hx => by have := hhts x hx; omega)
      have hw8 : lg2i (((Forest.cons l k Forest.nil).hts 0).foldl max 0) + 1 ≤ 8 := by
        have := lg2i_lt _ 8 (Nat.lt_of_le_of_lt hmax (by decide)) (by decide)
        omega
      have hl : ((Forest.cons l k Forest.nil).hts 0).length < 16777216 := by
        rw [Forest.hts_length, Forest.tips_single]; omega
      obtain ⟨q, hq, hu⟩ := FixedIntPacker.make_unpacked _
        ((Forest.cons l k Forest.nil).hts 0) (by omega) hw8 hl
        (fun v hv => lt_two_pow_lg2i v _ ((le_foldl_max _ 0).2 v hv))
      refine ⟨Packer.fixed q, ?_, ?_⟩
      · rw [if_pos hc, hq]; rfl
      · simpa [Packer.unpacked] using hu
    · refine ⟨Packer.simple ((Forest.cons l k Forest.nil).hts 0), ?_, rfl⟩
      rw [if_neg hc]
  obtain ⟨top, htop1, htop2⟩ := htop
  obtain ⟨hsb, hhs1, hhs2⟩ := hhs
  refine ⟨TreeRep.mk top (Heights.cladogram hsb) none, ?_, ?_, ?_, rfl, rfl⟩
  · unfold TreesSet.nodes2rep
    simp only [h1, h2, h3, h4, h5, hidlen]
    rw [if_neg (by omega : ¬ k.treeTips = 0), henc]
    simp only [htop1, hround, List.length_map, hhs1, Bool.false_eq_true, if_false, if_true]
  · simpa [TreeRep.topology] using htop2
  · simp [TreeRep.getHeights, hhs2]

end Biopy

namespace Biopy

/-! ## The expander on the representation of a cladogram -/

theorem scanSplits_eq_scanList : ∀ (X A B : List ℚ) (c : ℚ) (ci : Option (List Nat)),
    scanSplits (A ++ X ++ B) (List.range' A.length X.length) c ci = scanList X A.length c ci := by
  intro X
  induction X with
  | nil => intro A B c ci; simp [scanSplits, scanList]
  | cons h X ih =>
    intro A B c ci
    have hg : (A ++ h :: X ++ B).get? A.length = some h := by
      simp only [List.append_assoc, List.cons_append]
      exact get?_append_mid A (X ++ B) h
    have e : A ++ h :: X ++ B = (A ++ [h]) ++ X ++ B := by simp
    have hl : (A ++ [h]).length = A.length + 1 := by simp
    simp only [List.length_cons, List.range'_succ, scanSplits, scanList, hg]
    rw [e, ← hl]
    simp only [ih (A ++ [h]) B]

theorem scanList_append : ∀ (X Y : List ℚ) (p : Nat) (c : ℚ) (ci : Option (List Nat)),
    scanList (X ++ Y) p c ci
      = match scanList X p c ci with
        | Except.error e => Except.error e
        | Except.ok r => scanList Y (p + X.length) r.1 r.2 := by
  intro X
  induction X with
  | nil => intro Y p c ci; simp [scanList]
  | cons h X ih =>
    intro Y p c ci
    simp only [List.cons_append, scanList, List.length_cons, List.append_eq]
    have e : p + (X.length + 1) = p + 1 + X.length := by omega
    split
    · split
      · rw [ih, e]
      · cases ci with
        | none => rfl
        | some l => simp only [ih, e]
    · rw [ih, e]

theorem scanList_lt : ∀ (X : List ℚ) (p : Nat) (c : ℚ) (ci : Option (List Nat)),
    (∀ h ∈ X, h < c) → scanList X p c ci = Except.ok (c, ci) := by
  intro X
  induction X with
  | nil => intro p c ci _; rfl
  | cons h X ih =>
    intro p c ci hX
    have h1 : h < c := hX h (by simp)
    simp only [scanList, if_neg (not_le.mpr h1)]
    exact ih _ _ _ (fun x hx => hX x (by simp [hx]))

theorem scanList_below : ∀ (X : List ℚ) (b : ℚ) (p : Nat) (c : ℚ) (ci : Option (List Nat)),
    (∀ h ∈ X, 0 ≤ h ∧ h < b) → c < b → (ci = none → c < 0) →
    ∃ c' ci', scanList X p c ci = Except.ok (c', ci') ∧ c' < b ∧ (ci' = none → c' < 0) := by
  intro X
  induction X with
  | nil => intro b p c ci _ hc hci; exact ⟨c, ci, rfl, hc, hci⟩
  | cons h X ih =>
    intro b p c ci hX hc hci
    have h1 := hX h (by simp)
    have hX' : ∀ x ∈ X, 0 ≤ x ∧ x < b := fun x hx => hX x (by simp [hx])
    simp only [scanList]
    by_cases hge : h ≥ c
    · simp only [if_pos hge]
      by_cases hgt : h > c
      · simp only [if_pos hgt]
        exact ih b _ _ _ hX' h1.2 (fun hn => by cases hn)
      · simp only [if_neg hgt]
        cases ci with
        | none =>
          have := hci rfl
          exfalso
          have : h = c := le_antisymm (not_lt.mp hgt) hge
          linarith [h1.1]
        | some l => exact ih b _ _ _ hX' hc (fun hn => by cases hn)
    · simp only [if_neg hge]
      exact ih b _ _ _ hX' hc hci

theorem Forest.hts_cons_split (l : Str) (k r : Forest) (b : Nat) :
    ∃ I : List Nat, (Forest.cons l k r).hts b = I ++ (if r.count = 0 then [] else b :: r.hts b)
      ∧ I.length + 1 = k.treeTips ∧ (∀ x ∈ I, x < (Forest.cons l k r).lev)
      ∧ I = (Forest.cons l k Forest.nil).hts 0 := by
  refine ⟨if k.count = 0 then [] else k.hts k.lev, rfl, ?_, ?_, ?_⟩
  · by_cases hk : k.count = 0
    · simp [hk, Forest.treeTips]
    · have := Forest.tips_pos k hk
      simp only [if_neg hk, Forest.treeTips, Forest.hts_length]
      omega
  · intro x hx
    by_cases hk : k.count = 0
    · simp [hk] at hx
    · simp only [if_neg hk] at hx
      have := Forest.hts_le _ _ _ hx
      simp only [Forest.lev, if_neg hk]
      omega
  · simp [Forest.hts, Forest.count]

theorem Forest.ends_length : ∀ (F : Forest) (a : Nat), (F.ends a).length = F.count := by
  intro F
  induction F with
  | nil => intro a; rfl
  | cons l k r _ ihr => intro a; simp [Forest.ends, Forest.count, ihr]

theorem Forest.ends_ne_nil (F : Forest) (a : Nat) (h : F.count ≠ 0) : F.ends a ≠ [] := by
  intro hc
  have := Forest.ends_length F a
  rw [hc] at this
  exact h this.symm

theorem Forest.ends_dropLast : ∀ (F : Forest) (a : Nat), F.count ≠ 0 →
    (F.ends a).dropLast ++ [a + F.tips - 1] = F.ends a := by
  intro F
  induction F with
  | nil => intro a h; exact absurd rfl h
  | cons l k r _ ihr =>
    intro a _
    by_cases hr : r.count = 0
    · have : r = Forest.nil := (Forest.count_eq_zero_iff r).mp hr
      subst this
      simp [Forest.ends, Forest.tips, Forest.treeTips]
    · have hne := Forest.ends_ne_nil r (a + k.treeTips) hr
      have := ihr (a + k.treeTips) hr
      simp only [Forest.ends, List.dropLast_cons_of_ne_nil hne, List.cons_append, Forest.tips_cons]
      rw [show a + (k.treeTips + r.tips) - 1 = a + k.treeTips + r.tips - 1 by omega, this]

theorem Forest.count_le_tips : ∀ (F : Forest), F.count ≤ F.tips := by
  intro F
  induction F with
  | nil => simp [Forest.count]
  | cons l k r _ ihr =>
    have := Forest.treeTips_pos k
    rw [Forest.tips_cons]
    simp only [Forest.count]
    omega

theorem scanList_forest : ∀ (F : Forest) (b p : Nat) (l : List Nat), F.count ≠ 0 → F.lev ≤ b →
    scanList ((F.hts b).map (Nat.cast : Nat → ℚ)) p (b : ℚ) (some l)
      = Except.ok ((b : ℚ), some (l ++ (F.ends p).dropLast)) := by
  intro F
  induction F with
  | nil => intro b p l h; exact absurd rfl h
  | cons lb k r _ ihr =>
    intro b p l _ hlev
    obtain ⟨I, hI, hIlen, hIlt, _⟩ := Forest.hts_cons_split lb k r b
    have hIb : ∀ h ∈ I.map (Nat.cast : Nat → ℚ), h < (b : ℚ) := by
      intro h hh
      simp only [List.mem_map] at hh
      obtain ⟨x, hx, rfl⟩ := hh
      have := hIlt x hx
      exact_mod_cast (by omega : x < b)
    rw [hI, List.map_append, scanList_append, scanList_lt _ _ _ _ hIb]
    simp only [List.length_map]
    by_cases hr : r.count = 0
    · have : r = Forest.nil := (Forest.count_eq_zero_iff r).mp hr
      subst this
      simp [Forest.count, scanList, Forest.ends]
    · have hne := Forest.ends_ne_nil r (p + k.treeTips) hr
      have hrlev : r.lev ≤ b := by
        simp only [Forest.lev] at hlev
        omega
      have := ihr b (p + k.treeTips) (l ++ [p + I.length]) hr hrlev
      simp only [if_neg hr, List.map_cons, scanList, ge_iff_le, le_refl, if_true, lt_irrefl,
        if_false, gt_iff_lt]
      rw [show p + I.length + 1 = p + k.treeTips by omega, this]
      simp only [Forest.ends, List.dropLast_cons_of_ne_nil hne, List.append_assoc,
        List.singleton_append]
      rw [show p + k.treeTips - 1 = p + I.length by omega]

theorem scanList_top (lb : Str) (k r : Forest) (p : Nat) (hr : r.count ≠ 0) :
    scanList (((Forest.cons lb k r).hts (Forest.cons lb k r).lev).map (Nat.cast : Nat → ℚ))
        p (-1) none
      = Except.ok ((((Forest.cons lb k r).lev : Nat) : ℚ),
          some (((Forest.cons lb k r).ends p).dropLast)) := by
  obtain ⟨I, hI, hIlen, hIlt, _⟩ := Forest.hts_cons_split lb k r (Forest.cons lb k r).lev
  have hIb : ∀ h ∈ I.map (Nat.cast : Nat → ℚ),
      0 ≤ h ∧ h < (((Forest.cons lb k r).lev : Nat) : ℚ) := by
    intro h hh
    simp only [List.mem_map] at hh
    obtain ⟨x, hx, rfl⟩ := hh
    have := hIlt x hx
    exact ⟨Nat.cast_nonneg _, by exact_mod_cast this⟩
  have hpos : (-1 : ℚ) < (((Forest.cons lb k r).lev : Nat) : ℚ) := by
    have : (0 : ℚ) ≤ (((Forest.cons lb k r).lev : Nat) : ℚ) := Nat.cast_nonneg _
    linarith
  obtain ⟨c', ci', hrun, hc', _⟩ := scanList_below (I.map (Nat.cast : Nat → ℚ))
    (((Forest.cons lb k r).lev : Nat) : ℚ) p (-1) none hIb hpos (fun _ => by norm_num)
  have hne := Forest.ends_ne_nil r (p + k.treeTips) hr
  have hrlev : r.lev ≤ (Forest.cons lb k r).lev := by
    simp only [Forest.lev]
    omega
  have := scanList_forest r (Forest.cons lb k r).lev (p + k.treeTips) [p + I.length] hr hrlev
  rw [hI, List.map_append, scanList_append, hrun]
  simp only [List.length_map, if_neg hr, List.map_cons, scanList, ge_iff_le, if_pos (le_of_lt hc'),
    gt_iff_lt, if_pos hc']
  rw [show p + I.length + 1 = p + k.treeTips by omega, this]
  simp only [Forest.ends, List.dropLast_cons_of_ne_nil hne, List.singleton_append]
  rw [show p + k.treeTips - 1 = p + I.length by omega]

theorem setPrev_core (ns : List Expanded) (p k : Nat) :
    (setPrev ns p k).map Expanded.core = ns.map Expanded.core := by
  unfold setPrev
  cases h : ns.get? k with
  | none => rfl
  | some n =>
    simp only [List.map_set, Expanded.core]
    apply List.ext_getElem
    · simp
    · intro i h1 h2
      simp only [List.getElem_set, List.getElem_map]
      split
      · rename_i hki
        subst hki
        have : ns[k]? = some n := by simpa using h
        rw [List.getElem?_eq_getElem (by simpa using h2)] at this
        cases this
        rfl
      · rfl

theorem foldl_setPrev_core (p : Nat) : ∀ (sons : List Nat) (ns : List Expanded),
    (sons.foldl (fun ns s => setPrev ns p s) ns).map Expanded.core = ns.map Expanded.core := by
  intro sons
  induction sons with
  | nil => intro ns; rfl
  | cons s ss ih => intro ns; simp only [List.foldl_cons]; rw [ih, setPrev_core]

theorem setBranchOf_core (ns : List Expanded) (k : Nat) (b : ℚ) :
    (setBranchOf ns k b).map Expanded.core = ns.map Expanded.core := by
  unfold setBranchOf
  cases h : ns.get? k with
  | none => rfl
  | some n =>
    simp only [List.map_set, Expanded.core]
    apply List.ext_getElem
    · simp
    · intro i h1 h2
      simp only [List.getElem_set, List.getElem_map]
      split
      · rename_i hki
        subst hki
        have : ns[k]? = some n := by simpa using h
        rw [List.getElem?_eq_getElem (by simpa using h2)] at this
        cases this
        rfl
      · rfl

theorem length_of_core_eq (a b : List Expanded) (c : List (Int × Nat × List Nat))
    (h : a.map Expanded.core = b.map Expanded.core ++ c) : a.length = b.length + c.length := by
  have := congrArg List.length h
  simpa using this

theorem Forest.expanded_length (tax : List Nat) : ∀ (F : Forest) (off a : Nat),
    (F.expanded tax off a).length = F.size := by
  intro F
  induction F with
  | nil => intro off a; rfl
  | cons l k r ihk ihr =>
    intro off a
    simp only [Forest.expanded, Forest.size, List.length_append, ihr]
    by_cases hk : k.count = 0
    · have : k = Forest.nil := (Forest.count_eq_zero_iff k).mp hk
      subst this
      simp [Forest.count, Forest.size]
    · simp [hk, ihk]

/-- One call of `rep2treeInternal` on the tips of a tree with the sons `k`, given what the
loop over the sons does on `k`. -/
theorem rep2tree_tree (tax : List Nat) (htax hs : List ℚ) (cap : Nat) (k : Forest)
    (hk : ExpandSpec tax htax hs cap k) (fuel bl : Nat) (st : ExpState) (a : Nat)
    (A B : List ℚ) (hB : k.count ≠ 1) (hBk : k.Branching)
    (hhs : hs = A ++ (k.hts k.lev).map (Nat.cast : Nat → ℚ) ++ B) (hA : A.length = a)
    (htx : a + k.treeTips ≤ tax.length) (hhtx : a + k.treeTips ≤ htax.length)
    (hfuel : k.depth + 1 ≤ fuel) (hbl : k.count + k.need ≤ bl)
    (hcap : st.sonsUsed + k.size ≤ cap) :
    ∃ st', rep2treeInternal tax htax hs none cap fuel st a (a + k.treeTips - 1) bl
        = Except.ok (st', st.nodes.length + k.size)
      ∧ st'.nodes.map Expanded.core = st.nodes.map Expanded.core
          ++ (if k.count = 0 then [(((tax.getD a 0 : Nat) : Int), 0, [])]
              else k.expanded tax st.nodes.length a
                ++ [(-1, k.count, k.roots st.nodes.length)])
      ∧ st'.sonsUsed = st.sonsUsed + k.size := by
  obtain ⟨f, rfl⟩ : ∃ f, fuel = f + 1 := ⟨fuel - 1, by omega⟩
  have htp := Forest.treeTips_pos k
  by_cases hkc : k.count = 0
  · have hknil : k = Forest.nil := (Forest.count_eq_zero_iff k).mp hkc
    subst hknil
    have ht1 : Forest.nil.treeTips = 1 := rfl
    rw [ht1] at htx hhtx
    have h1 : tax.get? a = some (tax.getD a 0) := by
      rw [List.getD_eq_getElem _ _ (by omega), List.get?_eq_getElem?,
        List.getElem?_eq_getElem (by omega)]
    have h2 : htax.get? a = some (htax.getD a 0) := by
      rw [List.getD_eq_getElem _ _ (by omega), List.get?_eq_getElem?,
        List.getElem?_eq_getElem (by omega)]
    refine ⟨{ st with nodes := st.nodes
      ++ [Expanded.mk ((tax.getD a 0 : Nat) : Int) 0 [] none (htax.getD a 0) (-1) none] },
      ?_, ?_, ?_⟩
    · simp only [rep2treeInternal, ht1, Nat.add_sub_cancel, if_true, h1, h2, attrSlot,
        Forest.size, Nat.add_zero]
    · simp [Expanded.core, Forest.count]
    · simp [Forest.size]
  · have hc2 : 2 ≤ k.count := by omega
    have hct := Forest.count_le_tips k
    have htt : k.treeTips = k.tips := by simp [Forest.treeTips, hkc]
    have hne : ¬ a = a + k.treeTips - 1 := by omega
    have hlenX : ((k.hts k.lev).map (Nat.cast : Nat → ℚ)).length = a + k.treeTips - 1 - a := by
      rw [List.length_map, Forest.hts_length]; omega
    have hscan : scanSplits hs (List.range' a (a + k.treeTips - 1 - a)) (-1) none
        = Except.ok (((k.lev : Nat) : ℚ), some ((k.ends a).dropLast)) := by
      rw [← hlenX, hhs, ← hA, scanSplits_eq_scanList]
      cases k with
      | nil => exact absurd rfl hkc
      | cons l1 k1 r1 =>
        have hr1 : r1.count ≠ 0 := by
          simp only [Forest.count] at hc2
          omega
        exact scanList_top l1 k1 r1 A.length hr1
    have hsl : ((k.ends a).dropLast).length = k.count - 1 := by
      rw [List.length_dropLast, Forest.ends_length]
    have hends := Forest.ends_dropLast k a hkc
    rw [← htt] at hends
    obtain ⟨st1, hrun, hcore, hused⟩ :=
      hk f (bl - ((k.ends a).dropLast).length - 1) ((k.lev : Nat) : ℚ)
        { st with sonsUsed := st.sonsUsed + (1 + ((k.ends a).dropLast).length) }
        a [] k.lev A B hBk hhs hA (le_refl _) (by omega) (by omega) (by omega)
        (by rw [hsl]; omega)
        (by
          have := Forest.count_le_size k
          simp only [hsl]
          omega)
    have hlen1 := length_of_core_eq _ _ _ hcore
    have hcs := Forest.count_le_size k
    simp only [Forest.expanded_length] at hlen1
    simp only [List.nil_append] at hrun
    refine ⟨{ st1 with nodes :=
        (k.roots st.nodes.length).foldl (fun ns s => setPrev ns st1.nodes.length s) st1.nodes
          ++ [Expanded.mk (-1) (1 + ((k.ends a).dropLast).length) (k.roots st.nodes.length)
                none ((k.lev : Nat) : ℚ) (-1) none] }, ?_, ?_, ?_⟩
    · simp only [rep2treeInternal, if_neg hne, hscan]
      rw [if_neg (by rw [hsl]; omega), if_neg (by rw [hsl]; omega),
        if_neg (by rw [hsl]; omega), hends, hrun]
      simp only [attrSlot]
      rw [hlen1]
    · simp only [List.map_append, foldl_setPrev_core, hcore, if_neg hkc, List.map_cons,
        List.map_nil, Expanded.core, hsl, List.nil_append]
      rw [show 1 + (k.count - 1) = k.count by omega, List.append_assoc]
    · simp only [hused, hsl]
      have := Forest.count_le_size k
      omega

theorem Forest.hts_nil_right (l : Str) (k : Forest) (b : Nat) :
    (Forest.cons l k Forest.nil).hts b = k.hts k.lev := by
  by_cases hk : k.count = 0
  · have : k = Forest.nil := (Forest.count_eq_zero_iff k).mp hk
    subst this
    simp [Forest.hts, Forest.count]
  · simp [Forest.hts, Forest.count, hk]

/-- The loop over the sons in `rep2treeInternal` lays out every forest whose trees all
branch. -/
theorem expandSpec_all (tax : List Nat) (htax hs : List ℚ) (cap : Nat) :
    ∀ (F : Forest), ExpandSpec tax htax hs cap F := by
  intro F
  induction F with
  | nil =>
    intro fuel bl curh st a acc b A B _ _ _ _ _ _ _ _ _
    exact ⟨st, by simp [Forest.ends, expandSons, Forest.roots],
      by simp [Forest.expanded], by simp [Forest.size]⟩
  | cons l k r ihk ihr =>
    intro fuel bl curh st a acc b A B hBr hhs hA hlev htx hhtx hfuel hbl hcap
    simp only [Forest.Branching] at hBr
    obtain ⟨hB1, hBk, hBrr⟩ := hBr
    obtain ⟨I, hI, hIlen, _, hIeq⟩ := Forest.hts_cons_split l k r b
    rw [Forest.hts_nil_right] at hIeq
    have htp := Forest.treeTips_pos k
    have hcs := Forest.count_le_size k
    have hcsr := Forest.count_le_size r
    rw [Forest.tips_cons] at htx hhtx
    simp only [Forest.depth] at hfuel
    simp only [Forest.need] at hbl
    simp only [Forest.size, Forest.count] at hcap
    -- the first tree
    obtain ⟨st1, hrun1, hcore1, hused1⟩ := rep2tree_tree tax htax hs cap k ihk fuel bl st a A
      ((if r.count = 0 then [] else b :: r.hts b).map (Nat.cast : Nat → ℚ) ++ B) hB1 hBk
      (by rw [hhs, hI, hIeq]; simp) hA (by omega) (by omega) (by omega) (by omega) (by omega)
    have hlen1 : st1.nodes.length = st.nodes.length + k.size + 1 := by
      have := length_of_core_eq _ _ _ hcore1
      rw [this]
      by_cases hkc : k.count = 0
      · have : k = Forest.nil := (Forest.count_eq_zero_iff k).mp hkc
        subst this
        simp [Forest.count, Forest.size]
      · simp only [if_neg hkc, List.length_append, Forest.expanded_length, List.length_cons,
          List.length_nil]
        omega
    have hget : ∃ nk, st1.nodes.get? (st.nodes.length + k.size) = some nk := by
      have : st.nodes.length + k.size < st1.nodes.length := by omega
      exact ⟨st1.nodes[st.nodes.length + k.size], by
        rw [List.get?_eq_getElem?, List.getElem?_eq_getElem this]⟩
    obtain ⟨nk, hnk⟩ := hget
    -- the trees to the right
    by_cases hrc : r.count = 0
    · have hrnil : r = Forest.nil := (Forest.count_eq_zero_iff r).mp hrc
      subst hrnil
      refine ⟨ExpState.mk (setBranchOf st1.nodes (st.nodes.length + k.size)
        (curh - nk.height)) st1.sonsUsed, ?_, ?_, ?_⟩
      · simp only [Forest.ends, expandSons, hrun1, hnk, Forest.roots]
      · simp only [setBranchOf_core, hcore1, Forest.expanded, List.append_nil]
      · simp only [hused1, Forest.size, Forest.count]
        omega
    · obtain ⟨st2, hrun2, hcore2, hused2⟩ := ihr fuel bl curh
        (ExpState.mk (setBranchOf st1.nodes (st.nodes.length + k.size) (curh - nk.height))
          st1.sonsUsed)
        (a + k.treeTips) (acc ++ [st.nodes.length + k.size]) b
        (A ++ I.map (Nat.cast : Nat → ℚ) ++ [(b : ℚ)]) B hBrr
        (by rw [hhs, hI]; simp [hrc]) (by simp [hA]; omega)
        (by simp only [Forest.lev] at hlev; omega) (by omega) (by omega) (by omega) (by omega)
        (by simp only [hused1]; omega)
      have hlen1' : (setBranchOf st1.nodes (st.nodes.length + k.size) (curh - nk.height)).length
          = st.nodes.length + k.size + 1 := by
        have := congrArg List.length (setBranchOf_core st1.nodes (st.nodes.length + k.size)
          (curh - nk.height))
        simp only [List.length_map] at this
        rw [this, hlen1]
      refine ⟨st2, ?_, ?_, ?_⟩
      · simp only [Forest.ends, expandSons, hrun1, hnk, Forest.roots]
        rw [show a + k.treeTips - 1 + 1 = a + k.treeTips by omega, hrun2]
        simp only [hlen1', List.append_assoc, List.singleton_append]
      · simp only [hcore2, setBranchOf_core, hcore1, Forest.expanded, hlen1',
          List.append_assoc]
      · simp only [hused2, hused1, Forest.size, Forest.count]
        omega

theorem Forest.need_le : ∀ (F : Forest), F.need + F.count ≤ F.size := by
  intro F
  induction F with
  | nil => simp [Forest.need, Forest.count]
  | cons l k r ihk ihr =>
    simp only [Forest.need, Forest.count, Forest.size]
    omega

theorem Forest.size_le_tips : ∀ (F : Forest), F.Branching → F.size + F.count ≤ 2 * F.tips := by
  intro F
  induction F with
  | nil => intro _; simp [Forest.size, Forest.count]
  | cons l k r ihk ihr =>
    intro hB
    simp only [Forest.Branching] at hB
    obtain ⟨h1, hk, hr⟩ := hB
    have := ihk hk
    have := ihr hr
    rw [Forest.tips_cons]
    simp only [Forest.size, Forest.count, Forest.treeTips]
    by_cases hkc : k.count = 0
    · have : k = Forest.nil := (Forest.count_eq_zero_iff k).mp hkc
      subst this
      simp only [Forest.count, if_true, Forest.size]
      omega
    · simp only [if_neg hkc]
      omega

/-- Source `Tree::setup` on the representation of a cladogram whose internal nodes all
branch: the expanded nodes are the post-order layout of the tree. -/
theorem setup_cladogram (ts : TreesSet) (nt : Nat) (rep : TreeRep) (l : Str) (k : Forest)
    (ids : List Nat) (fuel : Nat) (hrep : ts.trees.get? nt = some rep)
    (htop : rep.topology = ids)
    (hh : rep.getHeights
      = (((Forest.cons l k Forest.nil).hts 0).map (Nat.cast : Nat → ℚ), []))
    (hat : rep.attributes = none) (hcl : rep.isCladogram = true)
    (hids : ids.length = k.treeTips) (hB : (Forest.cons l k Forest.nil).Branching)
    (hfuel : k.depth + 1 ≤ fuel) :
    ∃ internals, ts.setup fuel nt = Except.ok internals
      ∧ internals.map Expanded.core = (Forest.cons l k Forest.nil).expanded ids 0 0
      ∧ ∀ n ∈ internals, n.branch = none := by
  simp only [Forest.Branching] at hB
  obtain ⟨hB1, hBk, _⟩ := hB
  have htp := Forest.treeTips_pos k
  have hneed := Forest.need_le k
  have hsz := Forest.size_le_tips k hBk
  have htt : k.count ≠ 0 → k.treeTips = k.tips := fun h => by simp [Forest.treeTips, h]
  have hsz2 : k.size ≤ 2 * k.treeTips := by
    by_cases hkc : k.count = 0
    · have : k = Forest.nil := (Forest.count_eq_zero_iff k).mp hkc
      subst this
      simp [Forest.size]
    · rw [htt hkc]; omega
  rw [Forest.hts_nil_right] at hh
  obtain ⟨st1, hrun, hcore, _⟩ := rep2tree_tree ids (List.replicate k.treeTips 0)
    ((k.hts k.lev).map (Nat.cast : Nat → ℚ)) (2 * k.treeTips) k
    (expandSpec_all ids (List.replicate k.treeTips 0) _ (2 * k.treeTips) k)
    fuel (2 * k.treeTips) (ExpState.mk [] 0) 0 [] [] hB1 hBk (by simp) rfl
    (by omega) (by simp) hfuel (by omega) (by simpa using hsz2)
  have hlen : ((k.hts k.lev).map (Nat.cast : Nat → ℚ)).length = 0 + k.treeTips - 1 := by
    rw [List.length_map, Forest.hts_length]
    by_cases hkc : k.count = 0
    · have : k = Forest.nil := (Forest.count_eq_zero_iff k).mp hkc
      subst this
      simp [Forest.tips, Forest.treeTips, Forest.count]
    · rw [htt hkc]; omega
  refine ⟨st1.nodes.map (fun x => { x with branch := none, height := -1 }), ?_, ?_, ?_⟩
  · unfold TreesSet.setup
    simp only [hrep, htop, hh, hat, hcl, hids, List.length_nil, if_true, hlen, hrun]
  · rw [List.map_map]
    have : (Expanded.core ∘ fun x : Expanded => { x with branch := none, height := -1 })
        = Expanded.core := by
      funext x; rfl
    rw [this, hcore]
    simp [Forest.expanded]
  · intro n hn
    simp only [List.mem_map] at hn
    obtain ⟨x, _, rfl⟩ := hn
    rfl

end Biopy

namespace Biopy

/-! ## The tree read off a vector of nodes -/

theorem forestOf_of_tableHas (tbl : NodeTable) : ∀ (F : Forest) (off fuel : Nat),
    TableHas tbl F off → F.size < fuel → forestOf tbl fuel (F.roots off) = some F := by
  intro F
  induction F with
  | nil =>
    intro off fuel _ hf
    obtain ⟨f, rfl⟩ : ∃ f, fuel = f + 1 := ⟨fuel - 1, by omega⟩
    rfl
  | cons l k r ihk ihr =>
    intro off fuel ht hf
    obtain ⟨f, rfl⟩ : ∃ f, fuel = f + 1 := ⟨fuel - 1, by omega⟩
    simp only [TableHas] at ht
    obtain ⟨⟨lb, hlb, hlab⟩, hk, hr⟩ := ht
    simp only [Forest.size] at hf
    simp only [Forest.roots, forestOf, hlb, ihk off f hk (by omega),
      ihr (off + k.size + 1) f hr (by omega), Forest.roots_length, hlab]

theorem IsFlat.clean : ∀ (F : Forest) (off : Nat) (ns : List ParsedTreeNode),
    IsFlat F off ns → F.Clean := by
  intro F
  induction F with
  | nil => intro off ns _; trivial
  | cons l k r ihk ihr =>
    intro off ns h
    simp only [IsFlat] at h
    obtain ⟨ns1, n, ns2, _, h1, _, hlab, h2⟩ := h
    exact ⟨fun hk => by rw [hlab, if_neg hk], ihk _ _ h1, ihr _ _ h2⟩

theorem IsFlat.branching : ∀ (F : Forest) (off : Nat) (ns : List ParsedTreeNode),
    IsFlat F off ns → (∀ n ∈ ns, n.sons.length ≠ 1) → F.Branching := by
  intro F
  induction F with
  | nil => intro off ns _ _; trivial
  | cons l k r ihk ihr =>
    intro off ns h hs
    simp only [IsFlat] at h
    obtain ⟨ns1, n, ns2, rfl, h1, hsons, _, h2⟩ := h
    refine ⟨?_, ihk _ _ h1 (fun x hx => hs x (by simp [hx])),
      ihr _ _ h2 (fun x hx => hs x (by simp [hx]))⟩
    have := hs n (by simp)
    rw [hsons, Forest.roots_length] at this
    exact this

theorem tableHas_parsed : ∀ (F : Forest) (off : Nat) (N ns M : List ParsedTreeNode),
    IsFlat F off ns → N.length = off → TableHas (parsedTable (N ++ ns ++ M)) F off := by
  intro F
  induction F with
  | nil => intro off N ns M _ _; trivial
  | cons l k r ihk ihr =>
    intro off N ns M h hN
    simp only [IsFlat] at h
    obtain ⟨ns1, n, ns2, rfl, h1, hsons, hlab, h2⟩ := h
    have hlen1 := IsFlat.length_eq _ _ _ h1
    refine ⟨⟨n.taxon, ?_, hlab.symm⟩, ?_, ?_⟩
    · have e : N ++ (ns1 ++ n :: ns2) ++ M = (N ++ ns1) ++ n :: (ns2 ++ M) := by simp
      have hl : (N ++ ns1).length = off + k.size := by simp [hN, hlen1]
      simp only [parsedTable]
      rw [e, ← hl, get?_append_mid, ← hsons]
      rfl
    · have e : N ++ (ns1 ++ n :: ns2) ++ M = N ++ ns1 ++ (n :: ns2 ++ M) := by simp
      rw [e]
      exact ihk off N ns1 _ h1 hN
    · have e : N ++ (ns1 ++ n :: ns2) ++ M = (N ++ ns1 ++ [n]) ++ ns2 ++ M := by simp
      rw [e]
      exact ihr _ _ ns2 M h2 (by simp [hN, hlen1]; omega)

theorem get_of_map_core (internals : List Expanded) (X Y : List (Int × Nat × List Nat))
    (c : Int × Nat × List Nat) (h : internals.map Expanded.core = X ++ c :: Y) :
    ∃ n, internals.get? X.length = some n ∧ n.core = c := by
  have h1 : (internals.map Expanded.core).get? X.length = some c := by
    rw [h]; exact get?_append_mid X Y c
  rw [List.get?_eq_getElem?, List.getElem?_map] at h1
  cases hn : internals[X.length]? with
  | none => rw [hn] at h1; cases h1
  | some n =>
    rw [hn] at h1
    refine ⟨n, by rw [List.get?_eq_getElem?, hn], ?_⟩
    simpa using h1

theorem tipLabels_facts (l : Str) (k r : Forest) (taxaList : List Str) (tax : List Nat)
    (a : Nat)
    (hl : ∀ j, j < (Forest.cons l k r).tips →
      taxaList.get? (tax.getD (a + j) 0) = some ((Forest.cons l k r).tipLabels.getD j [])) :
    (k.count = 0 → taxaList.get? (tax.getD a 0) = some l)
      ∧ (k.count ≠ 0 → ∀ j, j < k.tips →
          taxaList.get? (tax.getD (a + j) 0) = some (k.tipLabels.getD j []))
      ∧ (∀ j, j < r.tips →
          taxaList.get? (tax.getD (a + k.treeTips + j) 0) = some (r.tipLabels.getD j [])) := by
  have htp := Forest.treeTips_pos k
  rw [Forest.tips_cons] at hl
  refine ⟨?_, ?_, ?_⟩
  · intro hk
    have := hl 0 (by omega)
    simpa [Forest.tipLabels, hk] using this
  · intro hk j hj
    have := hl j (by simp only [Forest.treeTips, if_neg hk]; omega)
    rw [this]
    simp only [Forest.tipLabels, if_neg hk]
    rw [List.getD_append _ _ _ _ (by rw [Forest.tipLabels_length]; exact hj)]
  · intro j hj
    have := hl (k.treeTips + j) (by omega)
    rw [← Nat.add_assoc] at this
    rw [this]
    simp only [Forest.tipLabels]
    have hlen : (if k.count = 0 then [l] else k.tipLabels).length = k.treeTips := by
      by_cases hk : k.count = 0
      · simp [hk, Forest.treeTips]
      · simp [hk, Forest.treeTips, Forest.tipLabels_length]
    rw [List.getD_append_right _ _ _ _ (by omega), hlen, Nat.add_sub_cancel_left]

theorem tableHas_expanded (ts : TreesSet) (internals : List Expanded) (tax : List Nat) :
    ∀ (F : Forest) (off a : Nat) (N M : List (Int × Nat × List Nat)),
      internals.map Expanded.core = N ++ F.expanded tax off a ++ M → N.length = off →
      F.Clean →
      (∀ j, j < F.tips →
        ts.taxaList.get? (tax.getD (a + j) 0) = some (F.tipLabels.getD j [])) →
      TableHas (expandedTable ts internals) F off := by
  intro F
  induction F with
  | nil => intro off a N M _ _ _ _; trivial
  | cons l k r ihk ihr =>
    intro off a N M hmap hN hclean hl
    obtain ⟨hc1, hck, hcr⟩ := hclean
    obtain ⟨hl0, hlk, hlr⟩ := tipLabels_facts l k r ts.taxaList tax a hl
    by_cases hkc : k.count = 0
    · have hknil : k = Forest.nil := (Forest.count_eq_zero_iff k).mp hkc
      subst hknil
      simp only [Forest.expanded, Forest.count, if_true, Forest.size, Nat.add_zero] at hmap
      have hmap' : internals.map Expanded.core
          = N ++ (((tax.getD a 0 : Nat) : Int), 0, [])
              :: (Forest.expanded tax r (off + 1) (a + Forest.nil.treeTips) ++ M) := by
        rw [hmap]; simp
      obtain ⟨n, hn, hcore⟩ := get_of_map_core _ _ _ _ hmap'
      refine ⟨⟨ts.taxaList.getD (tax.getD a 0) [], ?_, ?_⟩, trivial, ?_⟩
      · simp only [expandedTable, Forest.size, Nat.add_zero, ← hN, hn, Option.map_some',
          Forest.roots]
        simp only [Expanded.core, Prod.mk.injEq] at hcore
        obtain ⟨h1, h2, _⟩ := hcore
        simp [h1, h2]
      · have := hl0 rfl
        simp only [Forest.count, if_true]
        rw [List.get?_eq_getElem?] at this
        have e : ts.taxaList.getD (tax.getD a 0) [] = (ts.taxaList[tax.getD a 0]?).getD [] :=
          List.getD_eq_getElem?_getD _ _ _
        rw [e, this]
        rfl
      · have e : N ++ (((tax.getD a 0 : Nat) : Int), 0, [])
              :: (Forest.expanded tax r (off + 1) (a + Forest.nil.treeTips) ++ M)
            = (N ++ [(((tax.getD a 0 : Nat) : Int), 0, [])])
              ++ Forest.expanded tax r (off + 1) (a + Forest.nil.treeTips) ++ M := by simp
        rw [e] at hmap'
        exact ihr (off + 0 + 1) _ _ M hmap' (by simp [hN]) hcr hlr
    · simp only [Forest.expanded, if_neg hkc] at hmap
      have hmap' : internals.map Expanded.core
          = (N ++ k.expanded tax off a) ++ (-1, k.count, k.roots off)
              :: (Forest.expanded tax r (off + k.size + 1) (a + k.treeTips) ++ M) := by
        rw [hmap]; simp
      obtain ⟨n, hn, hcore⟩ := get_of_map_core _ _ _ _ hmap'
      have hlen : (N ++ k.expanded tax off a).length = off + k.size := by
        simp [hN, Forest.expanded_length]
      rw [hlen] at hn
      refine ⟨⟨[], ?_, ?_⟩, ?_, ?_⟩
      · simp only [expandedTable, hn, Option.map_some']
        simp only [Expanded.core, Prod.mk.injEq] at hcore
        obtain ⟨h1, h2, h3⟩ := hcore
        have : (k.roots off).take k.count = k.roots off := by
          apply List.take_of_length_le
          rw [Forest.roots_length]
        simp [h1, h2, h3, this]
      · rw [hc1 hkc]; simp
      · have hm : internals.map Expanded.core
            = N ++ k.expanded tax off a ++ ((-1, k.count, k.roots off)
              :: (Forest.expanded tax r (off + k.size + 1) (a + k.treeTips) ++ M)) := by
          rw [hmap]; simp
        exact ihk off a N _ hm hN hck (hlk hkc)
      · have hm : internals.map Expanded.core
            = (N ++ k.expanded tax off a ++ [(-1, k.count, k.roots off)])
              ++ Forest.expanded tax r (off + k.size + 1) (a + k.treeTips) ++ M := by
          rw [hmap]; simp
        exact ihr _ _ _ M hm (by simp [hN, Forest.expanded_length]; omega) hcr hlr

/-- Source `Tree::tostr` on the post-order layout of a forest without branch lengths
gives the canonical strings of its trees. -/
theorem tostr_canon (fmt : ℚ → Str) (ts : TreesSet) (internals : List Expanded)
    (tax : List Nat) (topoOnly : Bool) (hbr : ∀ n ∈ internals, n.branch = none) :
    ∀ (F : Forest) (off a : Nat) (N M : List (Int × Nat × List Nat)) (fuel : Nat),
      internals.map Expanded.core = N ++ F.expanded tax off a ++ M → N.length = off →
      (∀ j, j < F.tips →
        ts.taxaList.get? (tax.getD (a + j) 0) = some (F.tipLabels.getD j [])) →
      F.depth ≤ fuel →
      mapExcept (fun s => tostr fmt ts internals fuel s topoOnly true) (F.roots off)
        = Except.ok F.canon := by
  intro F
  induction F with
  | nil => intro off a N M fuel _ _ _ _; rfl
  | cons l k r ihk ihr =>
    intro off a N M fuel hmap hN hl hfuel
    obtain ⟨hl0, hlk, hlr⟩ := tipLabels_facts l k r ts.taxaList tax a hl
    simp only [Forest.depth] at hfuel
    obtain ⟨f, rfl⟩ : ∃ f, fuel = f + 1 := ⟨fuel - 1, by omega⟩
    by_cases hkc : k.count = 0
    · have hknil : k = Forest.nil := (Forest.count_eq_zero_iff k).mp hkc
      subst hknil
      simp only [Forest.expanded, Forest.count, if_true, Forest.size, Nat.add_zero] at hmap
      have hmap' : internals.map Expanded.core
          = N ++ (((tax.getD a 0 : Nat) : Int), 0, [])
              :: (Forest.expanded tax r (off + 1) (a + Forest.nil.treeTips) ++ M) := by
        rw [hmap]; simp
      obtain ⟨n, hn, hcore⟩ := get_of_map_core _ _ _ _ hmap'
      have hnb : n.branch = none := hbr n (List.get?_mem hn)
      simp only [Expanded.core, Prod.mk.injEq] at hcore
      obtain ⟨h1, h2, _⟩ := hcore
      have hm : internals.map Expanded.core
          = (N ++ [(((tax.getD a 0 : Nat) : Int), 0, [])])
            ++ Forest.expanded tax r (off + 1) (a + Forest.nil.treeTips) ++ M := by
        rw [hmap]; simp
      have hrest := ihr (off + 0 + 1) _ _ M (f + 1) hm (by simp [hN]) hlr (by omega)
      have htx : ts.taxonString (tax.getD a 0) = Except.ok l := by
        simp only [TreesSet.taxonString, hl0 rfl]
      have hhead : tostr fmt ts internals (f + 1) (off + 0) topoOnly true = Except.ok l := by
        show tostr fmt ts internals (f + 1) off topoOnly true = Except.ok l
        rw [← hN]
        simp only [tostr, hn, h1, h2, if_true, Int.toNat_ofNat, htx, hnb, Int.ofNat_nonneg,
          Nat.cast_nonneg]
      simp only [Forest.roots, Forest.size, mapExcept, hhead, hrest, Forest.canon,
        Forest.count, if_true]
    · simp only [Forest.expanded, if_neg hkc] at hmap
      have hmap' : internals.map Expanded.core
          = (N ++ k.expanded tax off a) ++ (-1, k.count, k.roots off)
              :: (Forest.expanded tax r (off + k.size + 1) (a + k.treeTips) ++ M) := by
        rw [hmap]; simp
      obtain ⟨n, hn, hcore⟩ := get_of_map_core _ _ _ _ hmap'
      have hlen : (N ++ k.expanded tax off a).length = off + k.size := by
        simp [hN, Forest.expanded_length]
      rw [hlen] at hn
      have hnb : n.branch = none := hbr n (List.get?_mem hn)
      simp only [Expanded.core, Prod.mk.injEq] at hcore
      obtain ⟨h1, h2, h3⟩ := hcore
      have hm1 : internals.map Expanded.core
          = N ++ k.expanded tax off a ++ ((-1, k.count, k.roots off)
            :: (Forest.expanded tax r (off + k.size + 1) (a + k.treeTips) ++ M)) := by
        rw [hmap]; simp
      have hm2 : internals.map Expanded.core
          = (N ++ k.expanded tax off a ++ [(-1, k.count, k.roots off)])
            ++ Forest.expanded tax r (off + k.size + 1) (a + k.treeTips) ++ M := by
        rw [hmap]; simp
      have hkids := ihk off a N _ f hm1 hN (hlk hkc) (by omega)
      have hrest := ihr _ _ _ M (f + 1) hm2 (by simp [hN, Forest.expanded_length]; omega)
        hlr (by omega)
      have htake : (k.roots off).take k.count = k.roots off := by
        apply List.take_of_length_le
        rw [Forest.roots_length]
      have hhead : tostr fmt ts internals (f + 1) (off + k.size) topoOnly true
          = Except.ok (joinSorted k.canon) := by
        simp only [tostr, hn, h2, if_neg hkc, h3, htake, hkids, hnb]
      simp only [Forest.roots, mapExcept, hhead, hrest, Forest.canon, if_neg hkc]

theorem tostr_stem (fmt : ℚ → Str) (ts : TreesSet) (internals : List Expanded)
    (hbr : ∀ n ∈ internals, n.branch = none) (fuel node : Nat) (topoOnly stem : Bool) :
    tostr fmt ts internals fuel node topoOnly stem
      = tostr fmt ts internals fuel node topoOnly true := by
  cases fuel with
  | zero => rfl
  | succ f =>
    simp only [tostr]
    cases hn : internals.get? node with
    | none => rfl
    | some n =>
      have hnb : n.branch = none := hbr n (List.get?_mem hn)
      simp only [hnb]

theorem Forest.depth_le_size : ∀ (F : Forest), F.depth ≤ F.size := by
  intro F
  induction F with
  | nil => simp [Forest.depth]
  | cons l k r ihk ihr => simp only [Forest.depth, Forest.size]; omega

theorem internAll_store : ∀ (labels : List Str) (ts : TreesSet),
    (internAll ts labels).1.store = ts.store := by
  intro labels
  induction labels with
  | nil => intro ts; rfl
  | cons l ls ih =>
    intro ts
    simp only [internAll]
    rw [ih]
    unfold TreesSet.getTaxon
    cases ts.taxaDict.lookup l <;> rfl

theorem mapExcept_single (f : Nat → Except Abort Str) (x : Nat) (s : Str)
    (h : mapExcept f [x] = Except.ok [s]) : f x = Except.ok s := by
  simp only [mapExcept] at h
  cases hf : f x with
  | error e => rw [hf] at h; cases h
  | ok str =>
    rw [hf] at h
    simp only [Except.ok.injEq, List.cons.injEq, and_true] at h
    rw [h]

theorem Forest.tips_le_size : ∀ (F : Forest), F.tips ≤ F.size := by
  intro F
  induction F with
  | nil => simp [Forest.tips]
  | cons l k r ihk ihr =>
    simp only [Forest.tips, Forest.size]
    by_cases hk : k.count = 0
    · simp only [if_pos hk]; omega
    · simp only [if_neg hk]; omega

/-- What `add` does with an accepted text whose parsed nodes are the layout of a tree
without branch lengths and annotations whose internal nodes all branch: it stores a tree
whose expansion is, node for node, the parsed tree, and whose rendering is the canonical
string of the parsed tree. -/
theorem add_flat (strtod : Str → ℚ × Nat) (fuel : Nat) (ts : TreesSet) (txt : Str)
    (kwds : Option Attributes) (nc : Nat) (nodes : List ParsedTreeNode) (l : Str) (k : Forest)
    (hr : readSubTree strtod fuel txt [] = ParseResult.ok nc nodes)
    (hc : checkTreeEnd txt (some nc) = none) (hstore : ts.store = false) (hwf : ts.TaxaWF)
    (hflat : IsFlat (Forest.cons l k Forest.nil) 0 nodes)
    (hB : (Forest.cons l k Forest.nil).Branching)
    (hnb : ∀ n ∈ nodes, n.branch = none) (hna : ∀ n ∈ nodes, n.attributes = none)
    (hsize : nodes.length < 4294967296)
    (hcomp : ts.compressed = true → ts.taxaList.length + nodes.length ≤ 256) :
    ∃ (ts2 : TreesSet),
      ts.add strtod fuel txt kwds = (ts2, AddResult.added ts.trees.length)
      ∧ ts2.TaxaWF ∧ ts2.store = false ∧ ts2.compressed = ts.compressed
      ∧ ts2.trees.length = ts.trees.length + 1
      ∧ ts2.taxaList.length ≤ ts.taxaList.length + nodes.length
      ∧ ∀ f, nodes.length ≤ f →
          ∃ internals, ts2.setup f ts.trees.length = Except.ok internals
            ∧ internals.length = nodes.length
            ∧ TableHas (expandedTable ts2 internals) (Forest.cons l k Forest.nil) 0
            ∧ ∀ (fmt : ℚ → Str) (topoOnly stem : Bool),
                ts2.toNewick fmt f ts.trees.length none topoOnly stem
                  = Except.ok (if k.count = 0 then l else joinSorted k.canon) := by
  have hclean := IsFlat.clean _ _ _ hflat
  have hlenT := IsFlat.length_eq _ _ _ hflat
  have hwf1 : TreesSet.TaxaWF { ts with treesAttributes := ts.treesAttributes ++ [kwds] } := hwf
  obtain ⟨rep, hrep, htop, hh, hat, hcl⟩ :=
    nodes2rep_cladogram { ts with treesAttributes := ts.treesAttributes ++ [kwds] } fuel l k nodes
      hflat hnb hna hwf1 hsize hcomp
  obtain ⟨hwf', hidlen, hget, _, hcomp', htrees⟩ :=
    internAll_spec (Forest.cons l k Forest.nil).tipLabels
      { ts with treesAttributes := ts.treesAttributes ++ [kwds] } hwf1
  have hstore' := internAll_store (Forest.cons l k Forest.nil).tipLabels
    { ts with treesAttributes := ts.treesAttributes ++ [kwds] }
  have hlenle := internAll_length_le (Forest.cons l k Forest.nil).tipLabels
    { ts with treesAttributes := ts.treesAttributes ++ [kwds] }
  rw [Forest.tipLabels_length, Forest.tips_single] at hidlen hlenle
  have htipsle : k.treeTips ≤ nodes.length := by
    have := Forest.tips_le_size (Forest.cons l k Forest.nil)
    rw [Forest.tips_single] at this
    omega
  have hadd := add_of_accepted strtod fuel ts txt kwds nc nodes hr hc
  rw [if_neg (by simp [hstore]), hrep] at hadd
  simp only [] at hadd
  -- name the set with the taxa interned and its ids
  generalize (internAll { ts with treesAttributes := ts.treesAttributes ++ [kwds] }
    (Forest.cons l k Forest.nil).tipLabels) = res at *
  obtain ⟨tsI, ids⟩ := res
  simp only at hadd hwf' hidlen hget hcomp' htrees hstore' hlenle htop
  have hlenle' : tsI.taxaList.length ≤ ts.taxaList.length + k.treeTips := hlenle
  have hcomp'' : tsI.compressed = ts.compressed := hcomp'
  have htrees' : tsI.trees = ts.trees := htrees
  have hstore'' : tsI.store = ts.store := hstore'
  refine ⟨{ tsI with trees := tsI.trees ++ [rep] }, by rw [hadd, htrees'], hwf',
    hstore''.trans hstore, hcomp'', ?_, ?_, ?_⟩
  · simp [htrees']
  · show tsI.taxaList.length ≤ _
    omega
  · intro f hf
    have hdep := Forest.depth_le_size (Forest.cons l k Forest.nil)
    have hdep' : k.depth + 1 ≤ f := by
      simp only [Forest.depth] at hdep
      omega
    have hgetrep : List.get? (tsI.trees ++ [rep]) ts.trees.length = some rep := by
      rw [htrees']
      exact get?_append_mid ts.trees [] rep
    obtain ⟨internals, hset, hcore, hbr⟩ := setup_cladogram
      { tsI with trees := tsI.trees ++ [rep] }
      ts.trees.length rep l k ids f hgetrep htop hh hat hcl hidlen hB hdep'
    have hlen : internals.length = nodes.length := by
      have := congrArg List.length hcore
      rw [List.length_map, Forest.expanded_length] at this
      rw [this, hlenT]
    have hlab : ∀ j, j < (Forest.cons l k Forest.nil).tips →
        tsI.taxaList.get? (ids.getD (0 + j) 0)
          = some ((Forest.cons l k Forest.nil).tipLabels.getD j []) := by
      intro j hj
      rw [Nat.zero_add]
      exact hget j (by rw [Forest.tipLabels_length]; exact hj)
    have hcore' : internals.map Expanded.core
        = [] ++ (Forest.cons l k Forest.nil).expanded ids 0 0 ++ [] := by
      rw [hcore]; simp
    refine ⟨internals, hset, hlen, ?_, ?_⟩
    · exact tableHas_expanded { tsI with trees := tsI.trees ++ [rep] } internals ids _ 0 0 [] []
        hcore' rfl hclean hlab
    · intro fmt topoOnly stem
      have hcan := tostr_canon fmt { tsI with trees := tsI.trees ++ [rep] } internals ids
        topoOnly hbr _ 0 0 [] [] f hcore' rfl hlab (by simp only [Forest.depth]; omega)
      have hidx : internals.length - 1 = 0 + k.size := by
        rw [hlen, hlenT]; simp [Forest.size]
      simp only [Forest.roots, Forest.canon] at hcan
      have hroot := mapExcept_single _ _ _ hcan
      simp only [TreesSet.toNewick, hset, Option.getD_none]
      rw [tostr_stem fmt _ internals hbr, hidx, hroot]

/-- What `add` does with an accepted text without branch lengths and annotations whose
internal nodes all branch: it stores a tree whose expansion is, node for node, the parsed
tree, and whose rendering is the canonical string of the parsed tree. -/
theorem add_cladogram (strtod : Str → ℚ × Nat) (fuel : Nat) (ts : TreesSet) (txt : Str)
    (kwds : Option Attributes) (nc : Nat) (nodes : List ParsedTreeNode)
    (hr : readSubTree strtod fuel txt [] = ParseResult.ok nc nodes)
    (hc : checkTreeEnd txt (some nc) = none) (hstore : ts.store = false) (hwf : ts.TaxaWF)
    (hnb : ∀ n ∈ nodes, n.branch = none) (hna : ∀ n ∈ nodes, n.attributes = none)
    (hn2 : ∀ n ∈ nodes, n.sons.length ≠ 1) (hsize : nodes.length < 4294967296)
    (hcomp : ts.compressed = true → ts.taxaList.length + nodes.length ≤ 256) :
    ∃ (l : Str) (k : Forest) (ts2 : TreesSet),
      IsFlat (Forest.cons l k Forest.nil) 0 nodes
      ∧ ts.add strtod fuel txt kwds = (ts2, AddResult.added ts.trees.length)
      ∧ ts2.TaxaWF ∧ ts2.store = false ∧ ts2.compressed = ts.compressed
      ∧ ts2.trees.length = ts.trees.length + 1
      ∧ ts2.taxaList.length ≤ ts.taxaList.length + nodes.length
      ∧ ∀ f, nodes.length ≤ f →
          ∃ internals, ts2.setup f ts.trees.length = Except.ok internals
            ∧ internals.length = nodes.length
            ∧ TableHas (expandedTable ts2 internals) (Forest.cons l k Forest.nil) 0
            ∧ ∀ (fmt : ℚ → Str) (topoOnly stem : Bool),
                ts2.toNewick fmt f ts.trees.length none topoOnly stem
                  = Except.ok (if k.count = 0 then l else joinSorted k.canon) := by
  obtain ⟨l, k, ns, hns, hflat⟩ := readSubTree_flat strtod fuel txt [] nc nodes hr
  simp only [List.nil_append] at hns
  subst hns
  simp only [List.length_nil] at hflat
  have hB := IsFlat.branching _ _ _ hflat hn2
  obtain ⟨ts2, h⟩ := add_flat strtod fuel ts txt kwds nc nodes l k hr hc hstore hwf hflat hB
    hnb hna hsize hcomp
  exact ⟨l, k, ts2, hflat, h⟩

end Biopy

namespace Biopy

/-! ## Encoding and expanding a tree -/

/-- C1: a set holds the taxa with the ids 0 to 255, and the text `(X,Y)` is a cladogram the
parser accepts whose only internal node has two sons.  Without compression `add` stores
it with the topology 256, 257 and `to_newick` renders `(X,Y)`, the tree of the text.  With
compression the encoder asks the packer for `lg2i(257) + 1 = 9` bits a value, the
assertion `nBitsPerValue <= usize` of the packer (`usize` is 8) does not hold, and no
representation is produced: the set holds no tree to expand. -/
theorem cladogram_stops_compressed_encoder :
    parseTree strtodDigits 5 "(X,Y)".toList
        = Except.ok [ParsedTreeNode.mk ['X'] none [] none,
            ParsedTreeNode.mk ['Y'] none [] none, ParsedTreeNode.mk [] none [0, 1] none]
      ∧ (TreesSet.add strtodDigits 5 (set256 false) "(X,Y)".toList none).2
          = AddResult.added 0
      ∧ ((TreesSet.add strtodDigits 5 (set256 false) "(X,Y)".toList none).1.trees.map
          TreeRep.topology) = [[256, 257]]
      ∧ (TreesSet.add strtodDigits 5 (set256 false) "(X,Y)".toList none).1.toNewick
          (fun _ => []) 5 0 none true true = Except.ok "(X,Y)".toList
      ∧ lg2i 257 + 1 = 9
      ∧ (TreesSet.add strtodDigits 5 (set256 true) "(X,Y)".toList none).2
          = AddResult.abort Abort.assertFailed
      ∧ (TreesSet.add strtodDigits 5 (set256 true) "(X,Y)".toList none).1.trees.length = 0 :=
  ⟨by decide!, by decide!, by decide!, by decide!, by decide!, by decide!, by decide!⟩

/-- The text `((A[&y=1],B,C,D),E)` is stored with five tips, the heights 1, 1, 1, 2 and a
vector of attributes of seven slots, one for each parsed node.  Expanding the stored tree
reads, for the root, the slot `*curiScratch + tax.size() = 3 + 5 = 8`, which is outside
that vector; a read outside a vector has no defined result, and the expansion is
`undefined` here.  The same text without the annotation is rendered `((A,B,C,D),E)`. -/
theorem annotated_tip_overruns_expansion :
    (parseTree strtodDigits 9 "((A[&y=1],B,C,D),E)".toList)
        = Except.ok [ParsedTreeNode.mk ['A'] none [] (some [(['y'], ['1'])]),
            ParsedTreeNode.mk ['B'] none [] none, ParsedTreeNode.mk ['C'] none [] none,
            ParsedTreeNode.mk ['D'] none [] none, ParsedTreeNode.mk [] none [0, 1, 2, 3] none,
            ParsedTreeNode.mk ['E'] none [] none, ParsedTreeNode.mk [] none [4, 5] none]
      ∧ (TreesSet.add strtodDigits 9 (TreesSet.new false 4 false)
          "((A[&y=1],B,C,D),E)".toList none).2 = AddResult.added 0
      ∧ (TreesSet.add strtodDigits 9 (TreesSet.new false 4 false)
          "((A[&y=1],B,C,D),E)".toList none).1.trees
        = [TreeRep.mk (Packer.simple [0, 1, 2, 3, 4])
            (Heights.cladogram (Packer.simple [1, 1, 1, 2]))
            (some [some [(['y'], ['1'])], none, none, none, none, none, none])]
      ∧ scanSplits [1, 1, 1, 2] [0, 1, 2, 3] (-1) none = Except.ok (2, some [3])
      ∧ attrSlot (some [some [(['y'], ['1'])], none, none, none, none, none, none]) (3 + 5)
          = Except.error Abort.undefined
      ∧ (TreesSet.add strtodDigits 9 (TreesSet.new false 4 false)
          "((A[&y=1],B,C,D),E)".toList none).1.setup 9 0 = Except.error Abort.undefined
      ∧ (TreesSet.add strtodDigits 9 (TreesSet.new false 4 false)
          "((A[&y=1],B,C,D),E)".toList none).1.toNewick (fun _ => []) 9 0 none true true
        = Except.error Abort.undefined
      ∧ (TreesSet.add strtodDigits 9 (TreesSet.new false 4 false)
          "((A,B,C,D),E)".toList none).1.toNewick (fun _ => []) 9 0 none true true
        = Except.ok "((A,B,C,D),E)".toList := by
  decide!

/-- C4: a set holds the taxa with the ids 0 to 255 and the text `(X,Y)` brings two new
ones.  Without compression `add` stores the tree with the topology 256, 257; with
compression the encoder asks for `lg2i(257) + 1 = 9` bits a value and the packer stops at
its assertion `nBitsPerValue <= usize`. -/
theorem compressed_stops_at_ninth_bit :
    (TreesSet.add strtodDigits 5 (set256 false) "(X,Y)".toList none).2 = AddResult.added 0
      ∧ ((TreesSet.add strtodDigits 5 (set256 false) "(X,Y)".toList none).1.trees.map
          TreeRep.topology) = [[256, 257]]
      ∧ (TreesSet.add strtodDigits 5 (set256 true) "(X,Y)".toList none).2
          = AddResult.abort Abort.assertFailed := by
  decide!

/-- C5: the texts `(A:3,(B:1,C:1,D:1):1)` and `((D:1,C:1,B:1):1,A:3)` are the same tree up
to the order of the sons, and `to_newick` renders them differently. -/
theorem sibling_order_changes_rendering :
    (TreesSet.add strtodDigits 9 (TreesSet.new false 4 false)
          "(A:3,(B:1,C:1,D:1):1)".toList none).1.toNewick (fun _ => []) 9 0 none true true
        = Except.ok "(((B,C),D),A)".toList
      ∧ (TreesSet.add strtodDigits 9 (TreesSet.new false 4 false)
          "((D:1,C:1,B:1):1,A:3)".toList none).1.toNewick (fun _ => []) 9 0 none true true
        = Except.ok "(((C,D),B),A)".toList := by
  decide!

/-- The emitter writes a label as it is stored, without quotes: the tree of the text
`(A b c,D)` has the tip `b c` and is rendered `(D,b c)`; that string added as a new tree
is rendered `(D,c)`. -/
theorem rendering_not_idempotent :
    (TreesSet.add strtodDigits 9 (TreesSet.new false 4 false)
          "(A b c,D)".toList none).1.toNewick (fun _ => []) 9 0 none true true
        = Except.ok "(D,b c)".toList
      ∧ (TreesSet.add strtodDigits 9 (TreesSet.new false 4 false)
          "(D,b c)".toList none).1.toNewick (fun _ => []) 9 0 none true true
        = Except.ok "(D,c)".toList := by
  decide!

theorem taxaWF_new (c : Bool) (p : Nat) (st : Bool) : (TreesSet.new c p st).TaxaWF := by
  intro l k h
  simp [TreesSet.new] at h

end Biopy

namespace Biopy

/-! ## Reading a rendered tree back -/

theorem barewordLen_append : ∀ (l tail : Str) (d : Char), (∀ c ∈ l, endsBareword c = false) →
    tail.head? = some d → endsBareword d = true → barewordLen (l ++ tail) = some l.length := by
  intro l
  induction l with
  | nil =>
    intro tail d _ hd he
    cases tail with
    | nil => cases hd
    | cons x t =>
      simp only [List.head?_cons, Option.some.injEq] at hd
      subst hd
      simp [barewordLen, he]
  | cons a l ih =>
    intro tail d hl hd he
    have ha : endsBareword a = false := hl a (by simp)
    have := ih tail d (fun c hc => hl c (by simp [hc])) hd he
    simp only [List.cons_append, barewordLen, ha, Bool.false_eq_true, if_false,
      List.append_eq, this, Option.map_some', List.length_cons]

theorem suffixLoop_stop (tail : Str) (eat : Nat)
    (h : tail = [] ∨ tail.head? = some ',' ∨ tail.head? = some ')') :
    suffixLoop (tail.length + 1) (tail.drop (skipSpaces tail)) (eat + skipSpaces tail) [] none
      = SuffixResult.ok eat [] none := by
  cases tail with
  | nil => simp [skipSpaces, suffixLoop]
  | cons d t =>
    have hd : d = ',' ∨ d = ')' := by
      rcases h with h | h | h
      · cases h
      · left; simpa using h
      · right; simpa using h
    rcases hd with rfl | rfl
    · have : skipSpaces (',' :: t) = 0 := skipSpaces_eq_zero _ ',' rfl (by decide)
      rw [this]
      simp [suffixLoop, has]
    · have : skipSpaces (')' :: t) = 0 := skipSpaces_eq_zero _ ')' rfl (by decide)
      rw [this]
      simp [suffixLoop, has]

theorem labelAndBranch_nil (strtod : Str → ℚ × Nat) :
    labelAndBranch strtod [] = LabelResult.ok none none := by
  simp [labelAndBranch, skipSpaces]

/-- Reading back a tip with a plain label, before a comma or a closing parenthesis. -/
theorem readSubTree_tip (strtod : Str → ℚ × Nat) (f : Nat) (l tail : Str)
    (nodes : List ParsedTreeNode) (hl : PlainLabel l)
    (ht : tail.head? = some ',' ∨ tail.head? = some ')') :
    readSubTree strtod (f + 1) (l ++ tail) nodes
      = ParseResult.ok l.length (nodes ++ [ParsedTreeNode.mk l none [] none]) := by
  obtain ⟨hc, hq1, hq2⟩ := hl
  obtain ⟨d, hd, hde, hdq, hdp⟩ : ∃ d, tail.head? = some d ∧ endsBareword d = true
      ∧ (d ≠ squote ∧ d ≠ dquote) ∧ d ≠ '(' := by
    rcases ht with h | h
    · exact ⟨',', h, by decide, ⟨by decide, by decide⟩, by decide⟩
    · exact ⟨')', h, by decide, ⟨by decide, by decide⟩, by decide⟩
  obtain ⟨c0, t0, htxt, hsp, hpar, hnq1, hnq2⟩ : ∃ c0 t0, l ++ tail = c0 :: t0
      ∧ isspace c0 = false ∧ c0 ≠ '(' ∧ c0 ≠ squote ∧ c0 ≠ dquote := by
    cases l with
    | nil =>
      cases tail with
      | nil => cases hd
      | cons x t =>
        simp only [List.head?_cons, Option.some.injEq] at hd
        subst hd
        refine ⟨x, t, rfl, ?_, hdp, hdq.1, hdq.2⟩
        rcases ht with h | h <;> simp at h <;> subst h <;> decide
    | cons a l =>
      have ha := hc a (by simp)
      refine ⟨a, l ++ tail, rfl, ?_, ?_, ?_, ?_⟩
      · simp only [endsBareword, Bool.or_eq_false_iff] at ha
        exact ha.1.1.1.1.1.1
      · intro h; subst h; simp [endsBareword] at ha
      · intro h; exact hq1 (by simp [h])
      · intro h; exact hq2 (by simp [h])
  have hskip : skipSpaces (l ++ tail) = 0 :=
    skipSpaces_eq_zero _ c0 (by rw [htxt]; rfl) hsp
  have hbw := barewordLen_append l tail d hc hd hde
  have hhead : ¬ (l ++ tail).head? = some '(' := by
    rw [htxt]; simpa using hpar
  have hterm : readTerminal (l ++ tail) 0 nodes = HeadResult.ok tail l.length nodes l [] := by
    unfold readTerminal
    have hq : (c0 == squote || c0 == dquote) = false := by simp [hnq1, hnq2]
    rw [htxt]
    simp only [hq, Bool.false_eq_true, if_false]
    rw [← htxt, hbw]
    simp only [List.drop_left, List.take_left, Nat.zero_add]
  simp only [readSubTree, hskip, List.drop_zero, if_neg hhead, hterm, finishNode,
    suffixLoop_stop tail l.length (Or.inr ht), labelAndBranch_nil, Option.getD_none]

theorem render_intercalate (l : Str) (k r : Forest) :
    List.intercalate [','] (Forest.cons l k r).render
      = (if k.count = 0 then l else joinPlain k.render)
          ++ (if r.count = 0 then [] else ',' :: List.intercalate [','] r.render) := by
  cases r with
  | nil => simp [Forest.render, List.intercalate, Forest.count]
  | cons l2 k2 r2 => simp [Forest.render, List.intercalate, Forest.count]

/-- Reading back a tree with sons, given that the loop over the sons reads them back. -/
theorem readSubTree_inner (strtod : Str → ℚ × Nat) (f : Nat) (k : Forest) (tail : Str)
    (nodes : List ParsedTreeNode) (hk : ParsesBack strtod k) (hkc : k.count ≠ 0)
    (hf : k.size ≤ f) (ht : tail = [] ∨ tail.head? = some ',' ∨ tail.head? = some ')') :
    ∃ ns, readSubTree strtod (f + 1) (joinPlain k.render ++ tail) nodes
        = ParseResult.ok (joinPlain k.render).length (nodes ++ ns)
      ∧ IsFlat (Forest.cons [] k Forest.nil) nodes.length ns
      ∧ (∀ n ∈ ns, n.branch = none ∧ n.attributes = none) := by
  obtain ⟨ns, hrun, hflat, hplain⟩ := hk f f '(' 0 nodes [] tail hf
    (le_trans (Forest.count_le_size k) hf)
  have htxt : joinPlain k.render ++ tail
      = '(' :: (List.intercalate [','] k.render ++ ')' :: tail) := by
    simp [joinPlain]
  have hskip : skipSpaces (joinPlain k.render ++ tail) = 0 :=
    skipSpaces_eq_zero _ '(' (by rw [htxt]; rfl) (by decide)
  refine ⟨ns ++ [ParsedTreeNode.mk [] none (k.roots nodes.length) none], ?_, ?_, ?_⟩
  · have hhead : (joinPlain k.render ++ tail).head? = some '(' := by rw [htxt]; rfl
    simp only [readSubTree, hskip, List.drop_zero, if_pos hhead]
    rw [htxt, hrun]
    simp only [finishNode, suffixLoop_stop tail _ ht, labelAndBranch_nil, Option.getD_none,
      List.nil_append, List.append_assoc]
    simp [joinPlain]
  · simp only [IsFlat]
    exact ⟨ns, _, [], rfl, hflat, rfl, by simp [hkc], rfl⟩
  · intro n hn
    simp only [List.mem_append, List.mem_singleton] at hn
    rcases hn with hn | hn
    · exact hplain n hn
    · subst hn; exact ⟨rfl, rfl⟩

/-- The loop over the sons in `readSubTree` reads back the rendering of every forest
whose tips have plain labels and whose other nodes have none. -/
theorem parsesBack_all (strtod : Str → ℚ × Nat) : ∀ (F : Forest), F.Clean → F.PlainTips →
    F.count ≠ 0 → ParsesBack strtod F := by
  intro F
  induction F with
  | nil => intro _ _ h; exact absurd rfl h
  | cons l k r ihk ihr =>
    intro hclean hplain _ f c ch eat nodes subs rest hf hc
    obtain ⟨hc1, hck, hcr⟩ := hclean
    obtain ⟨hp1, hpk, hpr⟩ := hplain
    simp only [Forest.size] at hf
    simp only [Forest.count] at hc
    obtain ⟨f', rfl⟩ : ∃ f', f = f' + 1 := ⟨f - 1, by omega⟩
    obtain ⟨c', rfl⟩ : ∃ c', c = c' + 1 := ⟨c - 1, by omega⟩
    -- the text after the first tree
    obtain ⟨tail, htail, hthead, htr⟩ : ∃ tail : Str,
        List.intercalate [','] (Forest.cons l k r).render ++ ')' :: rest
          = (if k.count = 0 then l else joinPlain k.render) ++ tail
        ∧ (tail.head? = some ',' ∨ tail.head? = some ')')
        ∧ tail = (if r.count = 0 then ')' :: rest
            else ',' :: (List.intercalate [','] r.render ++ ')' :: rest)) := by
      refine ⟨_, ?_, ?_, rfl⟩
      · rw [render_intercalate]
        by_cases hr : r.count = 0 <;> simp [hr]
      · by_cases hr : r.count = 0 <;> simp [hr]
    -- the first tree
    obtain ⟨nt, hrd, hflat1, hplain1⟩ : ∃ nt,
        readSubTree strtod (f' + 1) ((if k.count = 0 then l else joinPlain k.render) ++ tail)
            nodes
          = ParseResult.ok (if k.count = 0 then l else joinPlain k.render).length (nodes ++ nt)
        ∧ IsFlat (Forest.cons l k Forest.nil) nodes.length nt
        ∧ (∀ n ∈ nt, n.branch = none ∧ n.attributes = none) := by
      by_cases hkc : k.count = 0
      · have hknil : k = Forest.nil := (Forest.count_eq_zero_iff k).mp hkc
        subst hknil
        refine ⟨[ParsedTreeNode.mk l none [] none], ?_, ?_, ?_⟩
        · simp only [Forest.count, if_true]
          exact readSubTree_tip strtod f' l tail nodes (hp1 rfl) hthead
        · simp only [IsFlat]
          exact ⟨[], _, [], rfl, rfl, rfl, by simp [Forest.count], rfl⟩
        · intro n hn
          simp only [List.mem_singleton] at hn
          subst hn; exact ⟨rfl, rfl⟩
      · simp only [if_neg hkc]
        have := readSubTree_inner strtod f' k tail nodes (ihk hck hpk hkc) hkc (by omega)
          (Or.inr hthead)
        rw [hc1 hkc]
        exact this
    have hlen1 := IsFlat.length_eq _ _ _ hflat1
    simp only [Forest.size, Nat.add_zero] at hlen1
    have hnt : nt ≠ [] := by
      intro h; rw [h] at hlen1; simp at hlen1
    have hlast : lastIndex (nodes ++ nt) = nodes.length + k.size := by
      rw [lastIndex_append _ _ hnt, hlen1]; omega
    have hskip : skipSpaces tail = 0 := by
      rcases hthead with h | h
      · exact skipSpaces_eq_zero _ ',' h (by decide)
      · exact skipSpaces_eq_zero _ ')' h (by decide)
    have hdrop : (ch :: ((if k.count = 0 then l else joinPlain k.render) ++ tail)).drop
        (1 + (if k.count = 0 then l else joinPlain k.render).length) = tail := by
      rw [Nat.add_comm, List.drop_succ_cons, List.drop_left]
    simp only [IsFlat] at hflat1
    obtain ⟨ns1, n, ns2, hnt_eq, hfk, hsons, hlab, hnil⟩ := hflat1
    subst hnil
    rw [htail]
    unfold sonsLoop
    simp only [List.drop_succ_cons, List.drop_zero, hrd]
    rw [hdrop, hskip, List.drop_zero, hlast]
    by_cases hr : r.count = 0
    · have hrnil : r = Forest.nil := (Forest.count_eq_zero_iff r).mp hr
      subst hrnil
      simp only [Forest.count, if_true] at htr
      refine ⟨nt, ?_, ?_, hplain1⟩
      · rw [htr]
        simp only [List.head?_cons, Option.some.injEq, Char.reduceEq, if_false, if_true,
          List.drop_succ_cons, List.drop_zero, Forest.roots, reduceCtorEq]
        simp only [render_intercalate, Forest.count, if_true, List.append_nil, Nat.add_zero]
        congr 1
        omega
      · simp only [IsFlat]
        exact ⟨ns1, n, [], hnt_eq, hfk, hsons, hlab, rfl⟩
    · simp only [if_neg hr] at htr
      obtain ⟨nr, hrun, hflatr, hplainr⟩ := ihr hcr hpr hr (f' + 1) c' ','
        (eat + (1 + (if k.count = 0 then l else joinPlain k.render).length) + 0)
        (nodes ++ nt) (subs ++ [nodes.length + k.size]) rest (by omega) (by omega)
      refine ⟨nt ++ nr, ?_, ?_, ?_⟩
      · rw [htr]
        simp only [List.head?_cons, if_true]
        rw [hrun]
        simp only [render_intercalate, if_neg hr, List.length_append, List.length_cons,
          Forest.roots, List.append_assoc, List.singleton_append, hlen1]
        congr 1
        omega
      · simp only [IsFlat]
        refine ⟨ns1, n, nr, by rw [hnt_eq]; simp, hfk, hsons, hlab, ?_⟩
        have : (nodes ++ nt).length = nodes.length + k.size + 1 := by
          simp only [List.length_append, hlen1]; omega
        rw [this] at hflatr
        exact hflatr
      · intro x hx
        simp only [List.mem_append] at hx
        rcases hx with hx | hx
        · exact hplain1 x hx
        · exact hplainr x hx

end Biopy

namespace Biopy

/-! ## The canonical order of the sons -/

theorem Forest.canon_cons (l : Str) (k r : Forest) :
    (Forest.cons l k r).canon = Forest.key l k :: r.canon := rfl

theorem Forest.insertTree_canon (l : Str) (k : Forest) : ∀ (G : Forest),
    (Forest.insertTree l k G).canon
      = G.canon.orderedInsert (fun a b => a ≤ b) (Forest.key l k) := by
  intro G
  induction G with
  | nil => rfl
  | cons l2 k2 r _ ihr =>
    have hk : (if k2.count = 0 then l2 else joinSorted k2.canon) = Forest.key l2 k2 := rfl
    by_cases h : Forest.key l k ≤ Forest.key l2 k2
    · simp only [Forest.insertTree, if_pos h, Forest.canon_cons, List.orderedInsert]
      rw [hk, if_pos h]
    · simp only [Forest.insertTree, if_neg h, Forest.canon_cons, List.orderedInsert, ihr]
      rw [hk, if_neg h]

theorem Forest.insertTree_count (l : Str) (k : Forest) : ∀ (G : Forest),
    (Forest.insertTree l k G).count = G.count + 1 := by
  intro G
  induction G with
  | nil => rfl
  | cons l2 k2 r _ ihr =>
    simp only [Forest.insertTree]
    split
    · rfl
    · simp only [Forest.count, ihr]

theorem Forest.insertTree_size (l : Str) (k : Forest) : ∀ (G : Forest),
    (Forest.insertTree l k G).size = k.size + 1 + G.size := by
  intro G
  induction G with
  | nil => rfl
  | cons l2 k2 r _ ihr =>
    simp only [Forest.insertTree]
    split
    · rfl
    · simp only [Forest.size, ihr]; omega

theorem Forest.sortAll_count : ∀ (F : Forest), F.sortAll.count = F.count := by
  intro F
  induction F with
  | nil => rfl
  | cons l k r _ ihr => simp only [Forest.sortAll, Forest.insertTree_count, ihr, Forest.count]

theorem Forest.sortAll_size : ∀ (F : Forest), F.sortAll.size = F.size := by
  intro F
  induction F with
  | nil => rfl
  | cons l k r ihk ihr =>
    simp only [Forest.sortAll, Forest.insertTree_size, ihk, ihr, Forest.size]

theorem joinSorted_sorted (ss : List Str) :
    joinSorted (ss.insertionSort (fun a b => a ≤ b)) = joinSorted ss := by
  unfold joinSorted
  rw [List.Sorted.insertionSort_eq (List.sorted_insertionSort (fun a b => a ≤ b) ss)]

theorem Forest.sortAll_canon : ∀ (F : Forest),
    F.sortAll.canon = F.canon.insertionSort (fun a b => a ≤ b) := by
  intro F
  induction F with
  | nil => rfl
  | cons l k r ihk ihr =>
    simp only [Forest.sortAll, Forest.insertTree_canon, Forest.canon_cons,
      List.insertionSort, ihr]
    congr 1
    simp only [Forest.key, Forest.sortAll_count, ihk, joinSorted_sorted]

theorem Forest.insertTree_canonical (l : Str) (k : Forest) (hk : k.Canonical)
    (hs : List.Sorted (fun a b => a ≤ b) k.canon) : ∀ (G : Forest), G.Canonical →
    (Forest.insertTree l k G).Canonical := by
  intro G
  induction G with
  | nil => intro _; exact ⟨hk, trivial, hs⟩
  | cons l2 k2 r _ ihr =>
    intro hG
    simp only [Forest.insertTree]
    split
    · exact ⟨hk, hG, hs⟩
    · exact ⟨hG.1, ihr hG.2.1, hG.2.2⟩

theorem Forest.sortAll_canonical : ∀ (F : Forest), F.sortAll.Canonical := by
  intro F
  induction F with
  | nil => trivial
  | cons l k r ihk ihr =>
    simp only [Forest.sortAll]
    apply Forest.insertTree_canonical _ _ ihk _ _ ihr
    rw [Forest.sortAll_canon]
    exact List.sorted_insertionSort _ _

theorem Forest.Canonical.render_eq : ∀ (G : Forest), G.Canonical → G.render = G.canon := by
  intro G
  induction G with
  | nil => intro _; rfl
  | cons l k r ihk ihr =>
    intro h
    obtain ⟨hk, hr, hs⟩ := h
    simp only [Forest.render, Forest.canon, ihk hk, ihr hr]
    congr 1
    by_cases hkc : k.count = 0
    · simp [hkc]
    · simp only [if_neg hkc, joinSorted, joinPlain, List.Sorted.insertionSort_eq hs]

theorem Forest.insertTree_clean (l : Str) (k : Forest) (h1 : k.count ≠ 0 → l = [])
    (hk : k.Clean) : ∀ (G : Forest), G.Clean → (Forest.insertTree l k G).Clean := by
  intro G
  induction G with
  | nil => intro _; exact ⟨h1, hk, trivial⟩
  | cons l2 k2 r _ ihr =>
    intro hG
    simp only [Forest.insertTree]
    split
    · exact ⟨h1, hk, hG⟩
    · exact ⟨hG.1, hG.2.1, ihr hG.2.2⟩

theorem Forest.sortAll_clean : ∀ (F : Forest), F.Clean → F.sortAll.Clean := by
  intro F
  induction F with
  | nil => intro _; trivial
  | cons l k r ihk ihr =>
    intro h
    simp only [Forest.sortAll]
    exact Forest.insertTree_clean _ _ (by rw [Forest.sortAll_count]; exact h.1) (ihk h.2.1) _
      (ihr h.2.2)

theorem Forest.insertTree_plainTips (l : Str) (k : Forest) (h1 : k.count = 0 → PlainLabel l)
    (hk : k.PlainTips) : ∀ (G : Forest), G.PlainTips → (Forest.insertTree l k G).PlainTips := by
  intro G
  induction G with
  | nil => intro _; exact ⟨h1, hk, trivial⟩
  | cons l2 k2 r _ ihr =>
    intro hG
    simp only [Forest.insertTree]
    split
    · exact ⟨h1, hk, hG⟩
    · exact ⟨hG.1, hG.2.1, ihr hG.2.2⟩

theorem Forest.sortAll_plainTips : ∀ (F : Forest), F.PlainTips → F.sortAll.PlainTips := by
  intro F
  induction F with
  | nil => intro _; trivial
  | cons l k r ihk ihr =>
    intro h
    simp only [Forest.sortAll]
    exact Forest.insertTree_plainTips _ _ (by rw [Forest.sortAll_count]; exact h.1)
      (ihk h.2.1) _ (ihr h.2.2)

theorem Forest.insertTree_branching (l : Str) (k : Forest) (h1 : k.count ≠ 1)
    (hk : k.Branching) : ∀ (G : Forest), G.Branching → (Forest.insertTree l k G).Branching := by
  intro G
  induction G with
  | nil => intro _; exact ⟨h1, hk, trivial⟩
  | cons l2 k2 r _ ihr =>
    intro hG
    simp only [Forest.insertTree]
    split
    · exact ⟨h1, hk, hG⟩
    · exact ⟨hG.1, hG.2.1, ihr hG.2.2⟩

theorem Forest.sortAll_branching : ∀ (F : Forest), F.Branching → F.sortAll.Branching := by
  intro F
  induction F with
  | nil => intro _; trivial
  | cons l k r ihk ihr =>
    intro h
    simp only [Forest.sortAll]
    exact Forest.insertTree_branching _ _ (by rw [Forest.sortAll_count]; exact h.1)
      (ihk h.2.1) _ (ihr h.2.2)

theorem IsFlat.plainTips : ∀ (F : Forest) (off : Nat) (ns : List ParsedTreeNode),
    IsFlat F off ns → (∀ n ∈ ns, n.sons = [] → PlainLabel n.taxon) → F.PlainTips := by
  intro F
  induction F with
  | nil => intro off ns _ _; trivial
  | cons l k r ihk ihr =>
    intro off ns h hp
    simp only [IsFlat] at h
    obtain ⟨ns1, n, ns2, rfl, h1, hsons, hlab, h2⟩ := h
    refine ⟨?_, ihk _ _ h1 (fun x hx => hp x (by simp [hx])),
      ihr _ _ h2 (fun x hx => hp x (by simp [hx]))⟩
    intro hkc
    have hknil : k = Forest.nil := (Forest.count_eq_zero_iff k).mp hkc
    rw [hlab, if_pos hkc]
    exact hp n (by simp) (by rw [hsons, hknil]; rfl)

/-- The canonical string of a tree with sons is the rendering of the tree with the sons
of every node sorted, and that tree has the same canonical string. -/
theorem Forest.key_sortAll (l : Str) (k : Forest) (hkc : k.count ≠ 0) :
    Forest.key l k = joinPlain k.sortAll.render
      ∧ Forest.key l k.sortAll = Forest.key l k := by
  constructor
  · simp only [Forest.key, if_neg hkc,
      Forest.Canonical.render_eq _ (Forest.sortAll_canonical k), Forest.sortAll_canon]
    rfl
  · simp only [Forest.key, Forest.sortAll_count, Forest.sortAll_canon, joinSorted_sorted]

end Biopy

namespace Biopy

/-! ## Rendering a tree and adding the rendering -/

theorem checkTreeEnd_all (s : Str) : checkTreeEnd s (some s.length) = none := by
  simp [checkTreeEnd, skipSpaces]

/-- Rendering is idempotent on trees without branch lengths: take a text `add` accepts
that has no branch lengths and no annotations, in which every internal node has at least
two sons and every tip has a plain label (no white space, none of `: [ , ( ) ]`, no quote
at its start), with at least two nodes (fewer than 2^32; in a compressed set at most 256
taxa and twice the nodes).  Then `to_newick` of the stored tree gives a string, `add` of
that string stores a new tree, and `to_newick` of the new tree gives the same string. -/
theorem rendering_idempotent (strtod : Str → ℚ × Nat) (fuel : Nat) (ts : TreesSet) (txt : Str)
    (kwds kwds2 : Option Attributes) (nc : Nat) (nodes : List ParsedTreeNode)
    (hr : readSubTree strtod fuel txt [] = ParseResult.ok nc nodes)
    (hc : checkTreeEnd txt (some nc) = none) (hstore : ts.store = false) (hwf : ts.TaxaWF)
    (hnb : ∀ n ∈ nodes, n.branch = none) (hna : ∀ n ∈ nodes, n.attributes = none)
    (hn2 : ∀ n ∈ nodes, n.sons.length ≠ 1)
    (hpl : ∀ n ∈ nodes, n.sons = [] → PlainLabel n.taxon) (htwo : 1 < nodes.length)
    (hsize : nodes.length < 4294967296)
    (hcomp : ts.compressed = true → ts.taxaList.length + 2 * nodes.length ≤ 256)
    (fmt : ℚ → Str) (topoOnly stem : Bool) (f : Nat) (hf : nodes.length ≤ f) :
    ∃ s, (ts.add strtod fuel txt kwds).2 = AddResult.added ts.trees.length
      ∧ (ts.add strtod fuel txt kwds).1.toNewick fmt f ts.trees.length none topoOnly stem
          = Except.ok s
      ∧ ((ts.add strtod fuel txt kwds).1.add strtod f s kwds2).2
          = AddResult.added (ts.trees.length + 1)
      ∧ ((ts.add strtod fuel txt kwds).1.add strtod f s kwds2).1.toNewick fmt f
            (ts.trees.length + 1) none topoOnly stem
          = Except.ok s := by
  obtain ⟨l, k, ts2, hflat, hadd, hwf2, hstore2, hcomp2, htrees2, htax2, hexp⟩ :=
    add_cladogram strtod fuel ts txt kwds nc nodes hr hc hstore hwf hnb hna hn2 hsize
      (fun h => by have := hcomp h; omega)
  have hlenT := IsFlat.length_eq _ _ _ hflat
  simp only [Forest.size, Nat.add_zero] at hlenT
  have hkc : k.count ≠ 0 := by
    intro h
    have : k = Forest.nil := (Forest.count_eq_zero_iff k).mp h
    subst this
    simp only [Forest.size] at hlenT
    omega
  have hclean := IsFlat.clean _ _ _ hflat
  have hplain := IsFlat.plainTips _ _ _ hflat hpl
  have hB := IsFlat.branching _ _ _ hflat hn2
  have hl : l = [] := hclean.1 hkc
  subst hl
  obtain ⟨internals, _, _, _, hnew⟩ := hexp f hf
  obtain ⟨hkey1, hkey2⟩ := Forest.key_sortAll [] k hkc
  have hkc' : k.sortAll.count ≠ 0 := by rw [Forest.sortAll_count]; exact hkc
  obtain ⟨f', rfl⟩ : ∃ f', f = f' + 1 := ⟨f - 1, by omega⟩
  -- reading the rendering back
  obtain ⟨ns, hr2, hflat2, hplain2⟩ := readSubTree_inner strtod f' k.sortAll [] []
    (parsesBack_all strtod _ (Forest.sortAll_clean _ hclean.2.1)
      (Forest.sortAll_plainTips _ hplain.2.1) hkc') hkc'
    (by rw [Forest.sortAll_size]; omega) (Or.inl rfl)
  simp only [List.append_nil, List.nil_append, List.length_nil] at hr2 hflat2
  rw [← hkey1] at hr2
  have hlen2 := IsFlat.length_eq _ _ _ hflat2
  simp only [Forest.size, Nat.add_zero, Forest.sortAll_size] at hlen2
  have hB2 : (Forest.cons [] k.sortAll Forest.nil).Branching :=
    ⟨by rw [Forest.sortAll_count]; exact hB.1, Forest.sortAll_branching _ hB.2.1, trivial⟩
  obtain ⟨ts3, hadd2, _, _, _, _, _, hexp2⟩ := add_flat strtod (f' + 1) ts2
    (Forest.key [] k) kwds2 _ ns [] k.sortAll hr2 (checkTreeEnd_all _) hstore2 hwf2 hflat2 hB2
    (fun n hn => (hplain2 n hn).1) (fun n hn => (hplain2 n hn).2) (by omega)
    (fun h => by
      have := hcomp (hcomp2 ▸ h)
      omega)
  obtain ⟨internals2, _, _, _, hnew2⟩ := hexp2 (f' + 1) (by omega)
  refine ⟨Forest.key [] k, by rw [hadd], ?_, ?_, ?_⟩
  · rw [hadd]
    exact hnew fmt topoOnly stem
  · rw [hadd]
    simp only []
    rw [hadd2, htrees2]
  · rw [hadd]
    simp only []
    rw [hadd2, ← htrees2]
    simp only []
    rw [hnew2 fmt topoOnly stem]
    exact congrArg Except.ok hkey2

theorem rendering_idempotent_witness :
    readSubTree strtodDigits 9 "((C,B),(E,D,A))".toList [] =
        ParseResult.ok 15 [ParsedTreeNode.mk ['C'] none [] none,
          ParsedTreeNode.mk ['B'] none [] none, ParsedTreeNode.mk [] none [0, 1] none,
          ParsedTreeNode.mk ['E'] none [] none, ParsedTreeNode.mk ['D'] none [] none,
          ParsedTreeNode.mk ['A'] none [] none, ParsedTreeNode.mk [] none [3, 4, 5] none,
          ParsedTreeNode.mk [] none [2, 6] none]
      ∧ ∃ s, (TreesSet.add strtodDigits 9 (TreesSet.new true 4 false)
            "((C,B),(E,D,A))".toList none).2 = AddResult.added 0
          ∧ (TreesSet.add strtodDigits 9 (TreesSet.new true 4 false)
              "((C,B),(E,D,A))".toList none).1.toNewick (fun _ => []) 8 0 none false true
            = Except.ok s
          ∧ ((TreesSet.add strtodDigits 9 (TreesSet.new true 4 false)
              "((C,B),(E,D,A))".toList none).1.add strtodDigits 8 s none).2
            = AddResult.added (0 + 1)
          ∧ ((TreesSet.add strtodDigits 9 (TreesSet.new true 4 false)
              "((C,B),(E,D,A))".toList none).1.add strtodDigits 8 s none).1.toNewick
                (fun _ => []) 8 (0 + 1) none false true
            = Except.ok s :=
  ⟨by decide!, rendering_idempotent strtodDigits 9 (TreesSet.new true 4 false)
    "((C,B),(E,D,A))".toList none none 15
    [ParsedTreeNode.mk ['C'] none [] none, ParsedTreeNode.mk ['B'] none [] none,
      ParsedTreeNode.mk [] none [0, 1] none, ParsedTreeNode.mk ['E'] none [] none,
      ParsedTreeNode.mk ['D'] none [] none, ParsedTreeNode.mk ['A'] none [] none,
      ParsedTreeNode.mk [] none [3, 4, 5] none, ParsedTreeNode.mk [] none [2, 6] none]
    (by decide!) (by decide!) rfl
    (taxaWF_new true 4 false) (by decide) (by decide) (by decide) (by decide) (by decide)
    (by decide) (fun _ => by decide) (fun _ => []) false true 8 (by decide)⟩

end Biopy

namespace Biopy

/-! ## Single tips, the empty text, and trees with branch lengths -/

/-- C11: `add` of the text `A;` to a new set stores no tree.  The bare-word scan of
`readSubTree` (line 371) is stopped neither by `;` nor by the terminating NUL, so it runs
past the end of the text.  The same tip in quotes is stored, with the topology `[0]`, no
heights and one expanded node, but under the label `'A'`, quotes included. -/
theorem single_bare_tip_runs_past_end :
    TreesSet.add strtodDigits 5 (TreesSet.new false 4 false) "A;".toList none
        = (TreesSet.new false 4 false, AddResult.abort Abort.undefined)
      ∧ (TreesSet.add strtodDigits 5 (TreesSet.new false 4 false)
          (squote :: 'A' :: squote :: [';']) none).2 = AddResult.added 0
      ∧ (TreesSet.add strtodDigits 5 (TreesSet.new false 4 false)
          (squote :: 'A' :: squote :: [';']) none).1.taxaList = [[squote, 'A', squote]]
      ∧ ((TreesSet.add strtodDigits 5 (TreesSet.new false 4 false)
          (squote :: 'A' :: squote :: [';']) none).1.trees.map
            (fun r => (r.topology, r.getHeights.1))) = [([0], [])]
      ∧ ((TreesSet.add strtodDigits 5 (TreesSet.new false 4 false)
          (squote :: 'A' :: squote :: [';']) none).1.setup 5 0).map List.length
          = Except.ok 1 := by
  decide!

/-- C12: `add` of the empty text reports no parse error: `readSubTree` starts the
bare-word scan at the terminating NUL, which does not stop it, and reads on past the end
of the text.  The set is left as it was. -/
theorem empty_text_runs_past_end :
    TreesSet.add strtodDigits 5 (TreesSet.new false 4 false) [] none
      = (TreesSet.new false 4 false, AddResult.abort Abort.undefined) := by
  decide!

/-- The slip of the raising loop (line 1642) on the stored heights: for the text
`(A:3,(B:1,C:1,D:1):1)` the largest distance from the root to a tip is 3 and the node
above `B`, `C` and `D` lies at distance 1 from the root, at height 2; the heights stored
are 3, 1, 2 where the heights of the lowest common ancestors of neighbouring tips are
3, 2, 2. -/
theorem stored_heights_miss_raised_node :
    (TreesSet.add strtodDigits 9 (TreesSet.new false 8 false)
        "(A:3,(B:1,C:1,D:1):1)".toList none).2 = AddResult.added 0
      ∧ (TreesSet.add strtodDigits 9 (TreesSet.new false 8 false)
          "(A:3,(B:1,C:1,D:1):1)".toList none).1.trees.map TreeRep.getHeights
        = [([3, 1, 2], [0, 1, 1, 1])] := by
  decide!

/-- C20: for the text `(A:7,(B:1,C:1,D:1):1)`, whose branch lengths are all positive, the
height stored between the tips `B` and `C` is 1 and their tip heights are 5; the expander
gives `B` the branch length `1 - 5 = -4`. -/
theorem stored_height_below_tip_heights :
    (TreesSet.add strtodDigits 9 (TreesSet.new false 8 false)
        "(A:7,(B:1,C:1,D:1):1)".toList none).2 = AddResult.added 0
      ∧ (TreesSet.add strtodDigits 9 (TreesSet.new false 8 false)
          "(A:7,(B:1,C:1,D:1):1)".toList none).1.trees.map TreeRep.getHeights
        = [([7, 1, 6], [0, 5, 5, 5])]
      ∧ ((TreesSet.add strtodDigits 9 (TreesSet.new false 8 false)
          "(A:7,(B:1,C:1,D:1):1)".toList none).1.setup 9 0).map
            (fun internals => (internals.get? 1).map (fun n => (n.itax, n.branch)))
        = Except.ok (some (1, some (-4))) := by
  decide!

end Biopy

namespace Biopy

/-! ## The taxon table -/

theorem getTaxon_twice (ts : TreesSet) (l : Str) :
    (ts.getTaxon l).1.getTaxon l = ((ts.getTaxon l).1, (ts.getTaxon l).2) := by
  unfold TreesSet.getTaxon
  cases hlk : ts.taxaDict.lookup l with
  | some i => simp only [hlk]
  | none => simp [List.lookup_append, hlk, Option.or]

theorem getTaxon_lookup_self (ts : TreesSet) (l : Str) :
    (ts.getTaxon l).1.taxaDict.lookup l = some (ts.getTaxon l).2 := by
  unfold TreesSet.getTaxon
  cases hlk : ts.taxaDict.lookup l with
  | some i => simpa using hlk
  | none => simp [List.lookup_append, hlk, Option.or]

theorem getTaxon_lookup_stable (ts : TreesSet) (l l2 : Str) (k : Nat)
    (h : ts.taxaDict.lookup l2 = some k) : (ts.getTaxon l).1.taxaDict.lookup l2 = some k := by
  unfold TreesSet.getTaxon
  cases hlk : ts.taxaDict.lookup l with
  | some i => simpa using h
  | none => simp [List.lookup_append, h, Option.or]

theorem internAll_lookup : ∀ (labels : List Str) (ts : TreesSet),
    (∀ l2 k, ts.taxaDict.lookup l2 = some k →
        (internAll ts labels).1.taxaDict.lookup l2 = some k)
      ∧ (∀ i, i < labels.length →
          (internAll ts labels).1.taxaDict.lookup (labels.getD i [])
            = some ((internAll ts labels).2.getD i 0)) := by
  intro labels
  induction labels with
  | nil => intro ts; exact ⟨fun _ _ h => h, fun i hi => absurd hi (by simp)⟩
  | cons l ls ih =>
    intro ts
    obtain ⟨h1, h2⟩ := ih (ts.getTaxon l).1
    simp only [internAll]
    refine ⟨fun l2 k h => h1 l2 k (getTaxon_lookup_stable ts l l2 k h), ?_⟩
    intro i hi
    cases i with
    | zero =>
      simp only [List.getD_cons_zero]
      exact h1 l _ (getTaxon_lookup_self ts l)
    | succ i =>
      simp only [List.getD_cons_succ]
      exact h2 i (by simpa using hi)

theorem internAll_of_known : ∀ (labels : List Str) (ts : TreesSet) (ids : List Nat),
    ids.length = labels.length →
    (∀ i, i < labels.length →
      ts.taxaDict.lookup (labels.getD i []) = some (ids.getD i 0)) →
    internAll ts labels = (ts, ids) := by
  intro labels
  induction labels with
  | nil =>
    intro ts ids hlen _
    have : ids = [] := List.length_eq_zero.mp (by simpa using hlen)
    subst this
    rfl
  | cons l ls ih =>
    intro ts ids hlen h
    cases ids with
    | nil => simp at hlen
    | cons a ids =>
      have h0 := h 0 (by simp)
      simp only [List.getD_cons_zero] at h0
      have hg : ts.getTaxon l = (ts, a) := by
        unfold TreesSet.getTaxon
        simp only [h0]
      simp only [internAll, hg]
      rw [ih ts ids (by simpa using hlen) (fun i hi => by
        have := h (i + 1) (by simpa using hi)
        simpa using this)]

theorem getTaxon_rest (ts : TreesSet) (l : Str) :
    (ts.getTaxon l).1 = { ts with taxaList := (ts.getTaxon l).1.taxaList,
                                  taxaDict := (ts.getTaxon l).1.taxaDict } := by
  unfold TreesSet.getTaxon
  cases ts.taxaDict.lookup l <;> rfl

theorem internAll_rest : ∀ (labels : List Str) (ts : TreesSet),
    (internAll ts labels).1 = { ts with taxaList := (internAll ts labels).1.taxaList,
                                        taxaDict := (internAll ts labels).1.taxaDict } := by
  intro labels
  induction labels with
  | nil => intro ts; rfl
  | cons l ls ih =>
    intro ts
    simp only [internAll]
    rw [ih (ts.getTaxon l).1]
    simp only []
    rw [getTaxon_rest ts l]

theorem internAll_ids_length : ∀ (labels : List Str) (ts : TreesSet),
    (internAll ts labels).2.length = labels.length := by
  intro labels
  induction labels with
  | nil => intro ts; rfl
  | cons l ls ih => intro ts; simp only [internAll, List.length_cons, ih]

theorem scan_flags : ∀ (nodes : List ParsedTreeNode) (st : ScanState),
    (nodes.foldl scanNode st).cladogram
        = (st.cladogram && nodes.all (fun n => n.branch.isNone))
      ∧ (nodes.foldl scanNode st).hasAttributes
        = (st.hasAttributes || nodes.any (fun n => n.attributes.isSome)) := by
  intro nodes
  induction nodes with
  | nil => intro st; simp
  | cons n ns ih =>
    intro st
    obtain ⟨h1, h2⟩ := ih (scanNode st n)
    simp only [List.foldl_cons, h1, h2, List.all_cons, List.any_cons]
    constructor
    · cases hb : n.branch <;> by_cases hl : n.sons.length = 0 <;> simp [scanNode, hb, hl]
    · cases ha : n.attributes <;> by_cases hl : n.sons.length = 0 <;>
        simp [scanNode, ha, hl, Bool.or_assoc]

/-- Encoding the same nodes in a set that already holds their taxa interns nothing and
gives the same representation. -/
theorem nodes2rep_again (ts ts2 : TreesSet) (fuel : Nat) (nodes : List ParsedTreeNode)
    (hd : ts2.taxaDict = (ts.nodes2rep fuel nodes).1.taxaDict)
    (hc : ts2.compressed = ts.compressed) :
    ts2.nodes2rep fuel nodes = (ts2, (ts.nodes2rep fuel nodes).2) := by
  obtain ⟨a1, a2, a3, _, _⟩ := scan_foldl nodes (ScanState.mk ts [] true false 0)
  obtain ⟨b1, b2, b3, _, _⟩ := scan_foldl nodes (ScanState.mk ts2 [] true false 0)
  obtain ⟨a4, a5⟩ := scan_flags nodes (ScanState.mk ts [] true false 0)
  obtain ⟨b4, b5⟩ := scan_flags nodes (ScanState.mk ts2 [] true false 0)
  simp only [List.nil_append] at a1 a2 a3 b1 b2 b3
  have hfst : (ts.nodes2rep fuel nodes).1 = (internAll ts (leafLabels nodes)).1 := by
    simp only [TreesSet.nodes2rep, a1]
  rw [hfst] at hd
  have hknown : internAll ts2 (leafLabels nodes) = (ts2, (internAll ts (leafLabels nodes)).2) :=
    internAll_of_known _ _ _ (internAll_ids_length _ _) (fun i hi => by
      rw [hd]; exact (internAll_lookup (leafLabels nodes) ts).2 i hi)
  rw [hknown] at b1 b2 b3
  simp only [] at b1 b2 b3
  apply Prod.ext
  · simp only [TreesSet.nodes2rep, b1]
  · simp only [TreesSet.nodes2rep, a2, a3, a4, a5, b2, b3, b4, b5, hc]

theorem add_added_inv (strtod : Str → ℚ × Nat) (fuel : Nat) (ts ts1 : TreesSet) (txt : Str)
    (kwds : Option Attributes) (i : Nat)
    (h : ts.add strtod fuel txt kwds = (ts1, AddResult.added i)) :
    ∃ nc nodes, readSubTree strtod fuel txt [] = ParseResult.ok nc nodes
      ∧ checkTreeEnd txt (some nc) = none
      ∧ (ts.store = true →
          ts1 = { ts with treesAttributes := ts.treesAttributes ++ [kwds],
                          asNodes := ts.asNodes ++ [nodes] } ∧ i = ts.asNodes.length)
      ∧ (ts.store = false → ∃ rep,
          TreesSet.nodes2rep { ts with treesAttributes := ts.treesAttributes ++ [kwds] }
              fuel nodes
            = ((TreesSet.nodes2rep { ts with treesAttributes := ts.treesAttributes ++ [kwds] }
                fuel nodes).1, Except.ok rep)
          ∧ ts1 = { (TreesSet.nodes2rep
                { ts with treesAttributes := ts.treesAttributes ++ [kwds] } fuel nodes).1 with
              trees := (TreesSet.nodes2rep
                { ts with treesAttributes := ts.treesAttributes ++ [kwds] } fuel nodes).1.trees
                  ++ [rep] }
          ∧ i = (TreesSet.nodes2rep
                { ts with treesAttributes := ts.treesAttributes ++ [kwds] } fuel nodes).1.trees.length) := by
  cases hr : readSubTree strtod fuel txt [] with
  | timeout => simp [TreesSet.add, hr] at h
  | undefined => simp [TreesSet.add, hr] at h
  | fail n =>
    simp only [TreesSet.add, hr] at h
    cases hc : checkTreeEnd txt none with
    | none => rw [hc] at h; simp at h
    | some err =>
      rw [hc] at h
      simp only [Prod.mk.injEq] at h
      have herr := h.2
      subst herr
      simp only [checkTreeEnd] at hc
      split at hc <;> simp at hc
  | ok nc nodes =>
    cases hc : checkTreeEnd txt (some nc) with
    | some err =>
      rw [add_of_rejected strtod fuel ts txt kwds nc nodes err hr hc] at h
      simp only [Prod.mk.injEq] at h
      have herr := h.2
      subst herr
      simp only [checkTreeEnd] at hc
      split at hc <;> simp at hc
    | none =>
      rw [add_of_accepted strtod fuel ts txt kwds nc nodes hr hc] at h
      refine ⟨nc, nodes, rfl, hc, ?_, ?_⟩
      · intro hs
        rw [if_pos hs] at h
        simp only [Prod.mk.injEq, AddResult.added.injEq] at h
        exact ⟨h.1.symm, h.2.symm⟩
      · intro hs
        rw [if_neg (by simp [hs])] at h
        cases hn : TreesSet.nodes2rep { ts with treesAttributes := ts.treesAttributes ++ [kwds] }
            fuel nodes with
        | mk tsX res =>
          rw [hn] at h
          cases res with
          | error e => simp at h
          | ok rep =>
            simp only [Prod.mk.injEq, AddResult.added.injEq] at h
            exact ⟨rep, rfl, h.1.symm, h.2.symm⟩

theorem nodes2rep_fst_rest (ts : TreesSet) (fuel : Nat) (nodes : List ParsedTreeNode) :
    (ts.nodes2rep fuel nodes).1
      = { ts with taxaList := (ts.nodes2rep fuel nodes).1.taxaList,
                  taxaDict := (ts.nodes2rep fuel nodes).1.taxaDict } := by
  obtain ⟨a1, _, _, _, _⟩ := scan_foldl nodes (ScanState.mk ts [] true false 0)
  have hfst : (ts.nodes2rep fuel nodes).1 = (internAll ts (leafLabels nodes)).1 := by
    simp only [TreesSet.nodes2rep, a1]
  rw [hfst]
  exact internAll_rest _ _

/-- C13: interning a label a second time returns the same id and leaves the set as it
is; and when `add` has stored a text, adding the same text again stores a second tree
with the same representation (the same topology vector) and leaves the taxon table as
it is. -/
theorem same_label_same_id (strtod : Str → ℚ × Nat) (fuel : Nat) (ts ts1 : TreesSet)
    (txt : Str) (kwds kwds2 : Option Attributes) (i : Nat)
    (h : ts.add strtod fuel txt kwds = (ts1, AddResult.added i)) :
    (∀ (s : TreesSet) (l : Str),
        (s.getTaxon l).1.getTaxon l = ((s.getTaxon l).1, (s.getTaxon l).2))
      ∧ (ts1.add strtod fuel txt kwds2).2 = AddResult.added (i + 1)
      ∧ (ts1.add strtod fuel txt kwds2).1.taxaList = ts1.taxaList
      ∧ (ts1.add strtod fuel txt kwds2).1.taxaDict = ts1.taxaDict
      ∧ (ts.store = false → ∃ rep, ts1.trees = ts.trees ++ [rep]
          ∧ (ts1.add strtod fuel txt kwds2).1.trees = ts.trees ++ [rep, rep])
      ∧ (ts.store = true → ∃ nodes, ts1.asNodes = ts.asNodes ++ [nodes]
          ∧ (ts1.add strtod fuel txt kwds2).1.asNodes = ts.asNodes ++ [nodes, nodes]) := by
  obtain ⟨nc, nodes, hr, hc, hst, hsf⟩ := add_added_inv strtod fuel ts ts1 txt kwds i h
  refine ⟨getTaxon_twice, ?_⟩
  have h2 := add_of_accepted strtod fuel ts1 txt kwds2 nc nodes hr hc
  cases hs : ts.store with
  | true =>
    obtain ⟨h1, hi⟩ := hst hs
    have hs1 : ts1.store = true := by rw [h1]; exact hs
    rw [if_pos hs1] at h2
    rw [h2]
    refine ⟨?_, rfl, rfl, fun hc => absurd hc (by decide), fun _ => ⟨nodes, by rw [h1], ?_⟩⟩
    · rw [h1, hi]; simp
    · rw [h1]; simp
  | false =>
    obtain ⟨rep, hrep, h1, hi⟩ := hsf hs
    have hrest := nodes2rep_fst_rest
      { ts with treesAttributes := ts.treesAttributes ++ [kwds] } fuel nodes
    obtain ⟨tsX, hX⟩ : ∃ tsX, tsX = (TreesSet.nodes2rep
        { ts with treesAttributes := ts.treesAttributes ++ [kwds] } fuel nodes).1 := ⟨_, rfl⟩
    rw [← hX] at hrep h1 hi hrest
    have hXs : tsX.store = false := by rw [hrest]; exact hs
    have hXc : tsX.compressed = ts.compressed := by rw [hrest]
    have hXt : tsX.trees = ts.trees := by rw [hrest]
    have hs1 : ts1.store = false := by rw [h1]; exact hXs
    rw [if_neg (by simp [hs1])] at h2
    have hagain := nodes2rep_again { ts with treesAttributes := ts.treesAttributes ++ [kwds] }
      { ts1 with treesAttributes := ts1.treesAttributes ++ [kwds2] } fuel nodes
      (by rw [hrep, h1]) (by rw [h1]; exact hXc)
    rw [hrep] at hagain
    rw [hagain] at h2
    simp only [] at h2
    rw [h2]
    refine ⟨?_, rfl, rfl, fun _ => ⟨rep, by rw [h1, hXt], ?_⟩, fun hc => absurd hc (by decide)⟩
    · rw [h1, hi]; simp
    · rw [h1, hXt]; simp

theorem same_label_same_id_witness :
    TreesSet.add strtodDigits 9 (TreesSet.new true 4 false) textFourTips none
        = ((TreesSet.add strtodDigits 9 (TreesSet.new true 4 false) textFourTips none).1,
            AddResult.added 0)
      ∧ ((∀ (s : TreesSet) (l : Str),
          (s.getTaxon l).1.getTaxon l = ((s.getTaxon l).1, (s.getTaxon l).2))
        ∧ ((TreesSet.add strtodDigits 9 (TreesSet.new true 4 false) textFourTips none).1.add
            strtodDigits 9 textFourTips none).2 = AddResult.added (0 + 1)
        ∧ ((TreesSet.add strtodDigits 9 (TreesSet.new true 4 false) textFourTips none).1.add
            strtodDigits 9 textFourTips none).1.taxaList
          = (TreesSet.add strtodDigits 9 (TreesSet.new true 4 false) textFourTips none).1.taxaList
        ∧ ((TreesSet.add strtodDigits 9 (TreesSet.new true 4 false) textFourTips none).1.add
            strtodDigits 9 textFourTips none).1.taxaDict
          = (TreesSet.add strtodDigits 9 (TreesSet.new true 4 false) textFourTips none).1.taxaDict
        ∧ ((TreesSet.new true 4 false).store = false → ∃ rep,
            (TreesSet.add strtodDigits 9 (TreesSet.new true 4 false) textFourTips none).1.trees
              = (TreesSet.new true 4 false).trees ++ [rep]
            ∧ ((TreesSet.add strtodDigits 9 (TreesSet.new true 4 false) textFourTips none).1.add
                strtodDigits 9 textFourTips none).1.trees
              = (TreesSet.new true 4 false).trees ++ [rep, rep])
        ∧ ((TreesSet.new true 4 false).store = true → ∃ nodes,
            (TreesSet.add strtodDigits 9 (TreesSet.new true 4 false) textFourTips none).1.asNodes
              = (TreesSet.new true 4 false).asNodes ++ [nodes]
            ∧ ((TreesSet.add strtodDigits 9 (TreesSet.new true 4 false) textFourTips none).1.add
                strtodDigits 9 textFourTips none).1.asNodes
              = (TreesSet.new true 4 false).asNodes ++ [nodes, nodes])) :=
  ⟨by decide!, same_label_same_id strtodDigits 9 (TreesSet.new true 4 false) _ textFourTips
    none none 0 (by decide!)⟩

end Biopy

namespace Biopy

/-! ## The taxon table as a bijection -/

theorem getTaxon_bijective (ts : TreesSet) (l : Str) (h : ts.TaxaBijective) :
    (ts.getTaxon l).1.TaxaBijective
      ∧ (l ∉ ts.taxaList → (ts.getTaxon l).2 = ts.taxaList.length
          ∧ (ts.getTaxon l).1.taxaList = ts.taxaList ++ [l])
      ∧ (l ∈ ts.taxaList → (ts.getTaxon l).1 = ts) := by
  obtain ⟨hnd, hiff⟩ := h
  have hmem : ∀ x, x ∈ ts.taxaList ↔ ∃ k, ts.taxaDict.lookup x = some k := by
    intro x
    constructor
    · intro hx
      obtain ⟨k, hk, hkx⟩ := List.getElem_of_mem hx
      exact ⟨k, (hiff x k).mpr (by rw [List.get?_eq_getElem?, List.getElem?_eq_getElem hk, hkx])⟩
    · rintro ⟨k, hk⟩
      exact List.get?_mem ((hiff x k).mp hk)
  unfold TreesSet.getTaxon
  cases hlk : ts.taxaDict.lookup l with
  | some i =>
    refine ⟨⟨hnd, hiff⟩, fun hn => absurd ((hmem l).mpr ⟨i, hlk⟩) hn, fun _ => rfl⟩
  | none =>
    have hnot : l ∉ ts.taxaList := by
      intro hx
      obtain ⟨k, hk⟩ := (hmem l).mp hx
      rw [hlk] at hk
      cases hk
    refine ⟨⟨?_, ?_⟩, fun _ => ⟨rfl, rfl⟩, fun hx => absurd hx hnot⟩
    · simp only []
      exact List.nodup_append.mpr ⟨hnd, List.nodup_singleton l, by
        intro a ha hb
        simp only [List.mem_singleton] at hb
        subst hb
        exact hnot ha⟩
    · intro x k
      simp only [List.lookup_append, List.get?_eq_getElem?]
      cases hx : ts.taxaDict.lookup x with
      | some j =>
        have hj := (hiff x j).mp hx
        rw [List.get?_eq_getElem?] at hj
        have hjlt : j < ts.taxaList.length := (List.getElem?_eq_some_iff.mp hj).1
        simp only [Option.or]
        constructor
        · intro hk
          simp only [Option.some.injEq] at hk
          subst hk
          rw [List.getElem?_append_left hjlt]
          exact hj
        · intro hk
          by_cases hklt : k < ts.taxaList.length
          · rw [List.getElem?_append_left hklt] at hk
            have := (hiff x k).mpr (by rw [List.get?_eq_getElem?]; exact hk)
            rw [hx] at this
            exact this
          · rw [List.getElem?_append_right (Nat.le_of_not_lt hklt)] at hk
            have hxl : x = l := by
              cases hz : k - ts.taxaList.length with
              | zero => rw [hz] at hk; simpa using hk.symm
              | succ z => rw [hz] at hk; simp at hk
            subst hxl
            rw [hlk] at hx
            cases hx
      | none =>
        simp only [Option.or, List.lookup_cons, List.lookup_nil]
        constructor
        · intro hk
          split at hk
          · rename_i heq
            have hxl : x = l := by simpa using heq
            simp only [Option.some.injEq] at hk
            subst hk
            subst hxl
            simp
          · cases hk
        · intro hk
          by_cases hklt : k < ts.taxaList.length
          · rw [List.getElem?_append_left hklt] at hk
            have := (hiff x k).mpr (by rw [List.get?_eq_getElem?]; exact hk)
            rw [hx] at this
            cases this
          · rw [List.getElem?_append_right (Nat.le_of_not_lt hklt)] at hk
            cases hz : k - ts.taxaList.length with
            | zero =>
              rw [hz] at hk
              have hxl : x = l := by simpa using hk.symm
              subst hxl
              have : k = ts.taxaList.length := by omega
              simp [this]
            | succ z => rw [hz] at hk; simp at hk

theorem getTaxon_ext (ts : TreesSet) (l : Str) :
    ∃ ext, (ts.getTaxon l).1.taxaList = ts.taxaList ++ ext := by
  unfold TreesSet.getTaxon
  cases ts.taxaDict.lookup l with
  | some i => exact ⟨[], by simp⟩
  | none => exact ⟨[l], rfl⟩

theorem internAll_bijective : ∀ (labels : List Str) (ts : TreesSet), ts.TaxaBijective →
    (internAll ts labels).1.TaxaBijective
      ∧ ∃ ext, (internAll ts labels).1.taxaList = ts.taxaList ++ ext := by
  intro labels
  induction labels with
  | nil => intro ts h; exact ⟨h, [], by simp [internAll]⟩
  | cons l ls ih =>
    intro ts h
    obtain ⟨h1, ext1, he1⟩ := ih (ts.getTaxon l).1 (getTaxon_bijective ts l h).1
    obtain ⟨ext0, he0⟩ := getTaxon_ext ts l
    simp only [internAll]
    exact ⟨h1, ext0 ++ ext1, by rw [he1, he0]; simp⟩

theorem TaxaBijective.of_fields (ts ts2 : TreesSet) (hl : ts2.taxaList = ts.taxaList)
    (hd : ts2.taxaDict = ts.taxaDict) (h : ts.TaxaBijective) : ts2.TaxaBijective := by
  unfold TreesSet.TaxaBijective
  rw [hl, hd]
  exact h

/-- What `add` does to the taxon table: it interns a list of labels, the labels of the
tips of the tree it encodes, or none. -/
theorem add_taxa (strtod : Str → ℚ × Nat) (fuel : Nat) (ts : TreesSet) (txt : Str)
    (kwds : Option Attributes) :
    ∃ (ts0 : TreesSet) (labels : List Str), ts0.taxaList = ts.taxaList
      ∧ ts0.taxaDict = ts.taxaDict
      ∧ (ts.add strtod fuel txt kwds).1.taxaList = (internAll ts0 labels).1.taxaList
      ∧ (ts.add strtod fuel txt kwds).1.taxaDict = (internAll ts0 labels).1.taxaDict := by
  cases hr : readSubTree strtod fuel txt [] with
  | timeout => simp only [TreesSet.add, hr]; exact ⟨ts, [], rfl, rfl, rfl, rfl⟩
  | undefined => simp only [TreesSet.add, hr]; exact ⟨ts, [], rfl, rfl, rfl, rfl⟩
  | fail n =>
    simp only [TreesSet.add, hr]
    cases checkTreeEnd txt none <;> exact ⟨ts, [], rfl, rfl, rfl, rfl⟩
  | ok nc nodes =>
    cases hc : checkTreeEnd txt (some nc) with
    | some err =>
      rw [add_of_rejected strtod fuel ts txt kwds nc nodes err hr hc]
      exact ⟨ts, [], rfl, rfl, rfl, rfl⟩
    | none =>
      rw [add_of_accepted strtod fuel ts txt kwds nc nodes hr hc]
      by_cases hs : ts.store = true
      · rw [if_pos hs]
        exact ⟨ts, [], rfl, rfl, rfl, rfl⟩
      · rw [if_neg hs]
        obtain ⟨a1, _, _, _, _⟩ := scan_foldl nodes
          (ScanState.mk { ts with treesAttributes := ts.treesAttributes ++ [kwds] } [] true
            false 0)
        have hfst : (TreesSet.nodes2rep
            { ts with treesAttributes := ts.treesAttributes ++ [kwds] } fuel nodes).1
            = (internAll { ts with treesAttributes := ts.treesAttributes ++ [kwds] }
                (leafLabels nodes)).1 := by
          simp only [TreesSet.nodes2rep, a1]
        refine ⟨{ ts with treesAttributes := ts.treesAttributes ++ [kwds] }, leafLabels nodes,
          rfl, rfl, ?_, ?_⟩
        · rw [← hfst]
          cases hn : TreesSet.nodes2rep
              { ts with treesAttributes := ts.treesAttributes ++ [kwds] } fuel nodes with
          | mk tsX res => cases res <;> rfl
        · rw [← hfst]
          cases hn : TreesSet.nodes2rep
              { ts with treesAttributes := ts.treesAttributes ++ [kwds] } fuel nodes with
          | mk tsX res => cases res <;> rfl

theorem add_bijective (strtod : Str → ℚ × Nat) (fuel : Nat) (ts : TreesSet) (txt : Str)
    (kwds : Option Attributes) (h : ts.TaxaBijective) :
    (ts.add strtod fuel txt kwds).1.TaxaBijective
      ∧ (∃ ext, (ts.add strtod fuel txt kwds).1.taxaList = ts.taxaList ++ ext)
      ∧ (∀ l k, ts.taxaDict.lookup l = some k →
          (ts.add strtod fuel txt kwds).1.taxaDict.lookup l = some k) := by
  obtain ⟨ts0, labels, hl, hd, h1, h2⟩ := add_taxa strtod fuel ts txt kwds
  have h0 : ts0.TaxaBijective := TaxaBijective.of_fields ts ts0 hl hd h
  obtain ⟨hb, ext, hext⟩ := internAll_bijective labels ts0 h0
  refine ⟨TaxaBijective.of_fields _ _ h1 h2 hb, ⟨ext, by rw [h1, hext, hl]⟩, ?_⟩
  intro l k hk
  rw [h2]
  exact (internAll_lookup labels ts0).1 l k (by rw [hd]; exact hk)

theorem addAll_append (strtod : Str → ℚ × Nat) (fuel : Nat) :
    ∀ (c1 c2 : List (Str × Option Attributes)) (ts : TreesSet),
      addAll strtod fuel ts (c1 ++ c2) = addAll strtod fuel (addAll strtod fuel ts c1) c2 := by
  intro c1
  induction c1 with
  | nil => intro c2 ts; rfl
  | cons c cs ih => intro c2 ts; simp only [List.cons_append, addAll, List.append_eq, ih]

theorem addAll_bijective (strtod : Str → ℚ × Nat) (fuel : Nat) :
    ∀ (calls : List (Str × Option Attributes)) (ts : TreesSet), ts.TaxaBijective →
      (addAll strtod fuel ts calls).TaxaBijective
        ∧ (∃ ext, (addAll strtod fuel ts calls).taxaList = ts.taxaList ++ ext)
        ∧ (∀ l k, ts.taxaDict.lookup l = some k →
            (addAll strtod fuel ts calls).taxaDict.lookup l = some k) := by
  intro calls
  induction calls with
  | nil => intro ts h; exact ⟨h, ⟨[], by simp [addAll]⟩, fun _ _ hk => hk⟩
  | cons c cs ih =>
    intro ts h
    obtain ⟨h1, ⟨e1, he1⟩, hs1⟩ := add_bijective strtod fuel ts c.1 c.2 h
    obtain ⟨h2, ⟨e2, he2⟩, hs2⟩ := ih _ h1
    simp only [addAll]
    exact ⟨h2, ⟨e1 ++ e2, by rw [he2, he1]; simp⟩, fun l k hk => hs2 l k (hs1 l k hk)⟩

/-- C14: after any sequence of calls of `add` on a new set the taxon table is a bijection
between the labels seen and the ids `0 .. n-1`: the list has no label twice and the
dictionary gives `k` for a label exactly when the list holds it at position `k`; a label
not yet in the table gets the id `n`, the size of the table, and goes to the end of the
list; and further calls only add to the end of the list and keep every id the dictionary
gave. -/
theorem taxon_table_bijective (strtod : Str → ℚ × Nat) (fuel : Nat) (c : Bool) (p : Nat)
    (s : Bool) (calls more : List (Str × Option Attributes)) :
    (addAll strtod fuel (TreesSet.new c p s) calls).TaxaBijective
      ∧ (∀ l, l ∉ (addAll strtod fuel (TreesSet.new c p s) calls).taxaList →
          ((addAll strtod fuel (TreesSet.new c p s) calls).getTaxon l).2
              = (addAll strtod fuel (TreesSet.new c p s) calls).taxaList.length
            ∧ ((addAll strtod fuel (TreesSet.new c p s) calls).getTaxon l).1.taxaList
              = (addAll strtod fuel (TreesSet.new c p s) calls).taxaList ++ [l])
      ∧ (∃ ext, (addAll strtod fuel (TreesSet.new c p s) (calls ++ more)).taxaList
          = (addAll strtod fuel (TreesSet.new c p s) calls).taxaList ++ ext)
      ∧ (∀ l k, (addAll strtod fuel (TreesSet.new c p s) calls).taxaDict.lookup l = some k →
          (addAll strtod fuel (TreesSet.new c p s) (calls ++ more)).taxaDict.lookup l
            = some k) := by
  have h0 : (TreesSet.new c p s).TaxaBijective := by
    refine ⟨List.nodup_nil, fun l k => ?_⟩
    simp [TreesSet.new]
  obtain ⟨h1, _, _⟩ := addAll_bijective strtod fuel calls _ h0
  obtain ⟨_, h2, h3⟩ := addAll_bijective strtod fuel more _ h1
  rw [addAll_append]
  exact ⟨h1, fun l hl => (getTaxon_bijective _ l h1).2.1 hl, h2, h3⟩

end Biopy

namespace Biopy

/-! ## The vectors of a representation -/

theorem addAt_length (v v2 : List ℚ) (i : Int) (dh : ℚ) (h : addAt v i dh = Except.ok v2) :
    v2.length = v.length := by
  unfold addAt at h
  split at h
  · simp only [Except.ok.injEq] at h
    subst h
    simp
  · cases h

theorem raiseLoop_length (nodes : List ParsedTreeNode) (locs : List Int) (dh : ℚ) :
    ∀ (fuel : Nat) (hp : List Nat) (hs th : List ℚ) (r : List ℚ × List ℚ),
      raiseLoop nodes locs dh fuel hp hs th = Except.ok r →
      r.1.length = hs.length ∧ r.2.length = th.length := by
  intro fuel
  induction fuel with
  | zero =>
    intro hp hs th r h
    cases hp with
    | nil => simp only [raiseLoop, Except.ok.injEq] at h; subst h; exact ⟨rfl, rfl⟩
    | cons x hp => simp [raiseLoop] at h
  | succ f ih =>
    intro hp hs th r h
    cases hp with
    | nil => simp only [raiseLoop, Except.ok.injEq] at h; subst h; exact ⟨rfl, rfl⟩
    | cons x hp =>
      simp only [raiseLoop] at h
      cases hnx : nodes.get? x with
      | none => rw [hnx] at h; simp at h
      | some nx =>
        cases hlx : locs.get? x with
        | none => rw [hnx, hlx] at h; simp at h
        | some lx =>
          rw [hnx, hlx] at h
          simp only [] at h
          split at h
          · cases ha : addAt th (lx + 1) dh with
            | error e => rw [ha] at h; cases h
            | ok th2 =>
              rw [ha] at h
              have := ih _ _ _ _ h
              rw [addAt_length _ _ _ _ ha] at this
              exact this
          · cases ha : addAt hs lx dh with
            | error e => rw [ha] at h; cases h
            | ok hs2 =>
              rw [ha] at h
              have := ih _ _ _ _ h
              rw [addAt_length _ _ _ _ ha] at this
              exact this

theorem raiseSons_length (fuel nTaxa : Nat) (nodes : List ParsedTreeNode) (locs : List Int)
    (h : ℚ) : ∀ (sons : List Nat) (hs : List ℚ) (th : Option (List ℚ))
      (r : List ℚ × Option (List ℚ)),
      raiseSons fuel nTaxa nodes locs h sons hs th = Except.ok r → r.1.length = hs.length := by
  intro sons
  induction sons with
  | nil => intro hs th r hr; simp only [raiseSons, Except.ok.injEq] at hr; subst hr; rfl
  | cons s ss ih =>
    intro hs th r hr
    simp only [raiseSons] at hr
    cases hb : branchOf nodes s with
    | error e => rw [hb] at hr; cases hr
    | ok h1 =>
      rw [hb] at hr
      simp only [] at hr
      split at hr
      · cases hl : raiseLoop nodes locs (h - h1) fuel [s] hs
            (th.getD (List.replicate nTaxa 0)) with
        | error e => rw [hl] at hr; cases hr
        | ok r1 =>
          rw [hl] at hr
          have := ih _ _ _ hr
          rw [(raiseLoop_length _ _ _ _ _ _ _ _ hl).1] at this
          exact this
      · exact ih _ _ _ hr

theorem storeHeight_length (locs : List Int) (h : ℚ) : ∀ (sons : List Nat) (hs hs2 : List ℚ),
    storeHeight locs h sons hs = Except.ok hs2 → hs2.length = hs.length := by
  intro sons
  induction sons with
  | nil => intro hs hs2 hr; simp only [storeHeight, Except.ok.injEq] at hr; subst hr; rfl
  | cons s ss ih =>
    intro hs hs2 hr
    cases ss with
    | nil => simp only [storeHeight, Except.ok.injEq] at hr; subst hr; rfl
    | cons s2 ss =>
      simp only [storeHeight] at hr
      cases hl : locs.get? s with
      | none => rw [hl] at hr; cases hr
      | some l =>
        rw [hl] at hr
        simp only [] at hr
        split at hr
        · have := ih _ _ hr
          simpa using this
        · cases hr

theorem encodeNode_heights_length (fuel : Nat) (c : Bool) (nTaxa : Nat) (st st2 : EncState)
    (idx : Nat) (h : encodeNode fuel c nTaxa st idx = Except.ok st2) :
    st2.heights.length = st.heights.length := by
  unfold encodeNode at h
  cases hn : st.nodes.get? idx with
  | none => rw [hn] at h; cases h
  | some n =>
    rw [hn] at h
    simp only [] at h
    split at h
    · split at h
      · simp only [Except.ok.injEq] at h; subst h; rfl
      · cases h
    · cases hm : maxBranch st.nodes n.sons (-1) with
      | error e => rw [hm] at h; cases h
      | ok hh =>
        rw [hm] at h
        simp only [] at h
        cases hr : (if c = true then Except.ok (st.heights, st.taxaHeights)
            else raiseSons fuel nTaxa st.nodes st.locs hh n.sons st.heights st.taxaHeights) with
        | error e => rw [hr] at h; cases h
        | ok r =>
          rw [hr] at h
          simp only [] at h
          have hrl : r.1.length = st.heights.length := by
            split at hr
            · simp only [Except.ok.injEq] at hr; subst hr; rfl
            · exact raiseSons_length _ _ _ _ _ _ _ _ _ hr
          cases hs : storeHeight st.locs hh n.sons r.1 with
          | error e => rw [hs] at h; cases h
          | ok hs2 =>
            rw [hs] at h
            simp only [] at h
            split at h
            · simp only [Except.ok.injEq] at h
              subst h
              simp only []
              rw [storeHeight_length _ _ _ _ _ hs, hrl]
            · cases h

theorem encodeLoop_heights_length (fuel : Nat) (c : Bool) (nTaxa : Nat) :
    ∀ (idxs : List Nat) (st st2 : EncState),
      encodeLoop fuel c nTaxa idxs st = Except.ok st2 →
      st2.heights.length = st.heights.length := by
  intro idxs
  induction idxs with
  | nil => intro st st2 h; simp only [encodeLoop, Except.ok.injEq] at h; subst h; rfl
  | cons i is ih =>
    intro st st2 h
    simp only [encodeLoop] at h
    cases hn : encodeNode fuel c nTaxa st i with
    | error e => rw [hn] at h; cases h
    | ok st1 =>
      rw [hn] at h
      rw [ih _ _ h, encodeNode_heights_length _ _ _ _ _ _ hn]

/-- What a representation returned by `nodes2rep` is made of. -/
theorem nodes2rep_ok_inv (ts : TreesSet) (fuel : Nat) (nodes : List ParsedTreeNode)
    (rep : TreeRep) (h : (ts.nodes2rep fuel nodes).2 = Except.ok rep) :
    (scanAll ts nodes).taxa.length ≠ 0
      ∧ ∃ st, encodeLoop fuel (scanAll ts nodes).cladogram (scanAll ts nodes).taxa.length
            (List.range nodes.length) (encStart nodes (scanAll ts nodes).taxa.length)
          = Except.ok st
        ∧ (if ts.compressed then
              (FixedIntPacker.make (lg2i (scanAll ts nodes).maxTaxaIndex + 1)
                (scanAll ts nodes).taxa).map Packer.fixed
            else Except.ok (Packer.simple (scanAll ts nodes).taxa)) = Except.ok rep.ptopo
        ∧ ((scanAll ts nodes).cladogram = true → ∃ hsb,
            (if ts.compressed ∧ 0 < st.heights.length then
                (FixedIntPacker.make (lg2i ((st.heights.map roundHeight).foldl max 0) + 1)
                  (st.heights.map roundHeight)).map Packer.fixed
              else Except.ok (Packer.simple (st.heights.map roundHeight))) = Except.ok hsb
            ∧ rep.heights = Heights.cladogram hsb)
        ∧ ((scanAll ts nodes).cladogram = false →
            rep.heights = Heights.phylogram st.heights st.taxaHeights) := by
  simp only [TreesSet.nodes2rep] at h
  change (if (scanAll ts nodes).taxa.length = 0 then Except.error Abort.undefined
    else _) = _ at h
  by_cases h0 : (scanAll ts nodes).taxa.length = 0
  · rw [if_pos h0] at h; cases h
  rw [if_neg h0] at h
  refine ⟨h0, ?_⟩
  change (match encodeLoop fuel (scanAll ts nodes).cladogram (scanAll ts nodes).taxa.length
      (List.range nodes.length) (encStart nodes (scanAll ts nodes).taxa.length) with
    | Except.error e => Except.error e
    | Except.ok st => _) = _ at h
  cases he : encodeLoop fuel (scanAll ts nodes).cladogram (scanAll ts nodes).taxa.length
      (List.range nodes.length) (encStart nodes (scanAll ts nodes).taxa.length) with
  | error e => rw [he] at h; cases h
  | ok st =>
    rw [he] at h
    simp only [] at h
    refine ⟨st, rfl, ?_⟩
    cases htop : (if ts.compressed then
          (FixedIntPacker.make (lg2i (scanAll ts nodes).maxTaxaIndex + 1)
            (scanAll ts nodes).taxa).map Packer.fixed
        else Except.ok (Packer.simple (scanAll ts nodes).taxa)) with
    | error e =>
      unfold scanAll at htop
      rw [htop] at h
      cases h
    | ok top =>
      unfold scanAll at htop
      rw [htop] at h
      simp only [] at h
      cases hat : (if (scanAll ts nodes).hasAttributes then
            (storeAttributes (scanAll ts nodes).taxa.length st.locs st.nodes 0
              (List.replicate nodes.length none)).map some
          else Except.ok none) with
      | error e =>
        unfold scanAll at hat
        rw [hat] at h
        cases h
      | ok atrs =>
        unfold scanAll at hat
        rw [hat] at h
        simp only [] at h
        by_cases hc : (scanAll ts nodes).cladogram = true
        · have hc' := hc
          unfold scanAll at hc'
          rw [if_pos hc'] at h
          cases hh : (if ts.compressed ∧ 0 < st.heights.length then
                (FixedIntPacker.make (lg2i ((st.heights.map roundHeight).foldl max 0) + 1)
                  (st.heights.map roundHeight)).map Packer.fixed
              else Except.ok (Packer.simple (st.heights.map roundHeight))) with
          | error e => rw [hh] at h; cases h
          | ok hsb =>
            rw [hh] at h
            simp only [Except.ok.injEq] at h
            subst h
            exact ⟨rfl, fun _ => ⟨hsb, rfl, rfl⟩, fun hf => by rw [hc] at hf; cases hf⟩
        · have hc' := hc
          unfold scanAll at hc'
          rw [if_neg hc'] at h
          simp only [Except.ok.injEq] at h
          subst h
          exact ⟨rfl, fun ht => absurd ht hc, fun _ => rfl⟩

theorem leafLabels_length_le (nodes : List ParsedTreeNode) :
    (leafLabels nodes).length ≤ nodes.length := by
  unfold leafLabels
  rw [List.length_map]
  exact List.length_filter_le _ _

theorem map_fixed_ok (w : Nat) (vals : List Nat) (q : Packer)
    (h : (FixedIntPacker.make w vals).map Packer.fixed = Except.ok q) :
    ∃ p, FixedIntPacker.make w vals = Except.ok p ∧ q = Packer.fixed p := by
  cases hm : FixedIntPacker.make w vals with
  | error e => rw [hm] at h; cases h
  | ok p =>
    rw [hm] at h
    simp only [Except.map, Except.ok.injEq] at h
    exact ⟨p, rfl, h.symm⟩

/-- The topology of a representation returned by `nodes2rep` is the list of the ids of
the leaf labels. -/
theorem nodes2rep_topology (ts : TreesSet) (fuel : Nat) (nodes : List ParsedTreeNode)
    (rep : TreeRep) (hwf : ts.TaxaWF)
    (hsize : ts.taxaList.length + nodes.length < 4294967296)
    (h : (ts.nodes2rep fuel nodes).2 = Except.ok rep) :
    rep.topology = (internAll ts (leafLabels nodes)).2 := by
  obtain ⟨_, st, _, htop, _, _⟩ := nodes2rep_ok_inv ts fuel nodes rep h
  obtain ⟨_, h2, h3, _, _⟩ := scan_foldl nodes (ScanState.mk ts [] true false 0)
  simp only [List.nil_append] at h2 h3
  have e2 : (scanAll ts nodes).taxa = (internAll ts (leafLabels nodes)).2 := h2
  have e3 : (scanAll ts nodes).maxTaxaIndex
      = (internAll ts (leafLabels nodes)).2.foldl max 0 := h3
  rw [e2, e3] at htop
  unfold TreeRep.topology
  by_cases hc : ts.compressed = true
  · rw [if_pos hc] at htop
    obtain ⟨p, hp, hq⟩ := map_fixed_ok _ _ _ htop
    rw [hq]
    simp only [Packer.unpacked]
    obtain ⟨_, hidlen, hget, _, _, _⟩ := internAll_spec (leafLabels nodes) ts hwf
    have hlenle := internAll_length_le (leafLabels nodes) ts
    have hll := leafLabels_length_le nodes
    have hids : ∀ v ∈ (internAll ts (leafLabels nodes)).2, v < 4294967295 := by
      intro v hv
      obtain ⟨i, hi, hiv⟩ := List.getElem_of_mem hv
      have hg := hget i (by rw [← hidlen]; exact hi)
      have hgd : (internAll ts (leafLabels nodes)).2.getD i 0 = v := by
        rw [List.getD_eq_getElem _ _ hi, hiv]
      rw [hgd] at hg
      have : v < (internAll ts (leafLabels nodes)).1.taxaList.length := by
        by_contra hcon
        rw [List.get?_eq_none.mpr (Nat.le_of_not_lt hcon)] at hg
        cases hg
      omega
    have hmax : (internAll ts (leafLabels nodes)).2.foldl max 0 ≤ 4294967295 :=
      foldl_max_le _ 4294967295 0 (by omega) (fun x hx => by have := hids x hx; omega)
    exact make_lg2i_unpacked _ _ p (by omega) (fun v hv => (le_foldl_max _ 0).2 v hv) hp
  · rw [if_neg hc] at htop
    simp only [Except.ok.injEq] at htop
    rw [← htop]
    rfl

/-- The heights of a representation returned by `nodes2rep` for a tree without branch
lengths are the levels between neighbouring tips. -/
theorem nodes2rep_cladogram_heights (ts : TreesSet) (fuel : Nat) (l : Str) (k : Forest)
    (ns : List ParsedTreeNode) (rep : TreeRep)
    (hflat : IsFlat (Forest.cons l k Forest.nil) 0 ns)
    (hnone : ∀ n ∈ ns, n.branch = none) (hsize : ns.length < 4294967296)
    (h : (ts.nodes2rep fuel ns).2 = Except.ok rep) :
    rep.getHeights = (((Forest.cons l k Forest.nil).hts 0).map (Nat.cast : Nat → ℚ), []) := by
  obtain ⟨_, st, henc, _, hcl, _⟩ := nodes2rep_ok_inv ts fuel ns rep h
  obtain ⟨_, h2, _, h4, _⟩ := scan_foldl ns (ScanState.mk ts [] true false 0)
  have h4 := h4 hnone
  simp only [List.nil_append] at h2 h4
  have e2 : (scanAll ts ns).taxa = (internAll ts (leafLabels ns)).2 := h2
  have e4 : (scanAll ts ns).cladogram = true := h4
  have hn : (scanAll ts ns).taxa.length = k.treeTips := by
    rw [e2, internAll_ids_length, IsFlat.leafLabels_eq _ _ _ hflat, Forest.tipLabels_length,
      Forest.tips_single]
  rw [e4, hn] at henc
  obtain ⟨ns', henc'⟩ := encodeLoop_tree fuel k.treeTips l k ns hflat hnone
  unfold encStart at henc
  rw [henc'] at henc
  simp only [Except.ok.injEq] at henc
  obtain ⟨hsb, hpk, hrep⟩ := hcl e4
  have hsth : st.heights = ((Forest.cons l k Forest.nil).hts 0).map (Nat.cast : Nat → ℚ) := by
    rw [← henc]
  have hnslen := IsFlat.length_eq _ _ _ hflat
  have hhts : ∀ x ∈ (Forest.cons l k Forest.nil).hts 0, x < ns.length := by
    intro x hx
    have h := Forest.hts_le _ _ _ hx
    have h' := Forest.lev_le_size (Forest.cons l k Forest.nil)
    have hp : 0 < (Forest.cons l k Forest.nil).lev := by
      simp only [Forest.lev]
      by_cases hk : k.count = 0
      · simp [hk]
      · simp [hk]
    rw [hnslen]
    omega
  have hround : (((Forest.cons l k Forest.nil).hts 0).map (Nat.cast : Nat → ℚ)).map roundHeight
      = (Forest.cons l k Forest.nil).hts 0 := by
    rw [List.map_map]
    conv => rhs; rw [← List.map_id ((Forest.cons l k Forest.nil).hts 0)]
    apply List.map_congr_left
    intro x hx
    simp only [Function.comp, id]
    exact roundHeight_natCast x (by have := hhts x hx; omega)
  rw [hsth, hround] at hpk
  have hun : hsb.unpacked = (Forest.cons l k Forest.nil).hts 0 := by
    by_cases hc : ts.compressed = true ∧
        0 < (((Forest.cons l k Forest.nil).hts 0).map (Nat.cast : Nat → ℚ)).length
    · rw [if_pos hc] at hpk
      obtain ⟨p, hp, hq⟩ := map_fixed_ok _ _ _ hpk
      rw [hq]
      simp only [Packer.unpacked]
      have hmax : ((Forest.cons l k Forest.nil).hts 0).foldl max 0 ≤ ns.length :=
        foldl_max_le _ _ 0 (by omega) (fun x hx => by have := hhts x hx; omega)
      exact make_lg2i_unpacked _ _ p (by omega) (fun v hv => (le_foldl_max _ 0).2 v hv) hp
    · rw [if_neg hc] at hpk
      simp only [Except.ok.injEq] at hpk
      rw [← hpk]
      rfl
  unfold TreeRep.getHeights
  rw [hrep]
  simp only [hun]

/-- The topology and the number of heights of what `nodes2rep` makes of a parsed vector. -/
theorem nodes2rep_leaf_ids (strtod : Str → ℚ × Nat) (fuel fuel2 : Nat) (txt : Str)
    (eat : Nat) (nodes : List ParsedTreeNode) (ts : TreesSet) (rep : TreeRep)
    (hparse : readSubTree strtod fuel txt [] = ParseResult.ok eat nodes)
    (hwf : ts.TaxaWF) (hsize : ts.taxaList.length + nodes.length < 4294967296)
    (hrep : (ts.nodes2rep fuel2 nodes).2 = Except.ok rep) :
    rep.topology
        = (internAll ts ((nodes.filter (fun n => n.sons.length = 0)).map (fun n => n.taxon))).2
      ∧ (∃ l k, IsFlat (Forest.cons l k Forest.nil) 0 nodes
          ∧ (nodes.filter (fun n => n.sons.length = 0)).map (fun n => n.taxon)
              = (Forest.cons l k Forest.nil).tipLabels)
      ∧ rep.topology.length = (nodes.filter (fun n => n.sons.length = 0)).length
      ∧ rep.getHeights.1.length = (nodes.filter (fun n => n.sons.length = 0)).length - 1 := by
  have htopo := nodes2rep_topology ts fuel2 nodes rep hwf hsize hrep
  obtain ⟨l, k, ns, hns, hflat⟩ := readSubTree_flat strtod fuel txt [] eat nodes hparse
  simp only [List.nil_append, List.length_nil] at hns hflat
  subst hns
  have hlab := IsFlat.leafLabels_eq _ _ _ hflat
  have hN : (leafLabels nodes).length = (nodes.filter (fun n => n.sons.length = 0)).length := by
    unfold leafLabels
    rw [List.length_map]
  have hlen : rep.topology.length = (nodes.filter (fun n => n.sons.length = 0)).length := by
    rw [htopo, internAll_ids_length, hN]
  refine ⟨htopo, ⟨l, k, hflat, hlab⟩, hlen, ?_⟩
  obtain ⟨_, st, henc, _, hcl, hph⟩ := nodes2rep_ok_inv ts fuel2 nodes rep hrep
  obtain ⟨_, h2, _, _, _⟩ := scan_foldl nodes (ScanState.mk ts [] true false 0)
  simp only [List.nil_append] at h2
  have e2 : (scanAll ts nodes).taxa = (internAll ts (leafLabels nodes)).2 := h2
  have hn : (scanAll ts nodes).taxa.length = (nodes.filter (fun n => n.sons.length = 0)).length := by
    rw [e2, internAll_ids_length, hN]
  by_cases hc : (scanAll ts nodes).cladogram = true
  · have hfl := (scan_flags nodes (ScanState.mk ts [] true false 0)).1
    have hc' : (nodes.foldl scanNode (ScanState.mk ts [] true false 0)).cladogram = true := hc
    rw [hfl] at hc'
    simp only [Bool.true_and, List.all_eq_true, Option.isNone_iff_eq_none] at hc'
    have hh := nodes2rep_cladogram_heights ts fuel2 l k nodes rep hflat hc' (by omega) hrep
    rw [hh]
    simp only [List.length_map, Forest.hts_length]
    rw [← hN, hlab, Forest.tipLabels_length]
  · have hc2 : (scanAll ts nodes).cladogram = false := by
      cases hb : (scanAll ts nodes).cladogram
      · rfl
      · exact absurd hb hc
    have hr := hph hc2
    have hl := encodeLoop_heights_length _ _ _ _ _ _ henc
    unfold TreeRep.getHeights
    rw [hr]
    simp only [hl, encStart, List.length_replicate, hn]

/-- C15: for every vector of nodes the parser returns and every representation
`nodes2rep` makes of it (in a set whose dictionary agrees with its list of taxa, ids
fitting 32 bits), the topology vector is the list of the ids `getTaxon` gives to the
labels of the leaves (the nodes with no sons), taken in the order of the vector; this is
the order of the tips of the tree from left to right, the vector being the post-order
layout of a tree; its length is the number `N` of leaves, and the heights vector has
`N - 1` entries. -/
theorem topology_is_leaf_ids (strtod : Str → ℚ × Nat) (fuel fuel2 : Nat) (txt : Str)
    (eat : Nat) (nodes : List ParsedTreeNode) (ts : TreesSet) (rep : TreeRep)
    (hparse : readSubTree strtod fuel txt [] = ParseResult.ok eat nodes)
    (hwf : ts.TaxaWF) (hsize : ts.taxaList.length + nodes.length < 4294967296)
    (hrep : (ts.nodes2rep fuel2 nodes).2 = Except.ok rep) :
    rep.topology
        = (internAll ts ((nodes.filter (fun n => n.sons.length = 0)).map (fun n => n.taxon))).2
      ∧ (∃ l k, IsFlat (Forest.cons l k Forest.nil) 0 nodes
          ∧ (nodes.filter (fun n => n.sons.length = 0)).map (fun n => n.taxon)
              = (Forest.cons l k Forest.nil).tipLabels)
      ∧ rep.topology.length = (nodes.filter (fun n => n.sons.length = 0)).length
      ∧ rep.getHeights.1.length = (nodes.filter (fun n => n.sons.length = 0)).length - 1 :=
  nodes2rep_leaf_ids strtod fuel fuel2 txt eat nodes ts rep hparse hwf hsize hrep

theorem topology_is_leaf_ids_witness :
    readSubTree strtodDigits 9 "(A:1,(B:2,C:3):1)".toList [] =
        ParseResult.ok 17 [ParsedTreeNode.mk ['A'] (some 1) [] none,
          ParsedTreeNode.mk ['B'] (some 2) [] none, ParsedTreeNode.mk ['C'] (some 3) [] none,
          ParsedTreeNode.mk [] (some 1) [1, 2] none, ParsedTreeNode.mk [] none [0, 3] none]
      ∧ (TreeRep.mk (Packer.simple [0, 1, 2]) (Heights.phylogram [4, 3] (some [3, 1, 0]))
            none).topology = [0, 1, 2]
      ∧ (TreeRep.mk (Packer.simple [0, 1, 2]) (Heights.phylogram [4, 3] (some [3, 1, 0]))
            none).getHeights.1.length = 2 :=
  ⟨by decide!,
    (topology_is_leaf_ids strtodDigits 9 9 "(A:1,(B:2,C:3):1)".toList 17
      [ParsedTreeNode.mk ['A'] (some 1) [] none,
        ParsedTreeNode.mk ['B'] (some 2) [] none, ParsedTreeNode.mk ['C'] (some 3) [] none,
        ParsedTreeNode.mk [] (some 1) [1, 2] none, ParsedTreeNode.mk [] none [0, 3] none]
      (TreesSet.new false 4 false)
      (TreeRep.mk (Packer.simple [0, 1, 2]) (Heights.phylogram [4, 3] (some [3, 1, 0])) none)
      (by decide!) (taxaWF_new false 4 false) (by decide) (by decide!)).1,
    (topology_is_leaf_ids strtodDigits 9 9 "(A:1,(B:2,C:3):1)".toList 17
      [ParsedTreeNode.mk ['A'] (some 1) [] none,
        ParsedTreeNode.mk ['B'] (some 2) [] none, ParsedTreeNode.mk ['C'] (some 3) [] none,
        ParsedTreeNode.mk [] (some 1) [1, 2] none, ParsedTreeNode.mk [] none [0, 3] none]
      (TreesSet.new false 4 false)
      (TreeRep.mk (Packer.simple [0, 1, 2]) (Heights.phylogram [4, 3] (some [3, 1, 0])) none)
      (by decide!) (taxaWF_new false 4 false) (by decide) (by decide!)).2.2.2⟩

end Biopy

namespace Biopy

theorem Forest.hts_ge : ∀ (F : Forest) (b x : Nat), 1 ≤ b → x ∈ F.hts b → 1 ≤ x := by
  intro F
  induction F with
  | nil => intro b x _ hx; simp [Forest.hts] at hx
  | cons l k r ihk ihr =>
    intro b x hb hx
    simp only [Forest.hts, List.mem_append] at hx
    rcases hx with hx | hx
    · by_cases hk : k.count = 0
      · simp [hk] at hx
      · rw [if_neg hk] at hx
        exact ihk _ _ (Forest.lev_pos k hk) hx
    · by_cases hr : r.count = 0
      · simp [hr] at hx
      · rw [if_neg hr] at hx
        simp only [List.mem_cons] at hx
        rcases hx with hx | hx
        · omega
        · exact ihr _ _ hb hx

/-- In a forest whose inner nodes all have two sons or more, the level is at most the
number of tips minus the number of trees, plus one. -/
theorem Forest.lev_count_le : ∀ (F : Forest), F.Branching → F.count ≠ 0 →
    F.lev + F.count ≤ F.tips + 1 := by
  intro F
  induction F with
  | nil => intro _ h; exact absurd rfl h
  | cons l k r ihk ihr =>
    intro hB _
    obtain ⟨hk1, hBk, hBr⟩ := hB
    simp only [Forest.lev, Forest.tips, Forest.count]
    have hrt := Forest.count_le_tips r
    have hfirst : (if k.count = 0 then 1 else k.lev + 1) ≤ (if k.count = 0 then 1 else k.tips) := by
      by_cases hk : k.count = 0
      · simp only [if_pos hk]; omega
      · simp only [if_neg hk]
        have := ihk hBk hk
        omega
    have hpos : 1 ≤ (if k.count = 0 then 1 else k.tips) := by
      by_cases hk : k.count = 0
      · simp only [if_pos hk]; omega
      · simp only [if_neg hk]
        have := Forest.tips_pos k hk
        omega
    by_cases hr : r.count = 0
    · have hrn : r = Forest.nil := (Forest.count_eq_zero_iff r).mp hr
      subst hrn
      simp only [Forest.lev, Forest.tips, Forest.count]
      omega
    · have := ihr hBr hr
      omega

/-- The heights between neighbouring tips of a tree whose inner nodes all have two sons
or more lie between 1 and the number of tips minus one. -/
theorem Forest.hts_bounds (l : Str) (k : Forest) (hB : (Forest.cons l k Forest.nil).Branching)
    (x : Nat) (hx : x ∈ (Forest.cons l k Forest.nil).hts 0) :
    1 ≤ x ∧ x + 1 ≤ k.treeTips := by
  obtain ⟨hk1, hBk, _⟩ := hB
  simp only [Forest.hts, Forest.count, if_true, List.append_nil] at hx
  by_cases hk : k.count = 0
  · simp [hk] at hx
  · rw [if_neg hk] at hx
    have h1 := Forest.hts_ge k _ x (Forest.lev_pos k hk) hx
    have h2 := Forest.hts_le k _ x hx
    have h3 := Forest.lev_count_le k hBk hk
    simp only [Forest.treeTips, if_neg hk]
    refine ⟨h1, ?_⟩
    omega

/-- The tree `add` stores in a set that keeps representations: what `nodes2rep` makes of
the parsed nodes, appended to the trees. -/
theorem add_stored (strtod : Str → ℚ × Nat) (fuel : Nat) (ts ts1 : TreesSet) (txt : Str)
    (kwds : Option Attributes) (i nc : Nat) (nodes : List ParsedTreeNode)
    (hr : readSubTree strtod fuel txt [] = ParseResult.ok nc nodes)
    (hadd : ts.add strtod fuel txt kwds = (ts1, AddResult.added i))
    (hstore : ts.store = false) :
    ∃ rep, (TreesSet.nodes2rep { ts with treesAttributes := ts.treesAttributes ++ [kwds] }
          fuel nodes).2 = Except.ok rep
      ∧ ts1.trees = ts.trees ++ [rep] ∧ i = ts.trees.length
      ∧ ts1.trees.get? i = some rep := by
  obtain ⟨nc2, nodes2, hr2, _, _, hfalse⟩ := add_added_inv strtod fuel ts ts1 txt kwds i hadd
  rw [hr] at hr2
  simp only [ParseResult.ok.injEq] at hr2
  obtain ⟨_, hn⟩ := hr2
  subst hn
  obtain ⟨rep, hrep, hts1, hi⟩ := hfalse hstore
  have hfst := nodes2rep_fst_rest { ts with treesAttributes := ts.treesAttributes ++ [kwds] }
    fuel nodes
  have htrees : (TreesSet.nodes2rep { ts with treesAttributes := ts.treesAttributes ++ [kwds] }
      fuel nodes).1.trees = ts.trees := by
    rw [hfst]
  have h1 : ts1.trees = ts.trees ++ [rep] := by
    rw [hts1]
    simp only [htrees]
  have h2 : i = ts.trees.length := by rw [hi, htrees]
  refine ⟨rep, ?_, h1, h2, ?_⟩
  · rw [hrep]
  · rw [h1, h2]
    simp

/-- C19 (amended): for every text without branch lengths in which every internal node
has at least two sons and which `add` accepts into a set that keeps representations
(fewer than 2^32 nodes), the stored tree is a cladogram, and every entry of its heights
vector is at least 1 and at most `N - 1`, where `N` is the number of its tips. -/
theorem cladogram_heights_bounds (strtod : Str → ℚ × Nat) (fuel : Nat) (ts ts1 : TreesSet)
    (txt : Str) (kwds : Option Attributes) (i nc : Nat) (nodes : List ParsedTreeNode)
    (hr : readSubTree strtod fuel txt [] = ParseResult.ok nc nodes)
    (hadd : ts.add strtod fuel txt kwds = (ts1, AddResult.added i))
    (hstore : ts.store = false) (hwf : ts.TaxaWF)
    (hsize : ts.taxaList.length + nodes.length < 4294967296)
    (hnb : ∀ n ∈ nodes, n.branch = none) (hn2 : ∀ n ∈ nodes, n.sons.length ≠ 1) :
    ∃ rep, ts1.trees.get? i = some rep
      ∧ rep.isCladogram = true
      ∧ rep.topology.length = (nodes.filter (fun n => n.sons.length = 0)).length
      ∧ ∀ x ∈ rep.getHeights.1, 1 ≤ x ∧ x ≤ (rep.topology.length : ℚ) - 1 := by
  obtain ⟨rep, hrep, _, _, hget⟩ := add_stored strtod fuel ts ts1 txt kwds i nc nodes hr hadd hstore
  have hwf2 : TreesSet.TaxaWF { ts with treesAttributes := ts.treesAttributes ++ [kwds] } :=
    fun l k h => hwf l k h
  obtain ⟨htopo, _, hlen, _⟩ := nodes2rep_leaf_ids strtod fuel fuel txt nc nodes
    { ts with treesAttributes := ts.treesAttributes ++ [kwds] } rep hr hwf2 hsize hrep
  obtain ⟨l, k, ns, hns, hflat⟩ := readSubTree_flat strtod fuel txt [] nc nodes hr
  simp only [List.nil_append, List.length_nil] at hns hflat
  subst hns
  have hB := IsFlat.branching _ _ _ hflat hn2
  have hh := nodes2rep_cladogram_heights _ fuel l k nodes rep hflat hnb (by omega) hrep
  have hN : rep.topology.length = k.treeTips := by
    rw [htopo, internAll_ids_length]
    have := IsFlat.leafLabels_eq _ _ _ hflat
    unfold leafLabels at this
    rw [this, Forest.tipLabels_length, Forest.tips_single]
  refine ⟨rep, hget, ?_, hlen, ?_⟩
  · obtain ⟨_, st, _, _, hcl, _⟩ := nodes2rep_ok_inv _ fuel nodes rep hrep
    have hc : (scanAll { ts with treesAttributes := ts.treesAttributes ++ [kwds] }
        nodes).cladogram = true :=
      (scan_foldl nodes (ScanState.mk _ [] true false 0)).2.2.2.1 hnb
    obtain ⟨hsb, _, hheights⟩ := hcl hc
    unfold TreeRep.isCladogram
    rw [hheights]
  · intro x hx
    rw [hh] at hx
    simp only [List.mem_map] at hx
    obtain ⟨n, hn, rfl⟩ := hx
    obtain ⟨h1, h2⟩ := Forest.hts_bounds l k hB n hn
    rw [hN]
    constructor
    · exact_mod_cast h1
    · have : ((n + 1 : Nat) : ℚ) ≤ (k.treeTips : ℚ) := by exact_mod_cast h2
      push_cast at this
      linarith

theorem cladogram_heights_bounds_witness :
    readSubTree strtodDigits 9 "((A,B),(C,D))".toList [] =
        ParseResult.ok 13 [ParsedTreeNode.mk ['A'] none [] none,
          ParsedTreeNode.mk ['B'] none [] none, ParsedTreeNode.mk [] none [0, 1] none,
          ParsedTreeNode.mk ['C'] none [] none, ParsedTreeNode.mk ['D'] none [] none,
          ParsedTreeNode.mk [] none [3, 4] none, ParsedTreeNode.mk [] none [2, 5] none]
      ∧ ∃ rep,
          (TreesSet.add strtodDigits 9 (TreesSet.new false 4 false) "((A,B),(C,D))".toList
            none).1.trees.get? 0 = some rep
          ∧ rep.isCladogram = true
          ∧ rep.topology.length
            = ([ParsedTreeNode.mk ['A'] none [] none,
                ParsedTreeNode.mk ['B'] none [] none, ParsedTreeNode.mk [] none [0, 1] none,
                ParsedTreeNode.mk ['C'] none [] none, ParsedTreeNode.mk ['D'] none [] none,
                ParsedTreeNode.mk [] none [3, 4] none,
                ParsedTreeNode.mk [] none [2, 5] none].filter
                  (fun n => n.sons.length = 0)).length
          ∧ ∀ x ∈ rep.getHeights.1, 1 ≤ x ∧ x ≤ (rep.topology.length : ℚ) - 1 :=
  ⟨by decide!, cladogram_heights_bounds strtodDigits 9 (TreesSet.new false 4 false) _
    "((A,B),(C,D))".toList none 0 13 _ (by decide!) (by decide!) rfl
    (taxaWF_new false 4 false) (by decide) (by decide) (by decide)⟩

/-- C19: the text `((A),B)`, whose first internal node has a single son, is accepted and
stored as a cladogram with the two tips 0 and 1 and the heights vector `[2]`: its entry
is above `N - 1 = 1`. -/
theorem single_son_height_exceeds :
    (TreesSet.add strtodDigits 9 (TreesSet.new false 4 false) "((A),B)".toList none).2
        = AddResult.added 0
      ∧ (TreesSet.add strtodDigits 9 (TreesSet.new false 4 false) "((A),B)".toList
          none).1.trees.map (fun r => (r.isCladogram, r.topology, r.getHeights.1))
        = [(true, [0, 1], [2])] := by
  decide!

end Biopy

namespace Biopy

theorem sonsExcess_of_core (a b : List Expanded)
    (h : a.map Expanded.core = b.map Expanded.core) : sonsExcess a = sonsExcess b := by
  have e : ∀ l : List Expanded,
      sonsExcess l = ((l.map Expanded.core).map (fun c => c.2.1 - 2)).sum := by
    intro l
    simp only [sonsExcess, List.map_map]
    rfl
  rw [e a, e b, h]

theorem sonsExcess_append (a b : List Expanded) :
    sonsExcess (a ++ b) = sonsExcess a + sonsExcess b := by
  simp only [sonsExcess, List.map_append, List.sum_append]

theorem length_of_core (a b : List Expanded)
    (h : a.map Expanded.core = b.map Expanded.core) : a.length = b.length := by
  have := congrArg List.length h
  simpa using this

/-- The positions `scanSplits` returns are increasing, there is one at least, and they
are among the positions scanned. -/
theorem scanSplits_sorted (hs : List ℚ) : ∀ (ks : List Nat) (c : ℚ) (ci : Option (List Nat))
    (c2 : ℚ) (l2 : List Nat),
    scanSplits hs ks c ci = Except.ok (c2, some l2) →
    ((ci.getD []) ++ ks).Pairwise (fun a b => a < b) → (∀ l, ci = some l → l ≠ []) →
    l2.Pairwise (fun a b => a < b) ∧ l2 ≠ [] ∧ ∀ x ∈ l2, x ∈ ci.getD [] ∨ x ∈ ks := by
  intro ks
  induction ks with
  | nil =>
    intro c ci c2 l2 h hp hne
    simp only [scanSplits, Except.ok.injEq, Prod.mk.injEq] at h
    obtain ⟨_, hci⟩ := h
    subst hci
    simp only [Option.getD_some, List.append_nil] at hp
    exact ⟨hp, hne l2 rfl, fun x hx => Or.inl (by simpa using hx)⟩
  | cons k ks ih =>
    intro c ci c2 l2 h hp hne
    cases hg : hs[k]? with
    | none => simp [scanSplits, hg] at h
    | some v =>
      simp only [scanSplits, List.get?_eq_getElem?, hg] at h
      by_cases h1 : v ≥ c
      · rw [if_pos h1] at h
        by_cases h2 : v > c
        · rw [if_pos h2] at h
          have hp2 : (((some [k] : Option (List Nat)).getD []) ++ ks).Pairwise
              (fun a b => a < b) := by
            simp only [Option.getD_some]
            exact (List.pairwise_append.mp hp).2.1
          obtain ⟨r1, r2, r3⟩ := ih v (some [k]) c2 l2 h hp2
            (fun l hl => by cases hl; simp)
          refine ⟨r1, r2, fun x hx => ?_⟩
          rcases r3 x hx with hx | hx
          · simp only [Option.getD_some, List.mem_singleton] at hx
            exact Or.inr (by simp [hx])
          · exact Or.inr (by simp [hx])
        · rw [if_neg h2] at h
          cases hci : ci with
          | none => rw [hci] at h; cases h
          | some l =>
            rw [hci] at h
            simp only [] at h
            have hp2 : (((some (l ++ [k]) : Option (List Nat)).getD []) ++ ks).Pairwise
                (fun a b => a < b) := by
              rw [hci] at hp
              simpa using hp
            obtain ⟨r1, r2, r3⟩ := ih c (some (l ++ [k])) c2 l2 h hp2
              (fun l hl => by cases hl; simp)
            refine ⟨r1, r2, fun x hx => ?_⟩
            rcases r3 x hx with hx | hx
            · simp only [Option.getD_some, List.mem_append, List.mem_singleton] at hx
              rcases hx with hx | hx
              · exact Or.inl (by simpa using hx)
              · exact Or.inr (by simp [hx])
            · exact Or.inr (by simp [hx])
      · rw [if_neg h1] at h
        have hp2 : ((ci.getD []) ++ ks).Pairwise (fun a b => a < b) :=
          hp.sublist ((List.sublist_cons_self k ks).append_left _)
        obtain ⟨r1, r2, r3⟩ := ih c ci c2 l2 h hp2 hne
        refine ⟨r1, r2, fun x hx => ?_⟩
        rcases r3 x hx with hx | hx
        · exact Or.inl hx
        · exact Or.inr (by simp [hx])

/-- The loop over the split positions: the nodes it adds, given what a call adds. -/
theorem expandSons_count (rec : ExpState → Nat → Nat → Except Abort (ExpState × Nat))
    (curh : ℚ)
    (hrec : ∀ s l h s2 k, l ≤ h → rec s l h = Except.ok (s2, k) →
      s2.nodes.length + sonsExcess s2.nodes
          = s.nodes.length + sonsExcess s.nodes + 2 * (h - l) + 1
        ∧ s.nodes.length + (h - l + 1) ≤ s2.nodes.length) :
    ∀ (xs : List Nat) (st : ExpState) (low : Nat) (sons : List Nat) (st2 : ExpState)
      (sons2 : List Nat),
      expandSons rec curh xs st low sons = Except.ok (st2, sons2) →
      xs.Pairwise (fun a b => a < b) → (∀ x ∈ xs, low ≤ x) →
      (xs = [] → st2 = st) ∧
      ∀ last, xs.getLast? = some last →
        low ≤ last
        ∧ st2.nodes.length + sonsExcess st2.nodes + xs.length
            = st.nodes.length + sonsExcess st.nodes + 2 * (last + 1 - low)
        ∧ st.nodes.length + (last + 1 - low) ≤ st2.nodes.length := by
  intro xs
  induction xs with
  | nil =>
    intro st low sons st2 sons2 h _ _
    simp only [expandSons, Except.ok.injEq, Prod.mk.injEq] at h
    exact ⟨fun _ => h.1.symm, fun last hl => by simp at hl⟩
  | cons x xs ih =>
    intro st low sons st2 sons2 h hp hlow
    refine ⟨fun hx => absurd hx (List.cons_ne_nil x xs), ?_⟩
    cases hr : rec st low x with
    | error e => simp [expandSons, hr] at h
    | ok p =>
      obtain ⟨st1, k⟩ := p
      cases hg : st1.nodes[k]? with
      | none => simp [expandSons, hr, hg] at h
      | some nk =>
        simp only [expandSons, hr, List.get?_eq_getElem?, hg] at h
        have hlx : low ≤ x := hlow x (by simp)
        obtain ⟨c1, c2⟩ := hrec st low x st1 k hlx hr
        have hcore := setBranchOf_core st1.nodes k (curh - nk.height)
        have hlen := length_of_core _ _ hcore
        have hexc := sonsExcess_of_core _ _ hcore
        have hp2 : xs.Pairwise (fun a b => a < b) := (List.pairwise_cons.mp hp).2
        have hlow2 : ∀ y ∈ xs, x + 1 ≤ y := fun y hy => (List.pairwise_cons.mp hp).1 y hy
        obtain ⟨i1, i2⟩ := ih _ (x + 1) _ st2 sons2 h hp2 hlow2
        intro last hlast
        cases xs with
        | nil =>
          have hst := i1 rfl
          simp only [List.getLast?_singleton, Option.some.injEq] at hlast
          subst hlast
          subst hst
          simp only [List.length_singleton]
          rw [hlen, hexc]
          refine ⟨hlx, ?_, ?_⟩
          · omega
          · omega
        | cons y ys =>
          rw [List.getLast?_cons_cons] at hlast
          obtain ⟨j1, j2, j3⟩ := i2 last hlast
          rw [hlen, hexc] at j2
          rw [hlen] at j3
          simp only [List.length_cons] at j2 ⊢
          refine ⟨by omega, ?_, ?_⟩
          · omega
          · omega

/-- A call of `rep2treeInternal` on the tips `low` to `hi` that returns adds one node for
every tip and one for every inner node; counting the sons beyond two of every node, this
makes `2 * (hi - low) + 1`. -/
theorem rep2treeInternal_count (tax : List Nat) (htax hs : List ℚ)
    (atrbs : Option (List (Option Attributes))) (cap : Nat) :
    ∀ (fuel : Nat) (st : ExpState) (low hi bleft : Nat) (st2 : ExpState) (k : Nat),
      low ≤ hi →
      rep2treeInternal tax htax hs atrbs cap fuel st low hi bleft = Except.ok (st2, k) →
      st2.nodes.length + sonsExcess st2.nodes
          = st.nodes.length + sonsExcess st.nodes + 2 * (hi - low) + 1
        ∧ st.nodes.length + (hi - low + 1) ≤ st2.nodes.length := by
  intro fuel
  induction fuel with
  | zero => intro st low hi bleft st2 k _ h; simp [rep2treeInternal] at h
  | succ fuel ih =>
    intro st low hi bleft st2 k hle h
    by_cases hlh : low = hi
    · subst hlh
      simp only [rep2treeInternal, if_true] at h
      cases ht : tax[low]? with
      | none => simp [ht] at h
      | some t =>
        cases hh : htax[low]? with
        | none => simp [ht, hh] at h
        | some v =>
          simp only [List.get?_eq_getElem?, ht, hh] at h
          cases ha : attrSlot atrbs low with
          | error e => simp [ha] at h
          | ok atr =>
            simp only [ha, Except.ok.injEq, Prod.mk.injEq] at h
            obtain ⟨h1, _⟩ := h
            subst h1
            have h5 : sonsExcess [Expanded.mk (t : Int) 0 [] none v (-1) atr] = 0 := by
              simp [sonsExcess]
            simp only [List.length_append, List.length_singleton, sonsExcess_append, h5]
            omega
    · simp only [rep2treeInternal, if_neg hlh] at h
      cases hsc : scanSplits hs (List.range' low (hi - low)) (-1) none with
      | error e => simp [hsc] at h
      | ok r =>
        obtain ⟨curh, osp⟩ := r
        cases osp with
        | none => simp [hsc] at h
        | some splits =>
          simp only [hsc] at h
          obtain ⟨p1, p2, p3⟩ := scanSplits_sorted hs _ _ _ _ _ hsc
            (by simpa using List.pairwise_lt_range' low (hi - low))
            (fun l hl => by cases hl)
          have hin : ∀ x ∈ splits, low ≤ x ∧ x < hi := by
            intro x hx
            rcases p3 x hx with hx | hx
            · simp at hx
            · have := List.mem_range'_1.mp hx
              omega
          have hspl : 1 ≤ splits.length := by
            cases splits with
            | nil => exact absurd rfl p2
            | cons a b => simp
          by_cases hb1 : bleft < splits.length
          · simp [hb1] at h
          rw [if_neg hb1] at h
          by_cases hb2 : bleft - splits.length = 0
          · simp [hb2] at h
          rw [if_neg hb2] at h
          by_cases hb3 : cap < st.sonsUsed + (1 + splits.length)
          · simp [hb3] at h
          rw [if_neg hb3] at h
          cases hex : expandSons
              (fun s l h => rep2treeInternal tax htax hs atrbs cap fuel s l h
                (bleft - splits.length - 1))
              curh (splits ++ [hi])
              { st with sonsUsed := st.sonsUsed + (1 + splits.length) } low [] with
          | error e => simp [hex] at h
          | ok q =>
            obtain ⟨st1, sons⟩ := q
            simp only [hex] at h
            cases ha : attrSlot atrbs (splits.headD 0 + tax.length) with
            | error e => simp only [ha] at h; cases h
            | ok atr =>
              simp only [ha, Except.ok.injEq, Prod.mk.injEq] at h
              obtain ⟨h1, _⟩ := h
              subst h1
              have hpw : (splits ++ [hi]).Pairwise (fun a b => a < b) := by
                rw [List.pairwise_append]
                refine ⟨p1, by simp, ?_⟩
                intro a ha b hb
                simp only [List.mem_singleton] at hb
                subst hb
                exact (hin a ha).2
              have hlow : ∀ x ∈ splits ++ [hi], low ≤ x := by
                intro x hx
                simp only [List.mem_append, List.mem_singleton] at hx
                rcases hx with hx | hx
                · exact (hin x hx).1
                · omega
              obtain ⟨_, e2⟩ := expandSons_count _ curh
                (fun s l h s2 k hl hr => ih s l h _ s2 k hl hr)
                _ _ _ _ _ _ hex hpw hlow
              obtain ⟨_, e3, e4⟩ := e2 hi (by simp)
              have hcore := foldl_setPrev_core st1.nodes.length sons st1.nodes
              have hlen := length_of_core _ _ hcore
              have hexc := sonsExcess_of_core _ _ hcore
              have h5 : sonsExcess [Expanded.mk (-1) (1 + splits.length) sons none curh (-1) atr]
                  = 1 + splits.length - 2 := by
                simp [sonsExcess]
              have e3' : st1.nodes.length + sonsExcess st1.nodes + (splits.length + 1)
                  = st.nodes.length + sonsExcess st.nodes + 2 * (hi + 1 - low) := by
                simpa using e3
              have e4' : st.nodes.length + (hi + 1 - low) ≤ st1.nodes.length := by
                simpa using e4
              simp only [List.length_append, List.length_singleton, sonsExcess_append, hlen,
                hexc, h5]
              constructor
              · omega
              · omega

theorem sonsExcess_eq_zero : ∀ (ns : List Expanded),
    sonsExcess ns = 0 ↔ ∀ n ∈ ns, n.nSons ≤ 2 := by
  intro ns
  induction ns with
  | nil => simp [sonsExcess]
  | cons a as ih =>
    have e : sonsExcess (a :: as) = (a.nSons - 2) + sonsExcess as := by
      simp [sonsExcess]
    rw [e]
    simp only [List.mem_cons, forall_eq_or_imp, ← ih]
    omega

/-- The number of nodes `setup` expands a tree into, counted with the sons beyond two. -/
theorem setup_count (ts : TreesSet) (fuel nt : Nat) (rep : TreeRep)
    (internals : List Expanded) (hrep : ts.trees.get? nt = some rep)
    (hset : ts.setup fuel nt = Except.ok internals) :
    internals.length + sonsExcess internals = 2 * rep.getHeights.1.length + 1
      ∧ rep.getHeights.1.length + 1 ≤ internals.length := by
  simp only [TreesSet.setup, hrep] at hset
  cases hx : rep2treeInternal rep.topology
      (if rep.getHeights.2.length = 0 then List.replicate rep.topology.length 0
        else rep.getHeights.2)
      rep.getHeights.1 rep.attributes (2 * rep.topology.length) fuel (ExpState.mk [] 0)
      0 rep.getHeights.1.length (2 * rep.topology.length) with
  | error e => rw [hx] at hset; cases hset
  | ok q =>
    obtain ⟨st, k⟩ := q
    rw [hx] at hset
    simp only [] at hset
    have hc := rep2treeInternal_count _ _ _ _ _ _ _ _ _ _ _ _ (Nat.zero_le _) hx
    have h0 : sonsExcess ([] : List Expanded) = 0 := rfl
    simp only [List.length_nil, h0, Nat.sub_zero, Nat.zero_add] at hc
    by_cases hcl : rep.isCladogram = true
    · rw [if_pos hcl] at hset
      simp only [Except.ok.injEq] at hset
      subst hset
      have hcore : (st.nodes.map (fun x => { x with branch := none, height := -1 })).map
          Expanded.core = st.nodes.map Expanded.core := by
        simp only [List.map_map]
        rfl
      rw [length_of_core _ _ hcore, sonsExcess_of_core _ _ hcore]
      exact hc
    · rw [if_neg hcl] at hset
      simp only [Except.ok.injEq] at hset
      subst hset
      exact hc

/-- C18 (amended): for every tree `T` that `add` stores (in a set that keeps
representations, the dictionary agreeing with the list of taxa, ids fitting 32 bits),
`|T.topology| + |T.heights| = 2 * |T.topology| - 1`, and whenever `setup` expands the
tree, the number of nodes of the expansion plus the number of sons beyond two of its
nodes is that number: the expansion has at least `|T.topology|` nodes, and it has
`2 * |T.topology| - 1` nodes exactly when none of its nodes has more than two sons. -/
theorem expansion_node_count (strtod : Str → ℚ × Nat) (fuel : Nat) (ts ts1 : TreesSet)
    (txt : Str) (kwds : Option Attributes) (i nc : Nat) (nodes : List ParsedTreeNode)
    (hr : readSubTree strtod fuel txt [] = ParseResult.ok nc nodes)
    (hadd : ts.add strtod fuel txt kwds = (ts1, AddResult.added i))
    (hstore : ts.store = false) (hwf : ts.TaxaWF)
    (hsize : ts.taxaList.length + nodes.length < 4294967296) :
    ∃ rep, ts1.trees.get? i = some rep
      ∧ 1 ≤ rep.topology.length
      ∧ rep.topology.length + rep.getHeights.1.length = 2 * rep.topology.length - 1
      ∧ ∀ (f : Nat) (internals : List Expanded), ts1.setup f i = Except.ok internals →
          internals.length + sonsExcess internals = 2 * rep.topology.length - 1
          ∧ rep.topology.length ≤ internals.length
          ∧ (internals.length = 2 * rep.topology.length - 1
              ↔ ∀ n ∈ internals, n.nSons ≤ 2) := by
  obtain ⟨rep, hrep, _, _, hget⟩ := add_stored strtod fuel ts ts1 txt kwds i nc nodes hr hadd hstore
  have hwf2 : TreesSet.TaxaWF { ts with treesAttributes := ts.treesAttributes ++ [kwds] } :=
    fun l k h => hwf l k h
  obtain ⟨htopo, _, hlen, hhl⟩ := nodes2rep_leaf_ids strtod fuel fuel txt nc nodes
    { ts with treesAttributes := ts.treesAttributes ++ [kwds] } rep hr hwf2 hsize hrep
  obtain ⟨h0, _⟩ := nodes2rep_ok_inv _ fuel nodes rep hrep
  obtain ⟨_, h2, _, _, _⟩ := scan_foldl nodes
    (ScanState.mk { ts with treesAttributes := ts.treesAttributes ++ [kwds] } [] true false 0)
  simp only [List.nil_append] at h2
  have e2 : (scanAll { ts with treesAttributes := ts.treesAttributes ++ [kwds] } nodes).taxa
      = (internAll { ts with treesAttributes := ts.treesAttributes ++ [kwds] }
          (leafLabels nodes)).2 := h2
  have hpos : 1 ≤ rep.topology.length := by
    rw [htopo]
    rw [e2] at h0
    unfold leafLabels at h0
    omega
  rw [← hlen] at hhl
  refine ⟨rep, hget, hpos, by omega, ?_⟩
  intro f internals hset
  obtain ⟨c1, c2⟩ := setup_count ts1 f i rep internals hget hset
  rw [hhl] at c1 c2
  have hz := sonsExcess_eq_zero internals
  refine ⟨by omega, by omega, ?_⟩
  rw [← hz]
  omega

theorem expansion_node_count_witness :
    readSubTree strtodDigits 9 "((A,B),(C,D,E))".toList [] =
        ParseResult.ok 15 [ParsedTreeNode.mk ['A'] none [] none,
          ParsedTreeNode.mk ['B'] none [] none, ParsedTreeNode.mk [] none [0, 1] none,
          ParsedTreeNode.mk ['C'] none [] none, ParsedTreeNode.mk ['D'] none [] none,
          ParsedTreeNode.mk ['E'] none [] none, ParsedTreeNode.mk [] none [3, 4, 5] none,
          ParsedTreeNode.mk [] none [2, 6] none]
      ∧ ((TreesSet.add strtodDigits 9 (TreesSet.new false 4 false) "((A,B),(C,D,E))".toList
            none).1.setup 9 0).map (fun l => (l.length, sonsExcess l)) = Except.ok (8, 1)
      ∧ ∃ rep,
          (TreesSet.add strtodDigits 9 (TreesSet.new false 4 false) "((A,B),(C,D,E))".toList
            none).1.trees.get? 0 = some rep
          ∧ 1 ≤ rep.topology.length
          ∧ rep.topology.length + rep.getHeights.1.length = 2 * rep.topology.length - 1
          ∧ ∀ (f : Nat) (internals : List Expanded),
              (TreesSet.add strtodDigits 9 (TreesSet.new false 4 false)
                "((A,B),(C,D,E))".toList none).1.setup f 0 = Except.ok internals →
              internals.length + sonsExcess internals = 2 * rep.topology.length - 1
              ∧ rep.topology.length ≤ internals.length
              ∧ (internals.length = 2 * rep.topology.length - 1
                  ↔ ∀ n ∈ internals, n.nSons ≤ 2) :=
  ⟨by decide!, by decide!,
    expansion_node_count strtodDigits 9 (TreesSet.new false 4 false) _
      "((A,B),(C,D,E))".toList none 0 15
      [ParsedTreeNode.mk ['A'] none [] none,
        ParsedTreeNode.mk ['B'] none [] none, ParsedTreeNode.mk [] none [0, 1] none,
        ParsedTreeNode.mk ['C'] none [] none, ParsedTreeNode.mk ['D'] none [] none,
        ParsedTreeNode.mk ['E'] none [] none, ParsedTreeNode.mk [] none [3, 4, 5] none,
        ParsedTreeNode.mk [] none [2, 6] none] (by decide!) (by decide!) rfl
      (taxaWF_new false 4 false) (by decide)⟩

/-- C18: the text `(A,B,C)` is stored with three tips and two heights, and its expansion
has four nodes, the three tips and one node with three sons, not `2 * 3 - 1 = 5`. -/
theorem trifurcation_has_four_nodes :
    (TreesSet.add strtodDigits 9 (TreesSet.new false 4 false) "(A,B,C)".toList none).2
        = AddResult.added 0
      ∧ (TreesSet.add strtodDigits 9 (TreesSet.new false 4 false) "(A,B,C)".toList
          none).1.trees.map (fun r => (r.topology, r.getHeights.1)) = [([0, 1, 2], [1, 1])]
      ∧ ((TreesSet.add strtodDigits 9 (TreesSet.new false 4 false) "(A,B,C)".toList
          none).1.setup 9 0).map (fun l => l.map Expanded.core)
        = Except.ok [(0, 0, []), (1, 0, []), (2, 0, []), (-1, 3, [0, 1, 2])] := by
  decide!

end Biopy

namespace Biopy

theorem IsFlatB.length_eqB : ∀ (P : BForest) (off : Nat) (ns : List ParsedTreeNode),
    IsFlatB P off ns → ns.length = P.shape.size := by
  intro P
  induction P with
  | nil => intro off ns h; simp only [IsFlatB] at h; simp [h, BForest.shape, Forest.size]
  | cons b k r ihk ihr =>
    intro off ns h
    simp only [IsFlatB] at h
    obtain ⟨ns1, n, ns2, rfl, h1, _, _, h2⟩ := h
    simp only [List.length_append, List.length_cons, BForest.shape, Forest.size,
      ihk _ _ h1, ihr _ _ h2]
    omega

theorem IsTopped.length_eqT : ∀ (P : BForest) (off : Nat) (ns : List ParsedTreeNode),
    IsTopped P off ns → ns.length = P.shape.size := by
  intro P
  induction P with
  | nil => intro off ns h; simp only [IsTopped] at h; simp [h, BForest.shape, Forest.size]
  | cons b k r ihk ihr =>
    intro off ns h
    simp only [IsTopped] at h
    obtain ⟨ns1, n, ns2, rfl, h1, _, _, h2⟩ := h
    simp only [List.length_append, List.length_cons, BForest.shape, Forest.size,
      ihk _ _ h1, ihr _ _ h2]
    omega

theorem BForest.shape_cons (b : Option ℚ) (k r : BForest) :
    (BForest.cons b k r).shape = Forest.cons [] k.shape r.shape := rfl

theorem BForest.shape_nil_of_count (k : BForest) (h : k.shape.count = 0) : k = BForest.nil := by
  cases k with
  | nil => rfl
  | cons b k r => simp [BForest.shape, Forest.count] at h

/-- The loop of lines 1623-1627 over the sons of a node finds the largest of the values
left in the sons, from the starting value on. -/
theorem maxBranch_topped : ∀ (P : BForest) (off : Nat) (N ns M : List ParsedTreeNode)
    (h0 : ℚ), IsTopped P off ns → N.length = off →
    maxBranch (N ++ ns ++ M) (P.shape.roots off) h0
      = Except.ok (P.tops.foldl (fun h t => max t h) h0) := by
  intro P
  induction P with
  | nil => intro off N ns M h0 _ _; simp [BForest.shape, Forest.roots, maxBranch, BForest.tops]
  | cons b k r _ ihr =>
    intro off N ns M h0 henc hN
    simp only [IsTopped] at henc
    obtain ⟨ns1, n, ns2, rfl, h1, _, hbr, h2⟩ := henc
    have hlen1 := IsTopped.length_eqT _ _ _ h1
    have hget : (N ++ (ns1 ++ n :: ns2) ++ M).get? (off + k.shape.size) = some n := by
      have e : N ++ (ns1 ++ n :: ns2) ++ M = (N ++ ns1) ++ n :: (ns2 ++ M) := by simp
      rw [e]
      have e2 : off + k.shape.size = (N ++ ns1).length := by simp [hN, hlen1]
      rw [e2]
      exact get?_append_mid _ _ _
    simp only [BForest.shape, Forest.roots, maxBranch, branchOf, hget, hbr]
    have e : N ++ (ns1 ++ n :: ns2) ++ M = (N ++ (ns1 ++ [n])) ++ ns2 ++ M := by simp
    rw [e, ihr (off + k.shape.size + 1) (N ++ (ns1 ++ [n])) ns2 M _ h2
      (by simp [hN, hlen1]; omega)]
    simp only [BForest.tops, List.foldl_cons, BForest.hgt]

/-- What the raising loop reads of a forest the encoder has gone through. -/
theorem laid_of_topped : ∀ (P : BForest) (off t0 : Nat) (N ns M : List ParsedTreeNode)
    (L R : List Int), IsTopped P off ns → N.length = off → L.length = off →
    Laid (N ++ ns ++ M) (L ++ P.shape.locs t0 ++ R) P off t0 := by
  intro P
  induction P with
  | nil => intro off t0 N ns M L R _ _ _; trivial
  | cons b k r ihk ihr =>
    intro off t0 N ns M L R henc hN hL
    simp only [IsTopped] at henc
    obtain ⟨ns1, n, ns2, rfl, h1, hsons, hbr, h2⟩ := henc
    have hlen1 := IsTopped.length_eqT _ _ _ h1
    have hloc : (BForest.cons b k r).shape.locs (t0 : Int)
        = k.shape.locs t0
          ++ (if k.shape.count = 0 then (t0 : Int) - 1 else (t0 : Int) + k.shape.tips - 2)
            :: r.shape.locs ((t0 + k.shape.treeTips : Nat) : Int) := by
      simp only [BForest.shape, Forest.locs]
      by_cases hk : k.shape.count = 0
      · have hkn : k.shape = Forest.nil := (Forest.count_eq_zero_iff _).mp hk
        simp [hkn, Forest.count, Forest.locs]
      · simp [hk]
    have hkl : (k.shape.locs (t0 : Int)).length = k.shape.size := Forest.locs_length _ _
    refine ⟨?_, ⟨n, ?_, hsons, hbr⟩, ?_, ?_⟩
    · have e : N ++ (ns1 ++ n :: ns2) ++ M = N ++ ns1 ++ (n :: ns2 ++ M) := by simp
      have e2 : L ++ (BForest.cons b k r).shape.locs (t0 : Int) ++ R
          = L ++ k.shape.locs t0 ++ ((if k.shape.count = 0 then (t0 : Int) - 1
              else (t0 : Int) + k.shape.tips - 2)
            :: r.shape.locs ((t0 + k.shape.treeTips : Nat) : Int) ++ R) := by
        rw [hloc]; simp
      rw [e, e2]
      exact ihk off t0 N ns1 _ L _ h1 hN hL
    · have e : N ++ (ns1 ++ n :: ns2) ++ M = (N ++ ns1) ++ n :: (ns2 ++ M) := by simp
      rw [e]
      have e2 : off + k.shape.size = (N ++ ns1).length := by simp [hN, hlen1]
      rw [e2]
      exact get?_append_mid _ _ _
    · have e2 : L ++ (BForest.cons b k r).shape.locs (t0 : Int) ++ R
          = (L ++ k.shape.locs t0) ++ (if k.shape.count = 0 then (t0 : Int) - 1
              else (t0 : Int) + k.shape.tips - 2)
            :: (r.shape.locs ((t0 + k.shape.treeTips : Nat) : Int) ++ R) := by
        rw [hloc]; simp
      rw [e2]
      have e3 : off + k.shape.size = (L ++ k.shape.locs (t0 : Int)).length := by
        simp [hL, hkl]
      rw [e3]
      exact get?_append_mid _ _ _
    · have e : N ++ (ns1 ++ n :: ns2) ++ M = (N ++ (ns1 ++ [n])) ++ ns2 ++ M := by simp
      have e2 : L ++ (BForest.cons b k r).shape.locs (t0 : Int) ++ R
          = (L ++ (k.shape.locs t0 ++ [if k.shape.count = 0 then (t0 : Int) - 1
              else (t0 : Int) + k.shape.tips - 2]))
            ++ r.shape.locs ((t0 + k.shape.treeTips : Nat) : Int) ++ R := by
        rw [hloc]; simp
      rw [e, e2]
      exact ihr _ _ _ ns2 M _ R h2 (by simp [hN, hlen1]; omega) (by simp [hL, hkl]; omega)

theorem BForest.locs_cons0 (b : Option ℚ) (k r : BForest) (t0 : Nat) :
    (BForest.cons b k r).shape.locs (t0 : Int)
      = k.shape.locs t0
        ++ (if k.shape.count = 0 then (t0 : Int) - 1 else (t0 : Int) + k.shape.tips - 2)
          :: r.shape.locs ((t0 + k.shape.treeTips : Nat) : Int) := by
  simp only [BForest.shape, Forest.locs]
  by_cases hk : k.shape.count = 0
  · have hkn : k.shape = Forest.nil := (Forest.count_eq_zero_iff _).mp hk
    simp [hkn, Forest.count, Forest.locs]
  · simp [hk]

theorem addAt_mid (A C : List ℚ) (v dh : ℚ) (i : Int) (hi : i = (A.length : Int)) :
    addAt (A ++ v :: C) i dh = Except.ok (A ++ (v + dh) :: C) := by
  subst hi
  unfold addAt
  have h1 : (0 : Int) ≤ (A.length : Int) ∧ ((A.length : Int)).toNat < (A ++ v :: C).length := by
    constructor
    · exact Int.natCast_nonneg _
    · simp
  rw [if_pos h1]
  simp only [Int.toNat_ofNat]
  have hg : (A ++ v :: C).getD A.length 0 = v := by
    have := get?_append_mid A C v
    rw [List.getD_eq_getElem?_getD, ← List.get?_eq_getElem?, this]
    rfl
  rw [hg, set_append_mid]

theorem addAt_ok_length (v : List ℚ) (i : Int) (dh : ℚ) (w : List ℚ)
    (h : addAt v i dh = Except.ok w) : w.length = v.length := by
  unfold addAt at h
  split at h
  · simp only [Except.ok.injEq] at h
    subst h
    simp
  · cases h

theorem BForest.roots_cons (b : Option ℚ) (k r : BForest) (off : Nat) :
    (BForest.cons b k r).shape.roots off
      = (off + k.shape.size) :: r.shape.roots (off + k.shape.size + 1) := rfl

/-- The raising loop on a stack that holds the roots of the trees of a forest above
other nodes: when it ends, it has added `dh` to the offsets of the tips of the forest and
gone on with the other nodes. -/
theorem raiseLoop_forest (nodes : List ParsedTreeNode) (locs : List Int) (dh : ℚ) :
    ∀ (Q : BForest) (off t0 : Nat) (hp : List Nat) (fuel : Nat) (hs A X B : List ℚ)
      (res : List ℚ × List ℚ),
      Laid nodes locs Q off t0 → A.length = t0 → X.length = Q.shape.tips →
      raiseLoop nodes locs dh fuel ((Q.shape.roots off).reverse ++ hp) hs (A ++ X ++ B)
        = Except.ok res →
      ∃ fuel2 hs2,
        raiseLoop nodes locs dh fuel2 hp hs2 (A ++ X.map (fun v => v + dh) ++ B)
          = Except.ok res
        ∧ hs2.length = hs.length := by
  intro Q
  induction Q with
  | nil =>
    intro off t0 hp fuel hs A X B res _ _ hX h
    have hXn : X = [] := by
      apply List.eq_nil_of_length_eq_zero
      simpa [BForest.shape, Forest.tips] using hX
    subst hXn
    refine ⟨fuel, hs, ?_, rfl⟩
    simpa [BForest.shape, Forest.roots] using h
  | cons b k r ihk ihr =>
    intro off t0 hp fuel hs A X B res hlaid hA hX h
    obtain ⟨hlk, ⟨n, hget, hsons, _⟩, hloc, hlr⟩ := hlaid
    -- the offsets of the first tree and those of the other trees
    have htips : (BForest.cons b k r).shape.tips = k.shape.treeTips + r.shape.tips := rfl
    rw [htips] at hX
    obtain ⟨X1, X2, rfl, hX1, hX2⟩ : ∃ X1 X2, X = X1 ++ X2 ∧ X1.length = k.shape.treeTips
        ∧ X2.length = r.shape.tips := by
      refine ⟨X.take k.shape.treeTips, X.drop k.shape.treeTips, (List.take_append_drop _ _).symm,
        ?_, ?_⟩
      · simp only [List.length_take]; omega
      · simp only [List.length_drop]; omega
    rw [BForest.roots_cons, List.reverse_cons, List.append_assoc, List.singleton_append] at h
    have e1 : A ++ (X1 ++ X2) ++ B = (A ++ X1) ++ X2 ++ B := by simp
    rw [e1] at h
    obtain ⟨fuel2, hs2, hrun2, hlen2⟩ := ihr _ _ _ fuel hs (A ++ X1) X2 B res hlr
      (by simp [hA, hX1]) hX2 h
    cases fuel2 with
    | zero => simp [raiseLoop] at hrun2
    | succ f =>
      simp only [raiseLoop, hget, hloc] at hrun2
      by_cases hk : k.shape.count = 0
      · have hkn : k = BForest.nil := BForest.shape_nil_of_count k hk
        subst hkn
        have hs0 : n.sons.length = 0 := by
          rw [hsons]; simp [BForest.shape, Forest.roots]
        rw [if_pos hs0] at hrun2
        simp only [BForest.shape, Forest.count, if_true] at hrun2
        obtain ⟨v, rfl⟩ : ∃ v, X1 = [v] := by
          have h1 : X1.length = 1 := by
            rw [hX1]; simp [BForest.shape, Forest.treeTips, Forest.count]
          match X1, h1 with
          | [v], _ => exact ⟨v, rfl⟩
        have e2 : A ++ [v] ++ List.map (fun v => v + dh) X2 ++ B
            = A ++ v :: (List.map (fun v => v + dh) X2 ++ B) := by simp
        rw [e2, addAt_mid A _ v dh _ (by rw [hA]; omega)] at hrun2
        simp only [] at hrun2
        refine ⟨f, hs2, ?_, hlen2⟩
        have e3 : A ++ List.map (fun v => v + dh) ([v] ++ X2) ++ B
            = A ++ (v + dh) :: (List.map (fun v => v + dh) X2 ++ B) := by simp
        rw [e3]
        exact hrun2
      · have hs0 : ¬ n.sons.length = 0 := by
          rw [hsons, Forest.roots_length]; exact hk
        rw [if_neg hs0] at hrun2
        cases had : addAt hs2 (if k.shape.count = 0 then (t0 : Int) - 1
            else (t0 : Int) + k.shape.tips - 2) dh with
        | error e => rw [had] at hrun2; cases hrun2
        | ok hs3 =>
          rw [had] at hrun2
          simp only [] at hrun2
          rw [hsons] at hrun2
          have e2 : A ++ X1 ++ List.map (fun v => v + dh) X2 ++ B
              = A ++ X1 ++ (List.map (fun v => v + dh) X2 ++ B) := by simp
          rw [e2] at hrun2
          have hX1' : X1.length = k.shape.tips := by
            rw [hX1]; simp [Forest.treeTips, hk]
          obtain ⟨fuel3, hs4, hrun3, hlen3⟩ := ihk off t0 hp f hs3 A X1 _ res hlk hA hX1' hrun2
          refine ⟨fuel3, hs4, ?_, ?_⟩
          · have e3 : A ++ List.map (fun v => v + dh) (X1 ++ X2) ++ B
                = A ++ List.map (fun v => v + dh) X1 ++ (List.map (fun v => v + dh) X2 ++ B) := by
              simp
            rw [e3]
            exact hrun3
          · rw [hlen3, addAt_ok_length _ _ _ _ had, hlen2]

theorem BForest.raised_length : ∀ (Q : BForest) (h : ℚ), (Q.raised h).length = Q.shape.tips := by
  intro Q
  induction Q with
  | nil => intro h; rfl
  | cons b k r ihk ihr =>
    intro h
    simp only [BForest.raised, BForest.shape, Forest.tips, List.length_append, List.length_map,
      ihr]
    by_cases hk : k.shape.count = 0
    · simp [hk]
    · simp [hk, ihk]

theorem BForest.inner_length : ∀ (Q : BForest), Q.inner.length = Q.shape.tips := by
  intro Q
  induction Q with
  | nil => rfl
  | cons b k r _ ihr =>
    simp only [BForest.inner, BForest.shape, Forest.tips, List.length_append, ihr]
    by_cases hk : k.shape.count = 0
    · simp [hk]
    · simp [hk, BForest.raised_length]

theorem BForest.raised_cons (b : Option ℚ) (k r : BForest) (h : ℚ) :
    (BForest.cons b k r).raised h
      = ((if k.shape.count = 0 then [0] else k.raised k.hgt).map
          (fun v => v + raiseBy h ((if k.shape.count = 0 then 0 else k.hgt) + b.getD 1)))
        ++ r.raised h := rfl

theorem BForest.inner_cons (b : Option ℚ) (k r : BForest) :
    (BForest.cons b k r).inner
      = (if k.shape.count = 0 then [0] else k.raised k.hgt) ++ r.inner := rfl

/-- The loop of lines 1629-1652 over the sons of a node of height `h`: when it ends, the
offsets of the tips below every son it raised have gone up by the difference. -/
theorem raiseSons_forest (fuel nTaxa : Nat) (nodes : List ParsedTreeNode) (locs : List Int)
    (h : ℚ) :
    ∀ (Q : BForest) (off t0 : Nat) (hs : List ℚ) (th : Option (List ℚ)) (A B : List ℚ)
      (res : List ℚ × Option (List ℚ)),
      Laid nodes locs Q off t0 → A.length = t0 →
      th.getD (List.replicate nTaxa 0) = A ++ Q.inner ++ B →
      raiseSons fuel nTaxa nodes locs h (Q.shape.roots off) hs th = Except.ok res →
      res.1.length = hs.length
        ∧ res.2.getD (List.replicate nTaxa 0) = A ++ Q.raised h ++ B := by
  intro Q
  induction Q with
  | nil =>
    intro off t0 hs th A B res _ _ hth hrun
    simp only [BForest.shape, Forest.roots, raiseSons, Except.ok.injEq] at hrun
    subst hrun
    exact ⟨rfl, hth⟩
  | cons b k r _ ihr =>
    intro off t0 hs th A B res hlaid hA hth hrun
    have hlaid' := hlaid
    obtain ⟨hlk, ⟨n, hget, hsons, hbr⟩, hloc, hlr⟩ := hlaid
    have hone : (if k.shape.count = 0 then [(0 : ℚ)] else k.raised k.hgt).length
        = k.shape.treeTips := by
      by_cases hk : k.shape.count = 0
      · simp [hk, Forest.treeTips]
      · simp [hk, Forest.treeTips, BForest.raised_length]
    rw [BForest.roots_cons] at hrun
    simp only [raiseSons, branchOf, hget, hbr] at hrun
    rw [BForest.inner_cons] at hth
    rw [BForest.raised_cons]
    by_cases hc : h - ((if k.shape.count = 0 then 0 else k.hgt) + b.getD 1) > 0
        ∧ areSame h ((if k.shape.count = 0 then 0 else k.hgt) + b.getD 1) = false
    · rw [if_pos hc] at hrun
      have hrb : raiseBy h ((if k.shape.count = 0 then 0 else k.hgt) + b.getD 1)
          = h - ((if k.shape.count = 0 then 0 else k.hgt) + b.getD 1) := by
        unfold raiseBy
        rw [if_pos hc]
      cases hrl : raiseLoop nodes locs (h - ((if k.shape.count = 0 then 0 else k.hgt)
          + b.getD 1)) fuel [off + k.shape.size] hs (th.getD (List.replicate nTaxa 0)) with
      | error e => rw [hrl] at hrun; cases hrun
      | ok r1 =>
        rw [hrl] at hrun
        simp only [] at hrun
        have hl1 : Laid nodes locs (BForest.cons b k BForest.nil) off t0 :=
          ⟨hlk, ⟨n, hget, hsons, hbr⟩, hloc, trivial⟩
        have e1 : th.getD (List.replicate nTaxa 0)
            = A ++ (if k.shape.count = 0 then [(0 : ℚ)] else k.raised k.hgt) ++ (r.inner ++ B) := by
          rw [hth]; simp
        rw [e1] at hrl
        have hroots : [off + k.shape.size]
            = ((BForest.cons b k BForest.nil).shape.roots off).reverse ++ [] := by
          simp [BForest.shape, Forest.roots]
        rw [hroots] at hrl
        obtain ⟨fuel2, hs2, hrun2, hlen2⟩ := raiseLoop_forest nodes locs _ _ off t0 [] fuel hs A
          _ _ r1 hl1 hA (by rw [hone]; simp [BForest.shape, Forest.tips, Forest.treeTips]) hrl
        have hr1 : r1 = (hs2, A ++ (if k.shape.count = 0 then [(0 : ℚ)] else k.raised k.hgt).map
            (fun v => v + (h - ((if k.shape.count = 0 then 0 else k.hgt) + b.getD 1)))
              ++ (r.inner ++ B)) := by
          cases fuel2 <;> simp only [raiseLoop, Except.ok.injEq] at hrun2 <;> exact hrun2.symm
        obtain ⟨i1, i2⟩ := ihr (off + k.shape.size + 1) (t0 + k.shape.treeTips) r1.1 (some r1.2)
          (A ++ (if k.shape.count = 0 then [(0 : ℚ)] else k.raised k.hgt).map
            (fun v => v + (h - ((if k.shape.count = 0 then 0 else k.hgt) + b.getD 1))))
          B res hlr (by simp [hA, hone]) (by rw [hr1]; simp) hrun
        refine ⟨?_, ?_⟩
        · rw [i1, hr1]; exact hlen2
        · rw [i2, hrb]; simp
    · rw [if_neg hc] at hrun
      have hrb : raiseBy h ((if k.shape.count = 0 then 0 else k.hgt) + b.getD 1) = 0 := by
        unfold raiseBy
        rw [if_neg hc]
      obtain ⟨i1, i2⟩ := ihr (off + k.shape.size + 1) (t0 + k.shape.treeTips) hs th
        (A ++ (if k.shape.count = 0 then [(0 : ℚ)] else k.raised k.hgt))
        B res hlr (by simp [hA, hone]) (by rw [hth]; simp) hrun
      refine ⟨i1, ?_⟩
      rw [i2, hrb]
      simp

theorem BForest.bhts_length : ∀ (Q : BForest) (c : ℚ), (Q.hts c).length = Q.shape.tips - 1 := by
  intro Q
  induction Q with
  | nil => intro c; rfl
  | cons b k r ihk ihr =>
    intro c
    simp only [BForest.hts, BForest.shape, Forest.tips, List.length_append]
    by_cases hk : k.shape.count = 0
    · by_cases hr : r.shape.count = 0
      · have : r.shape = Forest.nil := (Forest.count_eq_zero_iff _).mp hr
        simp [hk, this, Forest.tips, Forest.count]
      · have := Forest.tips_pos _ hr
        simp [hk, hr, ihr]
        omega
    · have hkt := Forest.tips_pos _ hk
      by_cases hr : r.shape.count = 0
      · have : r.shape = Forest.nil := (Forest.count_eq_zero_iff _).mp hr
        simp [hk, this, Forest.tips, Forest.count, ihk]
      · have := Forest.tips_pos _ hr
        simp [hk, hr, ihk, ihr]
        omega

/-- The loop of lines 1655-1658 over the sons of a node: it writes the height of the node
between the trees of the sons. -/
theorem storeHeight_bforest : ∀ (Q : BForest) (off t0 : Nat) (L R : List Int) (A B : List ℚ)
    (c h : ℚ), L.length = off → A.length = t0 →
    storeHeight (L ++ Q.shape.locs t0 ++ R) h (Q.shape.roots off) (A ++ Q.hts c ++ B)
      = Except.ok (A ++ Q.hts h ++ B) := by
  intro Q
  induction Q with
  | nil =>
    intro off t0 L R A B c h _ _
    simp [BForest.shape, Forest.roots, storeHeight, BForest.hts]
  | cons b k r _ ihr =>
    intro off t0 L R A B c h hL hA
    cases r with
    | nil => simp [BForest.shape, Forest.roots, storeHeight, BForest.hts, Forest.count]
    | cons b2 k2 r2 =>
      have hr : (BForest.cons b2 k2 r2).shape.count ≠ 0 := by simp [BForest.shape, Forest.count]
      have hTL := BForest.locs_cons0 b k (BForest.cons b2 k2 r2) t0
      have hX : ∀ x : ℚ, (BForest.cons b k (BForest.cons b2 k2 r2)).hts x
          = (if k.shape.count = 0 then [] else k.hts k.hgt)
            ++ x :: (BForest.cons b2 k2 r2).hts x := by
        intro x
        conv => lhs; rw [BForest.hts]
        rw [if_neg hr]
      have hXlen : (if k.shape.count = 0 then ([] : List ℚ) else k.hts k.hgt).length + 1
          = k.shape.treeTips := by
        by_cases hk : k.shape.count = 0
        · simp [hk, Forest.treeTips]
        · have := Forest.tips_pos _ hk
          simp only [if_neg hk, Forest.treeTips, BForest.bhts_length]
          omega
      have hlast : (if k.shape.count = 0 then (t0 : Int) - 1 else (t0 : Int) + k.shape.tips - 2)
          = (t0 : Int) + (k.shape.treeTips : Nat) - 2 := by
        by_cases hk : k.shape.count = 0
        · simp [hk, Forest.treeTips]; omega
        · simp [hk, Forest.treeTips]
      rw [hTL, hX c, hX h, hlast]
      have hroots : (BForest.cons b k (BForest.cons b2 k2 r2)).shape.roots off
          = (off + k.shape.size) :: (BForest.cons b2 k2 r2).shape.roots (off + k.shape.size + 1) :=
        rfl
      have hroots2 : (BForest.cons b2 k2 r2).shape.roots (off + k.shape.size + 1)
          = (off + k.shape.size + 1 + k2.shape.size)
            :: r2.shape.roots (off + k.shape.size + 1 + k2.shape.size + 1) := rfl
      have hkl : (k.shape.locs (t0 : Int)).length = k.shape.size := Forest.locs_length _ _
      have hget : (L ++ (k.shape.locs (t0 : Int) ++ ((t0 : Int) + (k.shape.treeTips : Nat) - 2)
          :: (BForest.cons b2 k2 r2).shape.locs ((t0 + k.shape.treeTips : Nat) : Int)) ++ R).get?
          (off + k.shape.size) = some ((t0 : Int) + (k.shape.treeTips : Nat) - 2) := by
        have e : L ++ (k.shape.locs (t0 : Int) ++ ((t0 : Int) + (k.shape.treeTips : Nat) - 2)
            :: (BForest.cons b2 k2 r2).shape.locs ((t0 + k.shape.treeTips : Nat) : Int)) ++ R
            = (L ++ k.shape.locs (t0 : Int)) ++ ((t0 : Int) + (k.shape.treeTips : Nat) - 2)
              :: ((BForest.cons b2 k2 r2).shape.locs ((t0 + k.shape.treeTips : Nat) : Int)
                ++ R) := by simp
        rw [e]
        have e2 : off + k.shape.size = (L ++ k.shape.locs (t0 : Int)).length := by
          simp [hL, hkl]
        rw [e2]
        exact get?_append_mid _ _ _
      rw [hroots]
      conv => lhs; rw [hroots2]
      simp only [storeHeight, hget]
      have hidx : ((t0 : Int) + (k.shape.treeTips : Nat) - 2 + 1).toNat
          = A.length + (if k.shape.count = 0 then ([] : List ℚ) else k.hts k.hgt).length := by
        omega
      have hcond : 0 ≤ (t0 : Int) + (k.shape.treeTips : Nat) - 2 + 1
          ∧ ((t0 : Int) + (k.shape.treeTips : Nat) - 2 + 1).toNat
            < (A ++ ((if k.shape.count = 0 then [] else k.hts k.hgt)
                ++ c :: (BForest.cons b2 k2 r2).hts c) ++ B).length := by
        constructor
        · omega
        · rw [hidx]; simp
      rw [if_pos hcond, hidx]
      have hset : (A ++ ((if k.shape.count = 0 then [] else k.hts k.hgt)
            ++ c :: (BForest.cons b2 k2 r2).hts c) ++ B).set
          (A.length + (if k.shape.count = 0 then ([] : List ℚ) else k.hts k.hgt).length) h
          = (A ++ (if k.shape.count = 0 then [] else k.hts k.hgt) ++ [h])
            ++ (BForest.cons b2 k2 r2).hts c ++ B := by
        have e : A ++ ((if k.shape.count = 0 then [] else k.hts k.hgt)
              ++ c :: (BForest.cons b2 k2 r2).hts c) ++ B
            = (A ++ (if k.shape.count = 0 then [] else k.hts k.hgt)) ++ c
              :: ((BForest.cons b2 k2 r2).hts c ++ B) := by simp
        have e2 : A.length + (if k.shape.count = 0 then ([] : List ℚ) else k.hts k.hgt).length
            = (A ++ (if k.shape.count = 0 then [] else k.hts k.hgt)).length := by simp
        rw [e, e2, set_append_mid]
        simp
      rw [hset]
      have hlocs : L ++ (k.shape.locs (t0 : Int) ++ ((t0 : Int) + (k.shape.treeTips : Nat) - 2)
            :: (BForest.cons b2 k2 r2).shape.locs ((t0 + k.shape.treeTips : Nat) : Int)) ++ R
          = (L ++ (k.shape.locs (t0 : Int) ++ [(t0 : Int) + (k.shape.treeTips : Nat) - 2]))
            ++ (BForest.cons b2 k2 r2).shape.locs ((t0 + k.shape.treeTips : Nat) : Int) ++ R := by
        simp
      rw [hlocs, ← hroots2,
        ihr (off + k.shape.size + 1) (t0 + k.shape.treeTips)
          (L ++ (k.shape.locs (t0 : Int) ++ [(t0 : Int) + (k.shape.treeTips : Nat) - 2])) R _ B
          c h (by simp [hL, hkl]; omega) (by simp [hA]; omega)]
      simp

/-- The loop of lines 1629-1652 over the sons of a node of height `h`, when every son
that has sons itself comes up to `h`: it leaves the heights as they are. -/
theorem raiseSons_kept (fuel nTaxa : Nat) (nodes : List ParsedTreeNode) (locs : List Int)
    (h : ℚ) :
    ∀ (Q : BForest) (off t0 : Nat) (hs : List ℚ) (th : Option (List ℚ))
      (res : List ℚ × Option (List ℚ)),
      Laid nodes locs Q off t0 → Q.kept h = true →
      raiseSons fuel nTaxa nodes locs h (Q.shape.roots off) hs th = Except.ok res →
      res.1 = hs := by
  intro Q
  induction Q with
  | nil =>
    intro off t0 hs th res _ _ hrun
    simp only [BForest.shape, Forest.roots, raiseSons, Except.ok.injEq] at hrun
    subst hrun
    rfl
  | cons b k r _ ihr =>
    intro off t0 hs th res hlaid hkept hrun
    obtain ⟨_, ⟨n, hget, hsons, hbr⟩, hloc, hlr⟩ := hlaid
    simp only [BForest.kept, Bool.and_eq_true, Bool.or_eq_true, decide_eq_true_eq] at hkept
    obtain ⟨⟨htop, _⟩, hkr⟩ := hkept
    rw [BForest.roots_cons] at hrun
    simp only [raiseSons, branchOf, hget, hbr] at hrun
    by_cases hc : h - ((if k.shape.count = 0 then 0 else k.hgt) + b.getD 1) > 0
        ∧ areSame h ((if k.shape.count = 0 then 0 else k.hgt) + b.getD 1) = false
    · rw [if_pos hc] at hrun
      have hkc : k.shape.count = 0 := by
        rcases htop with htop | htop
        · exact htop
        · by_contra hne
          have h1 := hc.1
          rw [if_neg hne, htop] at h1
          simp at h1
      cases hrl : raiseLoop nodes locs (h - ((if k.shape.count = 0 then 0 else k.hgt)
          + b.getD 1)) fuel [off + k.shape.size] hs (th.getD (List.replicate nTaxa 0)) with
      | error e => rw [hrl] at hrun; cases hrun
      | ok r1 =>
        rw [hrl] at hrun
        simp only [] at hrun
        have hs0 : n.sons.length = 0 := by
          rw [hsons, Forest.roots_length]; exact hkc
        have hr1 : r1.1 = hs := by
          cases fuel with
          | zero => simp [raiseLoop] at hrl
          | succ f =>
            simp only [raiseLoop, hget, hloc, if_pos hs0] at hrl
            cases had : addAt (th.getD (List.replicate nTaxa 0))
                ((if k.shape.count = 0 then (t0 : Int) - 1
                  else (t0 : Int) + k.shape.tips - 2) + 1)
                (h - ((if k.shape.count = 0 then 0 else k.hgt) + b.getD 1)) with
            | error e => rw [had] at hrl; cases hrl
            | ok th2 =>
              rw [had] at hrl
              simp only [] at hrl
              cases f <;> simp only [raiseLoop, Except.ok.injEq] at hrl <;> rw [← hrl]
        have := ihr (off + k.shape.size + 1) (t0 + k.shape.treeTips) r1.1 (some r1.2) res hlr
          hkr hrun
        rw [this, hr1]
    · rw [if_neg hc] at hrun
      exact ihr (off + k.shape.size + 1) (t0 + k.shape.treeTips) hs th res hlr hkr hrun

end Biopy

namespace Biopy

/-- One turn of the second loop of `nodes2rep` on a tip, when it ends. -/
theorem encodeNode_tip_inv (fuel : Nat) (c : Bool) (nTaxa : Nat) (st st2 : EncState)
    (idx : Nat) (n : ParsedTreeNode) (hget : st.nodes.get? idx = some n)
    (hs0 : n.sons.length = 0) (h : encodeNode fuel c nTaxa st idx = Except.ok st2) :
    st.iloc < st.locs.length
      ∧ st2 = EncState.mk (st.nodes.set idx { n with branch := some (n.branch.getD 1) })
          (st.locs.set st.iloc
            (if st.iloc = 0 then -1 else st.locs.getD (st.iloc - 1) 0 + 1))
          (st.iloc + 1) st.heights st.taxaHeights := by
  unfold encodeNode at h
  rw [hget] at h
  simp only [] at h
  rw [if_pos hs0] at h
  by_cases hl : st.iloc < st.locs.length
  · rw [if_pos hl] at h
    simp only [Except.ok.injEq] at h
    exact ⟨hl, h.symm⟩
  · rw [if_neg hl] at h
    cases h

/-- One turn of the second loop of `nodes2rep` on a node with sons of a phylogram, when
it ends. -/
theorem encodeNode_inner_inv (fuel nTaxa : Nat) (st st2 : EncState)
    (idx : Nat) (n : ParsedTreeNode) (hget : st.nodes.get? idx = some n)
    (hs0 : ¬ n.sons.length = 0) (h : encodeNode fuel false nTaxa st idx = Except.ok st2) :
    ∃ hh r hs2, maxBranch st.nodes n.sons (-1) = Except.ok hh
      ∧ raiseSons fuel nTaxa st.nodes st.locs hh n.sons st.heights st.taxaHeights = Except.ok r
      ∧ storeHeight st.locs hh n.sons r.1 = Except.ok hs2
      ∧ 0 < st.iloc ∧ st.iloc < st.locs.length
      ∧ st2 = EncState.mk
          (st.nodes.set idx { n with branch :=
            match n.branch with
            | some b => some (b + hh)
            | none => if idx + 1 = st.nodes.length then none else some (hh + 1) })
          (st.locs.set st.iloc (st.locs.getD (st.iloc - 1) 0))
          (st.iloc + 1) hs2 r.2 := by
  unfold encodeNode at h
  rw [hget] at h
  simp only [] at h
  rw [if_neg hs0] at h
  cases hm : maxBranch st.nodes n.sons (-1) with
  | error e => rw [hm] at h; cases h
  | ok hh =>
    rw [hm] at h
    simp only [Bool.false_eq_true, if_false] at h
    cases hr : raiseSons fuel nTaxa st.nodes st.locs hh n.sons st.heights st.taxaHeights with
    | error e => rw [hr] at h; cases h
    | ok r =>
      rw [hr] at h
      simp only [] at h
      cases hst : storeHeight st.locs hh n.sons r.1 with
      | error e => rw [hst] at h; cases h
      | ok hs2 =>
        rw [hst] at h
        simp only [] at h
        by_cases hl : 0 < st.iloc ∧ st.iloc < st.locs.length
        · rw [if_pos hl] at h
          simp only [Except.ok.injEq] at h
          exact ⟨hh, r, hs2, rfl, hr, hst, hl.1, hl.2, h.symm⟩
        · rw [if_neg hl] at h
          cases h

/-- The turn of the second loop for a tip that stands after the nodes `N`, when it
ends. -/
theorem encodeNode_tip_step (fuel : Nat) (c : Bool) (nTaxa : Nat)
    (N M : List ParsedTreeNode) (n : ParsedTreeNode) (L R : List Int) (hs : List ℚ)
    (th : Option (List ℚ)) (t0 : Nat) (st2 : EncState)
    (hn : n.sons = []) (hR : R ≠ [])
    (h0 : N.length = 0 → t0 = 0) (hl : 0 < N.length → L.getLast? = some ((t0 : Int) - 2))
    (hL : L.length = N.length)
    (h : encodeNode fuel c nTaxa (EncState.mk (N ++ n :: M) (L ++ R) N.length hs th) N.length
      = Except.ok st2) :
    st2 = EncState.mk (N ++ { n with branch := some (n.branch.getD 1) } :: M)
      (L ++ ((t0 : Int) - 1) :: R.tail) (N.length + 1) hs th := by
  obtain ⟨_, h2⟩ := encodeNode_tip_inv fuel c nTaxa _ st2 N.length n (get?_append_mid N M n)
    (by simp [hn]) h
  rw [h2]
  simp only [set_append_mid]
  have hv : (if N.length = 0 then (-1 : Int) else (L ++ R).getD (N.length - 1) 0 + 1)
      = (t0 : Int) - 1 := by
    by_cases hz : N.length = 0
    · simp [hz, h0 hz]
    · simp only [if_neg hz]
      rw [← hL, getD_append_last L R _ (hl (by omega))]
      omega
  rw [hv, ← hL, set_append_head L R _ hR]

/-- The turn of the second loop for a node with sons that stands after the nodes `N`
and is not the last node, on a phylogram, when it ends. -/
theorem encodeNode_inner_step (fuel nTaxa : Nat)
    (N M : List ParsedTreeNode) (n : ParsedTreeNode) (L R : List Int) (hs : List ℚ)
    (th : Option (List ℚ)) (v : Int) (st2 : EncState)
    (hn : n.sons ≠ []) (hR : R ≠ []) (hM : M ≠ [])
    (hL : L.length = N.length) (hlast : L.getLast? = some v)
    (h : encodeNode fuel false nTaxa (EncState.mk (N ++ n :: M) (L ++ R) N.length hs th)
      N.length = Except.ok st2) :
    ∃ hh r hs2, maxBranch (N ++ n :: M) n.sons (-1) = Except.ok hh
      ∧ raiseSons fuel nTaxa (N ++ n :: M) (L ++ R) hh n.sons hs th = Except.ok r
      ∧ storeHeight (L ++ R) hh n.sons r.1 = Except.ok hs2
      ∧ hs2.length = hs.length
      ∧ st2 = EncState.mk (N ++ { n with branch := some (hh + n.branch.getD 1) } :: M)
          (L ++ v :: R.tail) (N.length + 1) hs2 r.2 := by
  have hlen : ¬ n.sons.length = 0 := by
    intro hc; exact hn (List.length_eq_zero.mp hc)
  obtain ⟨hh, r, hs2, hm, hr, hst, _, _, h2⟩ := encodeNode_inner_inv fuel nTaxa _ st2 N.length n
    (get?_append_mid N M n) hlen h
  refine ⟨hh, r, hs2, hm, hr, hst, ?_, ?_⟩
  · rw [storeHeight_length _ _ _ _ _ hst, raiseSons_length _ _ _ _ _ _ _ _ _ hr]
  · rw [h2]
    simp only [set_append_mid]
    have hv : (L ++ R).getD (N.length - 1) 0 = v := by
      rw [← hL]; exact getD_append_last L R v hlast
    rw [hv]
    have hset : (L ++ R).set N.length v = L ++ v :: R.tail := by
      rw [← hL]; exact set_append_head L R v hR
    rw [hset]
    have hne : ¬ (N.length + 1 = (N ++ n :: M).length) := by
      have : 0 < M.length := List.length_pos.mpr hM
      simp only [List.length_append, List.length_cons]; omega
    have hb : (match n.branch with
        | some b => some (b + hh)
        | none => if N.length + 1 = (N ++ n :: M).length then none else some (hh + 1))
        = some (hh + n.branch.getD 1) := by
      cases hbn : n.branch with
      | none => simp only [if_neg hne, Option.getD_none]
      | some b => simp only [Option.getD_some, add_comm]
    rw [hb]

theorem BForest.locs_cons (b : Option ℚ) (k r : BForest) (t0 : Nat) :
    (BForest.cons b k r).shape.locs (t0 : Int)
      = k.shape.locs t0
        ++ (if k.shape.count = 0 then (t0 : Int) - 1 else (t0 : Int) + k.shape.tips - 2)
          :: r.shape.locs ((t0 + k.shape.treeTips : Nat) : Int) := by
  simp only [BForest.shape, Forest.locs]
  by_cases hk : k.shape.count = 0
  · have hkn : k.shape = Forest.nil := (Forest.count_eq_zero_iff _).mp hk
    simp [hkn, Forest.count, Forest.locs]
  · simp [hk]

theorem BForest.tips_le_treeTips (k : BForest) : k.shape.tips ≤ k.shape.treeTips := by
  unfold Forest.treeTips
  by_cases hk : k.shape.count = 0
  · have hkn : k.shape = Forest.nil := (Forest.count_eq_zero_iff _).mp hk
    simp [hkn, Forest.tips, Forest.count]
  · simp [hk]

theorem BForest.kept_keptIn : ∀ (Q : BForest) (h : ℚ), Q.kept h = true → Q.keptIn = true := by
  intro Q
  induction Q with
  | nil => intro h _; rfl
  | cons b k r _ ihr =>
    intro h hk
    simp only [BForest.kept, Bool.and_eq_true] at hk
    simp only [BForest.keptIn, Bool.and_eq_true]
    exact ⟨hk.1.2, ihr h hk.2⟩

/-- The second loop of `nodes2rep` on the nodes of a forest that does not hold the last
node of the vector, on a phylogram, when it ends: it has filled in `locs`, left in
`branch` of every node its height plus its branch length, and left in the offsets of the
tips of every tree what the nodes of the tree have raised them by. -/
theorem encodeLoop_phylo (fuel nTaxa : Nat) :
    ∀ (P : BForest) (off t0 : Nat) (N ns M : List ParsedTreeNode) (L R : List Int)
      (hs : List ℚ) (th : Option (List ℚ)) (A B : List ℚ) (st2 : EncState),
      IsFlatB P off ns → N.length = off → M ≠ [] → L.length = off →
      P.shape.size ≤ R.length → (off = 0 → t0 = 0) →
      (0 < off → L.getLast? = some ((t0 : Int) - 2)) → A.length = t0 →
      th.getD (List.replicate nTaxa 0) = A ++ List.replicate P.shape.tips 0 ++ B →
      encodeLoop fuel false nTaxa (List.range' off P.shape.size)
          (EncState.mk (N ++ ns ++ M) (L ++ R) off hs th) = Except.ok st2 →
      ∃ ns' R' hs' th',
        st2 = EncState.mk (N ++ ns' ++ M) (L ++ P.shape.locs t0 ++ R') (off + P.shape.size)
          hs' th'
        ∧ IsTopped P off ns' ∧ R'.length + P.shape.size = R.length ∧ hs'.length = hs.length
        ∧ th'.getD (List.replicate nTaxa 0) = A ++ P.inner ++ B
        ∧ (P.keptIn = true → ∀ (A2 B2 : List ℚ), (P.shape.count ≠ 0 → A2.length = t0) →
            hs = A2 ++ List.replicate (P.shape.tips - 1) 0 ++ B2 →
            hs' = A2 ++ P.hts 0 ++ B2) := by
  intro P
  induction P with
  | nil =>
    intro off t0 N ns M L R hs th A B st2 hflat _ _ _ _ _ _ _ hth hrun
    simp only [IsFlatB] at hflat
    subst hflat
    simp only [BForest.shape, Forest.size, List.range'_zero, encodeLoop, Except.ok.injEq] at hrun
    refine ⟨[], R, hs, th, ?_, by simp [IsTopped], by simp [BForest.shape, Forest.size], rfl, ?_,
      ?_⟩
    · rw [← hrun]; simp [BForest.shape, Forest.size, Forest.locs]
    · simpa [BForest.shape, Forest.tips, BForest.inner] using hth
    · intro _ A2 B2 _ hh
      simpa [BForest.shape, Forest.tips, BForest.hts] using hh
  | cons b k r ihk ihr =>
    intro off t0 N ns M L R hs th A B st2 hflat hN hM hL hR h0 hlast hA hth hrun
    simp only [IsFlatB] at hflat
    obtain ⟨ns1, n, ns2, rfl, hk, hsons, hbr, hr⟩ := hflat
    have hlen1 := IsFlatB.length_eqB _ _ _ hk
    have hsz : (BForest.cons b k r).shape.size = k.shape.size + 1 + r.shape.size := rfl
    have htips : (BForest.cons b k r).shape.tips = k.shape.treeTips + r.shape.tips := rfl
    rw [hsz] at hR hrun
    have hktt := BForest.tips_le_treeTips k
    have hrange : List.range' off (k.shape.size + 1 + r.shape.size)
        = List.range' off k.shape.size
          ++ ((off + k.shape.size) :: List.range' (off + k.shape.size + 1) r.shape.size) := by
      rw [show k.shape.size + 1 + r.shape.size = (r.shape.size + 1) + k.shape.size by omega,
        ← List.range'_append_1, List.range'_succ]
    rw [hrange, encodeLoop_append] at hrun
    -- the sons of the node
    have hstart : N ++ (ns1 ++ n :: ns2) ++ M = N ++ ns1 ++ (n :: ns2 ++ M) := by simp
    rw [hstart] at hrun
    cases hrun1 : encodeLoop fuel false nTaxa (List.range' off k.shape.size)
        (EncState.mk (N ++ ns1 ++ (n :: ns2 ++ M)) (L ++ R) off hs th) with
    | error e => rw [hrun1] at hrun; cases hrun
    | ok st1 =>
      rw [hrun1] at hrun
      simp only [encodeLoop] at hrun
      have hth1 : th.getD (List.replicate nTaxa 0)
          = A ++ List.replicate k.shape.tips 0
            ++ (List.replicate (k.shape.treeTips - k.shape.tips) 0
              ++ (List.replicate r.shape.tips 0 ++ B)) := by
        rw [hth, htips]
        simp only [List.append_assoc, List.append_cancel_left_eq]
        rw [← List.append_assoc, ← List.append_assoc, ← List.replicate_add,
          ← List.replicate_add]
        congr 2
        omega
      obtain ⟨ns1', R1, hs1, th1, hst1, htop1, hR1, hhs1, hth1', hk5⟩ :=
        ihk off t0 N ns1 (n :: ns2 ++ M) L R hs th A _ st1 hk hN (by simp) hL (by omega)
          h0 hlast hA hth1 hrun1
      have hlen1' := IsTopped.length_eqT _ _ _ htop1
      have hR1ne : R1 ≠ [] := by
        intro hc; rw [hc] at hR1; simp at hR1; omega
      have hNlen : (N ++ ns1').length = off + k.shape.size := by simp [hN, hlen1']
      have hLlen : (L ++ k.shape.locs (t0 : Int)).length = (N ++ ns1').length := by
        simp [hL, hN, hlen1', Forest.locs_length]
      cases hnode : encodeNode fuel false nTaxa st1 (off + k.shape.size) with
      | error e => rw [hnode] at hrun; cases hrun
      | ok stn =>
        rw [hnode] at hrun
        simp only [] at hrun
        rw [hst1, ← hNlen] at hnode
        have hnodes1 : N ++ ns1' ++ (n :: ns2 ++ M) = (N ++ ns1') ++ n :: (ns2 ++ M) := by simp
        rw [hnodes1] at hnode
        -- the node itself
        obtain ⟨hsn, thn, hstn, hhsn, hthn, hn5⟩ : ∃ hsn thn,
            stn = EncState.mk
              ((N ++ ns1') ++ (ParsedTreeNode.mk n.taxon (some ((if k.shape.count = 0 then 0 else k.hgt) + b.getD 1)) n.sons n.attributes) :: (ns2 ++ M))
              ((L ++ k.shape.locs (t0 : Int))
                ++ (if k.shape.count = 0 then (t0 : Int) - 1
                    else (t0 : Int) + k.shape.tips - 2) :: R1.tail)
              ((N ++ ns1').length + 1) hsn thn
            ∧ hsn.length = hs.length
            ∧ thn.getD (List.replicate nTaxa 0)
                = A ++ (if k.shape.count = 0 then [(0 : ℚ)] else k.raised k.hgt)
                  ++ (List.replicate r.shape.tips 0 ++ B)
            ∧ (k.kept k.hgt = true → ∀ (A2 B3 : List ℚ), A2.length = t0 →
                hs1 = A2 ++ k.hts 0 ++ B3 →
                hsn = A2 ++ (if k.shape.count = 0 then [] else k.hts k.hgt) ++ B3) := by
          by_cases hkc : k.shape.count = 0
          · have hkn : k = BForest.nil := BForest.shape_nil_of_count k hkc
            subst hkn
            have hstep := encodeNode_tip_step fuel false nTaxa (N ++ ns1') (ns2 ++ M) n
              (L ++ BForest.nil.shape.locs (t0 : Int)) R1 hs1 th1 t0 stn
              (by rw [hsons]; rfl) hR1ne
              (fun hz => h0 (by rw [hNlen] at hz; omega))
              (fun hp => by
                have hoff : 0 < off := by
                  rw [hNlen] at hp
                  simpa [BForest.shape, Forest.size] using hp
                simpa [BForest.shape, Forest.locs] using hlast hoff)
              hLlen hnode
            refine ⟨hs1, th1, ?_, hhs1, ?_, ?_⟩
            · rw [hstep, hbr]
              simp [BForest.shape, Forest.count]
            · rw [hth1']
              simp [BForest.shape, Forest.count, Forest.tips, Forest.treeTips, BForest.inner]
            · intro _ A2 B3 _ hh
              simpa [BForest.shape, Forest.count, BForest.hts] using hh
          · have hsne : n.sons ≠ [] := by
              rw [hsons]
              intro hc
              have := congrArg List.length hc
              rw [Forest.roots_length] at this
              exact hkc (by simpa using this)
            have hLl : (L ++ k.shape.locs (t0 : Int)).getLast?
                = some ((t0 : Int) + k.shape.tips - 2) := by
              rw [List.getLast?_append, Forest.locs_getLast _ _ hkc]; rfl
            have hM2 : ns2 ++ M ≠ [] := by
              intro hc
              have := congrArg List.length hc
              have : 0 < M.length := List.length_pos.mpr hM
              simp only [List.length_append, List.length_nil] at *
              omega
            obtain ⟨hh, rr, hs2, hmax, hraise, hstore, hlen2, hstn⟩ := encodeNode_inner_step fuel nTaxa
              (N ++ ns1') (ns2 ++ M) n (L ++ k.shape.locs (t0 : Int)) R1 hs1 th1 _ stn
              hsne hR1ne hM2 hLlen hLl hnode
            have hmax2 := maxBranch_topped k off N ns1' (n :: ns2 ++ M) (-1) htop1 hN
            rw [← hsons, hnodes1, hmax] at hmax2
            simp only [Except.ok.injEq] at hmax2
            have hhh : hh = k.hgt := hmax2
            subst hhh
            have hlaid := laid_of_topped k off t0 N ns1' (n :: ns2 ++ M) L R1 htop1 hN hL
            rw [hnodes1] at hlaid
            rw [hsons] at hraise hstore
            have hth2 : th1.getD (List.replicate nTaxa 0)
                = A ++ k.inner ++ (List.replicate r.shape.tips 0 ++ B) := by
              rw [hth1']
              have : k.shape.treeTips - k.shape.tips = 0 := by
                simp [Forest.treeTips, hkc]
              rw [this]
              simp
            obtain ⟨_, q2⟩ := raiseSons_forest fuel nTaxa _ _ k.hgt k off t0 hs1 th1 A _ rr
              hlaid hA hth2 hraise
            refine ⟨hs2, rr.2, ?_, by rw [hlen2, hhs1], ?_, ?_⟩
            · rw [hstn, hbr]
              simp [hkc]
            · rw [q2]
              simp [hkc]
            · intro hkk A2 B3 hA2 hh
              have hrr := raiseSons_kept fuel nTaxa _ _ k.hgt k off t0 hs1 th1 rr hlaid hkk
                hraise
              rw [hrr, hh, storeHeight_bforest k off t0 L R1 A2 B3 0 k.hgt hL hA2] at hstore
              simp only [Except.ok.injEq] at hstore
              rw [← hstore, if_neg hkc]
        rw [hstn] at hrun
        -- the trees to the right
        have hR1tail : R1.tail.length + 1 = R1.length := by
          cases R1 with
          | nil => exact absurd rfl hR1ne
          | cons x R1 => simp
        have hone : (if k.shape.count = 0 then [(0 : ℚ)] else k.raised k.hgt).length
            = k.shape.treeTips := by
          by_cases hkc : k.shape.count = 0
          · simp [hkc, Forest.treeTips]
          · simp [hkc, Forest.treeTips, BForest.raised_length]
        have hTLlast : ((L ++ k.shape.locs (t0 : Int))
            ++ [if k.shape.count = 0 then (t0 : Int) - 1
                else (t0 : Int) + k.shape.tips - 2]).getLast?
              = some (((t0 + k.shape.treeTips : Nat) : Int) - 2) := by
          rw [List.getLast?_append]
          by_cases hkc : k.shape.count = 0
          · simp [hkc, Forest.treeTips]; omega
          · simp [hkc, Forest.treeTips]
        have hmid : EncState.mk
              ((N ++ ns1') ++ (ParsedTreeNode.mk n.taxon (some ((if k.shape.count = 0 then 0 else k.hgt) + b.getD 1)) n.sons n.attributes) :: (ns2 ++ M))
              ((L ++ k.shape.locs (t0 : Int))
                ++ (if k.shape.count = 0 then (t0 : Int) - 1
                    else (t0 : Int) + k.shape.tips - 2) :: R1.tail)
              ((N ++ ns1').length + 1) hsn thn
            = EncState.mk
              ((N ++ ns1' ++ [(ParsedTreeNode.mk n.taxon (some ((if k.shape.count = 0 then 0 else k.hgt) + b.getD 1)) n.sons n.attributes)]) ++ ns2 ++ M)
              (((L ++ k.shape.locs (t0 : Int))
                ++ [if k.shape.count = 0 then (t0 : Int) - 1
                    else (t0 : Int) + k.shape.tips - 2]) ++ R1.tail)
              (off + k.shape.size + 1) hsn thn := by
          rw [hNlen]; simp
        rw [hmid] at hrun
        obtain ⟨ns2', R2, hs3, th3, hst2, htop2, hR2, hhs3, hth3, hr5⟩ :=
          ihr (off + k.shape.size + 1) (t0 + k.shape.treeTips)
            (N ++ ns1' ++ [(ParsedTreeNode.mk n.taxon (some ((if k.shape.count = 0 then 0 else k.hgt) + b.getD 1)) n.sons n.attributes)])
            ns2 M _ R1.tail hsn thn
            (A ++ (if k.shape.count = 0 then [(0 : ℚ)] else k.raised k.hgt)) B st2
            hr (by simp [hN, hlen1']; omega) hM
            (by simp [hL, Forest.locs_length]; omega) (by omega)
            (fun hz => by omega)
            (fun _ => hTLlast)
            (by simp [hA, hone])
            (by rw [hthn]; simp)
            hrun
        refine ⟨ns1' ++ (ParsedTreeNode.mk n.taxon (some ((if k.shape.count = 0 then 0 else k.hgt) + b.getD 1)) n.sons n.attributes) :: ns2', R2, hs3, th3,
          ?_, ?_, by omega, by rw [hhs3, hhsn], ?_, ?_⟩
        · rw [hst2, BForest.locs_cons]
          simp [hsz, Nat.add_assoc]
        · simp only [IsTopped]
          exact ⟨ns1', _, ns2', rfl, htop1, hsons, rfl, htop2⟩
        · rw [hth3, BForest.inner_cons]
          simp
        · intro hkin A2 B2 hA2 hhs
          simp only [BForest.keptIn, Bool.and_eq_true] at hkin
          obtain ⟨hkk, hrin⟩ := hkin
          have hA2' : A2.length = t0 := hA2 (by simp [BForest.shape, Forest.count])
          have hZ : List.replicate ((BForest.cons b k r).shape.tips - 1) (0 : ℚ)
              = List.replicate (k.shape.tips - 1) 0
                ++ ((if r.shape.count = 0 then [] else [(0 : ℚ)])
                  ++ List.replicate (r.shape.tips - 1) 0) := by
            rw [htips]
            have hkp := Forest.treeTips_pos k.shape
            have hks := Forest.treeTips_sub k.shape
            by_cases hrc : r.shape.count = 0
            · have : r.shape = Forest.nil := (Forest.count_eq_zero_iff _).mp hrc
              simp [this, Forest.tips, Forest.count, hks]
            · have := Forest.tips_pos _ hrc
              simp only [if_neg hrc]
              have e1 : ([0] : List ℚ) = List.replicate 1 0 := rfl
              rw [e1, ← List.replicate_add, ← List.replicate_add]
              congr 1
              omega
          have h1 := hk5 (BForest.kept_keptIn k _ hkk) A2
            (((if r.shape.count = 0 then [] else [(0 : ℚ)])
              ++ List.replicate (r.shape.tips - 1) 0) ++ B2) (fun _ => hA2')
            (by rw [hhs, hZ]; simp)
          have h2 := hn5 hkk A2 _ hA2' h1
          have hXlen : (if k.shape.count = 0 then ([] : List ℚ) else k.hts k.hgt).length + 1
              = k.shape.treeTips := by
            by_cases hkc : k.shape.count = 0
            · simp [hkc, Forest.treeTips]
            · have := Forest.tips_pos _ hkc
              simp only [if_neg hkc, Forest.treeTips, BForest.bhts_length]
              omega
          have h3 := hr5 hrin
            (A2 ++ (if k.shape.count = 0 then [] else k.hts k.hgt)
              ++ (if r.shape.count = 0 then [] else [(0 : ℚ)])) B2
            (fun hrc => by simp [hrc, hA2']; omega)
            (by rw [h2]; simp)
          rw [h3]
          conv => rhs; rw [BForest.hts]
          by_cases hrc : r.shape.count = 0
          · have hrn : r = BForest.nil := BForest.shape_nil_of_count r hrc
            subst hrn
            simp [BForest.shape, Forest.count, BForest.hts]
          · simp [hrc]

end Biopy

namespace Biopy

theorem foldl_maxq (l : List ℚ) : ∀ (h0 : ℚ),
    h0 ≤ l.foldl (fun h t => max t h) h0
      ∧ (∀ t ∈ l, t ≤ l.foldl (fun h t => max t h) h0)
      ∧ (l.foldl (fun h t => max t h) h0 = h0 ∨ l.foldl (fun h t => max t h) h0 ∈ l) := by
  induction l with
  | nil => intro h0; simp
  | cons x l ih =>
    intro h0
    simp only [List.foldl_cons, List.mem_cons]
    obtain ⟨h1, h2, h3⟩ := ih (max x h0)
    refine ⟨le_trans (le_max_right x h0) h1, ?_, ?_⟩
    · intro t ht
      rcases ht with ht | ht
      · rw [ht]; exact le_trans (le_max_left x h0) h1
      · exact h2 t ht
    · rcases h3 with h3 | h3
      · rw [h3]
        rcases le_total x h0 with hx | hx
        · left; exact max_eq_right hx
        · right; left; exact max_eq_left hx
      · right; right; exact h3

theorem raiseBy_exact (h t : ℚ) (hsep : h - t = 0 ∨ epsilon ≤ h - t) : raiseBy h t = h - t := by
  unfold raiseBy
  have heps : (0 : ℚ) < epsilon := by unfold epsilon; norm_num
  rcases hsep with h0 | h1
  · have : ¬ (h - t > 0 ∧ areSame h t = false) := by
      intro hc
      have := hc.1
      rw [h0] at this
      exact lt_irrefl _ this
    rw [if_neg this, h0]
  · have hpos : h - t > 0 := lt_of_lt_of_le heps h1
    have hns : areSame h t = false := by
      unfold areSame
      rw [decide_eq_false_iff_not, abs_of_pos hpos]
      exact not_lt.mpr h1
    rw [if_pos ⟨hpos, hns⟩]

theorem BForest.depths_base : ∀ (Q : BForest) (base : ℚ),
    Q.depths base = (Q.depths 0).map (fun d => base + d) := by
  intro Q
  induction Q with
  | nil => intro base; rfl
  | cons b k r ihk ihr =>
    intro base
    simp only [BForest.depths, List.map_append]
    rw [ihr base]
    by_cases hk : k.shape.count = 0
    · simp [hk]
    · simp only [if_neg hk]
      rw [ihk (base + b.getD 1), ihk (0 + b.getD 1), List.map_map]
      congr 1
      apply List.map_congr_left
      intro d _
      simp only [Function.comp]
      ring

theorem BForest.tops_length : ∀ (Q : BForest), Q.tops.length = Q.shape.count := by
  intro Q
  induction Q with
  | nil => rfl
  | cons b k r _ ihr => simp [BForest.tops, BForest.shape, Forest.count, ihr]

theorem getD_one_nonneg (b : Option ℚ) (h : 0 ≤ b.getD 0) : 0 ≤ b.getD 1 := by
  cases b with
  | none => simp
  | some x => simpa using h

/-- With no negative branch length, what the encoder leaves in the root of a tree is the
largest distance from the node above the tree to a tip of the tree. -/
theorem BForest.tops_depths : ∀ (Q : BForest), Q.NonNeg →
    (∀ t ∈ Q.tops, 0 ≤ t ∧ t ∈ Q.depths 0) ∧ (∀ d ∈ Q.depths 0, ∃ t ∈ Q.tops, d ≤ t) := by
  intro Q
  induction Q with
  | nil => intro _; simp [BForest.tops, BForest.depths]
  | cons b k r ihk ihr =>
    intro hnn
    obtain ⟨hb, hnk, hnr⟩ := hnn
    have hb1 := getD_one_nonneg b hb
    obtain ⟨r1, r2⟩ := ihr hnr
    have hfirst : 0 ≤ (if k.shape.count = 0 then 0 else k.tops.foldl (fun h t => max t h) (-1))
          + b.getD 1
        ∧ ((if k.shape.count = 0 then 0 else k.tops.foldl (fun h t => max t h) (-1))
            + b.getD 1)
          ∈ (if k.shape.count = 0 then [0 + b.getD 1] else k.depths (0 + b.getD 1))
        ∧ ∀ d ∈ (if k.shape.count = 0 then [0 + b.getD 1] else k.depths (0 + b.getD 1)),
            d ≤ (if k.shape.count = 0 then 0 else k.tops.foldl (fun h t => max t h) (-1))
              + b.getD 1 := by
      by_cases hk : k.shape.count = 0
      · simp only [if_pos hk]
        refine ⟨by linarith, by simp, fun d hd => ?_⟩
        simp only [List.mem_singleton] at hd
        rw [hd]
      · simp only [if_neg hk]
        obtain ⟨k1, k2⟩ := ihk hnk
        obtain ⟨f1, f2, f3⟩ := foldl_maxq k.tops (-1)
        have hne : k.tops ≠ [] := by
          intro hc
          have := congrArg List.length hc
          rw [BForest.tops_length] at this
          exact hk (by simpa using this)
        obtain ⟨t0, ht0⟩ := List.exists_mem_of_ne_nil _ hne
        have hm0 : 0 ≤ k.tops.foldl (fun h t => max t h) (-1) :=
          le_trans (k1 t0 ht0).1 (f2 t0 ht0)
        have hmem : k.tops.foldl (fun h t => max t h) (-1) ∈ k.tops := by
          rcases f3 with f3 | f3
          · rw [f3] at hm0
            norm_num at hm0
          · exact f3
        refine ⟨by linarith, ?_, ?_⟩
        · rw [BForest.depths_base]
          simp only [List.mem_map]
          exact ⟨_, (k1 _ hmem).2, by ring⟩
        · intro d hd
          rw [BForest.depths_base] at hd
          simp only [List.mem_map] at hd
          obtain ⟨d', hd', rfl⟩ := hd
          obtain ⟨t, ht, hle⟩ := k2 d' hd'
          have := f2 t ht
          linarith
    obtain ⟨g1, g2, g3⟩ := hfirst
    constructor
    · intro t ht
      simp only [BForest.tops, List.mem_cons] at ht
      simp only [BForest.depths, List.mem_append]
      rcases ht with ht | ht
      · rw [ht]; exact ⟨g1, Or.inl g2⟩
      · exact ⟨(r1 t ht).1, Or.inr (r1 t ht).2⟩
    · intro d hd
      simp only [BForest.depths, List.mem_append] at hd
      simp only [BForest.tops, List.mem_cons]
      rcases hd with hd | hd
      · exact ⟨_, Or.inl rfl, g3 d hd⟩
      · obtain ⟨t, ht, hle⟩ := r2 d hd
        exact ⟨t, Or.inr ht, hle⟩

/-- With no negative branch length, the height the encoder finds for a node with sons is
the largest distance from the node to a tip below it. -/
theorem BForest.hgt_max (k : BForest) (hnn : k.NonNeg) (hk : k.shape.count ≠ 0) :
    k.hgt ∈ k.depths 0 ∧ ∀ d ∈ k.depths 0, d ≤ k.hgt := by
  obtain ⟨k1, k2⟩ := BForest.tops_depths k hnn
  obtain ⟨f1, f2, f3⟩ := foldl_maxq k.tops (-1)
  have hne : k.tops ≠ [] := by
    intro hc
    have := congrArg List.length hc
    rw [BForest.tops_length] at this
    exact hk (by simpa using this)
  obtain ⟨t0, ht0⟩ := List.exists_mem_of_ne_nil _ hne
  have hm0 : 0 ≤ k.tops.foldl (fun h t => max t h) (-1) :=
    le_trans (k1 t0 ht0).1 (f2 t0 ht0)
  have hmem : k.tops.foldl (fun h t => max t h) (-1) ∈ k.tops := by
    rcases f3 with f3 | f3
    · rw [f3] at hm0
      norm_num at hm0
    · exact f3
  unfold BForest.hgt
  refine ⟨(k1 _ hmem).2, ?_⟩
  intro d hd
  obtain ⟨t, ht, hle⟩ := k2 d hd
  exact le_trans hle (f2 t ht)

/-- With no negative branch length and sons either level with the node above them or
below it by machine epsilon at least, the offsets of the tips after the node of height
`h` has raised its sons are `h` minus the distance from the node to the tip. -/
theorem BForest.raised_eq : ∀ (Q : BForest) (h : ℚ), Q.NonNeg → Q.separated = true →
    (∀ t ∈ Q.tops, h - t = 0 ∨ epsilon ≤ h - t) →
    Q.raised h = (Q.depths 0).map (fun d => h - d) := by
  intro Q
  induction Q with
  | nil => intro h _ _ _; rfl
  | cons b k r ihk ihr =>
    intro h hnn hsep hall
    obtain ⟨_, hnk, hnr⟩ := hnn
    simp only [BForest.separated, Bool.and_eq_true, List.all_eq_true, decide_eq_true_eq] at hsep
    obtain ⟨⟨hallk, hsk⟩, hsr⟩ := hsep
    have htop := hall ((if k.shape.count = 0 then 0 else k.hgt) + b.getD 1)
      (by simp [BForest.tops, BForest.hgt])
    rw [BForest.raised_cons, raiseBy_exact _ _ htop,
      ihr h hnr hsr (fun t ht => hall t (by simp [BForest.tops, ht]))]
    simp only [BForest.depths, List.map_append]
    congr 1
    by_cases hk : k.shape.count = 0
    · simp [hk]
    · simp only [if_neg hk]
      rw [ihk k.hgt hnk hsk hallk, BForest.depths_base k (0 + b.getD 1), List.map_map,
        List.map_map]
      apply List.map_congr_left
      intro d _
      simp only [Function.comp]
      ring

theorem BForest.depths_length : ∀ (Q : BForest) (base : ℚ),
    (Q.depths base).length = Q.shape.tips := by
  intro Q
  induction Q with
  | nil => intro base; rfl
  | cons b k r ihk ihr =>
    intro base
    simp only [BForest.depths, BForest.shape, Forest.tips, List.length_append, ihr]
    by_cases hk : k.shape.count = 0
    · simp [hk]
    · simp [hk, ihk]

theorem IsFlatB.leaves : ∀ (P : BForest) (off : Nat) (ns : List ParsedTreeNode),
    IsFlatB P off ns → (ns.filter (fun n => n.sons.length = 0)).length = P.shape.tips := by
  intro P
  induction P with
  | nil => intro off ns h; simp only [IsFlatB] at h; subst h; rfl
  | cons b k r ihk ihr =>
    intro off ns h
    simp only [IsFlatB] at h
    obtain ⟨ns1, n, ns2, rfl, h1, hsons, _, h2⟩ := h
    have e : ns1 ++ n :: ns2 = ns1 ++ ([n] ++ ns2) := by simp
    rw [e, List.filter_append, List.filter_append, List.length_append, List.length_append,
      ihk _ _ h1, ihr _ _ h2]
    simp only [BForest.shape, Forest.tips]
    have hlen : n.sons.length = k.shape.count := by rw [hsons, Forest.roots_length]
    by_cases hk : k.shape.count = 0
    · have hkn : k.shape = Forest.nil := (Forest.count_eq_zero_iff _).mp hk
      have hs : n.sons = [] := List.length_eq_zero.mp (hlen.trans hk)
      simp [hs, hkn, Forest.tips, Forest.count]
    · have hs : ¬ n.sons = [] := fun hc => hk (by rw [← hlen, hc]; rfl)
      simp [hk, hs]

theorem IsFlatB.nonneg : ∀ (P : BForest) (off : Nat) (ns : List ParsedTreeNode),
    IsFlatB P off ns → (∀ n ∈ ns, 0 ≤ n.branch.getD 0) → P.NonNeg := by
  intro P
  induction P with
  | nil => intro off ns _ _; trivial
  | cons b k r ihk ihr =>
    intro off ns h hs
    simp only [IsFlatB] at h
    obtain ⟨ns1, n, ns2, rfl, h1, _, hbr, h2⟩ := h
    refine ⟨?_, ihk _ _ h1 (fun x hx => hs x (by simp [hx])),
      ihr _ _ h2 (fun x hx => hs x (by simp [hx]))⟩
    rw [← hbr]
    exact hs n (by simp)

end Biopy

namespace Biopy

/-- The second loop of `nodes2rep` on the post-order layout of one tree with branch
lengths, when it ends: the offsets of the tips are what the nodes above them have raised
them by. -/
theorem encodeLoop_phylo_root (fuel nTaxa : Nat) (b : Option ℚ) (k : BForest)
    (nodes : List ParsedTreeNode) (st : EncState)
    (hflat : IsFlatB (BForest.cons b k BForest.nil) 0 nodes) (hn : nTaxa = k.shape.treeTips)
    (hrun : encodeLoop fuel false nTaxa (List.range nodes.length) (encStart nodes nTaxa)
      = Except.ok st) :
    st.taxaHeights.getD (List.replicate nTaxa 0)
        = (if k.shape.count = 0 then [0] else k.raised k.hgt)
      ∧ (k.kept k.hgt = true →
          st.heights = if k.shape.count = 0 then [] else k.hts k.hgt) := by
  simp only [IsFlatB] at hflat
  obtain ⟨ns1, n, ns2, rfl, hk, hsons, _, hr⟩ := hflat
  subst hr
  have hlen1 := IsFlatB.length_eqB _ _ _ hk
  by_cases hkc : k.shape.count = 0
  · have hkn : k = BForest.nil := BForest.shape_nil_of_count k hkc
    subst hkn
    simp only [IsFlatB] at hk
    subst hk
    simp only [List.nil_append, List.length_singleton, List.range_succ, List.range_zero,
      encodeLoop] at hrun
    cases hnode : encodeNode fuel false nTaxa (encStart [n] nTaxa) 0 with
    | error e => rw [hnode] at hrun; cases hrun
    | ok stn =>
      rw [hnode] at hrun
      simp only [Except.ok.injEq] at hrun
      subst hrun
      obtain ⟨_, h2⟩ := encodeNode_tip_inv fuel false nTaxa (encStart [n] nTaxa) stn 0 n rfl
        (by rw [hsons]; rfl) hnode
      rw [h2, hn]
      simp [encStart, BForest.shape, Forest.treeTips, Forest.count]
  · have hsz : (ns1 ++ [n]).length = k.shape.size + 1 := by simp [hlen1]
    rw [hsz, List.range_eq_range', show k.shape.size + 1 = 1 + k.shape.size by omega,
      ← List.range'_append_1, encodeLoop_append] at hrun
    have htt : k.shape.treeTips = k.shape.tips := by simp [Forest.treeTips, hkc]
    have hstart : encStart (ns1 ++ [n]) nTaxa
        = EncState.mk ([] ++ ns1 ++ [n]) ([] ++ List.replicate (k.shape.size + 1) 0) 0
            (List.replicate (nTaxa - 1) 0) none := by
      simp [encStart, hlen1]
    rw [hstart] at hrun
    cases hrun1 : encodeLoop fuel false nTaxa (List.range' 0 k.shape.size)
        (EncState.mk ([] ++ ns1 ++ [n]) ([] ++ List.replicate (k.shape.size + 1) 0) 0
          (List.replicate (nTaxa - 1) 0) none) with
    | error e => rw [hrun1] at hrun; cases hrun
    | ok st1 =>
      rw [hrun1] at hrun
      simp only [Nat.zero_add, List.range'_one, encodeLoop] at hrun
      obtain ⟨ns1', R1, hs1, th1, hst1, htop1, hR1, _, hth1, hk5⟩ :=
        encodeLoop_phylo fuel nTaxa k 0 0 [] ns1 [n] [] (List.replicate (k.shape.size + 1) 0)
          (List.replicate (nTaxa - 1) 0) none [] [] st1 hk rfl (by simp) rfl (by simp)
          (fun _ => rfl) (fun h => absurd h (by omega)) rfl
          (by simp [hn, htt]) hrun1
      have hlen1' := IsTopped.length_eqT _ _ _ htop1
      cases hnode : encodeNode fuel false nTaxa st1 k.shape.size with
      | error e => rw [hnode] at hrun; cases hrun
      | ok stn =>
        rw [hnode] at hrun
        simp only [Except.ok.injEq] at hrun
        subst hrun
        have hget : st1.nodes.get? k.shape.size = some n := by
          rw [hst1]
          simp only [List.nil_append]
          rw [← hlen1']
          exact get?_append_mid ns1' [] n
        have hs0 : ¬ n.sons.length = 0 := by
          rw [hsons, Forest.roots_length]; exact hkc
        obtain ⟨hh, rr, hs2, hmax, hraise, hstore, _, _, hstn⟩ :=
          encodeNode_inner_inv fuel nTaxa st1 stn k.shape.size n hget hs0 hnode
        rw [hst1] at hmax hraise hstore
        simp only [] at hmax hraise hstore
        have hmax2 := maxBranch_topped k 0 [] ns1' [n] (-1) htop1 rfl
        rw [← hsons, hmax] at hmax2
        simp only [Except.ok.injEq] at hmax2
        have hhh : hh = k.hgt := hmax2
        subst hhh
        have hlaid := laid_of_topped k 0 0 [] ns1' [n] [] R1 htop1 rfl rfl
        rw [hsons] at hraise hstore
        obtain ⟨_, q2⟩ := raiseSons_forest fuel nTaxa _ _ k.hgt k 0 0 hs1 th1 [] [] rr
          hlaid rfl hth1 hraise
        rw [hstn]
        simp only [if_neg hkc]
        constructor
        · rw [q2]
          simp
        · intro hkk
          have hrr := raiseSons_kept fuel nTaxa _ _ k.hgt k 0 0 hs1 th1 rr hlaid hkk hraise
          have h1 := hk5 (BForest.kept_keptIn k _ hkk) [] [] (fun _ => rfl)
            (by simp [hn, htt])
          rw [hrr, h1] at hstore
          have h2 := storeHeight_bforest k 0 0 [] R1 [] [] 0 k.hgt rfl rfl
          simp only [List.nil_append, List.append_nil] at h2 hstore
          rw [h2] at hstore
          simp only [Except.ok.injEq] at hstore
          exact hstore.symm

theorem getD_of_optional (th : Option (List ℚ)) (n : Nat) (X : List ℚ)
    (h : th.getD (List.replicate n 0) = X) (t : Nat) :
    (th.getD []).getD t 0 = X.getD t 0 := by
  cases th with
  | none =>
    simp only [Option.getD_none] at h
    rw [← h]
    simp only [List.getD_eq_getElem?_getD, List.getElem?_nil, Option.getD_none]
    by_cases ht : t < n
    · simp [List.getElem?_replicate, ht]
    · simp [List.getElem?_replicate, ht]
  | some v =>
    simp only [Option.getD_some] at h
    rw [← h]
    rfl

theorem getD_map_sub (D : List ℚ) (L : ℚ) (t : Nat) (ht : t < D.length) :
    (D.map (fun d => L - d)).getD t 0 = L - D.getD t 0 := by
  simp only [List.getD_eq_getElem?_getD, List.getElem?_map,
    List.getElem?_eq_getElem ht, Option.map_some', Option.getD_some]

/-- What `nodes2rep` stores as the offsets of the tips of a phylogram with no negative
branch length, in which the sons of every node are level with the node or below it by
machine epsilon at least. -/
theorem nodes2rep_tip_offsets (ts : TreesSet) (fuel : Nat) (nodes : List ParsedTreeNode)
    (rep : TreeRep) (b : Option ℚ) (k : BForest)
    (hrep : (ts.nodes2rep fuel nodes).2 = Except.ok rep)
    (hflat : IsFlatB (BForest.cons b k BForest.nil) 0 nodes)
    (hph : nodes.all (fun n => n.branch.isNone) = false)
    (hnn : ∀ n ∈ nodes, 0 ≤ n.branch.getD 0)
    (hsep : (BForest.cons b k BForest.nil).separated = true) :
    rep.isCladogram = false
      ∧ ∃ L, L ∈ (BForest.cons b k BForest.nil).tipDepths
        ∧ (∀ d ∈ (BForest.cons b k BForest.nil).tipDepths, d ≤ L)
        ∧ ∀ t, t < (BForest.cons b k BForest.nil).tipDepths.length →
            rep.getHeights.2.getD t 0
              = L - (BForest.cons b k BForest.nil).tipDepths.getD t 0 := by
  obtain ⟨_, st, henc, _, _, hphy⟩ := nodes2rep_ok_inv ts fuel nodes rep hrep
  have hfl := (scan_flags nodes (ScanState.mk ts [] true false 0)).1
  have hc : (scanAll ts nodes).cladogram = false := by
    unfold scanAll
    rw [hfl, hph]
    rfl
  have hheights := hphy hc
  obtain ⟨_, h2, _, _, _⟩ := scan_foldl nodes (ScanState.mk ts [] true false 0)
  simp only [List.nil_append] at h2
  have e2 : (scanAll ts nodes).taxa = (internAll ts (leafLabels nodes)).2 := h2
  have hn : (scanAll ts nodes).taxa.length = k.shape.treeTips := by
    rw [e2, internAll_ids_length]
    unfold leafLabels
    rw [List.length_map, IsFlatB.leaves _ _ _ hflat]
    simp [BForest.shape, Forest.tips, Forest.treeTips]
  rw [hc] at henc
  have hth := (encodeLoop_phylo_root fuel _ b k nodes st hflat hn henc).1
  have hcl : rep.isCladogram = false := by
    unfold TreeRep.isCladogram
    rw [hheights]
  have hg2 : rep.getHeights.2 = st.taxaHeights.getD [] := by
    unfold TreeRep.getHeights
    rw [hheights]
  refine ⟨hcl, ?_⟩
  by_cases hkc : k.shape.count = 0
  · rw [if_pos hkc] at hth
    refine ⟨0, by simp [BForest.tipDepths, hkc], ?_, ?_⟩
    · intro d hd
      simp only [BForest.tipDepths, if_pos hkc, List.mem_singleton] at hd
      rw [hd]
    · intro t ht
      rw [hg2, getD_of_optional _ _ _ hth t]
      simp only [BForest.tipDepths, if_pos hkc, List.length_singleton] at ht ⊢
      have : t = 0 := by omega
      subst this
      simp
  · rw [if_neg hkc] at hth
    obtain ⟨_, hnk, _⟩ := IsFlatB.nonneg _ _ _ hflat hnn
    have hsep2 := hsep
    simp only [BForest.separated, Bool.and_eq_true, List.all_eq_true, decide_eq_true_eq]
      at hsep2
    obtain ⟨⟨hallk, hsk⟩, _⟩ := hsep2
    rw [BForest.raised_eq k k.hgt hnk hsk hallk] at hth
    obtain ⟨m1, m2⟩ := BForest.hgt_max k hnk hkc
    refine ⟨k.hgt, by simpa [BForest.tipDepths, hkc] using m1, ?_, ?_⟩
    · intro d hd
      simp only [BForest.tipDepths, if_neg hkc] at hd
      exact m2 d hd
    · intro t ht
      simp only [BForest.tipDepths, if_neg hkc] at ht ⊢
      rw [hg2, getD_of_optional _ _ _ hth t, getD_map_sub _ _ _ ht]

/-- C17 (amended): for every phylogram with no negative branch length that `add` accepts
into a set that keeps representations, and every tip `t`, the stored offset of the tip
(0 when no vector of offsets is stored) is `L - d(t)`, where `d(t)` is the sum of the
branch lengths on the way from the root to `t` (a missing branch length counted as 1) and
`L` is the largest `d` over the tips. Arithmetic is exact, and under every node the
sons are level with the node or below it by machine epsilon at least. -/
theorem tip_offsets_nonneg (strtod : Str → ℚ × Nat) (fuel : Nat) (ts ts1 : TreesSet)
    (txt : Str) (kwds : Option Attributes) (i nc : Nat) (nodes : List ParsedTreeNode)
    (b : Option ℚ) (k : BForest)
    (hr : readSubTree strtod fuel txt [] = ParseResult.ok nc nodes)
    (hadd : ts.add strtod fuel txt kwds = (ts1, AddResult.added i))
    (hstore : ts.store = false)
    (hflat : IsFlatB (BForest.cons b k BForest.nil) 0 nodes)
    (hph : nodes.all (fun n => n.branch.isNone) = false)
    (hnn : ∀ n ∈ nodes, 0 ≤ n.branch.getD 0)
    (hsep : (BForest.cons b k BForest.nil).separated = true) :
    ∃ rep L, ts1.trees.get? i = some rep ∧ rep.isCladogram = false
      ∧ (BForest.cons b k BForest.nil).tipDepths.length
          = (nodes.filter (fun n => n.sons.length = 0)).length
      ∧ L ∈ (BForest.cons b k BForest.nil).tipDepths
      ∧ (∀ d ∈ (BForest.cons b k BForest.nil).tipDepths, d ≤ L)
      ∧ ∀ t, t < (BForest.cons b k BForest.nil).tipDepths.length →
          rep.getHeights.2.getD t 0
            = L - (BForest.cons b k BForest.nil).tipDepths.getD t 0 := by
  obtain ⟨rep, hrep, _, _, hget⟩ := add_stored strtod fuel ts ts1 txt kwds i nc nodes hr hadd hstore
  obtain ⟨hcl, L, h1, h2, h3⟩ := nodes2rep_tip_offsets _ fuel nodes rep b k hrep hflat hph hnn hsep
  refine ⟨rep, L, hget, hcl, ?_, h1, h2, h3⟩
  rw [IsFlatB.leaves _ _ _ hflat]
  simp only [BForest.tipDepths, BForest.shape, Forest.tips]
  by_cases hkc : k.shape.count = 0
  · simp [hkc]
  · simp [hkc, BForest.depths_length]

theorem isFlatB_of_isFlat : ∀ (F : Forest) (off : Nat) (ns : List ParsedTreeNode),
    IsFlat F off ns →
    ∃ P, IsFlatB P off ns ∧ P.shape.size = F.size ∧ P.shape.count = F.count
      ∧ ∀ o, P.shape.roots o = F.roots o := by
  intro F
  induction F with
  | nil =>
    intro off ns h
    simp only [IsFlat] at h
    exact ⟨BForest.nil, by simpa [IsFlatB] using h, rfl, rfl, fun _ => rfl⟩
  | cons l k r ihk ihr =>
    intro off ns h
    simp only [IsFlat] at h
    obtain ⟨ns1, n, ns2, rfl, h1, hsons, _, h2⟩ := h
    obtain ⟨Pk, pk1, pk2, pk3, pk4⟩ := ihk _ _ h1
    obtain ⟨Pr, pr1, pr2, pr3, pr4⟩ := ihr _ _ h2
    refine ⟨BForest.cons n.branch Pk Pr, ?_, ?_, ?_, ?_⟩
    · simp only [IsFlatB]
      refine ⟨ns1, n, ns2, rfl, pk1, ?_, rfl, ?_⟩
      · rw [hsons, pk4]
      · rw [pk2]; exact pr1
    · simp only [BForest.shape, Forest.size, pk2, pr2]
    · simp only [BForest.shape, Forest.count, pr3]
    · intro o
      simp only [BForest.shape, Forest.roots, pk2, pr4]

/-- Every vector of nodes the parser returns is the post-order layout of one tree with
branch lengths. -/
theorem readSubTree_flatB (strtod : Str → ℚ × Nat) (fuel : Nat) (txt : Str) (nc : Nat)
    (nodes : List ParsedTreeNode)
    (hr : readSubTree strtod fuel txt [] = ParseResult.ok nc nodes) :
    ∃ b k, IsFlatB (BForest.cons b k BForest.nil) 0 nodes := by
  obtain ⟨l, k, ns, hns, hflat⟩ := readSubTree_flat strtod fuel txt [] nc nodes hr
  simp only [List.nil_append, List.length_nil] at hns hflat
  subst hns
  obtain ⟨P, p1, _, p3, _⟩ := isFlatB_of_isFlat _ _ _ hflat
  cases P with
  | nil => simp [BForest.shape, Forest.count] at p3
  | cons b k2 r2 =>
    have hr2 : r2 = BForest.nil := by
      apply BForest.shape_nil_of_count
      simpa [BForest.shape, Forest.count] using p3
    subst hr2
    exact ⟨b, k2, p1⟩

/-- The nodes of `(A:1,(B:2,C:3):1)` are the post-order layout of the tree with these
branch lengths. -/
theorem flat_three_tips :
    IsFlatB (BForest.cons none
        (BForest.cons (some 1) BForest.nil
          (BForest.cons (some 1)
            (BForest.cons (some 2) BForest.nil (BForest.cons (some 3) BForest.nil BForest.nil))
            BForest.nil))
        BForest.nil) 0
      [ParsedTreeNode.mk ['A'] (some 1) [] none,
        ParsedTreeNode.mk ['B'] (some 2) [] none, ParsedTreeNode.mk ['C'] (some 3) [] none,
        ParsedTreeNode.mk [] (some 1) [1, 2] none, ParsedTreeNode.mk [] none [0, 3] none] := by
  simp only [IsFlatB]
  exact ⟨[ParsedTreeNode.mk ['A'] (some 1) [] none,
      ParsedTreeNode.mk ['B'] (some 2) [] none, ParsedTreeNode.mk ['C'] (some 3) [] none,
      ParsedTreeNode.mk [] (some 1) [1, 2] none], ParsedTreeNode.mk [] none [0, 3] none, [],
    rfl,
    ⟨[], ParsedTreeNode.mk ['A'] (some 1) [] none,
      [ParsedTreeNode.mk ['B'] (some 2) [] none, ParsedTreeNode.mk ['C'] (some 3) [] none,
        ParsedTreeNode.mk [] (some 1) [1, 2] none], rfl, rfl, rfl, rfl,
      ⟨[ParsedTreeNode.mk ['B'] (some 2) [] none, ParsedTreeNode.mk ['C'] (some 3) [] none],
        ParsedTreeNode.mk [] (some 1) [1, 2] none, [], rfl,
        ⟨[], ParsedTreeNode.mk ['B'] (some 2) [] none,
          [ParsedTreeNode.mk ['C'] (some 3) [] none], rfl, rfl, rfl, rfl,
          ⟨[], ParsedTreeNode.mk ['C'] (some 3) [] none, [], rfl, rfl, rfl, rfl, rfl⟩⟩,
        rfl, rfl, rfl⟩⟩,
    rfl, rfl, rfl⟩

theorem tip_offsets_nonneg_witness :
    readSubTree strtodDigits 9 "(A:1,(B:2,C:3):1)".toList [] =
        ParseResult.ok 17 [ParsedTreeNode.mk ['A'] (some 1) [] none,
          ParsedTreeNode.mk ['B'] (some 2) [] none, ParsedTreeNode.mk ['C'] (some 3) [] none,
          ParsedTreeNode.mk [] (some 1) [1, 2] none, ParsedTreeNode.mk [] none [0, 3] none]
      ∧ (BForest.cons none
          (BForest.cons (some 1) BForest.nil
            (BForest.cons (some 1)
              (BForest.cons (some 2) BForest.nil
                (BForest.cons (some 3) BForest.nil BForest.nil))
              BForest.nil))
          BForest.nil).tipDepths = [1, 3, 4]
      ∧ ∃ rep L,
          (TreesSet.add strtodDigits 9 (TreesSet.new false 4 false)
            "(A:1,(B:2,C:3):1)".toList none).1.trees.get? 0 = some rep
          ∧ rep.isCladogram = false
          ∧ (BForest.cons none
              (BForest.cons (some 1) BForest.nil
                (BForest.cons (some 1)
                  (BForest.cons (some 2) BForest.nil
                    (BForest.cons (some 3) BForest.nil BForest.nil))
                  BForest.nil))
              BForest.nil).tipDepths.length
            = ([ParsedTreeNode.mk ['A'] (some 1) [] none,
                ParsedTreeNode.mk ['B'] (some 2) [] none,
                ParsedTreeNode.mk ['C'] (some 3) [] none,
                ParsedTreeNode.mk [] (some 1) [1, 2] none,
                ParsedTreeNode.mk [] none [0, 3] none].filter
                  (fun n => n.sons.length = 0)).length
          ∧ L ∈ (BForest.cons none
              (BForest.cons (some 1) BForest.nil
                (BForest.cons (some 1)
                  (BForest.cons (some 2) BForest.nil
                    (BForest.cons (some 3) BForest.nil BForest.nil))
                  BForest.nil))
              BForest.nil).tipDepths
          ∧ (∀ d ∈ (BForest.cons none
              (BForest.cons (some 1) BForest.nil
                (BForest.cons (some 1)
                  (BForest.cons (some 2) BForest.nil
                    (BForest.cons (some 3) BForest.nil BForest.nil))
                  BForest.nil))
              BForest.nil).tipDepths, d ≤ L)
          ∧ ∀ t, t < (BForest.cons none
              (BForest.cons (some 1) BForest.nil
                (BForest.cons (some 1)
                  (BForest.cons (some 2) BForest.nil
                    (BForest.cons (some 3) BForest.nil BForest.nil))
                  BForest.nil))
              BForest.nil).tipDepths.length →
              rep.getHeights.2.getD t 0
                = L - (BForest.cons none
                    (BForest.cons (some 1) BForest.nil
                      (BForest.cons (some 1)
                        (BForest.cons (some 2) BForest.nil
                          (BForest.cons (some 3) BForest.nil BForest.nil))
                        BForest.nil))
                    BForest.nil).tipDepths.getD t 0 :=
  ⟨by decide!, by decide!,
    tip_offsets_nonneg strtodDigits 9 (TreesSet.new false 4 false) _ "(A:1,(B:2,C:3):1)".toList
      none 0 17 _ _ _ (by decide!) (by decide!) rfl flat_three_tips (by decide) (by decide!)
      (by decide!)⟩

/-- C17: the text `(A:-5,B:-5)` is accepted and stored as a phylogram whose two tips have
the offsets 4 and 4, although both are at the distance -5 from the root, so that
`L - d(t)` is 0 for both: the height of the root is looked for from -1 on. -/
theorem negative_lengths_offsets :
    (TreesSet.add strtodSigned 9 (TreesSet.new false 4 false) "(A:-5,B:-5)".toList none).2
        = AddResult.added 0
      ∧ (TreesSet.add strtodSigned 9 (TreesSet.new false 4 false) "(A:-5,B:-5)".toList
          none).1.trees.map (fun r => (r.isCladogram, r.topology, r.getHeights))
        = [(false, [0, 1], ([-1], [4, 4]))]
      ∧ (BForest.cons none
          (BForest.cons (some (-5)) BForest.nil
            (BForest.cons (some (-5)) BForest.nil BForest.nil))
          BForest.nil).tipDepths = [-5, -5] := by
  decide!

end Biopy

namespace Biopy

/-- When no node with sons is raised, the heights stored between neighbouring tips are
the heights of their lowest common ancestors: the height `h` of the node above the
forest is `far` minus its distance `base` from the root. -/
theorem BForest.hts_eq_between : ∀ (Q : BForest) (base h far : ℚ), Q.kept h = true →
    h = far - base → Q.hts h = (Q.between base).map (fun x => far - x) := by
  intro Q
  induction Q with
  | nil => intro base h far _ _; rfl
  | cons b k r ihk ihr =>
    intro base h far hkept hh
    simp only [BForest.kept, Bool.and_eq_true, Bool.or_eq_true, decide_eq_true_eq] at hkept
    obtain ⟨⟨htop, hkk⟩, hkr⟩ := hkept
    simp only [BForest.hts, BForest.between, List.map_append]
    congr 1
    · by_cases hkc : k.shape.count = 0
      · simp [hkc]
      · simp only [if_neg hkc]
        rcases htop with htop | htop
        · exact absurd htop hkc
        · exact ihk (base + b.getD 1) k.hgt far hkk (by rw [hh] at htop; linarith)
    · by_cases hrc : r.shape.count = 0
      · simp [hrc]
      · simp only [if_neg hrc, List.map_cons]
        rw [ihr base h far hkr hh, hh]

/-- With no negative branch length, a forest in which every tree with sons, and every
node with sons inside it, has a tip at the largest distance from the root, has no node
with sons that is raised. -/
theorem BForest.deep_kept : ∀ (Q : BForest) (base h far : ℚ), Q.NonNeg →
    (∀ d ∈ Q.depths base, d ≤ far) → Q.deep far base = true → h = far - base →
    Q.kept h = true := by
  intro Q
  induction Q with
  | nil => intro base h far _ _ _ _; rfl
  | cons b k r ihk ihr =>
    intro base h far hnn hle hdeep hh
    obtain ⟨_, hnk, hnr⟩ := hnn
    simp only [BForest.deep, Bool.and_eq_true, Bool.or_eq_true, decide_eq_true_eq,
      List.any_eq_true] at hdeep
    obtain ⟨hfirst, hdr⟩ := hdeep
    have hler : ∀ d ∈ r.depths base, d ≤ far := fun d hd =>
      hle d (by simp [BForest.depths, hd])
    have hkr := ihr base h far hnr hler hdr hh
    simp only [BForest.kept, Bool.and_eq_true, Bool.or_eq_true, decide_eq_true_eq]
    by_cases hkc : k.shape.count = 0
    · exact ⟨⟨Or.inl hkc, by rw [BForest.shape_nil_of_count k hkc]; rfl⟩, hkr⟩
    · rcases hfirst with hfirst | hfirst
      · exact absurd hfirst hkc
      · obtain ⟨⟨d, hd, hdf⟩, hkd⟩ := hfirst
        have hlek : ∀ d ∈ k.depths (base + b.getD 1), d ≤ far := fun d hd =>
          hle d (by simp [BForest.depths, hkc, hd])
        obtain ⟨m1, m2⟩ := BForest.hgt_max k hnk hkc
        have hup : base + b.getD 1 + k.hgt ≤ far := by
          apply hlek
          rw [BForest.depths_base]
          simp only [List.mem_map]
          exact ⟨k.hgt, m1, rfl⟩
        have hlo : far ≤ base + b.getD 1 + k.hgt := by
          rw [BForest.depths_base] at hd
          simp only [List.mem_map] at hd
          obtain ⟨d', hd', rfl⟩ := hd
          have := m2 d' hd'
          rw [← hdf]
          linarith
        have heq : k.hgt = far - (base + b.getD 1) := by linarith
        refine ⟨⟨Or.inr (by rw [hh]; linarith), ?_⟩, hkr⟩
        exact ihk (base + b.getD 1) k.hgt far hnk hlek hkd heq

/-- What `nodes2rep` stores as the heights of a phylogram with no negative branch length
in which every node with sons, the root apart, has a tip at the largest distance from the
root. -/
theorem nodes2rep_heights (ts : TreesSet) (fuel : Nat) (nodes : List ParsedTreeNode)
    (rep : TreeRep) (b : Option ℚ) (k : BForest) (far : ℚ)
    (hrep : (ts.nodes2rep fuel nodes).2 = Except.ok rep)
    (hflat : IsFlatB (BForest.cons b k BForest.nil) 0 nodes)
    (hph : nodes.all (fun n => n.branch.isNone) = false)
    (hnn : ∀ n ∈ nodes, 0 ≤ n.branch.getD 0)
    (hmem : far ∈ (BForest.cons b k BForest.nil).tipDepths)
    (hmax : ∀ d ∈ (BForest.cons b k BForest.nil).tipDepths, d ≤ far)
    (hdeep : k.deep far 0 = true) :
    rep.getHeights.1
      = (BForest.cons b k BForest.nil).tipBetween.map (fun x => far - x) := by
  obtain ⟨_, st, henc, _, _, hphy⟩ := nodes2rep_ok_inv ts fuel nodes rep hrep
  have hfl := (scan_flags nodes (ScanState.mk ts [] true false 0)).1
  have hc : (scanAll ts nodes).cladogram = false := by
    unfold scanAll
    rw [hfl, hph]
    rfl
  have hheights := hphy hc
  obtain ⟨_, h2, _, _, _⟩ := scan_foldl nodes (ScanState.mk ts [] true false 0)
  simp only [List.nil_append] at h2
  have e2 : (scanAll ts nodes).taxa = (internAll ts (leafLabels nodes)).2 := h2
  have hn : (scanAll ts nodes).taxa.length = k.shape.treeTips := by
    rw [e2, internAll_ids_length]
    unfold leafLabels
    rw [List.length_map, IsFlatB.leaves _ _ _ hflat]
    simp [BForest.shape, Forest.tips, Forest.treeTips]
  rw [hc] at henc
  have hroot := (encodeLoop_phylo_root fuel _ b k nodes st hflat hn henc).2
  have hg1 : rep.getHeights.1 = st.heights := by
    unfold TreeRep.getHeights
    rw [hheights]
  rw [hg1]
  by_cases hkc : k.shape.count = 0
  · have hkn : k = BForest.nil := BForest.shape_nil_of_count k hkc
    subst hkn
    rw [hroot rfl]
    simp [BForest.shape, Forest.count, BForest.tipBetween, BForest.between]
  · obtain ⟨_, hnk, _⟩ := IsFlatB.nonneg _ _ _ hflat hnn
    simp only [BForest.tipDepths, if_neg hkc] at hmem hmax
    obtain ⟨m1, m2⟩ := BForest.hgt_max k hnk hkc
    have hfar : k.hgt = far := le_antisymm (hmax _ m1) (m2 _ hmem)
    have hkept := BForest.deep_kept k 0 k.hgt far hnk hmax hdeep (by rw [hfar]; ring)
    rw [hroot hkept, if_neg hkc]
    simp only [BForest.tipBetween]
    exact BForest.hts_eq_between k 0 k.hgt far hkept (by rw [hfar]; ring)

theorem BForest.between_length : ∀ (Q : BForest) (base : ℚ),
    (Q.between base).length = Q.shape.tips - 1 := by
  intro Q
  induction Q with
  | nil => intro base; rfl
  | cons b k r ihk ihr =>
    intro base
    simp only [BForest.between, BForest.shape, Forest.tips, List.length_append]
    by_cases hk : k.shape.count = 0
    · by_cases hr : r.shape.count = 0
      · have : r.shape = Forest.nil := (Forest.count_eq_zero_iff _).mp hr
        simp [hk, this, Forest.tips, Forest.count]
      · have := Forest.tips_pos _ hr
        simp [hk, hr, ihr]
        omega
    · have hkt := Forest.tips_pos _ hk
      by_cases hr : r.shape.count = 0
      · have : r.shape = Forest.nil := (Forest.count_eq_zero_iff _).mp hr
        simp [hk, this, Forest.tips, Forest.count, ihk]
      · have := Forest.tips_pos _ hr
        simp [hk, hr, ihk, ihr]
        omega

/-- C16 (amended): for every phylogram with no negative branch length that `add` accepts
into a set that keeps representations, in which every node with sons, the root apart,
has a tip below it at the largest distance `L` from the root to a tip (so that no subtree
of two or more tips is raised), and every `i` in `0..N-2`, the stored `heights[i]` is the
height of the lowest common ancestor of the tips `i` and `i+1`, the height of a node
being `L` minus the sum of the branch lengths from the root to the node (a missing branch
length counted as 1; arithmetic exact). -/
theorem heights_are_lca_heights (strtod : Str → ℚ × Nat) (fuel : Nat) (ts ts1 : TreesSet)
    (txt : Str) (kwds : Option Attributes) (i nc : Nat) (nodes : List ParsedTreeNode)
    (b : Option ℚ) (k : BForest) (far : ℚ)
    (hr : readSubTree strtod fuel txt [] = ParseResult.ok nc nodes)
    (hadd : ts.add strtod fuel txt kwds = (ts1, AddResult.added i))
    (hstore : ts.store = false)
    (hflat : IsFlatB (BForest.cons b k BForest.nil) 0 nodes)
    (hph : nodes.all (fun n => n.branch.isNone) = false)
    (hnn : ∀ n ∈ nodes, 0 ≤ n.branch.getD 0)
    (hmem : far ∈ (BForest.cons b k BForest.nil).tipDepths)
    (hmax : ∀ d ∈ (BForest.cons b k BForest.nil).tipDepths, d ≤ far)
    (hdeep : k.deep far 0 = true) :
    ∃ rep, ts1.trees.get? i = some rep
      ∧ (BForest.cons b k BForest.nil).tipBetween.length
          = (nodes.filter (fun n => n.sons.length = 0)).length - 1
      ∧ rep.getHeights.1
          = (BForest.cons b k BForest.nil).tipBetween.map (fun x => far - x) := by
  obtain ⟨rep, hrep, _, _, hget⟩ := add_stored strtod fuel ts ts1 txt kwds i nc nodes hr hadd hstore
  refine ⟨rep, hget, ?_, nodes2rep_heights _ fuel nodes rep b k far hrep hflat hph hnn hmem hmax
    hdeep⟩
  rw [IsFlatB.leaves _ _ _ hflat]
  simp only [BForest.tipBetween, BForest.shape, Forest.tips, BForest.between_length]
  by_cases hkc : k.shape.count = 0
  · have hkn : k.shape = Forest.nil := (Forest.count_eq_zero_iff _).mp hkc
    simp [hkn, Forest.tips, Forest.count]
  · simp [hkc]

theorem heights_are_lca_heights_witness :
    readSubTree strtodDigits 9 "(A:1,(B:2,C:3):1)".toList [] =
        ParseResult.ok 17 [ParsedTreeNode.mk ['A'] (some 1) [] none,
          ParsedTreeNode.mk ['B'] (some 2) [] none, ParsedTreeNode.mk ['C'] (some 3) [] none,
          ParsedTreeNode.mk [] (some 1) [1, 2] none, ParsedTreeNode.mk [] none [0, 3] none]
      ∧ (BForest.cons none
          (BForest.cons (some 1) BForest.nil
            (BForest.cons (some 1)
              (BForest.cons (some 2) BForest.nil
                (BForest.cons (some 3) BForest.nil BForest.nil))
              BForest.nil))
          BForest.nil).tipBetween = [0, 1]
      ∧ ∃ rep,
          (TreesSet.add strtodDigits 9 (TreesSet.new false 4 false)
            "(A:1,(B:2,C:3):1)".toList none).1.trees.get? 0 = some rep
          ∧ (BForest.cons none
              (BForest.cons (some 1) BForest.nil
                (BForest.cons (some 1)
                  (BForest.cons (some 2) BForest.nil
                    (BForest.cons (some 3) BForest.nil BForest.nil))
                  BForest.nil))
              BForest.nil).tipBetween.length
            = ([ParsedTreeNode.mk ['A'] (some 1) [] none,
                ParsedTreeNode.mk ['B'] (some 2) [] none,
                ParsedTreeNode.mk ['C'] (some 3) [] none,
                ParsedTreeNode.mk [] (some 1) [1, 2] none,
                ParsedTreeNode.mk [] none [0, 3] none].filter
                  (fun n => n.sons.length = 0)).length - 1
          ∧ rep.getHeights.1
            = (BForest.cons none
                (BForest.cons (some 1) BForest.nil
                  (BForest.cons (some 1)
                    (BForest.cons (some 2) BForest.nil
                      (BForest.cons (some 3) BForest.nil BForest.nil))
                    BForest.nil))
                BForest.nil).tipBetween.map (fun x => 4 - x) :=
  ⟨by decide!, by decide!,
    heights_are_lca_heights strtodDigits 9 (TreesSet.new false 4 false) _
      "(A:1,(B:2,C:3):1)".toList none 0 17 _ _ _ 4 (by decide!) (by decide!) rfl flat_three_tips
      (by decide) (by decide!) (by decide!) (by decide!) (by decide!)⟩

/-- C16: the text `(A:-3,B:-2)` is accepted and stored as a phylogram with the heights
vector `[-1]`, although the largest distance from the root to a tip is -2 and the lowest
common ancestor of the two tips is the root, whose height is `-2 - 0 = -2`: the height of
a node is looked for from -1 on. -/
theorem negative_lengths_height :
    (TreesSet.add strtodSigned 9 (TreesSet.new false 4 false) "(A:-3,B:-2)".toList none).2
        = AddResult.added 0
      ∧ (TreesSet.add strtodSigned 9 (TreesSet.new false 4 false) "(A:-3,B:-2)".toList
          none).1.trees.map (fun r => (r.isCladogram, r.topology, r.getHeights.1))
        = [(false, [0, 1], [-1])]
      ∧ (BForest.cons none
          (BForest.cons (some (-3)) BForest.nil
            (BForest.cons (some (-2)) BForest.nil BForest.nil))
          BForest.nil).tipDepths = [-3, -2]
      ∧ (BForest.cons none
          (BForest.cons (some (-3)) BForest.nil
            (BForest.cons (some (-2)) BForest.nil BForest.nil))
          BForest.nil).tipBetween = [0] := by
  decide!

end Biopy

namespace Biopy

/-! ## The expansion as a layout of trees -/

theorem XForest.lay_length : ∀ (F : XForest) (base : Nat) (par : Int) (ph : Option ℚ),
    (F.lay base par ph).length = F.size := by
  intro F
  induction F with
  | nil => intro base par ph; rfl
  | cons t h a k r ihk ihr =>
    intro base par ph
    simp only [XForest.lay, XForest.size, List.length_append, List.length_cons, ihk, ihr]
    omega

theorem XForest.roots_count : ∀ (F : XForest) (base : Nat), (F.roots base).length = F.count := by
  intro F
  induction F with
  | nil => intro base; rfl
  | cons t h a k r _ ihr =>
    intro base
    simp only [XForest.roots, XForest.count, List.length_cons, ihr]
    omega

theorem getElem?_mid {α : Type} (pre A B : List α) (x : α) (n : Nat)
    (hn : n = pre.length + A.length) : (pre ++ A ++ x :: B)[n]? = some x := by
  subst hn
  rw [List.getElem?_append_right (by simp)]
  simp

/-- The roots of a laid out forest: where they are and what they hold. -/
theorem XForest.lay_roots : ∀ (F : XForest) (pre post : List Expanded) (par : Int)
    (ph : Option ℚ) (base : Nat), base = pre.length →
    ∀ s ∈ F.roots base, base ≤ s ∧ s < base + F.size
      ∧ ∃ c, (pre ++ F.lay base par ph ++ post)[s]? = some c ∧ c.prev = par
          ∧ c.branch = ph.map (fun x => x - c.height) := by
  intro F
  induction F with
  | nil => intro pre post par ph base _ s hs; simp [XForest.roots] at hs
  | cons t h a k r _ ihr =>
    intro pre post par ph base hb s hs
    simp only [XForest.roots, List.mem_cons] at hs
    rcases hs with hs | hs
    · subst hs
      refine ⟨by omega, by simp only [XForest.size]; omega, ?_⟩
      refine ⟨Expanded.mk t k.count (k.roots base) (ph.map (fun x => x - h)) h par a, ?_, rfl, rfl⟩
      simp only [XForest.lay, List.append_assoc, List.cons_append]
      rw [← List.append_assoc]
      exact getElem?_mid _ _ _ _ _ (by rw [XForest.lay_length, hb])
    · have hlen : base + k.size + 1
          = (pre ++ k.lay base ((base + k.size : Nat) : Int) (some h)
              ++ [Expanded.mk t k.count (k.roots base) (ph.map (fun x => x - h)) h par a]).length := by
        simp only [List.length_append, XForest.lay_length, List.length_singleton, hb]
      obtain ⟨r1, r2, c, r3, r4, r5⟩ := ihr _ post par ph _ hlen s hs
      refine ⟨by omega, by simp only [XForest.size]; omega, c, ?_, r4, r5⟩
      rw [← r3]
      simp only [XForest.lay, List.append_assoc, List.cons_append, List.nil_append]

/-- The nodes of a laid out forest and their sons: a son comes before its parent, names
it as `prev`, and its branch length is the difference of the two heights. -/
theorem XForest.lay_sons : ∀ (F : XForest) (pre post : List Expanded) (par : Int)
    (ph : Option ℚ) (base : Nat), base = pre.length →
    ∀ (p : Nat) (n : Expanded), base ≤ p → p < base + F.size →
      (pre ++ F.lay base par ph ++ post)[p]? = some n →
      n.nSons = n.sons.length ∧
      ∀ s ∈ n.sons, base ≤ s ∧ s < p
        ∧ ∃ c, (pre ++ F.lay base par ph ++ post)[s]? = some c ∧ c.prev = (p : Int)
            ∧ c.branch = some (n.height - c.height) := by
  intro F
  induction F with
  | nil => intro pre post par ph base _ p n h1 h2 _; simp [XForest.size] at h2; omega
  | cons t h a k r ihk ihr =>
    intro pre post par ph base hb p n h1 h2 hget
    have hlen : base + k.size + 1
        = (pre ++ k.lay base ((base + k.size : Nat) : Int) (some h)
            ++ [Expanded.mk t k.count (k.roots base) (ph.map (fun x => x - h)) h par a]).length := by
      simp only [List.length_append, XForest.lay_length, List.length_singleton, hb]
    have e1 : pre ++ (XForest.cons t h a k r).lay base par ph ++ post
        = pre ++ k.lay base ((base + k.size : Nat) : Int) (some h)
            ++ (Expanded.mk t k.count (k.roots base) (ph.map (fun x => x - h)) h par a
              :: r.lay (base + k.size + 1) par ph ++ post) := by
      simp only [XForest.lay, List.append_assoc, List.cons_append]
    have e2 : pre ++ (XForest.cons t h a k r).lay base par ph ++ post
        = (pre ++ k.lay base ((base + k.size : Nat) : Int) (some h)
            ++ [Expanded.mk t k.count (k.roots base) (ph.map (fun x => x - h)) h par a])
            ++ r.lay (base + k.size + 1) par ph ++ post := by
      simp only [XForest.lay, List.append_assoc, List.cons_append, List.nil_append]
    simp only [XForest.size] at h2
    by_cases c1 : p < base + k.size
    · rw [e1] at hget ⊢
      exact ihk pre _ _ (some h) base hb p n h1 c1 hget
    · by_cases c2 : p = base + k.size
      · have hn : (pre ++ (XForest.cons t h a k r).lay base par ph ++ post)[p]?
            = some (Expanded.mk t k.count (k.roots base) (ph.map (fun x => x - h)) h par a) := by
          rw [e1]
          exact getElem?_mid _ _ _ _ _ (by rw [XForest.lay_length, c2, hb])
        rw [hn] at hget
        simp only [Option.some.injEq] at hget
        subst hget
        refine ⟨(XForest.roots_count k base).symm, ?_⟩
        intro s hs
        obtain ⟨r1, r2, c, r3, r4, r5⟩ := XForest.lay_roots k pre
          (Expanded.mk t k.count (k.roots base) (ph.map (fun x => x - h)) h par a
              :: r.lay (base + k.size + 1) par ph ++ post)
          ((base + k.size : Nat) : Int) (some h) base hb s hs
        refine ⟨r1, by omega, c, ?_, ?_, ?_⟩
        · rw [e1]; exact r3
        · rw [r4, c2]
        · rw [r5]; rfl
      · rw [e2] at hget ⊢
        obtain ⟨q1, q2⟩ := ihr _ post par ph _ hlen p n (by omega) (by omega) hget
        refine ⟨q1, fun s hs => ?_⟩
        obtain ⟨r1, r2, r3⟩ := q2 s hs
        exact ⟨by omega, r2, r3⟩

/-- The nodes of a laid out forest and their parents: a root has the parent `par`, and
every other node names as `prev` a later node of the layout that has it among its
sons. -/
theorem XForest.lay_prev : ∀ (F : XForest) (pre post : List Expanded) (par : Int)
    (ph : Option ℚ) (base : Nat), base = pre.length →
    ∀ (i : Nat) (n : Expanded), base ≤ i → i < base + F.size →
      (pre ++ F.lay base par ph ++ post)[i]? = some n →
      (i ∈ F.roots base ∧ n.prev = par)
      ∨ ∃ (p : Nat) (pn : Expanded), n.prev = (p : Int) ∧ i < p ∧ p < base + F.size
          ∧ (pre ++ F.lay base par ph ++ post)[p]? = some pn ∧ i ∈ pn.sons
          ∧ pn.nSons ≠ 0 := by
  intro F
  induction F with
  | nil => intro pre post par ph base _ p n h1 h2 _; simp [XForest.size] at h2; omega
  | cons t h a k r ihk ihr =>
    intro pre post par ph base hb i n h1 h2 hget
    have hlen : base + k.size + 1
        = (pre ++ k.lay base ((base + k.size : Nat) : Int) (some h)
            ++ [Expanded.mk t k.count (k.roots base) (ph.map (fun x => x - h)) h par a]).length := by
      simp only [List.length_append, XForest.lay_length, List.length_singleton, hb]
    have e1 : pre ++ (XForest.cons t h a k r).lay base par ph ++ post
        = pre ++ k.lay base ((base + k.size : Nat) : Int) (some h)
            ++ (Expanded.mk t k.count (k.roots base) (ph.map (fun x => x - h)) h par a
              :: r.lay (base + k.size + 1) par ph ++ post) := by
      simp only [XForest.lay, List.append_assoc, List.cons_append]
    have e2 : pre ++ (XForest.cons t h a k r).lay base par ph ++ post
        = (pre ++ k.lay base ((base + k.size : Nat) : Int) (some h)
            ++ [Expanded.mk t k.count (k.roots base) (ph.map (fun x => x - h)) h par a])
            ++ r.lay (base + k.size + 1) par ph ++ post := by
      simp only [XForest.lay, List.append_assoc, List.cons_append, List.nil_append]
    have hn : (pre ++ (XForest.cons t h a k r).lay base par ph ++ post)[base + k.size]?
        = some (Expanded.mk t k.count (k.roots base) (ph.map (fun x => x - h)) h par a) := by
      rw [e1]
      exact getElem?_mid _ _ _ _ _ (by rw [XForest.lay_length, hb])
    simp only [XForest.size] at h2
    by_cases c1 : i < base + k.size
    · rw [e1] at hget
      rcases ihk pre _ _ (some h) base hb i n h1 c1 hget with ⟨q1, q2⟩ | ⟨p, pn, q1, q2, q3, q4, q5, q6⟩
      · refine Or.inr ⟨base + k.size, _, q2, c1, by simp only [XForest.size]; omega, hn, q1, ?_⟩
        have := XForest.roots_count k base
        cases hk : k.roots base with
        | nil => rw [hk] at q1; cases q1
        | cons x xs => rw [hk] at this; simp only [List.length_cons] at this; simp only []; omega
      · refine Or.inr ⟨p, pn, q1, q2, by simp only [XForest.size]; omega, ?_, q5, q6⟩
        rw [e1]; exact q4
    · by_cases c2 : i = base + k.size
      · subst c2
        rw [hn] at hget
        simp only [Option.some.injEq] at hget
        subst hget
        exact Or.inl ⟨by simp [XForest.roots], rfl⟩
      · rw [e2] at hget
        rcases ihr _ post par ph _ hlen i n (by omega) (by omega) hget with
          ⟨q1, q2⟩ | ⟨p, pn, q1, q2, q3, q4, q5, q6⟩
        · exact Or.inl ⟨by simp only [XForest.roots, List.mem_cons]; exact Or.inr q1, q2⟩
        · refine Or.inr ⟨p, pn, q1, q2, by simp only [XForest.size]; omega, ?_, q5, q6⟩
          rw [e2]; exact q4

end Biopy

namespace Biopy

theorem setBranchOf_last (A : List Expanded) (x : Expanded) (b : ℚ) (k : Nat)
    (hk : k = A.length) :
    setBranchOf (A ++ [x]) k b = A ++ [Expanded.mk x.itax x.nSons x.sons (some b) x.height
      x.prev x.attributes] := by
  subst hk
  unfold setBranchOf
  have h1 : (A ++ [x]).get? A.length = some x := by
    rw [List.get?_eq_getElem?, List.getElem?_append_right (Nat.le_refl _)]
    simp
  rw [h1]
  simp only []
  rw [List.set_append_right _ _ (Nat.le_refl _)]
  simp

theorem setPrev_mid (A B : List Expanded) (x : Expanded) (p k : Nat) (hk : k = A.length) :
    setPrev (A ++ x :: B) p k = A ++ Expanded.mk x.itax x.nSons x.sons x.branch x.height
      (p : Int) x.attributes :: B := by
  subst hk
  unfold setPrev
  have h1 : (A ++ x :: B).get? A.length = some x := by
    rw [List.get?_eq_getElem?, List.getElem?_append_right (Nat.le_refl _)]
    simp
  rw [h1]
  simp only []
  rw [List.set_append_right _ _ (Nat.le_refl _)]
  simp

/-- The loop that writes `prev` into the sons turns the layout of the sons without a
parent into their layout below the parent `p`. -/
theorem foldl_setPrev_lay (p : Nat) : ∀ (K : XForest) (pre post : List Expanded) (par : Int)
    (ph : Option ℚ) (base : Nat), base = pre.length →
    (K.roots base).foldl (fun ns s => setPrev ns p s) (pre ++ K.lay base par ph ++ post)
      = pre ++ K.lay base (p : Int) ph ++ post := by
  intro K
  induction K with
  | nil => intro pre post par ph base _; rfl
  | cons t h a k r _ ihr =>
    intro pre post par ph base hb
    simp only [XForest.roots, List.foldl_cons, XForest.lay]
    have e1 : pre ++ (k.lay base ((base + k.size : Nat) : Int) (some h)
          ++ Expanded.mk t k.count (k.roots base) (ph.map (fun x => x - h)) h par a
            :: r.lay (base + k.size + 1) par ph) ++ post
        = (pre ++ k.lay base ((base + k.size : Nat) : Int) (some h))
          ++ Expanded.mk t k.count (k.roots base) (ph.map (fun x => x - h)) h par a
            :: (r.lay (base + k.size + 1) par ph ++ post) := by
      simp only [List.append_assoc, List.cons_append]
    rw [e1, setPrev_mid _ _ _ _ _ (by simp only [List.length_append, XForest.lay_length, hb])]
    simp only []
    have e2 : (pre ++ k.lay base ((base + k.size : Nat) : Int) (some h))
          ++ Expanded.mk t k.count (k.roots base) (ph.map (fun x => x - h)) h (p : Int) a
            :: (r.lay (base + k.size + 1) par ph ++ post)
        = (pre ++ k.lay base ((base + k.size : Nat) : Int) (some h)
            ++ [Expanded.mk t k.count (k.roots base) (ph.map (fun x => x - h)) h (p : Int) a])
          ++ r.lay (base + k.size + 1) par ph ++ post := by
      simp only [List.append_assoc, List.cons_append, List.nil_append]
    rw [e2, ihr _ post par ph _
      (by simp only [List.length_append, XForest.lay_length, List.length_singleton, hb])]
    simp only [List.append_assoc, List.cons_append, List.nil_append]

theorem slice_append (l : List Nat) (a b c : Nat) (hab : a ≤ b) (hbc : b ≤ c) :
    (l.drop a).take (b - a) ++ (l.drop b).take (c - b) = (l.drop a).take (c - a) := by
  have e : c - a = (b - a) + (c - b) := by omega
  rw [e, List.take_add, List.drop_drop]
  have e2 : a + (b - a) = b := by omega
  rw [e2]

theorem slice_one (l : List Nat) (a t : Nat) (h : l[a]? = some t) :
    (l.drop a).take 1 = [t] := by
  have h2 : (l.drop a)[0]? = some t := by
    rw [List.getElem?_drop]
    simpa using h
  cases hd : l.drop a with
  | nil => rw [hd] at h2; simp at h2
  | cons x xs =>
    rw [hd] at h2
    simp only [List.getElem?_cons_zero, Option.some.injEq] at h2
    subst h2
    rfl

/-- The loop over the split positions lays out one tree a position, given that a call of
`rec` lays out a tree. -/
theorem expandSons_lay (tax : List Nat)
    (rec : ExpState → Nat → Nat → Except Abort (ExpState × Nat)) (curh : ℚ)
    (hrec : ∀ s l h s2 k, l ≤ h → rec s l h = Except.ok (s2, k) →
      ∃ t hh a kids,
        s2.nodes = s.nodes ++ (XForest.cons t hh a kids XForest.nil).lay s.nodes.length (-1) none
        ∧ k = s.nodes.length + kids.size
        ∧ (XForest.cons t hh a kids XForest.nil).tipIds
            = ((tax.drop l).take (h - l + 1)).map Int.ofNat
        ∧ (XForest.cons t hh a kids XForest.nil).InnerUnnamed) :
    ∀ (xs : List Nat) (st : ExpState) (low : Nat) (sons : List Nat) (st2 : ExpState)
      (sons2 : List Nat),
      expandSons rec curh xs st low sons = Except.ok (st2, sons2) →
      xs.Pairwise (fun a b => a < b) → (∀ x ∈ xs, low ≤ x) →
      ∃ K : XForest,
        st2.nodes = st.nodes ++ K.lay st.nodes.length (-1) (some curh)
        ∧ sons2 = sons ++ K.roots st.nodes.length
        ∧ K.count = xs.length
        ∧ K.InnerUnnamed
        ∧ ∀ last, xs.getLast? = some last →
            K.tipIds = ((tax.drop low).take (last + 1 - low)).map Int.ofNat := by
  intro xs
  induction xs with
  | nil =>
    intro st low sons st2 sons2 h _ _
    simp only [expandSons, Except.ok.injEq, Prod.mk.injEq] at h
    obtain ⟨h1, h2⟩ := h
    subst h1; subst h2
    exact ⟨XForest.nil, by simp [XForest.lay], by simp [XForest.roots], rfl, trivial,
      fun last hl => by simp at hl⟩
  | cons x xs ih =>
    intro st low sons st2 sons2 h hp hlow
    cases hr : rec st low x with
    | error e => simp [expandSons, hr] at h
    | ok q =>
      obtain ⟨st1, k⟩ := q
      cases hg : st1.nodes[k]? with
      | none => simp [expandSons, hr, hg] at h
      | some nk =>
        simp only [expandSons, hr, List.get?_eq_getElem?, hg] at h
        have hlx : low ≤ x := hlow x (by simp)
        obtain ⟨t, hh, a, kids, c1, c2, c3, c4⟩ := hrec st low x st1 k hlx hr
        have c1' : st1.nodes = (st.nodes ++ kids.lay st.nodes.length
              ((st.nodes.length + kids.size : Nat) : Int) (some hh))
            ++ [Expanded.mk t kids.count (kids.roots st.nodes.length) none hh (-1) a] := by
          rw [c1]
          simp only [XForest.lay, Option.map_none', List.append_assoc]
        have hk : k = (st.nodes ++ kids.lay st.nodes.length
              ((st.nodes.length + kids.size : Nat) : Int) (some hh)).length := by
          rw [c2, List.length_append, XForest.lay_length]
        have hnk : nk = Expanded.mk t kids.count (kids.roots st.nodes.length) none hh (-1) a := by
          rw [c1', hk, List.getElem?_append_right (Nat.le_refl _)] at hg
          simpa using hg.symm
        have hset : setBranchOf st1.nodes k (curh - nk.height)
            = (st.nodes ++ kids.lay st.nodes.length
                ((st.nodes.length + kids.size : Nat) : Int) (some hh))
              ++ [Expanded.mk t kids.count (kids.roots st.nodes.length) (some (curh - hh)) hh
                    (-1) a] := by
          rw [c1', setBranchOf_last _ _ _ _ hk, hnk]
        rw [hset] at h
        have hp2 : xs.Pairwise (fun a b => a < b) := (List.pairwise_cons.mp hp).2
        have hlow2 : ∀ y ∈ xs, x + 1 ≤ y := fun y hy => (List.pairwise_cons.mp hp).1 y hy
        obtain ⟨K1, d1, d2, d3, d4, d5⟩ := ih _ (x + 1) _ st2 sons2 h hp2 hlow2
        simp only [List.length_append, XForest.lay_length, List.length_singleton] at d1 d2
        refine ⟨XForest.cons t hh a kids K1, ?_, ?_, ?_, ?_, ?_⟩
        · rw [d1]
          simp only [XForest.lay, Option.map_some', List.append_assoc, List.cons_append,
            List.nil_append]
        · rw [d2]
          simp only [XForest.roots, List.append_assoc, List.cons_append, List.nil_append, c2]
        · simp only [XForest.count, List.length_cons, d3]
          omega
        · exact ⟨c4.1, c4.2.1, d4⟩
        · intro last hlast
          have e0 : (XForest.cons t hh a kids K1).tipIds
              = (XForest.cons t hh a kids XForest.nil).tipIds ++ K1.tipIds := by
            simp only [XForest.tipIds, List.append_nil]
          rw [e0, c3]
          cases xs with
          | nil =>
            simp only [List.getLast?_singleton, Option.some.injEq] at hlast
            subst hlast
            have : K1 = XForest.nil := by
              cases K1 with
              | nil => rfl
              | cons _ _ _ _ _ => simp [XForest.count] at d3
            subst this
            simp only [XForest.tipIds, List.append_nil]
            have e : x - low + 1 = x + 1 - low := by omega
            rw [e]
          | cons y ys =>
            rw [List.getLast?_cons_cons] at hlast
            rw [d5 last hlast, ← List.map_append]
            have hxl : x + 1 ≤ last := by
              have := List.mem_of_getLast?_eq_some hlast
              exact hlow2 last this
            have := slice_append tax low (x + 1) (last + 1) (by omega) (by omega)
            have e1 : x + 1 - low = x - low + 1 := by omega
            rw [e1] at this
            rw [this]

end Biopy

namespace Biopy

/-- A call of `rep2treeInternal` on the tips `low` to `hi` that returns has appended the
layout of one tree whose nodes without sons carry the taxa `tax[low..hi]`; it returns
the index of the root of the tree, the last node. -/
theorem rep2treeInternal_lay (tax : List Nat) (htax hs : List ℚ)
    (atrbs : Option (List (Option Attributes))) (cap : Nat) :
    ∀ (fuel : Nat) (st : ExpState) (low hi bleft : Nat) (st2 : ExpState) (k : Nat),
      low ≤ hi →
      rep2treeInternal tax htax hs atrbs cap fuel st low hi bleft = Except.ok (st2, k) →
      ∃ t hh a kids,
        st2.nodes = st.nodes ++ (XForest.cons t hh a kids XForest.nil).lay st.nodes.length (-1) none
        ∧ k = st.nodes.length + kids.size
        ∧ (XForest.cons t hh a kids XForest.nil).tipIds
            = ((tax.drop low).take (hi - low + 1)).map Int.ofNat
        ∧ (XForest.cons t hh a kids XForest.nil).InnerUnnamed := by
  intro fuel
  induction fuel with
  | zero => intro st low hi bleft st2 k _ h; simp [rep2treeInternal] at h
  | succ fuel ih =>
    intro st low hi bleft st2 k hle h
    by_cases hlh : low = hi
    · subst hlh
      simp only [rep2treeInternal, if_true] at h
      cases ht : tax[low]? with
      | none => simp [ht] at h
      | some t =>
        cases hh : htax[low]? with
        | none => simp [ht, hh] at h
        | some v =>
          simp only [List.get?_eq_getElem?, ht, hh] at h
          cases ha : attrSlot atrbs low with
          | error e => simp [ha] at h
          | ok atr =>
            simp only [ha, Except.ok.injEq, Prod.mk.injEq] at h
            obtain ⟨h1, h2⟩ := h
            subst h1
            refine ⟨(t : Int), v, atr, XForest.nil, ?_, ?_, ?_, ?_⟩
            · simp [XForest.lay, XForest.count, XForest.roots]
            · simp [XForest.size, h2]
            · simp only [XForest.tipIds, XForest.count, if_true, List.append_nil, Nat.sub_self,
                Nat.zero_add]
              rw [slice_one tax low t ht]
              rfl
            · exact ⟨fun hc => absurd rfl hc, trivial, trivial⟩
    · simp only [rep2treeInternal, if_neg hlh] at h
      cases hsc : scanSplits hs (List.range' low (hi - low)) (-1) none with
      | error e => simp [hsc] at h
      | ok r =>
        obtain ⟨curh, osp⟩ := r
        cases osp with
        | none => simp [hsc] at h
        | some splits =>
          simp only [hsc] at h
          obtain ⟨p1, p2, p3⟩ := scanSplits_sorted hs _ _ _ _ _ hsc
            (by simpa using List.pairwise_lt_range' low (hi - low))
            (fun l hl => by cases hl)
          have hin : ∀ x ∈ splits, low ≤ x ∧ x < hi := by
            intro x hx
            rcases p3 x hx with hx | hx
            · simp at hx
            · have := List.mem_range'_1.mp hx
              omega
          by_cases hb1 : bleft < splits.length
          · simp [hb1] at h
          rw [if_neg hb1] at h
          by_cases hb2 : bleft - splits.length = 0
          · simp [hb2] at h
          rw [if_neg hb2] at h
          by_cases hb3 : cap < st.sonsUsed + (1 + splits.length)
          · simp [hb3] at h
          rw [if_neg hb3] at h
          cases hex : expandSons
              (fun s l h => rep2treeInternal tax htax hs atrbs cap fuel s l h
                (bleft - splits.length - 1))
              curh (splits ++ [hi])
              { st with sonsUsed := st.sonsUsed + (1 + splits.length) } low [] with
          | error e => simp [hex] at h
          | ok q =>
            obtain ⟨st1, sons⟩ := q
            simp only [hex] at h
            cases ha : attrSlot atrbs (splits.headD 0 + tax.length) with
            | error e => simp only [ha] at h; cases h
            | ok atr =>
              simp only [ha, Except.ok.injEq, Prod.mk.injEq] at h
              obtain ⟨h1, h2⟩ := h
              subst h1
              have hpw : (splits ++ [hi]).Pairwise (fun a b => a < b) := by
                rw [List.pairwise_append]
                refine ⟨p1, by simp, ?_⟩
                intro a ha b hb
                simp only [List.mem_singleton] at hb
                subst hb
                exact (hin a ha).2
              have hlow : ∀ x ∈ splits ++ [hi], low ≤ x := by
                intro x hx
                simp only [List.mem_append, List.mem_singleton] at hx
                rcases hx with hx | hx
                · exact (hin x hx).1
                · omega
              obtain ⟨K, e1, e2, e3, e4, e5⟩ := expandSons_lay tax _ curh
                (fun s l h s2 k hl hr => ih s l h _ s2 k hl hr)
                _ _ _ _ _ _ hex hpw hlow
              simp only [List.nil_append] at e1 e2
              have e6 := e5 hi (by simp)
              have hcount : 1 + splits.length = K.count := by
                rw [e3]; simp; omega
              have hlen1 : st1.nodes.length = st.nodes.length + K.size := by
                rw [e1, List.length_append, XForest.lay_length]
              have hfold := foldl_setPrev_lay st1.nodes.length K st.nodes [] (-1) (some curh)
                st.nodes.length rfl
              simp only [List.append_nil] at hfold
              refine ⟨-1, curh, atr, K, ?_, ?_, ?_, ?_⟩
              · rw [e2, hcount]
                rw [e1] at hfold ⊢
                rw [hfold]
                simp only [XForest.lay, Option.map_none', List.length_append,
                  XForest.lay_length, List.append_assoc, Nat.cast_add]
              · rw [← h2, hlen1]
              · have hk0 : K.count ≠ 0 := by omega
                simp only [XForest.tipIds, if_neg hk0, List.append_nil]
                rw [e6]
                have e : hi + 1 - low = hi - low + 1 := by omega
                rw [e]
              · exact ⟨fun _ => rfl, e4, trivial⟩

end Biopy

namespace Biopy

theorem XForest.lay_tips : ∀ (F : XForest) (base : Nat) (par : Int) (ph : Option ℚ),
    ((F.lay base par ph).filter (fun n => n.nSons = 0)).map (fun n => n.itax) = F.tipIds := by
  intro F
  induction F with
  | nil => intro base par ph; rfl
  | cons t h a k r ihk ihr =>
    intro base par ph
    simp only [XForest.lay, List.filter_append, List.map_append, ihk, XForest.tipIds]
    by_cases hc : k.count = 0
    · have hk : k = XForest.nil := by
        cases k with
        | nil => rfl
        | cons _ _ _ _ _ => simp [XForest.count] at hc
      subst hk
      simp [XForest.tipIds, XForest.count, List.filter_cons, ihr]
    · simp [List.filter_cons, hc, ihr]

theorem XForest.lay_inner : ∀ (F : XForest) (base : Nat) (par : Int) (ph : Option ℚ),
    F.InnerUnnamed → ∀ n ∈ F.lay base par ph, n.nSons ≠ 0 → n.itax = -1 := by
  intro F
  induction F with
  | nil => intro base par ph _ n hn; simp [XForest.lay] at hn
  | cons t h a k r ihk ihr =>
    intro base par ph hF n hn hs
    obtain ⟨h1, h2, h3⟩ := hF
    simp only [XForest.lay, List.mem_append, List.mem_cons] at hn
    rcases hn with hn | hn | hn
    · exact ihk _ _ _ h2 n hn hs
    · subst hn
      exact h1 hs
    · exact ihr _ _ _ h3 n hn hs

/-- What `setup` returns is the layout of one tree, with the branch lengths and heights
cleared when the tree is a cladogram. -/
theorem setup_lay (ts : TreesSet) (fuel nt : Nat) (rep : TreeRep)
    (internals : List Expanded) (hrep : ts.trees.get? nt = some rep)
    (hset : ts.setup fuel nt = Except.ok internals) :
    ∃ t hh a kids,
      internals = (if rep.isCladogram then
          ((XForest.cons t hh a kids XForest.nil).lay 0 (-1) none).map
            (fun x => { x with branch := none, height := -1 })
        else (XForest.cons t hh a kids XForest.nil).lay 0 (-1) none)
      ∧ (XForest.cons t hh a kids XForest.nil).tipIds
          = (rep.topology.take (rep.getHeights.1.length + 1)).map Int.ofNat
      ∧ (XForest.cons t hh a kids XForest.nil).InnerUnnamed := by
  simp only [TreesSet.setup, hrep] at hset
  cases hx : rep2treeInternal rep.topology
      (if rep.getHeights.2.length = 0 then List.replicate rep.topology.length 0
        else rep.getHeights.2)
      rep.getHeights.1 rep.attributes (2 * rep.topology.length) fuel (ExpState.mk [] 0)
      0 rep.getHeights.1.length (2 * rep.topology.length) with
  | error e => rw [hx] at hset; cases hset
  | ok q =>
    obtain ⟨st, k⟩ := q
    rw [hx] at hset
    simp only [] at hset
    obtain ⟨t, hh, a, kids, c1, _, c3, c4⟩ :=
      rep2treeInternal_lay _ _ _ _ _ _ _ _ _ _ _ _ (Nat.zero_le _) hx
    simp only [List.nil_append, List.length_nil, List.drop_zero, Nat.sub_zero] at c1 c3
    refine ⟨t, hh, a, kids, ?_, c3, c4⟩
    by_cases hcl : rep.isCladogram = true
    · rw [if_pos hcl] at hset ⊢
      simp only [Except.ok.injEq] at hset
      rw [← hset, c1]
    · rw [if_neg hcl] at hset ⊢
      simp only [Except.ok.injEq] at hset
      rw [← hset, c1]

/-- The parent links of what `setup` returns. -/
theorem setup_links (ts : TreesSet) (fuel nt : Nat) (internals : List Expanded)
    (hset : ts.setup fuel nt = Except.ok internals) :
    internals ≠ [] ∧
    ∀ (i : Nat) (n : Expanded), internals[i]? = some n →
      n.nSons = n.sons.length
      ∧ (∀ s ∈ n.sons, s < i ∧ ∃ c, internals[s]? = some c ∧ c.prev = (i : Int))
      ∧ ((i = internals.length - 1 ∧ n.prev = -1)
          ∨ ∃ (p : Nat) (pn : Expanded), n.prev = (p : Int) ∧ i < p
              ∧ internals[p]? = some pn ∧ i ∈ pn.sons ∧ pn.nSons ≠ 0) := by
  cases hrep : ts.trees.get? nt with
  | none =>
    simp only [TreesSet.setup, hrep] at hset
    cases hset
  | some rep =>
    obtain ⟨t, hh, a, kids, c1, _, _⟩ := setup_lay ts fuel nt rep internals hrep hset
    have key : ∀ (f : Expanded → Expanded), (∀ x, (f x).sons = x.sons) →
        (∀ x, (f x).nSons = x.nSons) → (∀ x, (f x).prev = x.prev) →
        internals = ((XForest.cons t hh a kids XForest.nil).lay 0 (-1) none).map f →
        internals ≠ [] ∧
        ∀ (i : Nat) (n : Expanded), internals[i]? = some n →
          n.nSons = n.sons.length
          ∧ (∀ s ∈ n.sons, s < i ∧ ∃ c, internals[s]? = some c ∧ c.prev = (i : Int))
          ∧ ((i = internals.length - 1 ∧ n.prev = -1)
              ∨ ∃ (p : Nat) (pn : Expanded), n.prev = (p : Int) ∧ i < p
                  ∧ internals[p]? = some pn ∧ i ∈ pn.sons ∧ pn.nSons ≠ 0) := by
      intro f f1 f2 f3 hi
      have hlen : internals.length = kids.size + 1 := by
        rw [hi, List.length_map, XForest.lay_length]
        simp [XForest.size]
      refine ⟨fun h0 => by rw [h0] at hlen; simp at hlen, ?_⟩
      intro i n hget
      rw [hi, List.getElem?_map] at hget
      cases hg : ((XForest.cons t hh a kids XForest.nil).lay 0 (-1) none)[i]? with
      | none => rw [hg] at hget; simp at hget
      | some m =>
        rw [hg] at hget
        simp only [Option.map_some', Option.some.injEq] at hget
        subst hget
        have hlt : i < 0 + (XForest.cons t hh a kids XForest.nil).size := by
          have := (List.getElem?_eq_some.mp hg).1
          rw [XForest.lay_length] at this
          omega
        have hg2 : ([] ++ (XForest.cons t hh a kids XForest.nil).lay 0 (-1) none ++ [])[i]?
            = some m := by simpa using hg
        obtain ⟨s1, s2⟩ := XForest.lay_sons _ [] [] (-1) none 0 rfl i m (Nat.zero_le _) hlt hg2
        refine ⟨by rw [f1, f2]; exact s1, ?_, ?_⟩
        · intro s hs
          rw [f1] at hs
          obtain ⟨_, r2, c, r3, r4, _⟩ := s2 s hs
          refine ⟨r2, f c, ?_, by rw [f3]; exact r4⟩
          rw [hi, List.getElem?_map]
          simp only [List.nil_append, List.append_nil] at r3
          rw [r3]
          rfl
        · rcases XForest.lay_prev _ [] [] (-1) none 0 rfl i m (Nat.zero_le _) hlt hg2 with
            ⟨q1, q2⟩ | ⟨p, pn, q1, q2, q3, q4, q5, q6⟩
          · left
            simp only [XForest.roots, List.mem_singleton, Nat.zero_add] at q1
            exact ⟨by rw [hlen, q1]; omega, by rw [f3]; exact q2⟩
          · right
            refine ⟨p, f pn, by rw [f3]; exact q1, q2, ?_, by rw [f1]; exact q5,
              by rw [f2]; exact q6⟩
            rw [hi, List.getElem?_map]
            simp only [List.nil_append, List.append_nil] at q4
            rw [q4]
            rfl
    by_cases hcl : rep.isCladogram = true
    · rw [if_pos hcl] at c1
      exact key (fun x => { x with branch := none, height := -1 })
        (fun _ => rfl) (fun _ => rfl) (fun _ => rfl) c1
    · rw [if_neg hcl] at c1
      exact key id (fun _ => rfl) (fun _ => rfl) (fun _ => rfl) (by simpa using c1)

end Biopy

namespace Biopy

/-- The branch lengths of what `setup` returns for a phylogram. -/
theorem setup_branches (ts : TreesSet) (fuel nt : Nat) (rep : TreeRep)
    (internals : List Expanded) (hrep : ts.trees.get? nt = some rep)
    (hph : rep.isCladogram = false) (hset : ts.setup fuel nt = Except.ok internals) :
    ∀ (i : Nat) (n : Expanded), internals[i]? = some n →
      ∀ s ∈ n.sons, ∃ c, internals[s]? = some c ∧ c.branch = some (n.height - c.height) := by
  obtain ⟨t, hh, a, kids, c1, _, _⟩ := setup_lay ts fuel nt rep internals hrep hset
  rw [hph] at c1
  simp only [Bool.false_eq_true, if_false] at c1
  intro i n hget s hs
  have hlt : i < 0 + (XForest.cons t hh a kids XForest.nil).size := by
    have := (List.getElem?_eq_some.mp hget).1
    rw [c1, XForest.lay_length] at this
    omega
  have hg2 : ([] ++ (XForest.cons t hh a kids XForest.nil).lay 0 (-1) none ++ [])[i]?
      = some n := by rw [c1] at hget; simpa using hget
  obtain ⟨_, s2⟩ := XForest.lay_sons _ [] [] (-1) none 0 rfl i n (Nat.zero_le _) hlt hg2
  obtain ⟨_, _, c, r3, _, r5⟩ := s2 s hs
  refine ⟨c, ?_, r5⟩
  rw [c1]
  simpa using r3

theorem filterMap_const {α β : Type} (f : α → Option β) (h : β) : ∀ (l : List α),
    (∀ c ∈ l, f c = some h) → l.filterMap f = List.replicate l.length h := by
  intro l
  induction l with
  | nil => intro _; rfl
  | cons x xs ih =>
    intro hl
    rw [List.filterMap_cons_some (hl x (by simp)), ih (fun c hc => hl c (by simp [hc]))]
    rfl

theorem max_replicate (h : ℚ) : ∀ (n : Nat), (List.replicate (n + 1) h).max? = some h := by
  intro n
  induction n with
  | zero => simp [List.max?]
  | succ n ih =>
    rw [List.replicate_succ, List.max?_cons]
    rw [ih]
    simp

/-- The tree `add` has stored for an accepted text: it has a tip, and one height fewer
than tips. -/
theorem add_stored_shape (strtod : Str → ℚ × Nat) (fuel : Nat) (ts ts1 : TreesSet)
    (txt : Str) (kwds : Option Attributes) (i nc : Nat) (nodes : List ParsedTreeNode)
    (hr : readSubTree strtod fuel txt [] = ParseResult.ok nc nodes)
    (hadd : ts.add strtod fuel txt kwds = (ts1, AddResult.added i))
    (hstore : ts.store = false) (hwf : ts.TaxaWF)
    (hsize : ts.taxaList.length + nodes.length < 4294967296) :
    ∃ rep, ts1.trees.get? i = some rep
      ∧ 1 ≤ rep.topology.length
      ∧ rep.getHeights.1.length + 1 = rep.topology.length := by
  obtain ⟨rep, hrep, _, _, hget⟩ := add_stored strtod fuel ts ts1 txt kwds i nc nodes hr hadd hstore
  have hwf2 : TreesSet.TaxaWF { ts with treesAttributes := ts.treesAttributes ++ [kwds] } :=
    fun l k h => hwf l k h
  obtain ⟨htopo, _, hlen, hhl⟩ := nodes2rep_leaf_ids strtod fuel fuel txt nc nodes
    { ts with treesAttributes := ts.treesAttributes ++ [kwds] } rep hr hwf2 hsize hrep
  obtain ⟨h0, _⟩ := nodes2rep_ok_inv _ fuel nodes rep hrep
  obtain ⟨_, h2, _, _, _⟩ := scan_foldl nodes
    (ScanState.mk { ts with treesAttributes := ts.treesAttributes ++ [kwds] } [] true false 0)
  simp only [List.nil_append] at h2
  have e2 : (scanAll { ts with treesAttributes := ts.treesAttributes ++ [kwds] } nodes).taxa
      = (internAll { ts with treesAttributes := ts.treesAttributes ++ [kwds] }
          (leafLabels nodes)).2 := h2
  have hpos : 1 ≤ rep.topology.length := by
    rw [htopo]
    rw [e2] at h0
    unfold leafLabels at h0
    omega
  rw [← hlen] at hhl
  exact ⟨rep, hget, hpos, by omega⟩

/-! ## The nodes of an expansion -/

/-- C21 (counterexample): the text `((A,B),(C,D));` is stored with the topology
0, 1, 2, 3, and in its expansion the node with id 2 is the node of the sons 0 and 1: its
taxon is -1, not `topology[2] = 2`.  The tip 2 is the node with id 3. -/
theorem expansion_node_two_is_inner :
    (TreesSet.add strtodDigits 9 (TreesSet.new false 4 false) textFourTips none).1.trees.map
        TreeRep.topology = [[0, 1, 2, 3]]
      ∧ ((TreesSet.add strtodDigits 9 (TreesSet.new false 4 false) textFourTips none).1.setup
          9 0).map (fun l => l.map (fun n => (n.itax, n.sons)))
        = Except.ok [(0, []), (1, []), (-1, [0, 1]), (2, []), (3, []), (-1, [3, 4]),
            (-1, [2, 5])] := by
  decide!

/-- C21 (amended): for every tree `T` that `add` stores (in a set that keeps
representations, the dictionary agreeing with the list of taxa, ids fitting 32 bits),
whenever `setup` expands the tree, the nodes of the expansion that have no sons are, in
the order of the vector, the tips of `T`: the `i`-th of them has the taxon
`T.topology[i]`; and every node with sons has the taxon -1. -/
theorem expansion_tips_in_order (strtod : Str → ℚ × Nat) (fuel : Nat) (ts ts1 : TreesSet)
    (txt : Str) (kwds : Option Attributes) (i nc : Nat) (nodes : List ParsedTreeNode)
    (hr : readSubTree strtod fuel txt [] = ParseResult.ok nc nodes)
    (hadd : ts.add strtod fuel txt kwds = (ts1, AddResult.added i))
    (hstore : ts.store = false) (hwf : ts.TaxaWF)
    (hsize : ts.taxaList.length + nodes.length < 4294967296) :
    ∃ rep, ts1.trees.get? i = some rep
      ∧ ∀ (f : Nat) (internals : List Expanded), ts1.setup f i = Except.ok internals →
          (internals.filter (fun n => n.nSons = 0)).map (fun n => n.itax)
              = rep.topology.map Int.ofNat
          ∧ ∀ n ∈ internals, n.nSons ≠ 0 → n.itax = -1 := by
  obtain ⟨rep, hget, _, hlen⟩ :=
    add_stored_shape strtod fuel ts ts1 txt kwds i nc nodes hr hadd hstore hwf hsize
  refine ⟨rep, hget, ?_⟩
  intro f internals hset
  obtain ⟨t, hh, a, kids, c1, c2, c3⟩ := setup_lay ts1 f i rep internals hget hset
  rw [hlen, List.take_length] at c2
  have e1 := XForest.lay_tips (XForest.cons t hh a kids XForest.nil) 0 (-1) none
  have e2 := XForest.lay_inner (XForest.cons t hh a kids XForest.nil) 0 (-1) none c3
  by_cases hcl : rep.isCladogram = true
  · rw [if_pos hcl] at c1
    subst c1
    constructor
    · rw [← c2, ← e1]
      simp only [List.filter_map, List.map_map]
      rfl
    · intro n hn hs
      simp only [List.mem_map] at hn
      obtain ⟨m, hm, rfl⟩ := hn
      exact e2 m hm hs
  · rw [if_neg hcl] at c1
    subst c1
    exact ⟨by rw [← c2, ← e1], e2⟩

theorem expansion_tips_in_order_witness :
    readSubTree strtodDigits 9 "((A,B),(C,D))".toList [] =
        ParseResult.ok 13 [ParsedTreeNode.mk ['A'] none [] none,
          ParsedTreeNode.mk ['B'] none [] none, ParsedTreeNode.mk [] none [0, 1] none,
          ParsedTreeNode.mk ['C'] none [] none, ParsedTreeNode.mk ['D'] none [] none,
          ParsedTreeNode.mk [] none [3, 4] none, ParsedTreeNode.mk [] none [2, 5] none]
      ∧ ((TreesSet.add strtodDigits 9 (TreesSet.new false 4 false) "((A,B),(C,D))".toList
            none).1.setup 9 0).map List.length = Except.ok 7
      ∧ ∃ rep,
          (TreesSet.add strtodDigits 9 (TreesSet.new false 4 false) "((A,B),(C,D))".toList
            none).1.trees.get? 0 = some rep
          ∧ ∀ (f : Nat) (internals : List Expanded),
              (TreesSet.add strtodDigits 9 (TreesSet.new false 4 false)
                "((A,B),(C,D))".toList none).1.setup f 0 = Except.ok internals →
              (internals.filter (fun n => n.nSons = 0)).map (fun n => n.itax)
                  = rep.topology.map Int.ofNat
              ∧ ∀ n ∈ internals, n.nSons ≠ 0 → n.itax = -1 :=
  ⟨by decide!, by decide!,
    expansion_tips_in_order strtodDigits 9 (TreesSet.new false 4 false) _
      "((A,B),(C,D))".toList none 0 13
      [ParsedTreeNode.mk ['A'] none [] none,
        ParsedTreeNode.mk ['B'] none [] none, ParsedTreeNode.mk [] none [0, 1] none,
        ParsedTreeNode.mk ['C'] none [] none, ParsedTreeNode.mk ['D'] none [] none,
        ParsedTreeNode.mk [] none [3, 4] none, ParsedTreeNode.mk [] none [2, 5] none]
      (by decide!) (by decide!) rfl (taxaWF_new false 4 false) (by decide)⟩

/-- C22: in the expansion `setup` returns for a phylogram, every son `c` of a node `v`
with sons has a branch length, and `v.height = c.height + c.branch` (the numbers taken
exactly); so the values `height + branch` of the sons of `v` are as many as its sons and
their maximum is `v.height`. -/
theorem phylogram_height_above_sons (ts : TreesSet) (fuel nt : Nat) (rep : TreeRep)
    (internals : List Expanded) (hrep : ts.trees.get? nt = some rep)
    (hph : rep.isCladogram = false) (hset : ts.setup fuel nt = Except.ok internals) :
    ∀ (v : Nat) (nv : Expanded), internals[v]? = some nv → nv.nSons ≠ 0 →
      (∀ c ∈ nv.sons, ∃ nc b, internals[c]? = some nc ∧ nc.branch = some b
          ∧ nv.height = nc.height + b)
      ∧ (sonTops internals nv).length = nv.sons.length
      ∧ (sonTops internals nv).max? = some nv.height := by
  intro v nv hget hs
  have hb := setup_branches ts fuel nt rep internals hrep hph hset v nv hget
  obtain ⟨_, hl⟩ := setup_links ts fuel nt internals hset
  obtain ⟨l1, _, _⟩ := hl v nv hget
  have hf : ∀ c ∈ nv.sons, (fun c =>
      match internals.get? c with
      | some nc => nc.branch.map (fun b => nc.height + b)
      | none => none) c = some nv.height := by
    intro c hc
    obtain ⟨nc, h1, h2⟩ := hb c hc
    simp only [List.get?_eq_getElem?, h1, h2, Option.map_some', Option.some.injEq]
    ring
  have e : sonTops internals nv = List.replicate nv.sons.length nv.height :=
    filterMap_const _ _ _ hf
  refine ⟨?_, by rw [e, List.length_replicate], ?_⟩
  · intro c hc
    obtain ⟨nc, h1, h2⟩ := hb c hc
    exact ⟨nc, nv.height - nc.height, h1, h2, by ring⟩
  · rw [e]
    have : nv.sons.length = (nv.sons.length - 1) + 1 := by omega
    rw [this]
    exact max_replicate _ _

theorem phylogram_height_above_sons_witness :
    (TreesSet.add strtodDigits 9 (TreesSet.new false 4 false) "((A:1,B:1):1,C:2)".toList
        none).1.setup 9 0
      = Except.ok [Expanded.mk 0 0 [] (some 1) 0 2 none, Expanded.mk 1 0 [] (some 1) 0 2 none,
          Expanded.mk (-1) 2 [0, 1] (some 1) 1 4 none, Expanded.mk 2 0 [] (some 2) 0 4 none,
          Expanded.mk (-1) 2 [2, 3] none 2 (-1) none]
      ∧ ∀ (v : Nat) (nv : Expanded),
          [Expanded.mk 0 0 [] (some 1) 0 2 none, Expanded.mk 1 0 [] (some 1) 0 2 none,
            Expanded.mk (-1) 2 [0, 1] (some 1) 1 4 none, Expanded.mk 2 0 [] (some 2) 0 4 none,
            Expanded.mk (-1) 2 [2, 3] none 2 (-1) none][v]? = some nv → nv.nSons ≠ 0 →
          (∀ c ∈ nv.sons, ∃ nc b,
              [Expanded.mk 0 0 [] (some 1) 0 2 none, Expanded.mk 1 0 [] (some 1) 0 2 none,
                Expanded.mk (-1) 2 [0, 1] (some 1) 1 4 none,
                Expanded.mk 2 0 [] (some 2) 0 4 none,
                Expanded.mk (-1) 2 [2, 3] none 2 (-1) none][c]? = some nc
              ∧ nc.branch = some b ∧ nv.height = nc.height + b)
          ∧ (sonTops [Expanded.mk 0 0 [] (some 1) 0 2 none,
                Expanded.mk 1 0 [] (some 1) 0 2 none,
                Expanded.mk (-1) 2 [0, 1] (some 1) 1 4 none,
                Expanded.mk 2 0 [] (some 2) 0 4 none,
                Expanded.mk (-1) 2 [2, 3] none 2 (-1) none] nv).length = nv.sons.length
          ∧ (sonTops [Expanded.mk 0 0 [] (some 1) 0 2 none,
                Expanded.mk 1 0 [] (some 1) 0 2 none,
                Expanded.mk (-1) 2 [0, 1] (some 1) 1 4 none,
                Expanded.mk 2 0 [] (some 2) 0 4 none,
                Expanded.mk (-1) 2 [2, 3] none 2 (-1) none] nv).max? = some nv.height :=
  ⟨by decide!,
    phylogram_height_above_sons
      (TreesSet.add strtodDigits 9 (TreesSet.new false 4 false) "((A:1,B:1):1,C:2)".toList
        none).1 9 0
      (TreeRep.mk (Packer.simple [0, 1, 2]) (Heights.phylogram [1, 2] none) none) _
      (by decide!) (by decide!) (by decide!)⟩

/-- C23: in the expansion `setup` returns for a tree, a node has `prev = -1` exactly when
it is the last node of the vector, the node `getRootID` names; every other node has as
`prev` the index of a node with sons that has it among its sons, that index is larger
than its own, and no other node has it among its sons. -/
theorem expansion_single_root (ts : TreesSet) (fuel nt : Nat) (internals : List Expanded)
    (hset : ts.setup fuel nt = Except.ok internals) :
    internals ≠ [] ∧ getRootID internals = internals.length - 1
    ∧ ∀ (i : Nat) (n : Expanded), internals[i]? = some n →
        (n.prev = -1 ↔ i = getRootID internals)
        ∧ (i ≠ getRootID internals →
            ∃ (p : Nat) (pn : Expanded), n.prev = (p : Int) ∧ i < p
              ∧ internals[p]? = some pn ∧ pn.nSons ≠ 0 ∧ i ∈ pn.sons
              ∧ ∀ (q : Nat) (qn : Expanded), internals[q]? = some qn → i ∈ qn.sons → q = p) := by
  obtain ⟨hne, hl⟩ := setup_links ts fuel nt internals hset
  have hroot : getRootID internals = internals.length - 1 := by
    unfold getRootID
    rw [if_neg]
    intro h0
    exact hne (List.length_eq_zero.mp h0)
  refine ⟨hne, hroot, ?_⟩
  intro i n hget
  obtain ⟨_, _, l3⟩ := hl i n hget
  have huniq : ∀ (q : Nat) (qn : Expanded), internals[q]? = some qn → i ∈ qn.sons →
      n.prev = (q : Int) := by
    intro q qn hq hi
    obtain ⟨_, l2, _⟩ := hl q qn hq
    obtain ⟨_, c, hc, hp⟩ := l2 i hi
    rw [hget] at hc
    simp only [Option.some.injEq] at hc
    rw [hc]
    exact hp
  rcases l3 with ⟨r1, r2⟩ | ⟨p, pn, q1, q2, q3, q4, q5⟩
  · have hi : i = getRootID internals := by rw [hroot]; exact r1
    exact ⟨⟨fun _ => hi, fun _ => r2⟩, fun hn => absurd hi hn⟩
  · constructor
    · constructor
      · intro h1
        rw [h1] at q1
        omega
      · intro h1
        have := (List.getElem?_eq_some.mp q3).1
        rw [hroot] at h1
        omega
    · intro _
      refine ⟨p, pn, q1, q2, q3, q5, q4, ?_⟩
      intro q qn hq hi
      have := huniq q qn hq hi
      rw [q1] at this
      exact (Int.ofNat_inj.mp this).symm

theorem expansion_single_root_witness :
    (TreesSet.add strtodDigits 9 (TreesSet.new false 4 false) "((A,B),(C,D))".toList
        none).1.setup 9 0
      = Except.ok [Expanded.mk 0 0 [] none (-1) 2 none, Expanded.mk 1 0 [] none (-1) 2 none,
          Expanded.mk (-1) 2 [0, 1] none (-1) 6 none, Expanded.mk 2 0 [] none (-1) 5 none,
          Expanded.mk 3 0 [] none (-1) 5 none, Expanded.mk (-1) 2 [3, 4] none (-1) 6 none,
          Expanded.mk (-1) 2 [2, 5] none (-1) (-1) none]
      ∧ getRootID [Expanded.mk 0 0 [] none (-1) 2 none, Expanded.mk 1 0 [] none (-1) 2 none,
          Expanded.mk (-1) 2 [0, 1] none (-1) 6 none, Expanded.mk 2 0 [] none (-1) 5 none,
          Expanded.mk 3 0 [] none (-1) 5 none, Expanded.mk (-1) 2 [3, 4] none (-1) 6 none,
          Expanded.mk (-1) 2 [2, 5] none (-1) (-1) none] = 6 :=
  ⟨by decide!,
    (expansion_single_root
      (TreesSet.add strtodDigits 9 (TreesSet.new false 4 false) "((A,B),(C,D))".toList
        none).1 9 0 _ (by decide!)).2.1⟩

end Biopy

namespace Biopy

/-! ## Annotations -/

/-- C24: the text `A[&a=1][&b=2]` is accepted and its node carries the attribute of the
last block only, `[(b,2)]`: each `[&` block assigns a new list to the node.  The same
attributes in one block, `A[&a=1,b=2]`, give `[(a,1),(b,2)]`. -/
theorem later_block_replaces_attributes :
    parseTree strtodDigits 5 "A[&a=1][&b=2]".toList
        = Except.ok [ParsedTreeNode.mk ['A'] none [] (some [(['b'], ['2'])])]
      ∧ parseTree strtodDigits 5 "A[&a=1,b=2]".toList
        = Except.ok [ParsedTreeNode.mk ['A'] none [] (some [(['a'], ['1']), (['b'], ['2'])])] := by
  decide!

/-- C27: in the text `((A)[&x=1],B)` the tips `A` and `B` carry no annotation and the
node with the single son `A` carries `x=1`.  `add` stores the tree, with `x=1` in the
slot 1 of the vector of attributes, the slot of the second tip (`locs + nTaxa = -1 + 2`),
and in the expansion the leaf of `B` carries `x=1`. -/
theorem annotation_lands_on_last_tip :
    parseTree strtodDigits 9 "((A)[&x=1],B)".toList
        = Except.ok [ParsedTreeNode.mk ['A'] none [] none,
            ParsedTreeNode.mk [] none [0] (some [(['x'], ['1'])]),
            ParsedTreeNode.mk ['B'] none [] none, ParsedTreeNode.mk [] none [1, 2] none]
      ∧ (TreesSet.add strtodDigits 9 (TreesSet.new false 4 false) "((A)[&x=1],B)".toList
          none).2 = AddResult.added 0
      ∧ (TreesSet.add strtodDigits 9 (TreesSet.new false 4 false) "((A)[&x=1],B)".toList
          none).1.trees
        = [TreeRep.mk (Packer.simple [0, 1]) (Heights.cladogram (Packer.simple [2]))
            (some [none, some [(['x'], ['1'])], none, none])]
      ∧ (TreesSet.add strtodDigits 9 (TreesSet.new false 4 false) "((A)[&x=1],B)".toList
          none).1.setup 9 0
        = Except.ok [Expanded.mk 0 0 [] none (-1) 2 none,
            Expanded.mk 1 0 [] none (-1) 2 (some [(['x'], ['1'])]),
            Expanded.mk (-1) 2 [0, 1] none (-1) (-1) none] := by
  decide!

/-- C28: in the text `(A,(B,C)[&y=2])[&x=1]` the node of `B` and `C` carries `y=2` and
the root carries `x=1`.  The encoder stores both in the slot 4 of the vector of
attributes (`locs + nTaxa = 1 + 3` for either node), so `y=2` is lost; the expander
reads the slot 4 for the node of `B` and `C` and the slot 3 for the root: in the
expansion the node of `B` and `C` carries `x=1` and the root carries nothing. -/
theorem inner_annotations_share_a_slot :
    parseTree strtodDigits 9 "(A,(B,C)[&y=2])[&x=1]".toList
        = Except.ok [ParsedTreeNode.mk ['A'] none [] none, ParsedTreeNode.mk ['B'] none [] none,
            ParsedTreeNode.mk ['C'] none [] none,
            ParsedTreeNode.mk [] none [1, 2] (some [(['y'], ['2'])]),
            ParsedTreeNode.mk [] none [0, 3] (some [(['x'], ['1'])])]
      ∧ (TreesSet.add strtodDigits 9 (TreesSet.new false 4 false)
          "(A,(B,C)[&y=2])[&x=1]".toList none).1.trees
        = [TreeRep.mk (Packer.simple [0, 1, 2]) (Heights.cladogram (Packer.simple [2, 1]))
            (some [none, none, none, none, some [(['x'], ['1'])]])]
      ∧ (TreesSet.add strtodDigits 9 (TreesSet.new false 4 false)
          "(A,(B,C)[&y=2])[&x=1]".toList none).1.setup 9 0
        = Except.ok [Expanded.mk 0 0 [] none (-1) 4 none, Expanded.mk 1 0 [] none (-1) 3 none,
            Expanded.mk 2 0 [] none (-1) 3 none,
            Expanded.mk (-1) 2 [1, 2] none (-1) 4 (some [(['x'], ['1'])]),
            Expanded.mk (-1) 2 [0, 3] none (-1) (-1) none] := by
  decide!

/-- C29: the text `(A[&y=1],B,C)` has three tips and four nodes, and the vector of
attributes `add` stores for it has four slots, not `2 * 3 - 1 = 5`.  For the text
`(A,B,C)[&x=1]`, whose root carries the attributes, the encoder leaves `locs` as
-1, 0, 1, 1 and writes the slot `locs + nTaxa = 1 + 3 = 4`: in the vector of four slots
it allocates the write is outside the vector, in a vector of five slots it would fill the
last slot. -/
theorem attributes_sized_by_node_count :
    (TreesSet.add strtodDigits 9 (TreesSet.new false 4 false) "(A[&y=1],B,C)".toList
        none).1.trees
        = [TreeRep.mk (Packer.simple [0, 1, 2]) (Heights.cladogram (Packer.simple [1, 1]))
            (some [some [(['y'], ['1'])], none, none, none])]
      ∧ (encodeLoop 9 true 3 (List.range 4)
          (encStart [ParsedTreeNode.mk ['A'] none [] none, ParsedTreeNode.mk ['B'] none [] none,
            ParsedTreeNode.mk ['C'] none [] none,
            ParsedTreeNode.mk [] none [0, 1, 2] (some [(['x'], ['1'])])] 3)).map
            (fun st => st.locs) = Except.ok [-1, 0, 1, 1]
      ∧ (storeAttributes 3 [-1, 0, 1, 1]
          [ParsedTreeNode.mk ['A'] (some 1) [] none, ParsedTreeNode.mk ['B'] (some 1) [] none,
            ParsedTreeNode.mk ['C'] (some 1) [] none,
            ParsedTreeNode.mk [] none [0, 1, 2] (some [(['x'], ['1'])])] 0
          (List.replicate 4 none)).map (fun l => l.map Option.isSome)
        = Except.error Abort.undefined
      ∧ (storeAttributes 3 [-1, 0, 1, 1]
          [ParsedTreeNode.mk ['A'] (some 1) [] none, ParsedTreeNode.mk ['B'] (some 1) [] none,
            ParsedTreeNode.mk ['C'] (some 1) [] none,
            ParsedTreeNode.mk [] none [0, 1, 2] (some [(['x'], ['1'])])] 0
          (List.replicate 5 none)).map (fun l => l.map Option.isSome)
        = Except.ok [false, false, false, false, true]
      ∧ ((TreesSet.new false 4 false).nodes2rep 9
          [ParsedTreeNode.mk ['A'] none [] none, ParsedTreeNode.mk ['B'] none [] none,
            ParsedTreeNode.mk ['C'] none [] none,
            ParsedTreeNode.mk [] none [0, 1, 2] (some [(['x'], ['1'])])]).2
        = Except.error Abort.undefined := by
  decide!

end Biopy

namespace Biopy

/-! ## Values in braces -/

theorem getStuff_first (sep : Char) (rest : Str) : ∀ (v : Str) (prev : Char),
    List.Chain (fun a b => b = sep → a = backslash) prev v →
    v.getLast?.getD prev ≠ backslash →
    getStuff sep prev (v ++ sep :: rest) = some v.length := by
  intro v
  induction v with
  | nil =>
    intro prev _ hl
    have hp : (prev == backslash) = false := by
      simpa using hl
    simp [getStuff, hp]
  | cons c cs ih =>
    intro prev hc hl
    obtain ⟨h1, h2⟩ := List.chain_cons.mp hc
    have hl2 : cs.getLast?.getD c ≠ backslash := by
      cases cs with
      | nil => simpa using hl
      | cons d ds => simpa [List.getLast?_cons_cons] using hl
    have hcond : (c != sep || prev == backslash) = true := by
      by_cases hcs : c = sep
      · simp [h1 hcs]
      · simp [hcs]
    have e : getStuff sep prev (c :: (cs ++ sep :: rest))
        = if c != sep || prev == backslash then
            (getStuff sep c (cs ++ sep :: rest)).map (fun e => e + 1)
          else some 0 := rfl
    rw [List.cons_append, e, if_pos hcond, ih c h2 hl2]
    rfl

theorem findIndexFrom_at (ch : Char) (stopAt tail : Str) : ∀ (name : Str) (k : Nat),
    (∀ c ∈ name, c ≠ ch ∧ has c stopAt = false) →
    findIndexFrom ch stopAt (name ++ ch :: tail) k = some (k + name.length) := by
  intro name
  induction name with
  | nil => intro k _; simp [findIndexFrom]
  | cons c cs ih =>
    intro k hn
    obtain ⟨h1, h2⟩ := hn c (by simp)
    have h3 : (c == ch) = false := by simpa using h1
    have ih2 := ih (k + 1) (fun d hd => hn d (by simp [hd]))
    cases hcs : cs ++ ch :: tail with
    | nil => simp at hcs
    | cons d ds =>
      have e : findIndexFrom ch stopAt (c :: d :: ds) k
          = if c == ch then some k
            else if has c stopAt then some k
            else findIndexFrom ch stopAt (d :: ds) (k + 1) := rfl
      rw [hcs] at ih2
      rw [List.cons_append, hcs, e, h3, h2, ih2]
      simp only [Bool.false_eq_true, if_false, List.length_cons, Option.some.injEq]
      omega

/-- C26 (counterexample): in the annotation `[&x={{1,2},{3,4}}]` the value of `x` is read
up to the first closing brace, as `{1,2`, the text left is `,{3,4}}]`, where no name
followed by `=` is found, and the text `(A[&x={{1,2},{3,4}}],B)` is rejected. -/
theorem nested_braces_rejected :
    attrValue (lbrace :: lbrace :: "1,2".toList ++ rbrace :: ',' :: lbrace :: "3,4".toList
        ++ [rbrace, rbrace, ']'])
        = ValueResult.ok 6 (lbrace :: "1,2".toList)
      ∧ parseAttributes ("x=".toList ++ lbrace :: lbrace :: "1,2".toList
          ++ rbrace :: ',' :: lbrace :: "3,4".toList ++ [rbrace, rbrace, ']'])
        = AttrResult.fail
      ∧ parseTree strtodDigits 9 ("(A[&x=".toList ++ lbrace :: lbrace :: "1,2".toList
          ++ rbrace :: ',' :: lbrace :: "3,4".toList ++ [rbrace, rbrace] ++ "],B)".toList)
        = Except.error (AddResult.parseError 23) := by
  decide!

/-- C26 (amended): an attribute value written in braces is the text between the opening
brace and the first closing brace that is not preceded by a backslash.  When every
closing brace in `v` follows a backslash and `v` does not end in a backslash, the
annotation `name={v}]` yields the single attribute `(name, v)`, both trimmed of white
space; `name` holds none of the bytes `= , ] " { }`. -/
theorem braced_value_ends_at_first_brace (name v rest tn tv : Str)
    (hname : ∀ c ∈ name, c ≠ '=' ∧ has c [',', ']', dquote, lbrace, rbrace] = false)
    (hv : List.Chain (fun a b => b = rbrace → a = backslash) lbrace v)
    (hlast : v.getLast? ≠ some backslash)
    (htn : trimString name = some tn) (htv : trimString v = some tv) :
    parseAttributes (name ++ '=' :: lbrace :: (v ++ rbrace :: ']' :: rest))
      = AttrResult.ok (name.length + v.length + 3) [(tn, tv)] := by
  have hl : v.getLast?.getD lbrace ≠ backslash := by
    cases hg : v.getLast? with
    | none => simp only [Option.getD_none]; decide
    | some x =>
      simp only [Option.getD_some]
      intro hx
      rw [hg, hx] at hlast
      exact hlast rfl
  have hgs := getStuff_first rbrace (']' :: rest) v lbrace hv hl
  have hfi := findIndexFrom_at '=' [',', ']', dquote, lbrace, rbrace]
    (lbrace :: (v ++ rbrace :: ']' :: rest)) name 0 hname
  simp only [Nat.zero_add] at hfi
  have hhead : (name ++ '=' :: lbrace :: (v ++ rbrace :: ']' :: rest)).head? ≠ some ']' := by
    cases name with
    | nil => simp
    | cons c cs =>
      have := (hname c (by simp)).2
      simp only [List.cons_append, List.head?_cons, ne_eq, Option.some.injEq]
      intro hc
      rw [hc] at this
      simp [has] at this
  have hhead2 : (name ++ '=' :: lbrace :: (v ++ rbrace :: ']' :: rest)).head? ≠ some ',' := by
    cases name with
    | nil => simp
    | cons c cs =>
      have := (hname c (by simp)).2
      simp only [List.cons_append, List.head?_cons, ne_eq, Option.some.injEq]
      intro hc
      rw [hc] at this
      simp [has] at this
  have hfind : findIndex (name ++ '=' :: lbrace :: (v ++ rbrace :: ']' :: rest)) '='
      [',', ']', dquote, lbrace, rbrace] = FindResult.found name.length := by
    unfold findIndex
    cases hs : name ++ '=' :: lbrace :: (v ++ rbrace :: ']' :: rest) with
    | nil => simp at hs
    | cons d ds =>
      rw [hs] at hfi
      simp only [hfi]
  have hval : attrValue (lbrace :: (v ++ rbrace :: ']' :: rest))
      = ValueResult.ok (v.length + 2) v := by
    have h1 : ¬ (some lbrace = some dquote) := by decide
    unfold attrValue
    simp only [List.head?_cons, if_neg h1, if_true, List.drop_one, List.tail_cons,
      hgs, List.take_left']
  unfold parseAttributes
  simp only [parseAttributesLoop, if_neg hhead, if_neg hhead2, List.drop_zero, hfind,
    List.drop_left', List.head?_cons, if_true, htn]
  have e1 : List.drop (name.length + 1)
      (name ++ '=' :: lbrace :: (v ++ rbrace :: ']' :: rest))
      = lbrace :: (v ++ rbrace :: ']' :: rest) := by
    rw [← List.drop_drop]
    simp
  have e2 : List.drop (name.length + 1 + (v.length + 2))
      (name ++ '=' :: lbrace :: (v ++ rbrace :: ']' :: rest)) = ']' :: rest := by
    rw [← List.drop_drop, e1]
    simp only [List.drop_succ_cons]
    rw [show v.length + 1 = v.length + 1 from rfl]
    rw [← List.drop_drop]
    simp
  simp only [e1, hval, List.take_left', htn, htv, e2]
  cases hlen : (name ++ '=' :: lbrace :: (v ++ rbrace :: ']' :: rest)).length with
  | zero => simp at hlen
  | succ m =>
    simp only [parseAttributesLoop, List.head?_cons, if_true, List.nil_append,
      AttrResult.ok.injEq, and_true]
    omega

theorem braced_value_ends_at_first_brace_witness :
    parseAttributes ("x=".toList ++ lbrace :: ("1,2".toList ++ rbrace :: ']' :: "],B)".toList))
      = AttrResult.ok (1 + 3 + 3) [(['x'], "1,2".toList)] :=
  braced_value_ends_at_first_brace ['x'] "1,2".toList "],B)".toList ['x'] "1,2".toList
    (by decide)
    (List.Chain.cons (by decide) (List.Chain.cons (by decide)
      (List.Chain.cons (by decide) List.Chain.nil)))
    (by decide) (by decide) (by decide)

end Biopy

namespace Biopy

/-! ## Walks in post-order -/

theorem count_flatten_congr (g : Nat → List Nat) (p n : Nat) : ∀ (ss : List Nat),
    (∀ s ∈ ss, (g s).count p = (g s).count n) →
    (ss.map g).flatten.count p = (ss.map g).flatten.count n := by
  intro ss
  induction ss with
  | nil => intro _; rfl
  | cons s rest ih =>
    intro h
    simp only [List.map_cons, List.flatten_cons, List.count_append]
    rw [h s (by simp), ih (fun x hx => h x (by simp [hx]))]

theorem count_flatten_zero (g : Nat → List Nat) (j : Nat) : ∀ (ss : List Nat),
    (∀ s ∈ ss, (g s).count j = 0) → (ss.map g).flatten.count j = 0 := by
  intro ss
  induction ss with
  | nil => intro _; rfl
  | cons s rest ih =>
    intro h
    simp only [List.map_cons, List.flatten_cons, List.count_append]
    rw [h s (by simp), ih (fun x hx => h x (by simp [hx]))]

theorem count_flatten_one (g : Nat → List Nat) (n : Nat) : ∀ (ss : List Nat),
    ss.Nodup → n ∈ ss → (g n).count n = 1 → (∀ s ∈ ss, s ≠ n → (g s).count n = 0) →
    (ss.map g).flatten.count n = 1 := by
  intro ss
  induction ss with
  | nil => intro _ hn; simp at hn
  | cons s rest ih =>
    intro hnd hn h1 h0
    obtain ⟨hs, hnd2⟩ := List.nodup_cons.mp hnd
    simp only [List.map_cons, List.flatten_cons, List.count_append]
    by_cases hsn : s = n
    · subst hsn
      rw [h1, count_flatten_zero g s rest (fun x hx => h0 x (by simp [hx])
        (fun hxs => hs (hxs ▸ hx)))]
    · have hn2 : n ∈ rest := by
        simp only [List.mem_cons] at hn
        rcases hn with hn | hn
        · exact absurd hn.symm hsn
        · exact hn
      rw [h0 s (by simp) hsn, ih hnd2 hn2 h1 (fun x hx => h0 x (by simp [hx]))]

/-- A walk in post-order over a tree whose sons come before their parents: the ids it
gives are not above the start, the start is given once, and every other node that has a
parent is given as often as its parent. -/
theorem postOrder_counts (sons : Nat → List Nat) (par : Nat → Option Nat)
    (h1 : ∀ k s, s ∈ sons k → s < k ∧ par s = some k)
    (h2 : ∀ n p, par n = some p → n ∈ sons p)
    (h3 : ∀ k, (sons k).Nodup) :
    ∀ (fuel k : Nat), k < fuel →
      (∀ x ∈ postOrder sons fuel k, x ≤ k)
      ∧ (postOrder sons fuel k).count k = 1
      ∧ ∀ n p, n ≠ k → par n = some p →
          (postOrder sons fuel k).count p = (postOrder sons fuel k).count n := by
  intro fuel
  induction fuel with
  | zero => intro k hk; omega
  | succ f ih =>
    intro k hk
    have hs : ∀ s ∈ sons k, s < f := fun s hs => by have := (h1 k s hs).1; omega
    have ha : ∀ x ∈ ((sons k).map (postOrder sons f)).flatten, x < k := by
      intro x hx
      simp only [List.mem_flatten, List.mem_map] at hx
      obtain ⟨l, ⟨s, hs1, rfl⟩, hxl⟩ := hx
      have := (ih s (hs s hs1)).1 x hxl
      have := (h1 k s hs1).1
      omega
    have hzero : ∀ j, k ≤ j → ((sons k).map (postOrder sons f)).flatten.count j = 0 := by
      intro j hj
      rw [List.count_eq_zero]
      intro hm
      have := ha j hm
      omega
    refine ⟨?_, ?_, ?_⟩
    · intro x hx
      simp only [postOrder, List.mem_append, List.mem_singleton] at hx
      rcases hx with hx | hx
      · exact Nat.le_of_lt (ha x hx)
      · omega
    · simp only [postOrder, List.count_append, hzero k (Nat.le_refl _)]
      simp
    · intro n p hnk hp
      simp only [postOrder, List.count_append]
      have hnk' : ¬ (k = n) := fun h => hnk h.symm
      have e1 : [k].count n = 0 := by
        rw [List.count_eq_zero]
        simp only [List.mem_singleton]
        exact hnk
      rw [e1]
      by_cases hpk : p = k
      · subst hpk
        have hmem : n ∈ sons p := h2 n p hp
        rw [hzero p (Nat.le_refl _)]
        have e2 : [p].count p = 1 := by simp
        rw [e2]
        have := count_flatten_one (postOrder sons f) n (sons p) (h3 p) hmem
          (ih n (hs n hmem)).2.1
          (fun s hs1 hsn => by
            have c := (ih s (hs s hs1)).2.2 n p (fun h => hsn h.symm) hp
            rw [← c, List.count_eq_zero]
            intro hm
            have := (ih s (hs s hs1)).1 p hm
            have := (h1 p s hs1).1
            omega)
        omega
      · have hpk' : ¬ (k = p) := fun h => hpk h.symm
        have e2 : [k].count p = 0 := by
          rw [List.count_eq_zero]
          simp only [List.mem_singleton]
          exact hpk
        rw [e2]
        have := count_flatten_congr (postOrder sons f) p n (sons k)
          (fun s hs1 => by
            have hsn : n ≠ s := by
              intro hns
              subst hns
              have := (h1 k n hs1).2
              rw [hp] at this
              simp only [Option.some.injEq] at this
              exact hpk this
            exact (ih s (hs s hs1)).2.2 n p hsn hp)
        omega

end Biopy

namespace Biopy

/-! ## The node objects of a tree object -/

theorem set_same {α : Type} : ∀ (v : List α) (k : Nat) (a : α), v.get? k = some a →
    v.set k a = v := by
  intro v
  induction v with
  | nil => intro k a h; rfl
  | cons x xs ih =>
    intro k a h
    cases k with
    | zero =>
      simp only [List.get?_cons_zero, Option.some.injEq] at h
      subst h
      rfl
    | succ k =>
      simp only [List.get?_cons_succ] at h
      simp only [List.set_cons_succ, ih k a h]

theorem getD_set {α : Type} (v : List α) (k j : Nat) (a d : α) (hk : k < v.length) :
    (v.set k a).getD j d = if j = k then a else v.getD j d := by
  simp only [List.getD_eq_getElem?_getD, List.getElem?_set]
  by_cases h : j = k
  · subst h
    simp [hk]
  · have h' : ¬ (k = j) := fun e => h e.symm
    simp [h, h']

/-- What `get_node(k)` shows: nothing outside the tree, the node object kept for `k`
when there is one, else the node made from the expansion. -/
theorem view_eq (ts : TreesSet) (t : TreeObject) (k : Nat)
    (hv : ∀ v, t.treeNodes = some v → v.length = t.internals.length) :
    t.view ts k = if t.internals.length ≤ k then none else
      match t.kept k with
      | some n => some n
      | none =>
        match t.newNode ts k with
        | Except.ok n => some n
        | Except.error _ => none := by
  unfold TreeObject.view TreeObject.getNode TreeObject.kept
  by_cases hk : t.internals.length ≤ k
  · simp only [if_pos hk]
  · simp only [if_neg hk]
    cases htn : t.treeNodes with
    | none =>
      simp only [Option.getD_none, List.getD_nil]
      cases t.newNode ts k <;> rfl
    | some v =>
      have hl := hv v htn
      simp only [Option.getD_some, List.getD_eq_getElem?_getD, List.get?_eq_getElem?]
      have hlt : k < v.length := by omega
      rw [List.getElem?_eq_getElem hlt]
      simp only [Option.getD_some]
      cases v[k] with
      | none => cases t.newNode ts k <;> rfl
      | some n => rfl

theorem alloc_valid (t : TreeObject)
    (hv : ∀ v, t.treeNodes = some v → v.length = t.internals.length) :
    ∀ v, t.alloc.treeNodes = some v → v.length = t.alloc.internals.length := by
  intro v h
  unfold TreeObject.alloc at h ⊢
  simp only [Option.some.injEq] at h ⊢
  subst h
  cases htn : t.treeNodes with
  | none => simp
  | some w => simpa using hv w htn

theorem alloc_kept (t : TreeObject) (j : Nat) : t.alloc.kept j = t.kept j := by
  unfold TreeObject.alloc TreeObject.kept
  cases htn : t.treeNodes with
  | none =>
    simp only [Option.getD_none, Option.getD_some, List.getD_eq_getElem?_getD]
    simp only [List.getElem?_replicate, List.getElem?_nil, Option.getD_none]
    split <;> rfl
  | some w => simp

theorem alloc_view (ts : TreesSet) (t : TreeObject) (j : Nat)
    (hv : ∀ v, t.treeNodes = some v → v.length = t.internals.length) :
    t.alloc.view ts j = t.view ts j := by
  rw [view_eq ts t.alloc j (alloc_valid t hv), view_eq ts t j hv, alloc_kept]
  rfl

theorem update_valid (t : TreeObject) (k : Nat) (n : TreeNodeObject)
    (hv : ∀ v, t.treeNodes = some v → v.length = t.internals.length) :
    ∀ v, (t.update k n).treeNodes = some v → v.length = (t.update k n).internals.length := by
  intro v h
  unfold TreeObject.update at h ⊢
  cases htn : t.treeNodes with
  | none => rw [htn] at h; simp at h
  | some w =>
    rw [htn] at h
    simp only [Option.map_some', Option.some.injEq] at h
    subst h
    simpa using hv w htn

theorem update_view (ts : TreesSet) (t : TreeObject) (k j : Nat) (n : TreeNodeObject)
    (hv : ∀ v, t.treeNodes = some v → v.length = t.internals.length)
    (ha : t.treeNodes ≠ none) (hk : k < t.internals.length) :
    (t.update k n).view ts j = if j = k then some n else t.view ts j := by
  rw [view_eq ts _ j (update_valid t k n hv), view_eq ts t j hv]
  cases htn : t.treeNodes with
  | none => exact absurd htn ha
  | some w =>
    have hl := hv w htn
    have e1 : (t.update k n).kept j = if j = k then some n else t.kept j := by
      unfold TreeObject.update TreeObject.kept
      simp only [htn, Option.map_some', Option.getD_some]
      exact getD_set w k j (some n) none (by omega)
    have e2 : (t.update k n).internals = t.internals := rfl
    have e3 : (t.update k n).newNode ts j = t.newNode ts j := rfl
    rw [e1, e2, e3]
    by_cases hj : j = k
    · subst hj
      have : ¬ (t.internals.length ≤ j) := by omega
      simp [this]
    · simp only [if_neg hj]

/-- A call `getNode(k)` that shows a node returns it and keeps it in `treeNodes`. -/
theorem getNode_fill (ts : TreesSet) (t : TreeObject) (k : Nat) (n : TreeNodeObject)
    (hv : ∀ v, t.treeNodes = some v → v.length = t.internals.length)
    (hn : t.view ts k = some n) :
    t.getNode ts k = Except.ok (some n, t.alloc.update k n) := by
  have hk : ¬ (t.internals.length ≤ k) := by
    intro h
    rw [view_eq ts t k hv, if_pos h] at hn
    cases hn
  unfold TreeObject.view at hn
  unfold TreeObject.getNode at hn ⊢
  simp only [if_neg hk] at hn ⊢
  cases htn : t.treeNodes with
  | none =>
    rw [htn] at hn
    simp only [] at hn ⊢
    cases hnew : t.newNode ts k with
    | error a => rw [hnew] at hn; cases hn
    | ok node =>
      rw [hnew] at hn
      simp only [Option.some.injEq] at hn
      subst hn
      simp only [TreeObject.alloc, TreeObject.update, htn, Option.getD_none, Option.map_some']
  | some v =>
    rw [htn] at hn
    simp only [] at hn ⊢
    cases hg : v.get? k with
    | none => rw [hg] at hn; cases hn
    | some o =>
      rw [hg] at hn
      cases o with
      | some n0 =>
        simp only [Option.some.injEq] at hn
        subst hn
        simp only [TreeObject.alloc, TreeObject.update, htn, Option.getD_some, Option.map_some',
          set_same v k (some n0) hg]
        cases t
        simp only [] at htn
        subst htn
        rfl
      | none =>
        simp only [] at hn ⊢
        cases hnew : t.newNode ts k with
        | error a => rw [hnew] at hn; cases hn
        | ok node =>
          rw [hnew] at hn
          simp only [Option.some.injEq] at hn
          subst hn
          simp only [TreeObject.alloc, TreeObject.update, htn, Option.getD_some,
            Option.map_some']

/-- The state after `getNode(k)` and a write of `x` through the pointer it returns. -/
theorem step_views (ts : TreesSet) (t : TreeObject) (k : Nat) (n x : TreeNodeObject)
    (hv : ∀ v, t.treeNodes = some v → v.length = t.internals.length)
    (hn : t.view ts k = some n) :
    (∀ v, ((t.alloc.update k n).update k x).treeNodes = some v →
        v.length = ((t.alloc.update k n).update k x).internals.length)
    ∧ ((t.alloc.update k n).update k x).internals = t.internals
    ∧ ((t.alloc.update k n).update k x).isCladogram = t.isCladogram
    ∧ ∀ j, ((t.alloc.update k n).update k x).view ts j
        = if j = k then some x else t.view ts j := by
  have hk : k < t.internals.length := by
    by_contra h
    rw [view_eq ts t k hv, if_pos (by omega)] at hn
    cases hn
  have v1 := alloc_valid t hv
  have v2 := update_valid t.alloc k n v1
  have a1 : t.alloc.treeNodes ≠ none := by simp [TreeObject.alloc]
  have a2 : (t.alloc.update k n).treeNodes ≠ none := by
    simp [TreeObject.alloc, TreeObject.update]
  refine ⟨update_valid _ k x v2, rfl, rfl, ?_⟩
  intro j
  rw [update_view ts _ k j x v2 a2 hk, update_view ts _ k j n v1 a1 hk, alloc_view ts t j hv]
  by_cases hj : j = k
  · simp [hj]
  · simp [hj]

/-- The sons `getInOrder` walks through are those of the node `get_node` shows. -/
theorem sonsOf_view (ts : TreesSet) (t : TreeObject) (k : Nat) (n : TreeNodeObject)
    (hv : ∀ v, t.treeNodes = some v → v.length = t.internals.length)
    (hn : t.view ts k = some n) :
    t.sonsOf k = Except.ok (n.succ.getD []) := by
  have hk : ¬ (t.internals.length ≤ k) := by
    intro h
    rw [view_eq ts t k hv, if_pos h] at hn
    cases hn
  rw [view_eq ts t k hv, if_neg hk] at hn
  have hfrom : t.kept k = none →
      (match t.internals.get? k with
        | none => Except.error Abort.undefined
        | some e => Except.ok (e.sons.take e.nSons)) = Except.ok (n.succ.getD []) := by
    intro hkept
    rw [hkept] at hn
    simp only [] at hn
    unfold TreeObject.newNode at hn
    cases hg : t.internals.get? k with
    | none => rw [hg] at hn; cases hn
    | some e =>
      rw [hg] at hn
      simp only [] at hn ⊢
      cases htx : (if 0 ≤ e.itax then (ts.taxonString e.itax.toNat).map some
          else Except.ok none) with
      | error a => rw [htx] at hn; cases hn
      | ok tx =>
        rw [htx] at hn
        simp only [Option.some.injEq] at hn
        subst hn
        simp only [TreeNode_init]
        by_cases h0 : e.nSons = 0
        · simp [h0]
        · simp [h0]
  unfold TreeObject.sonsOf
  cases htn : t.treeNodes with
  | none =>
    simp only []
    apply hfrom
    simp [TreeObject.kept, htn]
  | some v =>
    have hl := hv v htn
    have hlt : k < v.length := by omega
    simp only [List.get?_eq_getElem?, List.getElem?_eq_getElem hlt]
    cases hvk : v[k] with
    | none =>
      simp only []
      have := hfrom (by simp [TreeObject.kept, htn, List.getD_eq_getElem?_getD,
        List.getElem?_eq_getElem hlt, hvk])
      simpa using this
    | some n0 =>
      have hkept : t.kept k = some n0 := by
        simp [TreeObject.kept, htn, List.getD_eq_getElem?_getD,
          List.getElem?_eq_getElem hlt, hvk]
      rw [hkept] at hn
      simp only [Option.some.injEq] at hn
      subst hn
      rfl

end Biopy

namespace Biopy

theorem visitSons_post (rec : Nat → List Nat → Except Abort (List Nat)) (g : Nat → List Nat) :
    ∀ (ss : List Nat) (ids : List Nat),
      (∀ s ∈ ss, ∀ ids, rec s ids = Except.ok (ids ++ g s)) →
      visitSons rec ss ids = Except.ok (ids ++ (ss.map g).flatten) := by
  intro ss
  induction ss with
  | nil => intro ids _; simp [visitSons]
  | cons s rest ih =>
    intro ids h
    simp only [visitSons, h s (by simp)]
    rw [ih _ (fun x hx => h x (by simp [hx]))]
    simp [List.append_assoc]

/-- A call of `getInOrder(false, ids, k, true)` on a tree object whose sons come before
their parents appends the walk in post-order from `k`. -/
theorem getInOrder_post (ts : TreesSet) (t : TreeObject) (sons : Nat → List Nat)
    (hv : ∀ v, t.treeNodes = some v → v.length = t.internals.length)
    (hall : ∀ k, k < t.internals.length → ∃ no, t.view ts k = some no)
    (hs : ∀ k no, t.view ts k = some no → sons k = no.succ.getD [])
    (hlt : ∀ k no, t.view ts k = some no → ∀ s ∈ no.succ.getD [], s < k) :
    ∀ (fuel k : Nat) (ids : List Nat), k < fuel → k < t.internals.length →
      t.getInOrder false true fuel k ids = Except.ok (ids ++ postOrder sons fuel k) := by
  intro fuel
  induction fuel with
  | zero => intro k ids hk; omega
  | succ f ih =>
    intro k ids hk hkl
    obtain ⟨no, hno⟩ := hall k hkl
    have hso := sonsOf_view ts t k no hv hno
    rw [← hs k no hno] at hso
    have hvis := visitSons_post (t.getInOrder false true f) (postOrder sons f) (sons k) ids
      (fun s hs1 ids1 => by
        have : s < k := by
          rw [hs k no hno] at hs1
          exact hlt k no hno s hs1
        exact ih s ids1 (by omega) (by omega))
    simp only [TreeObject.getInOrder, hso, Bool.false_eq_true, and_false, if_false, hvis,
      and_true]
    have hc : 0 < (sons k).length ∨ (sons k).length = 0 := by omega
    simp only [if_pos hc, postOrder, List.append_assoc]

theorem shiftNode_shiftNode (x : TreeNodeObject) (a b : ℚ) :
    shiftNode (shiftNode x a) b = shiftNode x (a + b) := by
  unfold shiftNode
  cases h : x.data.height with
  | none => simp [h]
  | some v => simp [h, add_assoc]

theorem shiftNode_none (x : TreeNodeObject) (a : ℚ) (h : x.data.height = none) :
    shiftNode x a = x := by
  unfold shiftNode
  cases x with
  | mk p s d =>
    cases d with
    | mk tx br ht atr =>
      simp only [] at h
      subst h
      rfl

theorem shiftNode_zero (x : TreeNodeObject) : shiftNode x 0 = x := by
  unfold shiftNode
  cases x with
  | mk p s d =>
    cases d with
    | mk tx br ht atr =>
      cases ht <;> simp

/-- The loops of `setBranch` over the ids `ns` of nodes of the tree: they return, and
every node has been shifted as often as it is in `ns`. -/
theorem adjustAll_views (ts : TreesSet) (dif : ℚ) : ∀ (ns : List Nat) (t : TreeObject)
    (m : Option ℚ),
    (∀ v, t.treeNodes = some v → v.length = t.internals.length) →
    (∀ k, k < t.internals.length → ∃ no, t.view ts k = some no) →
    (∀ k ∈ ns, k < t.internals.length) →
    ∃ t1 m1, TreeObject.adjustAll ts dif ns t m = Except.ok (t1, m1)
      ∧ (∀ v, t1.treeNodes = some v → v.length = t1.internals.length)
      ∧ t1.internals = t.internals ∧ t1.isCladogram = t.isCladogram
      ∧ ∀ j, t1.view ts j
          = (t.view ts j).map (fun x => shiftNode x ((ns.count j : ℚ) * dif)) := by
  intro ns
  induction ns with
  | nil =>
    intro t m hv _ _
    refine ⟨t, m, rfl, hv, rfl, rfl, ?_⟩
    intro j
    cases t.view ts j with
    | none => rfl
    | some x => simp [shiftNode_zero]
  | cons n rest ih =>
    intro t m hv hall hin
    obtain ⟨x, hx⟩ := hall n (hin n (by simp))
    have hget := getNode_fill ts t n x hv hx
    obtain ⟨w1, w2, w3, w4⟩ := step_views ts t n x (shiftNode x dif) hv hx
    -- the state after this node, in either case
    have key : ∃ t2 m2, TreeObject.adjustAll ts dif (n :: rest) t m
          = TreeObject.adjustAll ts dif rest t2 m2
        ∧ (∀ v, t2.treeNodes = some v → v.length = t2.internals.length)
        ∧ t2.internals = t.internals ∧ t2.isCladogram = t.isCladogram
        ∧ ∀ j, t2.view ts j = if j = n then some (shiftNode x dif) else t.view ts j := by
      cases hh : x.data.height with
      | some h0 =>
        refine ⟨(t.alloc.update n x).update n (shiftNode x dif),
          some (match m with
            | none => (x.data.adjustHeight dif).2
            | some m => min (x.data.adjustHeight dif).2 m), ?_, w1, w2, w3, w4⟩
        simp only [TreeObject.adjustAll, hget, hh, Option.isSome_some, if_true]
        have e : ({ x with data := (x.data.adjustHeight dif).1 } : TreeNodeObject)
            = shiftNode x dif := by
          simp only [TreeNodeDataObject.adjustHeight, hh, shiftNode, Option.map_some']
        rw [e]
        try rfl
      | none =>
        obtain ⟨u1, u2, u3, u4⟩ := step_views ts t n x x hv hx
        have e0 : (t.alloc.update n x).update n x = t.alloc.update n x := by
          simp only [TreeObject.update, TreeObject.alloc, Option.map_some', List.set_set]
        rw [e0] at u1 u2 u3 u4
        refine ⟨t.alloc.update n x, m, ?_, u1, u2, u3, ?_⟩
        · simp only [TreeObject.adjustAll, hget, hh, Option.isSome_none, Bool.false_eq_true,
            if_false]
        · intro j
          rw [u4 j, shiftNode_none x dif hh]
    obtain ⟨t2, m2, k1, k2, k3, k4, k5⟩ := key
    have hall2 : ∀ k, k < t2.internals.length → ∃ no, t2.view ts k = some no := by
      intro k hk
      rw [k5 k]
      by_cases hkn : k = n
      · exact ⟨shiftNode x dif, by simp [hkn]⟩
      · rw [if_neg hkn]
        exact hall k (by rw [← k3]; exact hk)
    obtain ⟨t1, m1, r1, r2, r3, r4, r5⟩ := ih t2 m2 k2 hall2
      (fun k hk => by rw [k3]; exact hin k (by simp [hk]))
    refine ⟨t1, m1, by rw [k1, r1], r2, by rw [r3, k3], by rw [r4, k4], ?_⟩
    intro j
    rw [r5 j, k5 j]
    by_cases hjn : j = n
    · subst hjn
      simp only [if_true, Option.map_some', hx, shiftNode_shiftNode, List.count_cons_self,
        Nat.cast_add, Nat.cast_one]
      congr 2
      ring
    · have hnj : ¬ (n = j) := fun e => hjn e.symm
      simp only [if_neg hjn, List.count_cons, beq_iff_eq, hnj, if_false, Nat.add_zero]

end Biopy

namespace Biopy

theorem view_lt (ts : TreesSet) (t : TreeObject) (k : Nat) (no : TreeNodeObject)
    (hv : ∀ v, t.treeNodes = some v → v.length = t.internals.length)
    (h : t.view ts k = some no) : k < t.internals.length := by
  by_contra hk
  rw [view_eq ts t k hv, if_pos (by omega)] at h
  cases h

theorem count_range (n j : Nat) (h : j < n) : (List.range n).count j = 1 :=
  List.count_eq_one_of_mem (List.nodup_range n) (List.mem_range.mpr h)

/-- What a call of `setBranch` does to a tree object whose nodes are those of a tree: it
returns, the node `id` has the new branch length, and the height of every node has been
shifted, a node other than `id` as much as its parent and the node `id` by the change of
the branch length less. -/
theorem setBranch_views (ts : TreesSet) (fuel : Nat) (t : TreeObject) (id : Nat) (len : ℚ)
    (hsh : t.Shaped ts) (hid : id < t.internals.length) (hf : id < fuel) :
    ∃ (t1 : TreeObject) (c : Nat → ℚ), t.setBranch ts fuel id len = Except.ok t1
      ∧ (∀ v, t1.treeNodes = some v → v.length = t1.internals.length)
      ∧ t1.internals = t.internals ∧ t1.isCladogram = t.isCladogram
      ∧ (∀ j, t1.view ts j = (t.view ts j).map (fun x =>
          shiftNode (if j = id then { x with data := (x.data.setBranch len).1 } else x) (c j)))
      ∧ (∀ n no p, t.view ts n = some no → n ≠ getRootID t.internals → n ≠ id →
          no.prev = some p → c p = c n)
      ∧ (∀ no p, t.view ts id = some no → id ≠ getRootID t.internals →
          no.prev = some p → c p - c id = len - no.data.getBranch) := by
  obtain ⟨hv, hall, hsons, hpar⟩ := hsh
  obtain ⟨no, hno⟩ := hall id hid
  have hget := getNode_fill ts t id no hv hno
  obtain ⟨w1, w2, w3, w4⟩ :=
    step_views ts t id no { no with data := (no.data.setBranch len).1 } hv hno
  have hview2 : ∀ j, ((t.alloc.update id no).update id
        { no with data := (no.data.setBranch len).1 }).view ts j
      = (t.view ts j).map (fun x =>
          if j = id then { x with data := (x.data.setBranch len).1 } else x) := by
    intro j
    rw [w4 j]
    by_cases hj : j = id
    · subst hj
      simp [hno]
    · simp only [if_neg hj]
      cases t.view ts j <;> rfl
  unfold TreeObject.setBranch
  simp only [hget]
  by_cases hd : len - (no.data.setBranch len).2 = 0
  · rw [if_pos hd]
    refine ⟨_, fun _ => 0, rfl, w1, w2, w3, ?_, fun _ _ _ _ _ _ _ => rfl, ?_⟩
    · intro j
      rw [hview2 j]
      cases t.view ts j with
      | none => rfl
      | some x => simp [shiftNode_zero]
    · intro no2 p h2 _ _
      rw [hno] at h2
      simp only [Option.some.injEq] at h2
      subst h2
      simp only [TreeNodeDataObject.setBranch] at hd
      rw [hd]
      ring
  · rw [if_neg hd]
    -- the walk from `id`
    have hall2 : ∀ k, k < ((t.alloc.update id no).update id
          { no with data := (no.data.setBranch len).1 }).internals.length →
        ∃ x, ((t.alloc.update id no).update id
          { no with data := (no.data.setBranch len).1 }).view ts k = some x := by
      intro k hk
      rw [w2] at hk
      obtain ⟨x, hx⟩ := hall k hk
      rw [hview2 k, hx]
      exact ⟨_, rfl⟩
    have hsucc : ∀ k x, ((t.alloc.update id no).update id
          { no with data := (no.data.setBranch len).1 }).view ts k = some x →
        ∃ y, t.view ts k = some y ∧ y.succ = x.succ := by
      intro k x hx
      rw [hview2 k] at hx
      cases hy : t.view ts k with
      | none => rw [hy] at hx; cases hx
      | some y =>
        rw [hy] at hx
        simp only [Option.map_some', Option.some.injEq] at hx
        refine ⟨y, rfl, ?_⟩
        rw [← hx]
        split <;> rfl
    have hpost := getInOrder_post ts _
      (fun k => ((t.view ts k).map (fun x => x.succ.getD [])).getD []) w1 hall2
      (fun k x hx => by
        obtain ⟨y, hy, e⟩ := hsucc k x hx
        simp only [hy, Option.map_some', Option.getD_some, e])
      (fun k x hx s hs => by
        obtain ⟨y, hy, e⟩ := hsucc k x hx
        rw [← e] at hs
        exact ((hsons k y hy).2 s hs).1)
      fuel id [] hf (by rw [w2]; exact hid)
    simp only [List.nil_append] at hpost
    rw [hpost]
    simp only []
    have hcnt := postOrder_counts
      (fun k => ((t.view ts k).map (fun x => x.succ.getD [])).getD [])
      (fun n => if n = getRootID t.internals ∨ t.internals.length ≤ n then none
        else (t.view ts n).bind (fun x => x.prev))
      (fun k s hs => by
        beta_reduce at hs ⊢
        cases hy : t.view ts k with
        | none => simp [hy] at hs
        | some y =>
          simp only [hy, Option.map_some', Option.getD_some] at hs
          obtain ⟨q1, c, q2, q3⟩ := (hsons k y hy).2 s hs
          have hk := view_lt ts t k y hv hy
          refine ⟨q1, ?_⟩
          have h1 : ¬ (s = getRootID t.internals ∨ t.internals.length ≤ s) := by
            unfold getRootID
            have : ¬ (t.internals.length = 0) := by omega
            rw [if_neg this]
            omega
          rw [if_neg h1, q2]
          exact q3)
      (fun n p hp => by
        beta_reduce at hp ⊢
        by_cases h1 : n = getRootID t.internals ∨ t.internals.length ≤ n
        · rw [if_pos h1] at hp; cases hp
        · rw [if_neg h1] at hp
          cases hy : t.view ts n with
          | none => rw [hy] at hp; cases hp
          | some y =>
            rw [hy] at hp
            have hp : y.prev = some p := hp
            obtain ⟨p2, po, q1, q2, q3⟩ := hpar n y hy (fun h => h1 (Or.inl h))
            rw [hp] at q1
            simp only [Option.some.injEq] at q1
            subst q1
            simp only [q2, Option.map_some', Option.getD_some]
            exact q3)
      (fun k => by
        beta_reduce
        cases hy : t.view ts k with
        | none => simp
        | some y =>
          simp only [Option.map_some', Option.getD_some]
          exact (hsons k y hy).1)
      fuel id hf
    obtain ⟨ca, cb, cc⟩ := hcnt
    obtain ⟨t3, m1, a1, a2, a3, a4, a5⟩ := adjustAll_views ts
      (-(len - (no.data.setBranch len).2)) _ _ none w1 hall2
      (fun k hk => by
        have := ca k hk
        rw [w2]
        omega)
    rw [a1]
    simp only []
    have hall3 : ∀ k, k < t3.internals.length → ∃ x, t3.view ts k = some x := by
      intro k hk
      rw [a3] at hk
      obtain ⟨x, hx⟩ := hall2 k hk
      rw [a5 k, hx]
      exact ⟨_, rfl⟩
    -- the second loop, when it runs
    have hrest : ∃ (t1 : TreeObject) (r : Nat → ℚ),
        (match m1 with
          | none => Except.ok t3
          | some m =>
            if m < 0 then
              (TreeObject.adjustAll ts (-m) (List.range t3.internals.length) t3 none).map
                (fun r => r.1)
            else Except.ok t3) = Except.ok t1
        ∧ (∀ v, t1.treeNodes = some v → v.length = t1.internals.length)
        ∧ t1.internals = t3.internals ∧ t1.isCladogram = t3.isCladogram
        ∧ (∀ j, t1.view ts j = (t3.view ts j).map (fun x => shiftNode x (r j)))
        ∧ ∀ a b, a < t3.internals.length → b < t3.internals.length → r a = r b := by
      have hkeep : ∃ (t1 : TreeObject) (r : Nat → ℚ),
          (Except.ok t3 : Except Abort TreeObject) = Except.ok t1
          ∧ (∀ v, t1.treeNodes = some v → v.length = t1.internals.length)
          ∧ t1.internals = t3.internals ∧ t1.isCladogram = t3.isCladogram
          ∧ (∀ j, t1.view ts j = (t3.view ts j).map (fun x => shiftNode x (r j)))
          ∧ ∀ a b, a < t3.internals.length → b < t3.internals.length → r a = r b := by
        refine ⟨t3, fun _ => 0, rfl, a2, rfl, rfl, ?_, fun _ _ _ _ => rfl⟩
        intro j
        cases t3.view ts j with
        | none => rfl
        | some x => simp [shiftNode_zero]
      cases m1 with
      | none => exact hkeep
      | some m =>
        simp only []
        by_cases hm : m < 0
        · rw [if_pos hm]
          obtain ⟨t4, m4, b1, b2, b3, b4, b5⟩ := adjustAll_views ts (-m)
            (List.range t3.internals.length) t3 none a2 hall3
            (fun k hk => List.mem_range.mp hk)
          refine ⟨t4, fun j => (((List.range t3.internals.length).count j : Nat) : ℚ) * (-m),
            ?_, b2, b3, b4, b5, ?_⟩
          · rw [b1]; rfl
          · intro a b ha hb
            simp only [count_range _ a ha, count_range _ b hb]
        · rw [if_neg hm]
          exact hkeep
    obtain ⟨t1, r, r1, r2, r3, r4, r5, r6⟩ := hrest
    refine ⟨t1, fun j =>
      ((List.count j (postOrder
          (fun k => ((t.view ts k).map (fun x => x.succ.getD [])).getD []) fuel id) : Nat) : ℚ)
        * (-(len - (no.data.setBranch len).2)) + r j, r1, r2, ?_, ?_, ?_, ?_, ?_⟩
    · rw [r3, a3, w2]
    · rw [r4, a4, w3]
    · intro j
      rw [r5 j, a5 j, hview2 j]
      cases t.view ts j with
      | none => rfl
      | some x => simp only [Option.map_some', shiftNode_shiftNode]
    · intro n x p hx hroot hnid hp
      have hn := view_lt ts t n x hv hx
      obtain ⟨p2, po, q1, q2, q3⟩ := hpar n x hx hroot
      rw [hp] at q1
      simp only [Option.some.injEq] at q1
      subst q1
      have hpl := view_lt ts t p po hv q2
      have hc := cc n p hnid (by
        beta_reduce
        have h1 : ¬ (n = getRootID t.internals ∨ t.internals.length ≤ n) := by
          intro h
          rcases h with h | h
          · exact hroot h
          · omega
        rw [if_neg h1, hx]
        exact hp)
      simp only []
      rw [hc, r6 p n (by rw [a3, w2]; exact hpl) (by rw [a3, w2]; exact hn)]
    · intro x p hx hroot hp
      rw [hno] at hx
      simp only [Option.some.injEq] at hx
      subst hx
      obtain ⟨p2, po, q1, q2, q3⟩ := hpar id no hno hroot
      rw [hp] at q1
      simp only [Option.some.injEq] at q1
      subst q1
      have hpl := view_lt ts t p po hv q2
      have hlt := ((hsons p po q2).2 id q3).1
      have hzero : List.count p (postOrder
          (fun k => ((t.view ts k).map (fun x => x.succ.getD [])).getD []) fuel id) = 0 := by
        rw [List.count_eq_zero]
        intro hm
        have := ca p hm
        omega
      simp only []
      rw [hzero, cb, r6 p id (by rw [a3, w2]; exact hpl) (by rw [a3, w2]; exact hid)]
      simp only [TreeNodeDataObject.setBranch, Nat.cast_zero, Nat.cast_one]
      ring

end Biopy

namespace Biopy

theorem XForest.roots_ge : ∀ (F : XForest) (base : Nat), ∀ s ∈ F.roots base, base ≤ s := by
  intro F
  induction F with
  | nil => intro base s hs; simp [XForest.roots] at hs
  | cons t h a k r _ ihr =>
    intro base s hs
    simp only [XForest.roots, List.mem_cons] at hs
    rcases hs with hs | hs
    · omega
    · have := ihr _ s hs
      omega

theorem XForest.roots_sorted : ∀ (F : XForest) (base : Nat),
    (F.roots base).Pairwise (fun a b => a < b) := by
  intro F
  induction F with
  | nil => intro base; simp [XForest.roots]
  | cons t h a k r _ ihr =>
    intro base
    simp only [XForest.roots, List.pairwise_cons]
    refine ⟨fun s hs => ?_, ihr _⟩
    have := XForest.roots_ge r _ s hs
    omega

theorem XForest.lay_sons_sorted : ∀ (F : XForest) (base : Nat) (par : Int) (ph : Option ℚ),
    ∀ n ∈ F.lay base par ph, n.sons.Pairwise (fun a b => a < b) := by
  intro F
  induction F with
  | nil => intro base par ph n hn; simp [XForest.lay] at hn
  | cons t h a k r ihk ihr =>
    intro base par ph n hn
    simp only [XForest.lay, List.mem_append, List.mem_cons] at hn
    rcases hn with hn | hn | hn
    · exact ihk _ _ _ n hn
    · subst hn
      exact XForest.roots_sorted k base
    · exact ihr _ _ _ n hn

/-- The sons of a node of what `setup` returns are distinct. -/
theorem setup_sons_nodup (ts : TreesSet) (fuel nt : Nat) (internals : List Expanded)
    (hset : ts.setup fuel nt = Except.ok internals) :
    ∀ n ∈ internals, n.sons.Nodup := by
  cases hrep : ts.trees.get? nt with
  | none =>
    simp only [TreesSet.setup, hrep] at hset
    cases hset
  | some rep =>
    obtain ⟨t, hh, a, kids, c1, _, _⟩ := setup_lay ts fuel nt rep internals hrep hset
    have hs := XForest.lay_sons_sorted (XForest.cons t hh a kids XForest.nil) 0 (-1) none
    intro n hn
    have hp : n.sons.Pairwise (fun a b => a < b) := by
      by_cases hcl : rep.isCladogram = true
      · rw [if_pos hcl] at c1
        rw [c1, List.mem_map] at hn
        obtain ⟨m, hm, rfl⟩ := hn
        exact hs m hm
      · rw [if_neg hcl] at c1
        rw [c1] at hn
        exact hs n hn
    exact hp.imp (fun h => Nat.ne_of_lt h)

theorem mem_of_getElem_some {α : Type} (l : List α) (k : Nat) (e : α)
    (h : l[k]? = some e) : e ∈ l := by
  obtain ⟨hk, he⟩ := List.getElem?_eq_some.mp h
  rw [← he]
  exact List.getElem_mem hk

/-- The tree object of an expanded phylogram, before any node object is made: its nodes
are those of a tree and it has the metric invariant.  The taxa of the expansion are taxa
of the set, and the number of nodes fits 32 bits. -/
theorem init_shaped_metric (ts : TreesSet) (fuel nt : Nat) (rep : TreeRep)
    (internals : List Expanded) (hrep : ts.trees.get? nt = some rep)
    (hph : rep.isCladogram = false) (hset : ts.setup fuel nt = Except.ok internals)
    (htax : ∀ n ∈ internals, 0 ≤ n.itax → n.itax.toNat < ts.taxaList.length)
    (hsize : internals.length < 4294967296) :
    (TreeObject.mk internals false none).Shaped ts
      ∧ (TreeObject.mk internals false none).Metric ts := by
  obtain ⟨hne, hl⟩ := setup_links ts fuel nt internals hset
  have hbr := setup_branches ts fuel nt rep internals hrep hph hset
  have hnd := setup_sons_nodup ts fuel nt internals hset
  have hv : ∀ v, (TreeObject.mk internals false none).treeNodes = some v →
      v.length = (TreeObject.mk internals false none).internals.length := by
    intro v h; cases h
  have hroot : getRootID internals = internals.length - 1 := by
    unfold getRootID
    rw [if_neg]
    intro h0
    exact hne (List.length_eq_zero.mp h0)
  -- what `get_node` shows
  have hview : ∀ (k : Nat) (e : Expanded), internals[k]? = some e →
      ∃ tx, (TreeObject.mk internals false none).view ts k
        = some (TreeNode_init e.prev e.nSons e.sons
            (TreeNodeDataObject.mk tx e.branch (some e.height) e.attributes)) := by
    intro k e he
    have hk : k < internals.length := (List.getElem?_eq_some.mp he).1
    rw [view_eq ts _ k hv]
    have h1 : ¬ (internals.length ≤ k) := by omega
    simp only [if_neg h1, TreeObject.kept, Option.getD_none, List.getD_nil,
      TreeObject.newNode, List.get?_eq_getElem?, he, Bool.false_eq_true, if_false]
    by_cases h0 : 0 ≤ e.itax
    · have hlt := htax e (mem_of_getElem_some _ _ _ he) h0
      simp only [if_pos h0, TreesSet.taxonString, List.get?_eq_getElem?,
        List.getElem?_eq_getElem hlt]
      exact ⟨_, rfl⟩
    · simp only [if_neg h0]
      exact ⟨_, rfl⟩
  have hview2 : ∀ k no, (TreeObject.mk internals false none).view ts k = some no →
      ∃ (e : Expanded) (tx : Option Str), internals[k]? = some e
        ∧ no = TreeNode_init e.prev e.nSons e.sons
            (TreeNodeDataObject.mk tx e.branch (some e.height) e.attributes) := by
    intro k no hno
    have hk := view_lt ts _ k no hv hno
    have he : internals[k]? = some internals[k] := List.getElem?_eq_getElem hk
    obtain ⟨tx, h⟩ := hview k _ he
    rw [h] at hno
    simp only [Option.some.injEq] at hno
    exact ⟨_, tx, he, hno.symm⟩
  have hsucc : ∀ (k : Nat) (e : Expanded), internals[k]? = some e →
      ∀ d : TreeNodeDataObject,
      (TreeNode_init e.prev e.nSons e.sons d).succ.getD [] = e.sons := by
    intro k e he d
    obtain ⟨l1, _, _⟩ := hl k e he
    unfold TreeNode_init
    by_cases h0 : e.nSons = 0
    · have : e.sons = [] := List.length_eq_zero.mp (by omega)
      simp [h0, this]
    · have hne2 : e.sons ≠ [] := by
        intro h
        rw [h] at l1
        exact h0 l1
      have h1 : ¬ (e.sons.length = 0) := by omega
      simp only [l1, List.take_length, if_neg h1, Option.getD_some]
  have hprev : ∀ (p : Nat) (e : Expanded), p < internals.length → e.prev = (p : Int) →
      ∀ d : TreeNodeDataObject, (TreeNode_init e.prev e.nSons e.sons d).prev = some p := by
    intro p e hp he d
    unfold TreeNode_init
    simp only [he, Option.some.injEq]
    omega
  constructor
  · refine ⟨hv, ?_, ?_, ?_⟩
    · intro k hk
      obtain ⟨tx, h⟩ := hview k _ (List.getElem?_eq_getElem hk)
      exact ⟨_, h⟩
    · intro k no hno
      obtain ⟨e, tx, he, rfl⟩ := hview2 k no hno
      rw [hsucc k e he]
      refine ⟨hnd e (mem_of_getElem_some _ _ _ he), ?_⟩
      intro s hs
      obtain ⟨_, l2, _⟩ := hl k e he
      obtain ⟨q1, c, q2, q3⟩ := l2 s hs
      obtain ⟨tx2, h2⟩ := hview s c q2
      refine ⟨q1, _, h2, ?_⟩
      exact hprev k c (List.getElem?_eq_some.mp he).1 q3 _
    · intro n no hno hnr
      obtain ⟨e, tx, he, rfl⟩ := hview2 n no hno
      obtain ⟨_, _, l3⟩ := hl n e he
      rcases l3 with ⟨r1, _⟩ | ⟨p, pn, q1, q2, q3, q4, _⟩
      · exact absurd (by rw [hroot]; exact r1) hnr
      · obtain ⟨tx2, h2⟩ := hview p pn q3
        refine ⟨p, _, hprev p e (List.getElem?_eq_some.mp q3).1 q1 _, h2, ?_⟩
        rw [hsucc p pn q3]
        exact q4
  · intro n no hno hnr
    obtain ⟨e, tx, he, rfl⟩ := hview2 n no hno
    obtain ⟨_, _, l3⟩ := hl n e he
    rcases l3 with ⟨r1, _⟩ | ⟨p, pn, q1, q2, q3, q4, _⟩
    · exact absurd (by rw [hroot]; exact r1) hnr
    · obtain ⟨tx2, h2⟩ := hview p pn q3
      obtain ⟨c, b1, b2⟩ := hbr p pn q3 n q4
      rw [he] at b1
      simp only [Option.some.injEq] at b1
      subst b1
      exact ⟨p, _, pn.height, e.height, pn.height - e.height,
        hprev p e (List.getElem?_eq_some.mp q3).1 q1 _, h2, rfl, rfl, b2, rfl⟩

/-! ## Setting a branch length -/

/-- C30 (amended): with the sums and differences of heights and branch lengths taken
exactly, `set_branch` keeps the metric invariant of a tree object of a phylogram.  When
the nodes of the object are those of a tree and every node `n` but the root has
`height(parent(n)) - height(n) = branch(n)`, a call `set_branch(id, len)` with
`len ≥ 0` on a node of the tree returns, the nodes are still those of a tree, the same
equation holds for every node but the root, the node `id` has the branch length `len`,
and every other node has the branch length it had. -/
theorem set_branch_keeps_metric (ts : TreesSet) (fuel : Nat) (t : TreeObject) (id : Nat)
    (len : ℚ) (hsh : t.Shaped ts) (hm : t.Metric ts) (hid : id < t.internals.length)
    (hf : id < fuel) (hlen : 0 ≤ len) :
    ∃ t1, tree_setBranch ts fuel t id len = some (Except.ok t1)
      ∧ t1.Shaped ts ∧ t1.Metric ts
      ∧ (∃ x, t1.view ts id = some x ∧ x.data.branchlength = some len)
      ∧ ∀ k, k ≠ id →
          (t1.view ts k).map (fun x => x.data.branchlength)
            = (t.view ts k).map (fun x => x.data.branchlength) := by
  obtain ⟨t1, c, e1, e2, e3, e4, e5, e6, e7⟩ := setBranch_views ts fuel t id len hsh hid hf
  obtain ⟨hv, hall, hsons, hpar⟩ := hsh
  have hinv : ∀ j x1, t1.view ts j = some x1 → ∃ x, t.view ts j = some x
      ∧ x1 = shiftNode (if j = id then { x with data := (x.data.setBranch len).1 } else x)
          (c j) := by
    intro j x1 h
    rw [e5 j] at h
    cases hx : t.view ts j with
    | none => rw [hx] at h; cases h
    | some x =>
      rw [hx] at h
      simp only [Option.map_some', Option.some.injEq] at h
      exact ⟨x, rfl, h.symm⟩
  have hfwd : ∀ j x, t.view ts j = some x → t1.view ts j
      = some (shiftNode (if j = id then { x with data := (x.data.setBranch len).1 } else x)
          (c j)) := by
    intro j x h
    rw [e5 j, h]
    rfl
  have hprev : ∀ j (x : TreeNodeObject),
      (shiftNode (if j = id then { x with data := (x.data.setBranch len).1 } else x)
        (c j)).prev = x.prev := by
    intro j x
    unfold shiftNode
    split <;> rfl
  have hsucc : ∀ j (x : TreeNodeObject),
      (shiftNode (if j = id then { x with data := (x.data.setBranch len).1 } else x)
        (c j)).succ = x.succ := by
    intro j x
    unfold shiftNode
    split <;> rfl
  have hheight : ∀ j (x : TreeNodeObject),
      (shiftNode (if j = id then { x with data := (x.data.setBranch len).1 } else x)
        (c j)).data.height = x.data.height.map (fun h => h + c j) := by
    intro j x
    unfold shiftNode
    split <;> rfl
  have hbranch : ∀ j (x : TreeNodeObject),
      (shiftNode (if j = id then { x with data := (x.data.setBranch len).1 } else x)
        (c j)).data.branchlength = if j = id then some len else x.data.branchlength := by
    intro j x
    unfold shiftNode
    split <;> rfl
  refine ⟨t1, ?_, ⟨e2, ?_, ?_, ?_⟩, ?_, ?_, ?_⟩
  · unfold tree_setBranch
    rw [if_neg (not_lt.mpr hlen), e1]
  · intro k hk
    rw [e3] at hk
    obtain ⟨x, hx⟩ := hall k hk
    exact ⟨_, hfwd k x hx⟩
  · intro k x1 h1
    obtain ⟨x, hx, rfl⟩ := hinv k x1 h1
    rw [hsucc]
    obtain ⟨s1, s2⟩ := hsons k x hx
    refine ⟨s1, fun s hs => ?_⟩
    obtain ⟨q1, cn, q2, q3⟩ := s2 s hs
    exact ⟨q1, _, hfwd s cn q2, by rw [hprev]; exact q3⟩
  · intro n x1 h1 hnr
    obtain ⟨x, hx, rfl⟩ := hinv n x1 h1
    rw [e3] at hnr
    obtain ⟨p, po, q1, q2, q3⟩ := hpar n x hx hnr
    exact ⟨p, _, by rw [hprev]; exact q1, hfwd p po q2, by rw [hsucc]; exact q3⟩
  · intro n x1 h1 hnr
    obtain ⟨x, hx, rfl⟩ := hinv n x1 h1
    rw [e3] at hnr
    obtain ⟨p, po, hp, hn, b, q1, q2, q3, q4, q5, q6⟩ := hm n x hx hnr
    by_cases hni : n = id
    · have hc := e7 x p (hni ▸ hx) (hni ▸ hnr) q1
      refine ⟨p, _, hp + c p, hn + c n, len, by rw [hprev]; exact q1, hfwd p po q2, ?_, ?_, ?_, ?_⟩
      · rw [hheight, q3]; rfl
      · rw [hheight, q4]; rfl
      · rw [hbranch, if_pos hni]
      · have hb : x.data.getBranch = b := by
          simp [TreeNodeDataObject.getBranch, q5]
        rw [hb] at hc
        rw [hni]
        linarith
    · have hc := e6 n x p hx hnr hni q1
      refine ⟨p, _, hp + c p, hn + c n, b, by rw [hprev]; exact q1, hfwd p po q2, ?_, ?_, ?_, ?_⟩
      · rw [hheight, q3]; rfl
      · rw [hheight, q4]; rfl
      · rw [hbranch, if_neg hni]; exact q5
      · rw [hc]
        linarith
  · obtain ⟨x, hx⟩ := hall id hid
    exact ⟨_, hfwd id x hx, by rw [hbranch, if_pos rfl]⟩
  · intro k hk
    rw [e5 k]
    cases hx : t.view ts k with
    | none => rfl
    | some x =>
      simp only [Option.map_some', Option.some.injEq]
      rw [hbranch, if_neg hk]

theorem set_branch_keeps_metric_witness :
    TreeObject.init setThreeTips 9 0 = Except.ok treeThreeTips
      ∧ ∃ t1, tree_setBranch setThreeTips 9 treeThreeTips 2 3 = some (Except.ok t1)
          ∧ t1.Shaped setThreeTips ∧ t1.Metric setThreeTips
          ∧ (∃ x, t1.view setThreeTips 2 = some x ∧ x.data.branchlength = some 3)
          ∧ ∀ k, k ≠ 2 →
              (t1.view setThreeTips k).map (fun x => x.data.branchlength)
                = (treeThreeTips.view setThreeTips k).map (fun x => x.data.branchlength) :=
  ⟨by decide!,
    set_branch_keeps_metric setThreeTips 9 treeThreeTips 2 3
      (init_shaped_metric setThreeTips 9 0
        (TreeRep.mk (Packer.simple [0, 1, 2]) (Heights.phylogram [1, 2] none) none)
        treeThreeTips.internals (by decide!) (by decide!) (by decide!) (by decide!)
        (by decide!)).1
      (init_shaped_metric setThreeTips 9 0
        (TreeRep.mk (Packer.simple [0, 1, 2]) (Heights.phylogram [1, 2] none) none)
        treeThreeTips.internals (by decide!) (by decide!) (by decide!) (by decide!)
        (by decide!)).2
      (by decide!) (by decide!) (by decide!)⟩

end Biopy

namespace Biopy

/-! ## The parser reads no further than it eats -/

theorem skipSpaces_cons (c : Char) (t : Str) :
    skipSpaces (c :: t) = if isspace c then skipSpaces t + 1 else 0 := rfl

theorem skipSpaces_append (a r : Str) :
    skipSpaces (a ++ r)
      = if skipSpaces a = a.length then a.length + skipSpaces r else skipSpaces a := by
  induction a with
  | nil => simp [skipSpaces]
  | cons c cs ih =>
    rw [List.cons_append, skipSpaces_cons, skipSpaces_cons, ih, List.length_cons]
    by_cases hc : isspace c = true
    · simp only [hc, if_true]
      by_cases h : skipSpaces cs = cs.length
      · have h2 : skipSpaces cs + 1 = cs.length + 1 := by omega
        rw [if_pos h, if_pos h2]
        omega
      · have h2 : ¬ (skipSpaces cs + 1 = cs.length + 1) := by omega
        rw [if_neg h, if_neg h2]
    · simp only [hc, Bool.false_eq_true, if_false]
      have h2 : ¬ (0 = cs.length + 1) := by omega
      rw [if_neg h2]

/-- The number of leading white-space bytes does not depend on the text after a byte
that is not white space. -/
theorem skipSpaces_local (a r r2 : Str) (h : skipSpaces (a ++ r) ≤ a.length)
    (h2 : skipSpaces (a ++ r) = a.length → skipSpaces r2 = 0) :
    skipSpaces (a ++ r2) = skipSpaces (a ++ r) := by
  rw [skipSpaces_append a r] at h h2 ⊢
  rw [skipSpaces_append a r2]
  by_cases hs : skipSpaces a = a.length
  · simp only [if_pos hs] at h h2 ⊢
    have hr : skipSpaces r = 0 := by omega
    rw [h2 (by omega), hr]
  · rw [if_neg hs, if_neg hs]

theorem barewordLen_split (a r : Str) :
    barewordLen (a ++ r)
      = match barewordLen a with
        | some n => some n
        | none => (barewordLen r).map (fun n => n + a.length) := by
  induction a with
  | nil =>
    simp only [List.nil_append, barewordLen, List.length_nil, Nat.add_zero]
    cases barewordLen r <;> rfl
  | cons c cs ih =>
    have e1 : ∀ t, barewordLen (c :: t)
        = if endsBareword c then some 0 else (barewordLen t).map (fun n => n + 1) :=
      fun _ => rfl
    rw [List.cons_append, e1, e1, ih]
    by_cases hc : endsBareword c = true
    · simp only [hc, if_true]
    · simp only [hc, Bool.false_eq_true, if_false]
      cases barewordLen cs with
      | some n => rfl
      | none =>
        cases barewordLen r with
        | none => rfl
        | some m => simp only [Option.map_some', List.length_cons]; congr 1

theorem getStuff_append (sep : Char) : ∀ (a r : Str) (prev : Char),
    getStuff sep prev (a ++ r)
      = match getStuff sep prev a with
        | some e => some e
        | none => (getStuff sep (a.getLast?.getD prev) r).map (fun e => e + a.length) := by
  intro a
  induction a with
  | nil =>
    intro r prev
    have : getStuff sep prev [] = none := rfl
    simp only [List.nil_append, this, List.getLast?_nil, Option.getD_none, List.length_nil,
      Nat.add_zero]
    cases getStuff sep prev r <;> rfl
  | cons c cs ih =>
    intro r prev
    have e1 : ∀ t, getStuff sep prev (c :: t)
        = if c != sep || prev == backslash then (getStuff sep c t).map (fun e => e + 1)
          else some 0 := fun _ => rfl
    rw [List.cons_append, e1, e1]
    by_cases hc : (c != sep || prev == backslash) = true
    · simp only [hc, if_true, ih r c]
      have hl : (c :: cs).getLast?.getD prev = cs.getLast?.getD c := by
        cases cs with
        | nil => rfl
        | cons d ds =>
          rw [List.getLast?_cons_cons]
          cases hx : (d :: ds).getLast? with
          | none => simp at hx
          | some x => rfl
      rw [hl]
      cases getStuff sep c cs with
      | some e => rfl
      | none =>
        cases getStuff sep (cs.getLast?.getD c) r with
        | none => rfl
        | some m => simp only [Option.map_some', List.length_cons]; congr 1
    · simp only [hc, Bool.false_eq_true, if_false]

/-- A result of `_getStuff` inside the first part of a text does not depend on the rest
of the text. -/
theorem getStuff_local (sep prev : Char) (a r r2 : Str) (e : Nat)
    (h : getStuff sep prev (a ++ r) = some e) (he : e < a.length) :
    getStuff sep prev (a ++ r2) = some e := by
  rw [getStuff_append] at h ⊢
  cases hg : getStuff sep prev a with
  | some e0 => rw [hg] at h; exact h
  | none =>
    rw [hg] at h
    simp only [] at h
    cases hr : getStuff sep (a.getLast?.getD prev) r with
    | none => rw [hr] at h; cases h
    | some m =>
      rw [hr] at h
      simp only [Option.map_some', Option.some.injEq] at h
      omega

theorem barewordLen_local (a r r2 : Str) (n : Nat)
    (h : barewordLen (a ++ r) = some n) (hn : n ≤ a.length)
    (h2 : n = a.length → barewordLen r2 = some 0) :
    barewordLen (a ++ r2) = some n := by
  rw [barewordLen_split] at h ⊢
  cases hg : barewordLen a with
  | some n0 => rw [hg] at h; exact h
  | none =>
    rw [hg] at h
    simp only [] at h ⊢
    cases hr : barewordLen r with
    | none => rw [hr] at h; cases h
    | some m =>
      rw [hr] at h
      simp only [Option.map_some', Option.some.injEq] at h
      have hna : n = a.length := by omega
      rw [h2 hna]
      simp only [Option.map_some', Option.some.injEq]
      omega

theorem findIndexFrom_ge (ch : Char) (stopAt : Str) : ∀ (t : Str) (k j : Nat),
    findIndexFrom ch stopAt t k = some j → k ≤ j := by
  intro t
  induction t with
  | nil => intro k j h; simp [findIndexFrom] at h
  | cons x xs ihx =>
    intro k j h
    unfold findIndexFrom at h
    split at h
    · simp only [Option.some.injEq] at h; omega
    · split at h
      · simp only [Option.some.injEq] at h; omega
      · split at h
        · cases h
        · have := ihx _ _ h; omega

theorem findIndexFrom_local (ch : Char) (stopAt : Str) : ∀ (a r r2 : Str) (k j : Nat),
    findIndexFrom ch stopAt (a ++ r) k = some j → j < k + a.length →
    findIndexFrom ch stopAt (a ++ r2) k = some j := by
  intro a
  induction a with
  | nil =>
    intro r r2 k j h hj
    have := findIndexFrom_ge ch stopAt _ _ _ h
    simp only [List.length_nil] at hj
    omega
  | cons c cs ih =>
    intro r r2 k j h hj
    have e1 : ∀ t, findIndexFrom ch stopAt (c :: t) k
        = if c == ch then some k
          else if has c stopAt then some k
          else match t with
            | [] => none
            | _ :: _ => findIndexFrom ch stopAt t (k + 1) := by
      intro t
      cases t <;> rfl
    rw [List.cons_append, e1] at h ⊢
    by_cases h1 : (c == ch) = true
    · simp only [h1, if_true] at h ⊢
      exact h
    · simp only [h1, Bool.false_eq_true, if_false] at h ⊢
      by_cases h2 : has c stopAt = true
      · simp only [h2, if_true] at h ⊢
        exact h
      · simp only [h2, Bool.false_eq_true, if_false] at h ⊢
        have hrec : findIndexFrom ch stopAt (cs ++ r) (k + 1) = some j := by
          cases hx : cs ++ r with
          | nil => rw [hx] at h; cases h
          | cons d ds => rw [hx] at h; exact h
        have hge := findIndexFrom_ge ch stopAt _ _ _ hrec
        have hcs : cs ≠ [] := by
          intro h0
          subst h0
          simp only [List.length_singleton] at hj
          omega
        have := ih r r2 (k + 1) j hrec (by simp only [List.length_cons] at hj; omega)
        cases hx : cs ++ r2 with
        | nil =>
          exfalso
          cases cs with
          | nil => exact hcs rfl
          | cons d ds => simp at hx
        | cons d ds =>
          rw [hx] at this
          exact this

theorem findIndex_local (a r r2 : Str) (ch : Char) (stopAt : Str) (j : Nat)
    (h : findIndex (a ++ r) ch stopAt = FindResult.found j) (hj : j < a.length) :
    findIndex (a ++ r2) ch stopAt = FindResult.found j := by
  cases a with
  | nil => simp at hj
  | cons c cs =>
    unfold findIndex at h ⊢
    simp only [List.cons_append] at h ⊢
    cases hf : findIndexFrom ch stopAt (c :: (cs ++ r)) 0 with
    | none => rw [hf] at h; cases h
    | some k =>
      rw [hf] at h
      simp only [FindResult.found.injEq] at h
      subst h
      have := findIndexFrom_local ch stopAt (c :: cs) r r2 0 k (by simpa using hf)
        (by simpa using hj)
      simp only [List.cons_append] at this
      rw [this]

end Biopy

namespace Biopy

theorem drop_app (a r : Str) (k : Nat) (h : k ≤ a.length) :
    (a ++ r).drop k = a.drop k ++ r := List.drop_append_of_le_length h

theorem take_app (a r : Str) (k : Nat) (h : k ≤ a.length) :
    (a ++ r).take k = a.take k := List.take_append_of_le_length h

theorem head_app (a r : Str) (h : 0 < a.length) : (a ++ r).head? = a.head? := by
  cases a with
  | nil => simp at h
  | cons c cs => rfl

/-- The value of an attribute read inside the first part of a text does not depend on the
rest of the text. -/
theorem attrValue_local (a r r2 : Str) (n : Nat) (v : Str)
    (h : attrValue (a ++ r) = ValueResult.ok n v) (hn : n < a.length) :
    attrValue (a ++ r2) = ValueResult.ok n v := by
  have ha : 0 < a.length := by omega
  unfold attrValue at h ⊢
  rw [head_app a r ha] at h
  rw [head_app a r2 ha]
  rw [drop_app a r 1 (by omega)] at h
  rw [drop_app a r2 1 (by omega)]
  by_cases h1 : a.head? = some dquote
  · rw [if_pos h1] at h ⊢
    cases hg : getStuff dquote dquote (a.drop 1 ++ r) with
    | none => rw [hg] at h; cases h
    | some e =>
      rw [hg] at h
      simp only [ValueResult.ok.injEq] at h
      obtain ⟨h2, h3⟩ := h
      have he : e < (a.drop 1).length := by simp only [List.length_drop]; omega
      rw [getStuff_local dquote dquote _ r r2 e hg he]
      simp only [ValueResult.ok.injEq]
      refine ⟨h2, ?_⟩
      rw [← h3, take_app _ r e (by omega), take_app _ r2 e (by omega)]
  · rw [if_neg h1] at h ⊢
    by_cases h2 : a.head? = some lbrace
    · rw [if_pos h2] at h ⊢
      cases hg : getStuff rbrace lbrace (a.drop 1 ++ r) with
      | none => rw [hg] at h; cases h
      | some e =>
        rw [hg] at h
        simp only [ValueResult.ok.injEq] at h
        obtain ⟨h2, h3⟩ := h
        have he : e < (a.drop 1).length := by simp only [List.length_drop]; omega
        rw [getStuff_local rbrace lbrace _ r r2 e hg he]
        simp only [ValueResult.ok.injEq]
        refine ⟨h2, ?_⟩
        rw [← h3, take_app _ r e (by omega), take_app _ r2 e (by omega)]
    · rw [if_neg h2] at h ⊢
      cases hf : findIndex (a ++ r) ',' [']'] with
      | undefined => rw [hf] at h; cases h
      | missing => rw [hf] at h; cases h
      | found e =>
        rw [hf] at h
        simp only [ValueResult.ok.injEq] at h
        obtain ⟨h2, h3⟩ := h
        subst h2
        rw [findIndex_local a r r2 ',' [']'] e hf hn]
        simp only [ValueResult.ok.injEq, true_and]
        rw [← h3, take_app _ r e (by omega), take_app _ r2 e (by omega)]

theorem parseAttributesLoop_mono : ∀ (f : Nat) (s : Str) (eat : Nat) (vals : Attributes)
    (n : Nat) (vs : Attributes),
    parseAttributesLoop f s eat vals = AttrResult.ok n vs → eat ≤ n := by
  intro f
  induction f with
  | zero => intro s eat vals n vs h; simp [parseAttributesLoop] at h
  | succ f ih =>
    intro s eat vals n vs h
    unfold parseAttributesLoop at h
    by_cases h1 : s.head? = some ']'
    · rw [if_pos h1] at h
      simp only [AttrResult.ok.injEq] at h; omega
    · rw [if_neg h1] at h
      simp only [] at h
      generalize (if s.head? = some ',' then 1 else 0) = skip at h
      cases hfi : findIndex (s.drop skip) '=' [',', ']', dquote, lbrace, rbrace] with
      | undefined => rw [hfi] at h; cases h
      | missing => rw [hfi] at h; cases h
      | found nameEnd =>
        rw [hfi] at h
        simp only [] at h
        by_cases h2 : ((s.drop skip).drop nameEnd).head? = some '='
        · rw [if_pos h2] at h
          cases hav : attrValue ((s.drop skip).drop (nameEnd + 1)) with
          | fail => rw [hav] at h; cases h
          | undefined => rw [hav] at h; cases h
          | ok nv v =>
            rw [hav] at h
            simp only [] at h
            cases htn : trimString ((s.drop skip).take nameEnd) with
            | none => rw [htn] at h; cases h
            | some tn =>
              cases htv : trimString v with
              | none => rw [htn, htv] at h; cases h
              | some tv =>
                rw [htn, htv] at h
                simp only [] at h
                have := ih _ _ _ _ _ h
                omega
        · rw [if_neg h2] at h
          cases h

/-- A list of attributes read inside the first part of a text does not depend on the
rest of the text, nor on the fuel beyond the bytes read. -/
theorem parseAttributesLoop_local : ∀ (f : Nat) (a r : Str) (eat : Nat) (vals : Attributes)
    (n : Nat) (vs : Attributes),
    parseAttributesLoop f (a ++ r) eat vals = AttrResult.ok n vs → n - eat < a.length →
    ∀ (f2 : Nat) (r2 : Str), n - eat < f2 →
      parseAttributesLoop f2 (a ++ r2) eat vals = AttrResult.ok n vs := by
  intro f
  induction f with
  | zero => intro a r eat vals n vs h; simp [parseAttributesLoop] at h
  | succ f ih =>
    intro a r eat vals n vs h hn f2 r2 hf2
    have ha : 0 < a.length := by omega
    obtain ⟨g, rfl⟩ : ∃ g, f2 = g + 1 := ⟨f2 - 1, by omega⟩
    have hmono := parseAttributesLoop_mono _ _ _ _ _ _ h
    unfold parseAttributesLoop at h ⊢
    rw [head_app a r ha] at h
    rw [head_app a r2 ha]
    by_cases h1 : a.head? = some ']'
    · rw [if_pos h1] at h ⊢
      exact h
    · rw [if_neg h1] at h ⊢
      simp only [] at h ⊢
      generalize hskip : (if a.head? = some ',' then 1 else 0) = skip at h ⊢
      have hsk : skip ≤ 1 := by
        rw [← hskip]
        split <;> omega
      rw [drop_app a r skip (by omega)] at h
      rw [drop_app a r2 skip (by omega)]
      cases hfi : findIndex (a.drop skip ++ r) '=' [',', ']', dquote, lbrace, rbrace] with
      | undefined => rw [hfi] at h; cases h
      | missing => rw [hfi] at h; cases h
      | found nameEnd =>
        rw [hfi] at h
        simp only [] at h
        by_cases h2 : ((a.drop skip ++ r).drop nameEnd).head? = some '='
        · rw [if_pos h2] at h
          cases hav : attrValue ((a.drop skip ++ r).drop (nameEnd + 1)) with
          | fail => rw [hav] at h; cases h
          | undefined => rw [hav] at h; cases h
          | ok nv v =>
            rw [hav] at h
            simp only [] at h
            cases htn : trimString ((a.drop skip ++ r).take nameEnd) with
            | none => rw [htn] at h; cases h
            | some tn =>
              cases htv : trimString v with
              | none => rw [htn, htv] at h; cases h
              | some tv =>
                rw [htn, htv] at h
                simp only [] at h
                have hm2 := parseAttributesLoop_mono _ _ _ _ _ _ h
                have hc : skip + (nameEnd + 1) + nv < a.length := by omega
                have hl1 : (a.drop skip).length = a.length - skip := List.length_drop _ _
                rw [findIndex_local (a.drop skip) r r2 '=' _ nameEnd hfi (by omega)]
                simp only []
                rw [drop_app _ r nameEnd (by omega)] at h2
                rw [drop_app _ r2 nameEnd (by omega)]
                rw [head_app _ r (by simp only [List.length_drop]; omega)] at h2
                rw [head_app _ r2 (by simp only [List.length_drop]; omega), if_pos h2]
                rw [drop_app _ r (nameEnd + 1) (by omega)] at hav
                rw [drop_app _ r2 (nameEnd + 1) (by omega)]
                rw [attrValue_local _ r r2 nv v hav (by simp only [List.length_drop]; omega)]
                simp only []
                rw [take_app _ r nameEnd (by omega)] at htn
                rw [take_app _ r2 nameEnd (by omega), htn, htv]
                simp only []
                rw [drop_app _ r (nameEnd + 1 + nv) (by omega)] at h
                rw [drop_app _ r2 (nameEnd + 1 + nv) (by omega)]
                exact ih _ r _ _ _ _ h (by simp only [List.length_drop]; omega) g r2 (by omega)
        · rw [if_neg h2] at h
          cases h

theorem parseAttributes_local (a r r2 : Str) (n : Nat) (vs : Attributes)
    (h : parseAttributes (a ++ r) = AttrResult.ok n vs) (hn : n < a.length) :
    parseAttributes (a ++ r2) = AttrResult.ok n vs := by
  unfold parseAttributes at h ⊢
  exact parseAttributesLoop_local _ a r 0 [] n vs h (by omega) _ r2
    (by simp only [List.length_append]; omega)

end Biopy

namespace Biopy

theorem suffixLoop_succ (f : Nat) (txt : Str) (eat : Nat) (nodeTxt : Str)
    (attrs : Option Attributes) :
    suffixLoop (f + 1) txt eat nodeTxt attrs
      = match txt with
        | [] => SuffixResult.ok eat nodeTxt attrs
        | c :: rest =>
          if has c ['(', ')', ',', ';'] then SuffixResult.ok eat nodeTxt attrs
          else if c == '[' then
            if rest.head? = some '&' then
              match parseAttributes (rest.drop 1) with
              | AttrResult.ok n vs =>
                suffixLoop f (txt.drop (n + 3 + skipSpaces (txt.drop (n + 3))))
                  (eat + (n + 3 + skipSpaces (txt.drop (n + 3)))) nodeTxt (some vs)
              | AttrResult.fail => SuffixResult.fail
              | AttrResult.undefined => SuffixResult.undefined
              | AttrResult.timeout => SuffixResult.timeout
            else
              match getStuff ']' '[' rest with
              | none => SuffixResult.fail
              | some e => suffixLoop f (txt.drop (e + 2)) (eat + (e + 2)) nodeTxt attrs
          else suffixLoop f rest (eat + 1) (nodeTxt ++ [c]) attrs := by
  cases txt <;> rfl

/-- The loop over the text after a node counts from the `eat` it starts with and appends
to the node text it starts with. -/
theorem suffixLoop_shift : ∀ (f : Nat) (txt : Str) (eat : Nat) (nt : Str)
    (at1 : Option Attributes) (e2 : Nat) (nt2 : Str) (at2 : Option Attributes),
    suffixLoop f txt eat nt at1 = SuffixResult.ok e2 nt2 at2 →
    ∀ (d : Nat) (p : Str),
      suffixLoop f txt (eat + d) (p ++ nt) at1 = SuffixResult.ok (e2 + d) (p ++ nt2) at2 := by
  intro f
  induction f with
  | zero => intro txt eat nt at1 e2 nt2 at2 h; simp [suffixLoop] at h
  | succ f ih =>
    intro txt eat nt at1 e2 nt2 at2 h d p
    rw [suffixLoop_succ] at h ⊢
    cases txt with
    | nil =>
      simp only [SuffixResult.ok.injEq] at h ⊢
      obtain ⟨rfl, rfl, rfl⟩ := h
      exact ⟨rfl, rfl, rfl⟩
    | cons c rest =>
      simp only [] at h ⊢
      by_cases h1 : has c ['(', ')', ',', ';'] = true
      · rw [if_pos h1] at h ⊢
        simp only [SuffixResult.ok.injEq] at h ⊢
        obtain ⟨rfl, rfl, rfl⟩ := h
        exact ⟨rfl, rfl, rfl⟩
      · rw [if_neg h1] at h ⊢
        by_cases h2 : (c == '[') = true
        · rw [if_pos h2] at h ⊢
          by_cases h3 : rest.head? = some '&'
          · rw [if_pos h3] at h ⊢
            cases hp : parseAttributes (rest.drop 1) with
            | ok n vs =>
              rw [hp] at h
              simp only [] at h ⊢
              have := ih _ _ _ _ _ _ _ h d p
              rw [← this]
              congr 1
              omega
            | fail => rw [hp] at h; cases h
            | undefined => rw [hp] at h; cases h
            | timeout => rw [hp] at h; cases h
          · rw [if_neg h3] at h ⊢
            cases hg : getStuff ']' '[' rest with
            | none => rw [hg] at h; cases h
            | some e =>
              rw [hg] at h
              simp only [] at h ⊢
              have := ih _ _ _ _ _ _ _ h d p
              rw [← this]
              congr 1
              omega
        · rw [if_neg h2] at h ⊢
          have := ih _ _ _ _ _ _ _ h d p
          rw [← this, List.append_assoc]
          congr 1
          omega

/-- The loop over the text after a node needs no more fuel than the bytes it eats, and
one turn. -/
theorem suffixLoop_fuel : ∀ (f : Nat) (txt : Str) (eat : Nat) (nt : Str)
    (at1 : Option Attributes) (e2 : Nat) (nt2 : Str) (at2 : Option Attributes),
    suffixLoop f txt eat nt at1 = SuffixResult.ok e2 nt2 at2 →
    ∀ (f2 : Nat), e2 - eat < f2 →
      suffixLoop f2 txt eat nt at1 = SuffixResult.ok e2 nt2 at2 := by
  intro f
  induction f with
  | zero => intro txt eat nt at1 e2 nt2 at2 h; simp [suffixLoop] at h
  | succ f ih =>
    intro txt eat nt at1 e2 nt2 at2 h f2 hf2
    obtain ⟨g, rfl⟩ : ∃ g, f2 = g + 1 := ⟨f2 - 1, by omega⟩
    rw [suffixLoop_succ] at h ⊢
    cases txt with
    | nil => exact h
    | cons c rest =>
      simp only [] at h ⊢
      by_cases h1 : has c ['(', ')', ',', ';'] = true
      · rw [if_pos h1] at h ⊢
        exact h
      · rw [if_neg h1] at h ⊢
        by_cases h2 : (c == '[') = true
        · rw [if_pos h2] at h ⊢
          by_cases h3 : rest.head? = some '&'
          · rw [if_pos h3] at h ⊢
            cases hp : parseAttributes (rest.drop 1) with
            | ok n vs =>
              rw [hp] at h
              simp only [] at h ⊢
              have hm := suffixLoop_eat_le _ _ _ _ _ _ _ _ h
              exact ih _ _ _ _ _ _ _ h g (by omega)
            | fail => rw [hp] at h; cases h
            | undefined => rw [hp] at h; cases h
            | timeout => rw [hp] at h; cases h
          · rw [if_neg h3] at h ⊢
            cases hg : getStuff ']' '[' rest with
            | none => rw [hg] at h; cases h
            | some e =>
              rw [hg] at h
              simp only [] at h ⊢
              have hm := suffixLoop_eat_le _ _ _ _ _ _ _ _ h
              exact ih _ _ _ _ _ _ _ h g (by omega)
        · rw [if_neg h2] at h ⊢
          have hm := suffixLoop_eat_le _ _ _ _ _ _ _ _ h
          exact ih _ _ _ _ _ _ _ h g (by omega)

/-- What the loop over the text after a node reads inside the first part of a text does
not depend on the rest of the text. -/
theorem suffixLoop_local : ∀ (f : Nat) (a r : Str) (eat : Nat) (nt : Str)
    (at1 : Option Attributes) (e2 : Nat) (nt2 : Str) (at2 : Option Attributes),
    suffixLoop f (a ++ r) eat nt at1 = SuffixResult.ok e2 nt2 at2 → e2 - eat < a.length →
    ∀ (r2 : Str), suffixLoop f (a ++ r2) eat nt at1 = SuffixResult.ok e2 nt2 at2 := by
  intro f
  induction f with
  | zero => intro a r eat nt at1 e2 nt2 at2 h; simp [suffixLoop] at h
  | succ f ih =>
    intro a r eat nt at1 e2 nt2 at2 h hn r2
    rw [suffixLoop_succ] at h ⊢
    cases a with
    | nil => simp at hn
    | cons c a1 =>
      simp only [List.cons_append] at h ⊢
      by_cases h1 : has c ['(', ')', ',', ';'] = true
      · rw [if_pos h1] at h ⊢
        exact h
      · rw [if_neg h1] at h ⊢
        by_cases h2 : (c == '[') = true
        · rw [if_pos h2] at h ⊢
          by_cases h3 : (a1 ++ r).head? = some '&'
          · rw [if_pos h3] at h
            cases hp : parseAttributes ((a1 ++ r).drop 1) with
            | ok n vs =>
              rw [hp] at h
              simp only [] at h
              have hm := suffixLoop_eat_le _ _ _ _ _ _ _ _ h
              simp only [List.length_cons] at hn
              have hlen : n + 3 + skipSpaces ((c :: (a1 ++ r)).drop (n + 3)) < a1.length + 1 := by
                omega
              have ha1 : 0 < a1.length := by omega
              rw [head_app a1 r ha1] at h3
              rw [head_app a1 r2 ha1, if_pos h3]
              rw [drop_app a1 r 1 (by omega)] at hp
              rw [drop_app a1 r2 1 (by omega),
                parseAttributes_local _ r r2 n vs hp (by simp only [List.length_drop]; omega)]
              simp only []
              have e3 : ∀ t : Str, (c :: (a1 ++ t)).drop (n + 3) = a1.drop (n + 2) ++ t := by
                intro t
                rw [show n + 3 = (n + 2) + 1 from rfl, List.drop_succ_cons,
                  drop_app a1 t (n + 2) (by omega)]
              rw [e3 r] at h hlen
              rw [e3 r2]
              have hsp := skipSpaces_local (a1.drop (n + 2)) r r2
                (by simp only [List.length_drop]; omega)
                (fun he => by simp only [List.length_drop] at he; omega)
              rw [hsp]
              have e4 : ∀ t : Str, (c :: (a1 ++ t)).drop
                    (n + 3 + skipSpaces (a1.drop (n + 2) ++ r))
                  = a1.drop (n + 2 + skipSpaces (a1.drop (n + 2) ++ r)) ++ t := by
                intro t
                rw [show n + 3 + skipSpaces (a1.drop (n + 2) ++ r)
                    = (n + 2 + skipSpaces (a1.drop (n + 2) ++ r)) + 1 from by omega,
                  List.drop_succ_cons, drop_app a1 t _ (by omega)]
              rw [e4 r] at h
              rw [e4 r2]
              exact ih _ r _ _ _ _ _ _ h (by simp only [List.length_drop]; omega) r2
            | fail => rw [hp] at h; cases h
            | undefined => rw [hp] at h; cases h
            | timeout => rw [hp] at h; cases h
          · rw [if_neg h3] at h
            cases hg : getStuff ']' '[' (a1 ++ r) with
            | none => rw [hg] at h; cases h
            | some e =>
              rw [hg] at h
              simp only [] at h
              have hm := suffixLoop_eat_le _ _ _ _ _ _ _ _ h
              simp only [List.length_cons] at hn
              have ha1 : 0 < a1.length := by omega
              rw [head_app a1 r ha1] at h3
              rw [head_app a1 r2 ha1, if_neg h3,
                getStuff_local ']' '[' a1 r r2 e hg (by omega)]
              simp only []
              have e3 : ∀ t : Str, (c :: (a1 ++ t)).drop (e + 2) = a1.drop (e + 1) ++ t := by
                intro t
                rw [show e + 2 = (e + 1) + 1 from rfl, List.drop_succ_cons,
                  drop_app a1 t (e + 1) (by omega)]
              rw [e3 r] at h
              rw [e3 r2]
              exact ih _ r _ _ _ _ _ _ h (by simp only [List.length_drop]; omega) r2
        · rw [if_neg h2] at h ⊢
          have hm := suffixLoop_eat_le _ _ _ _ _ _ _ _ h
          simp only [List.length_cons] at hn
          exact ih _ r _ _ _ _ _ _ h (by omega) r2

/-- White space at the start of the text after a node goes into the node text. -/
theorem suffixLoop_spaces : ∀ (sp txt : Str) (f eat : Nat) (nt : Str)
    (at1 : Option Attributes), (∀ c ∈ sp, isspace c = true) →
    suffixLoop (f + sp.length) (sp ++ txt) eat nt at1
      = suffixLoop f txt (eat + sp.length) (nt ++ sp) at1 := by
  intro sp
  induction sp with
  | nil => intro txt f eat nt at1 _; simp
  | cons c cs ih =>
    intro txt f eat nt at1 hsp
    have hc : isspace c = true := hsp c (by simp)
    have e1 : f + (c :: cs).length = (f + cs.length) + 1 := by simp only [List.length_cons]; omega
    rw [e1, suffixLoop_succ]
    simp only [List.cons_append]
    have h1 : has c ['(', ')', ',', ';'] = false := by
      cases hh : has c ['(', ')', ',', ';'] with
      | false => rfl
      | true =>
        exfalso
        simp only [has, List.any_cons, List.any_nil, Bool.or_false, Bool.or_eq_true,
          beq_iff_eq] at hh
        rcases hh with hh | hh | hh | hh <;> (subst hh; simp [isspace] at hc)
    have h2 : (c == '[') = false := by
      cases hh : (c == '[') with
      | false => rfl
      | true =>
        exfalso
        simp only [beq_iff_eq] at hh
        subst hh
        simp [isspace] at hc
    simp only [h1, h2, Bool.false_eq_true, if_false]
    rw [ih txt f (eat + 1) (nt ++ [c]) at1 (fun d hd => hsp d (by simp [hd]))]
    simp only [List.length_cons, List.append_assoc, List.singleton_append]
    congr 1
    omega

end Biopy

namespace Biopy

/-! ## A comment where the loop over the text after a node stands -/

theorem chain_of_not_mem (sep : Char) : ∀ (c : Str) (prev : Char), sep ∉ c →
    List.Chain (fun a b => b = sep → a = backslash) prev c := by
  intro c
  induction c with
  | nil => intro prev _; exact List.Chain.nil
  | cons x xs ih =>
    intro prev h
    simp only [List.mem_cons, not_or] at h
    exact List.Chain.cons (fun hx => absurd hx.symm h.1) (ih x h.2)

/-- One turn of the loop over the text after a node takes a comment. -/
theorem suffixLoop_comment (c r : Str) (f eat : Nat) (nt : Str) (at1 : Option Attributes)
    (hc1 : c.head? ≠ some '&') (hc2 : ']' ∉ c) (hc3 : c.getLast? ≠ some backslash) :
    suffixLoop (f + 1) ('[' :: (c ++ ']' :: r)) eat nt at1
      = suffixLoop f r (eat + (c.length + 2)) nt at1 := by
  rw [suffixLoop_succ]
  simp only []
  have h1 : has '[' ['(', ')', ',', ';'] = false := by decide
  have h2 : ('[' == '[') = true := by decide
  have h3 : (c ++ ']' :: r).head? ≠ some '&' := by
    cases c with
    | nil => simp
    | cons x xs => simpa using hc1
  have hl : c.getLast?.getD '[' ≠ backslash := by
    cases hg : c.getLast? with
    | none => simp only [Option.getD_none]; decide
    | some x =>
      simp only [Option.getD_some]
      intro hx
      rw [hg, hx] at hc3
      exact hc3 rfl
  have hg := getStuff_first ']' r c '[' (chain_of_not_mem ']' c '[' hc2) hl
  simp only [h1, h2, Bool.false_eq_true, if_false, if_true, if_neg h3, hg]
  have e : ('[' :: (c ++ ']' :: r)).drop (c.length + 2) = r := by
    rw [show c.length + 2 = (c.length + 1) + 1 from rfl, List.drop_succ_cons]
    rw [show c ++ ']' :: r = (c ++ [']']) ++ r by simp]
    rw [List.drop_append_of_le_length (by simp)]
    simp
  rw [e]

/-- A comment at a place where the loop over the text after a node stands is skipped:
the loop gives the same node text and the same attributes. -/
theorem suffixLoop_site (c : Str) (hc1 : c.head? ≠ some '&') (hc2 : ']' ∉ c)
    (hc3 : c.getLast? ≠ some backslash) :
    ∀ (g f : Nat) (a r : Str) (eat : Nat) (nt : Str) (at1 : Option Attributes)
      (e2 : Nat) (nt2 : Str) (at2 : Option Attributes),
      suffixLoop f (a ++ r) eat nt at1 = SuffixResult.ok e2 nt2 at2 →
      suffixSite g (a ++ r) a.length = true →
      a.length ≤ e2 - eat
      ∧ ∀ (f2 : Nat), e2 - eat + (c.length + 2) < f2 →
          suffixLoop f2 (a ++ '[' :: (c ++ ']' :: r)) eat nt at1
            = SuffixResult.ok (e2 + (c.length + 2)) nt2 at2 := by
  intro g
  induction g with
  | zero => intro f a r eat nt at1 e2 nt2 at2 _ hs; simp [suffixSite] at hs
  | succ g ih =>
    intro f a r eat nt at1 e2 nt2 at2 h hs
    cases a with
    | nil =>
      refine ⟨Nat.zero_le _, ?_⟩
      intro f2 hf2
      obtain ⟨f3, rfl⟩ : ∃ f3, f2 = f3 + 1 := ⟨f2 - 1, by omega⟩
      simp only [List.nil_append] at h ⊢
      rw [suffixLoop_comment c r f3 eat nt at1 hc1 hc2 hc3]
      have hm := suffixLoop_eat_le _ _ _ _ _ _ _ _ h
      have h2 := suffixLoop_shift _ _ _ _ _ _ _ _ h (c.length + 2) []
      simp only [List.nil_append] at h2
      exact suffixLoop_fuel _ _ _ _ _ _ _ _ h2 f3 (by omega)
    | cons c0 a1 =>
      cases f with
      | zero => simp [suffixLoop] at h
      | succ f =>
        rw [suffixLoop_succ] at h
        unfold suffixSite at hs
        have hb : ¬ ((c0 :: a1).length = 0) := by simp
        rw [if_neg hb] at hs
        simp only [List.cons_append, List.length_cons] at h hs ⊢
        by_cases h1 : has c0 ['(', ')', ',', ';'] = true
        · rw [if_pos h1] at hs
          cases hs
        · rw [if_neg h1] at h hs
          by_cases h2 : (c0 == '[') = true
          · rw [if_pos h2] at h hs
            by_cases h3 : (a1 ++ r).head? = some '&'
            · rw [if_pos h3] at h hs
              cases hp : parseAttributes ((a1 ++ r).drop 1) with
              | ok n vs =>
                rw [hp] at h hs
                simp only [] at h hs
                have hm := suffixLoop_eat_le _ _ _ _ _ _ _ _ h
                by_cases hlt : a1.length + 1
                    < n + 3 + skipSpaces ((c0 :: (a1 ++ r)).drop (n + 3))
                · rw [if_pos hlt] at hs
                  cases hs
                · rw [if_neg hlt] at hs
                  have ha1 : 0 < a1.length := by omega
                  have e3 : ∀ t : Str, (c0 :: (a1 ++ t)).drop (n + 3)
                      = a1.drop (n + 2) ++ t := by
                    intro t
                    rw [show n + 3 = (n + 2) + 1 from rfl, List.drop_succ_cons,
                      drop_app a1 t (n + 2) (by omega)]
                  rw [e3 r] at h hs hlt hm
                  have hsp := skipSpaces_local (a1.drop (n + 2)) r ('[' :: (c ++ ']' :: r))
                    (by simp only [List.length_drop]; omega)
                    (fun _ => by simp [skipSpaces, isspace])
                  have e4 : ∀ t : Str, (c0 :: (a1 ++ t)).drop
                        (n + 3 + skipSpaces (a1.drop (n + 2) ++ r))
                      = a1.drop (n + 2 + skipSpaces (a1.drop (n + 2) ++ r)) ++ t := by
                    intro t
                    rw [show n + 3 + skipSpaces (a1.drop (n + 2) ++ r)
                        = (n + 2 + skipSpaces (a1.drop (n + 2) ++ r)) + 1 from by omega,
                      List.drop_succ_cons, drop_app a1 t _ (by omega)]
                  rw [e4 r] at h hs
                  have hlen : (a1.drop (n + 2 + skipSpaces (a1.drop (n + 2) ++ r))).length
                      = a1.length + 1 - (n + 3 + skipSpaces (a1.drop (n + 2) ++ r)) := by
                    simp only [List.length_drop]; omega
                  rw [← hlen] at hs
                  obtain ⟨i1, i2⟩ := ih _ _ r _ _ _ _ _ _ h hs
                  refine ⟨by omega, ?_⟩
                  intro f2 hf2
                  obtain ⟨f3, rfl⟩ : ∃ f3, f2 = f3 + 1 := ⟨f2 - 1, by omega⟩
                  rw [suffixLoop_succ]
                  simp only [List.cons_append]
                  rw [if_neg h1, if_pos h2]
                  rw [head_app a1 r ha1] at h3
                  rw [head_app a1 _ ha1, if_pos h3]
                  rw [drop_app a1 r 1 (by omega)] at hp
                  rw [drop_app a1 _ 1 (by omega),
                    parseAttributes_local _ r _ n vs hp (by simp only [List.length_drop]; omega)]
                  simp only []
                  rw [e3, hsp, e4]
                  exact i2 f3 (by omega)
              | fail => rw [hp] at h; cases h
              | undefined => rw [hp] at h; cases h
              | timeout => rw [hp] at h; cases h
            · rw [if_neg h3] at h hs
              cases hg : getStuff ']' '[' (a1 ++ r) with
              | none => rw [hg] at h; cases h
              | some e =>
                rw [hg] at h hs
                simp only [] at h hs
                have hm := suffixLoop_eat_le _ _ _ _ _ _ _ _ h
                by_cases hlt : a1.length + 1 < e + 2
                · rw [if_pos hlt] at hs
                  cases hs
                · rw [if_neg hlt] at hs
                  have ha1 : 0 < a1.length := by
                    by_contra h0
                    have : a1 = [] := List.length_eq_zero.mp (by omega)
                    subst this
                    simp only [List.length_nil] at hlt
                    have he : e = 0 := by omega
                    subst he
                    omega
                  have e3 : ∀ t : Str, (c0 :: (a1 ++ t)).drop (e + 2)
                      = a1.drop (e + 1) ++ t := by
                    intro t
                    rw [show e + 2 = (e + 1) + 1 from rfl, List.drop_succ_cons,
                      drop_app a1 t (e + 1) (by omega)]
                  rw [e3 r] at h hs
                  have hlen : (a1.drop (e + 1)).length = a1.length + 1 - (e + 2) := by
                    simp only [List.length_drop]; omega
                  rw [← hlen] at hs
                  obtain ⟨i1, i2⟩ := ih _ _ r _ _ _ _ _ _ h hs
                  refine ⟨by omega, ?_⟩
                  intro f2 hf2
                  obtain ⟨f3, rfl⟩ : ∃ f3, f2 = f3 + 1 := ⟨f2 - 1, by omega⟩
                  rw [suffixLoop_succ]
                  simp only [List.cons_append]
                  rw [if_neg h1, if_pos h2]
                  rw [head_app a1 r ha1] at h3
                  rw [head_app a1 _ ha1, if_neg h3,
                    getStuff_local ']' '[' a1 r _ e hg (by omega)]
                  simp only []
                  rw [e3]
                  exact i2 f3 (by omega)
          · rw [if_neg h2] at h hs
            have hm := suffixLoop_eat_le _ _ _ _ _ _ _ _ h
            simp only [Nat.add_sub_cancel] at hs
            obtain ⟨i1, i2⟩ := ih _ _ r _ _ _ _ _ _ h hs
            refine ⟨by omega, ?_⟩
            intro f2 hf2
            obtain ⟨f3, rfl⟩ : ∃ f3, f2 = f3 + 1 := ⟨f2 - 1, by omega⟩
            rw [suffixLoop_succ]
            simp only [List.cons_append]
            rw [if_neg h1, if_neg h2]
            exact i2 f3 (by omega)

end Biopy

namespace Biopy

theorem getStuff_lt (sep : Char) : ∀ (s : Str) (prev : Char) (e : Nat),
    getStuff sep prev s = some e → e < s.length := by
  intro s
  induction s with
  | nil => intro prev e h; cases h
  | cons c cs ih =>
    intro prev e h
    have e1 : getStuff sep prev (c :: cs)
        = if c != sep || prev == backslash then (getStuff sep c cs).map (fun e => e + 1)
          else some 0 := rfl
    rw [e1] at h
    by_cases hc : (c != sep || prev == backslash) = true
    · rw [if_pos hc] at h
      cases hg : getStuff sep c cs with
      | none => rw [hg] at h; cases h
      | some m =>
        rw [hg] at h
        simp only [Option.map_some', Option.some.injEq] at h
        have := ih c m hg
        simp only [List.length_cons]
        omega
    · rw [if_neg hc] at h
      simp only [Option.some.injEq] at h
      simp only [List.length_cons]
      omega

theorem parseAttributesLoop_bound : ∀ (f : Nat) (s : Str) (eat : Nat) (vals : Attributes)
    (n : Nat) (vs : Attributes),
    parseAttributesLoop f s eat vals = AttrResult.ok n vs → n - eat < s.length := by
  intro f
  induction f with
  | zero => intro s eat vals n vs h; simp [parseAttributesLoop] at h
  | succ f ih =>
    intro s eat vals n vs h
    have hmono := parseAttributesLoop_mono _ _ _ _ _ _ h
    unfold parseAttributesLoop at h
    by_cases h1 : s.head? = some ']'
    · rw [if_pos h1] at h
      simp only [AttrResult.ok.injEq] at h
      cases s with
      | nil => simp at h1
      | cons c cs => simp only [List.length_cons]; omega
    · rw [if_neg h1] at h
      simp only [] at h
      generalize (if s.head? = some ',' then 1 else 0) = skip at h
      cases hfi : findIndex (s.drop skip) '=' [',', ']', dquote, lbrace, rbrace] with
      | undefined => rw [hfi] at h; cases h
      | missing => rw [hfi] at h; cases h
      | found nameEnd =>
        rw [hfi] at h
        simp only [] at h
        by_cases h2 : ((s.drop skip).drop nameEnd).head? = some '='
        · rw [if_pos h2] at h
          cases hav : attrValue ((s.drop skip).drop (nameEnd + 1)) with
          | fail => rw [hav] at h; cases h
          | undefined => rw [hav] at h; cases h
          | ok nv v =>
            rw [hav] at h
            simp only [] at h
            cases htn : trimString ((s.drop skip).take nameEnd) with
            | none => rw [htn] at h; cases h
            | some tn =>
              cases htv : trimString v with
              | none => rw [htn, htv] at h; cases h
              | some tv =>
                rw [htn, htv] at h
                simp only [] at h
                have hb := ih _ _ _ _ _ h
                have hm := parseAttributesLoop_mono _ _ _ _ _ _ h
                simp only [List.length_drop] at hb
                omega
        · rw [if_neg h2] at h
          cases h

theorem parseAttributes_lt (s : Str) (n : Nat) (vs : Attributes)
    (h : parseAttributes s = AttrResult.ok n vs) : n < s.length := by
  have := parseAttributesLoop_bound _ _ _ _ _ _ h
  omega

/-- The loop over the text after a node eats no more than the text holds. -/
theorem suffixLoop_bound : ∀ (f : Nat) (txt : Str) (eat : Nat) (nt : Str)
    (at1 : Option Attributes) (e2 : Nat) (nt2 : Str) (at2 : Option Attributes),
    suffixLoop f txt eat nt at1 = SuffixResult.ok e2 nt2 at2 → e2 - eat ≤ txt.length := by
  intro f
  induction f with
  | zero => intro txt eat nt at1 e2 nt2 at2 h; simp [suffixLoop] at h
  | succ f ih =>
    intro txt eat nt at1 e2 nt2 at2 h
    rw [suffixLoop_succ] at h
    cases txt with
    | nil => simp only [SuffixResult.ok.injEq] at h; omega
    | cons c rest =>
      simp only [] at h
      by_cases h1 : has c ['(', ')', ',', ';'] = true
      · rw [if_pos h1] at h
        simp only [SuffixResult.ok.injEq] at h; omega
      · rw [if_neg h1] at h
        by_cases h2 : (c == '[') = true
        · rw [if_pos h2] at h
          by_cases h3 : rest.head? = some '&'
          · rw [if_pos h3] at h
            cases hp : parseAttributes (rest.drop 1) with
            | ok n vs =>
              rw [hp] at h
              simp only [] at h
              have hb := ih _ _ _ _ _ _ _ h
              have hn := parseAttributes_lt _ _ _ hp
              have hs := skipSpaces_le ((c :: rest).drop (n + 3))
              simp only [List.length_drop, List.length_cons] at hb hn hs ⊢
              omega
            | fail => rw [hp] at h; cases h
            | undefined => rw [hp] at h; cases h
            | timeout => rw [hp] at h; cases h
          · rw [if_neg h3] at h
            cases hg : getStuff ']' '[' rest with
            | none => rw [hg] at h; cases h
            | some e =>
              rw [hg] at h
              simp only [] at h
              have hb := ih _ _ _ _ _ _ _ h
              have hn := getStuff_lt _ _ _ _ hg
              simp only [List.length_drop, List.length_cons] at hb ⊢
              omega
        · rw [if_neg h2] at h
          have hb := ih _ _ _ _ _ _ _ h
          simp only [List.length_cons]
          omega

theorem labelAndBranch_spaces (strtod : Str → ℚ × Nat) (sp x : Str)
    (hsp : ∀ c ∈ sp, isspace c = true) :
    labelAndBranch strtod (sp ++ x) = labelAndBranch strtod x := by
  have hall : skipSpaces sp = sp.length := by
    induction sp with
    | nil => rfl
    | cons c cs ih =>
      rw [skipSpaces_cons, if_pos (hsp c (by simp)), ih (fun d hd => hsp d (by simp [hd]))]
      rfl
  have e : (sp ++ x).drop (skipSpaces (sp ++ x)) = x.drop (skipSpaces x) := by
    rw [skipSpaces_append, if_pos hall, ← List.drop_drop, List.drop_left]
  unfold labelAndBranch
  simp only [e]

theorem take_skipSpaces (r : Str) : ∀ c ∈ r.take (skipSpaces r), isspace c = true := by
  induction r with
  | nil => intro c hc; simp [skipSpaces] at hc
  | cons x xs ih =>
    intro c hc
    rw [skipSpaces_cons] at hc
    by_cases hx : isspace x = true
    · rw [if_pos hx] at hc
      simp only [List.take_succ_cons, List.mem_cons] at hc
      rcases hc with hc | hc
      · rw [hc]; exact hx
      · exact ih c hc
    · rw [if_neg hx] at hc
      simp at hc

/-- What the second half of `readSubTree` does, when it returns a node. -/
theorem finishNode_inv (strtod : Str → ℚ × Nat) (txt1 : Str) (eat1 : Nat)
    (nodes1 : List ParsedTreeNode) (tx : Str) (sons : List Nat) (eat : Nat)
    (ns : List ParsedTreeNode)
    (h : finishNode strtod (HeadResult.ok txt1 eat1 nodes1 tx sons) = ParseResult.ok eat ns) :
    ∃ nt at2 tx2 br,
      suffixLoop (txt1.length + 1) (txt1.drop (skipSpaces txt1)) (eat1 + skipSpaces txt1)
          [] none = SuffixResult.ok eat nt at2
      ∧ labelAndBranch strtod nt = LabelResult.ok tx2 br
      ∧ ns = nodes1 ++ [ParsedTreeNode.mk (tx2.getD tx) br sons at2] := by
  simp only [finishNode] at h
  cases hs : suffixLoop (txt1.length + 1) (txt1.drop (skipSpaces txt1))
      (eat1 + skipSpaces txt1) [] none with
  | timeout => rw [hs] at h; cases h
  | undefined => rw [hs] at h; cases h
  | fail => rw [hs] at h; cases h
  | ok e2 nt at2 =>
    rw [hs] at h
    simp only [] at h
    cases hl : labelAndBranch strtod nt with
    | undefined => rw [hl] at h; cases h
    | fail => rw [hl] at h; cases h
    | ok tx2 br =>
      rw [hl] at h
      simp only [ParseResult.ok.injEq] at h
      obtain ⟨rfl, rfl⟩ := h
      exact ⟨nt, at2, tx2, br, rfl, hl, rfl⟩

theorem finishNode_of (strtod : Str → ℚ × Nat) (txt1 : Str) (eat1 : Nat)
    (nodes1 : List ParsedTreeNode) (tx : Str) (sons : List Nat) (eat : Nat)
    (nt : Str) (at2 : Option Attributes) (tx2 : Option Str) (br : Option ℚ)
    (hs : suffixLoop (txt1.length + 1) (txt1.drop (skipSpaces txt1)) (eat1 + skipSpaces txt1)
          [] none = SuffixResult.ok eat nt at2)
    (hl : labelAndBranch strtod nt = LabelResult.ok tx2 br) :
    finishNode strtod (HeadResult.ok txt1 eat1 nodes1 tx sons)
      = ParseResult.ok eat (nodes1 ++ [ParsedTreeNode.mk (tx2.getD tx) br sons at2]) := by
  simp only [finishNode, hs, hl]

/-- The second half of `readSubTree` counts from the `eat` the first half leaves. -/
theorem finishNode_shift (strtod : Str → ℚ × Nat) (txt1 : Str) (eat1 : Nat)
    (nodes1 : List ParsedTreeNode) (tx : Str) (sons : List Nat) (eat : Nat)
    (ns : List ParsedTreeNode) (d : Nat)
    (h : finishNode strtod (HeadResult.ok txt1 eat1 nodes1 tx sons) = ParseResult.ok eat ns) :
    finishNode strtod (HeadResult.ok txt1 (eat1 + d) nodes1 tx sons)
      = ParseResult.ok (eat + d) ns := by
  obtain ⟨nt, at2, tx2, br, h1, h2, rfl⟩ := finishNode_inv strtod _ _ _ _ _ _ _ h
  have h3 := suffixLoop_shift _ _ _ _ _ _ _ _ h1 d []
  simp only [List.nil_append] at h3
  apply finishNode_of strtod _ _ _ _ _ _ nt at2 tx2 br _ h2
  rw [← h3]
  congr 1
  omega

/-- What the second half of `readSubTree` reads inside the first part of a text does not
depend on the rest of the text. -/
theorem finishNode_local (strtod : Str → ℚ × Nat) (a1 r : Str) (eat1 : Nat)
    (nodes1 : List ParsedTreeNode) (tx : Str) (sons : List Nat) (eat : Nat)
    (ns : List ParsedTreeNode)
    (h : finishNode strtod (HeadResult.ok (a1 ++ r) eat1 nodes1 tx sons) = ParseResult.ok eat ns)
    (hn : eat - eat1 < a1.length) (r2 : Str) :
    finishNode strtod (HeadResult.ok (a1 ++ r2) eat1 nodes1 tx sons) = ParseResult.ok eat ns := by
  obtain ⟨nt, at2, tx2, br, h1, h2, rfl⟩ := finishNode_inv strtod _ _ _ _ _ _ _ h
  have hm := suffixLoop_eat_le _ _ _ _ _ _ _ _ h1
  have hsp := skipSpaces_local a1 r r2 (by omega) (fun he => by omega)
  apply finishNode_of strtod _ _ _ _ _ _ nt at2 tx2 br _ h2
  rw [hsp]
  rw [drop_app a1 r _ (by omega)] at h1
  rw [drop_app a1 r2 _ (by omega)]
  have h3 := suffixLoop_local _ _ r _ _ _ _ _ _ h1 (by simp only [List.length_drop]; omega) r2
  exact suffixLoop_fuel _ _ _ _ _ _ _ _ h3 _ (by simp only [List.length_append]; omega)

/-- A comment at a place where the loop over the text after a node stands leaves the
node as it is. -/
theorem finishNode_site (strtod : Str → ℚ × Nat) (c : Str) (hc1 : c.head? ≠ some '&')
    (hc2 : ']' ∉ c) (hc3 : c.getLast? ≠ some backslash) (a1 r : Str) (eat1 : Nat)
    (nodes1 : List ParsedTreeNode) (tx : Str) (sons : List Nat) (eat : Nat)
    (ns : List ParsedTreeNode)
    (h : finishNode strtod (HeadResult.ok (a1 ++ r) eat1 nodes1 tx sons) = ParseResult.ok eat ns)
    (hle : skipSpaces (a1 ++ r) ≤ a1.length)
    (hs : suffixSite ((a1 ++ r).length + 1) ((a1 ++ r).drop (skipSpaces (a1 ++ r)))
      (a1.length - skipSpaces (a1 ++ r)) = true) :
    finishNode strtod (HeadResult.ok (a1 ++ '[' :: (c ++ ']' :: r)) eat1 nodes1 tx sons)
        = ParseResult.ok (eat + (c.length + 2)) ns
      ∧ a1.length ≤ eat - eat1 := by
  obtain ⟨nt, at2, tx2, br, h1, h2, rfl⟩ := finishNode_inv strtod _ _ _ _ _ _ _ h
  have hm := suffixLoop_eat_le _ _ _ _ _ _ _ _ h1
  have hb := suffixLoop_bound _ _ _ _ _ _ _ _ h1
  have hsp := skipSpaces_local a1 r ('[' :: (c ++ ']' :: r)) hle
    (fun _ => by simp [skipSpaces, isspace])
  rw [drop_app a1 r _ hle] at h1 hs hb
  have hlen : (a1.drop (skipSpaces (a1 ++ r))).length = a1.length - skipSpaces (a1 ++ r) :=
    List.length_drop _ _
  rw [← hlen] at hs
  obtain ⟨i1, i2⟩ := suffixLoop_site c hc1 hc2 hc3 _ _ _ r _ _ _ _ _ _ h1 hs
  constructor
  · apply finishNode_of strtod _ _ _ _ _ _ nt at2 tx2 br _ h2
    rw [hsp, drop_app a1 _ _ hle]
    apply i2
    simp only [List.length_append, List.length_cons, List.length_drop] at hb ⊢
    omega
  · rw [hlen] at i1
    omega

/-- A comment immediately after the tip label or the closing parenthesis of a node leaves
the node as it is. -/
theorem finishNode_after (strtod : Str → ℚ × Nat) (c : Str) (hc1 : c.head? ≠ some '&')
    (hc2 : ']' ∉ c) (hc3 : c.getLast? ≠ some backslash) (r : Str) (eat1 : Nat)
    (nodes1 : List ParsedTreeNode) (tx : Str) (sons : List Nat) (eat : Nat)
    (ns : List ParsedTreeNode)
    (h : finishNode strtod (HeadResult.ok r eat1 nodes1 tx sons) = ParseResult.ok eat ns) :
    finishNode strtod (HeadResult.ok ('[' :: (c ++ ']' :: r)) eat1 nodes1 tx sons)
        = ParseResult.ok (eat + (c.length + 2)) ns := by
  obtain ⟨nt, at2, tx2, br, h1, h2, rfl⟩ := finishNode_inv strtod _ _ _ _ _ _ _ h
  have hm := suffixLoop_eat_le _ _ _ _ _ _ _ _ h1
  have hb := suffixLoop_bound _ _ _ _ _ _ _ _ h1
  have hsl := skipSpaces_le r
  have hsp0 : skipSpaces ('[' :: (c ++ ']' :: r)) = 0 := by simp [skipSpaces, isspace]
  have hspaces := take_skipSpaces r
  have h2' : labelAndBranch strtod (r.take (skipSpaces r) ++ nt) = LabelResult.ok tx2 br := by
    rw [labelAndBranch_spaces strtod _ _ hspaces]
    exact h2
  apply finishNode_of strtod _ _ _ _ _ _ (r.take (skipSpaces r) ++ nt) at2 tx2 br _ h2'
  rw [hsp0, List.drop_zero]
  simp only [Nat.add_zero]
  have e1 : ('[' :: (c ++ ']' :: r)).length + 1 = (r.length + c.length + 2) + 1 := by
    simp only [List.length_cons, List.length_append]
    omega
  rw [e1, suffixLoop_comment c r _ eat1 [] none hc1 hc2 hc3]
  have e2 : r.length + c.length + 2
      = (r.length + c.length + 2 - skipSpaces r) + (r.take (skipSpaces r)).length := by
    simp only [List.length_take]
    omega
  have e3 : suffixLoop (r.length + c.length + 2) r (eat1 + (c.length + 2)) [] none
      = suffixLoop ((r.length + c.length + 2 - skipSpaces r) + (r.take (skipSpaces r)).length)
          (r.take (skipSpaces r) ++ r.drop (skipSpaces r)) (eat1 + (c.length + 2)) [] none := by
    rw [← e2, List.take_append_drop]
  rw [e3, suffixLoop_spaces _ _ _ _ _ _ hspaces]
  have h3 := suffixLoop_shift _ _ _ _ _ _ _ _ h1 (c.length + 2) (r.take (skipSpaces r))
  simp only [List.append_nil, List.nil_append] at h3 ⊢
  have h4 := suffixLoop_fuel _ _ _ _ _ _ _ _ h3 (r.length + c.length + 2 - skipSpaces r)
    (by simp only [List.length_drop] at hb; omega)
  rw [← h4]
  congr 1
  simp only [List.length_take]
  omega

end Biopy

namespace Biopy

theorem sonsLoop_succ (rd : Str → List ParsedTreeNode → ParseResult) (k : Nat) (txt : Str)
    (eat : Nat) (nodes : List ParsedTreeNode) (subs : List Nat) :
    sonsLoop rd (k + 1) txt eat nodes subs
      = match rd (txt.drop 1) nodes with
        | ParseResult.timeout => HeadResult.timeout
        | ParseResult.undefined => HeadResult.undefined
        | ParseResult.ok n1 nodes1 =>
          if ((txt.drop (1 + n1)).drop (skipSpaces (txt.drop (1 + n1)))).head? = some ',' then
            sonsLoop rd k ((txt.drop (1 + n1)).drop (skipSpaces (txt.drop (1 + n1))))
              (eat + (1 + n1) + skipSpaces (txt.drop (1 + n1))) nodes1
              (subs ++ [lastIndex nodes1])
          else if ((txt.drop (1 + n1)).drop (skipSpaces (txt.drop (1 + n1)))).head?
              = some ')' then
            HeadResult.ok (((txt.drop (1 + n1)).drop (skipSpaces (txt.drop (1 + n1)))).drop 1)
              (eat + (1 + n1) + skipSpaces (txt.drop (1 + n1)) + 1) nodes1 []
              (subs ++ [lastIndex nodes1])
          else HeadResult.fail nodes1
        | ParseResult.fail nodes1 =>
          if (txt.drop (skipSpaces txt)).head? = some ',' then
            sonsLoop rd k (txt.drop (skipSpaces txt)) (eat + skipSpaces txt) nodes1
              (subs ++ [lastIndex nodes1])
          else if (txt.drop (skipSpaces txt)).head? = some ')' then
            HeadResult.ok ((txt.drop (skipSpaces txt)).drop 1) (eat + skipSpaces txt + 1)
              nodes1 [] (subs ++ [lastIndex nodes1])
          else HeadResult.fail nodes1 := rfl

/-- The loop over the sons eats a byte at least. -/
theorem sonsLoop_mono (rd : Str → List ParsedTreeNode → ParseResult) : ∀ (k : Nat) (txt : Str)
    (eat : Nat) (nodes : List ParsedTreeNode) (subs : List Nat) (txt1 : Str) (eat1 : Nat)
    (nodes1 : List ParsedTreeNode) (tx : Str) (sons : List Nat),
    sonsLoop rd k txt eat nodes subs = HeadResult.ok txt1 eat1 nodes1 tx sons →
    eat + 1 ≤ eat1 := by
  intro k
  induction k with
  | zero => intro txt eat nodes subs txt1 eat1 nodes1 tx sons h; simp [sonsLoop] at h
  | succ k ih =>
    intro txt eat nodes subs txt1 eat1 nodes1 tx sons h
    rw [sonsLoop_succ] at h
    cases hr : rd (txt.drop 1) nodes with
    | timeout => rw [hr] at h; cases h
    | undefined => rw [hr] at h; cases h
    | ok n1 nodesA =>
      rw [hr] at h
      simp only [] at h
      split at h
      · have := ih _ _ _ _ _ _ _ _ _ h; omega
      · split at h
        · simp only [HeadResult.ok.injEq] at h; omega
        · cases h
    | fail nodesA =>
      rw [hr] at h
      simp only [] at h
      split at h
      · have := ih _ _ _ _ _ _ _ _ _ h; omega
      · split at h
        · simp only [HeadResult.ok.injEq] at h; omega
        · cases h

/-- The loop over the sons counts from the `eat` it starts with. -/
theorem sonsLoop_shift (rd : Str → List ParsedTreeNode → ParseResult) (d : Nat) :
    ∀ (k : Nat) (txt : Str) (eat : Nat) (nodes : List ParsedTreeNode) (subs : List Nat)
      (txt1 : Str) (eat1 : Nat) (nodes1 : List ParsedTreeNode) (tx : Str) (sons : List Nat),
    sonsLoop rd k txt eat nodes subs = HeadResult.ok txt1 eat1 nodes1 tx sons →
    sonsLoop rd k txt (eat + d) nodes subs = HeadResult.ok txt1 (eat1 + d) nodes1 tx sons := by
  intro k
  induction k with
  | zero => intro txt eat nodes subs txt1 eat1 nodes1 tx sons h; simp [sonsLoop] at h
  | succ k ih =>
    intro txt eat nodes subs txt1 eat1 nodes1 tx sons h
    rw [sonsLoop_succ] at h ⊢
    cases hr : rd (txt.drop 1) nodes with
    | timeout => rw [hr] at h; cases h
    | undefined => rw [hr] at h; cases h
    | ok n1 nodesA =>
      rw [hr] at h
      simp only [] at h ⊢
      split at h
      · rename_i hc
        rw [if_pos hc]
        have := ih _ _ _ _ _ _ _ _ _ h
        rw [← this]
        congr 1
        omega
      · rename_i hc
        rw [if_neg hc]
        split at h
        · rename_i hc2
          rw [if_pos hc2]
          simp only [HeadResult.ok.injEq] at h ⊢
          obtain ⟨h1, h2, h3, h4, h5⟩ := h
          exact ⟨h1, by omega, h3, h4, h5⟩
        · cases h
    | fail nodesA =>
      rw [hr] at h
      simp only [] at h ⊢
      split at h
      · rename_i hc
        rw [if_pos hc]
        have := ih _ _ _ _ _ _ _ _ _ h
        rw [← this]
        congr 1
        omega
      · rename_i hc
        rw [if_neg hc]
        split at h
        · rename_i hc2
          rw [if_pos hc2]
          simp only [HeadResult.ok.injEq] at h ⊢
          obtain ⟨h1, h2, h3, h4, h5⟩ := h
          exact ⟨h1, by omega, h3, h4, h5⟩
        · cases h

/-- A call that fails makes the loop over the sons fail or run on. -/
theorem sonsLoop_not_fail (rd : Str → List ParsedTreeNode → ParseResult)
    (hrdK : ∀ t n n', (rd t n).erase = (rd t n').erase) (k : Nat) (txt : Str) (eat : Nat)
    (nodes : List ParsedTreeNode) (subs : List Nat) (txt1 : Str) (eat1 : Nat)
    (nodes1 : List ParsedTreeNode) (tx : Str) (sons : List Nat)
    (hhead : txt.head? = some '(' ∨ txt.head? = some ',')
    (h : sonsLoop rd k txt eat nodes subs = HeadResult.ok txt1 eat1 nodes1 tx sons)
    (nf : List ParsedTreeNode) : rd (txt.drop 1) nodes ≠ ParseResult.fail nf := by
  intro hr
  have hfail : ∀ n', ∃ n1', rd (txt.drop 1) n' = ParseResult.fail n1' := by
    intro n'
    have := hrdK (txt.drop 1) nodes n'
    rw [hr] at this
    cases hr' : rd (txt.drop 1) n' with
    | fail x => exact ⟨_, rfl⟩
    | ok e x => rw [hr'] at this; simp [ParseResult.erase] at this
    | undefined => rw [hr'] at this; simp [ParseResult.erase] at this
    | timeout => rw [hr'] at this; simp [ParseResult.erase] at this
  rcases sonsLoop_stuck rd txt hhead hfail k eat nodes subs with h' | ⟨_, h'⟩ <;>
    simp [h'] at h

/-- What the terminal branch reads inside the first part of a text does not depend on
the rest of the text, when that starts with a byte that ends a bare word. -/
theorem readTerminal_local (a r r2 : Str) (eat : Nat) (nds : List ParsedTreeNode)
    (txt1 : Str) (eat1 : Nat) (nodes1 : List ParsedTreeNode) (tx : Str) (sons : List Nat)
    (h : readTerminal (a ++ r) eat nds = HeadResult.ok txt1 eat1 nodes1 tx sons)
    (hn : eat1 - eat ≤ a.length)
    (h2 : eat1 - eat = a.length → barewordLen r2 = some 0) :
    ∃ a1, txt1 = a1 ++ r ∧ a1.length + (eat1 - eat) = a.length
      ∧ readTerminal (a ++ r2) eat nds = HeadResult.ok (a1 ++ r2) eat1 nodes1 tx sons := by
  have hbw : ∀ t : Str, barewordLen t = some 0 →
      ∃ d ds, t = d :: ds ∧ (d == squote || d == dquote) = false := by
    intro t ht
    cases t with
    | nil => cases ht
    | cons d ds =>
      refine ⟨d, ds, rfl, ?_⟩
      have e1 : barewordLen (d :: ds)
          = if endsBareword d then some 0 else (barewordLen ds).map (fun n => n + 1) := rfl
      rw [e1] at ht
      by_cases hd : endsBareword d = true
      · cases hq : (d == squote || d == dquote) with
        | false => rfl
        | true =>
          exfalso
          simp only [Bool.or_eq_true, beq_iff_eq] at hq
          rcases hq with hq | hq <;> (subst hq; revert hd; decide)
      · rw [if_neg hd] at ht
        cases hx : barewordLen ds with
        | none => rw [hx] at ht; cases ht
        | some m => rw [hx] at ht; simp at ht
  cases a with
  | nil =>
    simp only [List.nil_append, List.length_nil, Nat.le_zero_eq] at h hn h2 ⊢
    unfold readTerminal at h
    cases r with
    | nil => cases h
    | cons c0 rest =>
      simp only [] at h
      by_cases hq : (c0 == squote || c0 == dquote) = true
      · rw [if_pos hq] at h
        cases hg : getStuff c0 c0 rest with
        | none => rw [hg] at h; cases h
        | some e =>
          rw [hg] at h
          simp only [HeadResult.ok.injEq] at h
          omega
      · rw [if_neg hq] at h
        cases hb : barewordLen (c0 :: rest) with
        | none => rw [hb] at h; cases h
        | some n =>
          rw [hb] at h
          simp only [HeadResult.ok.injEq] at h
          obtain ⟨q1, q2, q3, q4, q5⟩ := h
          have hn0 : n = 0 := by omega
          subst hn0
          obtain ⟨d, ds, hd, hdq⟩ := hbw r2 (h2 (by omega))
          refine ⟨[], by simpa using q1.symm, by simp; omega, ?_⟩
          subst hd
          have hb2 := h2 (by omega)
          unfold readTerminal
          simp only [hdq, Bool.false_eq_true, if_false, hb2, List.nil_append]
          simp only [HeadResult.ok.injEq]
          refine ⟨rfl, q2, q3, ?_, q5⟩
          rw [← q4]
          rfl
  | cons c0 as =>
    unfold readTerminal at h ⊢
    simp only [List.cons_append] at h ⊢
    by_cases hq : (c0 == squote || c0 == dquote) = true
    · rw [if_pos hq] at h ⊢
      cases hg : getStuff c0 c0 (as ++ r) with
      | none => rw [hg] at h; cases h
      | some e =>
        rw [hg] at h
        simp only [HeadResult.ok.injEq] at h
        obtain ⟨q1, q2, q3, q4, q5⟩ := h
        simp only [List.length_cons] at hn ⊢
        have he : e < as.length := by omega
        rw [getStuff_local c0 c0 as r r2 e hg he]
        simp only [HeadResult.ok.injEq]
        have e3 : ∀ t : Str, (c0 :: (as ++ t)).drop (e + 2) = as.drop (e + 1) ++ t := by
          intro t
          rw [show e + 2 = (e + 1) + 1 from rfl, List.drop_succ_cons,
            drop_app as t (e + 1) (by omega)]
        have e4 : ∀ t : Str, (c0 :: (as ++ t)).take (e + 2) = c0 :: as.take (e + 1) := by
          intro t
          rw [show e + 2 = (e + 1) + 1 from rfl, List.take_succ_cons,
            take_app as t (e + 1) (by omega)]
        refine ⟨as.drop (e + 1), by rw [← q1, e3], by simp only [List.length_drop]; omega, ?_⟩
        refine ⟨by rw [e3], q2, q3, ?_, q5⟩
        rw [← q4, e4, e4]
    · rw [if_neg hq] at h ⊢
      cases hb : barewordLen (c0 :: (as ++ r)) with
      | none => rw [hb] at h; cases h
      | some n =>
        rw [hb] at h
        simp only [HeadResult.ok.injEq] at h
        obtain ⟨q1, q2, q3, q4, q5⟩ := h
        have hn2 : n ≤ (c0 :: as).length := by omega
        have hb2 := barewordLen_local (c0 :: as) r r2 n (by simpa using hb) hn2
          (fun hx => h2 (by omega))
        simp only [List.cons_append] at hb2
        rw [hb2]
        simp only [HeadResult.ok.injEq]
        have e3 : ∀ t : Str, (c0 :: (as ++ t)).drop n = (c0 :: as).drop n ++ t := by
          intro t
          rw [← List.cons_append, drop_app (c0 :: as) t n hn2]
        have e4 : ∀ t : Str, (c0 :: (as ++ t)).take n = (c0 :: as).take n := by
          intro t
          rw [← List.cons_append, take_app (c0 :: as) t n hn2]
        refine ⟨(c0 :: as).drop n, by rw [← q1, e3],
          by simp only [List.length_drop]; omega, ?_⟩
        refine ⟨by rw [e3], q2, q3, ?_, q5⟩
        rw [← q4, e4, e4]

end Biopy

namespace Biopy

/-- What the loop over the sons reads inside the first part of a text does not depend on
the rest of the text. -/
theorem sonsLoop_local (rd : Str → List ParsedTreeNode → ParseResult)
    (hrdK : ∀ t n n', (rd t n).erase = (rd t n').erase)
    (hrdA : ∀ (a r : Str) (nds : List ParsedTreeNode) (e : Nat) (ns : List ParsedTreeNode),
      rd (a ++ r) nds = ParseResult.ok e ns → e < a.length →
      ∀ r2, rd (a ++ r2) nds = ParseResult.ok e ns) :
    ∀ (k : Nat) (a r : Str) (eat : Nat) (nodes : List ParsedTreeNode) (subs : List Nat)
      (txt1 : Str) (eat1 : Nat) (nodes1 : List ParsedTreeNode) (tx : Str) (sons : List Nat),
      ((a ++ r).head? = some '(' ∨ (a ++ r).head? = some ',') →
      sonsLoop rd k (a ++ r) eat nodes subs = HeadResult.ok txt1 eat1 nodes1 tx sons →
      eat1 - eat ≤ a.length →
      ∃ a1, txt1 = a1 ++ r ∧ a1.length + (eat1 - eat) = a.length
        ∧ ∀ r2, sonsLoop rd k (a ++ r2) eat nodes subs
            = HeadResult.ok (a1 ++ r2) eat1 nodes1 tx sons := by
  intro k
  induction k with
  | zero => intro a r eat nodes subs txt1 eat1 nodes1 tx sons _ h; simp [sonsLoop] at h
  | succ k ih =>
    intro a r eat nodes subs txt1 eat1 nodes1 tx sons hhead h hn
    have hmono := sonsLoop_mono rd _ _ _ _ _ _ _ _ _ _ h
    have ha1 : 1 ≤ a.length := by omega
    cases hr : rd ((a ++ r).drop 1) nodes with
    | timeout => rw [sonsLoop_succ, hr] at h; cases h
    | undefined => rw [sonsLoop_succ, hr] at h; cases h
    | fail nf => exact absurd hr (sonsLoop_not_fail rd hrdK _ _ _ _ _ _ _ _ _ _ hhead h nf)
    | ok n1 nodesA =>
      rw [sonsLoop_succ, hr] at h
      simp only [] at h
      have hsl := skipSpaces_le ((a ++ r).drop (1 + n1))
      -- the bound on what the son and the white space after it take
      have hB : 1 + n1 + skipSpaces ((a ++ r).drop (1 + n1)) < a.length := by
        by_cases hc : (((a ++ r).drop (1 + n1)).drop
            (skipSpaces ((a ++ r).drop (1 + n1)))).head? = some ','
        · rw [if_pos hc] at h
          have := sonsLoop_mono rd _ _ _ _ _ _ _ _ _ _ h
          omega
        · rw [if_neg hc] at h
          split at h
          · simp only [HeadResult.ok.injEq] at h
            omega
          · cases h
      have hd1 : ∀ t : Str, (a ++ t).drop 1 = a.drop 1 ++ t := fun t => drop_app a t 1 ha1
      have hd2 : ∀ t : Str, (a ++ t).drop (1 + n1) = a.drop (1 + n1) ++ t :=
        fun t => drop_app a t _ (by omega)
      rw [hd1] at hr
      have hr2 : ∀ r2, rd (a.drop 1 ++ r2) nodes = ParseResult.ok n1 nodesA :=
        hrdA _ _ _ _ _ hr (by simp only [List.length_drop]; omega)
      rw [hd2] at h hB
      have hsp : ∀ r2, skipSpaces (a.drop (1 + n1) ++ r2) = skipSpaces (a.drop (1 + n1) ++ r) := by
        intro r2
        apply skipSpaces_local
        · simp only [List.length_drop]; omega
        · intro he
          simp only [List.length_drop] at he
          omega
      have hd3 : ∀ t : Str, (a.drop (1 + n1) ++ t).drop (skipSpaces (a.drop (1 + n1) ++ r))
          = a.drop (1 + n1 + skipSpaces (a.drop (1 + n1) ++ r)) ++ t := by
        intro t
        rw [drop_app _ t _ (by simp only [List.length_drop]; omega), List.drop_drop]
      rw [hd3] at h
      have hhd : ∀ t : Str, (a.drop (1 + n1 + skipSpaces (a.drop (1 + n1) ++ r)) ++ t).head?
          = (a.drop (1 + n1 + skipSpaces (a.drop (1 + n1) ++ r))).head? := by
        intro t
        apply head_app
        simp only [List.length_drop]
        omega
      by_cases hc : (a.drop (1 + n1 + skipSpaces (a.drop (1 + n1) ++ r)) ++ r).head? = some ','
      · rw [if_pos hc] at h
        have hm2 := sonsLoop_mono rd _ _ _ _ _ _ _ _ _ _ h
        obtain ⟨a1, e1, e2, e3⟩ := ih _ _ _ _ _ _ _ _ _ _ (Or.inr hc) h
          (by simp only [List.length_drop]; omega)
        refine ⟨a1, e1, ?_, ?_⟩
        · simp only [List.length_drop] at e2
          omega
        · intro r2
          rw [sonsLoop_succ, hd1, hr2 r2]
          simp only []
          rw [hd2, hsp r2, hd3, if_pos (by rw [hhd] at hc ⊢; exact hc)]
          exact e3 r2
      · rw [if_neg hc] at h
        by_cases hc2 : (a.drop (1 + n1 + skipSpaces (a.drop (1 + n1) ++ r)) ++ r).head?
            = some ')'
        · rw [if_pos hc2] at h
          simp only [HeadResult.ok.injEq] at h
          obtain ⟨q1, q2, q3, q4, q5⟩ := h
          have hd4 : ∀ t : Str,
              (a.drop (1 + n1 + skipSpaces (a.drop (1 + n1) ++ r)) ++ t).drop 1
                = a.drop (1 + n1 + skipSpaces (a.drop (1 + n1) ++ r) + 1) ++ t := by
            intro t
            rw [drop_app _ t _ (by simp only [List.length_drop]; omega), List.drop_drop]
          refine ⟨a.drop (1 + n1 + skipSpaces (a.drop (1 + n1) ++ r) + 1), ?_, ?_, ?_⟩
          · rw [← q1, hd4]
          · simp only [List.length_drop]
            omega
          · intro r2
            rw [sonsLoop_succ, hd1, hr2 r2]
            simp only []
            rw [hd2, hsp r2, hd3, if_neg (by rw [hhd] at hc ⊢; exact hc),
              if_pos (by rw [hhd] at hc2 ⊢; exact hc2), hd4]
            simp only [HeadResult.ok.injEq]
            exact ⟨trivial, q2, q3, q4, q5⟩
        · rw [if_neg hc2] at h
          cases h

/-- What `readSubTree` reads inside the first part of a text does not depend on the rest
of the text. -/
theorem readSubTree_local (strtod : Str → ℚ × Nat) :
    ∀ (fuel : Nat) (a r : Str) (nds : List ParsedTreeNode) (eat : Nat)
      (ns : List ParsedTreeNode),
      readSubTree strtod fuel (a ++ r) nds = ParseResult.ok eat ns → eat < a.length →
      ∀ r2, readSubTree strtod fuel (a ++ r2) nds = ParseResult.ok eat ns := by
  intro fuel
  induction fuel with
  | zero => intro a r nds eat ns h; simp [readSubTree] at h
  | succ fuel ih =>
    intro a r nds eat ns h hlt r2
    have hge := readSubTree_eat_ge strtod _ _ _ _ _ h
    have hsp : skipSpaces (a ++ r2) = skipSpaces (a ++ r) :=
      skipSpaces_local a r r2 (by omega) (fun he => by omega)
    have hd : ∀ t : Str, (a ++ t).drop (skipSpaces (a ++ r)) = a.drop (skipSpaces (a ++ r)) ++ t :=
      fun t => drop_app a t _ (by omega)
    have hhd : ∀ t : Str, (a.drop (skipSpaces (a ++ r)) ++ t).head?
        = (a.drop (skipSpaces (a ++ r))).head? := by
      intro t
      apply head_app
      simp only [List.length_drop]
      omega
    unfold readSubTree at h ⊢
    rw [hsp, hd]
    rw [hd] at h
    by_cases hc : (a.drop (skipSpaces (a ++ r)) ++ r).head? = some '('
    · rw [if_pos hc] at h
      rw [if_pos (by rw [hhd] at hc ⊢; exact hc)]
      obtain ⟨txt1, eat1, nodes1, tx, sons, node, hh, _, _, hle⟩ := finishNode_ok _ _ _ _ h
      have hm := sonsLoop_mono _ _ _ _ _ _ _ _ _ _ _ hh
      obtain ⟨a1, e1, e2, e3⟩ := sonsLoop_local _ (readSubTree_erase strtod fuel) (ih)
        _ _ _ _ _ _ _ _ _ _ _ (Or.inl hc) hh (by simp only [List.length_drop]; omega)
      simp only [List.length_drop] at e2
      rw [hh, e1] at h
      rw [e3 r2]
      exact finishNode_local strtod _ _ _ _ _ _ _ _ h (by omega) r2
    · rw [if_neg hc] at h
      rw [if_neg (by rw [hhd] at hc ⊢; exact hc)]
      obtain ⟨txt1, eat1, nodes1, tx, sons, node, hh, _, _, hle⟩ := finishNode_ok _ _ _ _ h
      obtain ⟨_, _, hm⟩ := readTerminal_ok _ _ _ _ _ _ _ _ hh
      obtain ⟨a1, e1, e2, e3⟩ := readTerminal_local _ r r2 _ _ _ _ _ _ _ hh
        (by simp only [List.length_drop]; omega)
        (fun he => by simp only [List.length_drop] at he; omega)
      simp only [List.length_drop] at e2
      rw [hh, e1] at h
      rw [e3]
      exact finishNode_local strtod _ _ _ _ _ _ _ _ h (by omega) r2

end Biopy

namespace Biopy

theorem sonsSite_succ (site : Str → Nat → Bool) (rd : Str → List ParsedTreeNode → ParseResult)
    (k : Nat) (txt : Str) (b : Nat) :
    sonsSite site rd (k + 1) txt b
      = ((decide (1 ≤ b) && site (txt.drop 1) (b - 1))
        || (match rd (txt.drop 1) [] with
            | ParseResult.ok n1 _ =>
              decide (((txt.drop (1 + n1)).drop (skipSpaces (txt.drop (1 + n1)))).head?
                  = some ',')
                && decide (1 + n1 + skipSpaces (txt.drop (1 + n1)) ≤ b)
                && sonsSite site rd k ((txt.drop (1 + n1)).drop (skipSpaces (txt.drop (1 + n1))))
                    (b - (1 + n1 + skipSpaces (txt.drop (1 + n1))))
            | _ => false)) := rfl

/-- A place for a comment inside the sons is after the opening parenthesis. -/
theorem sonsSite_pos (site : Str → Nat → Bool) (rd : Str → List ParsedTreeNode → ParseResult)
    (k : Nat) (txt : Str) (b : Nat) (h : sonsSite site rd k txt b = true) : 1 ≤ b := by
  cases k with
  | zero => simp [sonsSite] at h
  | succ k =>
    rw [sonsSite_succ] at h
    simp only [Bool.or_eq_true, Bool.and_eq_true, decide_eq_true_eq] at h
    rcases h with ⟨h1, _⟩ | h2
    · exact h1
    · split at h2
      · simp only [Bool.and_eq_true, decide_eq_true_eq] at h2
        omega
      · cases h2

theorem drop_insert (a m r : Str) (k : Nat) (h : a.length ≤ k) :
    (a ++ (m ++ r)).drop (k + m.length) = (a ++ r).drop k := by
  rw [List.drop_append_eq_append_drop, List.drop_append_eq_append_drop,
    List.drop_append_eq_append_drop, List.drop_eq_nil_of_le (show a.length ≤ k + m.length by omega),
    List.drop_eq_nil_of_le h, List.drop_eq_nil_of_le (show m.length ≤ k + m.length - a.length by omega)]
  simp only [List.nil_append]
  congr 1
  omega

theorem drop_comment (a c r : Str) (k : Nat) (h : a.length ≤ k) :
    (a ++ '[' :: (c ++ ']' :: r)).drop (k + (c.length + 2)) = (a ++ r).drop k := by
  have := drop_insert a ('[' :: (c ++ [']'])) r k h
  simp only [List.cons_append, List.append_assoc, List.singleton_append, List.length_cons,
    List.length_append, List.length_nil] at this
  exact this

theorem erase_ok (p : ParseResult) (e : Nat) (ns : List ParsedTreeNode) (q : ParseResult)
    (hp : p = ParseResult.ok e ns) (h : p.erase = q.erase) : ∃ ms, q = ParseResult.ok e ms := by
  subst hp
  cases q with
  | ok e2 ms =>
    simp only [ParseResult.erase, ParseResult.ok.injEq, and_true] at h
    exact ⟨ms, by rw [h]⟩
  | fail x => simp [ParseResult.erase] at h
  | undefined => simp [ParseResult.erase] at h
  | timeout => simp [ParseResult.erase] at h

/-- A comment at a place inside one of the sons leaves what the loop over the sons reads
as it is. -/
theorem sonsLoop_site (c : Str) (site : Str → Nat → Bool)
    (rd : Str → List ParsedTreeNode → ParseResult)
    (hrdK : ∀ t n n', (rd t n).erase = (rd t n').erase)
    (hrdA : ∀ (a r : Str) (nds : List ParsedTreeNode) (e : Nat) (ns : List ParsedTreeNode),
      rd (a ++ r) nds = ParseResult.ok e ns → e < a.length →
      ∀ r2, rd (a ++ r2) nds = ParseResult.ok e ns)
    (hrdS : ∀ (a r : Str) (nds : List ParsedTreeNode) (e : Nat) (ns : List ParsedTreeNode),
      rd (a ++ r) nds = ParseResult.ok e ns → site (a ++ r) a.length = true →
      rd (a ++ '[' :: (c ++ ']' :: r)) nds = ParseResult.ok (e + (c.length + 2)) ns
        ∧ a.length ≤ e) :
    ∀ (k : Nat) (a r : Str) (eat : Nat) (nodes : List ParsedTreeNode) (subs : List Nat)
      (txt1 : Str) (eat1 : Nat) (nodes1 : List ParsedTreeNode) (tx : Str) (sons : List Nat),
      ((a ++ r).head? = some '(' ∨ (a ++ r).head? = some ',') →
      sonsLoop rd k (a ++ r) eat nodes subs = HeadResult.ok txt1 eat1 nodes1 tx sons →
      sonsSite site rd k (a ++ r) a.length = true →
      sonsLoop rd k (a ++ '[' :: (c ++ ']' :: r)) eat nodes subs
          = HeadResult.ok txt1 (eat1 + (c.length + 2)) nodes1 tx sons
        ∧ a.length + 1 ≤ eat1 - eat := by
  intro k
  induction k with
  | zero => intro a r eat nodes subs txt1 eat1 nodes1 tx sons _ h; simp [sonsLoop] at h
  | succ k ih =>
    intro a r eat nodes subs txt1 eat1 nodes1 tx sons hhead h hs
    have ha1 := sonsSite_pos _ _ _ _ _ hs
    have hd1 : ∀ t : Str, (a ++ t).drop 1 = a.drop 1 ++ t := fun t => drop_app a t 1 ha1
    have hl1 : (a.drop 1).length = a.length - 1 := List.length_drop _ _
    cases hr : rd ((a ++ r).drop 1) nodes with
    | timeout => rw [sonsLoop_succ, hr] at h; cases h
    | undefined => rw [sonsLoop_succ, hr] at h; cases h
    | fail nf => exact absurd hr (sonsLoop_not_fail rd hrdK _ _ _ _ _ _ _ _ _ _ hhead h nf)
    | ok n1 nodesA =>
      obtain ⟨ms, hr0⟩ := erase_ok _ _ _ _ hr (hrdK ((a ++ r).drop 1) nodes [])
      rw [sonsLoop_succ, hr] at h
      simp only [] at h
      have hsl := skipSpaces_le ((a ++ r).drop (1 + n1))
      have hB : eat + 1 + n1 + skipSpaces ((a ++ r).drop (1 + n1)) + 1 ≤ eat1 := by
        by_cases hc : (((a ++ r).drop (1 + n1)).drop
            (skipSpaces ((a ++ r).drop (1 + n1)))).head? = some ','
        · rw [if_pos hc] at h
          have := sonsLoop_mono rd _ _ _ _ _ _ _ _ _ _ h
          omega
        · rw [if_neg hc] at h
          split at h
          · simp only [HeadResult.ok.injEq] at h
            omega
          · cases h
      rw [sonsSite_succ, hr0] at hs
      simp only [Bool.or_eq_true, Bool.and_eq_true, decide_eq_true_eq] at hs
      rcases hs with ⟨_, hs1⟩ | ⟨⟨hcomma, hle⟩, hrec⟩
      · -- the comment is in the son read first
        rw [hd1] at hr hs1
        rw [← hl1] at hs1
        obtain ⟨g1, g2⟩ := hrdS _ _ _ _ _ hr hs1
        have hdd : (a ++ '[' :: (c ++ ']' :: r)).drop (1 + (n1 + (c.length + 2)))
            = (a ++ r).drop (1 + n1) := by
          rw [show 1 + (n1 + (c.length + 2)) = (1 + n1) + (c.length + 2) by omega]
          exact drop_comment a c r _ (by omega)
        refine ⟨?_, by omega⟩
        rw [sonsLoop_succ, hd1, g1]
        simp only []
        rw [hdd]
        by_cases hc : (((a ++ r).drop (1 + n1)).drop
            (skipSpaces ((a ++ r).drop (1 + n1)))).head? = some ','
        · rw [if_pos hc] at h ⊢
          have := sonsLoop_shift rd (c.length + 2) _ _ _ _ _ _ _ _ _ _ h
          rw [← this]
          congr 1
          omega
        · rw [if_neg hc] at h ⊢
          by_cases hc2 : (((a ++ r).drop (1 + n1)).drop
              (skipSpaces ((a ++ r).drop (1 + n1)))).head? = some ')'
          · rw [if_pos hc2] at h ⊢
            simp only [HeadResult.ok.injEq] at h ⊢
            obtain ⟨q1, q2, q3, q4, q5⟩ := h
            exact ⟨q1, by omega, q3, q4, q5⟩
          · rw [if_neg hc2] at h
            cases h
      · -- the comment is in a later son
        have hp := sonsSite_pos _ _ _ _ _ hrec
        rw [if_pos hcomma] at h
        have hd2 : ∀ t : Str, (a ++ t).drop (1 + n1) = a.drop (1 + n1) ++ t :=
          fun t => drop_app a t _ (by omega)
        rw [hd1] at hr
        have hr2 : ∀ r2, rd (a.drop 1 ++ r2) nodes = ParseResult.ok n1 nodesA :=
          hrdA _ _ _ _ _ hr (by omega)
        rw [hd2] at h hcomma hle hrec hp hB
        have hsp : ∀ r2, skipSpaces (a.drop (1 + n1) ++ r2)
            = skipSpaces (a.drop (1 + n1) ++ r) := by
          intro r2
          apply skipSpaces_local
          · simp only [List.length_drop]; omega
          · intro he
            simp only [List.length_drop] at he
            omega
        have hd3 : ∀ t : Str, (a.drop (1 + n1) ++ t).drop (skipSpaces (a.drop (1 + n1) ++ r))
            = a.drop (1 + n1 + skipSpaces (a.drop (1 + n1) ++ r)) ++ t := by
          intro t
          rw [drop_app _ t _ (by simp only [List.length_drop]; omega), List.drop_drop]
        rw [hd3] at h hcomma hrec
        have hl3 : (a.drop (1 + n1 + skipSpaces (a.drop (1 + n1) ++ r))).length
            = a.length - (1 + n1 + skipSpaces (a.drop (1 + n1) ++ r)) := List.length_drop _ _
        rw [← hl3] at hrec
        have hhd : ∀ t : Str,
            (a.drop (1 + n1 + skipSpaces (a.drop (1 + n1) ++ r)) ++ t).head?
              = (a.drop (1 + n1 + skipSpaces (a.drop (1 + n1) ++ r))).head? := by
          intro t
          apply head_app
          omega
        obtain ⟨e1, e2⟩ := ih _ _ _ _ _ _ _ _ _ _ (Or.inr hcomma) h hrec
        refine ⟨?_, by omega⟩
        rw [sonsLoop_succ, hd1, hr2]
        simp only []
        rw [hd2, hsp, hd3, if_pos (by rw [hhd] at hcomma ⊢; exact hcomma)]
        exact e1

end Biopy

namespace Biopy

theorem commentSite_succ (strtod : Str → ℚ × Nat) (fuel : Nat) (txt0 : Str) (pos : Nat) :
    commentSite strtod (fuel + 1) txt0 pos
      = ((match (if (txt0.drop (skipSpaces txt0)).head? = some '(' then
                  sonsLoop (readSubTree strtod fuel) fuel (txt0.drop (skipSpaces txt0))
                    (skipSpaces txt0) [] []
                else readTerminal (txt0.drop (skipSpaces txt0)) (skipSpaces txt0) []) with
          | HeadResult.ok txt1 eat1 _ _ _ =>
            decide (pos = eat1)
              || (decide (eat1 + skipSpaces txt1 ≤ pos)
                  && suffixSite (txt1.length + 1) (txt1.drop (skipSpaces txt1))
                      (pos - (eat1 + skipSpaces txt1)))
          | _ => false)
        || (decide ((txt0.drop (skipSpaces txt0)).head? = some '(')
            && decide (skipSpaces txt0 ≤ pos)
            && sonsSite (commentSite strtod fuel) (readSubTree strtod fuel) fuel
                (txt0.drop (skipSpaces txt0)) (pos - skipSpaces txt0))) := rfl

theorem headErase_ok (p : HeadResult) (t : Str) (e : Nat) (ns : List ParsedTreeNode)
    (tx : Str) (ss : List Nat) (q : HeadResult)
    (hp : p = HeadResult.ok t e ns tx ss) (h : p.erase = q.erase) :
    ∃ ms ss2, q = HeadResult.ok t e ms tx ss2 := by
  subst hp
  cases q with
  | ok t2 e2 ms tx2 ss2 =>
    simp only [HeadResult.erase, HeadResult.ok.injEq, and_true, true_and] at h
    obtain ⟨rfl, rfl, rfl⟩ := h
    exact ⟨ms, ss2, rfl⟩
  | fail x => simp [HeadResult.erase] at h
  | undefined => simp [HeadResult.erase] at h
  | timeout => simp [HeadResult.erase] at h

/-- A comment at one of the places of the node itself leaves the node as it is. -/
theorem finishNode_own (strtod : Str → ℚ × Nat) (c : Str) (hc1 : c.head? ≠ some '&')
    (hc2 : ']' ∉ c) (hc3 : c.getLast? ≠ some backslash) (a1 r : Str) (eat1 : Nat)
    (nodes1 : List ParsedTreeNode) (tx : Str) (sons : List Nat) (eat : Nat)
    (ns : List ParsedTreeNode)
    (h : finishNode strtod (HeadResult.ok (a1 ++ r) eat1 nodes1 tx sons) = ParseResult.ok eat ns)
    (hs : a1.length = 0 ∨ (skipSpaces (a1 ++ r) ≤ a1.length
      ∧ suffixSite ((a1 ++ r).length + 1) ((a1 ++ r).drop (skipSpaces (a1 ++ r)))
        (a1.length - skipSpaces (a1 ++ r)) = true)) :
    finishNode strtod (HeadResult.ok (a1 ++ '[' :: (c ++ ']' :: r)) eat1 nodes1 tx sons)
        = ParseResult.ok (eat + (c.length + 2)) ns
      ∧ a1.length ≤ eat - eat1 := by
  rcases hs with h0 | ⟨h1, h2⟩
  · have : a1 = [] := List.length_eq_zero.mp h0
    subst this
    simp only [List.nil_append, List.length_nil, Nat.zero_le, and_true] at h ⊢
    exact finishNode_after strtod c hc1 hc2 hc3 r _ _ _ _ _ _ h
  · exact finishNode_site strtod c hc1 hc2 hc3 a1 r _ _ _ _ _ _ h h1 h2

/-- A comment at a place that `commentSite` names leaves what `readSubTree` returns as it
is, but for the count of bytes, and the place is within the bytes the call eats. -/
theorem readSubTree_site (strtod : Str → ℚ × Nat) (c : Str) (hc1 : c.head? ≠ some '&')
    (hc2 : ']' ∉ c) (hc3 : c.getLast? ≠ some backslash) :
    ∀ (fuel : Nat) (a r : Str) (nds : List ParsedTreeNode) (eat : Nat)
      (ns : List ParsedTreeNode),
      readSubTree strtod fuel (a ++ r) nds = ParseResult.ok eat ns →
      commentSite strtod fuel (a ++ r) a.length = true →
      readSubTree strtod fuel (a ++ '[' :: (c ++ ']' :: r)) nds
          = ParseResult.ok (eat + (c.length + 2)) ns
        ∧ a.length ≤ eat := by
  intro fuel
  induction fuel with
  | zero => intro a r nds eat ns h; simp [readSubTree] at h
  | succ fuel ih =>
    intro a r nds eat ns h hs
    have hsl := skipSpaces_le (a ++ r)
    have hbr : barewordLen ('[' :: (c ++ ']' :: r)) = some 0 := rfl
    have hsb : skipSpaces ('[' :: (c ++ ']' :: r)) = 0 := rfl
    rw [commentSite_succ] at hs
    unfold readSubTree at h ⊢
    by_cases hc : ((a ++ r).drop (skipSpaces (a ++ r))).head? = some '('
    · rw [if_pos hc] at h hs
      obtain ⟨txt1, eat1, nodes1, tx, sons, node, hh, _, _, hle⟩ := finishNode_ok _ _ _ _ h
      have hm := sonsLoop_mono _ _ _ _ _ _ _ _ _ _ _ hh
      obtain ⟨ms, ss2, hh0⟩ := headErase_ok _ _ _ _ _ _ _ hh
        (sonsLoop_erase _ (readSubTree_erase strtod fuel) fuel _ _ nds [] [] [])
      rw [hh0] at hs
      simp only [Bool.or_eq_true, Bool.and_eq_true, decide_eq_true_eq] at hs
      rw [hh] at h
      have hsp1 : skipSpaces (a ++ r) < a.length := by
        rcases hs with (h1 | ⟨h1, _⟩) | ⟨⟨_, h1⟩, h2⟩
        · omega
        · omega
        · have := sonsSite_pos _ _ _ _ _ h2
          omega
      have hsp : skipSpaces (a ++ '[' :: (c ++ ']' :: r)) = skipSpaces (a ++ r) :=
        skipSpaces_local a r _ (by omega) (fun he => by omega)
      have hd : ∀ t : Str, (a ++ t).drop (skipSpaces (a ++ r))
          = a.drop (skipSpaces (a ++ r)) ++ t := fun t => drop_app a t _ (by omega)
      have hl : (a.drop (skipSpaces (a ++ r))).length = a.length - skipSpaces (a ++ r) :=
        List.length_drop _ _
      have hhd : ∀ t : Str, (a.drop (skipSpaces (a ++ r)) ++ t).head?
          = (a.drop (skipSpaces (a ++ r))).head? := by
        intro t
        apply head_app
        omega
      rw [hd] at hc hh hs
      rw [hsp, hd, if_pos (by rw [hhd] at hc ⊢; exact hc)]
      rcases hs with hown | ⟨⟨_, h1⟩, h2⟩
      · have hb : eat1 ≤ a.length := by
          rcases hown with h1 | ⟨h1, _⟩ <;> omega
        obtain ⟨a1, e1, e2, e3⟩ := sonsLoop_local _ (readSubTree_erase strtod fuel)
          (readSubTree_local strtod fuel) _ _ _ _ _ _ _ _ _ _ _ (Or.inl hc) hh (by omega)
        rw [e3]
        subst e1
        have := finishNode_own strtod c hc1 hc2 hc3 a1 r _ _ _ _ _ _ h (by
          rcases hown with h1 | ⟨h1, h3⟩
          · left; omega
          · right
            refine ⟨by omega, ?_⟩
            rw [show a1.length - skipSpaces (a1 ++ r)
              = a.length - (eat1 + skipSpaces (a1 ++ r)) by omega]
            exact h3)
        exact ⟨this.1, by omega⟩
      · rw [← hl] at h2
        obtain ⟨g1, g2⟩ := sonsLoop_site c _ _ (readSubTree_erase strtod fuel)
          (readSubTree_local strtod fuel) (ih) _ _ _ _ _ _ _ _ _ _ _ (Or.inl hc) hh h2
        rw [g1]
        exact ⟨finishNode_shift strtod _ _ _ _ _ _ _ _ h, by omega⟩
    · rw [if_neg hc] at h hs
      obtain ⟨txt1, eat1, nodes1, tx, sons, node, hh, _, _, hle⟩ := finishNode_ok _ _ _ _ h
      obtain ⟨_, _, hm⟩ := readTerminal_ok _ _ _ _ _ _ _ _ hh
      obtain ⟨ms, ss2, hh0⟩ := headErase_ok _ _ _ _ _ _ _ hh
        (readTerminal_erase _ _ nds [])
      rw [hh0] at hs
      simp only [Bool.or_eq_true, Bool.and_eq_true, decide_eq_true_eq, hc, false_and,
        or_false] at hs
      rw [hh] at h
      have hb : eat1 ≤ a.length := by
        rcases hs with h1 | ⟨h1, _⟩ <;> omega
      have hsp : skipSpaces (a ++ '[' :: (c ++ ']' :: r)) = skipSpaces (a ++ r) :=
        skipSpaces_local a r _ (by omega) (fun _ => hsb)
      have hd : ∀ t : Str, (a ++ t).drop (skipSpaces (a ++ r))
          = a.drop (skipSpaces (a ++ r)) ++ t := fun t => drop_app a t _ (by omega)
      have hl : (a.drop (skipSpaces (a ++ r))).length = a.length - skipSpaces (a ++ r) :=
        List.length_drop _ _
      rw [hd] at hc hh
      have hcm : ¬ (a.drop (skipSpaces (a ++ r)) ++ '[' :: (c ++ ']' :: r)).head?
          = some '(' := by
        by_cases hz : 0 < (a.drop (skipSpaces (a ++ r))).length
        · rw [head_app _ _ hz]
          rw [head_app _ _ hz] at hc
          exact hc
        · have : a.drop (skipSpaces (a ++ r)) = [] := List.length_eq_zero.mp (by omega)
          rw [this]
          simp
      rw [hsp, hd, if_neg hcm]
      obtain ⟨a1, e1, e2, e3⟩ := readTerminal_local _ r ('[' :: (c ++ ']' :: r))
        _ _ _ _ _ _ _ hh (by omega) (fun _ => hbr)
      rw [e3]
      subst e1
      have := finishNode_own strtod c hc1 hc2 hc3 a1 r _ _ _ _ _ _ h (by
        rcases hs with h1 | ⟨h1, h3⟩
        · left; omega
        · right
          refine ⟨by omega, ?_⟩
          rw [show a1.length - skipSpaces (a1 ++ r)
            = a.length - (eat1 + skipSpaces (a1 ++ r)) by omega]
          exact h3)
      exact ⟨this.1, by omega⟩

end Biopy

namespace Biopy

theorem getLast_comment (a c r : Str) (h : r ≠ []) :
    (a ++ '[' :: (c ++ ']' :: r)).getLast? = (a ++ r).getLast? := by
  have e : a ++ '[' :: (c ++ ']' :: r) = (a ++ '[' :: (c ++ [']'])) ++ r := by simp
  have e2 : (a ++ r).getLast? = r.getLast?.or a.getLast? := List.getLast?_append
  rw [e, List.getLast?_append, e2]
  cases hr : r.getLast? with
  | none => exact absurd (List.getLast?_eq_none_iff.mp hr) h
  | some x => rfl

/-- C25 (counterexample): a comment whose text ends in a backslash, put immediately
after the tip label `A` of `(A,B[d])`, runs on to the `]` of the later comment and the
text parses to the tip `A` and a root with one son; and a comment put immediately after
the annotation block of `(A x[&k=1] y,B)`, which is followed by a blank, changes the label
of the first tip from `xy` to `x y`: the blank after a block is skipped and the blank
after a comment is label text. -/
theorem comment_changes_parse :
    (parseTree strtodDigits 5 "(A,B[d])".toList
        = Except.ok [ParsedTreeNode.mk ['A'] none [] none, ParsedTreeNode.mk ['B'] none [] none,
            ParsedTreeNode.mk [] none [0, 1] none]
      ∧ parseTree strtodDigits 5 ("(A[c".toList ++ backslash :: "],B[d])".toList)
        = Except.ok [ParsedTreeNode.mk ['A'] none [] none,
            ParsedTreeNode.mk [] none [0] none])
    ∧ (parseTree strtodDigits 5 "(A x[&k=1] y,B)".toList
        = Except.ok [ParsedTreeNode.mk ['x', 'y'] none [] (some [(['k'], ['1'])]),
            ParsedTreeNode.mk ['B'] none [] none, ParsedTreeNode.mk [] none [0, 1] none]
      ∧ parseTree strtodDigits 5 "(A x[&k=1][c] y,B)".toList
        = Except.ok [ParsedTreeNode.mk ['x', ' ', 'y'] none [] (some [(['k'], ['1'])]),
            ParsedTreeNode.mk ['B'] none [] none, ParsedTreeNode.mk [] none [0, 1] none]) := by
  decide!

/-- C25 (amended): for every accepted text `a ++ r`, putting a comment `[c]`, where `c`
does not begin with `&`, holds no `]` and does not end in a backslash, between `a` and
`r` gives a text that is also accepted and parses to the same node list, when the place
is one that `commentSite` names: immediately after a tip label or a closing parenthesis,
or in the text after a node at its first byte that is no white space, after one of the
bytes of its label and branch length, after a comment, or after an annotation block and
the white space that follows the block. -/
theorem comment_at_site_skipped (strtod : Str → ℚ × Nat) (fuel : Nat) (a r c : Str)
    (nodes : List ParsedTreeNode)
    (hp : parseTree strtod fuel (a ++ r) = Except.ok nodes)
    (hs : commentSite strtod fuel (a ++ r) a.length = true)
    (hc1 : c.head? ≠ some '&') (hc2 : ']' ∉ c) (hc3 : c.getLast? ≠ some backslash) :
    parseTree strtod fuel (a ++ '[' :: (c ++ ']' :: r)) = Except.ok nodes := by
  unfold parseTree at hp ⊢
  cases hr : readSubTree strtod fuel (a ++ r) [] with
  | timeout => rw [hr] at hp; cases hp
  | undefined => rw [hr] at hp; cases hp
  | fail x =>
    rw [hr] at hp
    simp only [] at hp
    split at hp <;> cases hp
  | ok nc ns =>
    rw [hr] at hp
    simp only [] at hp
    cases hce : checkTreeEnd (a ++ r) (some nc) with
    | some err => rw [hce] at hp; cases hp
    | none =>
      rw [hce] at hp
      obtain ⟨g1, g2⟩ := readSubTree_site strtod c hc1 hc2 hc3 fuel a r [] nc ns hr hs
      have k1 := (checkTreeEnd_some_iff strtod fuel _ _ _ hr).1.mp hce
      have hdd := drop_comment a c r nc g2
      have hlen : (a ++ '[' :: (c ++ ']' :: r)).length = (a ++ r).length + (c.length + 2) := by
        simp only [List.length_append, List.length_cons]
        omega
      have k2 : checkTreeEnd (a ++ '[' :: (c ++ ']' :: r)) (some (nc + (c.length + 2))) = none := by
        apply (checkTreeEnd_some_iff strtod fuel _ _ _ g1).1.mpr
        rw [hdd, hlen]
        rcases k1 with k1 | ⟨k1, k3⟩
        · left; omega
        · right
          refine ⟨by omega, ?_⟩
          rw [getLast_comment a c r, k3]
          intro hnil
          subst hnil
          simp only [List.append_nil] at k1
          omega
      rw [g1]
      simp only []
      rw [k2]
      exact hp

theorem comment_at_site_skipped_witness :
    parseTree strtodDigits 5 ("(A:1".toList ++ '[' :: ("c".toList ++ ']' :: ",B)".toList))
      = Except.ok [ParsedTreeNode.mk ['A'] (some 1) [] none,
          ParsedTreeNode.mk ['B'] none [] none, ParsedTreeNode.mk [] none [0, 1] none] :=
  comment_at_site_skipped strtodDigits 5 "(A:1".toList ",B)".toList "c".toList _
    (by decide!) (by decide!) (by decide) (by decide) (by decide)

end Biopy

namespace Biopy

/-! ## Width of the packed integers -/

/-- C36: for every `m` with `1 ≤ m` that an `int` holds, `lg2i(m)` is the integer part of
the logarithm of `m` to the base 2, so the width `w = lg2i(m) + 1` the encoder chooses has
`2^(w-1) ≤ m < 2^w`, and every value of `0..m` is below `2^w`; for `m = 0` the width
is 1. -/
theorem lg2i_is_floor_log (m : Nat) (h1 : 1 ≤ m) (hint : m < 2147483648) :
    lg2i m = Nat.log 2 m
      ∧ 2 ^ (lg2i m + 1 - 1) ≤ m ∧ m < 2 ^ (lg2i m + 1)
      ∧ (∀ v, v ≤ m → v < 2 ^ (lg2i m + 1))
      ∧ lg2i 0 + 1 = 1 := by
  have e : lg2i m = Nat.log 2 m := by rw [lg2i_eq_log2, Nat.log2_eq_log_two]
  refine ⟨e, ?_, ?_, fun v hv => lt_two_pow_lg2i v m hv, by decide⟩
  · rw [e, Nat.add_sub_cancel]
    exact Nat.pow_log_le_self 2 (by omega)
  · rw [e]
    exact Nat.lt_pow_succ_log_self (by decide) m

theorem lg2i_is_floor_log_witness :
    lg2i 5 = Nat.log 2 5
      ∧ 2 ^ (lg2i 5 + 1 - 1) ≤ 5 ∧ 5 < 2 ^ (lg2i 5 + 1)
      ∧ (∀ v, v ≤ 5 → v < 2 ^ (lg2i 5 + 1))
      ∧ lg2i 0 + 1 = 1 :=
  lg2i_is_floor_log 5 (by decide) (by decide)

/-! ## Terminals -/

/-- C32: for the tree `((A,B),(C,D));` the call `getTerminals` gives 0, 1, 2, 3, the
fields `itax` of the tips, while the nodes of the expansion without sons are the nodes
0, 1, 3 and 4: the node 2 has the sons 0 and 1. -/
theorem terminals_are_taxon_indices :
    Tree.getTerminals (TreesSet.add strtodDigits 9 (TreesSet.new false 4 false) textFourTips
        none).1 9 0 = Except.ok [0, 1, 2, 3]
      ∧ ((TreesSet.add strtodDigits 9 (TreesSet.new false 4 false) textFourTips none).1.setup
          9 0).map leafIds = Except.ok [0, 1, 3, 4]
      ∧ ((TreesSet.add strtodDigits 9 (TreesSet.new false 4 false) textFourTips none).1.setup
          9 0).map (fun l => (l.get? 2).map (fun n => n.sons)) = Except.ok (some [0, 1]) := by
  decide!

/-! ## Indices of the encoder -/

/-- C37: the text `((A:1):1,B:5)` parses to the tip `A`, a node with the single son `A`,
the tip `B` and the root.  When the encoder comes to the root, `locs` is -1, -1, 0 for
the first three nodes; the node over `A` reaches 2 and the root 5, so the node is raised
by 3, and the raising loop adds 3 to `heights[locs[1]]`, that is `heights[-1]`: the
index is outside the vector and `add` does not return a tree. -/
theorem single_son_indexes_before_heights :
    parseTree strtodDigits 9 "((A:1):1,B:5)".toList
        = Except.ok [ParsedTreeNode.mk ['A'] (some 1) [] none,
            ParsedTreeNode.mk [] (some 1) [0] none, ParsedTreeNode.mk ['B'] (some 5) [] none,
            ParsedTreeNode.mk [] none [1, 2] none]
      ∧ (encodeLoop 9 false 2 [0, 1, 2]
          (encStart [ParsedTreeNode.mk ['A'] (some 1) [] none,
            ParsedTreeNode.mk [] (some 1) [0] none, ParsedTreeNode.mk ['B'] (some 5) [] none,
            ParsedTreeNode.mk [] none [1, 2] none] 2)).map
          (fun st => (st.locs.take 3, st.nodes.map (fun n => n.branch), st.heights))
        = Except.ok ([-1, -1, 0], [some 1, some 2, some 5, none], [0])
      ∧ addAt [0] (-1) 3 = Except.error Abort.undefined
      ∧ raiseLoop [ParsedTreeNode.mk ['A'] (some 1) [] none,
            ParsedTreeNode.mk [] (some 2) [0] none, ParsedTreeNode.mk ['B'] (some 5) [] none,
            ParsedTreeNode.mk [] none [1, 2] none] [-1, -1, 0, 0] 3 9 [1] [0] [0, 0]
        = Except.error Abort.undefined
      ∧ (TreesSet.add strtodDigits 9 (TreesSet.new false 4 false) "((A:1):1,B:5)".toList
          none).2 = AddResult.abort Abort.undefined := by
  decide!

end Biopy

namespace Biopy

/-! ## The parsed vector is a tree in post-order -/

theorem Forest.roots_getLast : ∀ (F : Forest) (off : Nat), F.count ≠ 0 →
    (F.roots off).getLast? = some (off + F.size - 1) := by
  intro F
  induction F with
  | nil => intro off h; simp [Forest.count] at h
  | cons l k r _ ihr =>
    intro off _
    simp only [Forest.roots, Forest.size]
    by_cases hr : r.count = 0
    · have : r = Forest.nil := (Forest.count_eq_zero_iff r).mp hr
      subst this
      simp only [Forest.roots, Forest.size, List.getLast?_singleton, Option.some.injEq]
      omega
    · have h1 := ihr (off + k.size + 1) hr
      have hne : r.roots (off + k.size + 1) ≠ [] := by
        intro e
        have := Forest.roots_length r (off + k.size + 1)
        rw [e] at this
        simp only [List.length_nil] at this
        omega
      obtain ⟨x, xs, hx⟩ := List.exists_cons_of_ne_nil hne
      rw [hx] at h1 ⊢
      rw [List.getLast?_cons_cons, h1]
      congr 1
      have := Forest.size_pos r hr
      omega

/-- The last son of a node of a post-order layout is the node before it. -/
theorem IsFlat.last_son : ∀ (F : Forest) (off : Nat) (ns : List ParsedTreeNode),
    IsFlat F off ns → ∀ (p : Nat) (nd : ParsedTreeNode), ns.get? p = some nd →
      nd.sons ≠ [] → 1 ≤ p ∧ nd.sons.getLast? = some (off + p - 1) := by
  intro F
  induction F with
  | nil =>
    intro off ns h p nd hp
    simp only [IsFlat] at h
    simp [h] at hp
  | cons l k r ihk ihr =>
    intro off ns h p nd hp hs
    simp only [IsFlat] at h
    obtain ⟨ns1, n, ns2, rfl, h1, hsons, _, h2⟩ := h
    have hlen := IsFlat.length_eq _ _ _ h1
    rcases Nat.lt_trichotomy p ns1.length with hlt | heq | hgt
    · rw [List.get?_eq_getElem?, List.getElem?_append_left hlt, ← List.get?_eq_getElem?] at hp
      exact ihk _ _ h1 p nd hp hs
    · subst heq
      rw [List.get?_eq_getElem?, List.getElem?_append_right (Nat.le_refl _)] at hp
      simp only [Nat.sub_self, List.getElem?_cons_zero, Option.some.injEq] at hp
      subst hp
      rw [hsons] at hs ⊢
      have hk : k.count ≠ 0 := by
        intro e
        have := Forest.roots_length k off
        rw [e] at this
        exact hs (List.length_eq_zero.mp this)
      have := Forest.size_pos k hk
      rw [Forest.roots_getLast k off hk, hlen]
      exact ⟨by omega, rfl⟩
    · rw [List.get?_eq_getElem?, List.getElem?_append_right (Nat.le_of_lt hgt)] at hp
      obtain ⟨m, hm⟩ : ∃ m, p - ns1.length = m + 1 := ⟨p - ns1.length - 1, by omega⟩
      rw [hm, List.getElem?_cons_succ, ← List.get?_eq_getElem?] at hp
      obtain ⟨q1, q2⟩ := ihr _ _ h2 m nd hp hs
      refine ⟨by omega, ?_⟩
      rw [q2]
      congr 1
      omega

/-- Every index of a post-order layout of a forest is once among the roots of the forest
or once among the sons of the nodes, and no other index is among them. -/
theorem IsFlat.sons_count : ∀ (F : Forest) (off : Nat) (ns : List ParsedTreeNode),
    IsFlat F off ns → ∀ (j : Nat),
      ((ns.map (fun n => n.sons)).flatten).count j + (F.roots off).count j
        = if off ≤ j ∧ j < off + ns.length then 1 else 0 := by
  intro F
  induction F with
  | nil =>
    intro off ns h j
    simp only [IsFlat] at h
    subst h
    simp only [List.map_nil, List.flatten_nil, List.count_nil, Forest.roots, List.length_nil,
      Nat.add_zero]
    rw [if_neg (by omega)]
  | cons l k r ihk ihr =>
    intro off ns h j
    simp only [IsFlat] at h
    obtain ⟨ns1, n, ns2, rfl, h1, hsons, _, h2⟩ := h
    have hlen := IsFlat.length_eq _ _ _ h1
    have a1 := ihk off ns1 h1 j
    have a2 := ihr _ ns2 h2 j
    simp only [List.map_append, List.map_cons, List.flatten_append, List.flatten_cons,
      List.count_append, Forest.roots, List.count_cons, hsons, List.length_append,
      List.length_cons, beq_iff_eq]
    rw [hlen] at a1
    by_cases e1 : off + k.size = j
    · subst e1
      simp only [if_true]
      have c1 : ¬ (off ≤ off + k.size ∧ off + k.size < off + k.size) := by omega
      have c2 : ¬ (off + k.size + 1 ≤ off + k.size
          ∧ off + k.size < off + k.size + 1 + ns2.length) := by omega
      rw [if_neg c1] at a1
      rw [if_neg c2] at a2
      rw [if_pos (by omega)]
      omega
    · rw [if_neg e1]
      by_cases c1 : off ≤ j ∧ j < off + k.size
      · have c2 : ¬ (off + k.size + 1 ≤ j ∧ j < off + k.size + 1 + ns2.length) := by omega
        rw [if_pos c1] at a1
        rw [if_neg c2] at a2
        rw [if_pos (by omega)]
        omega
      · rw [if_neg c1] at a1
        by_cases c2 : off + k.size + 1 ≤ j ∧ j < off + k.size + 1 + ns2.length
        · rw [if_pos c2] at a2
          rw [if_pos (by omega)]
          omega
        · rw [if_neg c2] at a2
          rw [if_neg (by omega)]
          omega

theorem sum_two_le : ∀ (l : List Nat) (p q : Nat) (a b : Nat), p < q →
    l[p]? = some a → l[q]? = some b → a + b ≤ l.sum := by
  intro l
  induction l with
  | nil => intro p q a b _ hp; simp at hp
  | cons x xs ih =>
    intro p q a b hpq hp hq
    obtain ⟨q', rfl⟩ : ∃ q', q = q' + 1 := ⟨q - 1, by omega⟩
    simp only [List.getElem?_cons_succ] at hq
    simp only [List.sum_cons]
    cases p with
    | zero =>
      simp only [List.getElem?_cons_zero, Option.some.injEq] at hp
      subst hp
      have := List.single_le_sum (fun _ _ => Nat.zero_le _) b (mem_of_getElem_some xs q' b hq)
      omega
    | succ p' =>
      simp only [List.getElem?_cons_succ] at hp
      have := ih p' q' a b (by omega) hp hq
      omega

/-- An index that is once among the sons of the nodes of a vector is among the sons of
one node, once, and of no other node. -/
theorem unique_of_count_one (ns : List ParsedTreeNode) (j : Nat)
    (h : ((ns.map (fun n => n.sons)).flatten).count j = 1) :
    ∃ (p : Nat) (nd : ParsedTreeNode), ns[p]? = some nd ∧ j ∈ nd.sons ∧ nd.sons.count j = 1
      ∧ ∀ (q : Nat) (m : ParsedTreeNode), ns[q]? = some m → j ∈ m.sons → q = p := by
  have hmem : j ∈ (ns.map (fun n => n.sons)).flatten := by
    rw [← List.count_pos_iff]
    omega
  rw [List.mem_flatten] at hmem
  obtain ⟨l, hl, hjl⟩ := hmem
  rw [List.mem_map] at hl
  obtain ⟨nd, hnd, rfl⟩ := hl
  obtain ⟨p, hp, hpe⟩ := List.getElem_of_mem hnd
  have hp' : ns[p]? = some nd := by rw [List.getElem?_eq_getElem hp, hpe]
  rw [List.count_flatten, List.map_map] at h
  have hcp : ((ns.map ((List.count j) ∘ (fun n => n.sons))))[p]? = some (nd.sons.count j) := by
    rw [List.getElem?_map, hp']
    rfl
  have hpos : 0 < nd.sons.count j := List.count_pos_iff.mpr hjl
  have huniq : ∀ (q : Nat) (m : ParsedTreeNode), ns[q]? = some m → j ∈ m.sons → q = p := by
    intro q m hq hjm
    by_contra hne
    have hcq : ((ns.map ((List.count j) ∘ (fun n => n.sons))))[q]? = some (m.sons.count j) := by
      rw [List.getElem?_map, hq]
      rfl
    have hposq : 0 < m.sons.count j := List.count_pos_iff.mpr hjm
    rcases Nat.lt_or_gt_of_ne hne with hlt | hgt
    · have := sum_two_le _ q p _ _ hlt hcq hcp
      omega
    · have := sum_two_le _ p q _ _ hgt hcp hcq
      omega
  refine ⟨p, nd, hp', hjl, ?_, huniq⟩
  have hle : nd.sons.count j ≤ (ns.map ((List.count j) ∘ (fun n => n.sons))).sum :=
    List.single_le_sum (fun _ _ => Nat.zero_le _) _
      (mem_of_getElem_some _ p _ hcp)
  omega

/-- C38: on every text on which the parser succeeds, the vector of nodes is one tree in
post-order: it is not empty and its last node is the root, which is among the sons of no
node; every other node is among the sons of exactly one node, once; and the last son of
every node that has sons is the node immediately before it in the vector. -/
theorem parsed_nodes_post_order (strtod : Str → ℚ × Nat) (fuel : Nat) (txt : Str) (eat : Nat)
    (nodes : List ParsedTreeNode)
    (h : readSubTree strtod fuel txt [] = ParseResult.ok eat nodes) :
    nodes ≠ []
      ∧ (∀ m ∈ nodes, nodes.length - 1 ∉ m.sons)
      ∧ (∀ j, j + 1 < nodes.length →
          ∃ (p : Nat) (nd : ParsedTreeNode), nodes[p]? = some nd ∧ j ∈ nd.sons ∧ nd.sons.count j = 1
            ∧ ∀ (q : Nat) (m : ParsedTreeNode), nodes[q]? = some m → j ∈ m.sons → q = p)
      ∧ (∀ p nd, nodes[p]? = some nd → nd.sons ≠ [] →
          1 ≤ p ∧ nd.sons.getLast? = some (p - 1)) := by
  obtain ⟨l, k, ns, hns, hflat⟩ := readSubTree_flat strtod fuel txt [] eat nodes h
  simp only [List.nil_append, List.length_nil] at hflat hns
  subst hns
  have hlen := IsFlat.length_eq _ _ _ hflat
  simp only [Forest.size] at hlen
  have hcount := IsFlat.sons_count _ _ _ hflat
  simp only [Forest.roots, List.count_cons, List.count_nil, beq_iff_eq, Nat.zero_add,
    Nat.zero_le, true_and] at hcount
  refine ⟨?_, ?_, ?_, ?_⟩
  · intro e
    rw [e] at hlen
    simp at hlen
  · intro m hm hin
    have c := hcount (nodes.length - 1)
    rw [if_pos (by omega), if_pos (by omega)] at c
    have : 0 < ((nodes.map (fun n => n.sons)).flatten).count (nodes.length - 1) := by
      rw [List.count_pos_iff, List.mem_flatten]
      exact ⟨m.sons, List.mem_map.mpr ⟨m, hm, rfl⟩, hin⟩
    omega
  · intro j hj
    have c := hcount j
    rw [if_neg (by omega), if_pos (by omega)] at c
    exact unique_of_count_one nodes j (by omega)
  · intro p nd hp hs
    have := IsFlat.last_son _ _ _ hflat p nd (by rw [List.get?_eq_getElem?]; exact hp) hs
    simpa using this

theorem parsed_nodes_post_order_witness :
    [ParsedTreeNode.mk ['A'] none [] none,
        ParsedTreeNode.mk ['B'] none [] none, ParsedTreeNode.mk [] none [0, 1] none,
        ParsedTreeNode.mk ['C'] none [] none, ParsedTreeNode.mk [] none [2, 3] none] ≠ []
      ∧ (∀ m ∈ [ParsedTreeNode.mk ['A'] none [] none,
          ParsedTreeNode.mk ['B'] none [] none, ParsedTreeNode.mk [] none [0, 1] none,
          ParsedTreeNode.mk ['C'] none [] none, ParsedTreeNode.mk [] none [2, 3] none],
          [ParsedTreeNode.mk ['A'] none [] none,
            ParsedTreeNode.mk ['B'] none [] none, ParsedTreeNode.mk [] none [0, 1] none,
            ParsedTreeNode.mk ['C'] none [] none,
            ParsedTreeNode.mk [] none [2, 3] none].length - 1 ∉ m.sons)
      ∧ (∀ j, j + 1 < [ParsedTreeNode.mk ['A'] none [] none,
            ParsedTreeNode.mk ['B'] none [] none, ParsedTreeNode.mk [] none [0, 1] none,
            ParsedTreeNode.mk ['C'] none [] none,
            ParsedTreeNode.mk [] none [2, 3] none].length →
          ∃ (p : Nat) (nd : ParsedTreeNode), [ParsedTreeNode.mk ['A'] none [] none,
              ParsedTreeNode.mk ['B'] none [] none, ParsedTreeNode.mk [] none [0, 1] none,
              ParsedTreeNode.mk ['C'] none [] none,
              ParsedTreeNode.mk [] none [2, 3] none][p]? = some nd
            ∧ j ∈ nd.sons ∧ nd.sons.count j = 1
            ∧ ∀ (q : Nat) (m : ParsedTreeNode), [ParsedTreeNode.mk ['A'] none [] none,
              ParsedTreeNode.mk ['B'] none [] none, ParsedTreeNode.mk [] none [0, 1] none,
              ParsedTreeNode.mk ['C'] none [] none,
              ParsedTreeNode.mk [] none [2, 3] none][q]? = some m → j ∈ m.sons → q = p)
      ∧ (∀ p nd, [ParsedTreeNode.mk ['A'] none [] none,
            ParsedTreeNode.mk ['B'] none [] none, ParsedTreeNode.mk [] none [0, 1] none,
            ParsedTreeNode.mk ['C'] none [] none,
            ParsedTreeNode.mk [] none [2, 3] none][p]? = some nd → nd.sons ≠ [] →
          1 ≤ p ∧ nd.sons.getLast? = some (p - 1)) :=
  parsed_nodes_post_order strtodDigits 9 "((A,B),C);".toList 9 _ (by decide!)

end Biopy

namespace Biopy

/-! ## Heights of a cladogram -/

/-- The heights between neighbouring tips of a forest are, entry by entry, the levels of
the lowest common ancestors of the neighbouring tips. -/
theorem Forest.hts_get : ∀ (F : Forest) (b i : Nat), (F.hts b)[i]? = F.lcaLevel b i := by
  intro F
  induction F with
  | nil => intro b i; simp [Forest.hts, Forest.lcaLevel]
  | cons l k r ihk ihr =>
    intro b i
    have hlk := Forest.hts_length k k.lev
    have hrnil : r.count = 0 → ∀ m, r.lcaLevel b m = none := by
      intro hr m
      have hrn : r = Forest.nil := (Forest.count_eq_zero_iff r).mp hr
      subst hrn
      rfl
    have e1 : (Forest.cons l k r).lcaLevel b i
        = if i + 1 < k.treeTips then k.lcaLevel k.lev i
          else if i + 1 = k.treeTips then (if r.count = 0 then none else some b)
          else r.lcaLevel b (i - k.treeTips) := rfl
    have e2 : (Forest.cons l k r).hts b
        = (if k.count = 0 then [] else k.hts k.lev)
          ++ (if r.count = 0 then [] else b :: r.hts b) := rfl
    rw [e1, e2]
    by_cases hk : k.count = 0
    · have htt : k.treeTips = 1 := by simp [Forest.treeTips, hk]
      rw [if_pos hk, htt, List.nil_append, if_neg (show ¬ (i + 1 < 1) by omega)]
      by_cases hr : r.count = 0
      · rw [if_pos hr, if_pos hr, hrnil hr]
        simp
      · rw [if_neg hr, if_neg hr]
        cases i with
        | zero => simp
        | succ i' =>
          rw [if_neg (show ¬ (i' + 1 + 1 = 1) by omega)]
          simp only [List.getElem?_cons_succ, Nat.add_sub_cancel]
          exact ihr b i'
    · have htp := Forest.tips_pos k hk
      have htt : k.treeTips = k.tips := by simp [Forest.treeTips, hk]
      rw [if_neg hk, htt]
      by_cases h1 : i + 1 < k.tips
      · rw [if_pos h1, List.getElem?_append_left (by omega)]
        exact ihk k.lev i
      · rw [if_neg h1, List.getElem?_append_right (by omega), hlk]
        by_cases hr : r.count = 0
        · rw [if_pos hr, if_pos hr, hrnil hr]
          simp
        · rw [if_neg hr, if_neg hr]
          by_cases h2 : i + 1 = k.tips
          · rw [if_pos h2]
            have : i - (k.tips - 1) = 0 := by omega
            rw [this]
            simp
          · rw [if_neg h2]
            obtain ⟨m, hm⟩ : ∃ m, i - (k.tips - 1) = m + 1 := ⟨i - k.tips, by omega⟩
            rw [hm, List.getElem?_cons_succ, ihr b m]
            congr 1
            omega

/-- The tree a post-order layout describes is the tree `parsedTree` reads from it. -/
theorem parsedTree_of_flat (l : Str) (k : Forest) (nodes : List ParsedTreeNode)
    (hflat : IsFlat (Forest.cons l k Forest.nil) 0 nodes) :
    parsedTree nodes = some (Forest.cons l k Forest.nil) := by
  have hlen := IsFlat.length_eq _ _ _ hflat
  simp only [Forest.size] at hlen
  have ht := tableHas_parsed _ 0 [] nodes [] hflat rfl
  simp only [List.nil_append, List.append_nil] at ht
  have := forestOf_of_tableHas (parsedTable nodes) _ 0 (nodes.length + 1) ht
    (by simp only [Forest.size]; omega)
  unfold parsedTree
  rw [← this]
  simp only [Forest.roots, Nat.zero_add]
  congr 2
  omega

/-- C34: for every text without branch lengths that `add` accepts (into a set that keeps
representations, fewer than 2^32 nodes), the stored tree is a cladogram with `N - 1`
heights, `N` the number of its tips, and for every `i` in `0..N-2` the stored integer
`heights[i]` is the level of the lowest common ancestor of the tips `i` and `i+1` in the
tree `F` that the parsed nodes describe, where a tip has level 0 and a node with sons is
one level above its highest son. -/
theorem cladogram_heights_are_lca_levels (strtod : Str → ℚ × Nat) (fuel : Nat)
    (ts ts1 : TreesSet) (txt : Str) (kwds : Option Attributes) (i nc : Nat)
    (nodes : List ParsedTreeNode)
    (hr : readSubTree strtod fuel txt [] = ParseResult.ok nc nodes)
    (hadd : ts.add strtod fuel txt kwds = (ts1, AddResult.added i))
    (hstore : ts.store = false) (hsize : nodes.length < 4294967296)
    (hnb : ∀ n ∈ nodes, n.branch = none) :
    ∃ (rep : TreeRep) (F : Forest) (hsb : Packer), ts1.trees.get? i = some rep
      ∧ parsedTree nodes = some F
      ∧ rep.heights = Heights.cladogram hsb
      ∧ hsb.unpacked.length + 1 = (nodes.filter (fun n => n.sons.length = 0)).length
      ∧ ∀ j, j < hsb.unpacked.length →
          ∃ v, F.lcaLevel 0 j = some v ∧ hsb.unpacked[j]? = some v := by
  obtain ⟨rep, hrep, _, _, hget⟩ := add_stored strtod fuel ts ts1 txt kwds i nc nodes hr hadd hstore
  obtain ⟨l, k, ns, hns, hflat⟩ := readSubTree_flat strtod fuel txt [] nc nodes hr
  simp only [List.nil_append, List.length_nil] at hns hflat
  subst hns
  have hh := nodes2rep_cladogram_heights _ fuel l k nodes rep hflat hnb hsize hrep
  obtain ⟨_, st, _, _, hcl, _⟩ := nodes2rep_ok_inv _ fuel nodes rep hrep
  have hc : (scanAll { ts with treesAttributes := ts.treesAttributes ++ [kwds] }
      nodes).cladogram = true :=
    (scan_foldl nodes (ScanState.mk _ [] true false 0)).2.2.2.1 hnb
  obtain ⟨hsb, _, hheights⟩ := hcl hc
  have hun : hsb.unpacked = (Forest.cons l k Forest.nil).hts 0 := by
    have e : rep.getHeights.1 = hsb.unpacked.map (Nat.cast : Nat → ℚ) := by
      unfold TreeRep.getHeights
      rw [hheights]
    rw [hh] at e
    exact (List.map_injective_iff.mpr Nat.cast_injective e).symm
  have htips : (nodes.filter (fun n => n.sons.length = 0)).length = k.treeTips := by
    have := IsFlat.leafLabels_eq _ _ _ hflat
    unfold leafLabels at this
    have h2 := congrArg List.length this
    rw [List.length_map, Forest.tipLabels_length, Forest.tips_single] at h2
    exact h2
  refine ⟨rep, Forest.cons l k Forest.nil, hsb, hget, parsedTree_of_flat l k nodes hflat,
    hheights, ?_, ?_⟩
  · rw [hun, Forest.hts_length, Forest.tips_single, htips]
    have : 0 < k.treeTips := Forest.treeTips_pos k
    omega
  · intro j hj
    have hx : hsb.unpacked[j]? = some (hsb.unpacked[j]) := List.getElem?_eq_getElem hj
    refine ⟨hsb.unpacked[j], ?_, hx⟩
    rw [← Forest.hts_get, ← hun]
    exact hx

theorem cladogram_heights_are_lca_levels_witness :
    readSubTree strtodDigits 9 "((A,B),C);".toList [] =
        ParseResult.ok 9 [ParsedTreeNode.mk ['A'] none [] none,
          ParsedTreeNode.mk ['B'] none [] none, ParsedTreeNode.mk [] none [0, 1] none,
          ParsedTreeNode.mk ['C'] none [] none, ParsedTreeNode.mk [] none [2, 3] none]
      ∧ ∃ (rep : TreeRep) (F : Forest) (hsb : Packer),
          (TreesSet.add strtodDigits 9 (TreesSet.new false 4 false) "((A,B),C);".toList
            none).1.trees.get? 0 = some rep
          ∧ parsedTree [ParsedTreeNode.mk ['A'] none [] none,
              ParsedTreeNode.mk ['B'] none [] none, ParsedTreeNode.mk [] none [0, 1] none,
              ParsedTreeNode.mk ['C'] none [] none, ParsedTreeNode.mk [] none [2, 3] none]
            = some F
          ∧ rep.heights = Heights.cladogram hsb
          ∧ hsb.unpacked.length + 1
            = ([ParsedTreeNode.mk ['A'] none [] none,
                ParsedTreeNode.mk ['B'] none [] none, ParsedTreeNode.mk [] none [0, 1] none,
                ParsedTreeNode.mk ['C'] none [] none,
                ParsedTreeNode.mk [] none [2, 3] none].filter
                  (fun n => n.sons.length = 0)).length
          ∧ ∀ j, j < hsb.unpacked.length →
              ∃ v, F.lcaLevel 0 j = some v ∧ hsb.unpacked[j]? = some v :=
  ⟨by decide!, cladogram_heights_are_lca_levels strtodDigits 9 (TreesSet.new false 4 false) _
    "((A,B),C);".toList none 0 9 _ (by decide!) (by decide!) rfl (by decide) (by decide)⟩

end Biopy

namespace Biopy

/-! ## Walks over a tree object -/

/-- A call of `getInOrder` on a tree object whose sons come before their parents appends
the walk from `k`. -/
theorem getInOrder_walk (t : TreeObject) (pre inc : Bool) (sons : Nat → List Nat) (n : Nat)
    (hs : ∀ k, k < n → t.sonsOf k = Except.ok (sons k))
    (hlt : ∀ k, k < n → ∀ s ∈ sons k, s < k) :
    ∀ (fuel k : Nat) (ids : List Nat), k < fuel → k < n →
      t.getInOrder pre inc fuel k ids = Except.ok (ids ++ walkOrder pre inc sons fuel k) := by
  intro fuel
  induction fuel with
  | zero => intro k ids hk; omega
  | succ f ih =>
    intro k ids hk hkl
    have hvis := fun ids0 => visitSons_post (t.getInOrder pre inc f) (walkOrder pre inc sons f)
      (sons k) ids0
      (fun s hs1 ids1 => by
        have : s < k := hlt k hkl s hs1
        exact ih s ids1 (by omega) (by omega))
    simp only [TreeObject.getInOrder, hs k hkl, hvis, walkOrder]
    by_cases h1 : 0 < (sons k).length ∧ pre = true
    · by_cases h2 : (0 < (sons k).length ∧ pre = false) ∨ ((sons k).length = 0 ∧ inc = true)
      · simp only [if_pos h1, if_pos h2, List.append_assoc]
      · simp only [if_pos h1, if_neg h2, List.append_assoc, List.append_nil]
    · by_cases h2 : (0 < (sons k).length ∧ pre = false) ∨ ((sons k).length = 0 ∧ inc = true)
      · simp only [if_neg h1, if_pos h2, List.append_assoc, List.nil_append]
      · simp only [if_neg h1, if_neg h2, List.append_assoc, List.nil_append, List.append_nil]

theorem filter_flatten_map (q : Nat → Bool) (g : Nat → List Nat) : ∀ (l : List Nat),
    ((l.map g).flatten).filter q = (l.map (fun x => (g x).filter q)).flatten := by
  intro l
  induction l with
  | nil => rfl
  | cons x xs ih => simp only [List.map_cons, List.flatten_cons, List.filter_append, ih]

/-- A walk without the tips is the walk with the tips, the nodes without sons left
out. -/
theorem walkOrder_filter (pre : Bool) (sons : Nat → List Nat) : ∀ (fuel k : Nat),
    walkOrder pre false sons fuel k
      = (walkOrder pre true sons fuel k).filter (fun j => decide (sons j ≠ [])) := by
  intro fuel
  induction fuel with
  | zero => intro k; rfl
  | succ f ih =>
    intro k
    simp only [walkOrder, List.filter_append, filter_flatten_map]
    have e : (sons k).map (walkOrder pre false sons f)
        = (sons k).map (fun x => (walkOrder pre true sons f x).filter
            (fun j => decide (sons j ≠ []))) :=
      List.map_congr_left (fun x _ => ih x)
    rw [e]
    by_cases h0 : sons k = []
    · have hl : (sons k).length = 0 := by rw [h0]; rfl
      simp [h0]
    · have hl : 0 < (sons k).length := List.length_pos.mpr h0
      have hl0 : (sons k).length ≠ 0 := by omega
      cases pre <;> simp [hl, hl0, h0]

theorem perm_flatten_map (g1 g2 : Nat → List Nat) : ∀ (l : List Nat),
    (∀ x ∈ l, (g1 x).Perm (g2 x)) → ((l.map g1).flatten).Perm ((l.map g2).flatten) := by
  intro l
  induction l with
  | nil => intro _; exact List.Perm.refl _
  | cons x xs ih =>
    intro h
    simp only [List.map_cons, List.flatten_cons]
    exact List.Perm.append (h x (by simp)) (ih (fun y hy => h y (by simp [hy])))

theorem walkOrder_succ (pre inc : Bool) (sons : Nat → List Nat) (f k : Nat) :
    walkOrder pre inc sons (f + 1) k
      = (if 0 < (sons k).length ∧ pre = true then [k] else [])
        ++ ((sons k).map (walkOrder pre inc sons f)).flatten
        ++ (if (0 < (sons k).length ∧ pre = false) ∨ ((sons k).length = 0 ∧ inc = true)
            then [k] else []) := rfl

/-- The walk in pre-order gives the ids of the walk in post-order, in another order. -/
theorem walkOrder_perm (inc : Bool) (sons : Nat → List Nat) : ∀ (fuel k : Nat),
    (walkOrder true inc sons fuel k).Perm (walkOrder false inc sons fuel k) := by
  intro fuel
  induction fuel with
  | zero => intro k; exact List.Perm.refl _
  | succ f ih =>
    intro k
    have hp := perm_flatten_map (walkOrder true inc sons f) (walkOrder false inc sons f)
      (sons k) (fun x _ => ih x)
    rw [walkOrder_succ, walkOrder_succ]
    by_cases h0 : 0 < (sons k).length
    · rw [if_pos (show 0 < (sons k).length ∧ true = true from ⟨h0, rfl⟩),
        if_neg (show ¬ ((0 < (sons k).length ∧ true = false) ∨ ((sons k).length = 0 ∧ inc = true))
          by intro h; rcases h with ⟨_, h⟩ | ⟨h, _⟩ <;> first | cases h | omega),
        if_neg (show ¬ (0 < (sons k).length ∧ false = true) by intro h; cases h.2),
        if_pos (show (0 < (sons k).length ∧ false = false) ∨ ((sons k).length = 0 ∧ inc = true)
          from Or.inl ⟨h0, rfl⟩)]
      simp only [List.append_nil, List.nil_append, List.singleton_append]
      exact (List.Perm.cons k hp).trans (List.perm_append_singleton k _).symm
    · rw [if_neg (show ¬ (0 < (sons k).length ∧ true = true) from fun h => h0 h.1),
        if_neg (show ¬ (0 < (sons k).length ∧ false = true) from fun h => h0 h.1)]
      rw [List.nil_append, List.nil_append]
      have hc : ((0 < (sons k).length ∧ true = false) ∨ ((sons k).length = 0 ∧ inc = true))
          ↔ ((0 < (sons k).length ∧ false = false) ∨ ((sons k).length = 0 ∧ inc = true)) := by
        constructor
        · intro h
          rcases h with ⟨h, _⟩ | h
          · exact absurd h h0
          · exact Or.inr h
        · intro h
          rcases h with ⟨h, _⟩ | h
          · exact absurd h h0
          · exact Or.inr h
      by_cases h3 : (0 < (sons k).length ∧ true = false) ∨ ((sons k).length = 0 ∧ inc = true)
      · rw [if_pos h3, if_pos (hc.mp h3)]
        exact List.Perm.append_right _ hp
      · rw [if_neg h3, if_neg (fun h => h3 (hc.mpr h))]
        exact List.Perm.append_right _ hp

/-- The sons of the nodes of a laid out forest are the roots of the trees of their
sons. -/
theorem XForest.lay_sonsAt : ∀ (F : XForest) (pre post : List Expanded) (par : Int)
    (ph : Option ℚ) (base : Nat), base = pre.length →
    F.SonsAt (sonsIn (pre ++ F.lay base par ph ++ post)) base := by
  intro F
  induction F with
  | nil => intro pre post par ph base _; trivial
  | cons t h a kids rest ihk ihr =>
    intro pre post par ph base hb
    have hl := XForest.lay_length kids base ((base + kids.size : Nat) : Int) (some h)
    simp only [XForest.lay, XForest.SonsAt]
    refine ⟨?_, ?_, ?_⟩
    · unfold sonsIn
      have e : (pre ++ (kids.lay base ((base + kids.size : Nat) : Int) (some h)
            ++ Expanded.mk t kids.count (kids.roots base) (ph.map (fun x => x - h)) h par a
              :: rest.lay (base + kids.size + 1) par ph) ++ post)
          = pre ++ kids.lay base ((base + kids.size : Nat) : Int) (some h)
            ++ Expanded.mk t kids.count (kids.roots base) (ph.map (fun x => x - h)) h par a
              :: (rest.lay (base + kids.size + 1) par ph ++ post) := by
        simp only [List.append_assoc, List.cons_append]
      rw [List.get?_eq_getElem?, e, getElem?_mid _ _ _ _ _ (by rw [hl, hb])]
      simp only []
      rw [List.take_of_length_le (by rw [XForest.roots_count])]
    · have e : (pre ++ (kids.lay base ((base + kids.size : Nat) : Int) (some h)
            ++ Expanded.mk t kids.count (kids.roots base) (ph.map (fun x => x - h)) h par a
              :: rest.lay (base + kids.size + 1) par ph) ++ post)
          = pre ++ kids.lay base ((base + kids.size : Nat) : Int) (some h)
            ++ (Expanded.mk t kids.count (kids.roots base) (ph.map (fun x => x - h)) h par a
              :: rest.lay (base + kids.size + 1) par ph ++ post) := by
        simp only [List.append_assoc, List.cons_append]
      rw [e]
      exact ihk pre _ _ _ base hb
    · have e : (pre ++ (kids.lay base ((base + kids.size : Nat) : Int) (some h)
            ++ Expanded.mk t kids.count (kids.roots base) (ph.map (fun x => x - h)) h par a
              :: rest.lay (base + kids.size + 1) par ph) ++ post)
          = (pre ++ kids.lay base ((base + kids.size : Nat) : Int) (some h)
            ++ [Expanded.mk t kids.count (kids.roots base) (ph.map (fun x => x - h)) h par a])
            ++ rest.lay (base + kids.size + 1) par ph ++ post := by
        simp only [List.append_assoc, List.cons_append, List.nil_append, List.singleton_append]
      rw [e]
      exact ihr _ post par ph (base + kids.size + 1)
        (by simp only [List.length_append, List.length_cons, List.length_nil, hb] at hl ⊢; omega)

theorem XForest.sonsAt_congr (s1 s2 : Nat → List Nat) (h : ∀ k, s1 k = s2 k) :
    ∀ (F : XForest) (base : Nat), F.SonsAt s1 base → F.SonsAt s2 base := by
  intro F
  induction F with
  | nil => intro base _; trivial
  | cons t hh a kids rest ihk ihr =>
    intro base hs
    simp only [XForest.SonsAt] at hs ⊢
    exact ⟨by rw [← h]; exact hs.1, ihk base hs.2.1, ihr _ hs.2.2⟩

/-- The walk in post-order with the tips over a laid out forest gives the indices of its
nodes in increasing order. -/
theorem XForest.walk_post (sons : Nat → List Nat) : ∀ (F : XForest) (base fuel : Nat),
    F.SonsAt sons base → base + F.size ≤ fuel →
    ((F.roots base).map (walkOrder false true sons fuel)).flatten
      = List.range' base F.size := by
  intro F
  induction F with
  | nil => intro base fuel _ _; rfl
  | cons t hh a kids rest ihk ihr =>
    intro base fuel hs hf
    simp only [XForest.SonsAt] at hs
    obtain ⟨h1, h2, h3⟩ := hs
    simp only [XForest.size] at hf
    obtain ⟨f, rfl⟩ : ∃ f, fuel = f + 1 := ⟨fuel - 1, by omega⟩
    have e1 := ihk base f h2 (by omega)
    have e2 := ihr (base + kids.size + 1) (f + 1) h3 (by omega)
    simp only [XForest.roots, List.map_cons, List.flatten_cons, e2, XForest.size]
    have ew : walkOrder false true sons (f + 1) (base + kids.size)
        = List.range' base kids.size ++ [base + kids.size] := by
      simp only [walkOrder, h1, e1, Bool.false_eq_true, and_false, if_false, List.nil_append,
        and_true]
      have hc : 0 < (kids.roots base).length ∨ (kids.roots base).length = 0 := by omega
      rw [if_pos hc]
    rw [ew]
    have e3 : List.range' base kids.size ++ [base + kids.size]
        = List.range' base (kids.size + 1) := by
      rw [List.range'_concat]
      simp
    rw [e3, show base + kids.size + 1 = base + 1 * (kids.size + 1) by omega,
      List.range'_append]
    congr 1
    omega

theorem walkOrder_mem (pre : Bool) (sons : Nat → List Nat) (f k : Nat) :
    k ∈ walkOrder pre true sons (f + 1) k := by
  simp only [walkOrder]
  by_cases h0 : 0 < (sons k).length
  · cases pre <;> simp [h0]
  · have : (sons k).length = 0 := by omega
    simp [this]

theorem XForest.roots_pos : ∀ (F : XForest) (base : Nat), ∀ s ∈ F.roots base,
    base ≤ s ∧ s < base + F.size := by
  intro F
  induction F with
  | nil => intro base s h; simp [XForest.roots] at h
  | cons t hh a kids rest _ ihr =>
    intro base s h
    simp only [XForest.roots, List.mem_cons] at h
    simp only [XForest.size]
    rcases h with rfl | h
    · omega
    · have := ihr _ _ h
      omega

/-- In the walk in pre-order over a laid out forest every node comes before each of its
sons. -/
theorem XForest.walk_pre (sons : Nat → List Nat) : ∀ (F : XForest) (base fuel : Nat),
    F.SonsAt sons base → base + F.size ≤ fuel →
    ∀ (p c : Nat), base ≤ p → p < base + F.size → c ∈ sons p →
      List.Sublist [p, c] ((F.roots base).map (walkOrder true true sons fuel)).flatten := by
  intro F
  induction F with
  | nil => intro base fuel _ _ p c h1 h2; simp only [XForest.size] at h2; omega
  | cons t hh a kids rest ihk ihr =>
    intro base fuel hs hf p c hp1 hp2 hc
    simp only [XForest.SonsAt] at hs
    obtain ⟨h1, h2, h3⟩ := hs
    simp only [XForest.size] at hf hp2
    obtain ⟨f, rfl⟩ : ∃ f, fuel = f + 1 := ⟨fuel - 1, by omega⟩
    simp only [XForest.roots, List.map_cons, List.flatten_cons]
    rcases Nat.lt_trichotomy p (base + kids.size) with hlt | heq | hgt
    · have e1 := ihk base f h2 (by omega) p c hp1 hlt hc
      apply List.Sublist.trans e1
      apply List.Sublist.trans _ (List.sublist_append_left _ _)
      rw [walkOrder_succ, h1]
      exact List.Sublist.trans (List.sublist_append_right _ _) (List.sublist_append_left _ _)
    · subst heq
      rw [h1] at hc
      obtain ⟨hc1, hc2⟩ := XForest.roots_pos kids base c hc
      obtain ⟨g, rfl⟩ : ∃ g, f = g + 1 := ⟨f - 1, by omega⟩
      apply List.Sublist.trans _ (List.sublist_append_left _ _)
      have hne : 0 < (kids.roots base).length := List.length_pos.mpr (List.ne_nil_of_mem hc)
      have hcm : c ∈ ((kids.roots base).map (walkOrder true true sons (g + 1))).flatten := by
        rw [List.mem_flatten]
        exact ⟨walkOrder true true sons (g + 1) c, List.mem_map.mpr ⟨c, hc, rfl⟩,
          walkOrder_mem true sons g c⟩
      rw [walkOrder_succ, h1, if_pos (show 0 < (kids.roots base).length ∧ true = true
        from ⟨hne, rfl⟩), List.append_assoc, List.singleton_append]
      apply List.Sublist.cons₂
      apply List.Sublist.trans _ (List.sublist_append_left _ _)
      exact List.singleton_sublist.mpr hcm
    · have e2 := ihr (base + kids.size + 1) (f + 1) h3 (by omega) p c (by omega) (by omega) hc
      exact List.Sublist.trans e2 (List.sublist_append_right _ _)

end Biopy

namespace Biopy

theorem sonsIn_map (g : Expanded → Expanded) (hg : ∀ e, (g e).sons = e.sons ∧ (g e).nSons = e.nSons)
    (l : List Expanded) (k : Nat) : sonsIn (l.map g) k = sonsIn l k := by
  unfold sonsIn
  rw [List.get?_eq_getElem?, List.get?_eq_getElem?, List.getElem?_map]
  cases l[k]? with
  | none => rfl
  | some e => simp only [Option.map_some', (hg e).1, (hg e).2]

/-- The sons `getInOrder` walks through at a node of a tree object whose node objects
have the sons of the expansion. -/
theorem sonsOf_kept (t : TreeObject)
    (hv : ∀ v, t.treeNodes = some v → v.length = t.internals.length)
    (hkept : ∀ k no, t.kept k = some no → no.succ.getD [] = sonsIn t.internals k)
    (k : Nat) (hk : k < t.internals.length) :
    t.sonsOf k = Except.ok (sonsIn t.internals k) := by
  have hfrom : (match t.internals.get? k with
      | none => (Except.error Abort.undefined : Except Abort (List Nat))
      | some e => Except.ok (e.sons.take e.nSons)) = Except.ok (sonsIn t.internals k) := by
    unfold sonsIn
    rw [List.get?_eq_getElem?, List.getElem?_eq_getElem hk]
  unfold TreeObject.sonsOf
  simp only []
  cases hvv : t.treeNodes with
  | none => exact hfrom
  | some v =>
    simp only []
    have hlen := hv v hvv
    have hkv : k < v.length := by omega
    rw [List.get?_eq_getElem?, List.getElem?_eq_getElem hkv]
    cases hx : v[k] with
    | none => exact hfrom
    | some no =>
      simp only []
      have : t.kept k = some no := by
        unfold TreeObject.kept
        rw [hvv]
        simp only [Option.getD_some]
        rw [List.getD_eq_getElem?_getD, List.getElem?_eq_getElem hkv, hx]
        rfl
      rw [hkept k no this]

/-- C40: on a tree object of an expanded tree with `n` nodes (the node objects made so
far having the sons of the expansion), the walk in post-order from the root with the tips
gives `0, 1, ..., n-1`; the walk in pre-order from the root with the tips gives these
ids in an order in which every node comes before each of its sons; and without the tips
either walk gives the nodes with sons, in the order of the walk with the tips. -/
theorem walks_of_expanded_tree (ts : TreesSet) (fuel nt : Nat) (internals : List Expanded)
    (t : TreeObject) (f : Nat)
    (hset : ts.setup fuel nt = Except.ok internals) (ht : t.internals = internals)
    (hv : ∀ v, t.treeNodes = some v → v.length = internals.length)
    (hkept : ∀ k no, t.kept k = some no → no.succ.getD [] = sonsIn internals k)
    (hf : internals.length ≤ f) :
    t.getInOrder false true f (getRootID internals) []
        = Except.ok (List.range internals.length)
      ∧ t.getInOrder false false f (getRootID internals) []
        = Except.ok ((List.range internals.length).filter
            (fun k => decide (sonsIn internals k ≠ [])))
      ∧ ∃ pre, t.getInOrder true true f (getRootID internals) [] = Except.ok pre
          ∧ pre.Perm (List.range internals.length)
          ∧ (∀ p c, c ∈ sonsIn internals p → List.Sublist [p, c] pre)
          ∧ t.getInOrder true false f (getRootID internals) []
            = Except.ok (pre.filter (fun k => decide (sonsIn internals k ≠ []))) := by
  subst ht
  obtain ⟨hne, hlinks⟩ := setup_links ts fuel nt t.internals hset
  have hpos : 0 < t.internals.length := List.length_pos.mpr hne
  have hrep : ∃ rep, ts.trees.get? nt = some rep := by
    cases h : ts.trees.get? nt with
    | none =>
      unfold TreesSet.setup at hset
      rw [h] at hset
      cases hset
    | some rep => exact ⟨rep, rfl⟩
  obtain ⟨rep, hrep⟩ := hrep
  obtain ⟨tx, hh, a, kids, hlay, _, _⟩ := setup_lay ts fuel nt rep t.internals hrep hset
  -- the sons of the expansion are those of the layout
  have hsons : (XForest.cons tx hh a kids XForest.nil).SonsAt (sonsIn t.internals) 0 := by
    have h0 := XForest.lay_sonsAt (XForest.cons tx hh a kids XForest.nil) [] [] (-1) none 0 rfl
    simp only [List.nil_append, List.append_nil] at h0
    refine XForest.sonsAt_congr _ _ (fun k => ?_) _ 0 h0
    rw [hlay]
    split
    · exact (sonsIn_map (fun x => { x with branch := none, height := -1 })
        (fun e => ⟨rfl, rfl⟩) _ k).symm
    · rfl
  have hsize : t.internals.length = kids.size + 1 := by
    rw [hlay]
    split
    · rw [List.length_map, XForest.lay_length]
      simp [XForest.size]
    · rw [XForest.lay_length]
      simp [XForest.size]
  have hroot : getRootID t.internals = 0 + kids.size := by
    unfold getRootID
    rw [if_neg (by omega)]
    omega
  have hs : ∀ k, k < t.internals.length → t.sonsOf k = Except.ok (sonsIn t.internals k) :=
    fun k hk => sonsOf_kept t hv hkept k hk
  have hlt : ∀ k, k < t.internals.length → ∀ s ∈ sonsIn t.internals k, s < k := by
    intro k hk s hsk
    unfold sonsIn at hsk
    rw [List.get?_eq_getElem?, List.getElem?_eq_getElem hk] at hsk
    simp only [] at hsk
    exact ((hlinks k _ (List.getElem?_eq_getElem hk)).2.1 s (List.mem_of_mem_take hsk)).1
  have hwalk := fun pre inc => getInOrder_walk t pre inc (sonsIn t.internals)
    t.internals.length hs hlt f (getRootID t.internals) [] (by rw [hroot]; omega)
    (by rw [hroot]; omega)
  simp only [List.nil_append] at hwalk
  have hpost : walkOrder false true (sonsIn t.internals) f (getRootID t.internals)
      = List.range t.internals.length := by
    have := XForest.walk_post (sonsIn t.internals) (XForest.cons tx hh a kids XForest.nil) 0 f
      hsons (by simp only [XForest.size]; omega)
    simp only [XForest.roots, List.map_cons, List.map_nil, List.flatten_cons,
      List.flatten_nil, List.append_nil, XForest.size] at this
    rw [hroot, this, List.range_eq_range', hsize]
  refine ⟨by rw [hwalk, hpost], by rw [hwalk, walkOrder_filter, hpost],
    walkOrder true true (sonsIn t.internals) f (getRootID t.internals), hwalk true true, ?_, ?_,
    by rw [hwalk, walkOrder_filter]⟩
  · rw [← hpost]
    exact walkOrder_perm true _ f _
  · intro p c hc
    have hp : p < t.internals.length := by
      by_contra hge
      unfold sonsIn at hc
      rw [List.get?_eq_getElem?, List.getElem?_eq_none (by omega)] at hc
      simp at hc
    have := XForest.walk_pre (sonsIn t.internals) (XForest.cons tx hh a kids XForest.nil) 0 f
      hsons (by simp only [XForest.size]; omega) p c (Nat.zero_le _)
      (by simp only [XForest.size]; omega) hc
    simp only [XForest.roots, List.map_cons, List.map_nil, List.flatten_cons,
      List.flatten_nil, List.append_nil] at this
    rw [hroot]
    exact this

theorem walks_of_expanded_tree_witness :
    treeThreeTips.getInOrder false true 9 (getRootID treeThreeTips.internals) []
        = Except.ok (List.range treeThreeTips.internals.length)
      ∧ treeThreeTips.getInOrder false false 9 (getRootID treeThreeTips.internals) []
        = Except.ok ((List.range treeThreeTips.internals.length).filter
            (fun k => decide (sonsIn treeThreeTips.internals k ≠ [])))
      ∧ ∃ pre, treeThreeTips.getInOrder true true 9 (getRootID treeThreeTips.internals) []
            = Except.ok pre
          ∧ pre.Perm (List.range treeThreeTips.internals.length)
          ∧ (∀ p c, c ∈ sonsIn treeThreeTips.internals p → List.Sublist [p, c] pre)
          ∧ treeThreeTips.getInOrder true false 9 (getRootID treeThreeTips.internals) []
            = Except.ok (pre.filter (fun k => decide (sonsIn treeThreeTips.internals k ≠ []))) :=
  walks_of_expanded_tree setThreeTips 9 0 treeThreeTips.internals treeThreeTips 9
    (by decide!) rfl (fun v hv => by cases hv) (fun k no hk => by cases hk) (by decide)

end Biopy

namespace Biopy

/-! ## The heights after `setBranch` -/

end Biopy

namespace Biopy

end Biopy

namespace Biopy

end Biopy

namespace Biopy

end Biopy

namespace Biopy

/-! ## The scan for the largest height -/

theorem foldl_max_out (g : Nat → ℚ) : ∀ (l : List Nat) (a b : ℚ),
    l.foldl (fun m k => max m (g k)) (max a b) = max a (l.foldl (fun m k => max m (g k)) b) := by
  intro l
  induction l with
  | nil => intro a b; rfl
  | cons x xs ih =>
    intro a b
    simp only [List.foldl_cons]
    rw [max_assoc, ih]

theorem le_foldl_maxg (g : Nat → ℚ) : ∀ (l : List Nat) (a : ℚ),
    a ≤ l.foldl (fun m k => max m (g k)) a
      ∧ ∀ k ∈ l, g k ≤ l.foldl (fun m k => max m (g k)) a := by
  intro l
  induction l with
  | nil => intro a; exact ⟨le_refl _, fun k hk => by simp at hk⟩
  | cons x xs ih =>
    intro a
    simp only [List.foldl_cons]
    obtain ⟨h1, h2⟩ := ih (max a (g x))
    refine ⟨le_trans (le_max_left _ _) h1, ?_⟩
    intro k hk
    rcases List.mem_cons.mp hk with rfl | hk
    · exact le_trans (le_max_right _ _) h1
    · exact h2 k hk

theorem foldl_maxg_mem (g : Nat → ℚ) : ∀ (l : List Nat) (a : ℚ),
    l.foldl (fun m k => max m (g k)) a = a
      ∨ ∃ k ∈ l, g k = l.foldl (fun m k => max m (g k)) a := by
  intro l
  induction l with
  | nil => intro a; exact Or.inl rfl
  | cons x xs ih =>
    intro a
    simp only [List.foldl_cons]
    rcases ih (max a (g x)) with h | ⟨k, hk, e⟩
    · rcases max_choice a (g x) with hc | hc
      · left; rw [h, hc]
      · right; exact ⟨x, by simp, by rw [h, hc]⟩
    · right; exact ⟨k, List.mem_cons_of_mem _ hk, e⟩

/-- What the scan of `rep2treeInternal` returns: the largest of `curh` and the heights
scanned, and the positions at which it is found, which are those of the heights scanned
when one of them is above `curh`. -/
theorem scanSplits_spec (hs : List ℚ) : ∀ (ks : List Nat) (c : ℚ) (ci : Option (List Nat))
    (c2 : ℚ) (ci2 : Option (List Nat)),
    scanSplits hs ks c ci = Except.ok (c2, ci2) →
    c2 = ks.foldl (fun m k => max m (hs.getD k 0)) c
      ∧ ci2 = if c < c2 then some (ks.filter (fun k => decide (hs.getD k 0 = c2)))
          else ci.map (fun l => l ++ ks.filter (fun k => decide (hs.getD k 0 = c))) := by
  intro ks
  induction ks with
  | nil =>
    intro c ci c2 ci2 h
    simp only [scanSplits, Except.ok.injEq, Prod.mk.injEq] at h
    obtain ⟨h1, h2⟩ := h
    subst h1; subst h2
    simp only [List.foldl_nil, lt_self_iff_false, if_false, List.filter_nil, List.append_nil]
    cases ci <;> simp
  | cons k ks ih =>
    intro c ci c2 ci2 h
    cases hk : hs[k]? with
    | none => simp [scanSplits, hk] at h
    | some v =>
      have hv : hs.getD k 0 = v := by
        rw [List.getD_eq_getElem?_getD, hk]
        rfl
      simp only [scanSplits, List.get?_eq_getElem?, hk] at h
      simp only [List.foldl_cons, hv, List.filter_cons]
      by_cases hge : v ≥ c
      · rw [if_pos hge] at h
        by_cases hgt : v > c
        · rw [if_pos hgt] at h
          obtain ⟨e1, e2⟩ := ih _ _ _ _ h
          have hmax : max c v = v := max_eq_right hge
          have hle := (le_foldl_maxg (fun k => hs.getD k 0) ks v).1
          rw [hmax, ← e1]
          rw [← e1] at hle
          refine ⟨rfl, ?_⟩
          rw [if_pos (lt_of_lt_of_le hgt hle), e2]
          by_cases hvc : v < c2
          · rw [if_pos hvc]
            have : ¬ (v = c2) := ne_of_lt hvc
            simp only [this, decide_False, Bool.false_eq_true, if_false]
          · rw [if_neg hvc]
            have hvc2 : v = c2 := le_antisymm hle (not_lt.mp hvc)
            simp only [hvc2, decide_True, if_true, Option.map_some', List.singleton_append]
        · rw [if_neg hgt] at h
          have hvc : v = c := le_antisymm (not_lt.mp hgt) hge
          cases ci with
          | none => simp at h
          | some l =>
            simp only [] at h
            obtain ⟨e1, e2⟩ := ih _ _ _ _ h
            have hmax : max c v = c := by rw [hvc]; exact max_self c
            rw [hmax, ← e1]
            refine ⟨rfl, ?_⟩
            rw [e2]
            by_cases hcc : c < c2
            · rw [if_pos hcc, if_pos hcc]
              have : ¬ (v = c2) := by rw [hvc]; exact ne_of_lt hcc
              simp only [this, decide_False, Bool.false_eq_true, if_false]
            · rw [if_neg hcc, if_neg hcc]
              simp only [hvc, decide_True, if_true, Option.map_some', List.append_assoc,
                List.singleton_append]
      · rw [if_neg hge] at h
        obtain ⟨e1, e2⟩ := ih _ _ _ _ h
        have hlt : v < c := not_le.mp hge
        have hmax : max c v = c := max_eq_left (le_of_lt hlt)
        have hle := (le_foldl_maxg (fun k => hs.getD k 0) ks c).1
        rw [hmax, ← e1]
        rw [← e1] at hle
        refine ⟨rfl, ?_⟩
        rw [e2]
        have n1 : ¬ (v = c2) := ne_of_lt (lt_of_lt_of_le hlt hle)
        have n2 : ¬ (v = c) := ne_of_lt hlt
        simp only [n1, n2, decide_False, Bool.false_eq_true, if_false]

/-- The largest height of a range is the height at one of its positions. -/
theorem rangeMax_mem (hs : List ℚ) (low hi : Nat) (h : low < hi) :
    (∃ k, low ≤ k ∧ k < hi ∧ hs.getD k 0 = rangeMax hs low hi)
      ∧ ∀ k, low ≤ k → k < hi → hs.getD k 0 ≤ rangeMax hs low hi := by
  unfold rangeMax
  obtain ⟨h1, h2⟩ := le_foldl_maxg (fun k => hs.getD k 0)
    (List.range' (low + 1) (hi - low - 1)) (hs.getD low 0)
  constructor
  · rcases foldl_maxg_mem (fun k => hs.getD k 0)
      (List.range' (low + 1) (hi - low - 1)) (hs.getD low 0) with e | ⟨k, hk, e⟩
    · exact ⟨low, Nat.le_refl _, h, e.symm⟩
    · have := List.mem_range'_1.mp hk
      exact ⟨k, by omega, by omega, e⟩
  · intro k hk1 hk2
    by_cases hkl : k = low
    · rw [hkl]; exact h1
    · exact h2 k (List.mem_range'_1.mpr ⟨by omega, by omega⟩)

/-- The scan of a range `low..hi-1` from `curh = -1` that returns positions returns the
largest height of the range and all its positions. -/
theorem scanSplits_range (hs : List ℚ) (low hi : Nat) (h : low < hi) (c2 : ℚ)
    (splits : List Nat)
    (hsc : scanSplits hs (List.range' low (hi - low)) (-1) none = Except.ok (c2, some splits)) :
    c2 = rangeMax hs low hi ∧ splits = maxPositions hs low hi ∧ -1 < c2 := by
  obtain ⟨e1, e2⟩ := scanSplits_spec hs _ _ _ _ _ hsc
  have hlt : -1 < c2 := by
    by_contra hn
    rw [if_neg hn] at e2
    cases e2
  rw [if_pos hlt] at e2
  simp only [Option.some.injEq] at e2
  have hr : List.range' low (hi - low) = low :: List.range' (low + 1) (hi - low - 1) := by
    obtain ⟨n, hn⟩ : ∃ n, hi - low = n + 1 := ⟨hi - low - 1, by omega⟩
    rw [hn, List.range'_succ]
    simp
  have e3 : c2 = max (-1) (rangeMax hs low hi) := by
    rw [e1, hr, List.foldl_cons, foldl_max_out]
    rfl
  have e4 : c2 = rangeMax hs low hi := by
    rw [e3]
    apply max_eq_right
    by_contra hn
    rw [max_eq_left (le_of_lt (not_le.mp hn))] at e3
    rw [e3] at hlt
    exact lt_irrefl _ hlt
  refine ⟨e4, ?_, hlt⟩
  rw [e2]
  unfold maxPositions
  rw [e4]

end Biopy

namespace Biopy

/-! ## The expander lays out the tree of `expandSpec` -/

theorem attrSlot_ok (atrbs : Option (List (Option Attributes))) (i : Nat)
    (atr : Option Attributes) (h : attrSlot atrbs i = Except.ok atr) :
    atr = atrbs.bind (fun a => a.getD i none) := by
  cases atrbs with
  | none =>
    simp only [attrSlot, Except.ok.injEq] at h
    rw [← h]; rfl
  | some a =>
    cases hg : a[i]? with
    | none => simp [attrSlot, hg] at h
    | some x =>
      simp only [attrSlot, List.get?_eq_getElem?, hg, Except.ok.injEq] at h
      subst h
      simp only [Option.some_bind, List.getD_eq_getElem?_getD, hg, Option.getD_some]

theorem XForest.single_append (t : Int) (hh : ℚ) (a : Option Attributes) (kids K : XForest) :
    (XForest.cons t hh a kids XForest.nil).append K = XForest.cons t hh a kids K := rfl

/-- The loop over the split positions lays out the trees of `expandKids`, given that a
call of `rec` lays out the tree of `G`. -/
theorem expandSons_spec (rec : ExpState → Nat → Nat → Except Abort (ExpState × Nat))
    (G : Nat → Nat → XForest) (curh : ℚ)
    (hrec : ∀ s l h s2 k, l ≤ h → rec s l h = Except.ok (s2, k) →
      s2.nodes = s.nodes ++ (G l h).lay s.nodes.length (-1) none
        ∧ k + 1 = s.nodes.length + (G l h).size
        ∧ s2.sonsUsed + 1 = s.sonsUsed + (G l h).size
        ∧ ∃ t hh a kids, G l h = XForest.cons t hh a kids XForest.nil) :
    ∀ (xs : List Nat) (st : ExpState) (low : Nat) (sons : List Nat) (st2 : ExpState)
      (sons2 : List Nat),
      expandSons rec curh xs st low sons = Except.ok (st2, sons2) →
      xs.Pairwise (fun a b => a < b) → (∀ x ∈ xs, low ≤ x) →
      st2.nodes = st.nodes ++ (expandKids G xs low).lay st.nodes.length (-1) (some curh)
        ∧ sons2 = sons ++ (expandKids G xs low).roots st.nodes.length
        ∧ (expandKids G xs low).count = xs.length
        ∧ st2.sonsUsed + xs.length = st.sonsUsed + (expandKids G xs low).size := by
  intro xs
  induction xs with
  | nil =>
    intro st low sons st2 sons2 h _ _
    simp only [expandSons, Except.ok.injEq, Prod.mk.injEq] at h
    obtain ⟨h1, h2⟩ := h
    subst h1; subst h2
    exact ⟨by simp [expandKids, XForest.lay], by simp [expandKids, XForest.roots], rfl,
      by simp [expandKids, XForest.size]⟩
  | cons x xs ih =>
    intro st low sons st2 sons2 h hp hlow
    cases hr : rec st low x with
    | error e => simp [expandSons, hr] at h
    | ok q =>
      obtain ⟨st1, k⟩ := q
      cases hg : st1.nodes[k]? with
      | none => simp [expandSons, hr, hg] at h
      | some nk =>
        simp only [expandSons, hr, List.get?_eq_getElem?, hg] at h
        have hlx : low ≤ x := hlow x (by simp)
        obtain ⟨c1, c2, c3, t, hh, a, kids, c4⟩ := hrec st low x st1 k hlx hr
        have eK : expandKids G (x :: xs) low
            = XForest.cons t hh a kids (expandKids G xs (x + 1)) := by
          show (G low x).append (expandKids G xs (x + 1)) = _
          rw [c4]
          rfl
        rw [c4] at c1 c2 c3
        simp only [XForest.size, Nat.add_zero] at c2 c3
        have c1' : st1.nodes = (st.nodes ++ kids.lay st.nodes.length
              ((st.nodes.length + kids.size : Nat) : Int) (some hh))
            ++ [Expanded.mk t kids.count (kids.roots st.nodes.length) none hh (-1) a] := by
          rw [c1]
          simp only [XForest.lay, Option.map_none', List.append_assoc]
        have hk : k = (st.nodes ++ kids.lay st.nodes.length
              ((st.nodes.length + kids.size : Nat) : Int) (some hh)).length := by
          rw [List.length_append, XForest.lay_length]
          omega
        have hnk : nk = Expanded.mk t kids.count (kids.roots st.nodes.length) none hh (-1) a := by
          rw [c1', hk, List.getElem?_append_right (Nat.le_refl _)] at hg
          simpa using hg.symm
        have hset : setBranchOf st1.nodes k (curh - nk.height)
            = (st.nodes ++ kids.lay st.nodes.length
                ((st.nodes.length + kids.size : Nat) : Int) (some hh))
              ++ [Expanded.mk t kids.count (kids.roots st.nodes.length) (some (curh - hh)) hh
                    (-1) a] := by
          rw [c1', setBranchOf_last _ _ _ _ hk, hnk]
        rw [hset] at h
        have hp2 : xs.Pairwise (fun a b => a < b) := (List.pairwise_cons.mp hp).2
        have hlow2 : ∀ y ∈ xs, x + 1 ≤ y := fun y hy => (List.pairwise_cons.mp hp).1 y hy
        obtain ⟨d1, d2, d3, d4⟩ := ih _ (x + 1) _ st2 sons2 h hp2 hlow2
        simp only [List.length_append, XForest.lay_length, List.length_singleton] at d1 d2
        rw [eK]
        refine ⟨?_, ?_, ?_, ?_⟩
        · rw [d1]
          simp only [XForest.lay, Option.map_some', List.append_assoc, List.cons_append,
            List.nil_append]
        · rw [d2]
          have hk2 : k = st.nodes.length + kids.size := by omega
          simp only [XForest.roots, List.append_assoc, List.cons_append, List.nil_append, hk2]
        · simp only [XForest.count, List.length_cons, d3]
          omega
        · simp only [XForest.size, List.length_cons]
          simp only [] at d4
          omega

/-- A call of `rep2treeInternal` on the tips `low` to `hi` that returns has appended the
layout of the tree `expandSpec` of the range; it returns the index of the root of the
tree, the last node, and has used a slot of the sons block for every node but the root. -/
theorem rep2treeInternal_spec (tax : List Nat) (htax hs : List ℚ)
    (atrbs : Option (List (Option Attributes))) (cap : Nat) :
    ∀ (fuel : Nat) (st : ExpState) (low hi bleft : Nat) (st2 : ExpState) (k : Nat),
      low ≤ hi →
      rep2treeInternal tax htax hs atrbs cap fuel st low hi bleft = Except.ok (st2, k) →
      st2.nodes = st.nodes ++ (expandSpec tax htax hs atrbs fuel low hi).lay st.nodes.length (-1) none
        ∧ k + 1 = st.nodes.length + (expandSpec tax htax hs atrbs fuel low hi).size
        ∧ st2.sonsUsed + 1 = st.sonsUsed + (expandSpec tax htax hs atrbs fuel low hi).size
        ∧ ∃ t hh a kids, expandSpec tax htax hs atrbs fuel low hi
            = XForest.cons t hh a kids XForest.nil := by
  intro fuel
  induction fuel with
  | zero => intro st low hi bleft st2 k _ h; simp [rep2treeInternal] at h
  | succ fuel ih =>
    intro st low hi bleft st2 k hle h
    by_cases hlh : low = hi
    · subst hlh
      simp only [rep2treeInternal, if_true] at h
      cases ht : tax[low]? with
      | none => simp [ht] at h
      | some t =>
        cases hh : htax[low]? with
        | none => simp [ht, hh] at h
        | some v =>
          simp only [List.get?_eq_getElem?, ht, hh] at h
          cases ha : attrSlot atrbs low with
          | error e => simp [ha] at h
          | ok atr =>
            simp only [ha, Except.ok.injEq, Prod.mk.injEq] at h
            obtain ⟨h1, h2⟩ := h
            subst h1
            have e : expandSpec tax htax hs atrbs (fuel + 1) low low
                = XForest.cons (t : Int) v atr XForest.nil XForest.nil := by
              simp only [expandSpec, if_true]
              rw [← attrSlot_ok atrbs low atr ha]
              simp only [List.getD_eq_getElem?_getD, ht, hh, Option.getD_some]
            rw [e]
            refine ⟨?_, ?_, ?_, _, _, _, _, rfl⟩
            · simp [XForest.lay, XForest.count, XForest.roots]
            · simp [XForest.size, h2]
            · simp [XForest.size]
    · simp only [rep2treeInternal, if_neg hlh] at h
      cases hsc : scanSplits hs (List.range' low (hi - low)) (-1) none with
      | error e => simp [hsc] at h
      | ok r =>
        obtain ⟨curh, osp⟩ := r
        cases osp with
        | none => simp [hsc] at h
        | some splits =>
          simp only [hsc] at h
          obtain ⟨p1, p2, p3⟩ := scanSplits_sorted hs _ _ _ _ _ hsc
            (by simpa using List.pairwise_lt_range' low (hi - low))
            (fun l hl => by cases hl)
          obtain ⟨q1, q2, _⟩ := scanSplits_range hs low hi (by omega) curh splits hsc
          have hin : ∀ x ∈ splits, low ≤ x ∧ x < hi := by
            intro x hx
            rcases p3 x hx with hx | hx
            · simp at hx
            · have := List.mem_range'_1.mp hx
              omega
          by_cases hb1 : bleft < splits.length
          · simp [hb1] at h
          rw [if_neg hb1] at h
          by_cases hb2 : bleft - splits.length = 0
          · simp [hb2] at h
          rw [if_neg hb2] at h
          by_cases hb3 : cap < st.sonsUsed + (1 + splits.length)
          · simp [hb3] at h
          rw [if_neg hb3] at h
          cases hex : expandSons
              (fun s l h => rep2treeInternal tax htax hs atrbs cap fuel s l h
                (bleft - splits.length - 1))
              curh (splits ++ [hi])
              { st with sonsUsed := st.sonsUsed + (1 + splits.length) } low [] with
          | error e => simp [hex] at h
          | ok q =>
            obtain ⟨st1, sons⟩ := q
            simp only [hex] at h
            cases ha : attrSlot atrbs (splits.headD 0 + tax.length) with
            | error e => simp only [ha] at h; cases h
            | ok atr =>
              simp only [ha, Except.ok.injEq, Prod.mk.injEq] at h
              obtain ⟨h1, h2⟩ := h
              subst h1
              have hpw : (splits ++ [hi]).Pairwise (fun a b => a < b) := by
                rw [List.pairwise_append]
                refine ⟨p1, by simp, ?_⟩
                intro a ha b hb
                simp only [List.mem_singleton] at hb
                subst hb
                exact (hin a ha).2
              have hlow : ∀ x ∈ splits ++ [hi], low ≤ x := by
                intro x hx
                simp only [List.mem_append, List.mem_singleton] at hx
                rcases hx with hx | hx
                · exact (hin x hx).1
                · omega
              obtain ⟨e1, e2, e3, e4⟩ := expandSons_spec _
                (expandSpec tax htax hs atrbs fuel) curh
                (fun s l h s2 k hl hr => ih s l h _ s2 k hl hr)
                _ _ _ _ _ _ hex hpw hlow
              simp only [List.nil_append] at e1 e2
              have e : expandSpec tax htax hs atrbs (fuel + 1) low hi
                  = XForest.cons (-1) curh atr
                      (expandKids (expandSpec tax htax hs atrbs fuel) (splits ++ [hi]) low)
                      XForest.nil := by
                simp only [expandSpec, if_neg hlh]
                rw [← q1, ← q2, ← attrSlot_ok atrbs _ atr ha]
              rw [e]
              generalize expandKids (expandSpec tax htax hs atrbs fuel) (splits ++ [hi]) low = K
                at e1 e2 e3 e4
              have hcount : 1 + splits.length = K.count := by
                rw [e3]; simp; omega
              have hlen1 : st1.nodes.length = st.nodes.length + K.size := by
                rw [e1, List.length_append, XForest.lay_length]
              have hfold := foldl_setPrev_lay st1.nodes.length K st.nodes [] (-1) (some curh)
                st.nodes.length rfl
              simp only [List.append_nil] at hfold
              refine ⟨?_, ?_, ?_, _, _, _, _, rfl⟩
              · rw [e2, hcount]
                rw [e1] at hfold ⊢
                rw [hfold]
                simp only [XForest.lay, Option.map_none', List.length_append,
                  XForest.lay_length, List.append_assoc, Nat.cast_add]
              · simp only [XForest.size]
                omega
              · simp only [XForest.size]
                simp only [List.length_append, List.length_singleton] at e4
                omega

end Biopy

namespace Biopy

/-! ## The tree of `expandSpec` where the expander returns -/

theorem XForest.tipIds_cons (t : Int) (hh : ℚ) (a : Option Attributes) (kids K : XForest) :
    (XForest.cons t hh a kids K).tipIds
      = (XForest.cons t hh a kids XForest.nil).tipIds ++ K.tipIds := by
  simp only [XForest.tipIds, List.append_nil]

theorem XForest.tipHeights_cons (t : Int) (hh : ℚ) (a : Option Attributes)
    (kids K : XForest) :
    (XForest.cons t hh a kids K).tipHeights
      = (XForest.cons t hh a kids XForest.nil).tipHeights ++ K.tipHeights := by
  simp only [XForest.tipHeights, List.append_nil]

theorem range'_glue (low x last : Nat) (h1 : low ≤ x) (h2 : x + 1 ≤ last) :
    List.range' low (x - low + 1) ++ List.range' (x + 1) (last + 1 - (x + 1))
      = List.range' low (last + 1 - low) := by
  have e1 : low + (x - low + 1) = x + 1 := by omega
  have e2 : (last + 1 - (x + 1)) + (x - low + 1) = last + 1 - low := by omega
  have := List.range'_append_1 low (x - low + 1) (last + 1 - (x + 1))
  rw [e1, e2] at this
  exact this

/-- The trees of `expandKids` over split positions at which the loop of the expander
returns: their tips are the tips of the ranges, they fork, and they are not larger than
the ranges allow. -/
theorem expandSons_props (tax : List Nat) (htax : List ℚ)
    (rec : ExpState → Nat → Nat → Except Abort (ExpState × Nat))
    (G : Nat → Nat → XForest) (curh : ℚ)
    (hrec : ∀ s l h s2 k, l ≤ h → rec s l h = Except.ok (s2, k) →
      (∃ t hh a kids, G l h = XForest.cons t hh a kids XForest.nil)
        ∧ (G l h).tipIds = (List.range' l (h - l + 1)).map (fun k => ((tax.getD k 0 : Nat) : Int))
        ∧ (G l h).tipHeights = (List.range' l (h - l + 1)).map (fun k => htax.getD k 0)
        ∧ (G l h).Forked
        ∧ (G l h).size ≤ 2 * (h - l) + 1) :
    ∀ (xs : List Nat) (st : ExpState) (low : Nat) (sons : List Nat) (st2 : ExpState)
      (sons2 : List Nat),
      expandSons rec curh xs st low sons = Except.ok (st2, sons2) →
      xs.Pairwise (fun a b => a < b) → (∀ x ∈ xs, low ≤ x) →
      (expandKids G xs low).count = xs.length
        ∧ (expandKids G xs low).Forked
        ∧ ∀ last, xs.getLast? = some last →
            (expandKids G xs low).tipIds
                = (List.range' low (last + 1 - low)).map (fun k => ((tax.getD k 0 : Nat) : Int))
            ∧ (expandKids G xs low).tipHeights
                = (List.range' low (last + 1 - low)).map (fun k => htax.getD k 0)
            ∧ (expandKids G xs low).size + xs.length ≤ 2 * (last + 1 - low) := by
  intro xs
  induction xs with
  | nil =>
    intro st low sons st2 sons2 _ _ _
    exact ⟨rfl, trivial, fun last hl => by simp at hl⟩
  | cons x xs ih =>
    intro st low sons st2 sons2 h hp hlow
    cases hr : rec st low x with
    | error e => simp [expandSons, hr] at h
    | ok q =>
      obtain ⟨st1, k⟩ := q
      cases hg : st1.nodes[k]? with
      | none => simp [expandSons, hr, hg] at h
      | some nk =>
        simp only [expandSons, hr, List.get?_eq_getElem?, hg] at h
        have hlx : low ≤ x := hlow x (by simp)
        obtain ⟨⟨t, hh, a, kids, c4⟩, c5, c6, c7, c8⟩ := hrec st low x st1 k hlx hr
        have eK : expandKids G (x :: xs) low
            = XForest.cons t hh a kids (expandKids G xs (x + 1)) := by
          show (G low x).append (expandKids G xs (x + 1)) = _
          rw [c4]
          rfl
        rw [c4] at c5 c6 c7 c8
        have hp2 : xs.Pairwise (fun a b => a < b) := (List.pairwise_cons.mp hp).2
        have hlow2 : ∀ y ∈ xs, x + 1 ≤ y := fun y hy => (List.pairwise_cons.mp hp).1 y hy
        obtain ⟨d3, d4, d5⟩ := ih _ (x + 1) _ st2 sons2 h hp2 hlow2
        rw [eK]
        refine ⟨?_, ⟨c7.1, c7.2.1, d4⟩, ?_⟩
        · simp only [XForest.count, List.length_cons, d3]
          omega
        · intro last hlast
          rw [XForest.tipIds_cons, XForest.tipHeights_cons, c5, c6]
          have hsz : (XForest.cons t hh a kids (expandKids G xs (x + 1))).size
              = (XForest.cons t hh a kids XForest.nil).size
                + (expandKids G xs (x + 1)).size := by
            simp only [XForest.size]
            try omega
          rw [hsz]
          cases xs with
          | nil =>
            simp only [List.getLast?_singleton, Option.some.injEq] at hlast
            subst hlast
            have e : x - low + 1 = x + 1 - low := by omega
            simp only [expandKids, XForest.tipIds, XForest.tipHeights, XForest.size,
              List.append_nil, List.length_singleton, e] at c8 ⊢
            refine ⟨trivial, trivial, ?_⟩
            omega
          | cons y ys =>
            rw [List.getLast?_cons_cons] at hlast
            obtain ⟨f1, f2, f3⟩ := d5 last hlast
            have hxl : x + 1 ≤ last := by
              have := List.mem_of_getLast?_eq_some hlast
              exact hlow2 last this
            rw [f1, f2, ← List.map_append, ← List.map_append, range'_glue low x last hlx hxl]
            refine ⟨rfl, rfl, ?_⟩
            simp only [List.length_cons] at f3 ⊢
            omega

/-- The tree `expandSpec` of a range on which the expander returns: it is one tree, its
nodes without sons carry the taxa `tax[low..hi]` and the heights `htax[low..hi]` in this
order, every node with sons has two sons at least, and it has at most `2(hi - low) + 1`
nodes. -/
theorem rep2treeInternal_props (tax : List Nat) (htax hs : List ℚ)
    (atrbs : Option (List (Option Attributes))) (cap : Nat) :
    ∀ (fuel : Nat) (st : ExpState) (low hi bleft : Nat) (st2 : ExpState) (k : Nat),
      low ≤ hi →
      rep2treeInternal tax htax hs atrbs cap fuel st low hi bleft = Except.ok (st2, k) →
      (∃ t hh a kids, expandSpec tax htax hs atrbs fuel low hi
            = XForest.cons t hh a kids XForest.nil)
        ∧ (expandSpec tax htax hs atrbs fuel low hi).tipIds
            = (List.range' low (hi - low + 1)).map (fun k => ((tax.getD k 0 : Nat) : Int))
        ∧ (expandSpec tax htax hs atrbs fuel low hi).tipHeights
            = (List.range' low (hi - low + 1)).map (fun k => htax.getD k 0)
        ∧ (expandSpec tax htax hs atrbs fuel low hi).Forked
        ∧ (expandSpec tax htax hs atrbs fuel low hi).size ≤ 2 * (hi - low) + 1 := by
  intro fuel
  induction fuel with
  | zero => intro st low hi bleft st2 k _ h; simp [rep2treeInternal] at h
  | succ fuel ih =>
    intro st low hi bleft st2 k hle h
    refine ⟨(rep2treeInternal_spec tax htax hs atrbs cap (fuel + 1) st low hi bleft st2 k
      hle h).2.2.2, ?_⟩
    by_cases hlh : low = hi
    · subst hlh
      simp only [expandSpec, if_true, XForest.tipIds, XForest.tipHeights, XForest.count,
        XForest.size, List.append_nil, Nat.sub_self, Nat.zero_add, List.range'_one,
        List.map_cons, List.map_nil, Nat.mul_zero]
      exact ⟨trivial, trivial, ⟨by decide, trivial, trivial⟩, Nat.le_refl _⟩
    · simp only [rep2treeInternal, if_neg hlh] at h
      cases hsc : scanSplits hs (List.range' low (hi - low)) (-1) none with
      | error e => simp [hsc] at h
      | ok r =>
        obtain ⟨curh, osp⟩ := r
        cases osp with
        | none => simp [hsc] at h
        | some splits =>
          simp only [hsc] at h
          obtain ⟨p1, p2, p3⟩ := scanSplits_sorted hs _ _ _ _ _ hsc
            (by simpa using List.pairwise_lt_range' low (hi - low))
            (fun l hl => by cases hl)
          obtain ⟨q1, q2, _⟩ := scanSplits_range hs low hi (by omega) curh splits hsc
          have hin : ∀ x ∈ splits, low ≤ x ∧ x < hi := by
            intro x hx
            rcases p3 x hx with hx | hx
            · simp at hx
            · have := List.mem_range'_1.mp hx
              omega
          by_cases hb1 : bleft < splits.length
          · simp [hb1] at h
          rw [if_neg hb1] at h
          by_cases hb2 : bleft - splits.length = 0
          · simp [hb2] at h
          rw [if_neg hb2] at h
          by_cases hb3 : cap < st.sonsUsed + (1 + splits.length)
          · simp [hb3] at h
          rw [if_neg hb3] at h
          cases hex : expandSons
              (fun s l h => rep2treeInternal tax htax hs atrbs cap fuel s l h
                (bleft - splits.length - 1))
              curh (splits ++ [hi])
              { st with sonsUsed := st.sonsUsed + (1 + splits.length) } low [] with
          | error e => simp [hex] at h
          | ok q =>
            obtain ⟨st1, sons⟩ := q
            have hpw : (splits ++ [hi]).Pairwise (fun a b => a < b) := by
              rw [List.pairwise_append]
              refine ⟨p1, by simp, ?_⟩
              intro a ha b hb
              simp only [List.mem_singleton] at hb
              subst hb
              exact (hin a ha).2
            have hlow : ∀ x ∈ splits ++ [hi], low ≤ x := by
              intro x hx
              simp only [List.mem_append, List.mem_singleton] at hx
              rcases hx with hx | hx
              · exact (hin x hx).1
              · omega
            obtain ⟨e3, e4, e5⟩ := expandSons_props tax htax _
              (expandSpec tax htax hs atrbs fuel) curh
              (fun s l h s2 k hl hr => ih s l h _ s2 k hl hr)
              _ _ _ _ _ _ hex hpw hlow
            obtain ⟨f1, f2, f3⟩ := e5 hi (by simp)
            have hsl : 1 ≤ splits.length := by
              cases splits with
              | nil => exact absurd rfl p2
              | cons _ _ => simp
            simp only [expandSpec, if_neg hlh]
            rw [← q2]
            generalize expandKids (expandSpec tax htax hs atrbs fuel) (splits ++ [hi]) low = K
              at e3 e4 f1 f2 f3
            simp only [List.length_append, List.length_singleton] at e3 f3
            have hk0 : K.count ≠ 0 := by omega
            have e : hi + 1 - low = hi - low + 1 := by omega
            simp only [XForest.tipIds, XForest.tipHeights, XForest.size, XForest.Forked,
              if_neg hk0, List.append_nil]
            rw [f1, f2, e]
            refine ⟨rfl, rfl, ⟨by omega, e4, trivial⟩, by omega⟩

end Biopy

namespace Biopy

/-! ## The expander returns -/

theorem sorted_len : ∀ (xs : List Nat) (a b : Nat), xs.Pairwise (fun x y => x < y) →
    (∀ y ∈ xs, a ≤ y ∧ y ≤ b) → xs.length ≤ b + 1 - a := by
  intro xs
  induction xs with
  | nil => intro a b _ _; exact Nat.zero_le _
  | cons x xs ih =>
    intro a b hp hin
    have h1 := hin x (by simp)
    have h2 := ih (x + 1) b (List.pairwise_cons.mp hp).2 (fun y hy =>
      ⟨(List.pairwise_cons.mp hp).1 y hy, (hin y (List.mem_cons_of_mem _ hy)).2⟩)
    simp only [List.length_cons]
    omega

/-- The scan returns on positions inside `heights` when the heights scanned before it has
positions are above `curh`; and it has positions after one height. -/
theorem scanSplits_total (hs : List ℚ) : ∀ (ks : List Nat) (c : ℚ) (ci : Option (List Nat)),
    (∀ k ∈ ks, k < hs.length) → (ci = none → ∀ k ∈ ks, c < hs.getD k 0) →
    ∃ c2 ci2, scanSplits hs ks c ci = Except.ok (c2, ci2)
      ∧ ((ks ≠ [] ∨ ci ≠ none) → ci2 ≠ none) := by
  intro ks
  induction ks with
  | nil =>
    intro c ci _ _
    refine ⟨c, ci, rfl, ?_⟩
    intro h
    rcases h with h | h
    · exact absurd rfl h
    · exact h
  | cons k ks ih =>
    intro c ci hin hab
    have hk : k < hs.length := hin k (by simp)
    have hg : hs[k]? = some (hs.getD k 0) := by
      rw [List.getD_eq_getElem?_getD, List.getElem?_eq_getElem hk]
      rfl
    have hin2 : ∀ j ∈ ks, j < hs.length := fun j hj => hin j (List.mem_cons_of_mem _ hj)
    simp only [scanSplits, List.get?_eq_getElem?, hg]
    by_cases h1 : hs.getD k 0 ≥ c
    · rw [if_pos h1]
      by_cases h2 : hs.getD k 0 > c
      · rw [if_pos h2]
        obtain ⟨c2, ci2, e, hne⟩ := ih (hs.getD k 0) (some [k]) hin2 (fun hc => by cases hc)
        exact ⟨c2, ci2, e, fun _ => hne (Or.inr (by simp))⟩
      · rw [if_neg h2]
        cases ci with
        | none => exact absurd (hab rfl k (by simp)) h2
        | some l =>
          obtain ⟨c2, ci2, e, hne⟩ := ih c (some (l ++ [k])) hin2 (fun hc => by cases hc)
          exact ⟨c2, ci2, e, fun _ => hne (Or.inr (by simp))⟩
    · rw [if_neg h1]
      cases ci with
      | none => exact absurd (le_of_lt (hab rfl k (by simp))) h1
      | some l =>
        obtain ⟨c2, ci2, e, hne⟩ := ih c (some l) hin2 (fun hc => by cases hc)
        exact ⟨c2, ci2, e, fun _ => hne (Or.inr (by simp))⟩

theorem attrSlot_cases (atrbs : Option (List (Option Attributes))) (i : Nat) :
    (∃ x, attrSlot atrbs i = Except.ok x)
      ∨ (attrSlot atrbs i = Except.error Abort.undefined
          ∧ ∃ a, atrbs = some a ∧ a.length ≤ i) := by
  cases atrbs with
  | none => exact Or.inl ⟨none, rfl⟩
  | some a =>
    cases hg : a[i]? with
    | none =>
      right
      refine ⟨by simp [attrSlot, hg], a, rfl, ?_⟩
      exact List.getElem?_eq_none_iff.mp hg
    | some x =>
      left
      exact ⟨x, by simp [attrSlot, hg]⟩

/-- The loop over the split positions returns, or stops at a slot outside the vector of
attributes (`Q`), when every call of `rec` does and the sons block has room. -/
theorem expandSons_total (rec : ExpState → Nat → Nat → Except Abort (ExpState × Nat))
    (curh : ℚ) (n cap low0 hi : Nat) (Q : Prop)
    (hrec : ∀ s l h, low0 ≤ l → l ≤ h → h ≤ hi → h - l ≤ n → s.sonsUsed + 2 * (h - l) ≤ cap →
      (∃ s2 k, rec s l h = Except.ok (s2, k) ∧ k < s2.nodes.length
          ∧ s2.sonsUsed ≤ s.sonsUsed + 2 * (h - l))
        ∨ (rec s l h = Except.error Abort.undefined ∧ Q)) :
    ∀ (xs : List Nat) (st : ExpState) (low : Nat) (sons : List Nat),
      xs.Pairwise (fun a b => a < b) → (∀ x ∈ xs, low ≤ x ∧ x ≤ hi) → low0 ≤ low →
      hi + 1 - low - xs.length ≤ n → st.sonsUsed + 2 * (hi + 1 - low - xs.length) ≤ cap →
      (∃ st2 sons2, expandSons rec curh xs st low sons = Except.ok (st2, sons2))
        ∨ (expandSons rec curh xs st low sons = Except.error Abort.undefined ∧ Q) := by
  intro xs
  induction xs with
  | nil =>
    intro st low sons _ _ _ _ _
    exact Or.inl ⟨st, sons, rfl⟩
  | cons x xs ih =>
    intro st low sons hp hin hl0 hn hcap
    have hx := hin x (by simp)
    have hp2 : xs.Pairwise (fun a b => a < b) := (List.pairwise_cons.mp hp).2
    have hin2 : ∀ y ∈ xs, x + 1 ≤ y ∧ y ≤ hi := fun y hy =>
      ⟨(List.pairwise_cons.mp hp).1 y hy, (hin y (List.mem_cons_of_mem _ hy)).2⟩
    have hlen := sorted_len xs (x + 1) hi hp2 hin2
    simp only [List.length_cons] at hn hcap
    rcases hrec st low x hl0 hx.1 hx.2 (by omega) (by omega) with
      ⟨s2, k, e, hk, hs2⟩ | ⟨e, q⟩
    · obtain ⟨nk, hnk⟩ : ∃ nk, s2.nodes[k]? = some nk :=
        ⟨s2.nodes[k], List.getElem?_eq_getElem hk⟩
      simp only [expandSons, e, List.get?_eq_getElem?, hnk]
      exact ih _ (x + 1) _ hp2 hin2 (by omega) (by omega) (by simp only []; omega)
    · right
      simp only [expandSons, e]
      exact ⟨trivial, q⟩

/-- A call of `rep2treeInternal` on the tips `low` to `hi` returns when the tips are
inside `tax` and `htax`, the heights of the range inside `hs` and above -1, the depth
allowed above `hi - low`, and the scratch area left and the sons block left hold
`2(hi - low)` entries; unless a slot of the vector of attributes is outside it. -/
theorem rep2treeInternal_total (tax : List Nat) (htax hs : List ℚ)
    (atrbs : Option (List (Option Attributes))) (cap : Nat) :
    ∀ (fuel : Nat) (st : ExpState) (low hi bleft : Nat),
      low ≤ hi → hi < tax.length → hi < htax.length → hi ≤ hs.length →
      (∀ k, low ≤ k → k < hi → -1 < hs.getD k 0) →
      hi - low < fuel → 2 * (hi - low) ≤ bleft → st.sonsUsed + 2 * (hi - low) ≤ cap →
      (∃ st2 k, rep2treeInternal tax htax hs atrbs cap fuel st low hi bleft
          = Except.ok (st2, k))
        ∨ (rep2treeInternal tax htax hs atrbs cap fuel st low hi bleft
              = Except.error Abort.undefined
            ∧ ∃ a, atrbs = some a ∧ a.length < tax.length + hi) := by
  intro fuel
  induction fuel with
  | zero => intro st low hi bleft _ _ _ _ _ hf _ _; omega
  | succ fuel ih =>
    intro st low hi bleft hle ht hht hhs hpos hf hbl hcap
    by_cases hlh : low = hi
    · subst hlh
      have e1 : tax[low]? = some tax[low] := List.getElem?_eq_getElem ht
      have e2 : htax[low]? = some htax[low] := List.getElem?_eq_getElem hht
      simp only [rep2treeInternal, if_true, List.get?_eq_getElem?, e1, e2]
      rcases attrSlot_cases atrbs low with ⟨x, e⟩ | ⟨e, a, ha, hal⟩
      · left
        rw [e]
        exact ⟨_, _, rfl⟩
      · right
        rw [e]
        exact ⟨rfl, a, ha, by omega⟩
    · have hlt : low < hi := by omega
      obtain ⟨curh, ci2, hsc, hne⟩ := scanSplits_total hs (List.range' low (hi - low)) (-1) none
        (fun k hk => by have := List.mem_range'_1.mp hk; omega)
        (fun _ k hk => by
          have := List.mem_range'_1.mp hk
          exact hpos k (by omega) (by omega))
      have hne2 : ci2 ≠ none := by
        apply hne
        left
        intro hc
        have := congrArg List.length hc
        simp only [List.length_range', List.length_nil] at this
        omega
      obtain ⟨splits, rfl⟩ : ∃ splits, ci2 = some splits := by
        cases ci2 with
        | none => exact absurd rfl hne2
        | some l => exact ⟨l, rfl⟩
      obtain ⟨p1, p2, p3⟩ := scanSplits_sorted hs _ _ _ _ _ hsc
        (by simpa using List.pairwise_lt_range' low (hi - low))
        (fun l hl => by cases hl)
      have hin : ∀ x ∈ splits, low ≤ x ∧ x < hi := by
        intro x hx
        rcases p3 x hx with hx | hx
        · simp at hx
        · have := List.mem_range'_1.mp hx
          omega
      have hsl : 1 ≤ splits.length := by
        cases splits with
        | nil => exact absurd rfl p2
        | cons _ _ => simp
      have hsu : splits.length ≤ hi - low := by
        have := sorted_len splits low (hi - 1) p1 (fun y hy => by
          have := hin y hy
          omega)
        omega
      simp only [rep2treeInternal, if_neg hlh, hsc]
      rw [if_neg (show ¬ (bleft < splits.length) by omega),
        if_neg (show ¬ (bleft - splits.length = 0) by omega),
        if_neg (show ¬ (cap < st.sonsUsed + (1 + splits.length)) by omega)]
      have hpw : (splits ++ [hi]).Pairwise (fun a b => a < b) := by
        rw [List.pairwise_append]
        refine ⟨p1, by simp, ?_⟩
        intro a ha b hb
        simp only [List.mem_singleton] at hb
        subst hb
        exact (hin a ha).2
      have hlow : ∀ x ∈ splits ++ [hi], low ≤ x ∧ x ≤ hi := by
        intro x hx
        simp only [List.mem_append, List.mem_singleton] at hx
        rcases hx with hx | hx
        · have := hin x hx
          omega
        · omega
      have hrec : ∀ s l h, low ≤ l → l ≤ h → h ≤ hi → h - l ≤ hi - low - splits.length →
          s.sonsUsed + 2 * (h - l) ≤ cap →
          (∃ s2 k, rep2treeInternal tax htax hs atrbs cap fuel s l h
                (bleft - splits.length - 1) = Except.ok (s2, k) ∧ k < s2.nodes.length
              ∧ s2.sonsUsed ≤ s.sonsUsed + 2 * (h - l))
            ∨ (rep2treeInternal tax htax hs atrbs cap fuel s l h
                  (bleft - splits.length - 1) = Except.error Abort.undefined
                ∧ ∃ a, atrbs = some a ∧ a.length < tax.length + hi) := by
        intro s l h hl1 hl2 hl3 hl4 hl5
        rcases ih s l h (bleft - splits.length - 1) hl2 (by omega) (by omega) (by omega)
          (fun k hk1 hk2 => hpos k (by omega) (by omega)) (by omega) (by omega) hl5 with
          ⟨s2, k, e⟩ | ⟨e, a, ha, hal⟩
        · left
          obtain ⟨c1, c2, c3, _⟩ := rep2treeInternal_spec tax htax hs atrbs cap fuel s l h _
            s2 k hl2 e
          obtain ⟨_, _, _, _, c5⟩ := rep2treeInternal_props tax htax hs atrbs cap fuel s l h _
            s2 k hl2 e
          refine ⟨s2, k, e, ?_, by omega⟩
          rw [c1, List.length_append, XForest.lay_length]
          omega
        · right
          exact ⟨e, a, ha, by omega⟩
      rcases expandSons_total _ curh (hi - low - splits.length) cap low hi _ hrec
          (splits ++ [hi]) { st with sonsUsed := st.sonsUsed + (1 + splits.length) } low []
          hpw hlow (Nat.le_refl _)
          (by simp only [List.length_append, List.length_singleton]; omega)
          (by simp only [List.length_append, List.length_singleton]; omega) with
        ⟨st1, sons, e⟩ | ⟨e, q⟩
      · rw [e]
        simp only []
        rcases attrSlot_cases atrbs (splits.headD 0 + tax.length) with ⟨x, ea⟩ | ⟨ea, a, ha, hal⟩
        · left
          rw [ea]
          exact ⟨_, _, rfl⟩
        · right
          rw [ea]
          refine ⟨rfl, a, ha, ?_⟩
          have : splits.headD 0 < hi := by
            cases splits with
            | nil => exact absurd rfl p2
            | cons y ys => exact (hin y (by simp)).2
          omega
      · right
        rw [e]
        exact ⟨rfl, q⟩

end Biopy

namespace Biopy

/-! ## The vector of an expansion -/

theorem XForest.lay_tipHeights : ∀ (F : XForest) (base : Nat) (par : Int) (ph : Option ℚ),
    ((F.lay base par ph).filter (fun n => n.nSons = 0)).map (fun n => n.height)
      = F.tipHeights := by
  intro F
  induction F with
  | nil => intro base par ph; rfl
  | cons t h a k r ihk ihr =>
    intro base par ph
    simp only [XForest.lay, List.filter_append, List.map_append, ihk, XForest.tipHeights]
    by_cases hc : k.count = 0
    · have hk : k = XForest.nil := by
        cases k with
        | nil => rfl
        | cons _ _ _ _ _ => simp [XForest.count] at hc
      subst hk
      simp [XForest.tipHeights, XForest.count, List.filter_cons, ihr]
    · simp [List.filter_cons, hc, ihr]

theorem XForest.lay_forked : ∀ (F : XForest) (base : Nat) (par : Int) (ph : Option ℚ),
    F.Forked → ∀ n ∈ F.lay base par ph, n.nSons ≠ 1 := by
  intro F
  induction F with
  | nil => intro base par ph _ n hn; simp [XForest.lay] at hn
  | cons t h a k r ihk ihr =>
    intro base par ph hF n hn
    obtain ⟨h1, h2, h3⟩ := hF
    simp only [XForest.lay, List.mem_append, List.mem_cons] at hn
    rcases hn with hn | hn | hn
    · exact ihk _ _ _ h2 n hn
    · subst hn
      exact h1
    · exact ihr _ _ _ h3 n hn

theorem XForest.lay_sons_sum : ∀ (F : XForest) (base : Nat) (par : Int) (ph : Option ℚ),
    ((F.lay base par ph).map (fun n => n.nSons)).sum + F.count = F.size := by
  intro F
  induction F with
  | nil => intro base par ph; rfl
  | cons t h a k r ihk ihr =>
    intro base par ph
    have h1 := ihk base ((base + k.size : Nat) : Int) (some h)
    have h2 := ihr (base + k.size + 1) par ph
    simp only [XForest.lay, List.map_append, List.map_cons, List.sum_append, List.sum_cons,
      XForest.count, XForest.size]
    omega

theorem map_getD_range (l : List ℚ) :
    (List.range' 0 l.length).map (fun k => l.getD k 0) = l := by
  apply List.ext_getElem
  · simp
  · intro i h1 h2
    simp only [List.getElem_map, List.getElem_range', Nat.zero_add, Nat.one_mul,
      List.getD_eq_getElem?_getD, List.getElem?_eq_getElem h2, Option.getD_some]

theorem map_getD_range_cast (l : List Nat) :
    (List.range' 0 l.length).map (fun k => ((l.getD k 0 : Nat) : Int)) = l.map Int.ofNat := by
  apply List.ext_getElem
  · simp
  · intro i h1 h2
    have h3 : i < l.length := by simpa using h2
    simp only [List.getElem_map, List.getElem_range', Nat.zero_add, Nat.one_mul,
      List.getD_eq_getElem?_getD, List.getElem?_eq_getElem h3, Option.getD_some]
    rfl

/-- What `setup` returns is the layout of the tree `expandSpec` of the whole range of
tips, with the branch lengths and heights cleared when the tree is a cladogram. -/
theorem setup_spec (ts : TreesSet) (fuel nt : Nat) (rep : TreeRep)
    (internals : List Expanded) (hrep : ts.trees.get? nt = some rep)
    (hset : ts.setup fuel nt = Except.ok internals) :
    ∃ (F : XForest) (st : ExpState) (k : Nat),
      F = expandSpec rep.topology
          (if rep.getHeights.2.length = 0 then List.replicate rep.topology.length 0
            else rep.getHeights.2)
          rep.getHeights.1 rep.attributes fuel 0 rep.getHeights.1.length
      ∧ rep2treeInternal rep.topology
          (if rep.getHeights.2.length = 0 then List.replicate rep.topology.length 0
            else rep.getHeights.2)
          rep.getHeights.1 rep.attributes (2 * rep.topology.length) fuel (ExpState.mk [] 0)
          0 rep.getHeights.1.length (2 * rep.topology.length) = Except.ok (st, k)
      ∧ st.nodes = F.lay 0 (-1) none
      ∧ internals = (if rep.isCladogram then
          (F.lay 0 (-1) none).map (fun x => { x with branch := none, height := -1 })
        else F.lay 0 (-1) none)
      ∧ k + 1 = F.size
      ∧ st.sonsUsed + 1 = F.size
      ∧ F.count = 1
      ∧ F.tipIds = (List.range' 0 (rep.getHeights.1.length + 1)).map
          (fun k => ((rep.topology.getD k 0 : Nat) : Int))
      ∧ F.tipHeights = (List.range' 0 (rep.getHeights.1.length + 1)).map
          (fun k => (if rep.getHeights.2.length = 0 then List.replicate rep.topology.length 0
            else rep.getHeights.2).getD k 0)
      ∧ F.Forked
      ∧ F.size ≤ 2 * rep.getHeights.1.length + 1 := by
  simp only [TreesSet.setup, hrep] at hset
  cases hx : rep2treeInternal rep.topology
      (if rep.getHeights.2.length = 0 then List.replicate rep.topology.length 0
        else rep.getHeights.2)
      rep.getHeights.1 rep.attributes (2 * rep.topology.length) fuel (ExpState.mk [] 0)
      0 rep.getHeights.1.length (2 * rep.topology.length) with
  | error e => rw [hx] at hset; cases hset
  | ok q =>
    obtain ⟨st, k⟩ := q
    rw [hx] at hset
    simp only [] at hset
    obtain ⟨c1, c2, c3, _⟩ :=
      rep2treeInternal_spec _ _ _ _ _ _ _ _ _ _ _ _ (Nat.zero_le _) hx
    obtain ⟨⟨t, hh, a, kids, d0⟩, d1, d2, d3, d4⟩ :=
      rep2treeInternal_props _ _ _ _ _ _ _ _ _ _ _ _ (Nat.zero_le _) hx
    simp only [List.nil_append, List.length_nil, Nat.zero_add, Nat.sub_zero] at c1 c2 c3 d1 d2 d4
    refine ⟨_, st, k, rfl, rfl, c1, ?_, c2, c3, ?_, d1, d2, d3, d4⟩
    · by_cases hcl : rep.isCladogram = true
      · rw [if_pos hcl] at hset ⊢
        simp only [Except.ok.injEq] at hset
        rw [← hset, c1]
      · rw [if_neg hcl] at hset ⊢
        simp only [Except.ok.injEq] at hset
        rw [← hset, c1]
    · rw [d0]
      rfl

end Biopy

namespace Biopy

/-! ## The offsets of the tips that are stored -/

theorem raiseSons_tips_length (fuel nTaxa : Nat) (nodes : List ParsedTreeNode)
    (locs : List Int) (h : ℚ) : ∀ (sons : List Nat) (hs : List ℚ) (th : Option (List ℚ))
      (r : List ℚ × Option (List ℚ)),
      raiseSons fuel nTaxa nodes locs h sons hs th = Except.ok r →
      (∀ v, th = some v → v.length = nTaxa) → ∀ v, r.2 = some v → v.length = nTaxa := by
  intro sons
  induction sons with
  | nil =>
    intro hs th r hr hth
    simp only [raiseSons, Except.ok.injEq] at hr
    subst hr
    exact hth
  | cons s ss ih =>
    intro hs th r hr hth
    simp only [raiseSons] at hr
    cases hb : branchOf nodes s with
    | error e => rw [hb] at hr; cases hr
    | ok h1 =>
      rw [hb] at hr
      simp only [] at hr
      split at hr
      · cases hl : raiseLoop nodes locs (h - h1) fuel [s] hs
            (th.getD (List.replicate nTaxa 0)) with
        | error e => rw [hl] at hr; cases hr
        | ok r1 =>
          rw [hl] at hr
          refine ih _ _ _ hr ?_
          intro v hv
          simp only [Option.some.injEq] at hv
          subst hv
          rw [(raiseLoop_length _ _ _ _ _ _ _ _ hl).2]
          cases th with
          | none => simp
          | some w => simpa using hth w rfl
      · exact ih _ _ _ hr hth

theorem encodeNode_tips_length (fuel : Nat) (c : Bool) (nTaxa : Nat) (st st2 : EncState)
    (idx : Nat) (h : encodeNode fuel c nTaxa st idx = Except.ok st2)
    (hth : ∀ v, st.taxaHeights = some v → v.length = nTaxa) :
    ∀ v, st2.taxaHeights = some v → v.length = nTaxa := by
  unfold encodeNode at h
  cases hn : st.nodes.get? idx with
  | none => rw [hn] at h; cases h
  | some n =>
    rw [hn] at h
    simp only [] at h
    split at h
    · split at h
      · simp only [Except.ok.injEq] at h; subst h; exact hth
      · cases h
    · cases hm : maxBranch st.nodes n.sons (-1) with
      | error e => rw [hm] at h; cases h
      | ok hh =>
        rw [hm] at h
        simp only [] at h
        cases hr : (if c = true then Except.ok (st.heights, st.taxaHeights)
            else raiseSons fuel nTaxa st.nodes st.locs hh n.sons st.heights st.taxaHeights) with
        | error e => rw [hr] at h; cases h
        | ok r =>
          rw [hr] at h
          simp only [] at h
          have hrl : ∀ v, r.2 = some v → v.length = nTaxa := by
            split at hr
            · simp only [Except.ok.injEq] at hr; subst hr; exact hth
            · exact raiseSons_tips_length _ _ _ _ _ _ _ _ _ hr hth
          cases hs : storeHeight st.locs hh n.sons r.1 with
          | error e => rw [hs] at h; cases h
          | ok hs2 =>
            rw [hs] at h
            simp only [] at h
            split at h
            · simp only [Except.ok.injEq] at h
              subst h
              exact hrl
            · cases h

theorem encodeLoop_tips_length (fuel : Nat) (c : Bool) (nTaxa : Nat) :
    ∀ (idxs : List Nat) (st st2 : EncState),
      encodeLoop fuel c nTaxa idxs st = Except.ok st2 →
      (∀ v, st.taxaHeights = some v → v.length = nTaxa) →
      ∀ v, st2.taxaHeights = some v → v.length = nTaxa := by
  intro idxs
  induction idxs with
  | nil => intro st st2 h hth; simp only [encodeLoop, Except.ok.injEq] at h; subst h; exact hth
  | cons i is ih =>
    intro st st2 h hth
    simp only [encodeLoop] at h
    cases hn : encodeNode fuel c nTaxa st i with
    | error e => rw [hn] at h; cases h
    | ok st1 =>
      rw [hn] at h
      exact ih _ _ h (encodeNode_tips_length _ _ _ _ _ _ hn hth)

/-- The tree `add` has stored for an accepted text: it has a tip, one height fewer than
tips, and offsets for all the tips or for none. -/
theorem add_stored_tips (strtod : Str → ℚ × Nat) (fuel : Nat) (ts ts1 : TreesSet)
    (txt : Str) (kwds : Option Attributes) (i nc : Nat) (nodes : List ParsedTreeNode)
    (hr : readSubTree strtod fuel txt [] = ParseResult.ok nc nodes)
    (hadd : ts.add strtod fuel txt kwds = (ts1, AddResult.added i))
    (hstore : ts.store = false) (hwf : ts.TaxaWF)
    (hsize : ts.taxaList.length + nodes.length < 4294967296) :
    ∃ rep, ts1.trees.get? i = some rep
      ∧ 1 ≤ rep.topology.length
      ∧ rep.getHeights.1.length + 1 = rep.topology.length
      ∧ (rep.getHeights.2.length = 0 ∨ rep.getHeights.2.length = rep.topology.length) := by
  obtain ⟨rep, hrep, _, _, hget⟩ := add_stored strtod fuel ts ts1 txt kwds i nc nodes hr hadd hstore
  have hwf2 : TreesSet.TaxaWF { ts with treesAttributes := ts.treesAttributes ++ [kwds] } :=
    fun l k h => hwf l k h
  obtain ⟨htopo, _, hlen, hhl⟩ := nodes2rep_leaf_ids strtod fuel fuel txt nc nodes
    { ts with treesAttributes := ts.treesAttributes ++ [kwds] } rep hr hwf2 hsize hrep
  obtain ⟨h0, st, henc, _, hcla, hphy⟩ := nodes2rep_ok_inv _ fuel nodes rep hrep
  obtain ⟨_, h2, _, _, _⟩ := scan_foldl nodes
    (ScanState.mk { ts with treesAttributes := ts.treesAttributes ++ [kwds] } [] true false 0)
  simp only [List.nil_append] at h2
  have e2 : (scanAll { ts with treesAttributes := ts.treesAttributes ++ [kwds] } nodes).taxa
      = (internAll { ts with treesAttributes := ts.treesAttributes ++ [kwds] }
          (leafLabels nodes)).2 := h2
  have e3 : (scanAll { ts with treesAttributes := ts.treesAttributes ++ [kwds] } nodes).taxa
      = rep.topology := by
    rw [e2, htopo]
    rfl
  have hpos : 1 ≤ rep.topology.length := by
    rw [← e3]
    omega
  have htips : rep.getHeights.2.length = 0 ∨ rep.getHeights.2.length = rep.topology.length := by
    cases hc : (scanAll { ts with treesAttributes := ts.treesAttributes ++ [kwds] }
        nodes).cladogram with
    | true =>
      obtain ⟨hsb, _, hh⟩ := hcla hc
      left
      unfold TreeRep.getHeights
      rw [hh]
      rfl
    | false =>
      have hh := hphy hc
      have hl := encodeLoop_tips_length fuel _ _ _ _ _ henc (fun v hv => by
        simp [encStart] at hv)
      unfold TreeRep.getHeights
      rw [hh]
      cases hv : st.taxaHeights with
      | none => left; rfl
      | some v =>
        right
        simp only [Option.getD_some]
        rw [hl v hv, e3]
  rw [← hlen] at hhl
  exact ⟨rep, hget, hpos, by omega, htips⟩

end Biopy

namespace Biopy

/-! ## The node a range of tips expands to -/

theorem expandSpec_single (tax : List Nat) (htax hs : List ℚ)
    (atrbs : Option (List (Option Attributes))) (fuel low hi : Nat) :
    ∃ t hh a kids, expandSpec tax htax hs atrbs (fuel + 1) low hi
      = XForest.cons t hh a kids XForest.nil := by
  by_cases h : low = hi
  · simp only [expandSpec, if_pos h]
    exact ⟨_, _, _, _, rfl⟩
  · simp only [expandSpec, if_neg h]
    exact ⟨_, _, _, _, rfl⟩

theorem expandKids_count (G : Nat → Nat → XForest)
    (hG : ∀ l x, ∃ t hh a kids, G l x = XForest.cons t hh a kids XForest.nil) :
    ∀ (xs : List Nat) (low : Nat), (expandKids G xs low).count = xs.length := by
  intro xs
  induction xs with
  | nil => intro low; rfl
  | cons x xs ih =>
    intro low
    obtain ⟨t, hh, a, kids, e⟩ := hG low x
    show ((G low x).append (expandKids G xs (x + 1))).count = _
    rw [e, XForest.single_append]
    simp only [XForest.count, List.length_cons, ih]
    omega

theorem maxPositions_mem (hs : List ℚ) (low hi j : Nat) :
    j ∈ maxPositions hs low hi ↔ low ≤ j ∧ j < hi ∧ hs.getD j 0 = rangeMax hs low hi := by
  unfold maxPositions
  simp only [List.mem_filter, List.mem_range'_1, decide_eq_true_eq]
  constructor
  · rintro ⟨⟨h1, h2⟩, h3⟩
    exact ⟨h1, by omega, h3⟩
  · rintro ⟨h1, h2, h3⟩
    exact ⟨⟨h1, by omega⟩, h3⟩

theorem maxPositions_sorted (hs : List ℚ) (low hi : Nat) :
    (maxPositions hs low hi).Pairwise (fun a b => a < b) := by
  unfold maxPositions
  exact List.Pairwise.filter _ (by simpa using List.pairwise_lt_range' low (hi - low))

/-- C33 (counterexample): the text `(A:-3,B:-2)`, its numbers read with their signs, is
stored as the tips 0 and 1 with the one height -1.  The call of `rep2treeInternal` on the
range 0 < 1 creates no node: the scan starts at `curh = -1`, so a height -1 is stored
through the null `curi`, and the expansion of the tree ends there. -/
theorem expand_range_at_sentinel_height :
    (TreesSet.add strtodSigned 9 (TreesSet.new false 4 false) "(A:-3,B:-2)".toList none).1.trees.map
        (fun r => (r.topology, r.getHeights)) = [([0, 1], ([-1], [2, 1]))]
      ∧ scanSplits [-1] [0] (-1) none = Except.error Abort.undefined
      ∧ rep2treeInternal [0, 1] [2, 1] [-1] none 4 9 (ExpState.mk [] 0) 0 1 4
          = Except.error Abort.undefined
      ∧ (TreesSet.add strtodSigned 9 (TreesSet.new false 4 false) "(A:-3,B:-2)".toList
          none).1.setup 9 0 = Except.error Abort.undefined := by
  decide!

/-- C33 (amended): for every range `low < hi` of tips whose heights `hs[low..hi)` are all
above -1, as all heights that are not negative are, the call of `rep2treeInternal` on the
range returns (the tips being inside `tax` and `htax`, the heights inside `hs`, the
scratch area and the sons block holding `2(hi - low)` more entries, the vector of
attributes, if there is one, holding `tax.size() + hi` slots, and the depth allowed being
`hi - low` at least).  The nodes it has appended are the layout of the tree `expandSpec`
of the range: the last of them, whose index is returned, is a node without a taxon at the
height `H = rangeMax`, the largest of `hs[low..hi)`, and its sons are, from left to
right, the roots of the expansions of the ranges `[low, P0]`, `[P0+1, P1]`, ...,
`[P(m-1)+1, hi]`, where `P0 < P1 < ...` are all the positions of `low..hi-1` with the
height `H`: `m` positions give `m + 1` sons. -/
theorem expand_range_forks_at_maxima (tax : List Nat) (htax hs : List ℚ)
    (atrbs : Option (List (Option Attributes))) (cap fuel : Nat) (st : ExpState)
    (low hi bleft : Nat)
    (hlt : low < hi) (ht : hi < tax.length) (hht : hi < htax.length) (hhs : hi ≤ hs.length)
    (hpos : ∀ k, low ≤ k → k < hi → -1 < hs.getD k 0)
    (hf : hi - low ≤ fuel) (hbl : 2 * (hi - low) ≤ bleft)
    (hcap : st.sonsUsed + 2 * (hi - low) ≤ cap)
    (hat : ∀ a, atrbs = some a → tax.length + hi ≤ a.length) :
    ∃ (st2 : ExpState) (k : Nat) (atr : Option Attributes),
      rep2treeInternal tax htax hs atrbs cap (fuel + 1) st low hi bleft = Except.ok (st2, k)
      ∧ expandSpec tax htax hs atrbs (fuel + 1) low hi
          = XForest.cons (-1) (rangeMax hs low hi) atr
              (expandKids (expandSpec tax htax hs atrbs fuel) (maxPositions hs low hi ++ [hi])
                low) XForest.nil
      ∧ st2.nodes = st.nodes
          ++ (expandSpec tax htax hs atrbs (fuel + 1) low hi).lay st.nodes.length (-1) none
      ∧ k + 1 = st2.nodes.length
      ∧ st2.nodes[k]? = some (Expanded.mk (-1) ((maxPositions hs low hi).length + 1)
          ((expandKids (expandSpec tax htax hs atrbs fuel) (maxPositions hs low hi ++ [hi])
            low).roots st.nodes.length) none (rangeMax hs low hi) (-1) atr)
      ∧ (expandKids (expandSpec tax htax hs atrbs fuel) (maxPositions hs low hi ++ [hi])
          low).count = (maxPositions hs low hi).length + 1
      ∧ (∀ j, j ∈ maxPositions hs low hi
          ↔ low ≤ j ∧ j < hi ∧ hs.getD j 0 = rangeMax hs low hi)
      ∧ (maxPositions hs low hi).Pairwise (fun a b => a < b)
      ∧ (∃ j, low ≤ j ∧ j < hi ∧ hs.getD j 0 = rangeMax hs low hi)
      ∧ ∀ j, low ≤ j → j < hi → hs.getD j 0 ≤ rangeMax hs low hi := by
  have hne : low ≠ hi := by omega
  obtain ⟨m1, m2⟩ := rangeMax_mem hs low hi hlt
  rcases rep2treeInternal_total tax htax hs atrbs cap (fuel + 1) st low hi bleft
      (by omega) ht hht hhs hpos (by omega) hbl hcap with ⟨st2, k, e⟩ | ⟨_, a, ha, hal⟩
  · obtain ⟨c1, c2, _, _⟩ := rep2treeInternal_spec tax htax hs atrbs cap (fuel + 1) st low hi
      bleft st2 k (by omega) e
    have hfuel : ∃ f, fuel = f + 1 := ⟨fuel - 1, by omega⟩
    obtain ⟨f, hfe⟩ := hfuel
    have hcount : (expandKids (expandSpec tax htax hs atrbs fuel)
        (maxPositions hs low hi ++ [hi]) low).count = (maxPositions hs low hi).length + 1 := by
      rw [expandKids_count _ (fun l x => by
        rw [hfe]
        exact expandSpec_single tax htax hs atrbs f l x)]
      simp
    have hE : expandSpec tax htax hs atrbs (fuel + 1) low hi
        = XForest.cons (-1) (rangeMax hs low hi)
            (atrbs.bind (fun a => a.getD ((maxPositions hs low hi).headD 0 + tax.length) none))
            (expandKids (expandSpec tax htax hs atrbs fuel) (maxPositions hs low hi ++ [hi])
              low) XForest.nil := by
      simp only [expandSpec, if_neg hne]
    refine ⟨st2, k, _, e, hE, c1, ?_, ?_, hcount, maxPositions_mem hs low hi,
      maxPositions_sorted hs low hi, m1, m2⟩
    · rw [c1, List.length_append, XForest.lay_length]
      omega
    · rw [hE] at c1 c2
      generalize expandKids (expandSpec tax htax hs atrbs fuel)
        (maxPositions hs low hi ++ [hi]) low = K at c1 c2 hcount
      simp only [XForest.size, Nat.add_zero] at c2
      have hk : k = (st.nodes ++ K.lay st.nodes.length
          ((st.nodes.length + K.size : Nat) : Int) (some (rangeMax hs low hi))).length := by
        rw [List.length_append, XForest.lay_length]
        omega
      rw [c1]
      simp only [XForest.lay, Option.map_none', ← List.append_assoc]
      rw [hk, List.getElem?_append_right (Nat.le_refl _), hcount]
      simp
  · exact absurd (hat a ha) (by omega)

theorem expand_range_forks_at_maxima_witness :
    maxPositions [1, 1, 2] 0 2 = [0, 1] ∧ rangeMax [1, 1, 2] 0 2 = 1
      ∧ rep2treeInternal [0, 1, 2, 3] [0, 0, 0, 1] [1, 1, 2] none 8 (3 + 1) (ExpState.mk [] 0)
          0 2 8
        = Except.ok (ExpState.mk [Expanded.mk 0 0 [] (some 1) 0 3 none,
            Expanded.mk 1 0 [] (some 1) 0 3 none, Expanded.mk 2 0 [] (some 1) 0 3 none,
            Expanded.mk (-1) 3 [0, 1, 2] none 1 (-1) none] 3, 3)
      ∧ ∃ (st2 : ExpState) (k : Nat) (atr : Option Attributes),
        rep2treeInternal [0, 1, 2, 3] [0, 0, 0, 1] [1, 1, 2] none 8 (3 + 1) (ExpState.mk [] 0)
            0 2 8 = Except.ok (st2, k)
        ∧ expandSpec [0, 1, 2, 3] [0, 0, 0, 1] [1, 1, 2] none (3 + 1) 0 2
            = XForest.cons (-1) (rangeMax [1, 1, 2] 0 2) atr
                (expandKids (expandSpec [0, 1, 2, 3] [0, 0, 0, 1] [1, 1, 2] none 3)
                  (maxPositions [1, 1, 2] 0 2 ++ [2]) 0) XForest.nil
        ∧ st2.nodes = (ExpState.mk [] 0).nodes
            ++ (expandSpec [0, 1, 2, 3] [0, 0, 0, 1] [1, 1, 2] none (3 + 1) 0 2).lay
                (ExpState.mk [] 0).nodes.length (-1) none
        ∧ k + 1 = st2.nodes.length
        ∧ st2.nodes[k]? = some (Expanded.mk (-1) ((maxPositions [1, 1, 2] 0 2).length + 1)
            ((expandKids (expandSpec [0, 1, 2, 3] [0, 0, 0, 1] [1, 1, 2] none 3)
              (maxPositions [1, 1, 2] 0 2 ++ [2]) 0).roots (ExpState.mk [] 0).nodes.length)
            none (rangeMax [1, 1, 2] 0 2) (-1) atr)
        ∧ (expandKids (expandSpec [0, 1, 2, 3] [0, 0, 0, 1] [1, 1, 2] none 3)
            (maxPositions [1, 1, 2] 0 2 ++ [2]) 0).count
            = (maxPositions [1, 1, 2] 0 2).length + 1
        ∧ (∀ j, j ∈ maxPositions [1, 1, 2] 0 2
            ↔ 0 ≤ j ∧ j < 2 ∧ ([1, 1, 2] : List ℚ).getD j 0 = rangeMax [1, 1, 2] 0 2)
        ∧ (maxPositions [1, 1, 2] 0 2).Pairwise (fun a b => a < b)
        ∧ (∃ j, 0 ≤ j ∧ j < 2 ∧ ([1, 1, 2] : List ℚ).getD j 0 = rangeMax [1, 1, 2] 0 2)
        ∧ ∀ j, 0 ≤ j → j < 2 → ([1, 1, 2] : List ℚ).getD j 0 ≤ rangeMax [1, 1, 2] 0 2 :=
  ⟨by decide!, by decide!, by decide!,
    expand_range_forks_at_maxima [0, 1, 2, 3] [0, 0, 0, 1] [1, 1, 2] none 8 3
      (ExpState.mk [] 0) 0 2 8 (by decide) (by decide) (by decide) (by decide)
      (fun k _ h2 => by
        have hk : k = 0 ∨ k = 1 := by omega
        rcases hk with rfl | rfl <;> decide!)
      (by decide) (by decide) (by decide) (fun a h => by cases h)⟩

end Biopy

namespace Biopy

/-! ## The expansion of a stored tree -/

/-- The expansion of a tree of `N` tips with `N - 1` heights that are not negative
returns when the depth allowed is `N`, unless a slot of the vector of attributes is
outside it. -/
theorem setup_total (ts : TreesSet) (fuel nt : Nat) (rep : TreeRep)
    (hrep : ts.trees.get? nt = some rep)
    (hN : rep.getHeights.1.length + 1 = rep.topology.length)
    (htx : rep.getHeights.2.length = 0 ∨ rep.getHeights.2.length = rep.topology.length)
    (hnn : ∀ h ∈ rep.getHeights.1, 0 ≤ h)
    (hf : rep.topology.length ≤ fuel) :
    (∃ internals, ts.setup fuel nt = Except.ok internals)
      ∨ (ts.setup fuel nt = Except.error Abort.undefined
          ∧ ∃ a, rep.attributes = some a ∧ a.length < 2 * rep.topology.length - 1) := by
  have hlen : (if rep.getHeights.2.length = 0 then List.replicate rep.topology.length (0 : ℚ)
      else rep.getHeights.2).length = rep.topology.length := by
    by_cases h0 : rep.getHeights.2.length = 0
    · rw [if_pos h0, List.length_replicate]
    · rw [if_neg h0]
      rcases htx with h | h
      · exact absurd h h0
      · exact h
  have hpos : ∀ k, 0 ≤ k → k < rep.getHeights.1.length → -1 < rep.getHeights.1.getD k 0 := by
    intro k _ hk
    have hm : rep.getHeights.1.getD k 0 ∈ rep.getHeights.1 := by
      rw [List.getD_eq_getElem?_getD, List.getElem?_eq_getElem hk]
      exact List.getElem_mem hk
    have := hnn _ hm
    linarith
  rcases rep2treeInternal_total rep.topology
      (if rep.getHeights.2.length = 0 then List.replicate rep.topology.length 0
        else rep.getHeights.2)
      rep.getHeights.1 rep.attributes (2 * rep.topology.length) fuel (ExpState.mk [] 0)
      0 rep.getHeights.1.length (2 * rep.topology.length)
      (Nat.zero_le _) (by omega) (by rw [hlen]; omega) (Nat.le_refl _) hpos (by omega)
      (by omega) (by simp only []; omega) with ⟨st, k, e⟩ | ⟨e, a, ha, hal⟩
  · left
    simp only [TreesSet.setup, hrep]
    rw [e]
    by_cases hcl : rep.isCladogram = true
    · simp only [hcl, if_true]
      exact ⟨_, rfl⟩
    · simp only [hcl]
      exact ⟨_, rfl⟩
  · right
    refine ⟨?_, a, ha, by omega⟩
    simp only [TreesSet.setup, hrep]
    rw [e]

/-- C35: for every representation with `N` tips, `N - 1` heights none of which is
negative, and offsets for all the tips or for none, the expansion by `setup` (with the
depth `N` allowed) never ends at one of the two assertions on the scratch area left,
`nSplits <= bleft` and `bleft > 0`: the split positions in use at a call are the `2N`
entries less `bleft`, and the assertions are the checks that those of the call fit.  The
expansion returns when the vector of attributes, if there is one, has `2N - 1` slots,
and otherwise ends at a slot outside that vector.  When the call of `rep2treeInternal`
returns, the entries of the sons block in use are at most `2N - 2`, and they are as many
as the sons of all nodes. -/
theorem expansion_within_buffers (ts : TreesSet) (fuel nt : Nat) (rep : TreeRep)
    (hrep : ts.trees.get? nt = some rep)
    (hN : rep.getHeights.1.length + 1 = rep.topology.length)
    (htx : rep.getHeights.2.length = 0 ∨ rep.getHeights.2.length = rep.topology.length)
    (hnn : ∀ h ∈ rep.getHeights.1, 0 ≤ h)
    (hf : rep.topology.length ≤ fuel) :
    ts.setup fuel nt ≠ Except.error Abort.assertFailed
      ∧ ts.setup fuel nt ≠ Except.error Abort.timeout
      ∧ ((∀ a, rep.attributes = some a → 2 * rep.topology.length - 1 ≤ a.length) →
          ∃ internals, ts.setup fuel nt = Except.ok internals)
      ∧ (∀ st k, rep2treeInternal rep.topology
            (if rep.getHeights.2.length = 0 then List.replicate rep.topology.length 0
              else rep.getHeights.2)
            rep.getHeights.1 rep.attributes (2 * rep.topology.length) fuel (ExpState.mk [] 0)
            0 rep.getHeights.1.length (2 * rep.topology.length) = Except.ok (st, k) →
          st.sonsUsed ≤ 2 * rep.topology.length - 2
            ∧ (st.nodes.map (fun n => n.nSons)).sum = st.sonsUsed)
      ∧ ∀ internals, ts.setup fuel nt = Except.ok internals →
          (internals.map (fun n => n.nSons)).sum ≤ 2 * rep.topology.length - 2 := by
  have htot := setup_total ts fuel nt rep hrep hN htx hnn hf
  have key : ∀ internals, ts.setup fuel nt = Except.ok internals →
      ∃ (F : XForest) (st : ExpState) (k : Nat),
        rep2treeInternal rep.topology
            (if rep.getHeights.2.length = 0 then List.replicate rep.topology.length 0
              else rep.getHeights.2)
            rep.getHeights.1 rep.attributes (2 * rep.topology.length) fuel (ExpState.mk [] 0)
            0 rep.getHeights.1.length (2 * rep.topology.length) = Except.ok (st, k)
        ∧ (internals.map (fun n => n.nSons)).sum = (st.nodes.map (fun n => n.nSons)).sum
        ∧ st.sonsUsed ≤ 2 * rep.topology.length - 2
        ∧ (st.nodes.map (fun n => n.nSons)).sum = st.sonsUsed := by
    intro internals hset
    obtain ⟨F, st, k, _, e, c1, c2, _, c4, c5, _, _, _, c9⟩ :=
      setup_spec ts fuel nt rep internals hrep hset
    have hsum := XForest.lay_sons_sum F 0 (-1) none
    refine ⟨F, st, k, e, ?_, by omega, by rw [c1]; omega⟩
    rw [c2, c1]
    by_cases hcl : rep.isCladogram = true
    · rw [if_pos hcl, List.map_map]
      rfl
    · rw [if_neg hcl]
  refine ⟨?_, ?_, ?_, ?_, ?_⟩
  · rcases htot with ⟨x, e⟩ | ⟨e, _⟩
    · rw [e]; intro h; cases h
    · rw [e]; intro h; cases h
  · rcases htot with ⟨x, e⟩ | ⟨e, _⟩
    · rw [e]; intro h; cases h
    · rw [e]; intro h; cases h
  · intro hat
    rcases htot with h | ⟨_, a, ha, hal⟩
    · exact h
    · exact absurd (hat a ha) (by omega)
  · intro st k e
    rcases htot with ⟨x, hx⟩ | ⟨hx, _⟩
    · obtain ⟨F, st1, k1, e1, _, b1, b2⟩ := key x hx
      rw [e] at e1
      simp only [Except.ok.injEq, Prod.mk.injEq] at e1
      obtain ⟨e2, _⟩ := e1
      subst e2
      exact ⟨b1, b2⟩
    · simp only [TreesSet.setup, hrep] at hx
      rw [e] at hx
      simp only [] at hx
      split at hx <;> cases hx
  · intro internals hset
    obtain ⟨F, st1, k1, e1, b0, b1, b2⟩ := key internals hset
    omega

theorem expansion_within_buffers_witness :
    setThreeTips.trees.get? 0 = some repThreeTips
      ∧ repThreeTips.topology = [0, 1, 2] ∧ repThreeTips.getHeights = ([1, 2], [])
      ∧ (setThreeTips.setup 9 0).map (fun l => l.map (fun n => n.sons))
          = Except.ok [[], [], [0, 1], [], [2, 3]]
      ∧ setThreeTips.setup 9 0 ≠ Except.error Abort.assertFailed
      ∧ setThreeTips.setup 9 0 ≠ Except.error Abort.timeout
      ∧ ((∀ a, repThreeTips.attributes = some a → 2 * repThreeTips.topology.length - 1 ≤ a.length) →
          ∃ internals, setThreeTips.setup 9 0 = Except.ok internals)
      ∧ (∀ st k, rep2treeInternal repThreeTips.topology
            (if repThreeTips.getHeights.2.length = 0
              then List.replicate repThreeTips.topology.length 0
              else repThreeTips.getHeights.2)
            repThreeTips.getHeights.1 repThreeTips.attributes (2 * repThreeTips.topology.length)
            9 (ExpState.mk [] 0) 0 repThreeTips.getHeights.1.length
            (2 * repThreeTips.topology.length) = Except.ok (st, k) →
          st.sonsUsed ≤ 2 * repThreeTips.topology.length - 2
            ∧ (st.nodes.map (fun n => n.nSons)).sum = st.sonsUsed)
      ∧ ∀ internals, setThreeTips.setup 9 0 = Except.ok internals →
          (internals.map (fun n => n.nSons)).sum ≤ 2 * repThreeTips.topology.length - 2 :=
  ⟨by decide!, by decide!, by decide!, by decide!,
    expansion_within_buffers setThreeTips 9 0 repThreeTips (by decide!) (by decide!)
      (by decide!) (by decide!) (by decide!)⟩

/-- C39: for every tree `T` of `N` tips that `add` stores (in a set that keeps
representations, the dictionary agreeing with the list of taxa, ids fitting 32 bits),
whenever `setup` expands the tree, the nodes of the expansion without sons are, in the
order of their indices, `N` in number, the `i`-th of them has the taxon `T.topology[i]`
and, for a phylogram, the height `tip_heights[i]` (0 when no offsets of the tips are
stored); and every node with sons has two sons at least.  And `setup` does expand the
tree when no stored height is negative, the vector of attributes, if there is one, has
`2N - 1` slots, and the depth allowed is `N`. -/
theorem expansion_leaves_and_forks (strtod : Str → ℚ × Nat) (fuel : Nat) (ts ts1 : TreesSet)
    (txt : Str) (kwds : Option Attributes) (i nc : Nat) (nodes : List ParsedTreeNode)
    (hr : readSubTree strtod fuel txt [] = ParseResult.ok nc nodes)
    (hadd : ts.add strtod fuel txt kwds = (ts1, AddResult.added i))
    (hstore : ts.store = false) (hwf : ts.TaxaWF)
    (hsize : ts.taxaList.length + nodes.length < 4294967296) :
    ∃ rep, ts1.trees.get? i = some rep
      ∧ rep.getHeights.1.length + 1 = rep.topology.length
      ∧ (rep.getHeights.2.length = 0 ∨ rep.getHeights.2.length = rep.topology.length)
      ∧ (∀ (f : Nat) (internals : List Expanded), ts1.setup f i = Except.ok internals →
          (internals.filter (fun n => n.nSons = 0)).length = rep.topology.length
          ∧ (internals.filter (fun n => n.nSons = 0)).map (fun n => n.itax)
              = rep.topology.map Int.ofNat
          ∧ (rep.isCladogram = false →
              (internals.filter (fun n => n.nSons = 0)).map (fun n => n.height)
                = if rep.getHeights.2.length = 0 then List.replicate rep.topology.length 0
                  else rep.getHeights.2)
          ∧ ∀ n ∈ internals, n.nSons ≠ 0 → 2 ≤ n.nSons ∧ n.sons.length = n.nSons)
      ∧ ∀ (f : Nat), (∀ h ∈ rep.getHeights.1, 0 ≤ h) →
          (∀ a, rep.attributes = some a → 2 * rep.topology.length - 1 ≤ a.length) →
          rep.topology.length ≤ f → ∃ internals, ts1.setup f i = Except.ok internals := by
  obtain ⟨rep, hget, _, hlen, htx⟩ :=
    add_stored_tips strtod fuel ts ts1 txt kwds i nc nodes hr hadd hstore hwf hsize
  refine ⟨rep, hget, hlen, htx, ?_, ?_⟩
  · intro f internals hset
    obtain ⟨F, st, k, _, _, _, c2, _, _, _, c6, c7, c8, _⟩ :=
      setup_spec ts1 f i rep internals hget hset
    rw [hlen, map_getD_range_cast] at c6
    have hl2 : (if rep.getHeights.2.length = 0 then List.replicate rep.topology.length (0 : ℚ)
        else rep.getHeights.2).length = rep.topology.length := by
      by_cases h0 : rep.getHeights.2.length = 0
      · rw [if_pos h0, List.length_replicate]
      · rw [if_neg h0]
        rcases htx with h | h
        · exact absurd h h0
        · exact h
    have hm := map_getD_range (if rep.getHeights.2.length = 0
      then List.replicate rep.topology.length (0 : ℚ) else rep.getHeights.2)
    rw [hl2] at hm
    rw [hlen, hm] at c7
    have e1 := XForest.lay_tips F 0 (-1) none
    have e2 := XForest.lay_tipHeights F 0 (-1) none
    have e3 := XForest.lay_forked F 0 (-1) none c8
    obtain ⟨_, hlinks⟩ := setup_links ts1 f i internals hset
    have htaxa : (internals.filter (fun n => n.nSons = 0)).map (fun n => n.itax)
        = rep.topology.map Int.ofNat := by
      rw [← c6, ← e1, c2]
      by_cases hcl : rep.isCladogram = true
      · rw [if_pos hcl]
        simp only [List.filter_map, List.map_map]
        rfl
      · rw [if_neg hcl]
    have hforks : ∀ n ∈ internals, n.nSons ≠ 1 := by
      intro n hn
      rw [c2] at hn
      by_cases hcl : rep.isCladogram = true
      · rw [if_pos hcl] at hn
        simp only [List.mem_map] at hn
        obtain ⟨m, hm, rfl⟩ := hn
        exact e3 m hm
      · rw [if_neg hcl] at hn
        exact e3 n hn
    refine ⟨?_, htaxa, ?_, ?_⟩
    · have := congrArg List.length htaxa
      simpa using this
    · intro hph
      rw [← c7, ← e2, c2, if_neg (by rw [hph]; exact Bool.false_ne_true)]
    · intro n hn hs
      have h1 := hforks n hn
      obtain ⟨j, hj⟩ := List.mem_iff_getElem?.mp hn
      obtain ⟨l1, _, _⟩ := hlinks j n hj
      exact ⟨by omega, l1.symm⟩
  · intro f hnn hat hf
    rcases setup_total ts1 f i rep hget hlen htx hnn hf with h | ⟨_, a, ha, hal⟩
    · exact h
    · exact absurd (hat a ha) (by omega)

theorem expansion_leaves_and_forks_witness :
    readSubTree strtodDigits 9 "((A,B,C):1,D:1);".toList [] =
        ParseResult.ok 15 [ParsedTreeNode.mk ['A'] none [] none,
          ParsedTreeNode.mk ['B'] none [] none, ParsedTreeNode.mk ['C'] none [] none,
          ParsedTreeNode.mk [] (some 1) [0, 1, 2] none, ParsedTreeNode.mk ['D'] (some 1) [] none,
          ParsedTreeNode.mk [] none [3, 4] none]
      ∧ ((TreesSet.add strtodDigits 9 (TreesSet.new false 4 false) "((A,B,C):1,D:1);".toList
            none).1.trees.map (fun r => (r.topology, r.getHeights)))
          = [([0, 1, 2, 3], ([1, 1, 2], [0, 0, 0, 1]))]
      ∧ ((TreesSet.add strtodDigits 9 (TreesSet.new false 4 false) "((A,B,C):1,D:1);".toList
            none).1.setup 9 0).map (fun l => l.map (fun n => (n.itax, n.sons, n.height)))
          = Except.ok [(0, [], 0), (1, [], 0), (2, [], 0), (-1, [0, 1, 2], 1), (3, [], 1),
              (-1, [3, 4], 2)]
      ∧ ∃ rep,
          (TreesSet.add strtodDigits 9 (TreesSet.new false 4 false) "((A,B,C):1,D:1);".toList
            none).1.trees.get? 0 = some rep
          ∧ rep.getHeights.1.length + 1 = rep.topology.length
          ∧ (rep.getHeights.2.length = 0 ∨ rep.getHeights.2.length = rep.topology.length)
          ∧ (∀ (f : Nat) (internals : List Expanded),
              (TreesSet.add strtodDigits 9 (TreesSet.new false 4 false)
                "((A,B,C):1,D:1);".toList none).1.setup f 0 = Except.ok internals →
              (internals.filter (fun n => n.nSons = 0)).length = rep.topology.length
              ∧ (internals.filter (fun n => n.nSons = 0)).map (fun n => n.itax)
                  = rep.topology.map Int.ofNat
              ∧ (rep.isCladogram = false →
                  (internals.filter (fun n => n.nSons = 0)).map (fun n => n.height)
                    = if rep.getHeights.2.length = 0 then List.replicate rep.topology.length 0
                      else rep.getHeights.2)
              ∧ ∀ n ∈ internals, n.nSons ≠ 0 → 2 ≤ n.nSons ∧ n.sons.length = n.nSons)
          ∧ ∀ (f : Nat), (∀ h ∈ rep.getHeights.1, 0 ≤ h) →
              (∀ a, rep.attributes = some a → 2 * rep.topology.length - 1 ≤ a.length) →
              rep.topology.length ≤ f →
              ∃ internals, (TreesSet.add strtodDigits 9 (TreesSet.new false 4 false)
                "((A,B,C):1,D:1);".toList none).1.setup f 0 = Except.ok internals :=
  ⟨by decide!, by decide!, by decide!,
    expansion_leaves_and_forks strtodDigits 9 (TreesSet.new false 4 false) _
      "((A,B,C):1,D:1);".toList none 0 15
      [ParsedTreeNode.mk ['A'] none [] none,
        ParsedTreeNode.mk ['B'] none [] none, ParsedTreeNode.mk ['C'] none [] none,
        ParsedTreeNode.mk [] (some 1) [0, 1, 2] none, ParsedTreeNode.mk ['D'] (some 1) [] none,
        ParsedTreeNode.mk [] none [3, 4] none]
      (by decide!) (by decide!) rfl (taxaWF_new false 4 false) (by decide)⟩

end Biopy

namespace Biopy

/-! ## Setting a branch length in `double` -/

theorem adjustHeightFl_exact (d : TreeNodeDataObject) (dif : ℚ) :
    d.adjustHeightFl (fun x => x) dif = d.adjustHeight dif := by
  unfold TreeNodeDataObject.adjustHeightFl TreeNodeDataObject.adjustHeight
  cases d.height <;> rfl

theorem adjustAllFl_exact (ts : TreesSet) (dif : ℚ) : ∀ (ns : List Nat) (t : TreeObject)
    (m : Option ℚ),
    TreeObject.adjustAllFl (fun x => x) ts dif ns t m = TreeObject.adjustAll ts dif ns t m := by
  intro ns
  induction ns with
  | nil => intro t m; rfl
  | cons n ns ih =>
    intro t m
    simp only [TreeObject.adjustAllFl, TreeObject.adjustAll, adjustHeightFl_exact, ih]

/-- With no rounding, `setBranchFl` is `setBranch`. -/
theorem setBranchFl_exact (ts : TreesSet) (fuel : Nat) (t : TreeObject) (id : Nat) (len : ℚ) :
    TreeObject.setBranchFl (fun x => x) ts fuel t id len = TreeObject.setBranch ts fuel t id len := by
  simp only [TreeObject.setBranchFl, TreeObject.setBranch, adjustAllFl_exact]

/-- C30 (counterexample): the tree object of `((A:1,B:1):1,C:2)` has the heights 0, 0, 1,
0, 2 and the metric invariant.  The call `set_branch(2, 0.1)`, with the arithmetic of
`double`, takes `dif = 0.1 - 1` and adds `-dif` to the heights of the nodes 0, 1 and 2:
the node 2 comes to 1.9 and the tip `A` to 0.9, each the nearest `double`, and
`height(node 2) - height(A)` is `1 - 2^-53`, while the branch length of `A` is still 1.
The invariant is lost, for `A` and for the node 2 itself, whose parent is at 2. -/
theorem set_branch_rounds_metric_off :
    roundDouble (1 / 10) = 3602879701896397 / 36028797018963968
      ∧ (List.range 5).map (fun k => (treeThreeTips.view setThreeTips k).map
          (fun n => (n.data.height, n.data.branchlength, n.prev)))
        = [some (some 0, some 1, some 2), some (some 0, some 1, some 2),
            some (some 1, some 1, some 4), some (some 0, some 2, some 4),
            some (some 2, none, some 4294967295)]
      ∧ (TreeObject.setBranchFl roundDouble setThreeTips 9 treeThreeTips 2
            (roundDouble (1 / 10))).map
          (fun t => (List.range 5).map (fun k => (t.view setThreeTips k).map
            (fun n => (n.data.height, n.data.branchlength, n.prev))))
        = Except.ok [some (some (8106479329266893 / 9007199254740992), some 1, some 2),
            some (some (8106479329266893 / 9007199254740992), some 1, some 2),
            some (some (4278419646001971 / 2251799813685248),
              some (3602879701896397 / 36028797018963968), some 4),
            some (some 0, some 2, some 4), some (some 2, none, some 4294967295)]
      ∧ (4278419646001971 / 2251799813685248 - 8106479329266893 / 9007199254740992 : ℚ)
          = 1 - 1 / 2 ^ 53
      ∧ (2 - 4278419646001971 / 2251799813685248 : ℚ)
          ≠ 3602879701896397 / 36028797018963968
      ∧ ∀ t1, TreeObject.setBranchFl roundDouble setThreeTips 9 treeThreeTips 2
            (roundDouble (1 / 10)) = Except.ok t1 → ¬ t1.Metric setThreeTips := by
  refine ⟨by decide!, by decide!, by decide!, by norm_num, by norm_num, ?_⟩
  intro t1 h hM
  have hv0 : (TreeObject.setBranchFl roundDouble setThreeTips 9 treeThreeTips 2
      (roundDouble (1 / 10))).map (fun t => (t.view setThreeTips 0, t.view setThreeTips 2,
        getRootID t.internals))
      = Except.ok (some (TreeNodeObject.mk (some 2) none
          (TreeNodeDataObject.mk (some ['A']) (some 1)
            (some (8106479329266893 / 9007199254740992)) none)),
        some (TreeNodeObject.mk (some 4) (some [0, 1])
          (TreeNodeDataObject.mk none (some (3602879701896397 / 36028797018963968))
            (some (4278419646001971 / 2251799813685248)) none)), 4) := by
    decide!
  rw [h] at hv0
  simp only [Except.map, Except.ok.injEq, Prod.mk.injEq] at hv0
  obtain ⟨e0, e2, er⟩ := hv0
  obtain ⟨p, po, hp, hn, b, q1, q2, q3, q4, q5, q6⟩ := hM 0 _ e0 (by rw [er]; decide)
  simp only [Option.some.injEq] at q1 q4 q5
  subst q1
  rw [e2] at q2
  simp only [Option.some.injEq] at q2
  subst q2
  simp only [Option.some.injEq] at q3
  subst q3; subst q4; subst q5
  norm_num at q6

end Biopy

namespace Biopy

/-! ## Heights that tell the nodes of a tree apart -/

theorem Forest.Ranked.length : ∀ (F : Forest) (top : ℚ) (hs : List ℚ), F.Ranked top hs →
    hs.length = F.tips - 1 := by
  intro F
  induction F with
  | nil => intro top hs h; simp only [Forest.Ranked] at h; subst h; rfl
  | cons l k r ihk ihr =>
    intro top hs h
    simp only [Forest.Ranked] at h
    obtain ⟨hk, hr, rfl, h1, h2⟩ := h
    have e2 := ihr top hr h2
    have hkt := Forest.treeTips_pos k
    have e1 : hk.length = k.treeTips - 1 := by
      by_cases hc : k.count = 0
      · rw [if_pos hc] at h1
        subst h1
        simp [Forest.treeTips, hc]
      · rw [if_neg hc] at h1
        obtain ⟨hv, _, h3⟩ := h1
        rw [ihk hv hk h3, Forest.treeTips_sub]
    rw [Forest.tips_cons]
    by_cases hrc : r.count = 0
    · have : r = Forest.nil := (Forest.count_eq_zero_iff r).mp hrc
      subst this
      simp only [Forest.count, if_true, List.append_nil, Forest.tips, Nat.add_zero]
      exact e1
    · have := Forest.tips_pos r hrc
      simp only [if_neg hrc, List.length_append, List.length_cons]
      omega

theorem Forest.Ranked.le : ∀ (F : Forest) (top : ℚ) (hs : List ℚ), F.Ranked top hs →
    ∀ x ∈ hs, x ≤ top := by
  intro F
  induction F with
  | nil => intro top hs h x hx; simp only [Forest.Ranked] at h; subst h; simp at hx
  | cons l k r ihk ihr =>
    intro top hs h x hx
    simp only [Forest.Ranked] at h
    obtain ⟨hk, hr, rfl, h1, h2⟩ := h
    rcases List.mem_append.mp hx with hx | hx
    · by_cases hc : k.count = 0
      · rw [if_pos hc] at h1
        subst h1
        simp at hx
      · rw [if_neg hc] at h1
        obtain ⟨hv, hlt, h3⟩ := h1
        exact le_trans (ihk hv hk h3 x hx) (le_of_lt hlt)
    · by_cases hrc : r.count = 0
      · rw [if_pos hrc] at hx
        simp at hx
      · rw [if_neg hrc] at hx
        rcases List.mem_cons.mp hx with rfl | hx
        · exact le_refl _
        · exact ihr top hr h2 x hx

theorem Forest.Ranked.lt_inner (l : Str) (k : Forest) (top : ℚ) (hs : List ℚ)
    (h : (Forest.cons l k Forest.nil).Ranked top hs) : ∀ x ∈ hs, x < top := by
  simp only [Forest.Ranked] at h
  obtain ⟨hk, hr, rfl, h1, _⟩ := h
  intro x hx
  simp only [Forest.count, if_true, List.append_nil] at hx
  by_cases hc : k.count = 0
  · rw [if_pos hc] at h1
    subst h1
    simp at hx
  · rw [if_neg hc] at h1
    obtain ⟨hv, hlt, h3⟩ := h1
    exact lt_of_le_of_lt (Forest.Ranked.le k hv hk h3 x hx) hlt

end Biopy

namespace Biopy

/-! ## The expansion of ranked heights -/

theorem XForest.append_nil : ∀ (X : XForest), X.append XForest.nil = X := by
  intro X
  induction X with
  | nil => rfl
  | cons t h a k r _ ihr => simp only [XForest.append, ihr]

end Biopy

namespace Biopy

end Biopy

namespace Biopy

/-! ## The two readings of a parsed vector -/

end Biopy

namespace Biopy

/-! ## The tree a stored tree expands to -/

end Biopy

namespace Biopy

end Biopy

namespace Biopy

/-! ## Rendering a tree with its branch lengths, twice -/

/-- C6: the set holds the tree added from `(((A:1,B:1):1,(C:1,D:1):1):1,E:4)`, stored with
the heights 2, 2, 3, 4 and the tip heights 1, 1, 1, 1, 0, and `to_newick` renders it
`(((A:1.0,B:1.0,C:1.0):1.0,D:2.0):1.0,E:4.0)`.  That string is added as a new tree: the
encoder raises the node over `A`, `B`, `C` by 1, adds the 1 only to the height between
`B` and `C`, and stores the heights 1, 2, 3, 4.  `to_newick` of the new tree is
`((((A:0.0,B:0.0):1.0,C:1.0):1.0,D:2.0):1.0,E:4.0)`, another string. -/
theorem rendering_with_lengths_not_idempotent :
    (TreesSet.add strtodDigits 12 (TreesSet.new false 4 false)
          "(((A:1,B:1):1,(C:1,D:1):1):1,E:4)".toList none).2 = AddResult.added 0
      ∧ (TreesSet.add strtodDigits 12 (TreesSet.new false 4 false)
          "(((A:1,B:1):1,(C:1,D:1):1):1,E:4)".toList none).1.trees.map
            (fun r => (r.topology, r.getHeights))
        = [([0, 1, 2, 3, 4], [2, 2, 3, 4], [1, 1, 1, 1, 0])]
      ∧ (TreesSet.add strtodDigits 12 (TreesSet.new false 4 false)
          "(((A:1,B:1):1,(C:1,D:1):1):1,E:4)".toList none).1.toNewick fmtWhole 12 0 none
            false true
        = Except.ok "(((A:1.0,B:1.0,C:1.0):1.0,D:2.0):1.0,E:4.0)".toList
      ∧ ((TreesSet.add strtodDigits 12 (TreesSet.new false 4 false)
          "(((A:1,B:1):1,(C:1,D:1):1):1,E:4)".toList none).1.add strtodDigits 12
            "(((A:1.0,B:1.0,C:1.0):1.0,D:2.0):1.0,E:4.0)".toList none).2 = AddResult.added 1
      ∧ ((TreesSet.add strtodDigits 12 (TreesSet.new false 4 false)
          "(((A:1,B:1):1,(C:1,D:1):1):1,E:4)".toList none).1.add strtodDigits 12
            "(((A:1.0,B:1.0,C:1.0):1.0,D:2.0):1.0,E:4.0)".toList none).1.trees.map
            (fun r => (r.topology, r.getHeights))
        = [([0, 1, 2, 3, 4], [2, 2, 3, 4], [1, 1, 1, 1, 0]),
           ([0, 1, 2, 3, 4], [1, 2, 3, 4], [1, 1, 1, 1, 0])]
      ∧ ((TreesSet.add strtodDigits 12 (TreesSet.new false 4 false)
          "(((A:1,B:1):1,(C:1,D:1):1):1,E:4)".toList none).1.add strtodDigits 12
            "(((A:1.0,B:1.0,C:1.0):1.0,D:2.0):1.0,E:4.0)".toList none).1.toNewick fmtWhole 12 1
            none false true
        = Except.ok "((((A:0.0,B:0.0):1.0,C:1.0):1.0,D:2.0):1.0,E:4.0)".toList :=
  ⟨by decide!, by decide!, by decide!, by decide!, by decide!, by decide!⟩

end Biopy
